import Mathlib

/-!
# Window tree of `src/window.c`

A shallow embedding of the window tree code of `window.c` (window creation,
deletion, splitting, resizing and traversal) and a verification development
about it.

## Embedding

* A `Lisp_Object` that holds a window is a handle `Win` (a natural number);
  a slot that may be `Qnil` is an `Option`.  The store of window objects is a
  total function `Win → Window`; `make_window` and `Fcopy_sequence` take the
  next unused handle (`State.nalloc`), which models allocation of a fresh
  object.
* The C code mutates windows in place; here every function passes the state
  explicitly.  A function that can signal a Lisp error returns the state as
  it is at the moment of the signal (the non-local exit undoes nothing).
* `XFASTINT`/`int` quantities are integers (`Int`) without overflow: screen
  coordinates are far below the range of a C `int`.  C division is
  `Int.tdiv`; a division by zero is a `fault`.
* Loops and recursion of the C code take a fuel argument; running out of
  fuel is the result `nofuel`, distinct from every result of the C code.
-/

set_option autoImplicit false

namespace WinTree

/-! ## Data model -/

/-- Handle of a window object. -/
abbrev Win := Nat
/-- Handle of a buffer object. -/
abbrev Buf := Nat
/-- Handle of a screen object. -/
abbrev Scr := Nat

/-- Contents of the `buffer` slot of a window: `Qnil` (a combination or a
deleted window), `Qt` (a window that is being set up), or a buffer. -/
inductive BufSlot where
  | nil
  | t
  | buf (b : Buf)
  deriving DecidableEq, Repr

/-- The `MINIBUF` argument of `next-window`: `nil`, `t`, or anything else. -/
inductive Mini where
  | nil
  | t
  | other
  deriving DecidableEq, Repr

/-- A marker value: the buffer it points into (if any) and its position. -/
structure Marker where
  buffer : Option Buf := none
  charpos : Int := 0
  deriving DecidableEq, Repr

/-- The fields of `struct window` that `window.c` reads and writes. -/
structure Window where
  sequence_number : Int := 0
  left : Int := 0
  top : Int := 0
  width : Int := 0
  height : Int := 0
  hscroll : Int := 0
  last_point_x : Int := 0
  last_point_y : Int := 0
  last_modified : Int := 0
  use_time : Int := 0
  start : Option Marker := none
  pointm : Option Marker := none
  start_at_line_beg : Bool := false
  force_start : Bool := false
  display_table : Option Nat := none
  dedicated : Bool := false
  mini_p : Bool := false
  screen : Option Scr := none
  parent : Option Win := none
  next : Option Win := none
  prev : Option Win := none
  hchild : Option Win := none
  vchild : Option Win := none
  buffer : BufSlot := BufSlot.nil
  temslot : Nat := 0
  deriving DecidableEq, Repr

/-- The fields of a screen that `window.c` uses. -/
structure Screen where
  root_window : Option Win := none
  minibuffer_window : Option Win := none
  selected_window : Option Win := none
  no_split : Bool := false
  width : Int := 0
  height : Int := 0
  deriving DecidableEq, Repr

/-- The fields of a buffer that `window.c` uses (`name_live` is false for a
killed buffer, whose name is `nil`). -/
structure Buffer where
  name_live : Bool := true
  pt : Int := 1
  begv : Int := 1
  zv : Int := 1
  last_window_start : Int := 1
  deriving DecidableEq, Repr

/-- Lisp errors signalled by the embedded functions. -/
inductive Err where
  | delete_minibuffer_or_sole
  | split_minibuffer
  | split_unsplittable
  | args_out_of_range
  | wrong_type_argument
  | deleted_buffer
  | window_deleted
  | window_dedicated
  | select_deleted
  | marker_nowhere
  | no_other_window_to_side
  | screen_size_mismatch
  deriving DecidableEq, Repr

/-- The global state: the object stores and the global variables of
`window.c` (and the few globals of other files it uses). -/
structure State where
  windows : Win → Window
  screens : Scr → Screen
  buffers : Buf → Buffer
  nalloc : Nat
  selected_window : Win
  selected_screen : Scr
  minibuf_window : Option Win := none
  global_minibuffer_screen : Option Scr := none
  current_buffer : Buf := 0
  minibuf_level : Int := 0
  window_min_height : Int := 4
  window_min_width : Int := 10
  windows_or_buffers_changed : Int := 0
  sequence_number : Int := 0
  window_select_count : Int := 0

/-- Result of a pure walk over the tree: a value, undefined behaviour of the
C code (`fault`: dereference of `nil`), or `nofuel`. -/
inductive Walk (α : Type) where
  | val (a : α)
  | fault
  | nofuel
  deriving DecidableEq, Repr

/-- Result of a state-changing function: a value and the new state, a Lisp
error with the state at the signal, undefined behaviour of the C code
(`fault`: dereference of `nil`, division by zero, `abort ()`), or `nofuel`. -/
inductive Res (α : Type) where
  | ok (a : α) (s : State)
  | signal (e : Err) (s : State)
  | fault
  | nofuel

/-- Functions of other files that `window.c` calls and whose source is not
part of this development; they are parameters of the embedding. -/
structure Ext where
  next_screen : Scr → Bool → Scr
  prev_screen : Scr → Bool → Scr
  Fselect_screen : State → Scr → State
  /-- `Fcdr (Fcar (Vbuffer_alist))`: the first buffer of the list of buffers. -/
  first_buffer : State → BufSlot := fun _ => BufSlot.nil
  /-- `SCREEN_IS_TERMCAP`. -/
  SCREEN_IS_TERMCAP : Scr → Bool := fun _ => true
  /-- `SCREEN_WANTS_MODELINE_P`. -/
  SCREEN_WANTS_MODELINE_P : Scr → Bool := fun _ => true
  /-- `Fvertical_motion (n)` of the display code: the position of point in
  the current buffer after a move by `n` screen lines. -/
  vertical_motion : State → Int → Int := fun s _ => (s.buffers s.current_buffer).pt
  /-- `Fbolp ()`: point is at the beginning of a line. -/
  bolp : State → Bool := fun _ => true

/-! ## Store access -/

/-- Store `w` at handle `x`. -/
def setw (s : State) (x : Win) (w : Window) : State :=
  { s with windows := fun y => if y = x then w else s.windows y }

/-- Store `b` at buffer handle `x`. -/
def setb (s : State) (x : Buf) (b : Buffer) : State :=
  { s with buffers := fun y => if y = x then b else s.buffers y }

/-- Store `c` at screen handle `x`. -/
def sets (s : State) (x : Scr) (c : Screen) : State :=
  { s with screens := fun y => if y = x then c else s.screens y }

/-- The C expression `x << 1` on a non-negative `int`. -/
def shl1 (x : Int) : Int := x * 2

/-- The value of a C `int` expression whose mathematical value is `x`: the low
32 bits of `x`, read in two's complement. -/
def wrap32 (x : Int) : Int := (x + 2147483648) % 4294967296 - 2147483648

/-- The C expression `x >> 1` on a non-negative `int`. -/
def shr1 (x : Int) : Int := x / 2

/-- The C expression `x & -2` (clear the lowest bit, two's complement). -/
def and_m2 (x : Int) : Int := x - x % 2

/-- `MINI_WINDOW_P (w)`. -/
def MINI_WINDOW_P (w : Window) : Bool := w.mini_p


/-- Sequencing of state-changing steps: run `f` on the value and state of a
normal result, pass every other result on. -/
def Res.andThen {α β : Type} (r : Res α) (f : α → State → Res β) : Res β :=
  match r with
  | Res.ok a s => f a s
  | Res.signal e s => Res.signal e s
  | Res.fault => Res.fault
  | Res.nofuel => Res.nofuel

/-- A pure walk used inside a state-changing function. -/
def Res.ofWalk {α : Type} (r : Walk α) (s : State) : Res α :=
  match r with
  | Walk.val a => Res.ok a s
  | Walk.fault => Res.fault
  | Walk.nofuel => Res.nofuel

/-! ## Collaborators outside `window.c`

The buffer and marker modules are not part of the source; the following
definitions model the few primitives the window code calls. -/

/-- Modelled from the spec: `Fmake_marker` of the marker module (absent from
the source), a new marker that points nowhere. -/
def Fmake_marker : Marker := { buffer := none, charpos := 0 }

/-- Modelled from the spec: `clip_to_bounds` (absent from the source). -/
def clip_to_bounds (lower num upper : Int) : Int :=
  if num < lower then lower else if num > upper then upper else num

/-- Modelled from the spec: `Fset_marker`/`set_marker_restricted` of the
marker module (absent from the source): make the marker in a window slot point
to `pos` in buffer `b`.  A slot that is `nil` is not a marker. -/
def set_marker (m : Option Marker) (pos : Int) (b : Buf) : Option Marker :=
  match m with
  | none => none
  | some _ => some { buffer := some b, charpos := pos }

/-- Modelled from the spec: `unchain_marker` of the marker module (absent
from the source): detach the marker from its buffer. -/
def unchain_marker (m : Option Marker) : Option Marker :=
  match m with
  | none => none
  | some k => some { k with buffer := none }

/-! ## Creation and buffer binding -/

/-- `make_window`: a fresh window object, every slot `nil` except the ones
the function initialises.  Returns the handle and the new state. -/
def make_window (s : State) : Win × State :=
  let n := s.nalloc
  let p : Window :=
    { sequence_number := s.sequence_number + 1,
      left := 0, top := 0, height := 0, width := 0, hscroll := 0,
      last_point_x := 0, last_point_y := 0,
      start := some Fmake_marker, pointm := some Fmake_marker,
      use_time := 0, screen := none, display_table := none, dedicated := false }
  (n, { setw s n p with nalloc := n + 1, sequence_number := s.sequence_number + 1 })

/-- `unshow_buffer (w)`: record in the buffer where window `w` displayed it. -/
def unshow_buffer (s : State) (w : Win) : Res Unit :=
  match (s.windows w).buffer, (s.windows w).pointm with
  | BufSlot.buf buf, some pm =>
    if pm.buffer ≠ some buf then Res.fault
    else
      let selbuf := (s.windows s.selected_window).buffer
      let r1 : Res Unit :=
        if w = s.selected_window ∨ BufSlot.buf buf ≠ selbuf then
          match (s.windows w).start with
          | none => Res.fault
          | some st =>
            if st.buffer = none then Res.signal Err.marker_nowhere s
            else Res.ok () (setb s buf { s.buffers buf with last_window_start := st.charpos })
        else Res.ok () s
      r1.andThen fun _ s1 =>
        if BufSlot.buf buf ≠ selbuf then
          Res.ok () (setb s1 buf { s1.buffers buf with
            pt := clip_to_bounds (s1.buffers buf).begv pm.charpos (s1.buffers buf).zv })
        else Res.ok () s1
  | _, _ => Res.fault

/-- `Fset_window_buffer (window, buffer)`. -/
def Fset_window_buffer (s : State) (window : Win) (buffer : BufSlot) : Res Unit :=
  match buffer with
  | BufSlot.buf b =>
    if (s.buffers b).name_live = false then Res.signal Err.deleted_buffer s
    else
      let tem := (s.windows window).buffer
      let r1 : Res Unit :=
        if tem = BufSlot.nil then Res.signal Err.window_deleted s
        else if tem ≠ BufSlot.t then
          if (s.windows window).dedicated = true ∧ tem ≠ buffer then
            Res.signal Err.window_dedicated s
          else unshow_buffer s window
        else Res.ok () s
      r1.andThen fun _ s1 =>
        let s2 := setw s1 window { s1.windows window with buffer := buffer }
        match (s2.windows window).pointm, (s2.windows window).start with
        | some _, some _ =>
          let s3 := setw s2 window { s2.windows window with
            pointm := set_marker (s2.windows window).pointm (s2.buffers b).pt b }
          let s4 := setw s3 window { s3.windows window with
            start := set_marker (s3.windows window).start (s3.buffers b).last_window_start b }
          let s5 := setw s4 window { s4.windows window with
            start_at_line_beg := false, last_modified := 0 }
          let s6 := { s5 with windows_or_buffers_changed := s5.windows_or_buffers_changed + 1 }
          Res.ok () (if window = s6.selected_window then { s6 with current_buffer := b } else s6)
        | _, _ => Res.signal Err.wrong_type_argument s2
  | _ => Res.signal Err.wrong_type_argument s

/-! ## Traversal -/

/-- The climbing loop of `Fnext_window`: find a window that has a next one;
at a window without next and parent, take the root of the (next) screen. -/
def next_climb (E : Ext) (s : State) (mini : Mini) (all_screens : Bool) :
    Nat → Win → Walk Win
  | 0, _ => Walk.nofuel
  | fuel + 1, window =>
    match (s.windows window).next with
    | some tem => Walk.val tem
    | none =>
      match (s.windows window).parent with
      | some tem => next_climb E s mini all_screens fuel tem
      | none =>
        match (s.windows window).screen with
        | none => Walk.fault
        | some scr =>
          let scr1 := if all_screens then E.next_screen scr (decide (mini ≠ Mini.nil)) else scr
          match (s.screens scr1).root_window with
          | none => Walk.fault
          | some tem => Walk.val tem

/-- The descending loop of `Fnext_window`: first child until a leaf. -/
def first_leaf (s : State) : Nat → Win → Walk Win
  | 0, _ => Walk.nofuel
  | fuel + 1, window =>
    match (s.windows window).hchild with
    | some c => first_leaf s fuel c
    | none =>
      match (s.windows window).vchild with
      | some c => first_leaf s fuel c
      | none => Walk.val window

/-- The `do ... while` loop of `Fnext_window`. -/
def next_window_loop (E : Ext) (s : State) (mini : Mini) (all_screens : Bool) :
    Nat → Win → Walk Win
  | 0, _ => Walk.nofuel
  | fuel + 1, window =>
    match next_climb E s mini all_screens fuel window with
    | Walk.fault => Walk.fault
    | Walk.nofuel => Walk.nofuel
    | Walk.val tem =>
      match first_leaf s fuel tem with
      | Walk.fault => Walk.fault
      | Walk.nofuel => Walk.nofuel
      | Walk.val w1 =>
        if MINI_WINDOW_P (s.windows w1) = true ∧ mini ≠ Mini.t
            ∧ (mini ≠ Mini.nil ∨ s.minibuf_level = 0) then
          match (s.windows w1).screen with
          | none => Walk.fault
          | some scr =>
            if (s.screens scr).root_window ≠ (s.screens scr).minibuffer_window then
              next_window_loop E s mini all_screens fuel w1
            else Walk.val w1
        else Walk.val w1

/-- `Fnext_window (window, mini, all_screens)`. -/
def Fnext_window (E : Ext) (fuel : Nat) (s : State) (window : Option Win) (mini : Mini)
    (all_screens : Bool) : Walk Win :=
  let window := window.getD s.selected_window
  let all_screens :=
    if (mini = Mini.t ∨ (mini ≠ Mini.nil ∧ s.minibuf_level ≠ 0))
        ∧ s.global_minibuffer_screen.isSome = true then true
    else all_screens
  next_window_loop E s mini all_screens fuel window

/-- The climbing loop of `Fprevious_window`. -/
def prev_climb (E : Ext) (s : State) (mini : Mini) (all_screens : Bool) :
    Nat → Win → Walk Win
  | 0, _ => Walk.nofuel
  | fuel + 1, window =>
    match (s.windows window).prev with
    | some tem => Walk.val tem
    | none =>
      match (s.windows window).parent with
      | some tem => prev_climb E s mini all_screens fuel tem
      | none =>
        match (s.windows window).screen with
        | none => Walk.fault
        | some scr =>
          let scr1 := if all_screens then E.prev_screen scr (decide (mini ≠ Mini.nil)) else scr
          match (s.screens scr1).root_window with
          | none => Walk.fault
          | some tem => Walk.val tem

/-- The inner loop of the descent of `Fprevious_window`: follow `next` to the
last sibling. -/
def last_sibling (s : State) : Nat → Win → Walk Win
  | 0, _ => Walk.nofuel
  | fuel + 1, window =>
    match (s.windows window).next with
    | some tem => last_sibling s fuel tem
    | none => Walk.val window

/-- The descending loop of `Fprevious_window`: last child until a leaf. -/
def last_leaf (s : State) : Nat → Win → Walk Win
  | 0, _ => Walk.nofuel
  | fuel + 1, window =>
    match (s.windows window).hchild with
    | some c =>
      match last_sibling s fuel c with
      | Walk.fault => Walk.fault
      | Walk.nofuel => Walk.nofuel
      | Walk.val l => last_leaf s fuel l
    | none =>
      match (s.windows window).vchild with
      | some c =>
        match last_sibling s fuel c with
        | Walk.fault => Walk.fault
        | Walk.nofuel => Walk.nofuel
        | Walk.val l => last_leaf s fuel l
      | none => Walk.val window

/-- The `do ... while` loop of `Fprevious_window`. -/
def previous_window_loop (E : Ext) (s : State) (mini : Mini) (all_screens : Bool) :
    Nat → Win → Walk Win
  | 0, _ => Walk.nofuel
  | fuel + 1, window =>
    match prev_climb E s mini all_screens fuel window with
    | Walk.fault => Walk.fault
    | Walk.nofuel => Walk.nofuel
    | Walk.val tem =>
      match last_leaf s fuel tem with
      | Walk.fault => Walk.fault
      | Walk.nofuel => Walk.nofuel
      | Walk.val w1 =>
        if MINI_WINDOW_P (s.windows w1) = true ∧ mini ≠ Mini.t
            ∧ (mini ≠ Mini.nil ∨ s.minibuf_level = 0) then
          match (s.windows w1).screen with
          | none => Walk.fault
          | some scr =>
            if (s.screens scr).root_window ≠ (s.screens scr).minibuffer_window then
              previous_window_loop E s mini all_screens fuel w1
            else Walk.val w1
        else Walk.val w1

/-- `Fprevious_window (window, mini, all_screens)`. -/
def Fprevious_window (E : Ext) (fuel : Nat) (s : State) (window : Option Win) (mini : Mini)
    (all_screens : Bool) : Walk Win :=
  let window := window.getD s.selected_window
  let all_screens :=
    if (mini = Mini.t ∨ (mini ≠ Mini.nil ∧ s.minibuf_level ≠ 0))
        ∧ s.global_minibuffer_screen.isSome = true then true
    else all_screens
  previous_window_loop E s mini all_screens fuel window

/-! ## Selection -/

/-- First step of `Fselect_window`: count the selection and stamp the
window with the count. -/
def select_stamp (s : State) (window : Win) : State :=
  setw { s with window_select_count := s.window_select_count + 1 } window
    { s.windows window with use_time := s.window_select_count + 1 }

/-- Second step of `Fselect_window`: record the point of buffer `ob` in the
window `ow` that was selected, and make `window` the selected window. -/
def select_switch (s1 : State) (ow : Win) (ob : Buf) (window : Win) : State :=
  let s2 := setw s1 ow { s1.windows ow with
    pointm := set_marker (s1.windows ow).pointm (s1.buffers ob).pt ob }
  { s2 with selected_window := window }

/-- Third step of `Fselect_window`: make `window` the selected window of its
screen `wscr`, through `Fselect_screen` if that is another screen than the
selected one (and `window` is not the minibuffer window of the selected
screen). -/
def select_on_screen (E : Ext) (s3 : State) (window : Win) (wscr : Scr) : State :=
  if wscr ≠ s3.selected_screen
      ∧ (s3.screens s3.selected_screen).minibuffer_window ≠ some window then
    E.Fselect_screen
      (sets s3 wscr { s3.screens wscr with selected_window := some window }) wscr
  else
    sets s3 s3.selected_screen
      { s3.screens s3.selected_screen with selected_window := some window }

/-- Last step of `Fselect_window`: make the buffer `b` of the window current
and move its point to `new_point`, the position of the `pointm` marker. -/
def select_point (s4 : State) (b : Buf) (new_point : Int) : State :=
  let s5 := { s4 with current_buffer := b }
  let s6 :=
    if new_point < (s5.buffers b).begv then
      setb s5 b { s5.buffers b with pt := (s5.buffers b).begv }
    else s5
  let s7 :=
    if new_point > (s6.buffers b).zv then
      setb s6 b { s6.buffers b with pt := (s6.buffers b).zv }
    else setb s6 b { s6.buffers b with pt := new_point }
  { s7 with windows_or_buffers_changed := s7.windows_or_buffers_changed + 1 }

/-- `Fselect_window (window)`, step by step: `select_stamp`,
`select_switch`, `select_on_screen`, `select_point`.  `record_buffer` and the
rehighlight hook act on nothing this state holds; `Fset_buffer` makes the
buffer current. -/
def Fselect_window (E : Ext) (s : State) (window : Win) : Res Win :=
  let ow := s.selected_window
  if (s.windows window).buffer = BufSlot.nil then Res.signal Err.select_deleted s
  else
    let s1 := select_stamp s window
    if window = s1.selected_window then Res.ok window s1
    else
      match (s1.windows ow).buffer, (s1.windows ow).pointm with
      | BufSlot.buf ob, some _ =>
        let s3 := select_switch s1 ow ob window
        match (s3.windows window).screen with
        | none => Res.fault
        | some wscr =>
          let s4 := select_on_screen E s3 window wscr
          match (s4.windows window).buffer, (s4.windows window).pointm with
          | BufSlot.buf b, some pm =>
            if (s4.buffers b).name_live = false then Res.signal Err.deleted_buffer s4
            else if pm.buffer = none then
              Res.signal Err.marker_nowhere { s4 with current_buffer := b }
            else Res.ok window (select_point s4 b pm.charpos)
          | BufSlot.buf _, none => Res.fault
          | _, _ => Res.signal Err.wrong_type_argument s4
      | BufSlot.buf _, none => Res.signal Err.wrong_type_argument s1
      | _, _ => Res.fault

/-! ## Tree mutation primitives -/

/-- `replace_window (old, replacement)`: put `replacement` into the window
structure in place of `old`. -/
def replace_window (s : State) (old replacement : Win) : Res Unit :=
  match (s.windows old).screen with
  | none => Res.fault
  | some scr =>
    let s1 :=
      if (s.screens scr).root_window = some old then
        sets s scr { s.screens scr with root_window := some replacement }
      else s
    let s2 := setw s1 replacement { s1.windows replacement with
      left := (s1.windows old).left, top := (s1.windows old).top,
      width := (s1.windows old).width, height := (s1.windows old).height }
    let s3 := setw s2 replacement { s2.windows replacement with next := (s2.windows old).next }
    let s4 :=
      match (s3.windows old).next with
      | some tem => setw s3 tem { s3.windows tem with prev := some replacement }
      | none => s3
    let s5 := setw s4 replacement { s4.windows replacement with prev := (s4.windows old).prev }
    let s6 :=
      match (s5.windows old).prev with
      | some tem => setw s5 tem { s5.windows tem with next := some replacement }
      | none => s5
    let s7 := setw s6 replacement { s6.windows replacement with
      parent := (s6.windows old).parent }
    match (s7.windows old).parent with
    | some tem =>
      let s8 :=
        if (s7.windows tem).vchild = some old then
          setw s7 tem { s7.windows tem with vchild := some replacement }
        else s7
      let s9 :=
        if (s8.windows tem).hchild = some old then
          setw s8 tem { s8.windows tem with hchild := some replacement }
        else s8
      Res.ok () s9
    | none => Res.ok () s7

/-- `make_dummy_parent (window)`: a copy of `window` (a fresh object) takes
its place in the tree and becomes its parent. -/
def make_dummy_parent (s : State) (window : Win) : Res Unit :=
  let new := s.nalloc
  let s1 := { setw s new (s.windows window) with nalloc := new + 1 }
  let s2 := { setw s1 new { s1.windows new with sequence_number := s1.sequence_number + 1 }
              with sequence_number := s1.sequence_number + 1 }
  (replace_window s2 window new).andThen fun _ s3 =>
    let s4 := setw s3 window { s3.windows window with
      next := none, prev := none, vchild := none, hchild := none, parent := some new }
    let s5 := setw s4 new { s4.windows new with
      start := none, pointm := none, buffer := BufSlot.nil }
    Res.ok () s5

/-! ## Split -/

/-- The second half of `Fsplit_window`, from the creation of the new window
on: link it after `window`, show the same buffer, apportion the space. -/
def split_finish (s : State) (window : Win) (size : Int) (horflag : Bool) : Res Win :=
  let s1 := { s with windows_or_buffers_changed := s.windows_or_buffers_changed + 1 }
  let (new, s2) := make_window s1
  let s3 := setw s2 new { s2.windows new with screen := (s2.windows window).screen }
  let s4 := setw s3 new { s3.windows new with next := (s3.windows window).next }
  let s5 :=
    match (s4.windows new).next with
    | some n => setw s4 n { s4.windows n with prev := some new }
    | none => s4
  let s6 := setw s5 new { s5.windows new with prev := some window }
  let s7 := setw s6 window { s6.windows window with next := some new }
  let s8 := setw s7 new { s7.windows new with parent := (s7.windows window).parent }
  let s9 := setw s8 new { s8.windows new with buffer := BufSlot.t }
  (Fset_window_buffer s9 new (s9.windows window).buffer).andThen fun _ t0 =>
    if horflag then
      let t1 := setw t0 new { t0.windows new with
        height := (t0.windows window).height, top := (t0.windows window).top }
      let t2 := setw t1 new { t1.windows new with width := (t1.windows window).width - size }
      let t3 := setw t2 window { t2.windows window with width := size }
      let t4 := setw t3 new { t3.windows new with left := (t3.windows window).left + size }
      Res.ok new t4
    else
      let t1 := setw t0 new { t0.windows new with
        left := (t0.windows window).left, width := (t0.windows window).width }
      let t2 := setw t1 new { t1.windows new with height := (t1.windows window).height - size }
      let t3 := setw t2 window { t2.windows window with height := size }
      let t4 := setw t3 new { t3.windows new with top := (t3.windows window).top + size }
      Res.ok new t4

/-- The size `Fsplit_window` gives the first window of the pair: `chsize`,
or half of the width (odd widths rounded up) or of the height. -/
def split_size (s : State) (w : Win) (chsize : Option Int) (hor : Bool) : Int :=
  match chsize with
  | none => if hor then shr1 (and_m2 ((s.windows w).width + 1)) else shr1 (s.windows w).height
  | some n => n

/-- The state after `Fsplit_window` has raised `window_min_width` and
`window_min_height` to at least 2. -/
def clamp_min (s : State) : State :=
  let s1 := if s.window_min_width < 2 then { s with window_min_width := 2 } else s
  if s1.window_min_height < 2 then { s1 with window_min_height := 2 } else s1

/-- The size check of `Fsplit_window`, made after the clamping. -/
def split_size_bad (s : State) (w : Win) (size : Int) (hor : Bool) : Prop :=
  if hor then size < (clamp_min s).window_min_width
      ∨ size + (clamp_min s).window_min_width > (s.windows w).width
  else size < (clamp_min s).window_min_height
      ∨ size + (clamp_min s).window_min_height > (s.windows w).height

instance split_size_bad.dec (s : State) (w : Win) (size : Int) (hor : Bool) :
    Decidable (split_size_bad s w size hor) := by
  unfold split_size_bad; split <;> infer_instance

/-- Whether `Fsplit_window` has to interpose a dummy parent: the window has
no parent, or its parent is not a combination of the wanted orientation. -/
def needs_parent (s : State) (w : Win) (hor : Bool) : Bool :=
  match (s.windows w).parent with
  | none => true
  | some par =>
    if hor then decide ((s.windows par).hchild = none)
    else decide ((s.windows par).vchild = none)

/-- `Fsplit_window (window, chsize, horflag)`. -/
def Fsplit_window (s : State) (window : Option Win) (chsize : Option Int) (horflag : Bool) :
    Res Win :=
  let window := window.getD s.selected_window
  let size := split_size s window chsize horflag
  if MINI_WINDOW_P (s.windows window) = true then Res.signal Err.split_minibuffer s
  else
    match (s.windows window).screen with
    | none => Res.fault
    | some scr =>
      if (s.screens scr).no_split = true then Res.signal Err.split_unsplittable s
      else
        let s2 := clamp_min s
        if split_size_bad s window size horflag then Res.signal Err.args_out_of_range s2
        else if needs_parent s2 window horflag = true then
          (make_dummy_parent s2 window).andThen fun _ s3 =>
            match (s3.windows window).parent with
            | none => Res.fault
            | some new =>
              split_finish
                (setw s3 new (if horflag then { s3.windows new with hchild := some window }
                  else { s3.windows new with vchild := some window }))
                window size horflag
        else split_finish s2 window size horflag

/-! ## The phases of `Fdelete_window` -/

/-- The first phase of `Fdelete_window` on `window`: select another window if
`window` is selected, record the position in the buffer, release the markers
and clear the `buffer` slot. -/
def delete_begin (E : Ext) (fuel : Nat) (s : State) (window : Win) : Res Unit :=
  let s1 := { s with windows_or_buffers_changed := s.windows_or_buffers_changed + 1 }
  let r2 : Res Unit :=
    if window = s1.selected_window then
      (Res.ofWalk (Fnext_window E fuel s1 (some window) Mini.nil false) s1).andThen
        fun nw s => (Fselect_window E s nw).andThen fun _ s => Res.ok () s
    else Res.ok () s1
  r2.andThen fun _ s2 =>
  if (s2.windows window).buffer ≠ BufSlot.nil then
    (unshow_buffer s2 window).andThen fun _ s =>
      match (s.windows window).pointm, (s.windows window).start with
      | some _, some _ =>
        let sa := setw s window { s.windows window with
          pointm := unchain_marker (s.windows window).pointm }
        let sb := setw sa window { sa.windows window with
          start := unchain_marker (sa.windows window).start }
        Res.ok () (setw sb window { sb.windows window with buffer := BufSlot.nil })
      | _, _ => Res.fault
  else Res.ok () s2

/-- The second phase of `Fdelete_window`: take `window` out of the chain of
its siblings and, if it is the first child, out of the child slot of
`parent`. -/
def delete_unlink (s3 : State) (window parent : Win) : State :=
  let s4 :=
    match (s3.windows window).next with
    | some tem => setw s3 tem { s3.windows tem with prev := (s3.windows window).prev }
    | none => s3
  let s5 :=
    match (s4.windows window).prev with
    | some tem => setw s4 tem { s4.windows tem with next := (s4.windows window).next }
    | none => s4
  let s6 :=
    if some window = (s5.windows parent).hchild then
      setw s5 parent { s5.windows parent with hchild := (s5.windows window).next }
    else s5
  if some window = (s6.windows parent).vchild then
    setw s6 parent { s6.windows parent with vchild := (s6.windows window).next }
  else s6

/-- The third phase of `Fdelete_window`: the sibling that gets the space of
`window`, the previous one or else the next one, which moves to the origin of
`window`. -/
def delete_sibling (s7 : State) (window : Win) : Res Win :=
  match (s7.windows window).prev with
  | some sib => Res.ok sib s7
  | none =>
    match (s7.windows window).next with
    | none => Res.fault
    | some sib =>
      let sa := setw s7 sib { s7.windows sib with top := (s7.windows window).top }
      Res.ok sib (setw sa sib { sa.windows sib with left := (sa.windows window).left })

/-- The last phase of `Fdelete_window`: a parent that is left with one child
is replaced by that child. -/
def delete_collapse (s10 : State) (parent : Win) : Res Unit :=
  let tem :=
    match (s10.windows parent).hchild with
    | some c => some c
    | none => (s10.windows parent).vchild
  match tem with
  | none => Res.fault
  | some c =>
    if (s10.windows c).next = none then replace_window s10 parent c
    else Res.ok () s10

/-! ## Delete and the resize engine

`set_window_height`, `set_window_width` and `Fdelete_window` call each other;
they are defined together by recursion on the fuel. -/

mutual

/-- `set_window_height (window, height, nodelete)`. -/
def set_window_height (E : Ext) : Nat → State → Win → Int → Bool → Res Unit
  | 0, _, _, _, _ => Res.nofuel
  | fuel + 1, s, window, height, nodelete =>
    let oheight := (s.windows window).height
    if nodelete = false ∧ (s.windows window).parent ≠ none ∧ height < s.window_min_height then
      Fdelete_window E fuel s (some window)
    else
      let s1 := setw s window { s.windows window with last_modified := 0 }
      let s2 := { s1 with windows_or_buffers_changed := s1.windows_or_buffers_changed + 1 }
      let s3 := setw s2 window { s2.windows window with height := height }
      match (s3.windows window).hchild with
      | some c => set_height_hloop E fuel s3 window (some c) height nodelete
      | none =>
        match (s3.windows window).vchild with
        | some c =>
          let top := (s3.windows window).top
          (set_height_vloop E fuel s3 (some c) height oheight top top 0).andThen fun _ s4 =>
            if nodelete = false then set_height_dloop E fuel s4 (s4.windows window).vchild
            else Res.ok () s4
        | none => Res.ok () s3
termination_by structural fuel => fuel

/-- The loop of `set_window_height` over the children of a horizontal
combination `window`, from `child` on. -/
def set_height_hloop (E : Ext) : Nat → State → Win → Option Win → Int → Bool → Res Unit
  | 0, _, _, _, _, _ => Res.nofuel
  | _ + 1, s, _, none, _, _ => Res.ok () s
  | fuel + 1, s, window, some child, height, nodelete =>
    let s1 := setw s child { s.windows child with top := (s.windows window).top }
    (set_window_height E fuel s1 child height nodelete).andThen fun _ s2 =>
      set_height_hloop E fuel s2 window (s2.windows child).next height nodelete
termination_by structural fuel => fuel

/-- The first loop of `set_window_height` over the children of a vertical
combination, from `child` on, with the loop variables `lastbot`, `lastobot`.
The expression for `pos` is evaluated on `int`s, operation by operation
(`wrap32`).  Its divisor `oheight << 1` is 0 for the old height 0, where the
division is undefined; among the `int`s that are not negative, as the heights
that `XFASTINT` reads are, 0 is the only one whose double wraps to 0. -/
def set_height_vloop (E : Ext) :
    Nat → State → Option Win → Int → Int → Int → Int → Int → Res Unit
  | 0, _, _, _, _, _, _, _ => Res.nofuel
  | _ + 1, s, none, _, _, _, _, _ => Res.ok () s
  | fuel + 1, s, some child, height, oheight, top, lastbot, lastobot =>
    let opos := lastobot + (s.windows child).height
    let s1 := setw s child { s.windows child with top := lastbot }
    if shl1 oheight = 0 then Res.fault
    else
      let pos := Int.tdiv (wrap32 (wrap32 (shl1 (wrap32 (opos * height))) + oheight))
        (wrap32 (shl1 oheight))
      (set_window_height E fuel s1 child (pos + top - lastbot) true).andThen fun _ s2 =>
        set_height_vloop E fuel s2 (s2.windows child).next height oheight top (pos + top) opos
termination_by structural fuel => fuel

/-- The second loop of `set_window_height` over the children of a vertical
combination: delete the children that became too small. -/
def set_height_dloop (E : Ext) : Nat → State → Option Win → Res Unit
  | 0, _, _ => Res.nofuel
  | _ + 1, s, none => Res.ok () s
  | fuel + 1, s, some child =>
    (set_window_height E fuel s child (s.windows child).height false).andThen fun _ s2 =>
      set_height_dloop E fuel s2 (s2.windows child).next
termination_by structural fuel => fuel

/-- `set_window_width (window, width, nodelete)`. -/
def set_window_width (E : Ext) : Nat → State → Win → Int → Bool → Res Unit
  | 0, _, _, _, _ => Res.nofuel
  | fuel + 1, s, window, width, nodelete =>
    let owidth := (s.windows window).width
    if nodelete = false ∧ width < s.window_min_width then
      Fdelete_window E fuel s (some window)
    else
      let s1 := setw s window { s.windows window with last_modified := 0 }
      let s2 := { s1 with windows_or_buffers_changed := s1.windows_or_buffers_changed + 1 }
      let s3 := setw s2 window { s2.windows window with width := width }
      match (s3.windows window).vchild with
      | some c => set_width_vloop E fuel s3 window (some c) width nodelete
      | none =>
        match (s3.windows window).hchild with
        | some c =>
          let left := (s3.windows window).left
          (set_width_hloop E fuel s3 (some c) width owidth left left 0).andThen fun _ s4 =>
            if nodelete = false then set_width_dloop E fuel s4 (s4.windows window).hchild
            else Res.ok () s4
        | none => Res.ok () s3
termination_by structural fuel => fuel

/-- The loop of `set_window_width` over the children of a vertical
combination `window`, from `child` on. -/
def set_width_vloop (E : Ext) : Nat → State → Win → Option Win → Int → Bool → Res Unit
  | 0, _, _, _, _, _ => Res.nofuel
  | _ + 1, s, _, none, _, _ => Res.ok () s
  | fuel + 1, s, window, some child, width, nodelete =>
    let s1 := setw s child { s.windows child with left := (s.windows window).left }
    (set_window_width E fuel s1 child width nodelete).andThen fun _ s2 =>
      set_width_vloop E fuel s2 window (s2.windows child).next width nodelete
termination_by structural fuel => fuel

/-- The first loop of `set_window_width` over the children of a horizontal
combination, from `child` on, with the loop variables `lastright`,
`lastoright`.  The expression for `pos` is evaluated on `int`s, operation by
operation (`wrap32`).  Its divisor `owidth << 1` is 0 for the old width 0,
where the division is undefined; among the `int`s that are not negative, as
the widths that `XFASTINT` reads are, 0 is the only one whose double wraps to
0. -/
def set_width_hloop (E : Ext) :
    Nat → State → Option Win → Int → Int → Int → Int → Int → Res Unit
  | 0, _, _, _, _, _, _, _ => Res.nofuel
  | _ + 1, s, none, _, _, _, _, _ => Res.ok () s
  | fuel + 1, s, some child, width, owidth, left, lastright, lastoright =>
    let opos := lastoright + (s.windows child).width
    let s1 := setw s child { s.windows child with left := lastright }
    if shl1 owidth = 0 then Res.fault
    else
      let pos := Int.tdiv (wrap32 (wrap32 (shl1 (wrap32 (opos * width))) + owidth))
        (wrap32 (shl1 owidth))
      (set_window_width E fuel s1 child (pos + left - lastright) true).andThen fun _ s2 =>
        set_width_hloop E fuel s2 (s2.windows child).next width owidth left (pos + left) opos
termination_by structural fuel => fuel

/-- The second loop of `set_window_width` over the children of a horizontal
combination: delete the children that became too small. -/
def set_width_dloop (E : Ext) : Nat → State → Option Win → Res Unit
  | 0, _, _ => Res.nofuel
  | _ + 1, s, none => Res.ok () s
  | fuel + 1, s, some child =>
    (set_window_width E fuel s child (s.windows child).width false).andThen fun _ s2 =>
      set_width_dloop E fuel s2 (s2.windows child).next
termination_by structural fuel => fuel

/-- `Fdelete_window (window)`, phase by phase: `delete_begin`,
`delete_unlink`, `delete_sibling`, the resize of the sibling, and
`delete_collapse`. -/
def Fdelete_window (E : Ext) : Nat → State → Option Win → Res Unit
  | 0, _, _ => Res.nofuel
  | fuel + 1, s, window =>
    let window := window.getD s.selected_window
    match (s.windows window).parent with
    | none => Res.signal Err.delete_minibuffer_or_sole s
    | some parent =>
      (delete_begin E fuel s window).andThen fun _ s3 =>
      (delete_sibling (delete_unlink s3 window parent) window).andThen fun sib s8 =>
      (if (s8.windows parent).vchild ≠ none then
          set_window_height E fuel s8 sib
            ((s8.windows sib).height + (s8.windows window).height) true
        else Res.ok () s8).andThen fun _ s9 =>
      (if (s9.windows parent).hchild ≠ none then
          set_window_width E fuel s9 sib
            ((s9.windows sib).width + (s9.windows window).width) true
        else Res.ok () s9).andThen fun _ s10 =>
      delete_collapse s10 parent
termination_by structural fuel => fuel


end

/-! ## Enlarging and shrinking the selected window -/

/-- The macro `CURSIZE (w)`: the width or the height of a window. -/
def CURSIZE (widthflag : Bool) (w : Window) : Int :=
  if widthflag then w.width else w.height

/-- The macro `CURBEG (w)`: the left or the top of a window. -/
def CURBEG (widthflag : Bool) (w : Window) : Int :=
  if widthflag then w.left else w.top

/-- The macro `MINSIZE (w)`: `window_min_width` or `window_min_height`. -/
def MINSIZE (s : State) (widthflag : Bool) : Int :=
  if widthflag then s.window_min_width else s.window_min_height

/-- Assignment to `CURBEG (w)`. -/
def set_CURBEG (widthflag : Bool) (s : State) (w : Win) (v : Int) : State :=
  if widthflag then setw s w { s.windows w with left := v }
  else setw s w { s.windows w with top := v }

/-- Assignment to `CURSIZE (w)`. -/
def set_CURSIZE (widthflag : Bool) (s : State) (w : Win) (v : Int) : State :=
  if widthflag then setw s w { s.windows w with width := v }
  else setw s w { s.windows w with height := v }

/-- The function pointer `setsizefun` of `change_window_height`:
`set_window_width` or `set_window_height`. -/
def setsizefun (E : Ext) (fuel : Nat) (widthflag : Bool) (s : State) (w : Win) (v : Int)
    (nodelete : Bool) : Res Unit :=
  if widthflag then set_window_width E fuel s w v nodelete
  else set_window_height E fuel s w v nodelete

/-- The `while (1)` loop of `change_window_height`: climb from `window` to
the first window whose parent is a combination of the wanted orientation.
The result is the final value of `window` and of `parent`. -/
def change_climb (s : State) (widthflag : Bool) : Nat → Win → Res (Win × Option Win)
  | 0, _ => Res.nofuel
  | fuel + 1, window =>
    match (s.windows window).parent with
    | none =>
      if widthflag then Res.signal Err.no_other_window_to_side s
      else Res.ok (window, none) s
    | some parent =>
      if (if widthflag then (s.windows parent).hchild ≠ none
          else (s.windows parent).vchild ≠ none) then Res.ok (window, some parent) s
      else change_climb s widthflag fuel parent

/-- The last statement of `change_window_height`. -/
def change_finish (s : State) (p : Win) : Res Unit :=
  Res.ok () (setw s p { s.windows p with last_modified := 0 })

/-- The third way of `change_window_height`: enlarge the window and the
parent by `delta1`, then shrink the parent back to its size. -/
def change_inflate (E : Ext) (fuel : Nat) (widthflag : Bool) (s1 : State) (window : Win)
    (parent : Option Win) (delta : Int) : Res Unit :=
  match parent with
  | none => Res.fault
  | some par =>
    let opht := CURSIZE widthflag (s1.windows par)
    let sz := CURSIZE widthflag (s1.windows window)
    let delta1 :=
      if opht ≤ sz + delta then opht * opht * 2
      else Int.tdiv (delta * opht * 100) ((opht - sz - delta) * 100)
    let s2 := set_CURSIZE widthflag s1 par (opht + delta1)
    (setsizefun E fuel widthflag s2 window
        (CURSIZE widthflag (s2.windows window) + delta1) false).andThen fun _ s3 =>
    (setsizefun E fuel widthflag s3 par opht false).andThen fun _ s4 =>
    change_finish s4 window

/-- The second way of `change_window_height`: take `delta` from the previous
sibling, if it can spare it. -/
def change_steal_prev (E : Ext) (fuel : Nat) (widthflag : Bool) (s1 : State) (window : Win)
    (parent : Option Win) (delta : Int) : Res Unit :=
  match (s1.windows window).prev with
  | none => change_inflate E fuel widthflag s1 window parent delta
  | some pv =>
    if CURSIZE widthflag (s1.windows pv) - delta ≥ MINSIZE s1 widthflag then
      (setsizefun E fuel widthflag s1 pv
          (CURSIZE widthflag (s1.windows pv) - delta) false).andThen fun _ s2 =>
      let s3 := set_CURBEG widthflag s2 window (CURBEG widthflag (s2.windows window) - delta)
      (setsizefun E fuel widthflag s3 window
          (CURSIZE widthflag (s3.windows window) + delta) false).andThen fun _ s4 =>
      change_finish s4 window
    else change_inflate E fuel widthflag s1 window parent delta

/-- The first way of `change_window_height`: take `delta` from the next
sibling, if it can spare it. -/
def change_steal_next (E : Ext) (fuel : Nat) (widthflag : Bool) (s1 : State) (window : Win)
    (parent : Option Win) (delta : Int) : Res Unit :=
  match (s1.windows window).next with
  | none => change_steal_prev E fuel widthflag s1 window parent delta
  | some nx =>
    if CURSIZE widthflag (s1.windows nx) - delta ≥ MINSIZE s1 widthflag then
      (setsizefun E fuel widthflag s1 nx
          (CURSIZE widthflag (s1.windows nx) - delta) false).andThen fun _ s2 =>
      (setsizefun E fuel widthflag s2 window
          (CURSIZE widthflag (s2.windows window) + delta) false).andThen fun _ s3 =>
      match (s3.windows window).next with
      | none => Res.fault
      | some nx3 =>
        let s4 := set_CURBEG widthflag s3 nx3 (CURBEG widthflag (s3.windows nx3) + delta)
        match (s4.windows window).next with
        | none => Res.fault
        | some nx4 =>
          (setsizefun E fuel widthflag s4 nx4
              (CURSIZE widthflag (s4.windows nx4)) false).andThen fun _ s5 =>
          change_finish s5 window
    else change_steal_prev E fuel widthflag s1 window parent delta

/-- The bound `maxdelta` of `change_window_height`: what the parent has
beyond the window, or, for a window without parent, what its next (or else
previous) window has beyond the minimum. -/
def change_maxdelta (s1 : State) (widthflag : Bool) (window : Win) (parent : Option Win) :
    Option Int :=
  match parent with
  | some par =>
    some (CURSIZE widthflag (s1.windows par) - CURSIZE widthflag (s1.windows window))
  | none =>
    match (match (s1.windows window).next with
      | some n => some n
      | none => (s1.windows window).prev) with
    | some tem => some (CURSIZE widthflag (s1.windows tem) - MINSIZE s1 widthflag)
    | none => none

/-- `change_window_height (delta, widthflag)`. -/
def change_window_height (E : Ext) (fuel : Nat) (s : State) (delta : Int) (widthflag : Bool) :
    Res Unit :=
  let s0 := clamp_min s
  (change_climb s0 widthflag fuel s0.selected_window).andThen fun wp s1 =>
    let window := wp.1
    let parent := wp.2
    if CURSIZE widthflag (s1.windows window) + delta < MINSIZE s1 widthflag
        ∧ (s1.windows window).parent ≠ none then
      Fdelete_window E fuel s1 (some window)
    else
      match change_maxdelta s1 widthflag window parent with
      | none => Res.fault
      | some maxdelta =>
        let delta := if delta > maxdelta then maxdelta else delta
        change_steal_next E fuel widthflag s1 window parent delta

/-- `Fenlarge_window (n, side)`. -/
def Fenlarge_window (E : Ext) (fuel : Nat) (s : State) (n : Int) (side : Bool) : Res Unit :=
  change_window_height E fuel s n side

/-- `Fshrink_window (n, side)`. -/
def Fshrink_window (E : Ext) (fuel : Nat) (s : State) (n : Int) (side : Bool) : Res Unit :=
  change_window_height E fuel s (-n) side

/-! ## Shapes: the tree a store of windows represents -/

/-- Kind of a window node. -/
inductive Kind where
  | leaf
  | hcomb
  | vcomb
  deriving DecidableEq, Repr

/-- Shape of a chain of sibling windows, each with the chain of its children
(first child, next sibling). -/
inductive Shape where
  | nil
  | node (w : Win) (k : Kind) (ch : Shape) (rest : Shape)
  deriving DecidableEq, Repr

/-- First window of a chain. -/
def Shape.head : Shape → Option Win
  | Shape.nil => none
  | Shape.node w _ _ _ => some w

/-- All windows of a chain and of the subtrees below it, in pre-order. -/
def Shape.handles : Shape → List Win
  | Shape.nil => []
  | Shape.node w _ ch rest => w :: (ch.handles ++ rest.handles)

/-- The windows of the chain itself (the siblings), in order. -/
def Shape.tops : Shape → List Win
  | Shape.nil => []
  | Shape.node w _ _ rest => w :: rest.tops

/-- The leaves of a chain and of the subtrees below it, in depth-first order. -/
def Shape.leaves : Shape → List Win
  | Shape.nil => []
  | Shape.node w Kind.leaf _ rest => w :: rest.leaves
  | Shape.node _ _ ch rest => ch.leaves ++ rest.leaves

/-- Fuel that suffices for the resize loops on a chain. -/
def Shape.bound : Shape → Nat
  | Shape.nil => 1
  | Shape.node _ _ ch rest => 2 + ch.bound + rest.bound

/-- What the shape says about one window: its kind, its parent (with the
kind of the parent), its neighbours in the chain and its first child. -/
structure NodeInfo where
  w : Win
  k : Kind
  par : Option (Kind × Win)
  prev : Option Win
  next : Option Win
  child : Option Win
  deriving DecidableEq, Repr

/-- The node information of every window of a chain that hangs below parent
`P` after the sibling `V`. -/
def Shape.infos : Option (Kind × Win) → Option Win → Shape → List NodeInfo
  | _, _, Shape.nil => []
  | P, V, Shape.node w k ch rest =>
    { w := w, k := k, par := P, prev := V, next := rest.head, child := ch.head }
      :: (ch.infos (some (k, w)) none ++ rest.infos P (some w))

/-- One step of a path from the root chain to a hole in a shape: the hole is
the rest of the chain after `w`, or it is the chain of children of `w`. -/
inductive Frame where
  | right (w : Win) (k : Kind) (ch : Shape)
  | down (w : Win) (k : Kind) (rest : Shape)
  deriving DecidableEq, Repr

/-- A shape with a hole: the frames from the hole outwards. -/
abbrev Ctx := List Frame

/-- Fill the hole of a context. -/
def plug : Ctx → Shape → Shape
  | [], t => t
  | Frame.right w k ch :: c, t => plug c (Shape.node w k ch t)
  | Frame.down w k rest :: c, t => plug c (Shape.node w k t rest)

/-- Parent of the chain in the hole. -/
def hpar : Ctx → Option (Kind × Win)
  | [] => none
  | Frame.right _ _ _ :: c => hpar c
  | Frame.down w k _ :: _ => some (k, w)

/-- Previous sibling of the first window in the hole. -/
def hprev : Ctx → Option Win
  | [] => none
  | Frame.right w _ _ :: _ => some w
  | Frame.down _ _ _ :: _ => none

/-- The windows of a context. -/
def ctxHandles : Ctx → List Win
  | [] => []
  | Frame.right w _ ch :: c => w :: (ch.handles ++ ctxHandles c)
  | Frame.down w _ rest :: c => w :: (rest.handles ++ ctxHandles c)

/-- The node information of the windows of a context whose hole holds a
chain with first window `hd`. -/
def ctxInfos : Ctx → Option Win → List NodeInfo
  | [], _ => []
  | Frame.right w k ch :: c, hd =>
    { w := w, k := k, par := hpar c, prev := hprev c, next := hd, child := ch.head }
      :: (ch.infos (some (k, w)) none ++ ctxInfos c (some w))
  | Frame.down w k rest :: c, hd =>
    { w := w, k := k, par := hpar c, prev := hprev c, next := rest.head, child := hd }
      :: (rest.infos (hpar c) (some w) ++ ctxInfos c (some w))

/-! ## Well-formedness of the store with respect to a shape -/

/-- The links of window `w` are the ones the shape prescribes, and exactly
one of `hchild`, `vchild`, `buffer` is set, according to the kind. -/
def LinkOK (scr : Scr) (h : Win → Window) (i : NodeInfo) : Prop :=
  (h i.w).parent = i.par.map Prod.snd ∧ (h i.w).prev = i.prev ∧ (h i.w).next = i.next
    ∧ (h i.w).screen = some scr
    ∧ (match i.k with
      | Kind.leaf =>
        (h i.w).hchild = none ∧ (h i.w).vchild = none ∧ (h i.w).buffer ≠ BufSlot.nil
          ∧ i.child = none
      | Kind.hcomb =>
        (h i.w).hchild = i.child ∧ i.child ≠ none ∧ (h i.w).vchild = none
          ∧ (h i.w).buffer = BufSlot.nil
      | Kind.vcomb =>
        (h i.w).vchild = i.child ∧ i.child ≠ none ∧ (h i.w).hchild = none
          ∧ (h i.w).buffer = BufSlot.nil)

/-- Tiling along the vertical axis at window `w`: below a vertical
combination it starts where the previous sibling ends (the first child at the
top of the parent) and the last child ends at the bottom of the parent; below
a horizontal combination it has the top and the height of the parent. -/
def TileY (h : Win → Window) (i : NodeInfo) : Prop :=
  match i.par with
  | none => True
  | some (Kind.vcomb, P) =>
    (h i.w).top = (match i.prev with
      | none => (h P).top
      | some v => (h v).top + (h v).height)
    ∧ (i.next = none → (h i.w).top + (h i.w).height = (h P).top + (h P).height)
  | some (Kind.hcomb, P) => (h i.w).top = (h P).top ∧ (h i.w).height = (h P).height
  | some (Kind.leaf, _) => True

/-- Tiling along the horizontal axis at window `w` (the mirror image of
`TileY`). -/
def TileX (h : Win → Window) (i : NodeInfo) : Prop :=
  match i.par with
  | none => True
  | some (Kind.hcomb, P) =>
    (h i.w).left = (match i.prev with
      | none => (h P).left
      | some v => (h v).left + (h v).width)
    ∧ (i.next = none → (h i.w).left + (h i.w).width = (h P).left + (h P).width)
  | some (Kind.vcomb, P) => (h i.w).left = (h P).left ∧ (h i.w).width = (h P).width
  | some (Kind.leaf, _) => True

instance LinkOK.dec (scr : Scr) (h : Win → Window) (i : NodeInfo) :
    Decidable (LinkOK scr h i) := by
  unfold LinkOK; split <;> infer_instance

instance TileY.dec (h : Win → Window) (i : NodeInfo) : Decidable (TileY h i) := by
  unfold TileY; split <;> infer_instance

instance TileX.dec (h : Win → Window) (i : NodeInfo) : Decidable (TileX h i) := by
  unfold TileX; split <;> infer_instance

/-- The store represents shape `t` as the window tree of screen `scr`: the
root of the screen is the first window of `t`, the windows of `t` are
distinct objects that were allocated, their links are the ones of the shape. -/
def Rep (s : State) (scr : Scr) (t : Shape) : Prop :=
  (s.screens scr).root_window = t.head ∧ t.handles.Nodup
    ∧ (∀ x ∈ t.handles, x < s.nalloc)
    ∧ ∀ i ∈ t.infos none none, LinkOK scr s.windows i

/-- The store is exactly tiled with respect to shape `t`. -/
def Tiled (s : State) (t : Shape) : Prop :=
  ∀ i ∈ t.infos none none, TileX s.windows i ∧ TileY s.windows i

/-- Well-formed window tree of screen `scr` with shape `t`. -/
def WF (s : State) (scr : Scr) (t : Shape) : Prop :=
  Rep s scr t ∧ Tiled s t

instance Rep.dec (s : State) (scr : Scr) (t : Shape) : Decidable (Rep s scr t) := by
  unfold Rep; infer_instance

instance Tiled.dec (s : State) (t : Shape) : Decidable (Tiled s t) := by
  unfold Tiled; infer_instance

instance WF.dec (s : State) (scr : Scr) (t : Shape) : Decidable (WF s scr t) := by
  unfold WF; infer_instance

/-! ## Shapes and contexts -/

/-- Window of a frame. -/
def Frame.win : Frame → Win
  | Frame.right w _ _ => w
  | Frame.down w _ _ => w

/-- First window of the whole shape when the hole holds a chain with first
window `hd`. -/
def ctxRoot : Ctx → Option Win → Option Win
  | [], hd => hd
  | f :: c, _ => ctxRoot c (some f.win)

/-! ## Assertions about results -/

/-- The result is normal and its value and state satisfy `P`. -/
def Res.Holds {α : Type} (r : Res α) (P : α → State → Prop) : Prop :=
  match r with
  | Res.ok a s => P a s
  | _ => False

/-- If the result is normal, its value and state satisfy `P`. -/
def Res.Sat {α : Type} (r : Res α) (P : α → State → Prop) : Prop :=
  match r with
  | Res.ok a s => P a s
  | _ => True

/-- The result is normal. -/
def Res.isOk {α : Type} (r : Res α) : Bool :=
  match r with
  | Res.ok _ _ => true
  | _ => false

/-- The state of a normal result (the given state otherwise). -/
def Res.stateD {α : Type} (r : Res α) (d : State) : State :=
  match r with
  | Res.ok _ s => s
  | _ => d

/-- The result is a Lisp error. -/
def Res.isSignal {α : Type} (r : Res α) : Bool :=
  match r with
  | Res.signal _ _ => true
  | _ => false

/-- The window that `replace_window` leaves at a handle other than `old`
and the replacement. -/
def replaced (s : State) (old new x : Win) : Window :=
  if (s.windows old).next = some x then { s.windows x with prev := some new }
  else if (s.windows old).prev = some x then { s.windows x with next := some new }
  else if (s.windows old).parent = some x then
    { s.windows x with
      vchild := if (s.windows x).vchild = some old then some new else (s.windows x).vchild,
      hchild := if (s.windows x).hchild = some old then some new else (s.windows x).hchild }
  else s.windows x

/-- The store after the second half of `Fsplit_window` on window `w`, which
shows buffer `b`: `new` is the new window, `s'` the new state. -/
def SplitPost (s : State) (w : Win) (size : Int) (hor : Bool) (b : Buf) (new : Win)
    (s' : State) : Prop :=
  new = s.nalloc
    ∧ s'.screens = s.screens ∧ s'.nalloc = s.nalloc + 1
    ∧ (∀ x, x ≠ s.nalloc → x ≠ w → s'.windows x =
        if (s.windows w).next = some x then { s.windows x with prev := some s.nalloc }
        else s.windows x)
    ∧ s'.windows w =
        (if hor then { s.windows w with next := some s.nalloc, width := size }
         else { s.windows w with next := some s.nalloc, height := size })
    ∧ (s'.windows s.nalloc).parent = (s.windows w).parent
    ∧ (s'.windows s.nalloc).prev = some w
    ∧ (s'.windows s.nalloc).next = (s.windows w).next
    ∧ (s'.windows s.nalloc).hchild = none ∧ (s'.windows s.nalloc).vchild = none
    ∧ (s'.windows s.nalloc).buffer = BufSlot.buf b
    ∧ (s'.windows s.nalloc).screen = (s.windows w).screen
    ∧ (s'.windows s.nalloc).mini_p = false
    ∧ (s'.windows s.nalloc).left = (if hor then (s.windows w).left + size else (s.windows w).left)
    ∧ (s'.windows s.nalloc).top = (if hor then (s.windows w).top else (s.windows w).top + size)
    ∧ (s'.windows s.nalloc).width =
        (if hor then (s.windows w).width - size else (s.windows w).width)
    ∧ (s'.windows s.nalloc).height =
        (if hor then (s.windows w).height else (s.windows w).height - size)

/-- The node information of the windows of a context apart from the window
of the innermost frame; it does not depend on what the hole holds. -/
def ctxTail : Ctx → List NodeInfo
  | [] => []
  | Frame.right w k ch :: c => ch.infos (some (k, w)) none ++ ctxInfos c (some w)
  | Frame.down w k rest :: c => rest.infos (hpar c) (some w) ++ ctxInfos c (some w)

/-- The node information of the window of the innermost frame, when the hole
holds a chain with first window `hd`. -/
def ctxSpine : Ctx → Option Win → List NodeInfo
  | [], _ => []
  | Frame.right w k ch :: c, hd =>
    [{ w := w, k := k, par := hpar c, prev := hprev c, next := hd, child := ch.head }]
  | Frame.down w k rest :: c, hd =>
    [{ w := w, k := k, par := hpar c, prev := hprev c, next := rest.head, child := hd }]

/-- The store after `Fsplit_window` has interposed a dummy parent above
window `w` and made `w` its child: the new parent is the window `s.nalloc`. -/
def DummyPost (s : State) (w : Win) (hor : Bool) (scr : Scr) (s' : State) : Prop :=
  s'.nalloc = s.nalloc + 1
    ∧ s'.buffers = s.buffers
    ∧ (∀ c, s'.screens c = if c = scr ∧ (s.screens scr).root_window = some w
        then { s.screens scr with root_window := some s.nalloc } else s.screens c)
    ∧ s'.windows w = { s.windows w with
        next := none, prev := none, vchild := none, hchild := none, parent := some s.nalloc }
    ∧ s'.windows s.nalloc =
        (if hor then { s.windows w with
            sequence_number := s.sequence_number + 1,
            start := none, pointm := none, buffer := BufSlot.nil, hchild := some w }
         else { s.windows w with
            sequence_number := s.sequence_number + 1,
            start := none, pointm := none, buffer := BufSlot.nil, vchild := some w })
    ∧ ∀ x, x ≠ s.nalloc → x ≠ w → s'.windows x = replaced s w s.nalloc x

/-- What `Fsplit_window` does to the store when it returns `new`: without a
dummy parent the new window follows `w` in the chain of `w`; with a dummy
parent (the window `s.nalloc`) the new window is `s.nalloc + 1`. -/
def SplitOutcome (s : State) (scr : Scr) (w : Win) (size : Int) (hor : Bool) (new : Win)
    (s' : State) : Prop :=
  MINI_WINDOW_P (s.windows w) = false ∧ (s.screens scr).no_split = false
    ∧ ¬ split_size_bad s w size hor
    ∧ ∃ b, (s.windows w).buffer = BufSlot.buf b ∧ (s.buffers b).name_live = true
      ∧ if needs_parent s w hor = true then
          ∃ s3, DummyPost s w hor scr s3 ∧ SplitPost s3 w size hor b new s'
        else SplitPost s w size hor b new s'

/-- The shape after a split of the leaf `w` in the hole of `c`, where `n` is
the first unused handle before the call. -/
def splitShape (c : Ctx) (w : Win) (rest : Shape) (hor : Bool) (dummy : Bool) (n : Nat) :
    Shape :=
  if dummy = true then
    plug c (Shape.node n (if hor then Kind.hcomb else Kind.vcomb)
      (Shape.node w Kind.leaf Shape.nil (Shape.node (n + 1) Kind.leaf Shape.nil Shape.nil)) rest)
  else plug c (Shape.node w Kind.leaf Shape.nil (Shape.node n Kind.leaf Shape.nil rest))

/-! ## Example stores -/

instance Res.Holds.dec {α : Type} (r : Res α) (P : α → State → Prop)
    [∀ a s, Decidable (P a s)] : Decidable (r.Holds P) := by
  unfold Res.Holds; split <;> infer_instance

instance Res.Sat.dec {α : Type} (r : Res α) (P : α → State → Prop)
    [∀ a s, Decidable (P a s)] : Decidable (r.Sat P) := by
  unfold Res.Sat; split <;> infer_instance

/-- External functions of a session with one screen: the next and the
previous screen of a screen is the screen itself. -/
def ext1 : Ext :=
  { next_screen := fun c _ => c, prev_screen := fun c _ => c, Fselect_screen := fun s _ => s }

/-- A marker at the beginning of buffer `b`. -/
def mark1 (b : Buf) : Option Marker := some { buffer := some b, charpos := 1 }

/-- The windows of a screen of 80 columns and 24 lines right after its
creation: the root window 0 is a leaf, the minibuffer window 1 follows it. -/
def store2 : Win → Window := fun i =>
  match i with
  | 0 => { width := 80, height := 23, screen := some 0, next := some 1,
           buffer := BufSlot.buf 0, start := mark1 0, pointm := mark1 0 }
  | 1 => { top := 23, width := 80, height := 1, screen := some 0, prev := some 0,
           buffer := BufSlot.buf 1, mini_p := true, start := mark1 1, pointm := mark1 1 }
  | _ => {}

/-- The state of a session with the windows of `store2`. -/
def state2 : State :=
  { windows := store2,
    screens := fun _ => { root_window := some 0, minibuffer_window := some 1,
                          selected_window := some 0, width := 80, height := 24 },
    buffers := fun _ => {}, nalloc := 2, selected_window := 0, selected_screen := 0 }

/-- The shape of `state2`. -/
def shape2 : Shape :=
  Shape.node 0 Kind.leaf Shape.nil (Shape.node 1 Kind.leaf Shape.nil Shape.nil)

/-- The windows of a screen whose root 2 is a vertical combination of the
horizontal combination 4 (leaves 0 and 5) and the leaf 3; the minibuffer
window 1 follows the root. -/
def store6 : Win → Window := fun i =>
  match i with
  | 0 => { width := 40, height := 11, screen := some 0, parent := some 4, next := some 5,
           buffer := BufSlot.buf 0, start := mark1 0, pointm := mark1 0 }
  | 1 => { top := 23, width := 80, height := 1, screen := some 0, prev := some 2,
           buffer := BufSlot.buf 1, mini_p := true, start := mark1 1, pointm := mark1 1 }
  | 2 => { width := 80, height := 23, screen := some 0, next := some 1, vchild := some 4 }
  | 3 => { top := 11, width := 80, height := 12, screen := some 0, parent := some 2,
           prev := some 4, buffer := BufSlot.buf 0, start := mark1 0, pointm := mark1 0 }
  | 4 => { width := 80, height := 11, screen := some 0, parent := some 2, next := some 3,
           hchild := some 0 }
  | 5 => { left := 40, width := 40, height := 11, screen := some 0, parent := some 4,
           prev := some 0, buffer := BufSlot.buf 0, start := mark1 0, pointm := mark1 0 }
  | _ => {}

/-- The state of a session with the windows of `store6`. -/
def state6 : State :=
  { windows := store6,
    screens := fun _ => { root_window := some 2, minibuffer_window := some 1,
                          selected_window := some 0, width := 80, height := 24 },
    buffers := fun _ => {}, nalloc := 6, selected_window := 0, selected_screen := 0 }

/-- The chain of the minibuffer window 1 alone. -/
def chain1 : Shape := Shape.node 1 Kind.leaf Shape.nil Shape.nil

/-- The chain of the leaf 3 alone. -/
def chain3 : Shape := Shape.node 3 Kind.leaf Shape.nil Shape.nil

/-- The children of window 4 of `state6`: the leaves 0 and 5. -/
def chain05 : Shape :=
  Shape.node 0 Kind.leaf Shape.nil (Shape.node 5 Kind.leaf Shape.nil Shape.nil)

/-- The children of window 2 of `state6`: the horizontal combination 4 and
the leaf 3. -/
def chain43 : Shape := Shape.node 4 Kind.hcomb chain05 chain3

/-- The shape of `state6`. -/
def shape6 : Shape := Shape.node 2 Kind.vcomb chain43 chain1

/-! ## The resize loops as functions on shapes -/

/-- The new position that the resize loops compute for the old position
`opos` when a combination of size `old` gets the size `v`: the C expression
`(((opos * v) << 1) + old) / (old << 1)` on `int`s, every operation of which
keeps the low 32 bits of its result. -/
def scale_pos (opos v old : Int) : Int :=
  Int.tdiv (wrap32 (wrap32 (shl1 (wrap32 (opos * v))) + old)) (wrap32 (shl1 old))

/-- The outcome of a call is `P` for a normal return, never a Lisp error,
undefined behaviour only if `F`, out of fuel only if `N`. -/
def Res.Out {α : Type} (r : Res α) (P : α → State → Prop) (F N : Prop) : Prop :=
  match r with
  | Res.ok a s => P a s
  | Res.signal _ _ => False
  | Res.fault => F
  | Res.nofuel => N

/-- State `s'` differs from `s` in the window store and the change counter
only. -/
def others (s s' : State) : Prop :=
  s' = { s with windows := s'.windows,
                windows_or_buffers_changed := s'.windows_or_buffers_changed }

/-- A window without its vertical geometry. -/
def Window.yless (w : Window) : Window := { w with top := 0, height := 0, last_modified := 0 }

/-- A window without its horizontal geometry. -/
def Window.xless (w : Window) : Window := { w with left := 0, width := 0, last_modified := 0 }

/-- Store `h` with the top of window `y` set to `v`. -/
def set_top (h : Win → Window) (y : Win) (v : Int) : Win → Window :=
  fun z => if z = y then { h y with top := v } else h z

/-- Store `h` after `set_window_height` has updated window `x` itself. -/
def touch_height (h : Win → Window) (x : Win) (v : Int) : Win → Window :=
  fun z => if z = x then { h x with last_modified := 0, height := v } else h z

/-- What the loops of `set_window_height` (with `nodelete` set) do to the
store, by recursion on the shape of a chain of children of `P`: below a
horizontal combination (`vert` false) each child gets the top of `P` and the
height `v`; below a vertical combination of old height `old` each child gets
its scaled share, `lastbot` and `lastobot` being the loop variables.  The
result is `none` where the C code divides by zero. -/
def resize_y : Bool → Win → Int → Int → Int → Int → Int → (Win → Window) → Shape →
    Option (Win → Window)
  | _, _, _, _, _, _, _, h, Shape.nil => some h
  | vert, P, v, old, top, lastbot, lastobot, h, Shape.node y ky chy rest =>
    if vert = true ∧ shl1 old = 0 then none
    else
      let opos := lastobot + (h y).height
      let pos := scale_pos opos v old
      let vy := if vert = true then pos + top - lastbot else v
      let h1 := set_top h y (if vert = true then lastbot else (h P).top)
      let h3 := touch_height h1 y vy
      let r :=
        match ky with
        | Kind.leaf => some h3
        | Kind.hcomb => resize_y false y vy 0 0 0 0 h3 chy
        | Kind.vcomb => resize_y true y vy (h1 y).height (h3 y).top (h3 y).top 0 h3 chy
      match r with
      | none => none
      | some h2 =>
        resize_y vert P v old top (if vert = true then pos + top else lastbot)
          (if vert = true then opos else lastobot) h2 rest

/-- What `set_window_height (x, v, 1)` does to the store when `x` is a
window of kind `k` with the chain of children `ch`. -/
def resize_node_y (h : Win → Window) (x : Win) (k : Kind) (ch : Shape) (v : Int) :
    Option (Win → Window) :=
  let h3 := touch_height h x v
  match k with
  | Kind.leaf => some h3
  | Kind.hcomb => resize_y false x v 0 0 0 0 h3 ch
  | Kind.vcomb => resize_y true x v (h x).height (h3 x).top (h3 x).top 0 h3 ch

/-- Store `h` with the left of window `x` set to `v`. -/
def set_left (h : Win → Window) (x : Win) (v : Int) : Win → Window :=
  fun z => if z = x then { h x with left := v } else h z

/-- Store `h` after `set_window_width` has updated window `y` itself. -/
def touch_width (h : Win → Window) (y : Win) (v : Int) : Win → Window :=
  fun z => if z = y then { h y with last_modified := 0, width := v } else h z

/-- What the loops of `set_window_width` (with `nodelete` set) do to the
store, by recursion on the shape of a chain of children of `P`: below a
vertical combination (`hor` false) each child gets the left of `P` and the
width `v`; below a horizontal combination of old width `old` each child gets
its scaled share, `lastright` and `lastoright` being the loop variables.  The
result is `none` where the C code divides by zero. -/
def resize_x : Bool → Win → Int → Int → Int → Int → Int → (Win → Window) → Shape →
    Option (Win → Window)
  | _, _, _, _, _, _, _, h, Shape.nil => some h
  | hor, P, v, old, left, lastright, lastoright, h, Shape.node x ky chy rest =>
    if hor = true ∧ shl1 old = 0 then none
    else
      let opos := lastoright + (h x).width
      let pos := scale_pos opos v old
      let vy := if hor = true then pos + left - lastright else v
      let h1 := set_left h x (if hor = true then lastright else (h P).left)
      let h3 := touch_width h1 x vy
      let r :=
        match ky with
        | Kind.leaf => some h3
        | Kind.vcomb => resize_x false x vy 0 0 0 0 h3 chy
        | Kind.hcomb => resize_x true x vy (h1 x).width (h3 x).left (h3 x).left 0 h3 chy
      match r with
      | none => none
      | some h2 =>
        resize_x hor P v old left (if hor = true then pos + left else lastright)
          (if hor = true then opos else lastoright) h2 rest

/-- What `set_window_width (y, v, 1)` does to the store when `y` is a
window of kind `k` with the chain of children `ch`. -/
def resize_node_x (h : Win → Window) (y : Win) (k : Kind) (ch : Shape) (v : Int) :
    Option (Win → Window) :=
  let h3 := touch_width h y v
  match k with
  | Kind.leaf => some h3
  | Kind.vcomb => resize_x false y v 0 0 0 0 h3 ch
  | Kind.hcomb => resize_x true y v (h y).width (h3 y).left (h3 y).left 0 h3 ch

/-! ## Assertions for the resize engine -/

/-- The node information of the windows below the windows of a chain. -/
def Shape.inner : Shape → List NodeInfo
  | Shape.nil => []
  | Shape.node y ky chy rest => chy.infos (some (ky, y)) none ++ rest.inner

/-- The vertical combinations of a chain and below. -/
def Shape.vcombs : Shape → List Win
  | Shape.nil => []
  | Shape.node y ky chy rest =>
    (if ky = Kind.vcomb then [y] else []) ++ (chy.vcombs ++ rest.vcombs)

/-- The horizontal combinations of a chain and below. -/
def Shape.hcombs : Shape → List Win
  | Shape.nil => []
  | Shape.node y ky chy rest =>
    (if ky = Kind.hcomb then [y] else []) ++ (chy.hcombs ++ rest.hcombs)

/-- The loops of `set_window_height` over a chain `t` of children do to the
store what `resize_y` says, for every window store whose links are those of
the shape; they run out of fuel only below `t.bound`. -/
def HeightSim (E : Ext) (scr : Scr) (t : Shape) : Prop :=
  ∀ (fuel : Nat) (s : State) (P : Win) (v old top lastbot lastobot : Int)
    (par : Option (Kind × Win)) (V : Option Win),
    (∀ i ∈ t.infos par V, LinkOK scr s.windows i) →
    (set_height_hloop E fuel s P t.head v true).Out
        (fun _ s' =>
          resize_y false P v old top lastbot lastobot s.windows t = some s'.windows ∧ others s s')
        (resize_y false P v old top lastbot lastobot s.windows t = none) (fuel < t.bound)
      ∧ (set_height_vloop E fuel s t.head v old top lastbot lastobot).Out
        (fun _ s' =>
          resize_y true P v old top lastbot lastobot s.windows t = some s'.windows ∧ others s s')
        (resize_y true P v old top lastbot lastobot s.windows t = none) (fuel < t.bound)

/-- The state after `set_window_height (y, v, 1)` has updated window `y`
itself. -/
def height_touched (s : State) (y : Win) (v : Int) : State :=
  { s with windows := touch_height s.windows y v,
           windows_or_buffers_changed := s.windows_or_buffers_changed + 1 }

/-- The state after the top of window `y` has been set to `v`. -/
def top_set (s : State) (y : Win) (v : Int) : State :=
  { s with windows := set_top s.windows y v }

/-- Sum of the heights of the windows of a list. -/
def sum_height (h : Win → Window) (l : List Win) : Int := (l.map fun z => (h z).height).sum

/-- Where a child of the vertical combination `P` starts: at the top of `P`
if it is the first child, where the previous child `V` ends otherwise. -/
def start_y (h : Win → Window) (P : Win) (V : Option Win) : Int :=
  match V with
  | none => (h P).top
  | some u => (h u).top + (h u).height

/-- The windows of chain `t` tile their parent along the vertical axis
after `resize_y`, and have non-negative heights, if they had non-negative
heights of at most 32767 (up to this size the position formula stays within
an `int`) and the windows below them tiled them before. -/
def ResizeTilesY (t : Shape) : Prop :=
  ∀ (vert : Bool) (P : Win) (v old top lastbot lastobot : Int)
    (h h' : Win → Window) (V : Option Win),
    resize_y vert P v old top lastbot lastobot h t = some h' →
    (P :: t.handles).Nodup → (∀ u, V = some u → u ∉ t.handles) →
    0 ≤ v → (∀ z ∈ t.handles, 0 ≤ (h z).height) → (∀ i ∈ t.inner, TileY h i) →
    (h P).height = v →
    (vert = true → 0 < old ∧ 0 ≤ lastobot ∧ top = (h P).top
      ∧ lastbot = top + scale_pos lastobot v old ∧ lastbot = start_y h P V
      ∧ (t ≠ Shape.nil → scale_pos (lastobot + sum_height h t.tops) v old = v)) →
    v ≤ 32767 → (∀ z ∈ t.handles, (h z).height ≤ 32767) →
    (vert = true → old ≤ 32767 ∧ lastobot + sum_height h t.tops ≤ 32767) →
    (∀ i ∈ t.infos (some (if vert = true then Kind.vcomb else Kind.hcomb, P)) V, TileY h' i)
      ∧ ∀ z ∈ t.handles, 0 ≤ (h' z).height

/-- The loops of `set_window_width` over a chain `t` of children do to the
store what `resize_x` says, for every window store whose links are those of
the shape; they run out of fuel only below `t.bound`. -/
def WidthSim (E : Ext) (scr : Scr) (t : Shape) : Prop :=
  ∀ (fuel : Nat) (s : State) (P : Win) (v old left lastright lastoright : Int)
    (par : Option (Kind × Win)) (V : Option Win),
    (∀ i ∈ t.infos par V, LinkOK scr s.windows i) →
    (set_width_vloop E fuel s P t.head v true).Out
        (fun _ s' =>
          resize_x false P v old left lastright lastoright s.windows t = some s'.windows ∧ others s s')
        (resize_x false P v old left lastright lastoright s.windows t = none) (fuel < t.bound)
      ∧ (set_width_hloop E fuel s t.head v old left lastright lastoright).Out
        (fun _ s' =>
          resize_x true P v old left lastright lastoright s.windows t = some s'.windows ∧ others s s')
        (resize_x true P v old left lastright lastoright s.windows t = none) (fuel < t.bound)

/-- The state after `set_window_width (x, v, 1)` has updated window `x`
itself. -/
def width_touched (s : State) (x : Win) (v : Int) : State :=
  { s with windows := touch_width s.windows x v,
           windows_or_buffers_changed := s.windows_or_buffers_changed + 1 }

/-- The state after the left of window `x` has been set to `v`. -/
def left_set (s : State) (x : Win) (v : Int) : State :=
  { s with windows := set_left s.windows x v }

/-- Sum of the widths of the windows of a list. -/
def sum_width (h : Win → Window) (l : List Win) : Int := (l.map fun z => (h z).width).sum

/-- Where a child of the horizontal combination `P` starts: at the left of `P`
if it is the first child, where the previous child `V` ends otherwise. -/
def start_x (h : Win → Window) (P : Win) (V : Option Win) : Int :=
  match V with
  | none => (h P).left
  | some u => (h u).left + (h u).width

/-- The windows of chain `t` tile their parent along the horizontal axis
after `resize_x`, and have non-negative widths, if they had non-negative
widths of at most 32767 (up to this size the position formula stays within
an `int`) and the windows below them tiled them before. -/
def ResizeTilesX (t : Shape) : Prop :=
  ∀ (hor : Bool) (P : Win) (v old left lastright lastoright : Int)
    (h h' : Win → Window) (V : Option Win),
    resize_x hor P v old left lastright lastoright h t = some h' →
    (P :: t.handles).Nodup → (∀ u, V = some u → u ∉ t.handles) →
    0 ≤ v → (∀ z ∈ t.handles, 0 ≤ (h z).width) → (∀ i ∈ t.inner, TileX h i) →
    (h P).width = v →
    (hor = true → 0 < old ∧ 0 ≤ lastoright ∧ left = (h P).left
      ∧ lastright = left + scale_pos lastoright v old ∧ lastright = start_x h P V
      ∧ (t ≠ Shape.nil → scale_pos (lastoright + sum_width h t.tops) v old = v)) →
    v ≤ 32767 → (∀ z ∈ t.handles, (h z).width ≤ 32767) →
    (hor = true → old ≤ 32767 ∧ lastoright + sum_width h t.tops ≤ 32767) →
    (∀ i ∈ t.infos (some (if hor = true then Kind.hcomb else Kind.vcomb, P)) V, TileX h' i)
      ∧ ∀ z ∈ t.handles, 0 ≤ (h' z).width

/-- Every vertical combination of the chain `t` and below has the sum of
the heights of its children as its height. -/
def sums_y (h : Win → Window) : Shape → Prop
  | Shape.nil => True
  | Shape.node y ky chy rest =>
    (ky = Kind.vcomb → sum_height h chy.tops = (h y).height) ∧ sums_y h chy ∧ sums_y h rest

/-- The leaves of a context that come before the leaves of the hole. -/
def ctxLeft : Ctx → List Win
  | [] => []
  | Frame.right w k ch :: c => ctxLeft c ++ (Shape.node w k ch Shape.nil).leaves
  | Frame.down _ _ _ :: c => ctxLeft c

/-- The leaves of a context that come after the leaves of the hole. -/
def ctxRight : Ctx → List Win
  | [] => []
  | Frame.right _ _ _ :: c => ctxRight c
  | Frame.down _ _ rest :: c => rest.leaves ++ ctxRight c

/-- The window at which the climb of `Fnext_window` from the last window of
the hole ends: the next window of the nearest enclosing window that has one. -/
def ctxUp : Ctx → Option Win
  | [] => none
  | Frame.right _ _ _ :: c => ctxUp c
  | Frame.down _ _ rest :: c =>
    match rest.head with
    | some y => some y
    | none => ctxUp c

/-- The first leaf below the first window of a chain. -/
def Shape.first : Shape → Option Win
  | Shape.nil => none
  | Shape.node y Kind.leaf _ _ => some y
  | Shape.node _ _ chy _ => chy.first

/-- The windows of every frame that goes down are combinations. -/
def ctxComb : Ctx → Prop
  | [] => True
  | Frame.right _ _ _ :: c => ctxComb c
  | Frame.down _ k _ :: c => k ≠ Kind.leaf ∧ ctxComb c

/-- The root window of the screen at which `Fnext_window` continues after
the last window of screen `scr`. -/
def next_root (E : Ext) (s : State) (scr : Scr) (mini : Mini) (all_screens : Bool) :
    Walk Win :=
  match (s.screens (if all_screens then E.next_screen scr (decide (mini ≠ Mini.nil))
      else scr)).root_window with
  | none => Walk.fault
  | some r => Walk.val r

/-- The window reached from `w` by `k` calls of `Fnext_window`. -/
def iter_next (E : Ext) (fuel : Nat) (s : State) (mini : Mini) (all_screens : Bool) :
    Nat → Win → Walk Win
  | 0, w => Walk.val w
  | k + 1, w =>
    match iter_next E fuel s mini all_screens k w with
    | Walk.val x => Fnext_window E fuel s (some x) mini all_screens
    | Walk.fault => Walk.fault
    | Walk.nofuel => Walk.nofuel

/-- The canonical order of the leaves of a screen with root window `R` (of
kind `k`, with the children `ch`) and minibuffer window `M`: the leaves below
`R` depth first, then `M`. -/
def canonical_order (R : Win) (k : Kind) (ch : Shape) (M : Win) : List Win :=
  (Shape.node R k ch Shape.nil).leaves ++ [M]

/-- The shape of a screen with root window `R` and minibuffer window `M`. -/
def screen_shape (R : Win) (k : Kind) (ch : Shape) (M : Win) : Shape :=
  Shape.node R k ch (Shape.node M Kind.leaf Shape.nil Shape.nil)

/-! ## What the tree invariants depend on -/

/-- The slots of a window that the tree invariants depend on: the links, the
`buffer` slot, the screen, the geometry. -/
def Window.core (w : Window) : Window :=
  { w with sequence_number := 0, hscroll := 0, last_point_x := 0, last_point_y := 0,
           last_modified := 0, use_time := 0, start := none, pointm := none,
           start_at_line_beg := false, force_start := false, display_table := none,
           dedicated := false, temslot := 0 }

/-- State `s'` has the window trees of state `s`: the same objects, the same
root windows, the same links and geometry. -/
def SameTree (s s' : State) : Prop :=
  s'.nalloc = s.nalloc ∧ (∀ c, (s'.screens c).root_window = (s.screens c).root_window)
    ∧ ∀ x, (s'.windows x).core = (s.windows x).core

/-- State `s3` has the window trees of state `s`, but for the `buffer` slot
of `w`. -/
def SameTreeBut (s : State) (w : Win) (s3 : State) : Prop :=
  s3.nalloc = s.nalloc ∧ (∀ c, (s3.screens c).root_window = (s.screens c).root_window)
    ∧ (∀ x, x ≠ w → (s3.windows x).core = (s.windows x).core)
    ∧ { (s3.windows w).core with buffer := BufSlot.nil }
        = { (s.windows w).core with buffer := BufSlot.nil }

/-- A window without its geometry and its minibuffer flag: the links, the
`buffer` slot and the screen. -/
def Window.links (w : Window) : Window :=
  { w.core with left := 0, top := 0, width := 0, height := 0, mini_p := false }

/-- The window that `delete_unlink` and `delete_sibling` leave at a handle
`x` other than the deleted window `w`: the next window of `w` gets the
previous window of `w` as its previous window (and the origin of `w` if
there is none), the previous window gets the next one as its next window, the
parent loses `w` as its first child. -/
def unlinked (s : State) (w x : Win) : Window :=
  if (s.windows w).next = some x then
    { s.windows x with
      prev := (s.windows w).prev,
      top := if (s.windows w).prev = none then (s.windows w).top else (s.windows x).top,
      left := if (s.windows w).prev = none then (s.windows w).left else (s.windows x).left }
  else if (s.windows w).prev = some x then { s.windows x with next := (s.windows w).next }
  else if (s.windows w).parent = some x then
    { s.windows x with
      hchild := if (s.windows x).hchild = some w then (s.windows w).next
        else (s.windows x).hchild,
      vchild := if (s.windows x).vchild = some w then (s.windows w).next
        else (s.windows x).vchild }
  else s.windows x

/-- The context of the parent of the hole: the context without its leading
`right` frames. -/
def ctxAbove : Ctx → Ctx
  | Frame.right _ _ _ :: c => ctxAbove c
  | c => c

/-- The whole chain of siblings around the hole of a context that holds `t`. -/
def ctxChain : Ctx → Shape → Shape
  | Frame.right w k ch :: c, t => ctxChain c (Shape.node w k ch t)
  | _, t => t

/-- The shape after the last phase of `Fdelete_window`: a parent whose chain
of children is a single window gives its place to that window. -/
def collapseShape (c : Ctx) (P : Win) (k : Kind) (chain rest : Shape) : Shape :=
  match chain with
  | Shape.node a ka cha Shape.nil => plug c (Shape.node a ka cha rest)
  | _ => plug c (Shape.node P k chain rest)

/-- The shape after `Fdelete_window` of the window in front of the chain
`rest` in the hole of context `c`. -/
def deleteShape (c : Ctx) (rest : Shape) : Shape :=
  match ctxAbove c with
  | Frame.down P k restP :: c1 => collapseShape c1 P k (ctxChain c rest) restP
  | _ => plug c rest

/-! ## The invariants of the window tree at the level of the links -/

/-- Window `x` can be reached from the root window of screen `scr` along the
links `hchild`, `vchild` and `next`. -/
inductive Reach (s : State) (scr : Scr) : Win → Prop where
  | root (r : Win) : (s.screens scr).root_window = some r → Reach s scr r
  | hchild (x y : Win) : Reach s scr x → (s.windows x).hchild = some y → Reach s scr y
  | vchild (x y : Win) : Reach s scr x → (s.windows x).vchild = some y → Reach s scr y
  | next (x y : Win) : Reach s scr x → (s.windows x).next = some y → Reach s scr y

/-- Exactly one of `hchild`, `vchild`, `buffer` is set in window `w`. -/
def OneContent (w : Window) : Prop :=
  (w.hchild ≠ none ∧ w.vchild = none ∧ w.buffer = BufSlot.nil)
    ∨ (w.hchild = none ∧ w.vchild ≠ none ∧ w.buffer = BufSlot.nil)
    ∨ (w.hchild = none ∧ w.vchild = none ∧ w.buffer ≠ BufSlot.nil)

instance OneContent.dec (w : Window) : Decidable (OneContent w) := by
  unfold OneContent; infer_instance

/-- The sibling links at window `x` are well formed: the next window of `x`
has `x` as its previous window, the previous window of `x` has `x` as its next
window, and a first child of `x` has no previous window. -/
def SiblingsOK (s : State) (x : Win) : Prop :=
  (match (s.windows x).next with
    | some y => (s.windows y).prev = some x
    | none => True)
  ∧ (match (s.windows x).prev with
    | some y => (s.windows y).next = some x
    | none => True)
  ∧ (match (s.windows x).hchild with
    | some y => (s.windows y).prev = none
    | none => True)
  ∧ (match (s.windows x).vchild with
    | some y => (s.windows y).prev = none
    | none => True)

instance SiblingsOK.dec (s : State) (x : Win) : Decidable (SiblingsOK s x) := by
  unfold SiblingsOK
  refine @instDecidableAnd _ _ ?_ (@instDecidableAnd _ _ ?_ (@instDecidableAnd _ _ ?_ ?_))
    <;> split <;> infer_instance

/-! ## Preservation of the tiling -/

/-- Window `z` has the same vertical geometry in both stores. -/
def SameY (h h' : Win → Window) (z : Win) : Prop :=
  (h' z).top = (h z).top ∧ (h' z).height = (h z).height

/-- Window `z` has the same horizontal geometry in both stores. -/
def SameX (h h' : Win → Window) (z : Win) : Prop :=
  (h' z).left = (h z).left ∧ (h' z).width = (h z).width

/-- The windows of a screen whose root 2 is a vertical combination of the
leaves 0 (of height `a`) and 3 (of height `b`); the minibuffer window 1
follows the root. -/
def storev (a b : Int) : Win → Window := fun i =>
  match i with
  | 0 => { width := 80, height := a, screen := some 0, parent := some 2, next := some 3,
           buffer := BufSlot.buf 0, start := mark1 0, pointm := mark1 0 }
  | 1 => { top := a + b, width := 80, height := 1, screen := some 0, prev := some 2,
           buffer := BufSlot.buf 1, mini_p := true, start := mark1 1, pointm := mark1 1 }
  | 2 => { width := 80, height := a + b, screen := some 0, next := some 1, vchild := some 0 }
  | 3 => { top := a, width := 80, height := b, screen := some 0, parent := some 2,
           prev := some 0, buffer := BufSlot.buf 0, start := mark1 0, pointm := mark1 0 }
  | _ => {}

/-- The state of a session with the windows of `storev a b`; the leaf 0 is
selected. -/
def statev (a b : Int) : State :=
  { windows := storev a b,
    screens := fun _ => { root_window := some 2, minibuffer_window := some 1,
                          selected_window := some 0, width := 80, height := a + b + 1 },
    buffers := fun _ => {}, nalloc := 4, selected_window := 0, selected_screen := 0 }

/-- The shape of `statev a b`. -/
def shapev : Shape :=
  Shape.node 2 Kind.vcomb (Shape.node 0 Kind.leaf Shape.nil chain3) chain1

/-- The state of a session with one window, the leaf 0 of 24 lines, on a
screen without a minibuffer window of its own. -/
def state24 : State :=
  { windows := fun i =>
      match i with
      | 0 => { width := 80, height := 24, screen := some 0, buffer := BufSlot.buf 0,
               start := mark1 0, pointm := mark1 0 }
      | _ => {},
    screens := fun _ => { root_window := some 0, selected_window := some 0,
                          width := 80, height := 24 },
    buffers := fun _ => {}, nalloc := 1, selected_window := 0, selected_screen := 0 }

/-- Window `x` is a combination or a deleted window (nothing in its `buffer`
slot), or it shows a live buffer and its markers `pointm` and `start` are in
that buffer. -/
def ShownAt (s : State) (x : Win) : Prop :=
  match (s.windows x).buffer, (s.windows x).pointm, (s.windows x).start with
  | BufSlot.nil, _, _ => True
  | BufSlot.buf b, some pm, some st =>
    (s.buffers b).name_live = true ∧ pm.buffer = some b ∧ st.buffer = some b
  | _, _, _ => False

instance ShownAt.dec (s : State) (x : Win) : Decidable (ShownAt s x) := by
  unfold ShownAt; split <;> infer_instance

/-- Every leaf of the shape shows a live buffer, with its markers in it. -/
def Shown (s : State) (t : Shape) : Prop := ∀ x ∈ t.handles, ShownAt s x

instance Shown.dec (s : State) (t : Shape) : Decidable (Shown s t) := by
  unfold Shown; infer_instance

/-- The windows of a screen whose root 2 is a vertical combination of the
leaves 0, 3 and 4, of 8, 8 and 7 lines; the minibuffer window 1 follows the
root. -/
def store3v : Win → Window := fun i =>
  match i with
  | 0 => { width := 80, height := 8, screen := some 0, parent := some 2, next := some 3,
           buffer := BufSlot.buf 0, start := mark1 0, pointm := mark1 0 }
  | 1 => { top := 23, width := 80, height := 1, screen := some 0, prev := some 2,
           buffer := BufSlot.buf 1, mini_p := true, start := mark1 1, pointm := mark1 1 }
  | 2 => { width := 80, height := 23, screen := some 0, next := some 1, vchild := some 0 }
  | 3 => { top := 8, width := 80, height := 8, screen := some 0, parent := some 2,
           prev := some 0, next := some 4, buffer := BufSlot.buf 0, start := mark1 0,
           pointm := mark1 0 }
  | 4 => { top := 16, width := 80, height := 7, screen := some 0, parent := some 2,
           prev := some 3, buffer := BufSlot.buf 0, start := mark1 0, pointm := mark1 0 }
  | _ => {}

/-- The state of a session with the windows of `store3v`; the leaf 0 is
selected. -/
def state3v : State :=
  { windows := store3v,
    screens := fun _ => { root_window := some 2, minibuffer_window := some 1,
                          selected_window := some 0, width := 80, height := 24 },
    buffers := fun _ => {}, nalloc := 5, selected_window := 0, selected_screen := 0 }

/-- The chain of the single leaf 4. -/
def chain4 : Shape := Shape.node 4 Kind.leaf Shape.nil Shape.nil

/-- The result is the error "No other window to side of this one". -/
def Res.isSideError {α : Type} (r : Res α) : Bool :=
  match r with
  | Res.signal Err.no_other_window_to_side _ => true
  | _ => false

/-- The windows of a screen of 24 lines whose root 1 is a vertical
combination of the vertical combination 5 (12 lines: the leaves 0 and 6, of 4
and 8 lines), the leaf 2 (4 lines) and the leaf 7 (8 lines). -/
def storen : Win → Window := fun i =>
  match i with
  | 0 => { width := 80, height := 4, screen := some 0, parent := some 5, next := some 6,
           buffer := BufSlot.buf 0, start := mark1 0, pointm := mark1 0 }
  | 1 => { width := 80, height := 24, screen := some 0, vchild := some 5 }
  | 2 => { top := 12, width := 80, height := 4, screen := some 0, parent := some 1,
           prev := some 5, next := some 7, buffer := BufSlot.buf 0, start := mark1 0,
           pointm := mark1 0 }
  | 5 => { width := 80, height := 12, screen := some 0, parent := some 1, next := some 2,
           vchild := some 0 }
  | 6 => { top := 4, width := 80, height := 8, screen := some 0, parent := some 5,
           prev := some 0, buffer := BufSlot.buf 0, start := mark1 0, pointm := mark1 0 }
  | 7 => { top := 16, width := 80, height := 8, screen := some 0, parent := some 1,
           prev := some 2, buffer := BufSlot.buf 0, start := mark1 0, pointm := mark1 0 }
  | _ => {}

/-- The state of a session with the windows of `storen`; the leaf 0 is
selected. -/
def staten : State :=
  { windows := storen,
    screens := fun _ => { root_window := some 1, selected_window := some 0,
                          width := 80, height := 24 },
    buffers := fun _ => {}, nalloc := 8, selected_window := 0, selected_screen := 0 }

/-- The shape of `staten`. -/
def shapen : Shape :=
  Shape.node 1 Kind.vcomb
    (Shape.node 5 Kind.vcomb
      (Shape.node 0 Kind.leaf Shape.nil (Shape.node 6 Kind.leaf Shape.nil Shape.nil))
      (Shape.node 2 Kind.leaf Shape.nil (Shape.node 7 Kind.leaf Shape.nil Shape.nil)))
    Shape.nil

/-- The state that five calls make of `state24`, a screen with the single
window 0: `Fsplit_window (0, nil, nil)`, `Fsplit_window (0, nil, t)`,
`Fsplit_window (0, 4, nil)`, `Fdelete_window (4)` and
`Fsplit_window (2, 4, nil)`. -/
def staten_calls : State :=
  let s1 := (Fsplit_window state24 (some 0) none false).stateD state24
  let s2 := (Fsplit_window s1 (some 0) none true).stateD state24
  let s3 := (Fsplit_window s2 (some 0) (some 4) false).stateD state24
  let s4 := (Fdelete_window ext1 20 s3 (some 4)).stateD state24
  (Fsplit_window s4 (some 2) (some 4) false).stateD state24

/-! ## Loops over the windows of a screen -/

/-- The climbing loop of `next_screen_window`: find a window that has a next
one; at a window without next and parent, take the root of `screen`. -/
def screen_climb (s : State) (screen : Scr) : Nat → Win → Walk Win
  | 0, _ => Walk.nofuel
  | fuel + 1, window =>
    match (s.windows window).next with
    | some tem => Walk.val tem
    | none =>
      match (s.windows window).parent with
      | some tem => screen_climb s screen fuel tem
      | none =>
        match (s.screens screen).root_window with
        | none => Walk.fault
        | some tem => Walk.val tem

/-- The `do ... while` loop of `next_screen_window`. -/
def next_screen_window_loop (s : State) (screen : Scr) (mini : Mini) : Nat → Win → Walk Win
  | 0, _ => Walk.nofuel
  | fuel + 1, window =>
    match screen_climb s screen fuel window with
    | Walk.fault => Walk.fault
    | Walk.nofuel => Walk.nofuel
    | Walk.val tem =>
      match first_leaf s fuel tem with
      | Walk.fault => Walk.fault
      | Walk.nofuel => Walk.nofuel
      | Walk.val w1 =>
        if MINI_WINDOW_P (s.windows w1) = true ∧ mini ≠ Mini.t
            ∧ (mini ≠ Mini.nil ∨ s.minibuf_level = 0) then
          next_screen_window_loop s screen mini fuel w1
        else Walk.val w1

/-- `next_screen_window (screen, window, mini)`. -/
def next_screen_window (fuel : Nat) (s : State) (screen : Scr) (window : Option Win)
    (mini : Mini) : Walk Win :=
  match (match window with
    | some w => some w
    | none => (s.screens screen).selected_window) with
  | none => Walk.fault
  | some w => next_screen_window_loop s screen mini fuel w

/-- The operations of `window_loop` with their argument `obj`.  The
operations `DELETE_BUFFER_WINDOWS` and `UNSHOW_BUFFER` call `Fother_buffer`
and `Fget_buffer_create` of the buffer module and are not embedded. -/
inductive LoopOp where
  | GET_BUFFER_WINDOW (obj : Buf)
  | GET_LRU_WINDOW (obj : Bool)
  | DELETE_OTHER_WINDOWS (obj : Win)
  | GET_LARGEST_WINDOW
  deriving DecidableEq, Repr

/-- The `screens` argument of `window_loop`: `nil` (the selected screen), a
screen, or anything else (all screens). -/
inductive Screens where
  | nil
  | t
  | screen (c : Scr)
  deriving DecidableEq, Repr

/-- What the `switch` of `window_loop` does with one window: `return` a
window, or go on with a value of `best_window`. -/
inductive LoopStep where
  | ret (w : Win)
  | go (best_window : Option Win)
  deriving DecidableEq, Repr

/-- The `switch` statement of `window_loop` for window `w`.  The areas that
`GET_LARGEST_WINDOW` compares are products of two `int`s (`wrap32`). -/
def window_loop_case (E : Ext) (fuel : Nat) (type : LoopOp) (screen : Option Scr) (s : State)
    (w : Win) (best_window : Option Win) : Res LoopStep :=
  match type with
  | LoopOp.GET_BUFFER_WINDOW obj =>
    if (s.windows w).buffer = BufSlot.buf obj then Res.ok (LoopStep.ret w) s
    else Res.ok (LoopStep.go best_window) s
  | LoopOp.GET_LRU_WINDOW obj =>
    let narrow : Walk Bool :=
      if obj = true then
        match screen with
        | none => Walk.fault
        | some c => Walk.val (decide ((s.windows w).width ≠ (s.screens c).width))
      else Walk.val false
    match narrow with
    | Walk.fault => Res.fault
    | Walk.nofuel => Res.nofuel
    | Walk.val true => Res.ok (LoopStep.go best_window) s
    | Walk.val false =>
      if MINI_WINDOW_P (s.windows w) = true ∨ (s.windows w).dedicated = true then
        Res.ok (LoopStep.go best_window) s
      else
        match best_window with
        | none => Res.ok (LoopStep.go (some w)) s
        | some b =>
          if (s.windows b).use_time > (s.windows w).use_time then
            Res.ok (LoopStep.go (some w)) s
          else Res.ok (LoopStep.go best_window) s
  | LoopOp.DELETE_OTHER_WINDOWS obj =>
    if w ≠ obj then
      (Fdelete_window E fuel s (some w)).andThen fun _ s1 => Res.ok (LoopStep.go best_window) s1
    else Res.ok (LoopStep.go best_window) s
  | LoopOp.GET_LARGEST_WINDOW =>
    if MINI_WINDOW_P (s.windows w) = true ∨ (s.windows w).dedicated = true then
      Res.ok (LoopStep.go best_window) s
    else
      match best_window with
      | none => Res.ok (LoopStep.go (some w)) s
      | some b =>
        if wrap32 ((s.windows w).height * (s.windows w).width)
            > wrap32 ((s.windows b).height * (s.windows b).width) then
          Res.ok (LoopStep.go (some w)) s
        else Res.ok (LoopStep.go best_window) s

/-- The `do ... while` loop of `window_loop`. -/
def window_loop_go (E : Ext) (type : LoopOp) (mini : Bool) (screen : Option Scr)
    (first_window : Win) : Nat → State → Win → Option Win → Res (Option Win)
  | 0, _, _, _ => Res.nofuel
  | fuel + 1, s, w, best_window =>
    let m := if mini = true then Mini.t else Mini.nil
    let nw :=
      match screen with
      | some c => next_screen_window fuel s c (some w) m
      | none => Fnext_window E fuel s (some w) m true
    match nw with
    | Walk.fault => Res.fault
    | Walk.nofuel => Res.nofuel
    | Walk.val next_window =>
      let r : Res LoopStep :=
        if MINI_WINDOW_P (s.windows w) = false ∨ (mini = true ∧ s.minibuf_level > 0) then
          window_loop_case E fuel type screen s w best_window
        else Res.ok (LoopStep.go best_window) s
      r.andThen fun st s1 =>
        match st with
        | LoopStep.ret x => Res.ok (some x) s1
        | LoopStep.go best1 =>
          if next_window = first_window then Res.ok best1 s1
          else window_loop_go E type mini screen first_window fuel s1 next_window best1

/-- `window_loop (type, obj, mini, screens)`. -/
def window_loop (E : Ext) (fuel : Nat) (s : State) (type : LoopOp) (mini : Bool)
    (screens : Screens) : Res (Option Win) :=
  let screen : Option Scr :=
    match screens with
    | Screens.screen c => some c
    | Screens.nil => some s.selected_screen
    | Screens.t => none
  let first_window : Option Win :=
    match type with
    | LoopOp.DELETE_OTHER_WINDOWS obj => some obj
    | _ =>
      match screen with
      | some c => (s.screens c).selected_window
      | none => (s.screens s.selected_screen).selected_window
  match first_window with
  | none => Res.fault
  | some f => window_loop_go E type mini screen f fuel s f none

/-- `Fget_lru_window (screens)`. -/
def Fget_lru_window (E : Ext) (fuel : Nat) (s : State) (screens : Screens) :
    Res (Option Win) :=
  (window_loop E fuel s (LoopOp.GET_LRU_WINDOW true) false screens).andThen fun w s1 =>
    if w ≠ none ∧ w ≠ some s1.selected_window then Res.ok w s1
    else window_loop E fuel s1 (LoopOp.GET_LRU_WINDOW false) false screens

/-- `Fget_buffer_window (buffer, screen)`; the argument `buffer` is the
result of `Fget_buffer`, a buffer or `nil`. -/
def Fget_buffer_window (E : Ext) (fuel : Nat) (s : State) (buffer : Option Buf)
    (screen : Screens) : Res (Option Win) :=
  match buffer with
  | some b => window_loop E fuel s (LoopOp.GET_BUFFER_WINDOW b) true screen
  | none => Res.ok none s

/-! ## Window configurations -/

/-- The fields of `struct saved_window` that the state of this development
can hold (`mark` belongs to the buffer module).  The slots `parent` and
`prev` hold an index into the vector of saved windows, or `nil`. -/
structure SavedWindow where
  window : Option Win := none
  buffer : BufSlot := BufSlot.nil
  start : Option Marker := none
  pointm : Option Marker := none
  left : Int := 0
  top : Int := 0
  width : Int := 0
  height : Int := 0
  hscroll : Int := 0
  parent : Option Nat := none
  prev : Option Nat := none
  start_at_line_beg : Bool := false
  display_table : Option Nat := none
  deriving DecidableEq, Repr

/-- The fields of `struct save_window_data` that the state of this
development can hold (`minibuf_scroll_window` belongs to another module). -/
structure SaveWindowData where
  screen_width : Int
  screen_height : Int
  current_window : Win
  current_buffer : Buf
  root_window : Option Win
  saved_windows : List SavedWindow
  deriving DecidableEq, Repr

/-- `delete_all_subwindows (w)`: mark the window, its next siblings and
everything below them as deleted. -/
def delete_all_subwindows : Nat → State → Win → Res Unit
  | 0, _, _ => Res.nofuel
  | fuel + 1, s, w =>
    let s1 := setw s w { s.windows w with buffer := BufSlot.nil }
    let r1 : Res Unit :=
      match (s1.windows w).next with
      | some n => delete_all_subwindows fuel s1 n
      | none => Res.ok () s1
    r1.andThen fun _ s2 =>
      let r2 : Res Unit :=
        match (s2.windows w).vchild with
        | some c => delete_all_subwindows fuel s2 c
        | none => Res.ok () s2
      r2.andThen fun _ s3 =>
        match (s3.windows w).hchild with
        | some c => delete_all_subwindows fuel s3 c
        | none => Res.ok () s3

/-- `count_windows (window)`. -/
def count_windows (s : State) : Nat → Win → Walk Nat
  | 0, _ => Walk.nofuel
  | fuel + 1, window =>
    let c1 : Walk Nat :=
      match (s.windows window).next with
      | some n => count_windows s fuel n
      | none => Walk.val 0
    match c1 with
    | Walk.fault => Walk.fault
    | Walk.nofuel => Walk.nofuel
    | Walk.val n1 =>
      let c2 : Walk Nat :=
        match (s.windows window).vchild with
        | some c => count_windows s fuel c
        | none => Walk.val 0
      match c2 with
      | Walk.fault => Walk.fault
      | Walk.nofuel => Walk.nofuel
      | Walk.val n2 =>
        let c3 : Walk Nat :=
          match (s.windows window).hchild with
          | some c => count_windows s fuel c
          | none => Walk.val 0
        match c3 with
        | Walk.fault => Walk.fault
        | Walk.nofuel => Walk.nofuel
        | Walk.val n3 => Walk.val (1 + n1 + n2 + n3)

/-- Modelled from the spec: `Fcopy_marker` of the marker module (absent from
the source): a new marker with the buffer and position of the argument; a
slot that is `nil` is not a marker. -/
def Fcopy_marker (s : State) (m : Option Marker) : Res (Option Marker) :=
  match m with
  | none => Res.signal Err.wrong_type_argument s
  | some k => Res.ok (some k) s

/-- The saved window that `save_window_save` makes of window `window`, given
the markers saved for it. -/
def saved_of (s : State) (window : Win) (pointm start : Option Marker)
    (start_at_line_beg : Bool) : SavedWindow :=
  let w := s.windows window
  { window := some window, buffer := w.buffer, left := w.left, top := w.top,
    width := w.width, height := w.height, hscroll := w.hscroll,
    display_table := w.display_table, pointm := pointm, start := start,
    start_at_line_beg := start_at_line_beg,
    parent := w.parent.map fun q => (s.windows q).temslot,
    prev := w.prev.map fun q => (s.windows q).temslot }

/-- The markers that `save_window_save` saves for window `window`: `pointm`
(the point of the buffer for the selected window), `start` and
`start_at_line_beg`. -/
def save_markers (s : State) (window : Win) : Res (Option Marker × Option Marker × Bool) :=
  let w := s.windows window
  match w.buffer with
  | BufSlot.nil => Res.ok (none, none, false) s
  | BufSlot.t => Res.fault
  | BufSlot.buf b =>
    let pm : Res (Option Marker) :=
      if window = s.selected_window then
        Res.ok (set_marker (some Fmake_marker) (s.buffers b).pt b) s
      else Fcopy_marker s w.pointm
    pm.andThen fun pointm s1 =>
      (Fcopy_marker s1 w.start).andThen fun start s2 =>
        Res.ok (pointm, start, w.start_at_line_beg) s2

/-- `save_window_save (window, vector, i)`: returns the vector as filled and
the next free index. -/
def save_window_save : Nat → State → Option Win → List SavedWindow → Nat →
    Res (List SavedWindow × Nat)
  | 0, _, _, _, _ => Res.nofuel
  | _ + 1, s, none, vector, i => Res.ok (vector, i) s
  | fuel + 1, s, some window, vector, i =>
    if vector.length ≤ i then Res.fault
    else
      let s1 := setw s window { s.windows window with temslot := i }
      (save_markers s1 window).andThen fun m s2 =>
        let vector1 := vector.set i (saved_of s2 window m.1 m.2.1 m.2.2)
        let r1 : Res (List SavedWindow × Nat) :=
          match (s2.windows window).vchild with
          | some c => save_window_save fuel s2 (some c) vector1 (i + 1)
          | none => Res.ok (vector1, i + 1) s2
        r1.andThen fun a s3 =>
          let r2 : Res (List SavedWindow × Nat) :=
            match (s3.windows window).hchild with
            | some c => save_window_save fuel s3 (some c) a.1 a.2
            | none => Res.ok a s3
          r2.andThen fun b s4 =>
            save_window_save fuel s4 (s4.windows window).next b.1 b.2

/-- `Fcurrent_window_configuration ()`. -/
def Fcurrent_window_configuration (fuel : Nat) (s : State) : Res SaveWindowData :=
  match (s.screens s.selected_screen).root_window with
  | none => Res.fault
  | some root =>
    (Res.ofWalk (count_windows s fuel root) s).andThen fun n_windows s1 =>
      (save_window_save fuel s1 (some root) (List.replicate n_windows {}) 0).andThen
        fun a s2 =>
          Res.ok
            { screen_width := (s.screens s.selected_screen).width,
              screen_height := (s.screens s.selected_screen).height,
              current_window := s.selected_window,
              current_buffer := s.current_buffer,
              root_window := (s.screens s.selected_screen).root_window,
              saved_windows := a.1 } s2

/-- `SAVED_WINDOW_N (saved_windows, n)->window` for the index in a slot
`parent` or `prev` that is not `nil`. -/
def saved_window_at (saved_windows : List SavedWindow) (n : Nat) : Walk (Option Win) :=
  match saved_windows[n]? with
  | none => Walk.fault
  | some q => Walk.val q.window

/-- The part of the loop body of `Fset_window_configuration` that restores
the links of window `window` from its saved window `p`. -/
def restore_links (s : State) (saved_windows : List SavedWindow) (p : SavedWindow)
    (window : Win) : Res Unit :=
  let s1 := setw s window { s.windows window with next := none }
  let par : Walk (Option Win) :=
    match p.parent with
    | some n => saved_window_at saved_windows n
    | none => Walk.val none
  (Res.ofWalk par s1).andThen fun parent s1 =>
    let s2 := setw s1 window { s1.windows window with parent := parent }
    match p.prev with
    | some n =>
      (Res.ofWalk (saved_window_at saved_windows n) s2).andThen fun prev s2 =>
        let s3 := setw s2 window { s2.windows window with prev := prev }
        if (s3.windows window).mini_p = true ∧ (s3.windows window).prev = p.window then
          Res.ok () (setw s3 window { s3.windows window with next := none })
        else
          match (s3.windows window).prev with
          | none => Res.fault
          | some v => Res.ok () (setw s3 v { s3.windows v with next := p.window })
    | none =>
      let s3 := setw s2 window { s2.windows window with prev := none }
      match (s3.windows window).parent with
      | none => Res.ok () s3
      | some q =>
        if p.width = (s3.windows q).width then
          Res.ok () (setw s3 q { s3.windows q with vchild := p.window, hchild := none })
        else
          Res.ok () (setw s3 q { s3.windows q with hchild := p.window, vchild := none })

/-- Modelled from the spec: `Fmarker_position` followed by
`set_marker_restricted` (both absent from the source): move the marker of a
window slot to the position of the saved marker in buffer `b`; a saved marker
that points nowhere has the position `nil`, which detaches the marker. -/
def restore_marker (m saved : Option Marker) (b : Buf) : Walk (Option Marker) :=
  match saved with
  | none => Walk.fault
  | some k =>
    match k.buffer with
    | none => Walk.val (unchain_marker m)
    | some _ => Walk.val (set_marker m k.charpos b)

/-- Modelled from the spec: `Fgoto_char` of the editing module (absent from
the source) on the marker of a window slot: move the point of the current
buffer to the position of the marker, within the visible range. -/
def Fgoto_char (s : State) (m : Option Marker) : Res Unit :=
  match m with
  | none => Res.signal Err.wrong_type_argument s
  | some k =>
    if k.buffer = none then Res.signal Err.marker_nowhere s
    else
      let b := s.buffers s.current_buffer
      Res.ok () (setb s s.current_buffer { b with pt := clip_to_bounds b.begv k.charpos b.zv })

/-- The part of the loop body of `Fset_window_configuration` that reinstalls
the saved buffer of window `window` and the pointers into it. -/
def restore_buffer (E : Ext) (s : State) (p : SavedWindow) (window : Win)
    (new_current_buffer : Option Buf) : Res Unit :=
  match p.buffer with
  | BufSlot.nil => Res.ok () (setw s window { s.windows window with buffer := p.buffer })
  | BufSlot.t => Res.fault
  | BufSlot.buf pb =>
    if (s.buffers pb).name_live = true then
      let s1 := setw s window { s.windows window with
        buffer := p.buffer, start_at_line_beg := p.start_at_line_beg }
      (Res.ofWalk (restore_marker (s1.windows window).start p.start pb) s1).andThen
        fun st s1 =>
          let s2 := setw s1 window { s1.windows window with start := st }
          (Res.ofWalk (restore_marker (s2.windows window).pointm p.pointm pb) s2).andThen
            fun pm s2 =>
              let s3 := setw s2 window { s2.windows window with pointm := pm }
              if some pb ≠ new_current_buffer ∧ pb = s3.current_buffer then
                Fgoto_char s3 (s3.windows window).pointm
              else Res.ok () s3
    else
      match (s.windows window).buffer with
      | BufSlot.buf wb =>
        if (s.buffers wb).name_live = false then
          match E.first_buffer s with
          | BufSlot.buf nb =>
            let s1 := setw s window { s.windows window with buffer := BufSlot.buf nb }
            let s2 := setw s1 window { s1.windows window with
              start := set_marker (s1.windows window).start 0 nb }
            let s3 := setw s2 window { s2.windows window with
              pointm := set_marker (s2.windows window).pointm 0 nb }
            Res.ok () (setw s3 window { s3.windows window with start_at_line_beg := true })
          | _ => Res.fault
        else
          match (s.windows window).start, (s.windows window).pointm with
          | some st, some pm =>
            let s1 :=
              if st.buffer = none then
                setw s window { s.windows window with
                  start := set_marker (s.windows window).start 0 wb }
              else s
            let s2 :=
              if pm.buffer = none then
                setw s1 window { s1.windows window with
                  pointm := set_marker (s1.windows window).pointm (s1.buffers wb).pt wb }
              else s1
            Res.ok () (setw s2 window { s2.windows window with start_at_line_beg := true })
          | _, _ => Res.fault
      | _ => Res.fault

/-- The body of the loop of `Fset_window_configuration` for the saved window
`p`. -/
def restore_window (E : Ext) (s : State) (saved_windows : List SavedWindow)
    (new_current_buffer : Option Buf) (p : SavedWindow) : Res Unit :=
  match p.window with
  | none => Res.fault
  | some window =>
    (restore_links s saved_windows p window).andThen fun _ s1 =>
      let s2 := setw s1 window { s1.windows window with
        left := p.left, top := p.top, width := p.width, height := p.height,
        hscroll := p.hscroll, display_table := p.display_table, last_modified := 0 }
      restore_buffer E s2 p window new_current_buffer

/-- The loop of `Fset_window_configuration` over the saved windows that are
left, in the order of the vector. -/
def restore_loop (E : Ext) (saved_windows : List SavedWindow)
    (new_current_buffer : Option Buf) : State → List SavedWindow → Res Unit
  | s, [] => Res.ok () s
  | s, p :: l =>
    (restore_window E s saved_windows new_current_buffer p).andThen fun _ s1 =>
      restore_loop E saved_windows new_current_buffer s1 l

/-- The end of `Fset_window_configuration`: select the screen `c` of the
configuration if it is another one than the selected screen, and on the
selected screen select the saved window and make the saved buffer current. -/
def restore_selection (E : Ext) (s : State) (data : SaveWindowData) (c : Scr)
    (new_current_buffer : Option Buf) : Res Unit :=
  let r1 : Res Unit :=
    if c ≠ s.selected_screen ∧ E.SCREEN_IS_TERMCAP c = false then
      match data.root_window with
      | none => Res.fault
      | some root =>
        match (s.windows root).screen with
        | none => Res.signal Err.wrong_type_argument s
        | some c1 => Res.ok () (E.Fselect_screen s c1)
    else Res.ok () s
  r1.andThen fun _ s1 =>
    if c = s1.selected_screen then
      (Fselect_window E s1 data.current_window).andThen fun _ s2 =>
        match new_current_buffer with
        | some b => Res.ok () { s2 with current_buffer := b }
        | none =>
          match (s2.windows s2.selected_window).buffer with
          | BufSlot.buf b => Res.ok () { s2 with current_buffer := b }
          | _ => Res.signal Err.wrong_type_argument s2
    else Res.ok () s1

/-- `Fset_window_configuration (arg)` for an argument that is a window
configuration. -/
def Fset_window_configuration (E : Ext) (fuel : Nat) (s : State) (data : SaveWindowData) :
    Res Unit :=
  match data.saved_windows[0]? with
  | none => Res.fault
  | some p0 =>
    match p0.window with
    | none => Res.fault
    | some w0 =>
      match (s.windows w0).screen with
      | none => Res.fault
      | some c =>
        if data.screen_height ≠ (s.screens c).height
            ∨ data.screen_width ≠ (s.screens c).width then
          Res.signal Err.screen_size_mismatch s
        else
          let s1 := { s with windows_or_buffers_changed := s.windows_or_buffers_changed + 1 }
          let new_current_buffer : Option Buf :=
            if (s1.buffers data.current_buffer).name_live = false then none
            else some data.current_buffer
          match (s1.screens c).root_window with
          | none => Res.fault
          | some root =>
            (delete_all_subwindows fuel s1 root).andThen fun _ s2 =>
              (restore_loop E data.saved_windows new_current_buffer s2
                  data.saved_windows).andThen fun _ s3 =>
                let s4 := sets s3 c { s3.screens c with root_window := data.root_window }
                restore_selection E s4 data c new_current_buffer

/-- The state `state3v` with the buffers narrowed to the positions 5 to 10,
their point at 7; the markers `pointm` of the windows are at position 1. -/
def state3v_narrowed : State :=
  { state3v with buffers := fun _ => { pt := 7, begv := 5, zv := 10 } }

/-- A configuration recorded on a screen of 80 columns and 25 lines, with the
root window 2 as its first saved window. -/
def config_25 : SaveWindowData :=
  { screen_width := 80, screen_height := 25, current_window := 0, current_buffer := 0,
    root_window := some 2, saved_windows := [{ window := some 2 }] }

/-- The windows of a screen whose root 2 is a horizontal combination of the
leaves 0, 3 and 4, of 20, 20 and 40 columns; the minibuffer window 1 follows
the root. -/
def store3h : Win → Window := fun i =>
  match i with
  | 0 => { width := 20, height := 23, screen := some 0, parent := some 2, next := some 3,
           buffer := BufSlot.buf 0, start := mark1 0, pointm := mark1 0 }
  | 1 => { top := 23, width := 80, height := 1, screen := some 0, prev := some 2,
           buffer := BufSlot.buf 1, mini_p := true, start := mark1 1, pointm := mark1 1 }
  | 2 => { width := 80, height := 23, screen := some 0, next := some 1, hchild := some 0 }
  | 3 => { left := 20, width := 20, height := 23, screen := some 0, parent := some 2,
           prev := some 0, next := some 4, buffer := BufSlot.buf 0, start := mark1 0,
           pointm := mark1 0 }
  | 4 => { left := 40, width := 40, height := 23, screen := some 0, parent := some 2,
           prev := some 3, buffer := BufSlot.buf 0, start := mark1 0, pointm := mark1 0 }
  | _ => {}

/-- The state of a session with the windows of `store3h`; the leaf 0 is
selected. -/
def state3h : State :=
  { windows := store3h,
    screens := fun _ => { root_window := some 2, minibuffer_window := some 1,
                          selected_window := some 0, width := 80, height := 24 },
    buffers := fun _ => {}, nalloc := 5, selected_window := 0, selected_screen := 0 }

/-- The windows of a screen whose root 2 is a vertical combination, 3 lines
high, of the leaves 0, 3 and 4, of 1 line each; the minibuffer window 1
follows the root. -/
def store111 : Win → Window := fun i =>
  match i with
  | 0 => { width := 80, height := 1, screen := some 0, parent := some 2, next := some 3,
           buffer := BufSlot.buf 0, start := mark1 0, pointm := mark1 0 }
  | 1 => { top := 3, width := 80, height := 1, screen := some 0, prev := some 2,
           buffer := BufSlot.buf 1, mini_p := true, start := mark1 1, pointm := mark1 1 }
  | 2 => { width := 80, height := 3, screen := some 0, next := some 1, vchild := some 0 }
  | 3 => { top := 1, width := 80, height := 1, screen := some 0, parent := some 2,
           prev := some 0, next := some 4, buffer := BufSlot.buf 0, start := mark1 0,
           pointm := mark1 0 }
  | 4 => { top := 2, width := 80, height := 1, screen := some 0, parent := some 2,
           prev := some 3, buffer := BufSlot.buf 0, start := mark1 0, pointm := mark1 0 }
  | _ => {}

/-- The state of a session with the windows of `store111`; the leaf 0 is
selected. -/
def state111 : State :=
  { windows := store111,
    screens := fun _ => { root_window := some 2, minibuffer_window := some 1,
                          selected_window := some 0, width := 80, height := 4 },
    buffers := fun _ => {}, nalloc := 5, selected_window := 0, selected_screen := 0 }

/-- The children of the root of `state3v` and of `state111`: the leaves 0, 3
and 4. -/
def chain034 : Shape :=
  Shape.node 0 Kind.leaf Shape.nil (Shape.node 3 Kind.leaf Shape.nil chain4)

/-- No window of chain `t` gets a smaller height by `resize_y` when the
combination above it does not shrink: below a horizontal combination every
child is at most as high as the new height `v`, below a vertical combination
the old height `old` is at most `v`. -/
def GrowsY (t : Shape) : Prop :=
  ∀ (vert : Bool) (P : Win) (v old top lastbot lastobot : Int) (h h' : Win → Window),
    resize_y vert P v old top lastbot lastobot h t = some h' →
    (P :: t.handles).Nodup →
    (∀ z ∈ t.handles, 0 ≤ (h z).height) → (∀ i ∈ t.inner, TileY h i) →
    (vert = false → ∀ y ∈ t.tops, (h y).height ≤ v) →
    (vert = true → 0 < old ∧ old ≤ v ∧ 0 ≤ lastobot
      ∧ lastbot = top + scale_pos lastobot v old) →
    v ≤ 32767 → (vert = true → lastobot + sum_height h t.tops ≤ old) →
    ∀ z ∈ t.handles, (h z).height ≤ (h' z).height

/-- The loop of `next_screen_window` (and of `Fnext_window`) stops at window
`w` under the policy `mini`: `w` is no minibuffer window, or the policy is
`t`, or the policy is `nil` and the minibuffer is active. -/
def mini_ok (s : State) (mini : Mini) (w : Win) : Bool :=
  !(MINI_WINDOW_P (s.windows w) && decide (mini ≠ Mini.t)
    && (decide (mini ≠ Mini.nil) || decide (s.minibuf_level = 0)))

/-- The loop of `window_loop` over a list of windows, as a function of what
its body does with one window and the value of `best_window`. -/
def loop_fold (st : Win → Option Win → LoopStep) : List Win → Option Win → Option Win
  | [], best => best
  | w :: l, best =>
    match st w best with
    | LoopStep.ret x => some x
    | LoopStep.go b => loop_fold st l b

/-- One step of a search for the first window with the greatest key among
the windows that satisfy `elig`. -/
def pick (elig : Win → Bool) (key : Win → Int) (best : Option Win) (w : Win) : Option Win :=
  if elig w = true then
    match best with
    | none => some w
    | some b => if key w > key b then some w else best
  else best

/-- Window `w` is neither a minibuffer window nor dedicated. -/
def eligible (s : State) (w : Win) : Bool :=
  !MINI_WINDOW_P (s.windows w) && !(s.windows w).dedicated

/-- Window `w` is as wide as screen `c`. -/
def full_width (s : State) (c : Scr) (w : Win) : Bool :=
  decide ((s.windows w).width = (s.screens c).width)

/-- The state `state6` with the use times 4, 5 and 3 of the leaves 0, 3 and
5. -/
def state6_used : State :=
  { state6 with windows := fun i =>
      { store6 i with use_time := match i with
          | 0 => 4
          | 3 => 5
          | 5 => 3
          | _ => 0 } }

/-- The markers and the flag that `save_window_save` saves for window `x`
when its markers are markers. -/
def saved_markers (s : State) (x : Win) : Option Marker × Option Marker × Bool :=
  match (s.windows x).buffer with
  | BufSlot.buf b =>
    (if x = s.selected_window then set_marker (some Fmake_marker) (s.buffers b).pt b
      else (s.windows x).pointm,
     (s.windows x).start, (s.windows x).start_at_line_beg)
  | _ => (none, none, false)

/-- The saved window of window `x` when the windows have the indices `slot`
in the vector of saved windows. -/
def entry (s : State) (slot : Win → Nat) (x : Win) : SavedWindow :=
  { window := some x, buffer := (s.windows x).buffer,
    left := (s.windows x).left, top := (s.windows x).top,
    width := (s.windows x).width, height := (s.windows x).height,
    hscroll := (s.windows x).hscroll, display_table := (s.windows x).display_table,
    pointm := (saved_markers s x).1, start := (saved_markers s x).2.1,
    start_at_line_beg := (saved_markers s x).2.2,
    parent := (s.windows x).parent.map slot, prev := (s.windows x).prev.map slot }

/-- The state `cur` with the `temslot` of the windows of the list `l` set to
their indices `slot`. -/
def slotted (cur : State) (slot : Win → Nat) (l : List Win) : State :=
  { cur with windows := fun x =>
      if x ∈ l then { cur.windows x with temslot := slot x } else cur.windows x }

/-- The state `cur` with the windows of the list `l` marked as deleted. -/
def blanked (cur : State) (l : List Win) : State :=
  { cur with windows := fun x =>
      if x ∈ l then { cur.windows x with buffer := BufSlot.nil } else cur.windows x }

/-- A leaf has no children, a combination has at least two. -/
def Shape.branched : Shape → Bool
  | Shape.nil => true
  | Shape.node _ k ch rest =>
    (match k with
      | Kind.leaf => decide (ch = Shape.nil)
      | _ => decide (2 ≤ ch.tops.length))
    && ch.branched && rest.branched

/-- Window `x` has in state `s'` the links, the geometry, the `buffer` slot
and the `hscroll` that it has in state `s`. -/
def Restored (s s' : State) (x : Win) : Prop :=
  (s'.windows x).core = (s.windows x).core ∧ (s'.windows x).hscroll = (s.windows x).hscroll

/-- States that differ in the `temslot` of their windows only. -/
def TemEq (s cur : State) : Prop :=
  cur = { s with windows := cur.windows }
    ∧ ∀ x, cur.windows x = { s.windows x with temslot := (cur.windows x).temslot }

/-- Window `x` stands in the list `H` after its parent and its previous
sibling and before its next sibling, the sibling links are mutual, and the
child slot of the parent of a first child can be read from the widths. -/
def Placed (s : State) (H : List Win) (x : Win) : Prop :=
  (∀ q, (s.windows x).parent = some q → [q, x].Sublist H)
    ∧ (∀ v, (s.windows x).prev = some v → [v, x].Sublist H ∧ (s.windows v).next = some x)
    ∧ (∀ z, (s.windows x).next = some z → [x, z].Sublist H ∧ (s.windows z).prev = some x)
    ∧ ((s.windows x).prev = none → ∀ q, (s.windows x).parent = some q →
        if (s.windows x).width = (s.windows q).width then
          (s.windows q).vchild = some x ∧ (s.windows q).hchild = none
        else (s.windows q).hchild = some x ∧ (s.windows q).vchild = none)

/-- The state `cur` in the middle of the loop of `Fset_window_configuration`
that restores state `s`, when the windows of the list `l` have been restored:
they have their links, geometry, `hscroll` and `buffer` back, but for the
`next` of a window whose next sibling is still to come. -/
def Partly (s : State) (H l : List Win) (cur : State) : Prop :=
  cur = { s with windows := cur.windows,
                 windows_or_buffers_changed := cur.windows_or_buffers_changed }
    ∧ (∀ x, (cur.windows x).hchild = (s.windows x).hchild
        ∧ (cur.windows x).vchild = (s.windows x).vchild
        ∧ (cur.windows x).mini_p = (s.windows x).mini_p
        ∧ (cur.windows x).screen = (s.windows x).screen)
    ∧ (∀ x ∈ l, (cur.windows x).parent = (s.windows x).parent
        ∧ (cur.windows x).prev = (s.windows x).prev
        ∧ (cur.windows x).left = (s.windows x).left
        ∧ (cur.windows x).top = (s.windows x).top
        ∧ (cur.windows x).width = (s.windows x).width
        ∧ (cur.windows x).height = (s.windows x).height
        ∧ (cur.windows x).hscroll = (s.windows x).hscroll
        ∧ (cur.windows x).buffer = (s.windows x).buffer
        ∧ (cur.windows x).next
            = (s.windows x).next.bind fun z => if z ∈ l then some z else none)
    ∧ ∀ x, x ∉ H → Restored s cur x

/-- The windows of a screen of 80 columns and 24 lines whose root 2 is a
vertical combination of the leaf 0 (6 lines), the horizontal combination 3
(8 lines) and the leaf 8 (9 lines); window 3 holds the vertical combination 4
(40 columns: the leaves 5 and 6, of 4 lines each) and the leaf 7 (40
columns); the minibuffer window 1 follows the root. -/
def store9 : Win → Window := fun i =>
  match i with
  | 0 => { width := 80, height := 6, screen := some 0, parent := some 2, next := some 3,
           buffer := BufSlot.buf 0, start := mark1 0, pointm := mark1 0 }
  | 1 => { top := 23, width := 80, height := 1, screen := some 0, prev := some 2,
           buffer := BufSlot.buf 1, mini_p := true, start := mark1 1, pointm := mark1 1 }
  | 2 => { width := 80, height := 23, screen := some 0, next := some 1, vchild := some 0 }
  | 3 => { top := 6, width := 80, height := 8, screen := some 0, parent := some 2,
           prev := some 0, next := some 8, hchild := some 4 }
  | 4 => { top := 6, width := 40, height := 8, screen := some 0, parent := some 3,
           next := some 7, vchild := some 5 }
  | 5 => { top := 6, width := 40, height := 4, screen := some 0, parent := some 4,
           next := some 6, buffer := BufSlot.buf 0, start := mark1 0, pointm := mark1 0 }
  | 6 => { top := 10, width := 40, height := 4, screen := some 0, parent := some 4,
           prev := some 5, buffer := BufSlot.buf 0, start := mark1 0, pointm := mark1 0 }
  | 7 => { left := 40, top := 6, width := 40, height := 8, screen := some 0, parent := some 3,
           prev := some 4, buffer := BufSlot.buf 0, start := mark1 0, pointm := mark1 0 }
  | 8 => { top := 14, width := 80, height := 9, screen := some 0, parent := some 2,
           prev := some 3, buffer := BufSlot.buf 0, start := mark1 0, pointm := mark1 0 }
  | _ => {}

/-- The state of a session with the windows of `store9`; the leaf 8 is
selected. -/
def state9 : State :=
  { windows := store9,
    screens := fun _ => { root_window := some 2, minibuffer_window := some 1,
                          selected_window := some 8, width := 80, height := 24 },
    buffers := fun _ => {}, nalloc := 9, selected_window := 8, selected_screen := 0 }

/-- The shape of `state9`. -/
def shape9 : Shape :=
  Shape.node 2 Kind.vcomb
    (Shape.node 0 Kind.leaf Shape.nil
      (Shape.node 3 Kind.hcomb
        (Shape.node 4 Kind.vcomb
          (Shape.node 5 Kind.leaf Shape.nil (Shape.node 6 Kind.leaf Shape.nil Shape.nil))
          (Shape.node 7 Kind.leaf Shape.nil Shape.nil))
        (Shape.node 8 Kind.leaf Shape.nil Shape.nil)))
    chain1

/-- The result is undefined behaviour of the C code. -/
def Res.isFault {α : Type} (r : Res α) : Bool :=
  match r with
  | Res.fault => true
  | _ => false

/-- The windows of a screen of 23 lines whose root 2 is a vertical
combination, 22 lines high, of the leaves 0, 3 and 4, of 6, 10 and 6 lines;
the minibuffer window 1 follows the root. -/
def store3m : Win → Window := fun i =>
  match i with
  | 0 => { width := 80, height := 6, screen := some 0, parent := some 2, next := some 3,
           buffer := BufSlot.buf 0, start := mark1 0, pointm := mark1 0 }
  | 1 => { top := 22, width := 80, height := 1, screen := some 0, prev := some 2,
           buffer := BufSlot.buf 1, mini_p := true, start := mark1 1, pointm := mark1 1 }
  | 2 => { width := 80, height := 22, screen := some 0, next := some 1, vchild := some 0 }
  | 3 => { top := 6, width := 80, height := 10, screen := some 0, parent := some 2,
           prev := some 0, next := some 4, buffer := BufSlot.buf 0, start := mark1 0,
           pointm := mark1 0 }
  | 4 => { top := 16, width := 80, height := 6, screen := some 0, parent := some 2,
           prev := some 3, buffer := BufSlot.buf 0, start := mark1 0, pointm := mark1 0 }
  | _ => {}

/-- The state of a session with the windows of `store3m`; the leaf 3 in the
middle is selected. -/
def state3m : State :=
  { windows := store3m,
    screens := fun _ => { root_window := some 2, minibuffer_window := some 1,
                          selected_window := some 3, width := 80, height := 23 },
    buffers := fun _ => {}, nalloc := 5, selected_window := 3, selected_screen := 0 }

/-- `window_internal_height (w)`: the number of lines of text in `w`, not
counting the mode line. -/
def window_internal_height (E : Ext) (s : State) (w : Win) : Walk Int :=
  let ht := (s.windows w).height
  if MINI_WINDOW_P (s.windows w) = true then Walk.val ht
  else if (s.windows w).parent ≠ none ∨ (s.windows w).vchild ≠ none
      ∨ (s.windows w).hchild ≠ none ∨ (s.windows w).next ≠ none
      ∨ (s.windows w).prev ≠ none then Walk.val (ht - 1)
  else
    match (s.windows w).screen with
    | none => Walk.fault
    | some c => if E.SCREEN_WANTS_MODELINE_P c = true then Walk.val (ht - 1) else Walk.val ht

/-- Modelled from the spec: `Fset_buffer` of the buffer module (absent from
the source) on the value of a `buffer` slot: make a live buffer current. -/
def Fset_buffer (s : State) (buffer : BufSlot) : Res Unit :=
  match buffer with
  | BufSlot.buf b =>
    if (s.buffers b).name_live = false then Res.signal Err.deleted_buffer s
    else Res.ok () { s with current_buffer := b }
  | _ => Res.signal Err.wrong_type_argument s

/-- `Frecenter (n)` for an argument `n` that is a number: move the start of
the selected window so that point is on line `n` of it.  The motion by screen
lines is the one of `Fvertical_motion`. -/
def Frecenter (E : Ext) (s : State) (n : Int) : Res Unit :=
  let w := s.selected_window
  match window_internal_height E s w with
  | Walk.fault => Res.fault
  | Walk.nofuel => Res.nofuel
  | Walk.val ht =>
    let opoint := (s.buffers s.current_buffer).pt
    let n1 := if n < 0 then n + ht else n
    let s1 := setb s s.current_buffer
      { s.buffers s.current_buffer with pt := E.vertical_motion s (- n1) }
    let point := (s1.buffers s1.current_buffer).pt
    let r2 : Res Unit :=
      match (s1.windows w).start, (s1.windows w).buffer with
      | none, _ => Res.signal Err.wrong_type_argument s1
      | some _, BufSlot.t => Res.signal Err.wrong_type_argument s1
      | some _, BufSlot.nil =>
        Res.ok () (setw s1 w { s1.windows w with
          start := set_marker (s1.windows w).start point s1.current_buffer })
      | some _, BufSlot.buf b =>
        if (s1.buffers b).name_live = false then
          Res.ok () (setw s1 w { s1.windows w with
            start := unchain_marker (s1.windows w).start })
        else
          Res.ok () (setw s1 w { s1.windows w with
            start := set_marker (s1.windows w).start point b })
    r2.andThen fun _ s2 =>
      let s3 := setw s2 w { s2.windows w with start_at_line_beg := E.bolp s2 }
      let s4 := setb s3 s3.current_buffer { s3.buffers s3.current_buffer with pt := opoint }
      Res.ok () (setw s4 w { s4.windows w with force_start := true })

/-- `Fdelete_other_windows (window)`. -/
def Fdelete_other_windows (E : Ext) (fuel : Nat) (s : State) (window : Option Win) :
    Res Unit :=
  let opoint := (s.buffers s.current_buffer).pt
  let obuf := s.current_buffer
  let window := window.getD s.selected_window
  let top := (s.windows window).top
  let screens :=
    match (s.windows window).screen with
    | some c => Screens.screen c
    | none => Screens.nil
  (window_loop E fuel s (LoopOp.DELETE_OTHER_WINDOWS window) false screens).andThen
    fun _ s1 =>
    (Fset_buffer s1 (s1.windows window).buffer).andThen fun _ s2 =>
      match (s2.windows window).start with
      | none => Res.fault
      | some st =>
        if st.buffer = none then Res.signal Err.marker_nowhere s2
        else
          let s3 := setb s2 s2.current_buffer
            { s2.buffers s2.current_buffer with pt := st.charpos }
          (Frecenter E s3 top).andThen fun _ s4 =>
            let s5 := { s4 with current_buffer := obuf }
            Res.ok () (setb s5 obuf { s5.buffers obuf with pt := opoint })

/-- No window of chain `t` gets a smaller width by `resize_x` when the
combination above it does not shrink: below a vertical combination every
child is at most as wide as the new width `v`, below a horizontal combination
the old width `old` is at most `v`. -/
def GrowsX (t : Shape) : Prop :=
  ∀ (hor : Bool) (P : Win) (v old left lastright lastoright : Int) (h h' : Win → Window),
    resize_x hor P v old left lastright lastoright h t = some h' →
    (P :: t.handles).Nodup →
    (∀ z ∈ t.handles, 0 ≤ (h z).width) → (∀ i ∈ t.inner, TileX h i) →
    (hor = false → ∀ x ∈ t.tops, (h x).width ≤ v) →
    (hor = true → 0 < old ∧ old ≤ v ∧ 0 ≤ lastoright
      ∧ lastright = left + scale_pos lastoright v old) →
    v ≤ 32767 → (hor = true → lastoright + sum_width h t.tops ≤ old) →
    ∀ z ∈ t.handles, (h z).width ≤ (h' z).width


/-- The slots of a window that the operations on the window tree leave alone:
everything but the links, the geometry and `last_modified`. -/
def Window.content (w : Window) : Window :=
  { w with left := 0, top := 0, width := 0, height := 0, last_modified := 0,
           parent := none, next := none, prev := none, hchild := none, vchild := none }

/-- State `s'` differs from `s` at most in the links, the geometry and
`last_modified` of windows, in the screens (but not in the minibuffer window
of a screen) and in the counters. -/
def SameContent (s s' : State) : Prop :=
  (∀ x, (s'.windows x).content = (s.windows x).content)
    ∧ (∀ c, (s'.screens c).minibuffer_window = (s.screens c).minibuffer_window)
    ∧ s'.buffers = s.buffers ∧ s'.selected_window = s.selected_window
    ∧ s'.selected_screen = s.selected_screen ∧ s'.minibuf_level = s.minibuf_level
    ∧ s'.current_buffer = s.current_buffer

/-- The tree of the selected screen is in order: it is well formed and
exactly tiled, every combination has two or more children, no window has a
height or a width below 1, the leaves show live buffers with their markers
in them, the selected window is a leaf, and the minibuffer window of the
screen, if it has one, is flagged as a minibuffer window. -/
def Live (s : State) (t : Shape) : Prop :=
  WF s s.selected_screen t ∧ Shown s t ∧ t.branched = true
    ∧ (∀ z ∈ t.handles, 1 ≤ (s.windows z).height ∧ 1 ≤ (s.windows z).width)
    ∧ s.selected_window ∈ t.leaves
    ∧ ∀ m, (s.screens s.selected_screen).minibuffer_window = some m →
        MINI_WINDOW_P (s.windows m) = true

/-- The geometry of a window: left, top, width and height. -/
def Window.geo (w : Window) : Int × Int × Int × Int := (w.left, w.top, w.width, w.height)

/-- State `s'` has the screens of `s` and every window has the geometry it
has in `s`. -/
def SameGeo (s s' : State) : Prop :=
  s'.screens = s.screens ∧ ∀ z, (s'.windows z).geo = (s.windows z).geo

/-- The invariant of the loop of `delete-other-windows` that started in the
state `s0` on a screen whose minibuffer chain is `mb` and whose root window
had the geometry `g`: the tree `t` of the selected screen is in order, it
still ends in the chain `mb` and its root window has the geometry `g`, the
windows in front of `mb` are ordinary windows and the windows of `mb` are
minibuffer windows, the flags and the minibuffer state are those of `s0`, and
no window of the tree is higher or wider than 32767. -/
def Pruning (s0 : State) (mb : Shape) (g : Int × Int × Int × Int) (s : State) (t : Shape) :
    Prop :=
  Live s t
    ∧ (∃ R k ch, t = Shape.node R k ch mb ∧ (s.windows R).geo = g
        ∧ ∀ z ∈ (Shape.node R k ch Shape.nil).handles, (s0.windows z).mini_p = false)
    ∧ (∀ z ∈ mb.handles, (s0.windows z).mini_p = true)
    ∧ (∀ y, (s.windows y).mini_p = (s0.windows y).mini_p)
    ∧ s.minibuf_level = s0.minibuf_level ∧ s.selected_screen = s0.selected_screen
    ∧ (∀ c, (s.screens c).minibuffer_window = (s0.screens c).minibuffer_window)
    ∧ (∀ z ∈ t.handles, (s.windows z).height ≤ 32767 ∧ (s.windows z).width ≤ 32767)

/-! ## Further example stores -/

/-- The windows of a screen whose root 2 is a vertical combination of the
leaf 0, of `a` lines, and the horizontal combination 4, of `b + c` lines; the
children of 4 are the vertical combination 5 of the leaves 6 and 7, of `b` and
`c` lines, and the leaf 3; the minibuffer window 1 follows the root. -/
def store8 (a b c : Int) : Win → Window := fun i =>
  match i with
  | 0 => { width := 80, height := a, screen := some 0, parent := some 2, next := some 4,
           buffer := BufSlot.buf 0, start := mark1 0, pointm := mark1 0 }
  | 1 => { top := a + (b + c), width := 80, height := 1, screen := some 0, prev := some 2,
           buffer := BufSlot.buf 1, mini_p := true, start := mark1 1, pointm := mark1 1 }
  | 2 => { width := 80, height := a + (b + c), screen := some 0, next := some 1,
           vchild := some 0 }
  | 3 => { top := a, left := 40, width := 40, height := b + c, screen := some 0,
           parent := some 4, prev := some 5, buffer := BufSlot.buf 0, start := mark1 0,
           pointm := mark1 0 }
  | 4 => { top := a, width := 80, height := b + c, screen := some 0, parent := some 2,
           prev := some 0, hchild := some 5 }
  | 5 => { top := a, width := 40, height := b + c, screen := some 0, parent := some 4,
           next := some 3, vchild := some 6 }
  | 6 => { top := a, width := 40, height := b, screen := some 0, parent := some 5,
           next := some 7, buffer := BufSlot.buf 0, start := mark1 0, pointm := mark1 0 }
  | 7 => { top := a + b, width := 40, height := c, screen := some 0, parent := some 5,
           prev := some 6, buffer := BufSlot.buf 0, start := mark1 0, pointm := mark1 0 }
  | _ => {}

/-- The state of a session with the windows of `store8 a b c`; the leaf 3 is
selected. -/
def state8 (a b c : Int) : State :=
  { windows := store8 a b c,
    screens := fun _ => { root_window := some 2, minibuffer_window := some 1,
                          selected_window := some 3, width := 80, height := a + (b + c) + 1 },
    buffers := fun _ => {}, nalloc := 8, selected_window := 3, selected_screen := 0 }

/-- The children of window 5 of `state8`: the leaves 6 and 7. -/
def chain67 : Shape :=
  Shape.node 6 Kind.leaf Shape.nil (Shape.node 7 Kind.leaf Shape.nil Shape.nil)

/-- The children of window 4 of `state8`: the vertical combination 5 and the
leaf 3. -/
def chain53 : Shape := Shape.node 5 Kind.vcomb chain67 chain3

/-- The chain of the horizontal combination 4 of `state8` alone. -/
def chain4h : Shape := Shape.node 4 Kind.hcomb chain53 Shape.nil

/-- The shape of `state8 a b c`. -/
def shape8 : Shape :=
  Shape.node 2 Kind.vcomb (Shape.node 0 Kind.leaf Shape.nil chain4h) chain1

/-- The windows of a screen of 131072 lines above the minibuffer window 1.
The root 2 is a vertical combination of the leaf 0, of 98304 lines, and the
horizontal combination 4, of 32768 lines.  The children of 4 are the vertical
combination 5 and the leaf 3.  The children of 5 are the leaf 6 and the
horizontal combination 7, of 16384 lines each.  The children of 7 are the
vertical combination 8, of the leaves 9 and 10 of 8192 lines each, and the
leaf 11. -/
def store12 : Win → Window := fun i =>
  match i with
  | 0 => { width := 80, height := 98304, screen := some 0, parent := some 2, next := some 4,
           buffer := BufSlot.buf 0, start := mark1 0, pointm := mark1 0 }
  | 1 => { top := 131072, width := 80, height := 1, screen := some 0, prev := some 2,
           buffer := BufSlot.buf 1, mini_p := true, start := mark1 1, pointm := mark1 1 }
  | 2 => { width := 80, height := 131072, screen := some 0, next := some 1, vchild := some 0 }
  | 3 => { top := 98304, left := 40, width := 40, height := 32768, screen := some 0,
           parent := some 4, prev := some 5, buffer := BufSlot.buf 0, start := mark1 0,
           pointm := mark1 0 }
  | 4 => { top := 98304, width := 80, height := 32768, screen := some 0, parent := some 2,
           prev := some 0, hchild := some 5 }
  | 5 => { top := 98304, width := 40, height := 32768, screen := some 0, parent := some 4,
           next := some 3, vchild := some 6 }
  | 6 => { top := 98304, width := 40, height := 16384, screen := some 0, parent := some 5,
           next := some 7, buffer := BufSlot.buf 0, start := mark1 0, pointm := mark1 0 }
  | 7 => { top := 114688, width := 40, height := 16384, screen := some 0, parent := some 5,
           prev := some 6, hchild := some 8 }
  | 8 => { top := 114688, width := 20, height := 16384, screen := some 0, parent := some 7,
           next := some 11, vchild := some 9 }
  | 9 => { top := 114688, width := 20, height := 8192, screen := some 0, parent := some 8,
           next := some 10, buffer := BufSlot.buf 0, start := mark1 0, pointm := mark1 0 }
  | 10 => { top := 122880, width := 20, height := 8192, screen := some 0, parent := some 8,
            prev := some 9, buffer := BufSlot.buf 0, start := mark1 0, pointm := mark1 0 }
  | 11 => { top := 114688, left := 20, width := 20, height := 16384, screen := some 0,
            parent := some 7, prev := some 8, buffer := BufSlot.buf 0, start := mark1 0,
            pointm := mark1 0 }
  | _ => {}

/-- The state of a session with the windows of `store12`; the leaf 3 is
selected. -/
def state12 : State :=
  { windows := store12,
    screens := fun _ => { root_window := some 2, minibuffer_window := some 1,
                          selected_window := some 3, width := 80, height := 131073 },
    buffers := fun _ => {}, nalloc := 12, selected_window := 3, selected_screen := 0 }

/-- The children of window 2 of `state12`. -/
def chain12 : Shape :=
  Shape.node 0 Kind.leaf Shape.nil
    (Shape.node 4 Kind.hcomb
      (Shape.node 5 Kind.vcomb
        (Shape.node 6 Kind.leaf Shape.nil
          (Shape.node 7 Kind.hcomb
            (Shape.node 8 Kind.vcomb
              (Shape.node 9 Kind.leaf Shape.nil
                (Shape.node 10 Kind.leaf Shape.nil Shape.nil))
              (Shape.node 11 Kind.leaf Shape.nil Shape.nil))
            Shape.nil))
        chain3)
      Shape.nil)

/-- The state `state3v` with the use times 7, 5 and 3 of the leaves 0, 3 and
4; the leaf 0 is the selected window. -/
def state3v_used : State :=
  { state3v with windows := fun i =>
      { store3v i with use_time := match i with
          | 0 => 7
          | 3 => 5
          | 4 => 3
          | _ => 0 } }

/-- External functions of a session with the two screens 0 and 1: the next
and the previous screen of each is the other one. -/
def ext2 : Ext :=
  { next_screen := fun c _ => if c = 0 then 1 else 0,
    prev_screen := fun c _ => if c = 0 then 1 else 0,
    Fselect_screen := fun s _ => s }

/-- The state of a session with two screens: the screen 0 of `state2`, with
the leaf 0 and the minibuffer window 1, and the screen 1, whose only window is
the minibuffer window 2. -/
def state2x : State :=
  { state2 with
    windows := fun i =>
      match i with
      | 2 => { width := 80, height := 1, screen := some 1, buffer := BufSlot.buf 1,
               mini_p := true, start := mark1 1, pointm := mark1 1 }
      | _ => store2 i,
    screens := fun c =>
      if c = 1 then { root_window := some 2, minibuffer_window := some 2,
                      selected_window := some 2, width := 80, height := 1 }
      else { root_window := some 0, minibuffer_window := some 1,
             selected_window := some 0, width := 80, height := 24 },
    nalloc := 3 }

/-- The windows of a screen whose root 1 is a vertical combination of the
leaf 0 (8 lines), the vertical combination 5 (8 lines, of the leaves 6 and 7
of 4 lines each) and the leaf 2 (3 lines). -/
def storec : Win → Window := fun i =>
  match i with
  | 0 => { width := 80, height := 8, screen := some 0, parent := some 1, next := some 5,
           buffer := BufSlot.buf 0, start := mark1 0, pointm := mark1 0 }
  | 1 => { width := 80, height := 19, screen := some 0, vchild := some 0 }
  | 2 => { top := 16, width := 80, height := 3, screen := some 0, parent := some 1,
           prev := some 5, buffer := BufSlot.buf 0, start := mark1 0, pointm := mark1 0 }
  | 5 => { top := 8, width := 80, height := 8, screen := some 0, parent := some 1,
           prev := some 0, next := some 2, vchild := some 6 }
  | 6 => { top := 8, width := 80, height := 4, screen := some 0, parent := some 5,
           next := some 7, buffer := BufSlot.buf 0, start := mark1 0, pointm := mark1 0 }
  | 7 => { top := 12, width := 80, height := 4, screen := some 0, parent := some 5,
           prev := some 6, buffer := BufSlot.buf 0, start := mark1 0, pointm := mark1 0 }
  | _ => {}

/-- The state of a session with the windows of `storec`; the leaf 0 is
selected. -/
def statec : State :=
  { windows := storec,
    screens := fun _ => { root_window := some 1, selected_window := some 0,
                          width := 80, height := 19 },
    buffers := fun _ => {}, nalloc := 8, selected_window := 0, selected_screen := 0 }

/-- The shape of `statec`. -/
def shapec : Shape :=
  Shape.node 1 Kind.vcomb
    (Shape.node 0 Kind.leaf Shape.nil
      (Shape.node 5 Kind.vcomb
        (Shape.node 6 Kind.leaf Shape.nil (Shape.node 7 Kind.leaf Shape.nil Shape.nil))
        (Shape.node 2 Kind.leaf Shape.nil Shape.nil)))
    Shape.nil

/-! # Theorems -/

theorem head_plug (c : Ctx) (t : Shape) : (plug c t).head = ctxRoot c t.head := by
  induction c generalizing t with
  | nil => rfl
  | cons f c ih => cases f <;> simp only [plug, ctxRoot, ih, Frame.win] <;> rfl

theorem handles_plug (c : Ctx) (t : Shape) :
    List.Perm (plug c t).handles (ctxHandles c ++ t.handles) := by
  induction c generalizing t with
  | nil => simp [plug, ctxHandles]
  | cons f c ih =>
    cases f with
    | right w k ch =>
      refine (ih _).trans ?_
      simp only [Shape.handles, ctxHandles]
      have : List.Perm (ctxHandles c ++ w :: (ch.handles ++ t.handles))
          (w :: (ch.handles ++ ctxHandles c) ++ t.handles) := by
        simp only [List.cons_append, List.append_assoc]
        refine List.perm_middle.trans (List.Perm.cons _ ?_)
        rw [← List.append_assoc, ← List.append_assoc]
        exact List.Perm.append_right _ List.perm_append_comm
      exact this
    | down w k rest =>
      refine (ih _).trans ?_
      simp only [Shape.handles, ctxHandles]
      have : List.Perm (ctxHandles c ++ w :: (t.handles ++ rest.handles))
          (w :: (rest.handles ++ ctxHandles c) ++ t.handles) := by
        simp only [List.cons_append, List.append_assoc]
        refine List.perm_middle.trans (List.Perm.cons _ ?_)
        refine List.perm_append_comm.trans ?_
        simp only [List.append_assoc]
        refine List.perm_append_comm.trans ?_
        simp only [List.append_assoc]
        exact List.Perm.refl _
      exact this

theorem infos_plug (c : Ctx) (t : Shape) :
    List.Perm ((plug c t).infos none none) (ctxInfos c t.head ++ t.infos (hpar c) (hprev c)) := by
  induction c generalizing t with
  | nil => simp [plug, ctxInfos, hpar, hprev]
  | cons f c ih =>
    cases f with
    | right w k ch =>
      refine (ih _).trans ?_
      simp only [Shape.infos, ctxInfos, Shape.head, hpar, hprev]
      simp only [List.cons_append, List.append_assoc]
      refine List.perm_middle.trans (List.Perm.cons _ ?_)
      rw [← List.append_assoc, ← List.append_assoc]
      exact List.Perm.append_right _ List.perm_append_comm
    | down w k rest =>
      refine (ih _).trans ?_
      simp only [Shape.infos, ctxInfos, Shape.head, hpar, hprev]
      simp only [List.cons_append, List.append_assoc]
      refine List.perm_middle.trans (List.Perm.cons _ ?_)
      refine List.perm_append_comm.trans ?_
      simp only [List.append_assoc]
      refine List.perm_append_comm.trans ?_
      simp only [List.append_assoc]
      exact List.Perm.refl _

/-- Every window of a shape sits at a hole of some context. -/
theorem exists_plug_of_mem (t : Shape) (x : Win) (hx : x ∈ t.handles) :
    ∃ c k ch rest, t = plug c (Shape.node x k ch rest) := by
  suffices h : ∀ (t : Shape) (c0 : Ctx), x ∈ t.handles →
      ∃ c k ch rest, plug c0 t = plug c (Shape.node x k ch rest) by
    simpa [plug] using h t [] hx
  intro t
  induction t with
  | nil => intro c0 h; simp [Shape.handles] at h
  | node w k ch rest ihc ihr =>
    intro c0 h
    simp only [Shape.handles, List.mem_cons, List.mem_append] at h
    rcases h with h | h | h
    · subst h; exact ⟨c0, k, ch, rest, rfl⟩
    · obtain ⟨c, k', ch', rest', e⟩ := ihc (Frame.down w k rest :: c0) h
      exact ⟨c, k', ch', rest', by simpa [plug] using e⟩
    · obtain ⟨c, k', ch', rest', e⟩ := ihr (Frame.right w k ch :: c0) h
      exact ⟨c, k', ch', rest', by simpa [plug] using e⟩

@[simp] theorem Res.holds_ok {α : Type} (a : α) (s : State) (P : α → State → Prop) :
    (Res.ok a s).Holds P ↔ P a s := Iff.rfl
@[simp] theorem Res.holds_signal {α : Type} (e : Err) (s : State) (P : α → State → Prop) :
    (Res.signal e s : Res α).Holds P ↔ False := Iff.rfl
@[simp] theorem Res.holds_fault {α : Type} (P : α → State → Prop) :
    (Res.fault : Res α).Holds P ↔ False := Iff.rfl
@[simp] theorem Res.holds_nofuel {α : Type} (P : α → State → Prop) :
    (Res.nofuel : Res α).Holds P ↔ False := Iff.rfl
@[simp] theorem Res.sat_ok {α : Type} (a : α) (s : State) (P : α → State → Prop) :
    (Res.ok a s).Sat P ↔ P a s := Iff.rfl
@[simp] theorem Res.sat_signal {α : Type} (e : Err) (s : State) (P : α → State → Prop) :
    (Res.signal e s : Res α).Sat P ↔ True := Iff.rfl
@[simp] theorem Res.sat_fault {α : Type} (P : α → State → Prop) :
    (Res.fault : Res α).Sat P ↔ True := Iff.rfl
@[simp] theorem Res.sat_nofuel {α : Type} (P : α → State → Prop) :
    (Res.nofuel : Res α).Sat P ↔ True := Iff.rfl

@[simp] theorem Res.andThen_ok {α β : Type} (a : α) (s : State) (f : α → State → Res β) :
    (Res.ok a s).andThen f = f a s := rfl
@[simp] theorem Res.andThen_signal {α β : Type} (e : Err) (s : State) (f : α → State → Res β) :
    (Res.signal e s : Res α).andThen f = Res.signal e s := rfl
@[simp] theorem Res.andThen_fault {α β : Type} (f : α → State → Res β) :
    (Res.fault : Res α).andThen f = Res.fault := rfl
@[simp] theorem Res.andThen_nofuel {α β : Type} (f : α → State → Res β) :
    (Res.nofuel : Res α).andThen f = Res.nofuel := rfl

theorem Res.holds_andThen {α β : Type} (r : Res α) (f : α → State → Res β)
    (P : β → State → Prop) :
    (r.andThen f).Holds P ↔ r.Holds (fun a s => (f a s).Holds P) := by
  cases r <;> simp

theorem Res.sat_andThen {α β : Type} (r : Res α) (f : α → State → Res β)
    (P : β → State → Prop) :
    (r.andThen f).Sat P ↔ r.Sat (fun a s => (f a s).Sat P) := by
  cases r <;> simp

theorem Res.Holds.imp {α : Type} {r : Res α} {P Q : α → State → Prop}
    (h : r.Holds P) (hpq : ∀ a s, P a s → Q a s) : r.Holds Q := by
  cases r <;> simp_all

theorem Res.Sat.mono {α : Type} {r : Res α} {P Q : α → State → Prop}
    (h : r.Sat P) (hpq : ∀ a s, P a s → Q a s) : r.Sat Q := by
  cases r <;> simp_all

theorem Res.Holds.sat {α : Type} {r : Res α} {P : α → State → Prop} (h : r.Holds P) :
    r.Sat P := by
  cases r <;> simp_all

theorem Res.holds_iff {α : Type} (r : Res α) (P : α → State → Prop) :
    r.Holds P ↔ ∃ a s, r = Res.ok a s ∧ P a s := by
  cases r with
  | ok a s => exact ⟨fun h => ⟨a, s, rfl, h⟩, fun ⟨_, _, e, h⟩ => by cases e; exact h⟩
  | signal e s => simp
  | fault => simp
  | nofuel => simp

theorem Res.sat_iff {α : Type} (r : Res α) (P : α → State → Prop) :
    r.Sat P ↔ ∀ a s, r = Res.ok a s → P a s := by
  cases r <;> simp

theorem Res.eq_ok_of_isOk {r : Res Unit} (d : State) (h : r.isOk = true) :
    r = Res.ok () (r.stateD d) := by
  cases r <;> simp_all [Res.isOk, Res.stateD]

@[simp] theorem setw_windows (s : State) (x : Win) (w : Window) (y : Win) :
    (setw s x w).windows y = if y = x then w else s.windows y := rfl
@[simp] theorem setw_screens (s : State) (x : Win) (w : Window) :
    (setw s x w).screens = s.screens := rfl
@[simp] theorem setw_buffers (s : State) (x : Win) (w : Window) :
    (setw s x w).buffers = s.buffers := rfl
@[simp] theorem setw_nalloc (s : State) (x : Win) (w : Window) :
    (setw s x w).nalloc = s.nalloc := rfl
@[simp] theorem setw_selected_window (s : State) (x : Win) (w : Window) :
    (setw s x w).selected_window = s.selected_window := rfl
@[simp] theorem sets_windows (s : State) (x : Scr) (c : Screen) :
    (sets s x c).windows = s.windows := rfl
@[simp] theorem sets_screens (s : State) (x : Scr) (c : Screen) (y : Scr) :
    (sets s x c).screens y = if y = x then c else s.screens y := rfl
@[simp] theorem sets_nalloc (s : State) (x : Scr) (c : Screen) :
    (sets s x c).nalloc = s.nalloc := rfl
@[simp] theorem setb_windows (s : State) (x : Buf) (c : Buffer) :
    (setb s x c).windows = s.windows := rfl
@[simp] theorem setb_screens (s : State) (x : Buf) (c : Buffer) :
    (setb s x c).screens = s.screens := rfl
@[simp] theorem setb_nalloc (s : State) (x : Buf) (c : Buffer) :
    (setb s x c).nalloc = s.nalloc := rfl

/-- What the second half of `Fsplit_window` does to the store. -/
theorem split_finish_spec (s : State) (w : Win) (size : Int) (hor : Bool) (b : Buf)
    (hw : w ≠ s.nalloc)
    (hnx : ∀ y, (s.windows w).next = some y → y ≠ s.nalloc ∧ y ≠ w)
    (hbuf : (s.windows w).buffer = BufSlot.buf b) (hlive : (s.buffers b).name_live = true) :
    (split_finish s w size hor).Holds (SplitPost s w size hor b) := by
  have hw' : s.nalloc ≠ w := fun h => hw h.symm
  unfold SplitPost
  cases hn : (s.windows w).next with
  | none =>
    cases hor <;>
    simp [split_finish, make_window, Fset_window_buffer, set_marker, Fmake_marker,
      hw, hw', hn, hbuf, hlive, apply_ite State.windows, apply_ite State.screens,
      apply_ite State.nalloc] <;>
    (intro x hx1 hx2; simp [hx1, hx2])
  | some y =>
    obtain ⟨hy1, hy2⟩ := hnx y hn
    have hy1' : s.nalloc ≠ y := fun h => hy1 h.symm
    have hy2' : w ≠ y := fun h => hy2 h.symm
    cases hor <;>
    simp [split_finish, make_window, Fset_window_buffer, set_marker, Fmake_marker,
      hw, hw', hn, hbuf, hlive, hy1, hy2, hy1', hy2', apply_ite State.windows,
      apply_ite State.screens, apply_ite State.nalloc] <;>
    (intro x hx1 hx2; by_cases hxy : y = x <;> simp [hx1, hx2, hxy]; intro h; exact absurd h.symm hxy)

/-- The second half of `Fsplit_window` either signals an error or does what
`SplitPost` says. -/
theorem split_finish_sat (s : State) (w : Win) (size : Int) (hor : Bool)
    (hw : w ≠ s.nalloc)
    (hnx : ∀ y, (s.windows w).next = some y → y ≠ s.nalloc ∧ y ≠ w) :
    (split_finish s w size hor).Sat fun new s' =>
      ∃ b, (s.windows w).buffer = BufSlot.buf b ∧ (s.buffers b).name_live = true
        ∧ SplitPost s w size hor b new s' := by
  have hw' : s.nalloc ≠ w := fun h => hw h.symm
  by_cases hgood : ∃ b, (s.windows w).buffer = BufSlot.buf b ∧ (s.buffers b).name_live = true
  · obtain ⟨b, hb, hl⟩ := hgood
    exact ((split_finish_spec s w size hor b hw hnx hb hl).imp
      (fun new s' h => ⟨b, hb, hl, h⟩)).sat
  · rcases hn : (s.windows w).next with _ | y
    · cases hb : (s.windows w).buffer with
      | nil => simp [split_finish, make_window, Fset_window_buffer, hw, hw', hb, hn]
      | t => simp [split_finish, make_window, Fset_window_buffer, hw, hw', hb, hn]
      | buf b =>
        have hl : ¬ (s.buffers b).name_live = true := fun hl => hgood ⟨b, hb, hl⟩
        simp [split_finish, make_window, Fset_window_buffer, hw, hw', hb, hn, hl]
    · obtain ⟨hy1, hy2⟩ := hnx y hn
      have hy1' : s.nalloc ≠ y := fun h => hy1 h.symm
      have hy2' : w ≠ y := fun h => hy2 h.symm
      cases hb : (s.windows w).buffer with
      | nil =>
        simp [split_finish, make_window, Fset_window_buffer, hw, hw', hb, hn, hy1, hy2, hy1', hy2']
      | t =>
        simp [split_finish, make_window, Fset_window_buffer, hw, hw', hb, hn, hy1, hy2, hy1', hy2']
      | buf b =>
        have hl : ¬ (s.buffers b).name_live = true := fun hl => hgood ⟨b, hb, hl⟩
        simp [split_finish, make_window, Fset_window_buffer, hw, hw', hb, hn, hl, hy1, hy2,
          hy1', hy2']

theorem infos_map_w (t : Shape) (P : Option (Kind × Win)) (V : Option Win) :
    (t.infos P V).map NodeInfo.w = t.handles := by
  induction t generalizing P V with
  | nil => rfl
  | node w k ch rest ihc ihr => simp [Shape.infos, Shape.handles, ihc, ihr]

theorem head_mem_handles (t : Shape) (y : Win) (h : t.head = some y) : y ∈ t.handles := by
  cases t with
  | nil => simp [Shape.head] at h
  | node w k ch rest =>
    simp only [Shape.head, Option.some.injEq] at h
    subst h
    simp [Shape.handles]

/-- Every window the shape mentions in the information of a node is a window
of the shape (or the parent or previous sibling given from outside). -/
theorem infos_fields (t : Shape) (P : Option (Kind × Win)) (V : Option Win) (i : NodeInfo)
    (hi : i ∈ t.infos P V) :
    i.w ∈ t.handles
      ∧ (∀ y, i.next = some y → y ∈ t.handles)
      ∧ (∀ y, i.child = some y → y ∈ t.handles)
      ∧ (∀ y, i.prev = some y → V = some y ∨ y ∈ t.handles)
      ∧ (∀ k y, i.par = some (k, y) → P = some (k, y) ∨ y ∈ t.handles) := by
  induction t generalizing P V with
  | nil => simp [Shape.infos] at hi
  | node w k ch rest ihc ihr =>
    simp only [Shape.infos, List.mem_cons, List.mem_append] at hi
    rcases hi with hi | hi | hi
    · subst hi
      refine ⟨by simp [Shape.handles], fun y hy => ?_, fun y hy => ?_,
        fun y hy => Or.inl hy, fun k y hy => Or.inl hy⟩
      · have := head_mem_handles rest y hy
        simp [Shape.handles, this]
      · have := head_mem_handles ch y hy
        simp [Shape.handles, this]
    · obtain ⟨h1, h2, h3, h4, h5⟩ := ihc _ _ hi
      refine ⟨by simp [Shape.handles, h1], fun y hy => by simp [Shape.handles, h2 y hy],
        fun y hy => by simp [Shape.handles, h3 y hy], fun y hy => Or.inr ?_,
        fun k' y hy => Or.inr ?_⟩
      · rcases h4 y hy with h4 | h4
        · simp at h4
        · simp [Shape.handles, h4]
      · rcases h5 k' y hy with h5 | h5
        · simp only [Option.some.injEq, Prod.mk.injEq] at h5
          simp [Shape.handles, h5.2]
        · simp [Shape.handles, h5]
    · obtain ⟨h1, h2, h3, h4, h5⟩ := ihr _ _ hi
      refine ⟨by simp [Shape.handles, h1], fun y hy => by simp [Shape.handles, h2 y hy],
        fun y hy => by simp [Shape.handles, h3 y hy], fun y hy => Or.inr ?_,
        fun k' y hy => ?_⟩
      · rcases h4 y hy with h4 | h4
        · simp only [Option.some.injEq] at h4
          simp [Shape.handles, h4]
        · simp [Shape.handles, h4]
      · rcases h5 k' y hy with h5 | h5
        · exact Or.inl h5
        · exact Or.inr (by simp [Shape.handles, h5])

/-- The information of the windows of a context apart from the innermost
frame window does not depend on what the hole holds. -/
theorem ctxInfos_fields (c : Ctx) (hd : Option Win) (i : NodeInfo) (hi : i ∈ ctxInfos c hd) :
    i.w ∈ ctxHandles c
      ∧ (∀ y, i.next = some y → hd = some y ∨ y ∈ ctxHandles c)
      ∧ (∀ y, i.child = some y → hd = some y ∨ y ∈ ctxHandles c)
      ∧ (∀ y, i.prev = some y → y ∈ ctxHandles c)
      ∧ (∀ k y, i.par = some (k, y) → y ∈ ctxHandles c) := by
  induction c generalizing hd with
  | nil => simp [ctxInfos] at hi
  | cons f c ih =>
    have hprev_mem : ∀ y, hprev c = some y → y ∈ ctxHandles c := by
      intro y hy
      cases c with
      | nil => simp [hprev] at hy
      | cons g c' => cases g <;> simp_all [hprev, ctxHandles]
    have hpar_mem : ∀ k y, hpar c = some (k, y) → y ∈ ctxHandles c := by
      intro k y hy
      clear ih hi hprev_mem
      induction c with
      | nil => simp [hpar] at hy
      | cons g c' ih' =>
        cases g with
        | right w k' ch =>
          simp only [hpar] at hy
          simp [ctxHandles, ih' hy]
        | down w k' rest =>
          simp only [hpar, Option.some.injEq, Prod.mk.injEq] at hy
          simp [ctxHandles, hy.2]
    cases f with
    | right w k ch =>
      simp only [ctxInfos, List.mem_cons, List.mem_append] at hi
      rcases hi with hi | hi | hi
      · subst hi
        refine ⟨by simp [ctxHandles], fun y hy => Or.inl hy, fun y hy => Or.inr ?_,
          fun y hy => ?_, fun k' y hy => ?_⟩
        · simp [ctxHandles, head_mem_handles ch y hy]
        · simp [ctxHandles, hprev_mem y hy]
        · simp [ctxHandles, hpar_mem k' y hy]
      · obtain ⟨h1, h2, h3, h4, h5⟩ := infos_fields _ _ _ _ hi
        refine ⟨by simp [ctxHandles, h1], fun y hy => Or.inr (by simp [ctxHandles, h2 y hy]),
          fun y hy => Or.inr (by simp [ctxHandles, h3 y hy]), fun y hy => ?_, fun k' y hy => ?_⟩
        · rcases h4 y hy with h4 | h4
          · simp at h4
          · simp [ctxHandles, h4]
        · rcases h5 k' y hy with h5 | h5
          · simp only [Option.some.injEq, Prod.mk.injEq] at h5
            simp [ctxHandles, h5.2]
          · simp [ctxHandles, h5]
      · obtain ⟨h1, h2, h3, h4, h5⟩ := ih _ hi
        refine ⟨by simp [ctxHandles, h1], fun y hy => Or.inr ?_, fun y hy => Or.inr ?_,
          fun y hy => by simp [ctxHandles, h4 y hy], fun k' y hy => by simp [ctxHandles, h5 k' y hy]⟩
        · rcases h2 y hy with h | h
          · simp only [Option.some.injEq] at h
            simp [ctxHandles, h]
          · simp [ctxHandles, h]
        · rcases h3 y hy with h | h
          · simp only [Option.some.injEq] at h
            simp [ctxHandles, h]
          · simp [ctxHandles, h]
    | down w k rest =>
      simp only [ctxInfos, List.mem_cons, List.mem_append] at hi
      rcases hi with hi | hi | hi
      · subst hi
        refine ⟨by simp [ctxHandles], fun y hy => Or.inr ?_, fun y hy => Or.inl hy,
          fun y hy => ?_, fun k' y hy => ?_⟩
        · simp [ctxHandles, head_mem_handles rest y hy]
        · simp [ctxHandles, hprev_mem y hy]
        · simp [ctxHandles, hpar_mem k' y hy]
      · obtain ⟨h1, h2, h3, h4, h5⟩ := infos_fields _ _ _ _ hi
        refine ⟨by simp [ctxHandles, h1], fun y hy => Or.inr (by simp [ctxHandles, h2 y hy]),
          fun y hy => Or.inr (by simp [ctxHandles, h3 y hy]), fun y hy => ?_, fun k' y hy => ?_⟩
        · rcases h4 y hy with h4 | h4
          · simp only [Option.some.injEq] at h4
            simp [ctxHandles, h4]
          · simp [ctxHandles, h4]
        · rcases h5 k' y hy with h5 | h5
          · simp [ctxHandles, hpar_mem k' y h5]
          · simp [ctxHandles, h5]
      · obtain ⟨h1, h2, h3, h4, h5⟩ := ih _ hi
        refine ⟨by simp [ctxHandles, h1], fun y hy => Or.inr ?_, fun y hy => Or.inr ?_,
          fun y hy => by simp [ctxHandles, h4 y hy], fun k' y hy => by simp [ctxHandles, h5 k' y hy]⟩
        · rcases h2 y hy with h | h
          · simp only [Option.some.injEq] at h
            simp [ctxHandles, h]
          · simp [ctxHandles, h]
        · rcases h3 y hy with h | h
          · simp only [Option.some.injEq] at h
            simp [ctxHandles, h]
          · simp [ctxHandles, h]

theorem hprev_mem (c : Ctx) (y : Win) (hy : hprev c = some y) : y ∈ ctxHandles c := by
  cases c with
  | nil => simp [hprev] at hy
  | cons g c' => cases g <;> simp_all [hprev, ctxHandles]

theorem hpar_mem (c : Ctx) (k : Kind) (y : Win) (hy : hpar c = some (k, y)) :
    y ∈ ctxHandles c := by
  induction c with
  | nil => simp [hpar] at hy
  | cons g c' ih =>
    cases g with
    | right w k' ch =>
      simp only [hpar] at hy
      simp [ctxHandles, ih hy]
    | down w k' rest =>
      simp only [hpar, Option.some.injEq, Prod.mk.injEq] at hy
      simp [ctxHandles, hy.2]

/-- `Rep` of a shape with a hole, split into the context and the hole. -/
theorem rep_plug (s : State) (scr : Scr) (c : Ctx) (t : Shape) :
    Rep s scr (plug c t) ↔
      (s.screens scr).root_window = ctxRoot c t.head
        ∧ (ctxHandles c ++ t.handles).Nodup
        ∧ (∀ x ∈ ctxHandles c ++ t.handles, x < s.nalloc)
        ∧ (∀ i ∈ ctxInfos c t.head, LinkOK scr s.windows i)
        ∧ (∀ i ∈ t.infos (hpar c) (hprev c), LinkOK scr s.windows i) := by
  unfold Rep
  rw [head_plug, (handles_plug c t).nodup_iff]
  constructor
  · rintro ⟨h1, h2, h3, h4⟩
    refine ⟨h1, h2, fun x hx => h3 x ((handles_plug c t).mem_iff.mpr hx),
      fun i hi => h4 i ((infos_plug c t).mem_iff.mpr (List.mem_append_left _ hi)),
      fun i hi => h4 i ((infos_plug c t).mem_iff.mpr (List.mem_append_right _ hi))⟩
  · rintro ⟨h1, h2, h3, h4, h5⟩
    refine ⟨h1, h2, fun x hx => h3 x ((handles_plug c t).mem_iff.mp hx), fun i hi => ?_⟩
    rcases List.mem_append.mp ((infos_plug c t).mem_iff.mp hi) with h | h
    · exact h4 i h
    · exact h5 i h

@[simp] theorem setw_selected_screen (s : State) (x : Win) (w : Window) :
    (setw s x w).selected_screen = s.selected_screen := rfl
@[simp] theorem setw_minibuf_window (s : State) (x : Win) (w : Window) :
    (setw s x w).minibuf_window = s.minibuf_window := rfl
@[simp] theorem setw_global_minibuffer_screen (s : State) (x : Win) (w : Window) :
    (setw s x w).global_minibuffer_screen = s.global_minibuffer_screen := rfl
@[simp] theorem setw_current_buffer (s : State) (x : Win) (w : Window) :
    (setw s x w).current_buffer = s.current_buffer := rfl
@[simp] theorem setw_minibuf_level (s : State) (x : Win) (w : Window) :
    (setw s x w).minibuf_level = s.minibuf_level := rfl
@[simp] theorem setw_window_min_height (s : State) (x : Win) (w : Window) :
    (setw s x w).window_min_height = s.window_min_height := rfl
@[simp] theorem setw_window_min_width (s : State) (x : Win) (w : Window) :
    (setw s x w).window_min_width = s.window_min_width := rfl
@[simp] theorem setw_windows_or_buffers_changed (s : State) (x : Win) (w : Window) :
    (setw s x w).windows_or_buffers_changed = s.windows_or_buffers_changed := rfl
@[simp] theorem setw_sequence_number (s : State) (x : Win) (w : Window) :
    (setw s x w).sequence_number = s.sequence_number := rfl
@[simp] theorem setw_window_select_count (s : State) (x : Win) (w : Window) :
    (setw s x w).window_select_count = s.window_select_count := rfl
@[simp] theorem sets_buffers (s : State) (x : Scr) (c : Screen) :
    (sets s x c).buffers = s.buffers := rfl
@[simp] theorem sets_selected_window (s : State) (x : Scr) (c : Screen) :
    (sets s x c).selected_window = s.selected_window := rfl
@[simp] theorem sets_selected_screen (s : State) (x : Scr) (c : Screen) :
    (sets s x c).selected_screen = s.selected_screen := rfl
@[simp] theorem sets_minibuf_window (s : State) (x : Scr) (c : Screen) :
    (sets s x c).minibuf_window = s.minibuf_window := rfl
@[simp] theorem sets_global_minibuffer_screen (s : State) (x : Scr) (c : Screen) :
    (sets s x c).global_minibuffer_screen = s.global_minibuffer_screen := rfl
@[simp] theorem sets_current_buffer (s : State) (x : Scr) (c : Screen) :
    (sets s x c).current_buffer = s.current_buffer := rfl
@[simp] theorem sets_minibuf_level (s : State) (x : Scr) (c : Screen) :
    (sets s x c).minibuf_level = s.minibuf_level := rfl
@[simp] theorem sets_window_min_height (s : State) (x : Scr) (c : Screen) :
    (sets s x c).window_min_height = s.window_min_height := rfl
@[simp] theorem sets_window_min_width (s : State) (x : Scr) (c : Screen) :
    (sets s x c).window_min_width = s.window_min_width := rfl
@[simp] theorem sets_windows_or_buffers_changed (s : State) (x : Scr) (c : Screen) :
    (sets s x c).windows_or_buffers_changed = s.windows_or_buffers_changed := rfl
@[simp] theorem sets_sequence_number (s : State) (x : Scr) (c : Screen) :
    (sets s x c).sequence_number = s.sequence_number := rfl
@[simp] theorem sets_window_select_count (s : State) (x : Scr) (c : Screen) :
    (sets s x c).window_select_count = s.window_select_count := rfl
@[simp] theorem setb_selected_window (s : State) (x : Buf) (b : Buffer) :
    (setb s x b).selected_window = s.selected_window := rfl
@[simp] theorem setb_selected_screen (s : State) (x : Buf) (b : Buffer) :
    (setb s x b).selected_screen = s.selected_screen := rfl
@[simp] theorem setb_minibuf_window (s : State) (x : Buf) (b : Buffer) :
    (setb s x b).minibuf_window = s.minibuf_window := rfl
@[simp] theorem setb_global_minibuffer_screen (s : State) (x : Buf) (b : Buffer) :
    (setb s x b).global_minibuffer_screen = s.global_minibuffer_screen := rfl
@[simp] theorem setb_current_buffer (s : State) (x : Buf) (b : Buffer) :
    (setb s x b).current_buffer = s.current_buffer := rfl
@[simp] theorem setb_minibuf_level (s : State) (x : Buf) (b : Buffer) :
    (setb s x b).minibuf_level = s.minibuf_level := rfl
@[simp] theorem setb_window_min_height (s : State) (x : Buf) (b : Buffer) :
    (setb s x b).window_min_height = s.window_min_height := rfl
@[simp] theorem setb_window_min_width (s : State) (x : Buf) (b : Buffer) :
    (setb s x b).window_min_width = s.window_min_width := rfl
@[simp] theorem setb_windows_or_buffers_changed (s : State) (x : Buf) (b : Buffer) :
    (setb s x b).windows_or_buffers_changed = s.windows_or_buffers_changed := rfl
@[simp] theorem setb_sequence_number (s : State) (x : Buf) (b : Buffer) :
    (setb s x b).sequence_number = s.sequence_number := rfl
@[simp] theorem setb_window_select_count (s : State) (x : Buf) (b : Buffer) :
    (setb s x b).window_select_count = s.window_select_count := rfl
@[simp] theorem setb_buffers (s : State) (x : Buf) (b : Buffer) (y : Buf) :
    (setb s x b).buffers y = if y = x then b else s.buffers y := rfl

theorem Res.holds_and {α : Type} {r : Res α} {P Q : α → State → Prop}
    (h1 : r.Holds P) (h2 : r.Holds Q) : r.Holds fun a s => P a s ∧ Q a s := by
  cases r <;> simp_all

theorem Res.holds_forall {α β : Type} {r : Res α} {P : β → α → State → Prop}
    (h0 : r.isOk = true) (h : ∀ x, r.Sat (P x)) : r.Holds fun a s => ∀ x, P x a s := by
  cases r <;> simp_all [Res.isOk]

theorem Res.Holds.isOk {α : Type} {r : Res α} {P : α → State → Prop} (h : r.Holds P) :
    r.isOk = true := by
  cases r <;> simp_all [Res.isOk]

theorem replace_window_other (s : State) (old new : Win) (scr : Scr)
    (hscr : (s.windows old).screen = some scr) (hon : old ≠ new)
    (hnx : ∀ y, (s.windows old).next = some y → y ≠ old ∧ y ≠ new
      ∧ (s.windows old).prev ≠ some y ∧ (s.windows old).parent ≠ some y)
    (hpv : ∀ y, (s.windows old).prev = some y → y ≠ old ∧ y ≠ new
      ∧ (s.windows old).parent ≠ some y)
    (hpa : ∀ y, (s.windows old).parent = some y → y ≠ old ∧ y ≠ new)
    (x : Win) (hx1 : x ≠ new) (hx2 : x ≠ old) :
    (replace_window s old new).Holds fun _ s' => s'.windows x = replaced s old new x := by
  have hon' : new ≠ old := fun h => hon h.symm
  have hN : ∀ y, (s.windows old).next = some y → ¬ y = old ∧ ¬ y = new ∧ ¬ old = y ∧ ¬ new = y
      ∧ ¬ (s.windows old).prev = some y ∧ ¬ (s.windows old).parent = some y := by
    intro y hy; obtain ⟨h1, h2, h3, h4⟩ := hnx y hy
    exact ⟨h1, h2, fun h => h1 h.symm, fun h => h2 h.symm, h3, h4⟩
  have hP : ∀ y, (s.windows old).prev = some y → ¬ y = old ∧ ¬ y = new ∧ ¬ old = y ∧ ¬ new = y
      ∧ ¬ (s.windows old).parent = some y := by
    intro y hy; obtain ⟨h1, h2, h3⟩ := hpv y hy
    exact ⟨h1, h2, fun h => h1 h.symm, fun h => h2 h.symm, h3⟩
  have hA : ∀ y, (s.windows old).parent = some y → ¬ y = old ∧ ¬ y = new ∧ ¬ old = y ∧ ¬ new = y := by
    intro y hy; obtain ⟨h1, h2⟩ := hpa y hy
    exact ⟨h1, h2, fun h => h1 h.symm, fun h => h2 h.symm⟩
  clear hnx hpv hpa
  have hx1' : ¬ new = x := fun h => hx1 h.symm
  have hx2' : ¬ old = x := fun h => hx2 h.symm
  rcases hn : (s.windows old).next with _ | n <;>
  rcases hp : (s.windows old).prev with _ | p <;>
  rcases ha : (s.windows old).parent with _ | a <;>
  simp only [hn, hp, ha, Option.some.injEq, forall_eq', reduceCtorEq, false_implies, implies_true,
    not_false_eq_true, true_and, and_true] at hN hP hA <;>
  simp only [replaced, hn, hp, ha, Option.some.injEq, reduceCtorEq, if_false] <;>
  (try by_cases c1 : n = x) <;>
  (try by_cases c2 : p = x) <;>
  (try by_cases c3 : a = x) <;>
  (try have c1' : ¬ x = n := fun h => c1 h.symm) <;>
  (try have c2' : ¬ x = p := fun h => c2 h.symm) <;>
  (try have c3' : ¬ x = a := fun h => c3 h.symm) <;>
  (try subst c1) <;> (try subst c2) <;> (try subst c3) <;>
  (try by_cases c4 : (s.windows a).vchild = some old) <;>
  (try by_cases c5 : (s.windows a).hchild = some old) <;>
  simp [replace_window, apply_ite State.windows, ite_apply, *] <;>
  simp_all

theorem replace_window_basic (s : State) (old new : Win) (scr : Scr)
    (hscr : (s.windows old).screen = some scr) (hon : old ≠ new)
    (hnx : ∀ y, (s.windows old).next = some y → y ≠ old ∧ y ≠ new
      ∧ (s.windows old).prev ≠ some y ∧ (s.windows old).parent ≠ some y)
    (hpv : ∀ y, (s.windows old).prev = some y → y ≠ old ∧ y ≠ new
      ∧ (s.windows old).parent ≠ some y)
    (hpa : ∀ y, (s.windows old).parent = some y → y ≠ old ∧ y ≠ new) :
    (replace_window s old new).Holds fun _ s' =>
      s'.nalloc = s.nalloc ∧ s'.buffers = s.buffers
      ∧ s'.selected_window = s.selected_window
      ∧ s'.window_min_height = s.window_min_height ∧ s'.window_min_width = s.window_min_width
      ∧ s'.windows old = s.windows old
      ∧ s'.windows new = { s.windows new with
          left := (s.windows old).left, top := (s.windows old).top,
          width := (s.windows old).width, height := (s.windows old).height,
          next := (s.windows old).next, prev := (s.windows old).prev,
          parent := (s.windows old).parent } := by
  have hon' : new ≠ old := fun h => hon h.symm
  have hN : ∀ y, (s.windows old).next = some y → ¬ y = old ∧ ¬ y = new ∧ ¬ old = y ∧ ¬ new = y
      ∧ ¬ (s.windows old).prev = some y ∧ ¬ (s.windows old).parent = some y := by
    intro y hy; obtain ⟨h1, h2, h3, h4⟩ := hnx y hy
    exact ⟨h1, h2, fun h => h1 h.symm, fun h => h2 h.symm, h3, h4⟩
  have hP : ∀ y, (s.windows old).prev = some y → ¬ y = old ∧ ¬ y = new ∧ ¬ old = y ∧ ¬ new = y
      ∧ ¬ (s.windows old).parent = some y := by
    intro y hy; obtain ⟨h1, h2, h3⟩ := hpv y hy
    exact ⟨h1, h2, fun h => h1 h.symm, fun h => h2 h.symm, h3⟩
  have hA : ∀ y, (s.windows old).parent = some y → ¬ y = old ∧ ¬ y = new ∧ ¬ old = y ∧ ¬ new = y := by
    intro y hy; obtain ⟨h1, h2⟩ := hpa y hy
    exact ⟨h1, h2, fun h => h1 h.symm, fun h => h2 h.symm⟩
  clear hnx hpv hpa
  rcases hn : (s.windows old).next with _ | n <;>
  rcases hp : (s.windows old).prev with _ | p <;>
  rcases ha : (s.windows old).parent with _ | a <;>
  simp only [hn, hp, ha, Option.some.injEq, forall_eq', reduceCtorEq, false_implies, implies_true,
    not_false_eq_true, true_and, and_true] at hN hP hA <;>
  (try by_cases c4 : (s.windows a).vchild = some old) <;>
  (try by_cases c5 : (s.windows a).hchild = some old) <;>
  by_cases c6 : (s.screens scr).root_window = some old <;>
  simp [replace_window, ite_apply, *]


theorem replace_window_screens (s : State) (old new : Win) (scr : Scr)
    (hscr : (s.windows old).screen = some scr) (hon : old ≠ new)
    (hnx : ∀ y, (s.windows old).next = some y → y ≠ old ∧ y ≠ new
      ∧ (s.windows old).prev ≠ some y ∧ (s.windows old).parent ≠ some y)
    (hpv : ∀ y, (s.windows old).prev = some y → y ≠ old ∧ y ≠ new
      ∧ (s.windows old).parent ≠ some y)
    (hpa : ∀ y, (s.windows old).parent = some y → y ≠ old ∧ y ≠ new) :
    (replace_window s old new).Holds fun _ s' =>
      ∀ c, s'.screens c = if c = scr ∧ (s.screens scr).root_window = some old
          then { s.screens scr with root_window := some new } else s.screens c := by
  have hon' : new ≠ old := fun h => hon h.symm
  have hN : ∀ y, (s.windows old).next = some y → ¬ y = old ∧ ¬ y = new ∧ ¬ old = y ∧ ¬ new = y
      ∧ ¬ (s.windows old).prev = some y ∧ ¬ (s.windows old).parent = some y := by
    intro y hy; obtain ⟨h1, h2, h3, h4⟩ := hnx y hy
    exact ⟨h1, h2, fun h => h1 h.symm, fun h => h2 h.symm, h3, h4⟩
  have hP : ∀ y, (s.windows old).prev = some y → ¬ y = old ∧ ¬ y = new ∧ ¬ old = y ∧ ¬ new = y
      ∧ ¬ (s.windows old).parent = some y := by
    intro y hy; obtain ⟨h1, h2, h3⟩ := hpv y hy
    exact ⟨h1, h2, fun h => h1 h.symm, fun h => h2 h.symm, h3⟩
  have hA : ∀ y, (s.windows old).parent = some y → ¬ y = old ∧ ¬ y = new ∧ ¬ old = y ∧ ¬ new = y := by
    intro y hy; obtain ⟨h1, h2⟩ := hpa y hy
    exact ⟨h1, h2, fun h => h1 h.symm, fun h => h2 h.symm⟩
  clear hnx hpv hpa
  rcases hn : (s.windows old).next with _ | n <;>
  rcases hp : (s.windows old).prev with _ | p <;>
  rcases ha : (s.windows old).parent with _ | a <;>
  simp only [hn, hp, ha, Option.some.injEq, forall_eq', reduceCtorEq, false_implies, implies_true,
    not_false_eq_true, true_and, and_true] at hN hP hA <;>
  (try by_cases c4 : (s.windows a).vchild = some old) <;>
  (try by_cases c5 : (s.windows a).hchild = some old) <;>
  by_cases c6 : (s.screens scr).root_window = some old <;>
  simp [replace_window, apply_ite State.screens, ite_apply, *]

/-- What `make_dummy_parent` does to the window itself, to the new parent and
to the globals. -/
theorem make_dummy_parent_basic (s : State) (old : Win) (scr : Scr)
    (hscr : (s.windows old).screen = some scr) (hon : old ≠ s.nalloc)
    (hnx : ∀ y, (s.windows old).next = some y → y ≠ old ∧ y ≠ s.nalloc
      ∧ (s.windows old).prev ≠ some y ∧ (s.windows old).parent ≠ some y)
    (hpv : ∀ y, (s.windows old).prev = some y → y ≠ old ∧ y ≠ s.nalloc
      ∧ (s.windows old).parent ≠ some y)
    (hpa : ∀ y, (s.windows old).parent = some y → y ≠ old ∧ y ≠ s.nalloc) :
    (make_dummy_parent s old).Holds fun _ s' =>
      s'.nalloc = s.nalloc + 1
      ∧ s'.selected_window = s.selected_window
      ∧ s'.window_min_height = s.window_min_height ∧ s'.window_min_width = s.window_min_width
      ∧ s'.buffers = s.buffers
      ∧ s'.windows old = { s.windows old with
          next := none, prev := none, vchild := none, hchild := none, parent := some s.nalloc }
      ∧ s'.windows s.nalloc = { s.windows old with
          sequence_number := s.sequence_number + 1,
          start := none, pointm := none, buffer := BufSlot.nil } := by
  have hon' : s.nalloc ≠ old := fun h => hon h.symm
  have hN : ∀ y, (s.windows old).next = some y → ¬ y = old ∧ ¬ y = s.nalloc ∧ ¬ old = y ∧ ¬ s.nalloc = y
      ∧ ¬ (s.windows old).prev = some y ∧ ¬ (s.windows old).parent = some y := by
    intro y hy; obtain ⟨h1, h2, h3, h4⟩ := hnx y hy
    exact ⟨h1, h2, fun h => h1 h.symm, fun h => h2 h.symm, h3, h4⟩
  have hP : ∀ y, (s.windows old).prev = some y → ¬ y = old ∧ ¬ y = s.nalloc ∧ ¬ old = y ∧ ¬ s.nalloc = y
      ∧ ¬ (s.windows old).parent = some y := by
    intro y hy; obtain ⟨h1, h2, h3⟩ := hpv y hy
    exact ⟨h1, h2, fun h => h1 h.symm, fun h => h2 h.symm, h3⟩
  have hA : ∀ y, (s.windows old).parent = some y → ¬ y = old ∧ ¬ y = s.nalloc ∧ ¬ old = y ∧ ¬ s.nalloc = y := by
    intro y hy; obtain ⟨h1, h2⟩ := hpa y hy
    exact ⟨h1, h2, fun h => h1 h.symm, fun h => h2 h.symm⟩
  clear hnx hpv hpa
  rcases hn : (s.windows old).next with _ | n <;>
  rcases hp : (s.windows old).prev with _ | p <;>
  rcases ha : (s.windows old).parent with _ | a <;>
  simp only [hn, hp, ha, Option.some.injEq, forall_eq', reduceCtorEq, false_implies, implies_true,
    not_false_eq_true, true_and, and_true] at hN hP hA <;>
  (try by_cases c4 : (s.windows a).vchild = some old) <;>
  (try by_cases c5 : (s.windows a).hchild = some old) <;>
  by_cases c6 : (s.screens scr).root_window = some old <;>
  simp [make_dummy_parent, replace_window, ite_apply, *]

theorem make_dummy_parent_screens (s : State) (old : Win) (scr : Scr)
    (hscr : (s.windows old).screen = some scr) (hon : old ≠ s.nalloc)
    (hnx : ∀ y, (s.windows old).next = some y → y ≠ old ∧ y ≠ s.nalloc
      ∧ (s.windows old).prev ≠ some y ∧ (s.windows old).parent ≠ some y)
    (hpv : ∀ y, (s.windows old).prev = some y → y ≠ old ∧ y ≠ s.nalloc
      ∧ (s.windows old).parent ≠ some y)
    (hpa : ∀ y, (s.windows old).parent = some y → y ≠ old ∧ y ≠ s.nalloc) :
    (make_dummy_parent s old).Holds fun _ s' =>
      ∀ c, s'.screens c = if c = scr ∧ (s.screens scr).root_window = some old
          then { s.screens scr with root_window := some s.nalloc } else s.screens c := by
  have hon' : s.nalloc ≠ old := fun h => hon h.symm
  have hN : ∀ y, (s.windows old).next = some y → ¬ y = old ∧ ¬ y = s.nalloc ∧ ¬ old = y ∧ ¬ s.nalloc = y
      ∧ ¬ (s.windows old).prev = some y ∧ ¬ (s.windows old).parent = some y := by
    intro y hy; obtain ⟨h1, h2, h3, h4⟩ := hnx y hy
    exact ⟨h1, h2, fun h => h1 h.symm, fun h => h2 h.symm, h3, h4⟩
  have hP : ∀ y, (s.windows old).prev = some y → ¬ y = old ∧ ¬ y = s.nalloc ∧ ¬ old = y ∧ ¬ s.nalloc = y
      ∧ ¬ (s.windows old).parent = some y := by
    intro y hy; obtain ⟨h1, h2, h3⟩ := hpv y hy
    exact ⟨h1, h2, fun h => h1 h.symm, fun h => h2 h.symm, h3⟩
  have hA : ∀ y, (s.windows old).parent = some y → ¬ y = old ∧ ¬ y = s.nalloc ∧ ¬ old = y ∧ ¬ s.nalloc = y := by
    intro y hy; obtain ⟨h1, h2⟩ := hpa y hy
    exact ⟨h1, h2, fun h => h1 h.symm, fun h => h2 h.symm⟩
  clear hnx hpv hpa
  rcases hn : (s.windows old).next with _ | n <;>
  rcases hp : (s.windows old).prev with _ | p <;>
  rcases ha : (s.windows old).parent with _ | a <;>
  simp only [hn, hp, ha, Option.some.injEq, forall_eq', reduceCtorEq, false_implies, implies_true,
    not_false_eq_true, true_and, and_true] at hN hP hA <;>
  (try by_cases c4 : (s.windows a).vchild = some old) <;>
  (try by_cases c5 : (s.windows a).hchild = some old) <;>
  by_cases c6 : (s.screens scr).root_window = some old <;>
  simp [make_dummy_parent, replace_window, apply_ite State.screens, ite_apply, *]

set_option maxHeartbeats 4000000 in
theorem make_dummy_parent_other (s : State) (old : Win) (scr : Scr)
    (hscr : (s.windows old).screen = some scr) (hon : old ≠ s.nalloc)
    (hnx : ∀ y, (s.windows old).next = some y → y ≠ old ∧ y ≠ s.nalloc
      ∧ (s.windows old).prev ≠ some y ∧ (s.windows old).parent ≠ some y)
    (hpv : ∀ y, (s.windows old).prev = some y → y ≠ old ∧ y ≠ s.nalloc
      ∧ (s.windows old).parent ≠ some y)
    (hpa : ∀ y, (s.windows old).parent = some y → y ≠ old ∧ y ≠ s.nalloc)
    (x : Win) (hx1 : x ≠ s.nalloc) (hx2 : x ≠ old) :
    (make_dummy_parent s old).Holds fun _ s' => s'.windows x = replaced s old s.nalloc x := by
  have hon' : s.nalloc ≠ old := fun h => hon h.symm
  have hN : ∀ y, (s.windows old).next = some y → ¬ y = old ∧ ¬ y = s.nalloc ∧ ¬ old = y ∧ ¬ s.nalloc = y
      ∧ ¬ (s.windows old).prev = some y ∧ ¬ (s.windows old).parent = some y := by
    intro y hy; obtain ⟨h1, h2, h3, h4⟩ := hnx y hy
    exact ⟨h1, h2, fun h => h1 h.symm, fun h => h2 h.symm, h3, h4⟩
  have hP : ∀ y, (s.windows old).prev = some y → ¬ y = old ∧ ¬ y = s.nalloc ∧ ¬ old = y ∧ ¬ s.nalloc = y
      ∧ ¬ (s.windows old).parent = some y := by
    intro y hy; obtain ⟨h1, h2, h3⟩ := hpv y hy
    exact ⟨h1, h2, fun h => h1 h.symm, fun h => h2 h.symm, h3⟩
  have hA : ∀ y, (s.windows old).parent = some y → ¬ y = old ∧ ¬ y = s.nalloc ∧ ¬ old = y ∧ ¬ s.nalloc = y := by
    intro y hy; obtain ⟨h1, h2⟩ := hpa y hy
    exact ⟨h1, h2, fun h => h1 h.symm, fun h => h2 h.symm⟩
  clear hnx hpv hpa
  have hx1' : ¬ s.nalloc = x := fun h => hx1 h.symm
  have hx2' : ¬ old = x := fun h => hx2 h.symm
  rcases hn : (s.windows old).next with _ | n <;>
  rcases hp : (s.windows old).prev with _ | p <;>
  rcases ha : (s.windows old).parent with _ | a <;>
  simp only [hn, hp, ha, Option.some.injEq, forall_eq', reduceCtorEq, false_implies, implies_true,
    not_false_eq_true, true_and, and_true] at hN hP hA <;>
  simp only [replaced, hn, hp, ha, Option.some.injEq, reduceCtorEq, if_false] <;>
  (try by_cases c1 : n = x) <;>
  (try by_cases c2 : p = x) <;>
  (try by_cases c3 : a = x) <;>
  (try have c1' : ¬ x = n := fun h => c1 h.symm) <;>
  (try have c2' : ¬ x = p := fun h => c2 h.symm) <;>
  (try have c3' : ¬ x = a := fun h => c3 h.symm) <;>
  (try subst c1) <;> (try subst c2) <;> (try subst c3) <;>
  (try by_cases c4 : (s.windows a).vchild = some old) <;>
  (try by_cases c5 : (s.windows a).hchild = some old) <;>
  by_cases c6 : (s.screens scr).root_window = some old <;>
  simp [make_dummy_parent, replace_window, apply_ite State.windows, ite_apply, *] <;>
  simp_all

@[simp] theorem clamp_min_windows (s : State) : (clamp_min s).windows = s.windows := by
  unfold clamp_min; simp only []; split_ifs <;> rfl
@[simp] theorem clamp_min_screens (s : State) : (clamp_min s).screens = s.screens := by
  unfold clamp_min; simp only []; split_ifs <;> rfl
@[simp] theorem clamp_min_buffers (s : State) : (clamp_min s).buffers = s.buffers := by
  unfold clamp_min; simp only []; split_ifs <;> rfl
@[simp] theorem clamp_min_nalloc (s : State) : (clamp_min s).nalloc = s.nalloc := by
  unfold clamp_min; simp only []; split_ifs <;> rfl
@[simp] theorem clamp_min_selected_window (s : State) :
    (clamp_min s).selected_window = s.selected_window := by
  unfold clamp_min; simp only []; split_ifs <;> rfl
@[simp] theorem clamp_min_sequence_number (s : State) :
    (clamp_min s).sequence_number = s.sequence_number := by
  unfold clamp_min; simp only []; split_ifs <;> rfl

theorem clamp_min_height (s : State) :
    (clamp_min s).window_min_height = max s.window_min_height 2 := by
  unfold clamp_min
  by_cases h1 : s.window_min_width < 2 <;> by_cases h2 : s.window_min_height < 2 <;>
    simp [h1, h2] <;> omega

theorem clamp_min_width (s : State) :
    (clamp_min s).window_min_width = max s.window_min_width 2 := by
  unfold clamp_min
  by_cases h1 : s.window_min_width < 2 <;> by_cases h2 : s.window_min_height < 2 <;>
    simp [h1, h2] <;> omega

theorem splitPost_clamp (s : State) (w : Win) (size : Int) (hor : Bool) (b : Buf) (new : Win)
    (s' : State) : SplitPost (clamp_min s) w size hor b new s' ↔ SplitPost s w size hor b new s' := by
  simp [SplitPost]

theorem LinkOK.congr {scr : Scr} {h h' : Win → Window} {i : NodeInfo}
    (e : h' i.w = h i.w) (hl : LinkOK scr h i) : LinkOK scr h' i := by
  unfold LinkOK at *
  rw [e]; exact hl

/-- A window with a buffer is a leaf of the shape. -/
theorem LinkOK.leaf_of_buffer {scr : Scr} {h : Win → Window} {i : NodeInfo}
    (hl : LinkOK scr h i) (hb : (h i.w).buffer ≠ BufSlot.nil) :
    i.k = Kind.leaf ∧ i.child = none := by
  unfold LinkOK at hl
  obtain ⟨_, _, _, _, hk⟩ := hl
  cases hik : i.k <;> simp_all

theorem head_eq_none {t : Shape} (h : t.head = none) : t = Shape.nil := by
  cases t <;> simp_all [Shape.head]

/-- `Rep` of a shape with a node in the hole. -/
theorem rep_plug_node (s : State) (scr : Scr) (c : Ctx) (w : Win) (k : Kind) (ch rest : Shape) :
    Rep s scr (plug c (Shape.node w k ch rest)) ↔
      (s.screens scr).root_window = ctxRoot c (some w)
        ∧ (ctxHandles c ++ w :: (ch.handles ++ rest.handles)).Nodup
        ∧ (∀ x ∈ ctxHandles c ++ w :: (ch.handles ++ rest.handles), x < s.nalloc)
        ∧ (∀ i ∈ ctxInfos c (some w), LinkOK scr s.windows i)
        ∧ LinkOK scr s.windows
            { w := w, k := k, par := hpar c, prev := hprev c, next := rest.head, child := ch.head }
        ∧ (∀ i ∈ ch.infos (some (k, w)) none, LinkOK scr s.windows i)
        ∧ (∀ i ∈ rest.infos (hpar c) (some w), LinkOK scr s.windows i) := by
  rw [rep_plug]
  simp only [Shape.head, Shape.handles, Shape.infos, List.mem_cons, List.mem_append,
    forall_eq_or_imp]
  constructor
  · rintro ⟨h1, h2, h3, h4, h5, h6⟩
    exact ⟨h1, h2, h3, h4, h5, fun i hi => h6 i (Or.inl hi), fun i hi => h6 i (Or.inr hi)⟩
  · rintro ⟨h1, h2, h3, h4, h5, h6, h7⟩
    exact ⟨h1, h2, h3, h4, h5, fun i hi => hi.elim (h6 i) (h7 i)⟩

/-- `Rep` after a split that needed no dummy parent. -/
theorem rep_split_nodummy (s s' : State) (scr : Scr) (c : Ctx) (w : Win) (k : Kind)
    (ch rest : Shape) (size : Int) (hor : Bool) (b : Buf) (new : Win)
    (hrep : Rep s scr (plug c (Shape.node w k ch rest)))
    (hb : (s.windows w).buffer = BufSlot.buf b)
    (hpost : SplitPost s w size hor b new s') :
    k = Kind.leaf ∧ ch = Shape.nil
      ∧ Rep s' scr (plug c (Shape.node w Kind.leaf Shape.nil
          (Shape.node new Kind.leaf Shape.nil rest))) := by
  rw [rep_plug_node] at hrep
  obtain ⟨hroot, hnd, hlt, hctx, hw, hchi, hresti⟩ := hrep
  obtain ⟨hk, hch⟩ := hw.leaf_of_buffer (by simp [hb])
  simp only at hk hch
  have hch' := head_eq_none hch
  subst hk; subst hch'
  refine ⟨rfl, rfl, ?_⟩
  obtain ⟨hnew, hscreens, hnalloc, hother, hwin, hpar, hprev, hnext, hhc, hvc, hbuf, hscr, hmini,
    -, -, -, -⟩ := hpost
  subst hnew
  simp only [Shape.handles, List.nil_append] at hnd hlt
  have hwlt : w < s.nalloc := hlt w (by simp)
  have hwne : w ≠ s.nalloc := Nat.ne_of_lt hwlt
  obtain ⟨hwpar, hwprev, hwnext, hwscr, hwk⟩ := hw
  simp only at hwpar hwprev hwnext hwscr hwk
  rw [rep_plug_node]
  have hfresh : ∀ x ∈ ctxHandles c ++ w :: rest.handles, x ≠ s.nalloc := by
    intro x hx; exact Nat.ne_of_lt (hlt x hx)
  have hnd' := hnd
  rw [List.nodup_append] at hnd'
  obtain ⟨hndc, hndw, hdisj⟩ := hnd'
  simp only [List.nodup_cons] at hndw
  refine ⟨by simpa [hscreens] using hroot, ?_, ?_, ?_, ?_, ?_, ?_⟩
  · -- distinct
    simp only [Shape.handles, List.nil_append]
    rw [List.nodup_append]
    refine ⟨hndc, ?_, ?_⟩
    · simp only [List.nodup_cons, List.mem_cons, not_or]
      refine ⟨⟨hwne, hndw.1⟩, ⟨fun h => ?_, hndw.2⟩⟩
      exact hfresh _ (by simp [h]) rfl
    · intro x hx hx'
      simp only [List.mem_cons] at hx'
      rcases hx' with h | h | h
      · exact hdisj hx (by simp [h])
      · exact hfresh x (by simp [hx]) h
      · exact hdisj hx (by simp [h])
  · -- allocated
    simp only [Shape.handles, List.nil_append, List.mem_append, List.mem_cons]
    intro x hx
    rw [hnalloc]
    rcases hx with h | h | h | h
    · exact Nat.lt_succ_of_lt (hlt x (by simp [h]))
    · exact Nat.lt_succ_of_lt (hlt x (by simp [h]))
    · subst h; exact Nat.lt_succ_self _
    · exact Nat.lt_succ_of_lt (hlt x (by simp [h]))
  · -- context
    intro i hi
    have hiw := (ctxInfos_fields c _ i hi).1
    refine (hctx i hi).congr ?_
    rw [hother _ (hfresh _ (by simp [hiw])) (fun h => hdisj hiw (by simp [h]))]
    rw [hwnext]
    split
    · rename_i h
      exact absurd (head_mem_handles _ _ h) (fun h' => hdisj hiw (by simp [h']))
    · rfl
  · -- the old window
    simp only [LinkOK, hwin, Shape.head]
    cases hor <;> simp [hwpar, hwprev, hwscr, hwk, hb] <;> simp_all
  · simp [Shape.infos]
  · -- the new window and the rest
    simp only [Shape.infos, List.mem_cons, List.mem_append, forall_eq_or_imp, List.nil_append,
      List.not_mem_nil, false_or]
    refine ⟨?_, ?_⟩
    · simp only [LinkOK, hpar, hprev, hnext, hhc, hvc, hbuf, hscr]
      simp [hwpar, hwnext, hwscr, Shape.head]
    · cases rest with
      | nil => simp [Shape.infos]
      | node r kr chr rr =>
        simp only [Shape.infos, List.mem_cons, List.mem_append, forall_eq_or_imp] at hresti ⊢
        simp only [Shape.head] at hwnext
        simp only [Shape.handles, List.mem_cons, List.mem_append, List.nodup_cons, not_or]
          at hndw hfresh hdisj
        have hr1 : r ≠ s.nalloc := hfresh r (by simp)
        have hr2 : r ≠ w := fun h => hndw.1.1 h.symm
        refine ⟨?_, fun i hi => ?_⟩
        · have h0 := hresti.1
          simp only [LinkOK, hother r hr1 hr2, hwnext, if_true] at h0 ⊢
          obtain ⟨a1, a2, a3, a4, a5⟩ := h0
          refine ⟨a1, trivial, a3, a4, ?_⟩
          cases kr <;> simpa using a5
        · have hiw : i.w ∈ chr.handles ∨ i.w ∈ rr.handles :=
            hi.imp (fun h => (infos_fields _ _ _ _ h).1) (fun h => (infos_fields _ _ _ _ h).1)
          refine (hresti.2 i hi).congr ?_
          have e1 : i.w ≠ s.nalloc := hfresh _ (by simp [hiw])
          have e2 : i.w ≠ w := fun h => by
            rcases hiw with h' | h'
            · exact hndw.1.2.1 (h ▸ h')
            · exact hndw.1.2.2 (h ▸ h')
          have e3 : i.w ≠ r := fun h => by
            rcases hiw with h' | h'
            · exact hndw.2.1.1 (h ▸ h')
            · exact hndw.2.1.2 (h ▸ h')
          rw [hother _ e1 e2, hwnext]
          simp [Ne.symm e3]

theorem ctxInfos_eq (c : Ctx) (hd : Option Win) : ctxInfos c hd = ctxSpine c hd ++ ctxTail c := by
  cases c with
  | nil => rfl
  | cons f c => cases f <;> rfl

/-- The windows in the tail of a context are windows of the context other
than the innermost frame window, and so are their next siblings and first
children. -/
theorem ctxTail_fields (f : Frame) (c : Ctx) (i : NodeInfo) (hi : i ∈ ctxTail (f :: c)) :
    i.w ∈ (ctxHandles (f :: c)).tail
      ∧ (∀ y, i.next = some y → y ∈ ctxHandles (f :: c))
      ∧ (∀ y, i.child = some y → y ∈ ctxHandles (f :: c)) := by
  cases f with
  | right w k ch =>
    simp only [ctxTail, List.mem_append] at hi
    simp only [ctxHandles, List.tail_cons, List.mem_append, List.mem_cons]
    rcases hi with hi | hi
    · obtain ⟨h1, h2, h3, -, -⟩ := infos_fields _ _ _ _ hi
      exact ⟨Or.inl h1, fun y hy => Or.inr (Or.inl (h2 y hy)), fun y hy => Or.inr (Or.inl (h3 y hy))⟩
    · obtain ⟨h1, h2, h3, -, -⟩ := ctxInfos_fields _ _ _ hi
      refine ⟨Or.inr h1, fun y hy => ?_, fun y hy => ?_⟩
      · rcases h2 y hy with h | h
        · exact Or.inl (Option.some.inj h).symm
        · exact Or.inr (Or.inr h)
      · rcases h3 y hy with h | h
        · exact Or.inl (Option.some.inj h).symm
        · exact Or.inr (Or.inr h)
  | down w k rest =>
    simp only [ctxTail, List.mem_append] at hi
    simp only [ctxHandles, List.tail_cons, List.mem_append, List.mem_cons]
    rcases hi with hi | hi
    · obtain ⟨h1, h2, h3, -, -⟩ := infos_fields _ _ _ _ hi
      exact ⟨Or.inl h1, fun y hy => Or.inr (Or.inl (h2 y hy)), fun y hy => Or.inr (Or.inl (h3 y hy))⟩
    · obtain ⟨h1, h2, h3, -, -⟩ := ctxInfos_fields _ _ _ hi
      refine ⟨Or.inr h1, fun y hy => ?_, fun y hy => ?_⟩
      · rcases h2 y hy with h | h
        · exact Or.inl (Option.some.inj h).symm
        · exact Or.inr (Or.inr h)
      · rcases h3 y hy with h | h
        · exact Or.inl (Option.some.inj h).symm
        · exact Or.inr (Or.inr h)

theorem ctxRoot_cons (f : Frame) (c : Ctx) (hd hd' : Option Win) :
    ctxRoot (f :: c) hd = ctxRoot (f :: c) hd' := rfl

theorem ctxRoot_mem (f : Frame) (c : Ctx) (hd : Option Win) :
    ∃ y ∈ ctxHandles (f :: c), ctxRoot (f :: c) hd = some y := by
  induction c generalizing f hd with
  | nil => cases f <;> exact ⟨_, by simp [ctxHandles, Frame.win], rfl⟩
  | cons g c ih =>
    obtain ⟨y, hy, e⟩ := ih g (some f.win)
    refine ⟨y, ?_, by simpa [ctxRoot] using e⟩
    cases f <;> simp [ctxHandles] at hy ⊢ <;> simp [hy]

/-- A window that `replace_window` does not reach through `next`/`prev` of
`old` and that has no child pointer to `old` keeps its links. -/
theorem linkOK_replaced_tail (s : State) (scr : Scr) (o n : Win) (h' : Win → Window)
    (i : NodeInfo) (hl : LinkOK scr s.windows i)
    (e : h' i.w = replaced s o n i.w)
    (h1 : (s.windows o).next ≠ some i.w) (h2 : (s.windows o).prev ≠ some i.w)
    (h3 : i.child ≠ some o) : LinkOK scr h' i := by
  unfold LinkOK at *
  rw [e]
  unfold replaced
  simp only [h1, h2, if_false]
  obtain ⟨a1, a2, a3, a4, a5⟩ := hl
  by_cases hp : (s.windows o).parent = some i.w
  · simp only [hp, if_true]
    refine ⟨a1, a2, a3, a4, ?_⟩
    cases hk : i.k <;> simp only [hk] at a5 ⊢
    · obtain ⟨b1, b2, b3, b4⟩ := a5
      simp [b1, b2, b3, b4]
    · obtain ⟨b1, b2, b3, b4⟩ := a5
      simp [b1, b2, b3, b4, h3]
    · obtain ⟨b1, b2, b3, b4⟩ := a5
      simp [b1, b2, b3, b4, h3]
  · simp only [hp, if_false]
    exact ⟨a1, a2, a3, a4, a5⟩

/-- `Rep` after window `n` has taken the place of window `o` (by
`replace_window`): the context and the siblings after `o` stay as they are,
`n` stands where `o` stood, with children `chn`. -/
theorem rep_replace (s s' : State) (scr : Scr) (c : Ctx) (o n : Win) (k kn : Kind)
    (ch chn rest : Shape)
    (hrep : Rep s scr (plug c (Shape.node o k ch rest)))
    (hscreens : (s'.screens scr).root_window =
      if (s.screens scr).root_window = some o then some n else (s.screens scr).root_window)
    (hoth : ∀ x ∈ ctxHandles c ++ rest.handles, s'.windows x = replaced s o n x)
    (hnode : LinkOK scr s'.windows
      { w := n, k := kn, par := hpar c, prev := hprev c, next := rest.head, child := chn.head })
    (hchn : ∀ i ∈ chn.infos (some (kn, n)) none, LinkOK scr s'.windows i)
    (hnd' : (ctxHandles c ++ n :: (chn.handles ++ rest.handles)).Nodup)
    (hlt' : ∀ x ∈ ctxHandles c ++ n :: (chn.handles ++ rest.handles), x < s'.nalloc) :
    Rep s' scr (plug c (Shape.node n kn chn rest)) := by
  rw [rep_plug_node] at hrep ⊢
  obtain ⟨hroot, hnd, hlt, hctx, hw, hchi, hresti⟩ := hrep
  obtain ⟨hwpar, hwprev, hwnext, hwscr, hwk⟩ := hw
  simp only at hwpar hwprev hwnext hwscr hwk
  have hndx := hnd
  rw [List.nodup_append] at hndx
  obtain ⟨hndc, hndw, hdisj⟩ := hndx
  simp only [List.nodup_cons, List.mem_append, not_or] at hndw
  have hoc : o ∉ ctxHandles c := fun h => hdisj h (by simp)
  refine ⟨?_, hnd', hlt', ?_, hnode, hchn, ?_⟩
  · -- root
    rw [hscreens]
    cases c with
    | nil => simp [ctxRoot] at hroot ⊢; simp [hroot]
    | cons f c =>
      obtain ⟨y, hy, e⟩ := ctxRoot_mem f c (some o)
      rw [ctxRoot_cons f c (some n) (some o), ← hroot, if_neg]
      rw [hroot, e]
      intro h
      exact hoc ((Option.some.inj h) ▸ hy)
  · -- context
    have hnext_ne : ∀ x ∈ ctxHandles c, (s.windows o).next ≠ some x := by
      intro x hx h
      rw [hwnext] at h
      exact hdisj hx (by simp [head_mem_handles _ _ h])
    intro i hi
    rw [ctxInfos_eq, List.mem_append] at hi
    rcases hi with hi | hi
    · -- the innermost frame
      cases c with
      | nil => simp [ctxSpine] at hi
      | cons f c =>
        cases f with
        | right q kq chq =>
          simp only [ctxSpine, List.mem_singleton] at hi
          subst hi
          have hq := hctx ⟨q, kq, hpar c, hprev c, some o, chq.head⟩ (by simp [ctxInfos])
          have hqc : q ∈ ctxHandles (Frame.right q kq chq :: c) := by simp [ctxHandles]
          have e := hoth q (by simp [hqc])
          simp only [hprev] at hwprev
          unfold LinkOK at hq ⊢
          simp only at hq ⊢
          rw [e]
          unfold replaced
          simp only [hnext_ne q hqc, hwprev, if_false, if_true]
          obtain ⟨a1, a2, a3, a4, a5⟩ := hq
          exact ⟨a1, a2, trivial, a4, a5⟩
        | down P K restP =>
          simp only [ctxSpine, List.mem_singleton] at hi
          subst hi
          have hP := hctx ⟨P, K, hpar c, hprev c, restP.head, some o⟩ (by simp [ctxInfos])
          have hPc : P ∈ ctxHandles (Frame.down P K restP :: c) := by simp [ctxHandles]
          have e := hoth P (by simp [hPc])
          simp only [hprev, hpar, Option.map_some'] at hwprev hwpar
          unfold LinkOK at hP ⊢
          simp only at hP ⊢
          rw [e]
          unfold replaced
          simp only [hnext_ne P hPc, hwprev, hwpar, if_false, if_true, reduceCtorEq]
          obtain ⟨a1, a2, a3, a4, a5⟩ := hP
          refine ⟨a1, a2, a3, a4, ?_⟩
          cases K <;> simp only at a5 ⊢
          · simp at a5
          · obtain ⟨b1, b2, b3, b4⟩ := a5
            simp [b1, b3, b4]
          · obtain ⟨b1, b2, b3, b4⟩ := a5
            simp [b1, b3, b4]
    · -- the rest of the context
      cases c with
      | nil => simp [ctxTail] at hi
      | cons f c =>
        obtain ⟨h1, h2, h3⟩ := ctxTail_fields f c i hi
        have hmem : i.w ∈ ctxHandles (f :: c) := List.mem_of_mem_tail h1
        have hold := hctx i (by rw [ctxInfos_eq]; exact List.mem_append_right _ hi)
        refine linkOK_replaced_tail s scr o n _ i hold (hoth _ (by simp [hmem]))
          (hnext_ne _ hmem) ?_ ?_
        · rw [hwprev]
          intro h
          have hf : f.win = i.w := by
            cases f <;> simp [hprev, Frame.win] at h ⊢ <;> exact h
          have hnd2 : (ctxHandles (f :: c)).Nodup := hndc
          have : ctxHandles (f :: c) = f.win :: (ctxHandles (f :: c)).tail := by
            cases f <;> simp [ctxHandles, Frame.win]
          rw [this, List.nodup_cons] at hnd2
          exact hnd2.1 (hf ▸ h1)
        · intro h
          exact hoc (h3 _ h)
  · -- rest
    cases rest with
    | nil => simp [Shape.infos]
    | node r kr chr rr =>
      simp only [Shape.infos, List.mem_cons, List.mem_append, forall_eq_or_imp] at hresti ⊢
      simp only [Shape.head] at hwnext
      simp only [Shape.handles, List.mem_cons, List.mem_append, List.nodup_cons, not_or]
        at hndw hdisj hoth
      have hndr : (r :: (chr.handles ++ rr.handles)).Nodup := (List.nodup_append.mp hndw.2).2.1
      simp only [List.nodup_cons, List.mem_append, not_or] at hndr
      obtain ⟨⟨hr1, hr2⟩, -⟩ := hndr
      obtain ⟨⟨-, -, ho1, ho2⟩, -⟩ := hndw
      refine ⟨?_, fun i hi => ?_⟩
      · have h0 := hresti.1
        have e := hoth r (Or.inr (Or.inl rfl))
        unfold LinkOK at h0 ⊢
        simp only at h0 ⊢
        rw [e]
        unfold replaced
        simp only [hwnext, if_true]
        obtain ⟨a1, a2, a3, a4, a5⟩ := h0
        exact ⟨a1, trivial, a3, a4, a5⟩
      · have hiw : i.w ∈ chr.handles ∨ i.w ∈ rr.handles :=
          hi.imp (fun h => (infos_fields _ _ _ _ h).1) (fun h => (infos_fields _ _ _ _ h).1)
        have hich : ∀ y, i.child = some y → y ∈ chr.handles ∨ y ∈ rr.handles := fun y hy =>
          hi.elim (fun h => Or.inl ((infos_fields _ _ _ _ h).2.2.1 y hy))
            (fun h => Or.inr ((infos_fields _ _ _ _ h).2.2.1 y hy))
        have hold := hresti.2 i hi
        refine linkOK_replaced_tail s scr o n _ i hold (hoth _ (Or.inr (Or.inr hiw))) ?_ ?_ ?_
        · rw [hwnext]
          intro h
          have h' : r = i.w := Option.some.inj h
          rcases hiw with h2 | h2
          · exact hr1 (h' ▸ h2)
          · exact hr2 (h' ▸ h2)
        · rw [hwprev]
          intro h
          refine hdisj (hprev_mem c _ h) ?_
          simp only [List.mem_cons, List.mem_append]
          exact Or.inr (Or.inr (Or.inr hiw))
        · intro h
          rcases hich _ h with h2 | h2
          · exact ho1 h2
          · exact ho2 h2

theorem Res.holds_and3 {α : Type} {r : Res α} {P Q : α → State → Prop} {R : Win → α → State → Prop}
    (h1 : r.Holds P) (h2 : r.Holds Q) (h3 : ∀ x, r.Holds (R x)) :
    r.Holds fun a s => P a s ∧ Q a s ∧ ∀ x, R x a s := by
  cases r <;> simp_all

/-- `make_dummy_parent` followed by the assignment of the child pointer. -/
theorem make_dummy_parent_post (s : State) (w : Win) (hor : Bool) (scr : Scr)
    (hscr : (s.windows w).screen = some scr) (hon : w ≠ s.nalloc)
    (hnx : ∀ y, (s.windows w).next = some y → y ≠ w ∧ y ≠ s.nalloc
      ∧ (s.windows w).prev ≠ some y ∧ (s.windows w).parent ≠ some y)
    (hpv : ∀ y, (s.windows w).prev = some y → y ≠ w ∧ y ≠ s.nalloc
      ∧ (s.windows w).parent ≠ some y)
    (hpa : ∀ y, (s.windows w).parent = some y → y ≠ w ∧ y ≠ s.nalloc) :
    (make_dummy_parent s w).Holds fun _ s3 =>
      (s3.windows w).parent = some s.nalloc
        ∧ DummyPost s w hor scr
            (setw s3 s.nalloc (if hor then { s3.windows s.nalloc with hchild := some w }
              else { s3.windows s.nalloc with vchild := some w })) := by
  have h1 := make_dummy_parent_basic s w scr hscr hon hnx hpv hpa
  have h2 := make_dummy_parent_screens s w scr hscr hon hnx hpv hpa
  have h3 : ∀ x, (make_dummy_parent s w).Holds fun _ s' =>
      x ≠ s.nalloc → x ≠ w → s'.windows x = replaced s w s.nalloc x := by
    intro x
    by_cases hx1 : x = s.nalloc
    · exact h1.imp (fun _ _ _ h => absurd hx1 h)
    · by_cases hx2 : x = w
      · exact h1.imp (fun _ _ _ _ h => absurd hx2 h)
      · exact (make_dummy_parent_other s w scr hscr hon hnx hpv hpa x hx1 hx2).imp
          (fun _ _ h _ _ => h)
  refine (Res.holds_and3 h1 h2 h3).imp ?_
  rintro _ s3 ⟨⟨a1, a2, a3, a4, a5, a6, a7⟩, b, c⟩
  have hon' : s.nalloc ≠ w := fun h => hon h.symm
  refine ⟨by rw [a6], ?_⟩
  unfold DummyPost
  refine ⟨by simpa using a1, by simpa using a5, by simpa using b, ?_, ?_, ?_⟩
  · simp [hon, a6]
  · cases hor <;> simp [a7]
  · intro x hx1 hx2
    simp [hx1, c x hx1 hx2]

/-- A handle above all handles of a list is not in the list. -/
theorem nodup_fresh {l : List Win} {n : Nat} (h : ∀ x ∈ l, x < n) : n ∉ l :=
  fun hn => Nat.lt_irrefl _ (h n hn)

/-- `Rep` after a dummy parent has been interposed above the leaf `w`. -/
theorem rep_dummy (s s' : State) (scr : Scr) (c : Ctx) (w : Win) (rest : Shape) (hor : Bool)
    (hrep : Rep s scr (plug c (Shape.node w Kind.leaf Shape.nil rest)))
    (hpost : DummyPost s w hor scr s') :
    Rep s' scr (plug c (Shape.node s.nalloc (if hor then Kind.hcomb else Kind.vcomb)
      (Shape.node w Kind.leaf Shape.nil Shape.nil) rest)) := by
  have hrep0 := hrep
  rw [rep_plug_node] at hrep
  obtain ⟨hroot, hnd, hlt, hctx, hw, hchi, hresti⟩ := hrep
  obtain ⟨hwpar, hwprev, hwnext, hwscr, hwhc, hwvc, hwbuf, -⟩ := hw
  simp only at hwpar hwprev hwnext hwscr hwhc hwvc hwbuf
  obtain ⟨hnalloc, hbufs, hscreens, hwin, hnew, hother⟩ := hpost
  simp only [Shape.handles, List.nil_append] at hnd hlt
  have hfresh := nodup_fresh hlt
  have hndx := hnd
  rw [List.nodup_append] at hndx
  obtain ⟨hndc, hndw, hdisj⟩ := hndx
  simp only [List.nodup_cons] at hndw
  simp only [List.mem_append, List.mem_cons, not_or] at hfresh
  refine rep_replace s s' scr c w s.nalloc Kind.leaf _ Shape.nil _ rest hrep0 ?_ ?_ ?_ ?_ ?_ ?_
  · rw [hscreens]
    by_cases h : (s.screens scr).root_window = some w <;> simp [h]
  · intro x hx
    refine hother x ?_ ?_
    · intro h; subst h
      simp only [List.mem_append] at hx
      rcases hx with h | h
      · exact hfresh.1 h
      · exact hfresh.2.2 h
    · intro h; subst h
      simp only [List.mem_append] at hx
      rcases hx with h | h
      · exact hdisj h (by simp)
      · exact hndw.1 h
  · unfold LinkOK
    simp only [hnew]
    cases hor <;> simp [hwpar, hwprev, hwnext, hwscr, hwhc, hwvc, Shape.head]
  · simp only [Shape.infos, List.nil_append, List.append_nil, List.mem_singleton, forall_eq]
    unfold LinkOK
    simp only [hwin]
    simp [hwscr, hwbuf, Shape.head]
  · simp only [Shape.handles, List.nil_append, List.append_nil, List.singleton_append]
    rw [List.nodup_append]
    refine ⟨hndc, ?_, ?_⟩
    · simp only [List.nodup_cons, List.mem_cons, not_or]
      exact ⟨⟨fun h => hfresh.2.1 h, hfresh.2.2⟩, hndw⟩
    · intro x hx hx'
      simp only [List.mem_cons] at hx'
      rcases hx' with h | h | h
      · exact hfresh.1 (h ▸ hx)
      · exact hdisj hx (by simp [h])
      · exact hdisj hx (by simp [h])
  · intro x hx
    rw [hnalloc]
    simp only [Shape.handles, List.nil_append, List.append_nil, List.singleton_append,
      List.mem_append, List.mem_cons] at hx
    rcases hx with h | h | h | h
    · exact Nat.lt_succ_of_lt (hlt x (by simp [h]))
    · subst h; exact Nat.lt_succ_self _
    · exact Nat.lt_succ_of_lt (hlt x (by simp [h]))
    · exact Nat.lt_succ_of_lt (hlt x (by simp [h]))

@[simp] theorem needs_parent_clamp (s : State) (w : Win) (hor : Bool) :
    needs_parent (clamp_min s) w hor = needs_parent s w hor := by
  simp [needs_parent]

theorem dummyPost_clamp (s : State) (w : Win) (hor : Bool) (scr : Scr) (s' : State) :
    DummyPost (clamp_min s) w hor scr s' ↔ DummyPost s w hor scr s' := by
  simp [DummyPost, replaced]

/-- The neighbours of a window of a represented shape are distinct windows
below the allocation mark. -/
theorem rep_distinct (s : State) (scr : Scr) (c : Ctx) (w : Win) (k : Kind) (ch rest : Shape)
    (hrep : Rep s scr (plug c (Shape.node w k ch rest))) :
    (s.windows w).screen = some scr ∧ w ≠ s.nalloc
      ∧ (∀ y, (s.windows w).next = some y → y ≠ w ∧ y ≠ s.nalloc
          ∧ (s.windows w).prev ≠ some y ∧ (s.windows w).parent ≠ some y)
      ∧ (∀ y, (s.windows w).prev = some y → y ≠ w ∧ y ≠ s.nalloc
          ∧ (s.windows w).parent ≠ some y)
      ∧ (∀ y, (s.windows w).parent = some y → y ≠ w ∧ y ≠ s.nalloc) := by
  rw [rep_plug_node] at hrep
  obtain ⟨hroot, hnd, hlt, hctx, hw, hchi, hresti⟩ := hrep
  obtain ⟨hwpar, hwprev, hwnext, hwscr, -⟩ := hw
  simp only at hwpar hwprev hwnext hwscr
  rw [List.nodup_append] at hnd
  obtain ⟨hndc, hndw, hdisj⟩ := hnd
  simp only [List.nodup_cons, List.mem_append, not_or] at hndw
  have hparmem : ∀ y, (s.windows w).parent = some y → y ∈ ctxHandles c := by
    intro y hy
    rw [hwpar] at hy
    rcases hp : hpar c with _ | ⟨K, P⟩
    · simp [hp] at hy
    · simp only [hp, Option.map_some', Option.some.injEq] at hy
      exact hy ▸ hpar_mem c K P hp
  have hprevmem : ∀ y, (s.windows w).prev = some y → y ∈ ctxHandles c := by
    intro y hy
    rw [hwprev] at hy
    exact hprev_mem c y hy
  have hnextmem : ∀ y, (s.windows w).next = some y → y ∈ rest.handles := by
    intro y hy
    rw [hwnext] at hy
    exact head_mem_handles _ _ hy
  refine ⟨hwscr, Nat.ne_of_lt (hlt w (by simp)), ?_, ?_, ?_⟩
  · intro y hy
    have hm := hnextmem y hy
    refine ⟨fun h => hndw.1.2 (h ▸ hm), Nat.ne_of_lt (hlt y (by simp [hm])), fun h => ?_,
      fun h => ?_⟩
    · exact hdisj (hprevmem y h) (by simp [hm])
    · exact hdisj (hparmem y h) (by simp [hm])
  · intro y hy
    have hm := hprevmem y hy
    refine ⟨fun h => hdisj hm (by simp [h]), Nat.ne_of_lt (hlt y (by simp [hm])), fun h => ?_⟩
    rw [hwprev] at hy
    rw [hwpar] at h
    cases c with
    | nil => simp [hprev] at hy
    | cons f c =>
      cases f with
      | right q kq chq =>
        simp only [hprev, Option.some.injEq] at hy
        simp only [hpar] at h
        rcases hp : hpar c with _ | ⟨K, P⟩
        · simp [hp] at h
        · simp only [hp, Option.map_some', Option.some.injEq] at h
          have hPm := hpar_mem c K P hp
          simp only [ctxHandles, List.nodup_cons, List.mem_append, not_or] at hndc
          exact hndc.1.2 (hy ▸ h ▸ hPm)
      | down P K restP => simp [hprev] at hy
  · intro y hy
    have hm := hparmem y hy
    exact ⟨fun h => hdisj hm (by simp [h]), Nat.ne_of_lt (hlt y (by simp [hm]))⟩

theorem Res.sat_of_holds_andThen {α β : Type} {r : Res α} {f : α → State → Res β}
    {P : α → State → Prop} {Q : β → State → Prop}
    (h : r.Holds P) (hf : ∀ a s, P a s → (f a s).Sat Q) : (r.andThen f).Sat Q := by
  cases r <;> simp_all

/-- `Fsplit_window` on a window of a represented tree: if it returns, the
window was a leaf, the store has changed as `SplitOutcome` says and it
represents the shape with the new window (and the dummy parent). -/
theorem Fsplit_window_rep (s : State) (scr : Scr) (c : Ctx) (w : Win) (k : Kind)
    (ch rest : Shape) (chsize : Option Int) (hor : Bool)
    (hrep : Rep s scr (plug c (Shape.node w k ch rest))) :
    (Fsplit_window s (some w) chsize hor).Sat fun new s' =>
      k = Kind.leaf ∧ ch = Shape.nil
        ∧ SplitOutcome s scr w (split_size s w chsize hor) hor new s'
        ∧ new = (if needs_parent s w hor = true then s.nalloc + 1 else s.nalloc)
        ∧ Rep s' scr (splitShape c w rest hor (needs_parent s w hor) s.nalloc) := by
  obtain ⟨hscr, hwne, hnx, hpv, hpa⟩ := rep_distinct s scr c w k ch rest hrep
  unfold Fsplit_window
  simp only [Option.getD_some, hscr]
  by_cases hm : MINI_WINDOW_P (s.windows w) = true
  · simp [hm]
  simp only [hm, if_false]
  by_cases hns : (s.screens scr).no_split = true
  · simp [hns]
  simp only [hns, if_false]
  by_cases hbad : split_size_bad s w (split_size s w chsize hor) hor
  · simp [hbad]
  simp only [hbad, if_false, needs_parent_clamp]
  have hm' : MINI_WINDOW_P (s.windows w) = false := by simpa using hm
  have hns' : (s.screens scr).no_split = false := by simpa using hns
  by_cases hnp : needs_parent s w hor = true
  · simp only [hnp, if_true]
    refine Res.sat_of_holds_andThen
      (make_dummy_parent_post (clamp_min s) w hor scr (by simpa using hscr) (by simpa using hwne)
        (by simpa using hnx) (by simpa using hpv) (by simpa using hpa)) ?_
    rintro _ s3 ⟨hpar3, hdum⟩
    rw [dummyPost_clamp] at hdum
    simp only [clamp_min_nalloc] at hpar3 hdum ⊢
    simp only [hpar3]
    generalize hs3 : setw s3 s.nalloc _ = s3' at hdum ⊢
    have hdum' := hdum
    obtain ⟨hnalloc, hbufs, hscreens, hwin, hnewD, hother⟩ := hdum'
    refine (split_finish_sat s3' w (split_size s w chsize hor) hor ?_ ?_).mono ?_
    · rw [hnalloc]
      have hwlt : w < s.nalloc := ((rep_plug_node s scr c w k ch rest).mp hrep).2.2.1 w (by simp)
      exact Nat.ne_of_lt (Nat.lt_succ_of_lt hwlt)
    · intro y hy; rw [hwin] at hy; simp at hy
    · rintro new s' ⟨b, hb, hl, hpost⟩
      have hb0 : (s.windows w).buffer = BufSlot.buf b := by rw [hwin] at hb; simpa using hb
      have hl0 : (s.buffers b).name_live = true := by rw [hbufs] at hl; exact hl
      have hwl := ((rep_plug_node s scr c w k ch rest).mp hrep).2.2.2.2.1
      obtain ⟨hk, hch⟩ := hwl.leaf_of_buffer (by simp [hb0])
      simp only at hk hch
      have hch' := head_eq_none hch
      subst hk; subst hch'
      have hrep3 := rep_dummy s s3' scr c w rest hor hrep hdum
      have hrep4 := (rep_split_nodummy s3' s' scr
        (Frame.down s.nalloc (if hor then Kind.hcomb else Kind.vcomb) rest :: c) w Kind.leaf
        Shape.nil Shape.nil (split_size s w chsize hor) hor b new hrep3 hb hpost).2.2
      have hnew : new = s.nalloc + 1 := by rw [hpost.1, hnalloc]
      refine ⟨rfl, rfl, ⟨hm', hns', hbad, b, hb0, hl0, ?_⟩, hnew, ?_⟩
      · simp only [hnp, if_true]
        exact ⟨s3', hdum, hpost⟩
      · subst hnew
        simpa [splitShape, plug] using hrep4
  · simp only [hnp, if_false]
    refine (split_finish_sat (clamp_min s) w (split_size s w chsize hor) hor
      (by simpa using hwne) (by
        intro y hy
        simp only [clamp_min_windows] at hy
        simp only [clamp_min_nalloc]
        exact ⟨(hnx y hy).2.1, (hnx y hy).1⟩)).mono ?_
    rintro new s' ⟨b, hb, hl, hpost⟩
    simp only [clamp_min_windows, clamp_min_buffers] at hb hl
    rw [splitPost_clamp] at hpost
    obtain ⟨hk, hch, hrep'⟩ := rep_split_nodummy s s' scr c w k ch rest _ hor b new hrep hb hpost
    refine ⟨hk, hch, ⟨hm', hns', hbad, b, hb, hl, ?_⟩, hpost.1, ?_⟩
    · simp only [hnp, if_false]; exact hpost
    · have : needs_parent s w hor = false := by simpa using hnp
      rw [hpost.1] at hrep'
      simpa [splitShape, this] using hrep'

/-- C9, amended: after a successful split of a window `w` of a well-formed
tree, the new leaf is the next window of `w`, `w` is its previous window, both
have the same parent and show the buffer `w` showed.  If `w` was a child of a
combination of the wanted orientation the new leaf takes over the former next
window of `w`; otherwise a new parent (the object `s.nalloc`) takes the former
place of `w` in the tree, former next window included, and `w` and the new
leaf are its only children.  Along the split axis `w` keeps `size` and the new
leaf gets the rest and starts `size` after the origin of `w`; the other
dimension and origin are those of `w`, which keeps its own. -/
theorem Fsplit_window_result (s : State) (scr : Scr) (t : Shape) (w : Win)
    (chsize : Option Int) (hor : Bool) (hrep : Rep s scr t) (hw : w ∈ t.handles) :
    (Fsplit_window s (some w) chsize hor).Sat fun new s' =>
      (s'.windows w).next = some new ∧ (s'.windows new).prev = some w
        ∧ (s'.windows new).parent = (s'.windows w).parent
        ∧ (s'.windows new).buffer = (s.windows w).buffer
        ∧ (s'.windows w).buffer = (s.windows w).buffer
        ∧ (if needs_parent s w hor = true then
            (s'.windows new).next = none ∧ (s'.windows w).prev = none
              ∧ (s'.windows w).parent = some s.nalloc
              ∧ (s'.windows s.nalloc).next = (s.windows w).next
              ∧ (s'.windows s.nalloc).prev = (s.windows w).prev
              ∧ (s'.windows s.nalloc).parent = (s.windows w).parent
              ∧ (if hor = true then (s'.windows s.nalloc).hchild
                  else (s'.windows s.nalloc).vchild) = some w
              ∧ ∀ n, (s.windows w).next = some n → (s'.windows n).prev = some s.nalloc
          else
            (s'.windows new).next = (s.windows w).next
              ∧ (s'.windows w).prev = (s.windows w).prev
              ∧ (s'.windows w).parent = (s.windows w).parent
              ∧ ∀ n, (s.windows w).next = some n → (s'.windows n).prev = some new)
        ∧ (s'.windows w).left = (s.windows w).left ∧ (s'.windows w).top = (s.windows w).top
        ∧ (if hor = true then
            (s'.windows w).width = split_size s w chsize hor
              ∧ (s'.windows w).height = (s.windows w).height
              ∧ (s'.windows new).width = (s.windows w).width - split_size s w chsize hor
              ∧ (s'.windows new).left = (s.windows w).left + split_size s w chsize hor
              ∧ (s'.windows new).top = (s.windows w).top
              ∧ (s'.windows new).height = (s.windows w).height
          else
            (s'.windows w).height = split_size s w chsize hor
              ∧ (s'.windows w).width = (s.windows w).width
              ∧ (s'.windows new).height = (s.windows w).height - split_size s w chsize hor
              ∧ (s'.windows new).top = (s.windows w).top + split_size s w chsize hor
              ∧ (s'.windows new).left = (s.windows w).left
              ∧ (s'.windows new).width = (s.windows w).width) := by
  obtain ⟨c, k, ch, rest, rfl⟩ := exists_plug_of_mem t w hw
  obtain ⟨-, hwn, hnx, -, -⟩ := rep_distinct s scr c w k ch rest hrep
  refine (Fsplit_window_rep s scr c w k ch rest chsize hor hrep).mono ?_
  rintro new s' ⟨-, -, ⟨-, -, -, b, hb, -, hout⟩, hnew, -⟩
  by_cases hnp : needs_parent s w hor = true
  · rw [if_pos hnp] at hout hnew ⊢
    obtain ⟨s3, ⟨hn3, -, -, h3w, h3d, h3o⟩, hn, -, -, ho, hw', hpar, hprev, hnext, -, -, hbuf,
      -, -, hl, ht, hwd, hh⟩ := hout
    rw [hn3] at ho hpar hprev hnext hbuf hl ht hwd hh
    subst hnew
    have hd : s'.windows s.nalloc = s3.windows s.nalloc := by
      rw [ho s.nalloc (Nat.ne_of_lt (Nat.lt_succ_self _)) (Ne.symm hwn), h3w]; simp
    have hnn : ∀ n, (s.windows w).next = some n → (s'.windows n).prev = some s.nalloc := by
      intro n hn
      obtain ⟨h1, h2, -, -⟩ := hnx n hn
      have h4 : n ≠ s.nalloc + 1 := by
        obtain ⟨-, -, hlt, -, hlw, -, -⟩ := (rep_plug_node s scr c w k ch rest).1 hrep
        have hm : n ∈ rest.handles := head_mem_handles rest n (hlw.2.2.1.symm.trans hn)
        have hl : n < s.nalloc := hlt n (by simp [hm])
        exact Nat.ne_of_lt (Nat.lt_succ_of_lt hl)
      rw [ho n h4 h1, h3w, h3o n h2 h1]; simp [replaced, hn]
    clear hn
    cases hor <;> simp [hw', h3w, hpar, hprev, hnext, hbuf, hb, hl, ht, hwd, hh, hd, h3d, hn3]
      <;> exact hnn
  · rw [if_neg hnp] at hout hnew ⊢
    obtain ⟨hn, -, -, ho, hw', hpar, hprev, hnext, -, -, hbuf, -, -, hl, ht, hwd, hh⟩ := hout
    subst hnew
    have hnn : ∀ n, (s.windows w).next = some n → (s'.windows n).prev = some s.nalloc := by
      intro n hn
      obtain ⟨h1, h2, -, -⟩ := hnx n hn
      rw [ho n h2 h1]; simp [hn]
    clear hn
    cases hor <;> simp [hw', hpar, hprev, hnext, hbuf, hb, hl, ht, hwd, hh] <;> exact hnn

theorem split_size_width (s : State) (w : Win) :
    split_size s w none true = ⌈((s.windows w).width : ℚ) / 2⌉ := by
  symm
  rw [Int.ceil_eq_iff]
  simp only [split_size, shr1, and_m2, if_true]
  generalize (s.windows w).width = W
  have h : 2 * ((W + 1 - (W + 1) % 2) / 2) - 2 < W ∧ W ≤ 2 * ((W + 1 - (W + 1) % 2) / 2) := by
    omega
  constructor
  · have := h.1
    have h2 : ((2 * ((W + 1 - (W + 1) % 2) / 2) - 2 : ℤ) : ℚ) < (W : ℚ) := by exact_mod_cast this
    push_cast at h2 ⊢
    linarith
  · have := h.2
    have h2 : (W : ℚ) ≤ ((2 * ((W + 1 - (W + 1) % 2) / 2) : ℤ) : ℚ) := by exact_mod_cast this
    push_cast at h2 ⊢
    linarith

theorem split_size_height (s : State) (w : Win) :
    split_size s w none false = ⌊((s.windows w).height : ℚ) / 2⌋ := by
  symm
  rw [Int.floor_eq_iff]
  simp only [split_size, shr1]
  generalize (s.windows w).height = H
  have h : 2 * (H / 2) ≤ H ∧ H < 2 * (H / 2) + 2 := by omega
  constructor
  · have h2 : ((2 * (H / 2) : ℤ) : ℚ) ≤ (H : ℚ) := by exact_mod_cast h.1
    push_cast at h2 ⊢
    simp at h2 ⊢
    linarith
  · have h2 : (H : ℚ) < ((2 * (H / 2) + 2 : ℤ) : ℚ) := by exact_mod_cast h.2
    push_cast at h2 ⊢
    simp at h2 ⊢
    linarith

/-- The sizes of the two windows along the split axis after a successful
split of a window of a well-formed tree. -/
theorem Fsplit_window_sizes (s : State) (scr : Scr) (t : Shape) (w : Win)
    (chsize : Option Int) (hor : Bool) (hrep : Rep s scr t) (hw : w ∈ t.handles) :
    (Fsplit_window s (some w) chsize hor).Sat fun new s' =>
      if hor = true then
        (s'.windows w).width = split_size s w chsize hor
          ∧ (s'.windows new).width = (s.windows w).width - split_size s w chsize hor
      else
        (s'.windows w).height = split_size s w chsize hor
          ∧ (s'.windows new).height = (s.windows w).height - split_size s w chsize hor := by
  obtain ⟨c, k, ch, rest, rfl⟩ := exists_plug_of_mem t w hw
  refine (Fsplit_window_rep s scr c w k ch rest chsize hor hrep).mono ?_
  rintro new s' ⟨-, -, ⟨-, -, -, b, hb, -, hout⟩, hnew, -⟩
  by_cases hnp : needs_parent s w hor = true
  · rw [if_pos hnp] at hout hnew
    obtain ⟨s3, ⟨hn3, -, -, h3w, h3d, h3o⟩, hn, -, -, ho, hw', hpar, hprev, hnext, -, -, hbuf,
      -, -, hl, ht, hwd, hh⟩ := hout
    rw [hn3] at hwd hh
    subst hnew
    cases hor <;> simp [hw', h3w, hwd, hh]
  · rw [if_neg hnp] at hout hnew
    obtain ⟨hn, -, -, ho, hw', hpar, hprev, hnext, -, -, hbuf, -, -, hl, ht, hwd, hh⟩ := hout
    subst hnew
    cases hor <;> simp [hw', hwd, hh]

/-- C10: when a window `w` of a well-formed tree is split without a size, a
successful vertical split leaves `w` with `floor (height / 2)` lines; a
successful side-by-side split leaves `w`, the left window, with
`ceil (width / 2)` columns, one column more than the new window for an odd
width and as many as the new window for an even width. -/
theorem Fsplit_window_default_size (s : State) (scr : Scr) (t : Shape) (w : Win) (hor : Bool)
    (hrep : Rep s scr t) (hw : w ∈ t.handles) :
    (Fsplit_window s (some w) none hor).Sat fun new s' =>
      if hor = true then
        (s'.windows w).width = ⌈((s.windows w).width : ℚ) / 2⌉
          ∧ ((s.windows w).width % 2 = 1 → (s'.windows w).width = (s'.windows new).width + 1)
          ∧ ((s.windows w).width % 2 = 0 → (s'.windows w).width = (s'.windows new).width)
      else
        (s'.windows w).height = ⌊((s.windows w).height : ℚ) / 2⌋ := by
  refine (Fsplit_window_sizes s scr t w none hor hrep hw).mono ?_
  intro new s' h
  cases hor
  · simp only [Bool.false_eq_true, if_false] at h ⊢
    rw [h.1, split_size_height]
  · simp only [if_true] at h ⊢
    refine ⟨by rw [h.1, split_size_width], ?_, ?_⟩
    · intro hodd
      rw [h.1, h.2]
      simp only [split_size, shr1, and_m2, if_true]
      omega
    · intro hev
      rw [h.1, h.2]
      simp only [split_size, shr1, and_m2, if_true]
      omega

/-- Witness of `Fsplit_window_default_size`: the split of the 40 columns wide
window 0 of the example tree. -/
theorem Fsplit_window_default_size_witness :
    Rep state6 0 shape6 ∧ 0 ∈ shape6.handles
      ∧ (Fsplit_window state6 (some 0) none true).isOk = true
      ∧ (Fsplit_window state6 (some 0) none true).Sat fun new s' =>
          if true = true then
            (s'.windows 0).width = ⌈((state6.windows 0).width : ℚ) / 2⌉
              ∧ ((state6.windows 0).width % 2 = 1 →
                  (s'.windows 0).width = (s'.windows new).width + 1)
              ∧ ((state6.windows 0).width % 2 = 0 →
                  (s'.windows 0).width = (s'.windows new).width)
          else
            (s'.windows 0).height = ⌊((state6.windows 0).height : ℚ) / 2⌋ :=
  ⟨by decide!, by decide!, by decide!,
    Fsplit_window_default_size state6 0 shape6 0 true (by decide!) (by decide!)⟩

/-- Witness of `Fsplit_window_result`: the split of the root leaf of the
example screen, which interposes a new parent. -/
theorem Fsplit_window_result_witness :
    Rep state2 0 shape2 ∧ 0 ∈ shape2.handles
      ∧ (Fsplit_window state2 (some 0) none false).isOk = true
      ∧ (Fsplit_window state2 (some 0) none false).Sat fun new s' =>
          (s'.windows 0).next = some new ∧ (s'.windows new).prev = some 0 :=
  ⟨by decide!, by decide!, by decide!,
    (Fsplit_window_result state2 0 shape2 0 none false (by decide!) (by decide!)).mono
      fun _ _ h => ⟨h.1, h.2.1⟩⟩

theorem state2_wf : WF state2 0 shape2 := by decide!
theorem state6_wf : WF state6 0 shape6 := by decide!

/-- C9, refuted as stated: on the screen whose root window 0 is a leaf that
the minibuffer window 1 follows, a split of window 0 succeeds, and the new
leaf has no next window: the former next of the target does not follow the
new leaf. -/
theorem split_next_counterexample :
    (Fsplit_window state2 (some 0) none false).Holds fun new s' =>
      (state2.windows 0).next = some 1
        ∧ (s'.windows new).next ≠ (state2.windows 0).next
        ∧ (s'.windows 1).prev ≠ some new := by decide!

@[simp] theorem Res.out_ok {α : Type} (a : α) (s : State) (P : α → State → Prop) (F N : Prop) :
    (Res.ok a s).Out P F N = P a s := rfl

@[simp] theorem Res.out_signal {α : Type} (e : Err) (s : State) (P : α → State → Prop)
    (F N : Prop) : (Res.signal e s : Res α).Out P F N = False := rfl

@[simp] theorem Res.out_fault {α : Type} (P : α → State → Prop) (F N : Prop) :
    (Res.fault : Res α).Out P F N = F := rfl

@[simp] theorem Res.out_nofuel {α : Type} (P : α → State → Prop) (F N : Prop) :
    (Res.nofuel : Res α).Out P F N = N := rfl

theorem Res.out_andThen {α β : Type} {r : Res α} {f : α → State → Res β}
    {P : α → State → Prop} {Q : β → State → Prop} {F N F' N' : Prop}
    (h : r.Out P F N) (hf : ∀ a s, P a s → (f a s).Out Q F' N') (hF : F → F') (hN : N → N') :
    (r.andThen f).Out Q F' N' := by
  cases r with
  | ok a s => exact hf a s h
  | signal e s => exact h.elim
  | fault => exact hF h
  | nofuel => exact hN h

theorem Res.Out.weaken {α : Type} {r : Res α} {P Q : α → State → Prop} {F N F' N' : Prop}
    (h : r.Out P F N) (hP : ∀ a s, P a s → Q a s) (hF : F → F') (hN : N → N') :
    r.Out Q F' N' := by
  cases r with
  | ok a s => exact hP a s h
  | signal e s => exact h.elim
  | fault => exact hF h
  | nofuel => exact hN h

theorem Res.Out.to_sat {α : Type} {r : Res α} {P : α → State → Prop} {F N : Prop}
    (h : r.Out P F N) : r.Sat P := by
  cases r <;> simp_all [Res.Sat, Res.Out]

theorem Res.Out.to_holds {α : Type} {r : Res α} {P : α → State → Prop} {F N : Prop}
    (h : r.Out P F N) (hF : ¬ F) (hN : ¬ N) : r.Holds P := by
  cases r <;> simp_all [Res.Holds, Res.Out]

theorem others_refl (s : State) : others s s := rfl

theorem others_trans {s s1 s2 : State} (h1 : others s s1) (h2 : others s1 s2) : others s s2 := by
  unfold others at *
  rw [h2, h1]

theorem others_setw (s : State) (x : Win) (w : Window) : others s (setw s x w) := rfl

theorem others_changed (s : State) (n : Int) :
    others s { s with windows_or_buffers_changed := n } := rfl

theorem others_fields {s s' : State} (h : others s s') :
    s'.screens = s.screens ∧ s'.buffers = s.buffers ∧ s'.nalloc = s.nalloc
      ∧ s'.selected_window = s.selected_window ∧ s'.selected_screen = s.selected_screen
      ∧ s'.window_min_height = s.window_min_height
      ∧ s'.window_min_width = s.window_min_width := by
  unfold others at h
  rw [h]; simp

/-! ## The resize engine: heights -/

theorem set_top_yless (h : Win → Window) (y : Win) (v : Int) (z : Win) :
    (set_top h y v z).yless = (h z).yless := by
  unfold set_top
  split
  · next e => subst e; rfl
  · rfl

theorem touch_height_yless (h : Win → Window) (y : Win) (v : Int) (z : Win) :
    (touch_height h y v z).yless = (h z).yless := by
  unfold touch_height
  split
  · next e => subst e; rfl
  · rfl

theorem resize_y_node (vert : Bool) (P : Win) (v old top lastbot lastobot : Int)
    (h : Win → Window) (y : Win) (ky : Kind) (chy rest : Shape) :
    resize_y vert P v old top lastbot lastobot h (Shape.node y ky chy rest) =
      if vert = true ∧ shl1 old = 0 then none
      else
        match resize_node_y (set_top h y (if vert = true then lastbot else (h P).top)) y ky chy
            (if vert = true then scale_pos (lastobot + (h y).height) v old + top - lastbot
              else v) with
        | none => none
        | some h2 =>
          resize_y vert P v old top
            (if vert = true then scale_pos (lastobot + (h y).height) v old + top else lastbot)
            (if vert = true then lastobot + (h y).height else lastobot) h2 rest := by
  cases ky <;> simp only [resize_y, resize_node_y] <;> rfl

theorem resize_y_yless : ∀ (t : Shape) (vert : Bool) (P : Win) (v old top lastbot lastobot : Int)
    (h h' : Win → Window),
    resize_y vert P v old top lastbot lastobot h t = some h' → ∀ z, (h' z).yless = (h z).yless := by
  intro t
  induction t with
  | nil =>
    intro vert P v old top lastbot lastobot h h' e z
    simp only [resize_y, Option.some.injEq] at e
    rw [e]
  | node y ky chy rest ihc ihr =>
    intro vert P v old top lastbot lastobot h h' e z
    rw [resize_y_node] at e
    split at e
    · exact absurd e (by simp)
    · split at e
      · exact absurd e (by simp)
      · next h2 e2 =>
        rw [ihr _ _ _ _ _ _ _ _ _ e z]
        have : (h2 z).yless = (touch_height (set_top h y (if vert = true then lastbot
            else (h P).top)) y (if vert = true then
              scale_pos (lastobot + (h y).height) v old + top - lastbot else v) z).yless := by
          unfold resize_node_y at e2
          cases ky
          · simp only [Option.some.injEq] at e2
            rw [e2]
          · exact ihc _ _ _ _ _ _ _ _ _ e2 z
          · exact ihc _ _ _ _ _ _ _ _ _ e2 z
        rw [this, touch_height_yless, set_top_yless]

theorem resize_node_y_yless (h h' : Win → Window) (x : Win) (k : Kind) (ch : Shape) (v : Int)
    (e : resize_node_y h x k ch v = some h') (z : Win) : (h' z).yless = (h z).yless := by
  unfold resize_node_y at e
  cases k
  · simp only [Option.some.injEq] at e
    rw [← e, touch_height_yless]
  · rw [resize_y_yless _ _ _ _ _ _ _ _ _ _ e z, touch_height_yless]
  · rw [resize_y_yless _ _ _ _ _ _ _ _ _ _ e z, touch_height_yless]

theorem LinkOK.of_yless {scr : Scr} {h h' : Win → Window} {i : NodeInfo}
    (e : (h' i.w).yless = (h i.w).yless) (hl : LinkOK scr h i) : LinkOK scr h' i := by
  have e1 := congrArg Window.parent e
  have e2 := congrArg Window.prev e
  have e3 := congrArg Window.next e
  have e4 := congrArg Window.screen e
  have e5 := congrArg Window.hchild e
  have e6 := congrArg Window.vchild e
  have e7 := congrArg Window.buffer e
  simp only [Window.yless] at e1 e2 e3 e4 e5 e6 e7
  unfold LinkOK at *
  rw [e1, e2, e3, e4, e5, e6, e7]
  exact hl

theorem Res.andThen_pure {α : Type} (r : Res α) : (r.andThen fun a s => Res.ok a s) = r := by
  cases r <;> rfl

/-- The state after `set_window_height` has updated the window itself. -/
theorem touch_height_state (s : State) (y : Win) (v : Int) :
    setw { setw s y { s.windows y with last_modified := 0 } with
        windows_or_buffers_changed := s.windows_or_buffers_changed + 1 } y
      { (setw s y { s.windows y with last_modified := 0 }).windows y with height := v }
    = height_touched s y v := by
  simp only [setw, height_touched, State.mk.injEq, and_true, true_and]
  funext z
  by_cases hz : z = y <;> simp [hz, touch_height]

theorem set_window_height_succ (E : Ext) (f : Nat) (s : State) (y : Win) (v : Int) :
    set_window_height E (f + 1) s y v true =
      match (s.windows y).hchild with
      | some c => set_height_hloop E f (height_touched s y v) y (some c) v true
      | none =>
        match (s.windows y).vchild with
        | some c =>
          set_height_vloop E f (height_touched s y v) (some c) v
            (s.windows y).height (s.windows y).top (s.windows y).top 0
        | none => Res.ok () (height_touched s y v) := by
  have key : set_window_height E (f + 1) s y v true =
      (fun s3 : State =>
        match (s3.windows y).hchild with
        | some c => set_height_hloop E f s3 y (some c) v true
        | none =>
          match (s3.windows y).vchild with
          | some c =>
            (set_height_vloop E f s3 (some c) v (s.windows y).height (s3.windows y).top
              (s3.windows y).top 0).andThen fun a s4 => Res.ok a s4
          | none => Res.ok () s3)
        (setw { setw s y { s.windows y with last_modified := 0 } with
            windows_or_buffers_changed := s.windows_or_buffers_changed + 1 } y
          { (setw s y { s.windows y with last_modified := 0 }).windows y with height := v }) := by
    simp only [set_window_height, Bool.true_eq_false, false_and, if_false]
    rfl
  rw [key, touch_height_state]
  have e1 : ((height_touched s y v).windows y).hchild = (s.windows y).hchild := by
    simp [height_touched, touch_height]
  have e2 : ((height_touched s y v).windows y).vchild = (s.windows y).vchild := by
    simp [height_touched, touch_height]
  have e3 : ((height_touched s y v).windows y).top = (s.windows y).top := by
    simp [height_touched, touch_height]
  simp only [e1, e2, e3, Res.andThen_pure]

theorem set_height_hloop_succ (E : Ext) (f : Nat) (s : State) (P y : Win) (v : Int) :
    set_height_hloop E (f + 1) s P (some y) v true =
      (set_window_height E f (top_set s y (s.windows P).top) y v true).andThen fun _ s2 =>
        set_height_hloop E f s2 P (s2.windows y).next v true := by
  simp only [set_height_hloop]
  rfl

theorem set_height_vloop_succ (E : Ext) (f : Nat) (s : State) (y : Win)
    (v old top lastbot lastobot : Int) :
    set_height_vloop E (f + 1) s (some y) v old top lastbot lastobot =
      if shl1 old = 0 then Res.fault
      else
        (set_window_height E f (top_set s y lastbot) y
            (scale_pos (lastobot + (s.windows y).height) v old + top - lastbot) true).andThen
          fun _ s2 =>
            set_height_vloop E f s2 (s2.windows y).next v old top
              (scale_pos (lastobot + (s.windows y).height) v old + top)
              (lastobot + (s.windows y).height) := by
  simp only [set_height_vloop]
  rfl

theorem set_window_height_sim (E : Ext) (scr : Scr) (y : Win) (ky : Kind) (chy : Shape)
    (ih : HeightSim E scr chy) (fuel : Nat) (s : State) (v : Int)
    (par : Option (Kind × Win)) (V N : Option Win)
    (hl : LinkOK scr s.windows
      { w := y, k := ky, par := par, prev := V, next := N, child := chy.head })
    (hch : ∀ j ∈ chy.infos (some (ky, y)) none, LinkOK scr s.windows j) :
    (set_window_height E fuel s y v true).Out
      (fun _ s' => resize_node_y s.windows y ky chy v = some s'.windows ∧ others s s')
      (resize_node_y s.windows y ky chy v = none) (fuel < 1 + chy.bound) := by
  cases fuel with
  | zero =>
    simp only [set_window_height, Res.out_nofuel]
    omega
  | succ f =>
    have hch3 : ∀ j ∈ chy.infos (some (ky, y)) none,
        LinkOK scr (height_touched s y v).windows j :=
      fun j hj => LinkOK.of_yless (touch_height_yless s.windows y v j.w) (hch j hj)
    have hoth : others s (height_touched s y v) := rfl
    obtain ⟨-, -, -, -, h5⟩ := hl
    rw [set_window_height_succ]
    cases ky with
    | leaf =>
      simp only at h5
      rw [h5.1, h5.2.1]
      exact ⟨rfl, hoth⟩
    | hcomb =>
      simp only at h5
      rw [h5.1]
      rcases hc : chy.head with _ | c
      · exact absurd hc h5.2.1
      · simp only
        have := (ih f (height_touched s y v) y v 0 0 0 0 _ _ hch3).1
        rw [hc] at this
        exact this.weaken (fun _ s' h => ⟨h.1, others_trans hoth h.2⟩) id (by omega)
    | vcomb =>
      simp only at h5
      rw [h5.2.2.1, h5.1]
      rcases hc : chy.head with _ | c
      · exact absurd hc h5.2.1
      · simp only
        have := (ih f (height_touched s y v) y v (s.windows y).height (s.windows y).top
          (s.windows y).top 0 _ _ hch3).2
        rw [hc] at this
        refine this.weaken (fun _ s' h => ⟨?_, others_trans hoth h.2⟩) ?_ (by omega)
        · rw [← h.1]; simp [resize_node_y, height_touched, touch_height]
        · intro h; rw [← h]; simp [resize_node_y, height_touched, touch_height]

theorem height_sim (E : Ext) (scr : Scr) : ∀ t : Shape, HeightSim E scr t := by
  intro t
  induction t with
  | nil =>
    intro fuel s P v old top lastbot lastobot par V _
    cases fuel with
    | zero => simp [set_height_hloop, set_height_vloop, Shape.bound]
    | succ f =>
      simp only [Shape.head, set_height_hloop, set_height_vloop, resize_y, Res.out_ok,
        true_and]
      exact ⟨others_refl s, others_refl s⟩
  | node y ky chy rest ihc ihr =>
    intro fuel s P v old top lastbot lastobot par V hl
    have hy : LinkOK scr s.windows
        { w := y, k := ky, par := par, prev := V, next := rest.head, child := chy.head } :=
      hl _ (by simp [Shape.infos])
    have hch : ∀ j ∈ chy.infos (some (ky, y)) none, LinkOK scr s.windows j :=
      fun j hj => hl j (by simp [Shape.infos, hj])
    have hrest : ∀ j ∈ rest.infos par (some y), LinkOK scr s.windows j :=
      fun j hj => hl j (by simp [Shape.infos, hj])
    have step : ∀ (f : Nat) (X vy : Int),
        (set_window_height E f (top_set s y X) y vy true).Out
          (fun _ s2 => resize_node_y (set_top s.windows y X) y ky chy vy = some s2.windows
            ∧ others s s2 ∧ (s2.windows y).next = rest.head
            ∧ ∀ j ∈ rest.infos par (some y), LinkOK scr s2.windows j)
          (resize_node_y (set_top s.windows y X) y ky chy vy = none) (f < 1 + chy.bound) := by
      intro f X vy
      have hs : ∀ z, ((top_set s y X).windows z).yless = (s.windows z).yless :=
        set_top_yless s.windows y X
      refine (set_window_height_sim E scr y ky chy ihc f (top_set s y X) vy par V rest.head
        (LinkOK.of_yless (hs y) hy)
        (fun j hj => LinkOK.of_yless (hs j.w) (hch j hj))).weaken ?_ id id
      rintro _ s2 ⟨e2, o2⟩
      have hs2 : ∀ z, (s2.windows z).yless = (s.windows z).yless := fun z =>
        (resize_node_y_yless _ _ _ _ _ _ e2 z).trans (hs z)
      have ho : others s (top_set s y X) := rfl
      refine ⟨e2, others_trans ho o2, ?_, fun j hj => LinkOK.of_yless (hs2 j.w) (hrest j hj)⟩
      have := congrArg Window.next (hs2 y)
      simp only [Window.yless] at this
      rw [this]
      exact hy.2.2.1
    cases fuel with
    | zero => simp [set_height_hloop, set_height_vloop, Shape.bound]
    | succ f =>
      simp only [Shape.head, Shape.bound]
      constructor
      · rw [set_height_hloop_succ, resize_y_node]
        simp only [Bool.false_eq_true, false_and, if_false]
        refine Res.out_andThen (step f _ _) ?_ ?_ (by omega)
        · rintro _ s2 ⟨e2, o2, hn, hr2⟩
          rw [e2, hn]
          exact ((ihr f s2 P v old top lastbot lastobot par (some y) hr2).1).weaken
            (fun _ s' h => ⟨h.1, others_trans o2 h.2⟩) id (by omega)
        · intro e; rw [e]
      · rw [set_height_vloop_succ, resize_y_node]
        by_cases h0 : shl1 old = 0
        · simp [h0]
        · simp only [h0, and_false, if_false, if_true]
          refine Res.out_andThen (step f _ _) ?_ ?_ (by omega)
          · rintro _ s2 ⟨e2, o2, hn, hr2⟩
            rw [e2, hn]
            exact ((ihr f s2 P v old top _ _ par (some y) hr2).2).weaken
              (fun _ s' h => ⟨h.1, others_trans o2 h.2⟩) id (by omega)
          · intro e; rw [e]

theorem set_top_other (h : Win → Window) (y : Win) (v : Int) (z : Win) (hz : z ≠ y) :
    set_top h y v z = h z := by
  simp [set_top, hz]

theorem touch_height_other (h : Win → Window) (y : Win) (v : Int) (z : Win) (hz : z ≠ y) :
    touch_height h y v z = h z := by
  simp [touch_height, hz]

/-- Frame of `resize_y`: only the windows of the chain and below change. -/
theorem resize_y_frame : ∀ (t : Shape) (vert : Bool) (P : Win)
    (v old top lastbot lastobot : Int) (h h' : Win → Window),
    resize_y vert P v old top lastbot lastobot h t = some h' →
    ∀ z, z ∉ t.handles → h' z = h z := by
  intro t
  induction t with
  | nil =>
    intro vert P v old top lastbot lastobot h h' e z _
    simp only [resize_y, Option.some.injEq] at e
    rw [e]
  | node y ky chy rest ihc ihr =>
    intro vert P v old top lastbot lastobot h h' e z hz
    simp only [Shape.handles, List.mem_cons, List.mem_append, not_or] at hz
    rw [resize_y_node] at e
    split at e
    · exact absurd e (by simp)
    · split at e
      · exact absurd e (by simp)
      · next h2 e2 =>
        rw [ihr _ _ _ _ _ _ _ _ _ e z hz.2.2]
        have : h2 z = touch_height (set_top h y (if vert = true then lastbot
            else (h P).top)) y (if vert = true then
              scale_pos (lastobot + (h y).height) v old + top - lastbot else v) z := by
          unfold resize_node_y at e2
          cases ky
          · simp only [Option.some.injEq] at e2
            rw [e2]
          · exact ihc _ _ _ _ _ _ _ _ _ e2 z hz.2.1
          · exact ihc _ _ _ _ _ _ _ _ _ e2 z hz.2.1
        rw [this, touch_height_other _ _ _ _ hz.1, set_top_other _ _ _ _ hz.1]

/-- Frame of `resize_node_y`, and the geometry of the window itself. -/
theorem resize_node_y_frame (h h' : Win → Window) (x : Win) (k : Kind) (ch : Shape) (v : Int)
    (e : resize_node_y h x k ch v = some h') :
    (∀ z, z ≠ x → z ∉ ch.handles → h' z = h z)
      ∧ (x ∉ ch.handles → h' x = { h x with last_modified := 0, height := v }) := by
  have key : ∀ z, z ∉ ch.handles → h' z = touch_height h x v z := by
    intro z hz
    unfold resize_node_y at e
    cases k
    · simp only [Option.some.injEq] at e
      rw [e]
    · exact resize_y_frame _ _ _ _ _ _ _ _ _ _ e z hz
    · exact resize_y_frame _ _ _ _ _ _ _ _ _ _ e z hz
  constructor
  · intro z hzx hz
    rw [key z hz, touch_height_other _ _ _ _ hzx]
  · intro hx
    rw [key x hx]
    simp [touch_height]

theorem wrap32_id (x : Int) (h0 : -2147483648 ≤ x) (h1 : x < 2147483648) : wrap32 x = x := by
  unfold wrap32
  omega

/-- For sizes up to 32767 no operation of the position formula leaves
the range of an `int`: the position is the one of the formula on integers. -/
theorem scale_pos_fits (a v old : Int) (ha : 0 ≤ a) (hv : 0 ≤ v) (h : 0 < old)
    (hab : a ≤ 32767) (hvb : v ≤ 32767) (hob : old ≤ 32767) :
    scale_pos a v old = Int.tdiv (shl1 (a * v) + old) (shl1 old) := by
  have h1 : 0 ≤ a * v := Int.mul_nonneg ha hv
  have h2 : a * v ≤ 32767 * 32767 := by nlinarith
  unfold scale_pos shl1
  rw [wrap32_id (a * v) (by omega) (by omega), wrap32_id (a * v * 2) (by omega) (by omega),
    wrap32_id (a * v * 2 + old) (by omega) (by omega), wrap32_id (old * 2) (by omega) (by omega)]

theorem scale_pos_zero (v old : Int) (h : 0 < old) (hob : old ≤ 32767) :
    scale_pos 0 v old = 0 := by
  unfold scale_pos shl1
  rw [Int.zero_mul, wrap32_id 0 (by omega) (by omega), Int.zero_mul,
    wrap32_id 0 (by omega) (by omega), Int.zero_add, wrap32_id old (by omega) (by omega),
    wrap32_id (old * 2) (by omega) (by omega)]
  rw [Int.tdiv_eq_ediv (by omega) (by omega)]
  exact Int.ediv_eq_zero_of_lt (by omega) (by omega)

theorem scale_pos_full (v old : Int) (hv : 0 ≤ v) (h : 0 < old) (hvb : v ≤ 32767)
    (hob : old ≤ 32767) : scale_pos old v old = v := by
  rw [scale_pos_fits old v old (by omega) hv h hob hvb hob]
  unfold shl1
  have h1 : 0 ≤ old * v := Int.mul_nonneg (by omega) hv
  rw [Int.tdiv_eq_ediv (by omega) (by omega)]
  have e : old * v * 2 + old = old + v * (old * 2) := by ring
  rw [e, Int.add_mul_ediv_right _ _ (by omega), Int.ediv_eq_zero_of_lt (by omega) (by omega)]
  simp

theorem scale_pos_mono (a b v old : Int) (hv : 0 ≤ v) (h : 0 < old) (ha : 0 ≤ a)
    (hab : a ≤ b) (hbb : b ≤ 32767) (hvb : v ≤ 32767) (hob : old ≤ 32767) :
    scale_pos a v old ≤ scale_pos b v old := by
  rw [scale_pos_fits a v old ha hv h (by omega) hvb hob,
    scale_pos_fits b v old (by omega) hv h hbb hvb hob]
  unfold shl1
  have h1 : 0 ≤ a * v := Int.mul_nonneg ha hv
  have h2 : a * v ≤ b * v := Int.mul_le_mul_of_nonneg_right hab hv
  rw [Int.tdiv_eq_ediv (by omega) (by omega), Int.tdiv_eq_ediv (by omega) (by omega)]
  exact Int.ediv_le_ediv (by omega) (by omega)

theorem scale_pos_eq (a v old : Int) (ha : 0 ≤ a) (hv : 0 ≤ v) (h : 0 < old)
    (hab : a ≤ 32767) (hvb : v ≤ 32767) (hob : old ≤ 32767) :
    scale_pos a v old = (2 * (a * v) + old) / (2 * old) := by
  rw [scale_pos_fits a v old ha hv h hab hvb hob]
  unfold shl1
  have h1 : 0 ≤ a * v := Int.mul_nonneg ha hv
  rw [Int.tdiv_eq_ediv (by omega) (by omega)]
  congr 1 <;> ring

theorem scale_pos_nonneg (a v old : Int) (ha : 0 ≤ a) (hv : 0 ≤ v) (h : 0 < old)
    (hab : a ≤ 32767) (hvb : v ≤ 32767) (hob : old ≤ 32767) :
    0 ≤ scale_pos a v old := by
  rw [scale_pos_eq a v old ha hv h hab hvb hob]
  have h1 : 0 ≤ a * v := Int.mul_nonneg ha hv
  exact Int.ediv_nonneg (by omega) (by omega)

theorem tileY_transport (t : Shape) (P : Option (Kind × Win)) (V : Option Win)
    (h h' : Win → Window) (hag : ∀ z ∈ t.handles, h' z = h z)
    (hP : ∀ k p, P = some (k, p) → k ≠ Kind.leaf → h' p = h p)
    (hV : ∀ u, V = some u → h' u = h u) (i : NodeInfo) (hi : i ∈ t.infos P V)
    (ht : TileY h i) : TileY h' i := by
  obtain ⟨hw, -, -, hprev, hpar⟩ := infos_fields t P V i hi
  unfold TileY at *
  rcases hp : i.par with _ | ⟨k, p⟩
  · simp
  · rw [hp] at ht
    have hp' : k ≠ Kind.leaf → h' p = h p := by
      intro hk
      rcases hpar k p hp with e | m
      · exact hP k p e hk
      · exact hag p m
    cases k with
    | leaf => simp
    | hcomb =>
      simp only at ht ⊢
      rw [hag _ hw, hp' (by simp)]
      exact ht
    | vcomb =>
      simp only at ht ⊢
      rw [hag _ hw, hp' (by simp)]
      rcases hv : i.prev with _ | u
      · rw [hv] at ht
        simp only [hp' (by simp)] at ht ⊢
        exact ht
      · rw [hv] at ht
        have hu : h' u = h u := by
          rcases hprev u hv with e | m
          · exact hV u e
          · exact hag u m
        simp only [hu] at ht ⊢
        exact ht

theorem inner_sub (t : Shape) (P : Option (Kind × Win)) (V : Option Win) (i : NodeInfo)
    (hi : i ∈ t.inner) : i ∈ t.infos P V := by
  induction t generalizing V with
  | nil => simp [Shape.inner] at hi
  | node y ky chy rest _ ihr =>
    simp only [Shape.inner, List.mem_append] at hi
    simp only [Shape.infos, List.mem_cons, List.mem_append]
    rcases hi with hi | hi
    · exact Or.inr (Or.inl hi)
    · exact Or.inr (Or.inr (ihr _ hi))

theorem tileY_transport_inner (t : Shape) (h h' : Win → Window)
    (hag : ∀ z ∈ t.handles, h' z = h z) (i : NodeInfo) (hi : i ∈ t.inner)
    (ht : TileY h i) : TileY h' i := by
  induction t with
  | nil => simp [Shape.inner] at hi
  | node y ky chy rest _ ihr =>
    simp only [Shape.inner, List.mem_append] at hi
    rcases hi with hi | hi
    · refine tileY_transport chy (some (ky, y)) none h h' (fun z hz => hag z ?_) ?_ ?_ i hi ht
      · simp [Shape.handles, hz]
      · intro k p e _
        simp only [Option.some.injEq, Prod.mk.injEq] at e
        rw [← e.2]
        exact hag y (by simp [Shape.handles])
      · intro u e
        exact absurd e (by simp)
    · exact ihr (fun z hz => hag z (by simp [Shape.handles, hz])) hi

/-- A chain that tiles a vertical combination: the heights add up. -/
theorem sum_height_of_tile (h : Win → Window) (P : Win) : ∀ (t : Shape) (V : Option Win),
    (∀ i ∈ t.infos (some (Kind.vcomb, P)) V, TileY h i) → t ≠ Shape.nil →
    start_y h P V + sum_height h t.tops = (h P).top + (h P).height := by
  intro t
  induction t with
  | nil => intro V _ hne; exact absurd rfl hne
  | node y ky chy rest _ ihr =>
    intro V ht _
    have hy := ht ⟨y, ky, some (Kind.vcomb, P), V, rest.head, chy.head⟩ (by simp [Shape.infos])
    simp only [TileY] at hy
    have hs : (h y).top = start_y h P V := by
      rw [hy.1]; cases V <;> rfl
    by_cases hr : rest = Shape.nil
    · subst hr
      have := hy.2 rfl
      simp only [Shape.tops, sum_height, List.map_cons, List.map_nil, List.sum_cons,
        List.sum_nil]
      omega
    · have := ihr (some y) (fun i hi => ht i (by simp [Shape.infos, hi])) hr
      simp only [start_y] at this
      simp only [Shape.tops, sum_height, List.map_cons, List.sum_cons] at this ⊢
      omega

theorem sum_height_congr (h h' : Win → Window) (l : List Win) (hag : ∀ z ∈ l, h' z = h z) :
    sum_height h' l = sum_height h l := by
  unfold sum_height
  congr 1
  exact List.map_congr_left (fun z hz => by rw [hag z hz])

theorem tops_sub_handles (t : Shape) (z : Win) (hz : z ∈ t.tops) : z ∈ t.handles := by
  induction t with
  | nil => simp [Shape.tops] at hz
  | node y ky chy rest _ ihr =>
    simp only [Shape.tops, List.mem_cons] at hz
    simp only [Shape.handles, List.mem_cons, List.mem_append]
    rcases hz with hz | hz
    · exact Or.inl hz
    · exact Or.inr (Or.inr (ihr hz))

theorem sum_height_nonneg (h : Win → Window) (l : List Win) (hl : ∀ z ∈ l, 0 ≤ (h z).height) :
    0 ≤ sum_height h l := by
  unfold sum_height
  apply List.sum_nonneg
  intro x hx
  simp only [List.mem_map] at hx
  obtain ⟨z, hz, rfl⟩ := hx
  exact hl z hz

theorem sum_height_cons (h : Win → Window) (y : Win) (l : List Win) :
    sum_height h (y :: l) = (h y).height + sum_height h l := by
  simp [sum_height]

theorem sum_height_append (h : Win → Window) (l1 l2 : List Win) :
    sum_height h (l1 ++ l2) = sum_height h l1 + sum_height h l2 := by
  simp [sum_height]

theorem infos_split (t : Shape) (P : Option (Kind × Win)) (V : Option Win) (i : NodeInfo)
    (hi : i ∈ t.infos P V) : i.par = P ∨ i ∈ t.inner := by
  induction t generalizing V with
  | nil => simp [Shape.infos] at hi
  | node y ky chy rest _ ihr =>
    simp only [Shape.infos, List.mem_cons, List.mem_append] at hi
    simp only [Shape.inner, List.mem_append]
    rcases hi with hi | hi | hi
    · exact Or.inl (by rw [hi])
    · exact Or.inr (Or.inl hi)
    · rcases ihr _ hi with h | h
      · exact Or.inl h
      · exact Or.inr (Or.inr h)

/-- The windows of a chain below a combination `x` tile it after
`resize_node_y` if their heights added up to the height of `x` before. -/
theorem resize_node_y_tiled_of (h h' : Win → Window) (x : Win) (k : Kind) (ch : Shape) (v : Int)
    (ih : ResizeTilesY ch)
    (e : resize_node_y h x k ch v = some h') (hnd : (x :: ch.handles).Nodup) (hv : 0 ≤ v)
    (hnn : ∀ z ∈ ch.handles, 0 ≤ (h z).height)
    (hin : ∀ i ∈ ch.inner, TileY h i)
    (hsum : k = Kind.vcomb → ch ≠ Shape.nil → sum_height h ch.tops = (h x).height)
    (hvb : v ≤ 32767) (hB : ∀ z ∈ ch.handles, (h z).height ≤ 32767)
    (hxB : (h x).height ≤ 32767) :
    (∀ i ∈ ch.infos (some (k, x)) none, TileY h' i) ∧ ∀ z ∈ ch.handles, 0 ≤ (h' z).height := by
  have hB3 : ∀ z ∈ ch.handles, (touch_height h x v z).height ≤ 32767 := fun z hz => by
    rw [touch_height_other h x v z (fun e => (List.nodup_cons.1 hnd).1 (e ▸ hz))]
    exact hB z hz
  have hx : x ∉ ch.handles := (List.nodup_cons.1 hnd).1
  have hag : ∀ z ∈ ch.handles, touch_height h x v z = h z := fun z hz =>
    touch_height_other h x v z (fun e => hx (e ▸ hz))
  have hin3 : ∀ i ∈ ch.inner, TileY (touch_height h x v) i := fun i hi =>
    tileY_transport_inner ch h _ hag i hi (hin i hi)
  have hnn3 : ∀ z ∈ ch.handles, 0 ≤ (touch_height h x v z).height := fun z hz => by
    rw [hag z hz]; exact hnn z hz
  have hx3 : (touch_height h x v x).height = v := by simp [touch_height]
  by_cases hnil : ch = Shape.nil
  · subst hnil
    simp [Shape.infos, Shape.handles]
  unfold resize_node_y at e
  cases k with
  | leaf =>
    simp only [Option.some.injEq] at e
    subst e
    refine ⟨fun i hi => ?_, hnn3⟩
    rcases infos_split ch _ _ i hi with hp | hi'
    · unfold TileY
      rw [hp]
      trivial
    · exact hin3 i hi'
  | hcomb =>
    exact ih false x v 0 0 0 0 _ h' none e hnd (by simp) hv hnn3 hin3 hx3 (by simp) hvb hB3
      (by simp)
  | vcomb =>
    simp only at e
    have hsum := hsum rfl hnil
    have hs0 := sum_height_nonneg h ch.tops (fun z hz => hnn z (tops_sub_handles ch z hz))
    have hold : (h x).height ≠ 0 := by
      intro h0
      obtain ⟨y, ky, chy, rest, rfl⟩ : ∃ y ky chy rest, ch = Shape.node y ky chy rest := by
        cases ch with
        | nil => exact absurd rfl hnil
        | node y ky chy rest => exact ⟨y, ky, chy, rest, rfl⟩
      rw [resize_y_node] at e
      simp [h0, shl1] at e
    have hpos : 0 < (h x).height := by omega
    refine ih true x v (h x).height _ _ 0 _ h' none e hnd (by simp) hv hnn3 hin3 hx3 ?_ hvb hB3
      ?_
    · intro _
      refine ⟨hpos, le_refl 0, rfl, ?_, rfl, fun _ => ?_⟩
      · rw [scale_pos_zero _ _ hpos hxB]; simp
      · rw [sum_height_congr h _ _ (fun z hz => hag z (tops_sub_handles ch z hz))]
        have : (0 : Int) + sum_height h ch.tops = (h x).height := by omega
        rw [this]
        exact scale_pos_full v _ hv hpos hvb hxB
    · intro _
      refine ⟨hxB, ?_⟩
      rw [sum_height_congr h _ _ (fun z hz => hag z (tops_sub_handles ch z hz))]
      omega

theorem inner_fields (t : Shape) (i : NodeInfo) (hi : i ∈ t.inner) : i.w ∈ t.handles := by
  induction t with
  | nil => simp [Shape.inner] at hi
  | node y ky chy rest _ ihr =>
    simp only [Shape.inner, List.mem_append] at hi
    simp only [Shape.handles, List.mem_cons, List.mem_append]
    rcases hi with hi | hi
    · exact Or.inr (Or.inl (infos_fields chy _ _ i hi).1)
    · exact Or.inr (Or.inr (ihr hi))

theorem resize_y_tiled : ∀ t : Shape, ResizeTilesY t := by
  intro t
  induction t with
  | nil =>
    intro vert P v old top lastbot lastobot h h' V e _ _ _ _ _ _ _ _ _ _
    simp [Shape.infos, Shape.handles]
  | node y ky chy rest ihc ihr =>
    intro vert P v old top lastbot lastobot h h' V e hnd hV hv hnn hin hP hvert hvb hB hbd
    rw [resize_y_node] at e
    split at e
    · exact absurd e (by simp)
    split at e
    · exact absurd e (by simp)
    next hz0 _ h2 e2 =>
    -- the handles are distinct
    simp only [Shape.handles, List.nodup_cons, List.mem_cons, List.mem_append,
      List.nodup_append, not_or] at hnd
    obtain ⟨⟨hPy, hPc, hPr⟩, ⟨hyc, hyr⟩, hndc, hndr, hdisj⟩ := hnd
    have hVy : ∀ u, V = some u → u ≠ y ∧ u ∉ chy.handles ∧ u ∉ rest.handles := by
      intro u hu
      have := hV u hu
      simp only [Shape.handles, List.mem_cons, List.mem_append, not_or] at this
      exact this
    -- abbreviations
    generalize hX : (if vert = true then lastbot else (h P).top) = X at e2
    generalize hvy : (if vert = true then
      scale_pos (lastobot + (h y).height) v old + top - lastbot else v) = vy at e2
    -- frames
    obtain ⟨f1, f2⟩ := resize_node_y_frame _ _ _ _ _ _ e2
    have f3 := resize_y_frame _ _ _ _ _ _ _ _ _ _ e
    have g1 : ∀ z, z ≠ y → z ∉ chy.handles → h2 z = h z := fun z hz hzc => by
      rw [f1 z hz hzc, set_top_other _ _ _ _ hz]
    have g2t : (h2 y).top = X := by rw [f2 hyc]; simp [set_top]
    have g2h : (h2 y).height = vy := by rw [f2 hyc]
    have gP : h2 P = h P := g1 P hPy hPc
    have hy0 : 0 ≤ (h y).height := hnn y (by simp [Shape.handles])
    have hyB : (h y).height ≤ 32767 := hB y (by simp [Shape.handles])
    have hsr0 : 0 ≤ sum_height h rest.tops :=
      sum_height_nonneg h rest.tops
        (fun z hz => hnn z (by simp [Shape.handles, tops_sub_handles rest z hz]))
    have hst : sum_height h (Shape.node y ky chy rest).tops
        = (h y).height + sum_height h rest.tops := by
      simp [Shape.tops, sum_height]
    have hvy0 : 0 ≤ vy ∧ vy ≤ 32767 := by
      subst hvy
      split
      · next hvt =>
        obtain ⟨ho, hlo, -, hlb, -, hend⟩ := hvert hvt
        obtain ⟨hob, hsb⟩ := hbd hvt
        rw [hst] at hsb
        have m1 := scale_pos_mono lastobot (lastobot + (h y).height) v old hv ho hlo
          (by omega) (by omega) hvb hob
        have m2 := scale_pos_mono (lastobot + (h y).height)
          (lastobot + sum_height h (Shape.node y ky chy rest).tops) v old hv ho (by omega)
          (by rw [hst]; omega) (by rw [hst]; omega) hvb hob
        rw [hend (by simp)] at m2
        have m3 := scale_pos_nonneg lastobot v old hlo hv ho (by omega) hvb hob
        omega
      · exact ⟨hv, hvb⟩
    obtain ⟨hvy0, hvyB⟩ := hvy0
    have hagc : ∀ z ∈ chy.handles, set_top h y X z = h z := fun z hz =>
      set_top_other h y X z (fun e => hyc (e ▸ hz))
    -- the windows below `y`
    have hnest := resize_node_y_tiled_of (set_top h y X) h2 y ky chy vy ihc e2
      (List.nodup_cons.2 ⟨hyc, hndc⟩) hvy0
      (fun z hz => by rw [hagc z hz]; exact hnn z (by simp [Shape.handles, hz]))
      (fun i hi => tileY_transport_inner chy h _ hagc i hi
        (hin i (by simp [Shape.inner, inner_sub chy _ _ i hi])))
      (by
        intro hk hne
        subst hk
        have := sum_height_of_tile h y chy none
          (fun i hi => hin i (by simp [Shape.inner, hi])) hne
        simp only [start_y] at this
        rw [sum_height_congr h _ _ (fun z hz => hagc z (tops_sub_handles chy z hz))]
        simp only [set_top, if_true]
        omega)
      hvyB
      (fun z hz => by rw [hagc z hz]; exact hB z (by simp [Shape.handles, hz]))
      (by simp only [set_top, if_true]; exact hyB)
    -- the rest of the chain
    have hagr : ∀ z ∈ rest.handles, h2 z = h z := fun z hz =>
      g1 z (fun e => hyr (e ▸ hz)) (fun hzc => hdisj hzc hz)
    have hrest := ihr vert P v old top _ _ h2 h' (some y) e
      (List.nodup_cons.2 ⟨hPr, hndr⟩)
      (fun u hu => by simp only [Option.some.injEq] at hu; subst hu; exact hyr) hv
      (fun z hz => by rw [hagr z hz]; exact hnn z (by simp [Shape.handles, hz]))
      (fun i hi => tileY_transport_inner rest h _ hagr i hi (hin i (by simp [Shape.inner, hi])))
      (by rw [gP]; exact hP)
      (by
        intro hvt
        obtain ⟨ho, hlo, htop, hlb, hst, hend⟩ := hvert hvt
        simp only [hvt, if_true] at hX hvy ⊢
        refine ⟨ho, by omega, by rw [gP]; exact htop, by omega, ?_, fun hne => ?_⟩
        · simp only [start_y]
          rw [g2t, g2h]
          omega
        · rw [sum_height_congr h _ _ (fun z hz => hagr z (tops_sub_handles rest z hz))]
          have := hend (by simp)
          simp only [Shape.tops, sum_height, List.map_cons, List.sum_cons] at this ⊢
          rw [← this]
          congr 1
          omega)
      hvb
      (fun z hz => by rw [hagr z hz]; exact hB z (by simp [Shape.handles, hz]))
      (by
        intro hvt
        obtain ⟨hob, hsb⟩ := hbd hvt
        rw [hst] at hsb
        simp only [hvt, if_true]
        refine ⟨hob, ?_⟩
        rw [sum_height_congr h _ _ (fun z hz => hagr z (tops_sub_handles rest z hz))]
        omega)
    have hy' : h' y = h2 y := f3 y hyr
    have hP' : h' P = h P := (f3 P hPr).trans gP
    constructor
    · intro i hi
      simp only [Shape.infos, List.mem_cons, List.mem_append] at hi
      rcases hi with rfl | hi | hi
      · by_cases hvt : vert = true
        · obtain ⟨ho, hlo, htop, hlb, hst, hend⟩ := hvert hvt
          simp only [hvt, if_true] at hX hvy ⊢
          simp only [TileY]
          rw [hy', hP', g2t, g2h]
          constructor
          · rcases V with _ | u
            · simp only [start_y] at hst
              show X = (h P).top
              omega
            · obtain ⟨hu1, hu2, hu3⟩ := hVy u rfl
              simp only [start_y] at hst
              show X = (h' u).top + (h' u).height
              rw [f3 u hu3, g1 u hu1 hu2]
              omega
          · intro hr
            have := hend (by simp)
            rw [head_eq_none hr] at this
            simp only [Shape.tops, sum_height, List.map_cons, List.map_nil, List.sum_cons,
              List.sum_nil, add_zero] at this
            omega
        · simp only [hvt, if_false] at hX hvy ⊢
          simp only [Bool.false_eq_true, if_false] at hX hvy
          simp only [TileY, Bool.false_eq_true, if_false]
          rw [hy', hP', g2t, g2h]
          omega
      · exact tileY_transport chy (some (ky, y)) none h2 h'
          (fun z hz => f3 z (fun hr => hdisj hz hr))
          (fun k p e _ => by
            simp only [Option.some.injEq, Prod.mk.injEq] at e
            rw [← e.2]; exact hy')
          (fun u e => absurd e (by simp)) i hi (hnest.1 i hi)
      · exact hrest.1 i hi
    · intro z hz
      simp only [Shape.handles, List.mem_cons, List.mem_append] at hz
      rcases hz with rfl | hz | hz
      · rw [hy', g2h]; exact hvy0
      · rw [f3 z (fun hr => hdisj hz hr)]; exact hnest.2 z hz
      · exact hrest.2 z hz

theorem vcombs_sub_handles (t : Shape) (z : Win) (hz : z ∈ t.vcombs) : z ∈ t.handles := by
  induction t with
  | nil => simp [Shape.vcombs] at hz
  | node y ky chy rest ihc ihr =>
    simp only [Shape.vcombs, List.mem_append] at hz
    simp only [Shape.handles, List.mem_cons, List.mem_append]
    rcases hz with hz | hz | hz
    · split at hz
      · simp only [List.mem_singleton] at hz
        exact Or.inl hz
      · simp at hz
    · exact Or.inr (Or.inl (ihc hz))
    · exact Or.inr (Or.inr (ihr hz))

/-- The new heights of a chain of children of a vertical combination add up
to the scaled sum of the old ones. -/
theorem resize_y_sum : ∀ (t : Shape) (P : Win) (v old top lastbot lastobot : Int)
    (h h' : Win → Window),
    resize_y true P v old top lastbot lastobot h t = some h' → t.handles.Nodup →
    lastbot = top + scale_pos lastobot v old →
    lastbot + sum_height h' t.tops = top + scale_pos (lastobot + sum_height h t.tops) v old := by
  intro t
  induction t with
  | nil =>
    intro P v old top lastbot lastobot h h' _ _ hlb
    simp only [Shape.tops, sum_height, List.map_nil, List.sum_nil, add_zero]
    exact hlb
  | node y ky chy rest _ ihr =>
    intro P v old top lastbot lastobot h h' e hnd hlb
    rw [resize_y_node] at e
    split at e
    · exact absurd e (by simp)
    split at e
    · exact absurd e (by simp)
    next _ _ h2 e2 =>
    simp only [if_true] at e e2
    simp only [Shape.handles, List.nodup_cons, List.mem_append, List.nodup_append,
      not_or] at hnd
    obtain ⟨⟨hyc, hyr⟩, hndc, hndr, hdisj⟩ := hnd
    obtain ⟨f1, f2⟩ := resize_node_y_frame _ _ _ _ _ _ e2
    have f3 := resize_y_frame _ _ _ _ _ _ _ _ _ _ e
    have hagr : ∀ z ∈ rest.handles, h2 z = h z := fun z hz => by
      have hzy : z ≠ y := fun e => hyr (e ▸ hz)
      rw [f1 z hzy (fun hzc => hdisj hzc hz), set_top_other _ _ _ _ hzy]
    have := ihr P v old top _ _ h2 h' e hndr (by omega)
    rw [sum_height_congr h _ _ (fun z hz => hagr z (tops_sub_handles rest z hz))] at this
    have hy : (h' y).height
        = scale_pos (lastobot + (h y).height) v old + top - lastbot := by
      rw [f3 y hyr, f2 hyc]
    simp only [Shape.tops, sum_height, List.map_cons, List.sum_cons] at this ⊢
    rw [hy]
    have e3 : lastobot + (h y).height + (List.map (fun z => (h z).height) rest.tops).sum
        = lastobot + ((h y).height + (List.map (fun z => (h z).height) rest.tops).sum) := by
      ring
    rw [e3] at this
    omega

/-- The function `resize_y` is defined if no vertical combination it meets
has height 0. -/
theorem resize_y_some : ∀ (t : Shape) (vert : Bool) (P : Win)
    (v old top lastbot lastobot : Int) (h : Win → Window),
    t.handles.Nodup → (∀ z ∈ t.vcombs, (h z).height ≠ 0) → (vert = true → old ≠ 0) →
    ∃ h', resize_y vert P v old top lastbot lastobot h t = some h' := by
  intro t
  induction t with
  | nil =>
    intro vert P v old top lastbot lastobot h _ _ _
    exact ⟨h, rfl⟩
  | node y ky chy rest ihc ihr =>
    intro vert P v old top lastbot lastobot h hnd hnz hold
    simp only [Shape.handles, List.nodup_cons, List.mem_append, List.nodup_append,
      not_or] at hnd
    obtain ⟨⟨hyc, hyr⟩, hndc, hndr, hdisj⟩ := hnd
    rw [resize_y_node]
    have h0 : ¬ (vert = true ∧ shl1 old = 0) := by
      rintro ⟨hv, h0⟩
      exact hold hv (by simpa [shl1] using h0)
    rw [if_neg h0]
    generalize (if vert = true then lastbot else (h P).top) = X
    generalize (if vert = true then
      scale_pos (lastobot + (h y).height) v old + top - lastbot else v) = vy
    have hagc : ∀ z ∈ chy.handles, touch_height (set_top h y X) y vy z = h z := fun z hz => by
      have hzy : z ≠ y := fun e => hyc (e ▸ hz)
      rw [touch_height_other _ _ _ _ hzy, set_top_other _ _ _ _ hzy]
    have hnzc : ∀ z ∈ chy.vcombs, (touch_height (set_top h y X) y vy z).height ≠ 0 :=
      fun z hz => by
        rw [hagc z (vcombs_sub_handles chy z hz)]
        exact hnz z (by simp [Shape.vcombs, hz])
    obtain ⟨h2, e2⟩ : ∃ h2, resize_node_y (set_top h y X) y ky chy vy = some h2 := by
      unfold resize_node_y
      cases ky with
      | leaf => exact ⟨_, rfl⟩
      | hcomb => exact ihc false y vy 0 0 0 0 _ hndc hnzc (by simp)
      | vcomb =>
        refine ihc true y vy _ _ _ 0 _ hndc hnzc (fun _ => ?_)
        have := hnz y (by simp [Shape.vcombs])
        simpa [set_top] using this
    rw [e2]
    obtain ⟨f1, -⟩ := resize_node_y_frame _ _ _ _ _ _ e2
    refine ihr vert P v old top _ _ h2 hndr (fun z hz => ?_) hold
    have hzr := vcombs_sub_handles rest z hz
    have hzy : z ≠ y := fun e => hyr (e ▸ hzr)
    rw [f1 z hzy (fun hzc => hdisj hzc hzr), set_top_other _ _ _ _ hzy]
    exact hnz z (by simp [Shape.vcombs, hz])

/-- On a window of a well-formed tree `set_window_height` does what
`resize_node_y` says. -/
theorem set_window_height_out (E : Ext) (scr : Scr) (fuel : Nat) (s : State) (c : Ctx)
    (x : Win) (k : Kind) (ch rest : Shape) (v : Int)
    (hrep : Rep s scr (plug c (Shape.node x k ch rest))) :
    (set_window_height E fuel s x v true).Out
      (fun _ s' => resize_node_y s.windows x k ch v = some s'.windows ∧ others s s')
      (resize_node_y s.windows x k ch v = none) (fuel < 1 + ch.bound) := by
  obtain ⟨-, -, -, -, hx, hch, -⟩ := (rep_plug_node s scr c x k ch rest).1 hrep
  exact set_window_height_sim E scr x k ch (height_sim E scr ch) fuel s v _ _ _ hx hch

/-- The function `resize_node_y` is defined if no vertical combination it
meets has height 0. -/
theorem resize_node_y_some (h : Win → Window) (x : Win) (k : Kind) (ch : Shape) (v : Int)
    (hnd : (x :: ch.handles).Nodup)
    (hnz : ∀ z ∈ (Shape.node x k ch Shape.nil).vcombs, (h z).height ≠ 0) :
    ∃ h', resize_node_y h x k ch v = some h' := by
  have hx : x ∉ ch.handles := (List.nodup_cons.1 hnd).1
  have hndc : ch.handles.Nodup := (List.nodup_cons.1 hnd).2
  have hnzc : ∀ z ∈ ch.vcombs, (touch_height h x v z).height ≠ 0 := fun z hz => by
    have hzx : z ≠ x := fun e => hx (e ▸ vcombs_sub_handles ch z hz)
    rw [touch_height_other _ _ _ _ hzx]
    exact hnz z (by simp [Shape.vcombs, hz])
  unfold resize_node_y
  cases k with
  | leaf => exact ⟨_, rfl⟩
  | hcomb => exact resize_y_some ch false x v 0 0 0 0 _ hndc hnzc (by simp)
  | vcomb =>
    exact resize_y_some ch true x v _ _ _ 0 _ hndc hnzc
      (fun _ => hnz x (by simp [Shape.vcombs]))

theorem rep_nodup_node (s : State) (scr : Scr) (c : Ctx) (x : Win) (k : Kind) (ch rest : Shape)
    (hrep : Rep s scr (plug c (Shape.node x k ch rest))) : (x :: ch.handles).Nodup := by
  obtain ⟨-, hnd, -⟩ := (rep_plug_node s scr c x k ch rest).1 hrep
  have h1 := (List.nodup_append.1 hnd).2.1
  rw [← List.cons_append] at h1
  exact (List.nodup_append.1 h1).1

/-- What `set_window_height (x, v, 1)` does on a window of a well-formed
tree whose windows below `x` have non-negative heights and tile `x`, no
height being above 32767: it changes the vertical geometry of `x` and of the
windows below it only, `x` gets the height `v`, and the windows below tile it
again. -/
theorem set_window_height_tiled (E : Ext) (scr : Scr) (fuel : Nat) (s : State) (c : Ctx)
    (x : Win) (k : Kind) (ch rest : Shape) (v : Int)
    (hrep : Rep s scr (plug c (Shape.node x k ch rest))) (hv : 0 ≤ v)
    (hnn : ∀ z ∈ ch.handles, 0 ≤ (s.windows z).height)
    (ht : ∀ i ∈ ch.infos (some (k, x)) none, TileY s.windows i)
    (hvb : v ≤ 32767) (hB : ∀ z ∈ x :: ch.handles, (s.windows z).height ≤ 32767) :
    (set_window_height E fuel s x v true).Out
      (fun _ s' => others s s'
        ∧ (∀ z, (s'.windows z).yless = (s.windows z).yless)
        ∧ (∀ z, z ≠ x → z ∉ ch.handles → s'.windows z = s.windows z)
        ∧ s'.windows x = { s.windows x with last_modified := 0, height := v }
        ∧ (∀ i ∈ ch.infos (some (k, x)) none, TileY s'.windows i)
        ∧ ∀ z ∈ ch.handles, 0 ≤ (s'.windows z).height)
      (∃ z ∈ (Shape.node x k ch Shape.nil).vcombs, (s.windows z).height = 0)
      (fuel < 1 + ch.bound) := by
  have hnd := rep_nodup_node s scr c x k ch rest hrep
  refine (set_window_height_out E scr fuel s c x k ch rest v hrep).weaken ?_ ?_ id
  · rintro _ s' ⟨e, ho⟩
    obtain ⟨f1, f2⟩ := resize_node_y_frame _ _ _ _ _ _ e
    have := resize_node_y_tiled_of s.windows s'.windows x k ch v (resize_y_tiled ch) e hnd hv
      hnn (fun i hi => ht i (inner_sub ch _ _ i hi))
      (fun hk hne => by
        subst hk
        have := sum_height_of_tile s.windows x ch none ht hne
        simp only [start_y] at this
        omega)
      hvb (fun z hz => hB z (List.mem_cons_of_mem _ hz)) (hB x (List.mem_cons_self _ _))
    exact ⟨ho, resize_node_y_yless _ _ _ _ _ _ e, f1, f2 (List.nodup_cons.1 hnd).1, this.1,
      this.2⟩
  · intro e
    by_contra hno
    simp only [not_exists, not_and] at hno
    obtain ⟨h', e'⟩ := resize_node_y_some s.windows x k ch v hnd hno
    rw [e] at e'
    exact absurd e' (by simp)

/-- The sum of the heights of the children of a vertical combination after
a successful `set_window_height`, which needs `1 + ch.bound` units of fuel
and no vertical combination of height 0; the old and the new height are at
most 32767, so that the first and the last position are computed without
overflow. -/
theorem set_window_height_children (E : Ext) (scr : Scr) (fuel : Nat) (s : State) (c : Ctx)
    (x : Win) (ch rest : Shape) (v : Int)
    (hrep : Rep s scr (plug c (Shape.node x Kind.vcomb ch rest)))
    (hold : 1 ≤ (s.windows x).height) (hv : 1 ≤ v)
    (hsum : sum_height s.windows ch.tops = (s.windows x).height)
    (hnz : ∀ z ∈ ch.vcombs, (s.windows z).height ≠ 0)
    (hfuel : 1 + ch.bound ≤ fuel)
    (hob : (s.windows x).height ≤ 32767) (hvb : v ≤ 32767) :
    (set_window_height E fuel s x v true).Holds fun _ s' =>
      (s'.windows x).height = v ∧ sum_height s'.windows ch.tops = v := by
  have hnd := rep_nodup_node s scr c x Kind.vcomb ch rest hrep
  have hx : x ∉ ch.handles := (List.nodup_cons.1 hnd).1
  refine ((set_window_height_out E scr fuel s c x Kind.vcomb ch rest v hrep).to_holds ?_
    (by omega)).imp ?_
  · intro e
    obtain ⟨h', e'⟩ := resize_node_y_some s.windows x Kind.vcomb ch v hnd (fun z hz => by
      simp only [Shape.vcombs, if_true, List.singleton_append, List.mem_cons, List.mem_append,
        List.not_mem_nil, or_false] at hz
      rcases hz with rfl | hz
      · omega
      · exact hnz z hz)
    rw [e] at e'
    exact absurd e' (by simp)
  · rintro _ s' ⟨e, -⟩
    obtain ⟨-, f2⟩ := resize_node_y_frame _ _ _ _ _ _ e
    refine ⟨by rw [f2 hx], ?_⟩
    have := resize_y_sum ch x v (s.windows x).height _ _ 0 _ s'.windows e
      (List.nodup_cons.1 hnd).2 (by rw [scale_pos_zero _ _ (by omega) hob]; simp)
    have hag : ∀ z ∈ ch.tops, touch_height s.windows x v z = s.windows z := fun z hz => by
      have hzx : z ≠ x := fun e => hx (e ▸ tops_sub_handles ch z hz)
      exact touch_height_other _ _ _ _ hzx
    rw [sum_height_congr s.windows _ _ hag, hsum, zero_add,
      scale_pos_full _ _ (by omega) (by omega) hvb hob] at this
    omega

/-! ## The resize engine: widths -/

theorem set_left_xless (h : Win → Window) (x : Win) (v : Int) (z : Win) :
    (set_left h x v z).xless = (h z).xless := by
  unfold set_left
  split
  · next e => subst e; rfl
  · rfl

theorem touch_width_xless (h : Win → Window) (x : Win) (v : Int) (z : Win) :
    (touch_width h x v z).xless = (h z).xless := by
  unfold touch_width
  split
  · next e => subst e; rfl
  · rfl

theorem resize_x_node (hor : Bool) (P : Win) (v old left lastright lastoright : Int)
    (h : Win → Window) (x : Win) (ky : Kind) (chy rest : Shape) :
    resize_x hor P v old left lastright lastoright h (Shape.node x ky chy rest) =
      if hor = true ∧ shl1 old = 0 then none
      else
        match resize_node_x (set_left h x (if hor = true then lastright else (h P).left)) x ky chy
            (if hor = true then scale_pos (lastoright + (h x).width) v old + left - lastright
              else v) with
        | none => none
        | some h2 =>
          resize_x hor P v old left
            (if hor = true then scale_pos (lastoright + (h x).width) v old + left else lastright)
            (if hor = true then lastoright + (h x).width else lastoright) h2 rest := by
  cases ky <;> simp only [resize_x, resize_node_x] <;> rfl

theorem resize_x_xless : ∀ (t : Shape) (hor : Bool) (P : Win) (v old left lastright lastoright : Int)
    (h h' : Win → Window),
    resize_x hor P v old left lastright lastoright h t = some h' → ∀ z, (h' z).xless = (h z).xless := by
  intro t
  induction t with
  | nil =>
    intro hor P v old left lastright lastoright h h' e z
    simp only [resize_x, Option.some.injEq] at e
    rw [e]
  | node x ky chy rest ihc ihr =>
    intro hor P v old left lastright lastoright h h' e z
    rw [resize_x_node] at e
    split at e
    · exact absurd e (by simp)
    · split at e
      · exact absurd e (by simp)
      · next h2 e2 =>
        rw [ihr _ _ _ _ _ _ _ _ _ e z]
        have : (h2 z).xless = (touch_width (set_left h x (if hor = true then lastright
            else (h P).left)) x (if hor = true then
              scale_pos (lastoright + (h x).width) v old + left - lastright else v) z).xless := by
          unfold resize_node_x at e2
          cases ky
          · simp only [Option.some.injEq] at e2
            rw [e2]
          · exact ihc _ _ _ _ _ _ _ _ _ e2 z
          · exact ihc _ _ _ _ _ _ _ _ _ e2 z
        rw [this, touch_width_xless, set_left_xless]

theorem resize_node_x_xless (h h' : Win → Window) (y : Win) (k : Kind) (ch : Shape) (v : Int)
    (e : resize_node_x h y k ch v = some h') (z : Win) : (h' z).xless = (h z).xless := by
  unfold resize_node_x at e
  cases k
  · simp only [Option.some.injEq] at e
    rw [← e, touch_width_xless]
  · rw [resize_x_xless _ _ _ _ _ _ _ _ _ _ e z, touch_width_xless]
  · rw [resize_x_xless _ _ _ _ _ _ _ _ _ _ e z, touch_width_xless]

theorem LinkOK.of_xless {scr : Scr} {h h' : Win → Window} {i : NodeInfo}
    (e : (h' i.w).xless = (h i.w).xless) (hl : LinkOK scr h i) : LinkOK scr h' i := by
  have e1 := congrArg Window.parent e
  have e2 := congrArg Window.prev e
  have e3 := congrArg Window.next e
  have e4 := congrArg Window.screen e
  have e5 := congrArg Window.vchild e
  have e6 := congrArg Window.hchild e
  have e7 := congrArg Window.buffer e
  simp only [Window.xless] at e1 e2 e3 e4 e5 e6 e7
  unfold LinkOK at *
  rw [e1, e2, e3, e4, e5, e6, e7]
  exact hl

/-- The state after `set_window_width` has updated the window itself. -/
theorem touch_width_state (s : State) (x : Win) (v : Int) :
    setw { setw s x { s.windows x with last_modified := 0 } with
        windows_or_buffers_changed := s.windows_or_buffers_changed + 1 } x
      { (setw s x { s.windows x with last_modified := 0 }).windows x with width := v }
    = width_touched s x v := by
  simp only [setw, width_touched, State.mk.injEq, and_true, true_and]
  funext z
  by_cases hz : z = x <;> simp [hz, touch_width]

theorem set_window_width_succ (E : Ext) (f : Nat) (s : State) (x : Win) (v : Int) :
    set_window_width E (f + 1) s x v true =
      match (s.windows x).vchild with
      | some c => set_width_vloop E f (width_touched s x v) x (some c) v true
      | none =>
        match (s.windows x).hchild with
        | some c =>
          set_width_hloop E f (width_touched s x v) (some c) v
            (s.windows x).width (s.windows x).left (s.windows x).left 0
        | none => Res.ok () (width_touched s x v) := by
  have key : set_window_width E (f + 1) s x v true =
      (fun s3 : State =>
        match (s3.windows x).vchild with
        | some c => set_width_vloop E f s3 x (some c) v true
        | none =>
          match (s3.windows x).hchild with
          | some c =>
            (set_width_hloop E f s3 (some c) v (s.windows x).width (s3.windows x).left
              (s3.windows x).left 0).andThen fun a s4 => Res.ok a s4
          | none => Res.ok () s3)
        (setw { setw s x { s.windows x with last_modified := 0 } with
            windows_or_buffers_changed := s.windows_or_buffers_changed + 1 } x
          { (setw s x { s.windows x with last_modified := 0 }).windows x with width := v }) := by
    simp only [set_window_width, Bool.true_eq_false, false_and, if_false]
    rfl
  rw [key, touch_width_state]
  have e1 : ((width_touched s x v).windows x).vchild = (s.windows x).vchild := by
    simp [width_touched, touch_width]
  have e2 : ((width_touched s x v).windows x).hchild = (s.windows x).hchild := by
    simp [width_touched, touch_width]
  have e3 : ((width_touched s x v).windows x).left = (s.windows x).left := by
    simp [width_touched, touch_width]
  simp only [e1, e2, e3, Res.andThen_pure]

theorem set_width_vloop_succ (E : Ext) (f : Nat) (s : State) (P x : Win) (v : Int) :
    set_width_vloop E (f + 1) s P (some x) v true =
      (set_window_width E f (left_set s x (s.windows P).left) x v true).andThen fun _ s2 =>
        set_width_vloop E f s2 P (s2.windows x).next v true := by
  simp only [set_width_vloop]
  rfl

theorem set_width_hloop_succ (E : Ext) (f : Nat) (s : State) (x : Win)
    (v old left lastright lastoright : Int) :
    set_width_hloop E (f + 1) s (some x) v old left lastright lastoright =
      if shl1 old = 0 then Res.fault
      else
        (set_window_width E f (left_set s x lastright) x
            (scale_pos (lastoright + (s.windows x).width) v old + left - lastright) true).andThen
          fun _ s2 =>
            set_width_hloop E f s2 (s2.windows x).next v old left
              (scale_pos (lastoright + (s.windows x).width) v old + left)
              (lastoright + (s.windows x).width) := by
  simp only [set_width_hloop]
  rfl

theorem set_window_width_sim (E : Ext) (scr : Scr) (x : Win) (ky : Kind) (chy : Shape)
    (ih : WidthSim E scr chy) (fuel : Nat) (s : State) (v : Int)
    (par : Option (Kind × Win)) (V N : Option Win)
    (hl : LinkOK scr s.windows
      { w := x, k := ky, par := par, prev := V, next := N, child := chy.head })
    (hch : ∀ j ∈ chy.infos (some (ky, x)) none, LinkOK scr s.windows j) :
    (set_window_width E fuel s x v true).Out
      (fun _ s' => resize_node_x s.windows x ky chy v = some s'.windows ∧ others s s')
      (resize_node_x s.windows x ky chy v = none) (fuel < 1 + chy.bound) := by
  cases fuel with
  | zero =>
    simp only [set_window_width, Res.out_nofuel]
    omega
  | succ f =>
    have hch3 : ∀ j ∈ chy.infos (some (ky, x)) none,
        LinkOK scr (width_touched s x v).windows j :=
      fun j hj => LinkOK.of_xless (touch_width_xless s.windows x v j.w) (hch j hj)
    have hoth : others s (width_touched s x v) := rfl
    obtain ⟨-, -, -, -, h5⟩ := hl
    rw [set_window_width_succ]
    cases ky with
    | leaf =>
      simp only at h5
      rw [h5.1, h5.2.1]
      exact ⟨rfl, hoth⟩
    | vcomb =>
      simp only at h5
      rw [h5.1]
      rcases hc : chy.head with _ | c
      · exact absurd hc h5.2.1
      · simp only
        have := (ih f (width_touched s x v) x v 0 0 0 0 _ _ hch3).1
        rw [hc] at this
        exact this.weaken (fun _ s' h => ⟨h.1, others_trans hoth h.2⟩) id (by omega)
    | hcomb =>
      simp only at h5
      rw [h5.2.2.1, h5.1]
      rcases hc : chy.head with _ | c
      · exact absurd hc h5.2.1
      · simp only
        have := (ih f (width_touched s x v) x v (s.windows x).width (s.windows x).left
          (s.windows x).left 0 _ _ hch3).2
        rw [hc] at this
        refine this.weaken (fun _ s' h => ⟨?_, others_trans hoth h.2⟩) ?_ (by omega)
        · rw [← h.1]; simp [resize_node_x, width_touched, touch_width]
        · intro h; rw [← h]; simp [resize_node_x, width_touched, touch_width]

theorem width_sim (E : Ext) (scr : Scr) : ∀ t : Shape, WidthSim E scr t := by
  intro t
  induction t with
  | nil =>
    intro fuel s P v old left lastright lastoright par V _
    cases fuel with
    | zero => simp [set_width_vloop, set_width_hloop, Shape.bound]
    | succ f =>
      simp only [Shape.head, set_width_vloop, set_width_hloop, resize_x, Res.out_ok,
        true_and]
      exact ⟨others_refl s, others_refl s⟩
  | node x ky chy rest ihc ihr =>
    intro fuel s P v old left lastright lastoright par V hl
    have hy : LinkOK scr s.windows
        { w := x, k := ky, par := par, prev := V, next := rest.head, child := chy.head } :=
      hl _ (by simp [Shape.infos])
    have hch : ∀ j ∈ chy.infos (some (ky, x)) none, LinkOK scr s.windows j :=
      fun j hj => hl j (by simp [Shape.infos, hj])
    have hrest : ∀ j ∈ rest.infos par (some x), LinkOK scr s.windows j :=
      fun j hj => hl j (by simp [Shape.infos, hj])
    have step : ∀ (f : Nat) (Y vy : Int),
        (set_window_width E f (left_set s x Y) x vy true).Out
          (fun _ s2 => resize_node_x (set_left s.windows x Y) x ky chy vy = some s2.windows
            ∧ others s s2 ∧ (s2.windows x).next = rest.head
            ∧ ∀ j ∈ rest.infos par (some x), LinkOK scr s2.windows j)
          (resize_node_x (set_left s.windows x Y) x ky chy vy = none) (f < 1 + chy.bound) := by
      intro f Y vy
      have hs : ∀ z, ((left_set s x Y).windows z).xless = (s.windows z).xless :=
        set_left_xless s.windows x Y
      refine (set_window_width_sim E scr x ky chy ihc f (left_set s x Y) vy par V rest.head
        (LinkOK.of_xless (hs x) hy)
        (fun j hj => LinkOK.of_xless (hs j.w) (hch j hj))).weaken ?_ id id
      rintro _ s2 ⟨e2, o2⟩
      have hs2 : ∀ z, (s2.windows z).xless = (s.windows z).xless := fun z =>
        (resize_node_x_xless _ _ _ _ _ _ e2 z).trans (hs z)
      have ho : others s (left_set s x Y) := rfl
      refine ⟨e2, others_trans ho o2, ?_, fun j hj => LinkOK.of_xless (hs2 j.w) (hrest j hj)⟩
      have := congrArg Window.next (hs2 x)
      simp only [Window.xless] at this
      rw [this]
      exact hy.2.2.1
    cases fuel with
    | zero => simp [set_width_vloop, set_width_hloop, Shape.bound]
    | succ f =>
      simp only [Shape.head, Shape.bound]
      constructor
      · rw [set_width_vloop_succ, resize_x_node]
        simp only [Bool.false_eq_true, false_and, if_false]
        refine Res.out_andThen (step f _ _) ?_ ?_ (by omega)
        · rintro _ s2 ⟨e2, o2, hn, hr2⟩
          rw [e2, hn]
          exact ((ihr f s2 P v old left lastright lastoright par (some x) hr2).1).weaken
            (fun _ s' h => ⟨h.1, others_trans o2 h.2⟩) id (by omega)
        · intro e; rw [e]
      · rw [set_width_hloop_succ, resize_x_node]
        by_cases h0 : shl1 old = 0
        · simp [h0]
        · simp only [h0, and_false, if_false, if_true]
          refine Res.out_andThen (step f _ _) ?_ ?_ (by omega)
          · rintro _ s2 ⟨e2, o2, hn, hr2⟩
            rw [e2, hn]
            exact ((ihr f s2 P v old left _ _ par (some x) hr2).2).weaken
              (fun _ s' h => ⟨h.1, others_trans o2 h.2⟩) id (by omega)
          · intro e; rw [e]

theorem set_left_other (h : Win → Window) (x : Win) (v : Int) (z : Win) (hz : z ≠ x) :
    set_left h x v z = h z := by
  simp [set_left, hz]

theorem touch_width_other (h : Win → Window) (x : Win) (v : Int) (z : Win) (hz : z ≠ x) :
    touch_width h x v z = h z := by
  simp [touch_width, hz]

/-- Frame of `resize_x`: only the windows of the chain and below change. -/
theorem resize_x_frame : ∀ (t : Shape) (hor : Bool) (P : Win)
    (v old left lastright lastoright : Int) (h h' : Win → Window),
    resize_x hor P v old left lastright lastoright h t = some h' →
    ∀ z, z ∉ t.handles → h' z = h z := by
  intro t
  induction t with
  | nil =>
    intro hor P v old left lastright lastoright h h' e z _
    simp only [resize_x, Option.some.injEq] at e
    rw [e]
  | node x ky chy rest ihc ihr =>
    intro hor P v old left lastright lastoright h h' e z hz
    simp only [Shape.handles, List.mem_cons, List.mem_append, not_or] at hz
    rw [resize_x_node] at e
    split at e
    · exact absurd e (by simp)
    · split at e
      · exact absurd e (by simp)
      · next h2 e2 =>
        rw [ihr _ _ _ _ _ _ _ _ _ e z hz.2.2]
        have : h2 z = touch_width (set_left h x (if hor = true then lastright
            else (h P).left)) x (if hor = true then
              scale_pos (lastoright + (h x).width) v old + left - lastright else v) z := by
          unfold resize_node_x at e2
          cases ky
          · simp only [Option.some.injEq] at e2
            rw [e2]
          · exact ihc _ _ _ _ _ _ _ _ _ e2 z hz.2.1
          · exact ihc _ _ _ _ _ _ _ _ _ e2 z hz.2.1
        rw [this, touch_width_other _ _ _ _ hz.1, set_left_other _ _ _ _ hz.1]

/-- Frame of `resize_node_x`, and the geometry of the window itself. -/
theorem resize_node_x_frame (h h' : Win → Window) (y : Win) (k : Kind) (ch : Shape) (v : Int)
    (e : resize_node_x h y k ch v = some h') :
    (∀ z, z ≠ y → z ∉ ch.handles → h' z = h z)
      ∧ (y ∉ ch.handles → h' y = { h y with last_modified := 0, width := v }) := by
  have key : ∀ z, z ∉ ch.handles → h' z = touch_width h y v z := by
    intro z hz
    unfold resize_node_x at e
    cases k
    · simp only [Option.some.injEq] at e
      rw [e]
    · exact resize_x_frame _ _ _ _ _ _ _ _ _ _ e z hz
    · exact resize_x_frame _ _ _ _ _ _ _ _ _ _ e z hz
  constructor
  · intro z hzx hz
    rw [key z hz, touch_width_other _ _ _ _ hzx]
  · intro hx
    rw [key y hx]
    simp [touch_width]

theorem tileX_transport (t : Shape) (P : Option (Kind × Win)) (V : Option Win)
    (h h' : Win → Window) (hag : ∀ z ∈ t.handles, h' z = h z)
    (hP : ∀ k p, P = some (k, p) → k ≠ Kind.leaf → h' p = h p)
    (hV : ∀ u, V = some u → h' u = h u) (i : NodeInfo) (hi : i ∈ t.infos P V)
    (ht : TileX h i) : TileX h' i := by
  obtain ⟨hw, -, -, hprev, hpar⟩ := infos_fields t P V i hi
  unfold TileX at *
  rcases hp : i.par with _ | ⟨k, p⟩
  · simp
  · rw [hp] at ht
    have hp' : k ≠ Kind.leaf → h' p = h p := by
      intro hk
      rcases hpar k p hp with e | m
      · exact hP k p e hk
      · exact hag p m
    cases k with
    | leaf => simp
    | vcomb =>
      simp only at ht ⊢
      rw [hag _ hw, hp' (by simp)]
      exact ht
    | hcomb =>
      simp only at ht ⊢
      rw [hag _ hw, hp' (by simp)]
      rcases hv : i.prev with _ | u
      · rw [hv] at ht
        simp only [hp' (by simp)] at ht ⊢
        exact ht
      · rw [hv] at ht
        have hu : h' u = h u := by
          rcases hprev u hv with e | m
          · exact hV u e
          · exact hag u m
        simp only [hu] at ht ⊢
        exact ht

theorem tileX_transport_inner (t : Shape) (h h' : Win → Window)
    (hag : ∀ z ∈ t.handles, h' z = h z) (i : NodeInfo) (hi : i ∈ t.inner)
    (ht : TileX h i) : TileX h' i := by
  induction t with
  | nil => simp [Shape.inner] at hi
  | node x ky chy rest _ ihr =>
    simp only [Shape.inner, List.mem_append] at hi
    rcases hi with hi | hi
    · refine tileX_transport chy (some (ky, x)) none h h' (fun z hz => hag z ?_) ?_ ?_ i hi ht
      · simp [Shape.handles, hz]
      · intro k p e _
        simp only [Option.some.injEq, Prod.mk.injEq] at e
        rw [← e.2]
        exact hag x (by simp [Shape.handles])
      · intro u e
        exact absurd e (by simp)
    · exact ihr (fun z hz => hag z (by simp [Shape.handles, hz])) hi

/-- A chain that tiles a horizontal combination: the widths add up. -/
theorem sum_width_of_tile (h : Win → Window) (P : Win) : ∀ (t : Shape) (V : Option Win),
    (∀ i ∈ t.infos (some (Kind.hcomb, P)) V, TileX h i) → t ≠ Shape.nil →
    start_x h P V + sum_width h t.tops = (h P).left + (h P).width := by
  intro t
  induction t with
  | nil => intro V _ hne; exact absurd rfl hne
  | node x ky chy rest _ ihr =>
    intro V ht _
    have hy := ht ⟨x, ky, some (Kind.hcomb, P), V, rest.head, chy.head⟩ (by simp [Shape.infos])
    simp only [TileX] at hy
    have hs : (h x).left = start_x h P V := by
      rw [hy.1]; cases V <;> rfl
    by_cases hr : rest = Shape.nil
    · subst hr
      have := hy.2 rfl
      simp only [Shape.tops, sum_width, List.map_cons, List.map_nil, List.sum_cons,
        List.sum_nil]
      omega
    · have := ihr (some x) (fun i hi => ht i (by simp [Shape.infos, hi])) hr
      simp only [start_x] at this
      simp only [Shape.tops, sum_width, List.map_cons, List.sum_cons] at this ⊢
      omega

theorem sum_width_congr (h h' : Win → Window) (l : List Win) (hag : ∀ z ∈ l, h' z = h z) :
    sum_width h' l = sum_width h l := by
  unfold sum_width
  congr 1
  exact List.map_congr_left (fun z hz => by rw [hag z hz])

theorem sum_width_nonneg (h : Win → Window) (l : List Win) (hl : ∀ z ∈ l, 0 ≤ (h z).width) :
    0 ≤ sum_width h l := by
  unfold sum_width
  apply List.sum_nonneg
  intro y hx
  simp only [List.mem_map] at hx
  obtain ⟨z, hz, rfl⟩ := hx
  exact hl z hz

theorem sum_width_cons (h : Win → Window) (x : Win) (l : List Win) :
    sum_width h (x :: l) = (h x).width + sum_width h l := by
  simp [sum_width]

theorem sum_width_append (h : Win → Window) (l1 l2 : List Win) :
    sum_width h (l1 ++ l2) = sum_width h l1 + sum_width h l2 := by
  simp [sum_width]

/-- The windows of a chain below a combination `y` tile it after
`resize_node_x` if their widths added up to the width of `y` before. -/
theorem resize_node_x_tiled_of (h h' : Win → Window) (y : Win) (k : Kind) (ch : Shape) (v : Int)
    (ih : ResizeTilesX ch)
    (e : resize_node_x h y k ch v = some h') (hnd : (y :: ch.handles).Nodup) (hv : 0 ≤ v)
    (hnn : ∀ z ∈ ch.handles, 0 ≤ (h z).width)
    (hin : ∀ i ∈ ch.inner, TileX h i)
    (hsum : k = Kind.hcomb → ch ≠ Shape.nil → sum_width h ch.tops = (h y).width)
    (hvb : v ≤ 32767) (hB : ∀ z ∈ ch.handles, (h z).width ≤ 32767)
    (hxB : (h y).width ≤ 32767) :
    (∀ i ∈ ch.infos (some (k, y)) none, TileX h' i) ∧ ∀ z ∈ ch.handles, 0 ≤ (h' z).width := by
  have hB3 : ∀ z ∈ ch.handles, (touch_width h y v z).width ≤ 32767 := fun z hz => by
    rw [touch_width_other h y v z (fun e => (List.nodup_cons.1 hnd).1 (e ▸ hz))]
    exact hB z hz
  have hx : y ∉ ch.handles := (List.nodup_cons.1 hnd).1
  have hag : ∀ z ∈ ch.handles, touch_width h y v z = h z := fun z hz =>
    touch_width_other h y v z (fun e => hx (e ▸ hz))
  have hin3 : ∀ i ∈ ch.inner, TileX (touch_width h y v) i := fun i hi =>
    tileX_transport_inner ch h _ hag i hi (hin i hi)
  have hnn3 : ∀ z ∈ ch.handles, 0 ≤ (touch_width h y v z).width := fun z hz => by
    rw [hag z hz]; exact hnn z hz
  have hx3 : (touch_width h y v y).width = v := by simp [touch_width]
  by_cases hnil : ch = Shape.nil
  · subst hnil
    simp [Shape.infos, Shape.handles]
  unfold resize_node_x at e
  cases k with
  | leaf =>
    simp only [Option.some.injEq] at e
    subst e
    refine ⟨fun i hi => ?_, hnn3⟩
    rcases infos_split ch _ _ i hi with hp | hi'
    · unfold TileX
      rw [hp]
      trivial
    · exact hin3 i hi'
  | vcomb =>
    exact ih false y v 0 0 0 0 _ h' none e hnd (by simp) hv hnn3 hin3 hx3 (by simp) hvb hB3
      (by simp)
  | hcomb =>
    simp only at e
    have hsum := hsum rfl hnil
    have hs0 := sum_width_nonneg h ch.tops (fun z hz => hnn z (tops_sub_handles ch z hz))
    have hold : (h y).width ≠ 0 := by
      intro h0
      obtain ⟨x, ky, chy, rest, rfl⟩ : ∃ x ky chy rest, ch = Shape.node x ky chy rest := by
        cases ch with
        | nil => exact absurd rfl hnil
        | node x ky chy rest => exact ⟨x, ky, chy, rest, rfl⟩
      rw [resize_x_node] at e
      simp [h0, shl1] at e
    have hpos : 0 < (h y).width := by omega
    refine ih true y v (h y).width _ _ 0 _ h' none e hnd (by simp) hv hnn3 hin3 hx3 ?_ hvb hB3
      ?_
    · intro _
      refine ⟨hpos, le_refl 0, rfl, ?_, rfl, fun _ => ?_⟩
      · rw [scale_pos_zero _ _ hpos hxB]; simp
      · rw [sum_width_congr h _ _ (fun z hz => hag z (tops_sub_handles ch z hz))]
        have : (0 : Int) + sum_width h ch.tops = (h y).width := by omega
        rw [this]
        exact scale_pos_full v _ hv hpos hvb hxB
    · intro _
      refine ⟨hxB, ?_⟩
      rw [sum_width_congr h _ _ (fun z hz => hag z (tops_sub_handles ch z hz))]
      omega

theorem resize_x_tiled : ∀ t : Shape, ResizeTilesX t := by
  intro t
  induction t with
  | nil =>
    intro hor P v old left lastright lastoright h h' V e _ _ _ _ _ _ _ _ _ _
    simp [Shape.infos, Shape.handles]
  | node x ky chy rest ihc ihr =>
    intro hor P v old left lastright lastoright h h' V e hnd hV hv hnn hin hP hvert hvb hB hbd
    rw [resize_x_node] at e
    split at e
    · exact absurd e (by simp)
    split at e
    · exact absurd e (by simp)
    next hz0 _ h2 e2 =>
    -- the handles are distinct
    simp only [Shape.handles, List.nodup_cons, List.mem_cons, List.mem_append,
      List.nodup_append, not_or] at hnd
    obtain ⟨⟨hPy, hPc, hPr⟩, ⟨hyc, hyr⟩, hndc, hndr, hdisj⟩ := hnd
    have hVy : ∀ u, V = some u → u ≠ x ∧ u ∉ chy.handles ∧ u ∉ rest.handles := by
      intro u hu
      have := hV u hu
      simp only [Shape.handles, List.mem_cons, List.mem_append, not_or] at this
      exact this
    -- abbreviations
    generalize hX : (if hor = true then lastright else (h P).left) = Y at e2
    generalize hvy : (if hor = true then
      scale_pos (lastoright + (h x).width) v old + left - lastright else v) = vy at e2
    -- frames
    obtain ⟨f1, f2⟩ := resize_node_x_frame _ _ _ _ _ _ e2
    have f3 := resize_x_frame _ _ _ _ _ _ _ _ _ _ e
    have g1 : ∀ z, z ≠ x → z ∉ chy.handles → h2 z = h z := fun z hz hzc => by
      rw [f1 z hz hzc, set_left_other _ _ _ _ hz]
    have g2t : (h2 x).left = Y := by rw [f2 hyc]; simp [set_left]
    have g2h : (h2 x).width = vy := by rw [f2 hyc]
    have gP : h2 P = h P := g1 P hPy hPc
    have hy0 : 0 ≤ (h x).width := hnn x (by simp [Shape.handles])
    have hyB : (h x).width ≤ 32767 := hB x (by simp [Shape.handles])
    have hsr0 : 0 ≤ sum_width h rest.tops :=
      sum_width_nonneg h rest.tops
        (fun z hz => hnn z (by simp [Shape.handles, tops_sub_handles rest z hz]))
    have hst : sum_width h (Shape.node x ky chy rest).tops
        = (h x).width + sum_width h rest.tops := by
      simp [Shape.tops, sum_width]
    have hvy0 : 0 ≤ vy ∧ vy ≤ 32767 := by
      subst hvy
      split
      · next hvt =>
        obtain ⟨ho, hlo, -, hlb, -, hend⟩ := hvert hvt
        obtain ⟨hob, hsb⟩ := hbd hvt
        rw [hst] at hsb
        have m1 := scale_pos_mono lastoright (lastoright + (h x).width) v old hv ho hlo
          (by omega) (by omega) hvb hob
        have m2 := scale_pos_mono (lastoright + (h x).width)
          (lastoright + sum_width h (Shape.node x ky chy rest).tops) v old hv ho (by omega)
          (by rw [hst]; omega) (by rw [hst]; omega) hvb hob
        rw [hend (by simp)] at m2
        have m3 := scale_pos_nonneg lastoright v old hlo hv ho (by omega) hvb hob
        omega
      · exact ⟨hv, hvb⟩
    obtain ⟨hvy0, hvyB⟩ := hvy0
    have hagc : ∀ z ∈ chy.handles, set_left h x Y z = h z := fun z hz =>
      set_left_other h x Y z (fun e => hyc (e ▸ hz))
    -- the windows below `x`
    have hnest := resize_node_x_tiled_of (set_left h x Y) h2 x ky chy vy ihc e2
      (List.nodup_cons.2 ⟨hyc, hndc⟩) hvy0
      (fun z hz => by rw [hagc z hz]; exact hnn z (by simp [Shape.handles, hz]))
      (fun i hi => tileX_transport_inner chy h _ hagc i hi
        (hin i (by simp [Shape.inner, inner_sub chy _ _ i hi])))
      (by
        intro hk hne
        subst hk
        have := sum_width_of_tile h x chy none
          (fun i hi => hin i (by simp [Shape.inner, hi])) hne
        simp only [start_x] at this
        rw [sum_width_congr h _ _ (fun z hz => hagc z (tops_sub_handles chy z hz))]
        simp only [set_left, if_true]
        omega)
      hvyB
      (fun z hz => by rw [hagc z hz]; exact hB z (by simp [Shape.handles, hz]))
      (by simp only [set_left, if_true]; exact hyB)
    -- the rest of the chain
    have hagr : ∀ z ∈ rest.handles, h2 z = h z := fun z hz =>
      g1 z (fun e => hyr (e ▸ hz)) (fun hzc => hdisj hzc hz)
    have hrest := ihr hor P v old left _ _ h2 h' (some x) e
      (List.nodup_cons.2 ⟨hPr, hndr⟩)
      (fun u hu => by simp only [Option.some.injEq] at hu; subst hu; exact hyr) hv
      (fun z hz => by rw [hagr z hz]; exact hnn z (by simp [Shape.handles, hz]))
      (fun i hi => tileX_transport_inner rest h _ hagr i hi (hin i (by simp [Shape.inner, hi])))
      (by rw [gP]; exact hP)
      (by
        intro hvt
        obtain ⟨ho, hlo, htop, hlb, hst, hend⟩ := hvert hvt
        simp only [hvt, if_true] at hX hvy ⊢
        refine ⟨ho, by omega, by rw [gP]; exact htop, by omega, ?_, fun hne => ?_⟩
        · simp only [start_x]
          rw [g2t, g2h]
          omega
        · rw [sum_width_congr h _ _ (fun z hz => hagr z (tops_sub_handles rest z hz))]
          have := hend (by simp)
          simp only [Shape.tops, sum_width, List.map_cons, List.sum_cons] at this ⊢
          rw [← this]
          congr 1
          omega)
      hvb
      (fun z hz => by rw [hagr z hz]; exact hB z (by simp [Shape.handles, hz]))
      (by
        intro hvt
        obtain ⟨hob, hsb⟩ := hbd hvt
        rw [hst] at hsb
        simp only [hvt, if_true]
        refine ⟨hob, ?_⟩
        rw [sum_width_congr h _ _ (fun z hz => hagr z (tops_sub_handles rest z hz))]
        omega)
    have hy' : h' x = h2 x := f3 x hyr
    have hP' : h' P = h P := (f3 P hPr).trans gP
    constructor
    · intro i hi
      simp only [Shape.infos, List.mem_cons, List.mem_append] at hi
      rcases hi with rfl | hi | hi
      · by_cases hvt : hor = true
        · obtain ⟨ho, hlo, htop, hlb, hst, hend⟩ := hvert hvt
          simp only [hvt, if_true] at hX hvy ⊢
          simp only [TileX]
          rw [hy', hP', g2t, g2h]
          constructor
          · rcases V with _ | u
            · simp only [start_x] at hst
              show Y = (h P).left
              omega
            · obtain ⟨hu1, hu2, hu3⟩ := hVy u rfl
              simp only [start_x] at hst
              show Y = (h' u).left + (h' u).width
              rw [f3 u hu3, g1 u hu1 hu2]
              omega
          · intro hr
            have := hend (by simp)
            rw [head_eq_none hr] at this
            simp only [Shape.tops, sum_width, List.map_cons, List.map_nil, List.sum_cons,
              List.sum_nil, add_zero] at this
            omega
        · simp only [hvt, if_false] at hX hvy ⊢
          simp only [Bool.false_eq_true, if_false] at hX hvy
          simp only [TileX, Bool.false_eq_true, if_false]
          rw [hy', hP', g2t, g2h]
          omega
      · exact tileX_transport chy (some (ky, x)) none h2 h'
          (fun z hz => f3 z (fun hr => hdisj hz hr))
          (fun k p e _ => by
            simp only [Option.some.injEq, Prod.mk.injEq] at e
            rw [← e.2]; exact hy')
          (fun u e => absurd e (by simp)) i hi (hnest.1 i hi)
      · exact hrest.1 i hi
    · intro z hz
      simp only [Shape.handles, List.mem_cons, List.mem_append] at hz
      rcases hz with rfl | hz | hz
      · rw [hy', g2h]; exact hvy0
      · rw [f3 z (fun hr => hdisj hz hr)]; exact hnest.2 z hz
      · exact hrest.2 z hz

theorem hcombs_sub_handles (t : Shape) (z : Win) (hz : z ∈ t.hcombs) : z ∈ t.handles := by
  induction t with
  | nil => simp [Shape.hcombs] at hz
  | node x ky chy rest ihc ihr =>
    simp only [Shape.hcombs, List.mem_append] at hz
    simp only [Shape.handles, List.mem_cons, List.mem_append]
    rcases hz with hz | hz | hz
    · split at hz
      · simp only [List.mem_singleton] at hz
        exact Or.inl hz
      · simp at hz
    · exact Or.inr (Or.inl (ihc hz))
    · exact Or.inr (Or.inr (ihr hz))

/-- The new widths of a chain of children of a horizontal combination add up
to the scaled sum of the old ones. -/
theorem resize_x_sum : ∀ (t : Shape) (P : Win) (v old left lastright lastoright : Int)
    (h h' : Win → Window),
    resize_x true P v old left lastright lastoright h t = some h' → t.handles.Nodup →
    lastright = left + scale_pos lastoright v old →
    lastright + sum_width h' t.tops = left + scale_pos (lastoright + sum_width h t.tops) v old := by
  intro t
  induction t with
  | nil =>
    intro P v old left lastright lastoright h h' _ _ hlb
    simp only [Shape.tops, sum_width, List.map_nil, List.sum_nil, add_zero]
    exact hlb
  | node x ky chy rest _ ihr =>
    intro P v old left lastright lastoright h h' e hnd hlb
    rw [resize_x_node] at e
    split at e
    · exact absurd e (by simp)
    split at e
    · exact absurd e (by simp)
    next _ _ h2 e2 =>
    simp only [if_true] at e e2
    simp only [Shape.handles, List.nodup_cons, List.mem_append, List.nodup_append,
      not_or] at hnd
    obtain ⟨⟨hyc, hyr⟩, hndc, hndr, hdisj⟩ := hnd
    obtain ⟨f1, f2⟩ := resize_node_x_frame _ _ _ _ _ _ e2
    have f3 := resize_x_frame _ _ _ _ _ _ _ _ _ _ e
    have hagr : ∀ z ∈ rest.handles, h2 z = h z := fun z hz => by
      have hzy : z ≠ x := fun e => hyr (e ▸ hz)
      rw [f1 z hzy (fun hzc => hdisj hzc hz), set_left_other _ _ _ _ hzy]
    have := ihr P v old left _ _ h2 h' e hndr (by omega)
    rw [sum_width_congr h _ _ (fun z hz => hagr z (tops_sub_handles rest z hz))] at this
    have hy : (h' x).width
        = scale_pos (lastoright + (h x).width) v old + left - lastright := by
      rw [f3 x hyr, f2 hyc]
    simp only [Shape.tops, sum_width, List.map_cons, List.sum_cons] at this ⊢
    rw [hy]
    have e3 : lastoright + (h x).width + (List.map (fun z => (h z).width) rest.tops).sum
        = lastoright + ((h x).width + (List.map (fun z => (h z).width) rest.tops).sum) := by
      ring
    rw [e3] at this
    omega

/-- The function `resize_x` is defined if no horizontal combination it meets
has width 0. -/
theorem resize_x_some : ∀ (t : Shape) (hor : Bool) (P : Win)
    (v old left lastright lastoright : Int) (h : Win → Window),
    t.handles.Nodup → (∀ z ∈ t.hcombs, (h z).width ≠ 0) → (hor = true → old ≠ 0) →
    ∃ h', resize_x hor P v old left lastright lastoright h t = some h' := by
  intro t
  induction t with
  | nil =>
    intro hor P v old left lastright lastoright h _ _ _
    exact ⟨h, rfl⟩
  | node x ky chy rest ihc ihr =>
    intro hor P v old left lastright lastoright h hnd hnz hold
    simp only [Shape.handles, List.nodup_cons, List.mem_append, List.nodup_append,
      not_or] at hnd
    obtain ⟨⟨hyc, hyr⟩, hndc, hndr, hdisj⟩ := hnd
    rw [resize_x_node]
    have h0 : ¬ (hor = true ∧ shl1 old = 0) := by
      rintro ⟨hv, h0⟩
      exact hold hv (by simpa [shl1] using h0)
    rw [if_neg h0]
    generalize (if hor = true then lastright else (h P).left) = Y
    generalize (if hor = true then
      scale_pos (lastoright + (h x).width) v old + left - lastright else v) = vy
    have hagc : ∀ z ∈ chy.handles, touch_width (set_left h x Y) x vy z = h z := fun z hz => by
      have hzy : z ≠ x := fun e => hyc (e ▸ hz)
      rw [touch_width_other _ _ _ _ hzy, set_left_other _ _ _ _ hzy]
    have hnzc : ∀ z ∈ chy.hcombs, (touch_width (set_left h x Y) x vy z).width ≠ 0 :=
      fun z hz => by
        rw [hagc z (hcombs_sub_handles chy z hz)]
        exact hnz z (by simp [Shape.hcombs, hz])
    obtain ⟨h2, e2⟩ : ∃ h2, resize_node_x (set_left h x Y) x ky chy vy = some h2 := by
      unfold resize_node_x
      cases ky with
      | leaf => exact ⟨_, rfl⟩
      | vcomb => exact ihc false x vy 0 0 0 0 _ hndc hnzc (by simp)
      | hcomb =>
        refine ihc true x vy _ _ _ 0 _ hndc hnzc (fun _ => ?_)
        have := hnz x (by simp [Shape.hcombs])
        simpa [set_left] using this
    rw [e2]
    obtain ⟨f1, -⟩ := resize_node_x_frame _ _ _ _ _ _ e2
    refine ihr hor P v old left _ _ h2 hndr (fun z hz => ?_) hold
    have hzr := hcombs_sub_handles rest z hz
    have hzy : z ≠ x := fun e => hyr (e ▸ hzr)
    rw [f1 z hzy (fun hzc => hdisj hzc hzr), set_left_other _ _ _ _ hzy]
    exact hnz z (by simp [Shape.hcombs, hz])

/-- On a window of a well-formed tree `set_window_width` does what
`resize_node_x` says. -/
theorem set_window_width_out (E : Ext) (scr : Scr) (fuel : Nat) (s : State) (c : Ctx)
    (y : Win) (k : Kind) (ch rest : Shape) (v : Int)
    (hrep : Rep s scr (plug c (Shape.node y k ch rest))) :
    (set_window_width E fuel s y v true).Out
      (fun _ s' => resize_node_x s.windows y k ch v = some s'.windows ∧ others s s')
      (resize_node_x s.windows y k ch v = none) (fuel < 1 + ch.bound) := by
  obtain ⟨-, -, -, -, hx, hch, -⟩ := (rep_plug_node s scr c y k ch rest).1 hrep
  exact set_window_width_sim E scr y k ch (width_sim E scr ch) fuel s v _ _ _ hx hch

/-- The function `resize_node_x` is defined if no horizontal combination it
meets has width 0. -/
theorem resize_node_x_some (h : Win → Window) (y : Win) (k : Kind) (ch : Shape) (v : Int)
    (hnd : (y :: ch.handles).Nodup)
    (hnz : ∀ z ∈ (Shape.node y k ch Shape.nil).hcombs, (h z).width ≠ 0) :
    ∃ h', resize_node_x h y k ch v = some h' := by
  have hx : y ∉ ch.handles := (List.nodup_cons.1 hnd).1
  have hndc : ch.handles.Nodup := (List.nodup_cons.1 hnd).2
  have hnzc : ∀ z ∈ ch.hcombs, (touch_width h y v z).width ≠ 0 := fun z hz => by
    have hzx : z ≠ y := fun e => hx (e ▸ hcombs_sub_handles ch z hz)
    rw [touch_width_other _ _ _ _ hzx]
    exact hnz z (by simp [Shape.hcombs, hz])
  unfold resize_node_x
  cases k with
  | leaf => exact ⟨_, rfl⟩
  | vcomb => exact resize_x_some ch false y v 0 0 0 0 _ hndc hnzc (by simp)
  | hcomb =>
    exact resize_x_some ch true y v _ _ _ 0 _ hndc hnzc
      (fun _ => hnz y (by simp [Shape.hcombs]))

/-- The sum of the widths of the children of a horizontal combination after
a successful `set_window_width`, which needs `1 + ch.bound` units of fuel
and no horizontal combination of width 0; the old and the new width are at
most 32767, so that the first and the last position are computed without
overflow. -/
theorem set_window_width_children (E : Ext) (scr : Scr) (fuel : Nat) (s : State) (c : Ctx)
    (y : Win) (ch rest : Shape) (v : Int)
    (hrep : Rep s scr (plug c (Shape.node y Kind.hcomb ch rest)))
    (hold : 1 ≤ (s.windows y).width) (hv : 1 ≤ v)
    (hsum : sum_width s.windows ch.tops = (s.windows y).width)
    (hnz : ∀ z ∈ ch.hcombs, (s.windows z).width ≠ 0)
    (hfuel : 1 + ch.bound ≤ fuel)
    (hob : (s.windows y).width ≤ 32767) (hvb : v ≤ 32767) :
    (set_window_width E fuel s y v true).Holds fun _ s' =>
      (s'.windows y).width = v ∧ sum_width s'.windows ch.tops = v := by
  have hnd := rep_nodup_node s scr c y Kind.hcomb ch rest hrep
  have hx : y ∉ ch.handles := (List.nodup_cons.1 hnd).1
  refine ((set_window_width_out E scr fuel s c y Kind.hcomb ch rest v hrep).to_holds ?_
    (by omega)).imp ?_
  · intro e
    obtain ⟨h', e'⟩ := resize_node_x_some s.windows y Kind.hcomb ch v hnd (fun z hz => by
      simp only [Shape.hcombs, if_true, List.singleton_append, List.mem_cons, List.mem_append,
        List.not_mem_nil, or_false] at hz
      rcases hz with rfl | hz
      · omega
      · exact hnz z hz)
    rw [e] at e'
    exact absurd e' (by simp)
  · rintro _ s' ⟨e, -⟩
    obtain ⟨-, f2⟩ := resize_node_x_frame _ _ _ _ _ _ e
    refine ⟨by rw [f2 hx], ?_⟩
    have := resize_x_sum ch y v (s.windows y).width _ _ 0 _ s'.windows e
      (List.nodup_cons.1 hnd).2 (by rw [scale_pos_zero _ _ (by omega) hob]; simp)
    have hag : ∀ z ∈ ch.tops, touch_width s.windows y v z = s.windows z := fun z hz => by
      have hzx : z ≠ y := fun e => hx (e ▸ tops_sub_handles ch z hz)
      exact touch_width_other _ _ _ _ hzx
    rw [sum_width_congr s.windows _ _ hag, hsum, zero_add,
      scale_pos_full _ _ (by omega) (by omega) hvb hob] at this
    omega

theorem LinkOK.child_ne {scr : Scr} {h : Win → Window} {i : NodeInfo} (hl : LinkOK scr h i)
    (hk : i.k ≠ Kind.leaf) : i.child ≠ none := by
  obtain ⟨-, -, -, -, h5⟩ := hl
  rcases i with ⟨w, k, par, prev, next, child⟩
  cases k with
  | leaf => exact absurd rfl hk
  | hcomb => exact h5.2.1
  | vcomb => exact h5.2.1

theorem sums_y_of_tiled (h : Win → Window) : ∀ (t : Shape)
    (P : Option (Kind × Win)) (V : Option Win),
    (∀ i ∈ t.infos P V, i.k ≠ Kind.leaf → i.child ≠ none) → (∀ i ∈ t.inner, TileY h i) →
    sums_y h t := by
  intro t
  induction t with
  | nil => intro P V _ _; trivial
  | node y ky chy rest ihc ihr =>
    intro P V hl ht
    refine ⟨fun hk => ?_, ?_, ?_⟩
    · subst hk
      have hy := hl ⟨y, Kind.vcomb, P, V, rest.head, chy.head⟩ (by simp [Shape.infos])
        (by simp)
      have hne : chy ≠ Shape.nil := by
        intro e
        subst e
        exact hy rfl
      have := sum_height_of_tile h y chy none
        (fun i hi => ht i (by simp [Shape.inner, hi])) hne
      simp only [start_y] at this
      omega
    · exact ihc (some (ky, y)) none (fun i hi => hl i (by simp [Shape.infos, hi]))
        (fun i hi => ht i (by simp [Shape.inner, inner_sub chy _ _ i hi]))
    · exact ihr P (some y) (fun i hi => hl i (by simp [Shape.infos, hi]))
        (fun i hi => ht i (by simp [Shape.inner, hi]))

/-- With enough fuel `set_window_height (x, v, 1)` returns on a window of a
well-formed tree whose windows from `x` down have positive heights of at most
32767 and are tiled, and the windows below `x` are tiled again. -/
theorem set_window_height_retiles (E : Ext) (scr : Scr) (fuel : Nat) (s : State) (c : Ctx)
    (x : Win) (k : Kind) (ch rest : Shape) (v : Int)
    (hrep : Rep s scr (plug c (Shape.node x k ch rest))) (hv : 0 ≤ v)
    (hpos : ∀ z ∈ x :: ch.handles, 1 ≤ (s.windows z).height)
    (ht : ∀ i ∈ ch.infos (some (k, x)) none, TileY s.windows i)
    (hfuel : 1 + ch.bound ≤ fuel)
    (hvb : v ≤ 32767) (hB : ∀ z ∈ x :: ch.handles, (s.windows z).height ≤ 32767) :
    (set_window_height E fuel s x v true).Holds fun _ s' =>
      (s'.windows x).height = v
        ∧ (∀ i ∈ ch.infos (some (k, x)) none, TileY s'.windows i)
        ∧ sums_y s'.windows (Shape.node x k ch Shape.nil) := by
  obtain ⟨-, -, -, -, hlx, hlch, -⟩ := (rep_plug_node s scr c x k ch rest).1 hrep
  have hnd := rep_nodup_node s scr c x k ch rest hrep
  refine ((set_window_height_tiled E scr fuel s c x k ch rest v hrep hv
    (fun z hz => by have := hpos z (by simp [hz]); omega) ht hvb hB).to_holds ?_
      (by omega)).imp ?_
  · rintro ⟨z, hz, h0⟩
    have hz' : z ∈ x :: ch.handles := by
      have := vcombs_sub_handles _ z hz
      simpa [Shape.handles] using this
    have := hpos z hz'
    omega
  · rintro _ s' ⟨-, hyl, -, hx, ht', -⟩
    refine ⟨by rw [hx], ht', ?_⟩
    have hl' : ∀ i ∈ (Shape.node x k ch Shape.nil).infos (hpar c) (hprev c),
        i.k ≠ Kind.leaf → i.child ≠ none := by
      intro i hi
      simp only [Shape.infos, List.mem_cons, List.mem_append, List.not_mem_nil,
        or_false] at hi
      rcases hi with rfl | hi
      · exact fun hk => hlx.child_ne hk
      · exact (hlch i hi).child_ne
    exact sums_y_of_tiled s'.windows _ _ _ hl' (by simpa [Shape.inner] using ht')

/-- C1, amended: `set_window_height (x, v, 1)` on a vertical combination `x`
of a well-formed tree, for every old height of `x` from 1 to 32767, every new
height `v` from 1 to 32767 and all children whose heights add up to the old
height, no vertical combination below `x` having the height 0 (where the C
code divides by zero): with `1 + ch.bound` units of fuel the call returns,
`x` has height `v` and the heights of the children add up to exactly `v`.
Up to 32767 the first and the last position of the loop are computed without
overflow of an `int`. -/
theorem set_window_height_sum_exact (E : Ext) (scr : Scr) (fuel : Nat) (s : State) (c : Ctx)
    (x : Win) (ch rest : Shape) (v : Int)
    (hrep : Rep s scr (plug c (Shape.node x Kind.vcomb ch rest)))
    (hold : 1 ≤ (s.windows x).height) (hv : 1 ≤ v)
    (hsum : sum_height s.windows ch.tops = (s.windows x).height)
    (hnz : ∀ z ∈ ch.vcombs, (s.windows z).height ≠ 0)
    (hfuel : 1 + ch.bound ≤ fuel)
    (hob : (s.windows x).height ≤ 32767) (hvb : v ≤ 32767) :
    ∃ s', set_window_height E fuel s x v true = Res.ok () s'
      ∧ (s'.windows x).height = v ∧ sum_height s'.windows ch.tops = v := by
  obtain ⟨_, s', e, h⟩ := (Res.holds_iff _ _).1
    (set_window_height_children E scr fuel s c x ch rest v hrep hold hv hsum hnz hfuel hob hvb)
  exact ⟨s', e, h⟩

/-- Witness of `set_window_height_sum_exact`: the root window 2 of `state6`,
23 lines high, with the children 4 and 3, made 30 lines high. -/
theorem set_window_height_sum_exact_witness :
    Rep state6 0 (plug [] (Shape.node 2 Kind.vcomb chain43 chain1))
      ∧ sum_height state6.windows chain43.tops = (state6.windows 2).height
      ∧ ∃ s', set_window_height ext1 14 state6 2 30 true = Res.ok () s'
        ∧ (s'.windows 2).height = 30 ∧ sum_height s'.windows chain43.tops = 30 :=
  ⟨by decide!, by decide!,
    set_window_height_sum_exact ext1 0 14 state6 [] 2 chain43 chain1 30
      (by decide!) (by decide!) (by decide) (by decide!) (by decide!) (by decide)
      (by decide!) (by decide)⟩

/-- Counterexample to C1 as stated for every height: the root window 2 of
`statev 20000 20000` is a vertical combination, 40000 lines high, of two
leaves of 20000 lines each.  In `set_window_height (2, 60000, 1)` the
expression `(opos * height) << 1` overflows an `int`: the leaves get -23686
and 29999 lines, which add up to 6313 and not to 60000. -/
theorem set_window_height_sum_wraps :
    (Rep (statev 20000 20000) 0 (plug [] shapev)
      ∧ ((statev 20000 20000).windows 2).height = 40000
      ∧ sum_height (statev 20000 20000).windows [0, 3] = 40000)
    ∧ (set_window_height ext1 14 (statev 20000 20000) 2 60000 true).Holds fun _ s' =>
        (s'.windows 2).height = 60000 ∧ (s'.windows 0).height = -23686
          ∧ (s'.windows 3).height = 29999 ∧ sum_height s'.windows [0, 3] = 6313 := by
  decide!

theorem leaves_node (w : Win) (k : Kind) (ch rest : Shape) :
    (Shape.node w k ch rest).leaves = (Shape.node w k ch Shape.nil).leaves ++ rest.leaves := by
  cases k <;> simp [Shape.leaves]

theorem leaves_plug : ∀ (c : Ctx) (t : Shape), ctxComb c →
    (plug c t).leaves = ctxLeft c ++ t.leaves ++ ctxRight c := by
  intro c
  induction c with
  | nil => intro t _; simp [plug, ctxLeft, ctxRight]
  | cons f c ih =>
    intro t hc
    cases f with
    | right w k ch =>
      simp only [plug, ctxLeft, ctxRight]
      rw [ih _ hc, leaves_node]
      simp [List.append_assoc]
    | down w k rest =>
      simp only [plug, ctxLeft, ctxRight]
      rw [ih _ hc.2]
      have : (Shape.node w k t rest).leaves = t.leaves ++ rest.leaves := by
        cases k with
        | leaf => exact absurd rfl hc.1
        | hcomb => rfl
        | vcomb => rfl
      rw [this]
      simp [List.append_assoc]

theorem leaves_sub_handles (t : Shape) (z : Win) (hz : z ∈ t.leaves) : z ∈ t.handles := by
  induction t with
  | nil => simp [Shape.leaves] at hz
  | node y ky chy rest ihc ihr =>
    simp only [Shape.handles, List.mem_cons, List.mem_append]
    cases ky with
    | leaf =>
      simp only [Shape.leaves, List.mem_cons] at hz
      rcases hz with hz | hz
      · exact Or.inl hz
      · exact Or.inr (Or.inr (ihr hz))
    | hcomb =>
      simp only [Shape.leaves, List.mem_append] at hz
      rcases hz with hz | hz
      · exact Or.inr (Or.inl (ihc hz))
      · exact Or.inr (Or.inr (ihr hz))
    | vcomb =>
      simp only [Shape.leaves, List.mem_append] at hz
      rcases hz with hz | hz
      · exact Or.inr (Or.inl (ihc hz))
      · exact Or.inr (Or.inr (ihr hz))

theorem leaves_sublist (t : Shape) : t.leaves.Sublist t.handles := by
  induction t with
  | nil => exact List.Sublist.slnil
  | node y ky chy rest ihc ihr =>
    cases ky with
    | leaf =>
      simp only [Shape.leaves, Shape.handles]
      exact List.Sublist.cons₂ _ ((ihr.trans (List.sublist_append_right _ _)))
    | hcomb =>
      simp only [Shape.leaves, Shape.handles]
      exact List.Sublist.cons _ (List.Sublist.append ihc ihr)
    | vcomb =>
      simp only [Shape.leaves, Shape.handles]
      exact List.Sublist.cons _ (List.Sublist.append ihc ihr)

theorem leaves_nodup (t : Shape) (h : t.handles.Nodup) : t.leaves.Nodup :=
  (leaves_sublist t).nodup h

theorem first_leaf_spec (s : State) (scr : Scr) : ∀ (t : Shape) (P : Option (Kind × Win))
    (V : Option Win) (fuel : Nat), (∀ i ∈ t.infos P V, LinkOK scr s.windows i) →
    t.handles.length < fuel → ∀ y ky chy rest, t = Shape.node y ky chy rest →
    ∃ l tl, first_leaf s fuel y = Walk.val l
      ∧ (Shape.node y ky chy Shape.nil).leaves = l :: tl := by
  intro t
  induction t with
  | nil => intro P V fuel _ _ y ky chy rest e; exact absurd e (by simp)
  | node y0 ky0 chy0 rest0 ihc _ =>
    intro P V fuel hl hf y ky chy rest e
    simp only [Shape.node.injEq] at e
    obtain ⟨rfl, rfl, rfl, rfl⟩ := e
    have hy := hl ⟨y0, ky0, P, V, rest0.head, chy0.head⟩ (by simp [Shape.infos])
    obtain ⟨-, -, -, -, h5⟩ := hy
    simp only [Shape.handles, List.length_cons, List.length_append] at hf
    have hlc : ∀ i ∈ chy0.infos (some (ky0, y0)) none, LinkOK scr s.windows i := fun i hi =>
      hl i (by simp only [Shape.infos, List.mem_cons, List.mem_append]; exact Or.inr (Or.inl hi))
    cases fuel with
    | zero => omega
    | succ f =>
      cases ky0 with
      | leaf =>
        simp only at h5
        refine ⟨y0, [], ?_, rfl⟩
        simp [first_leaf, h5.1, h5.2.1]
      | hcomb =>
        simp only at h5
        cases chy0 with
        | nil => exact absurd rfl h5.2.1
        | node c kc chc rc =>
          obtain ⟨l, tl, e1, e2⟩ := ihc (some (Kind.hcomb, y0)) none f hlc
            (by omega) c kc chc rc rfl
          refine ⟨l, tl ++ rc.leaves, ?_, ?_⟩
          · simp only [first_leaf, h5.1, Shape.head]
            exact e1
          · simp only [Shape.leaves, List.append_nil]
            rw [leaves_node, e2]
            rfl
      | vcomb =>
        simp only at h5
        cases chy0 with
        | nil => exact absurd rfl h5.2.1
        | node c kc chc rc =>
          obtain ⟨l, tl, e1, e2⟩ := ihc (some (Kind.vcomb, y0)) none f hlc
            (by omega) c kc chc rc rfl
          refine ⟨l, tl ++ rc.leaves, ?_, ?_⟩
          · simp only [first_leaf, h5.2.2.1, h5.1, Shape.head]
            exact e1
          · simp only [Shape.leaves, List.append_nil]
            rw [leaves_node, e2]
            rfl

theorem next_climb_spec (E : Ext) (s : State) (scr : Scr) (mini : Mini) (all_screens : Bool) :
    ∀ (c : Ctx) (hd : Option Win) (fuel : Nat) (w : Win),
    (∀ i ∈ ctxInfos c hd, LinkOK scr s.windows i) → (s.windows w).next = none →
    (s.windows w).parent = (hpar c).map Prod.snd → (s.windows w).screen = some scr →
    c.length < fuel →
    next_climb E s mini all_screens fuel w =
      match ctxUp c with
      | some y => Walk.val y
      | none => next_root E s scr mini all_screens := by
  intro c
  induction c with
  | nil =>
    intro hd fuel w _ hn hp hs hf
    cases fuel with
    | zero => simp at hf
    | succ f =>
      simp only [hpar, Option.map_none'] at hp
      simp only [next_climb, hn, hp, hs, ctxUp, next_root]
      all_goals rfl
  | cons fr c ih =>
    intro hd fuel w hl hn hp hs hf
    cases fr with
    | right v kv chv =>
      simp only [hpar] at hp
      simp only [ctxUp]
      exact ih (some v) fuel w
        (fun i hi => hl i (by simp only [ctxInfos, List.mem_cons, List.mem_append]; exact Or.inr (Or.inr hi)))
        hn hp hs (by simp only [List.length_cons] at hf; omega)
    | down P kP restP =>
      simp only [hpar, Option.map_some'] at hp
      simp only [List.length_cons] at hf
      have hP := hl ⟨P, kP, hpar c, hprev c, restP.head, hd⟩ (by simp [ctxInfos])
      obtain ⟨hPp, -, hPn, hPs, -⟩ := hP
      simp only at hPp hPn hPs
      cases fuel with
      | zero => omega
      | succ f =>
        simp only [next_climb, hn, hp, ctxUp]
        rcases hr : restP.head with _ | y
        · simp only
          exact ih (some P) f P
            (fun i hi => hl i (by simp only [ctxInfos, List.mem_cons, List.mem_append]; exact Or.inr (Or.inr hi)))
            (by rw [hPn, hr]) hPp hPs (by omega)
        · simp only
          cases f with
          | zero => omega
          | succ f' => simp [next_climb, hPn, hr]

theorem ctxComb_of_links (scr : Scr) (h : Win → Window) : ∀ (c : Ctx) (hd : Option Win),
    hd ≠ none → (∀ i ∈ ctxInfos c hd, LinkOK scr h i) → ctxComb c := by
  intro c
  induction c with
  | nil => intro _ _ _; trivial
  | cons fr c ih =>
    intro hd hne hl
    cases fr with
    | right v kv chv =>
      exact ih (some v) (by simp) (fun i hi => hl i (by
        simp only [ctxInfos, List.mem_cons, List.mem_append]; exact Or.inr (Or.inr hi)))
    | down P kP restP =>
      refine ⟨?_, ih (some P) (by simp) (fun i hi => hl i (by
        simp only [ctxInfos, List.mem_cons, List.mem_append]; exact Or.inr (Or.inr hi)))⟩
      have hP := hl ⟨P, kP, hpar c, hprev c, restP.head, hd⟩ (by simp [ctxInfos])
      intro hk
      subst hk
      exact hne hP.2.2.2.2.2.2.2

theorem ctxHandles_length_right (w : Win) (k : Kind) (ch : Shape) (c : Ctx) :
    (ctxHandles c).length ≤ (ctxHandles (Frame.right w k ch :: c)).length := by
  simp only [ctxHandles, List.length_cons, List.length_append]; omega

theorem ctxUp_first (s : State) (scr : Scr) (fuel : Nat) : ∀ (c : Ctx) (hd : Option Win) (y : Win),
    (∀ i ∈ ctxInfos c hd, LinkOK scr s.windows i) → (ctxHandles c).length < fuel →
    ctxUp c = some y → ∃ l tl, first_leaf s fuel y = Walk.val l ∧ ctxRight c = l :: tl := by
  intro c
  induction c with
  | nil => intro hd y _ _ e; simp [ctxUp] at e
  | cons fr c ih =>
    intro hd y hl hf e
    cases fr with
    | right v kv chv =>
      simp only [ctxUp] at e
      simp only [ctxRight]
      exact ih (some v) y (fun i hi => hl i (by
        simp only [ctxInfos, List.mem_cons, List.mem_append]; exact Or.inr (Or.inr hi)))
        (by simp only [ctxHandles, List.length_cons, List.length_append] at hf; omega) e
    | down P kP restP =>
      simp only [ctxHandles, List.length_cons, List.length_append] at hf
      simp only [ctxUp] at e
      simp only [ctxRight]
      cases restP with
      | nil =>
        simp only [Shape.head] at e
        simp only [Shape.leaves, List.nil_append]
        exact ih (some P) y (fun i hi => hl i (by
          simp only [ctxInfos, List.mem_cons, List.mem_append]; exact Or.inr (Or.inr hi)))
          (by omega) e
      | node y' ky chy resty =>
        simp only [Shape.head, Option.some.injEq] at e
        subst e
        obtain ⟨l, tl, e1, e2⟩ := first_leaf_spec s scr (Shape.node y' ky chy resty) (hpar c)
          (some P) fuel (fun i hi => hl i (by
            simp only [ctxInfos, List.mem_cons, List.mem_append]; exact Or.inr (Or.inl hi)))
          (by omega) y' ky chy resty rfl
        refine ⟨l, tl ++ resty.leaves ++ ctxRight c, e1, ?_⟩
        rw [leaves_node, e2]
        simp

theorem ctxUp_none : ∀ c : Ctx, ctxUp c = none → ctxRight c = [] := by
  intro c
  induction c with
  | nil => intro _; rfl
  | cons fr c ih =>
    intro e
    cases fr with
    | right v kv chv => exact ih e
    | down P kP restP =>
      simp only [ctxUp] at e
      cases restP with
      | nil =>
        simp only [Shape.head] at e
        simp only [ctxRight, Shape.leaves, List.nil_append]
        exact ih e
      | node y ky chy resty => simp [Shape.head] at e

theorem ctx_length_le (c : Ctx) : c.length ≤ (ctxHandles c).length := by
  induction c with
  | nil => simp
  | cons fr c ih =>
    cases fr <;> simp only [ctxHandles, List.length_cons, List.length_append] <;> omega

/-- One pass of the loop of `Fnext_window` from a leaf `w`: the climb and
the descent end at the leaf that follows `w` in the cyclic order of the
leaves. -/
theorem next_pass (E : Ext) (s : State) (scr : Scr) (mini : Mini) (all_screens : Bool)
    (c : Ctx) (w : Win) (rest : Shape) (fuel : Nat) (r : Win)
    (hrep : Rep s scr (plug c (Shape.node w Kind.leaf Shape.nil rest)))
    (hroot : next_root E s scr mini all_screens = Walk.val r)
    (hr : (s.screens scr).root_window = some r)
    (hf : (plug c (Shape.node w Kind.leaf Shape.nil rest)).handles.length < fuel) :
    ∃ y l, next_climb E s mini all_screens fuel w = Walk.val y
      ∧ first_leaf s fuel y = Walk.val l
      ∧ (rest.leaves ++ ctxRight c ++ ctxLeft c ++ [w]).head? = some l := by
  have hlen := (handles_plug c (Shape.node w Kind.leaf Shape.nil rest)).length_eq
  simp only [List.length_append, Shape.handles, List.length_cons, List.length_nil,
    List.nil_append] at hlen
  have hcl := ctx_length_le c
  obtain ⟨hroot', -, -, hlc, hlw, -, hlr⟩ :=
    (rep_plug_node s scr c w Kind.leaf Shape.nil rest).1 hrep
  obtain ⟨hwp, -, hwn, hws, -⟩ := hlw
  simp only at hwp hwn hws
  cases rest with
  | node y ky chy resty =>
    obtain ⟨l, tl, e1, e2⟩ := first_leaf_spec s scr (Shape.node y ky chy resty) (hpar c)
      (some w) fuel hlr (by simp only [Shape.handles, List.length_cons] at hlen ⊢; omega)
      y ky chy resty rfl
    refine ⟨y, l, ?_, e1, ?_⟩
    · cases fuel with
      | zero => omega
      | succ f => simp [next_climb, hwn, Shape.head]
    · rw [leaves_node, e2]
      simp
  | nil =>
    simp only [Shape.head] at hwn
    have hclimb := next_climb_spec E s scr mini all_screens c (some w) fuel w hlc hwn hwp hws
      (by omega)
    rcases hu : ctxUp c with _ | y
    · rw [hu] at hclimb
      simp only at hclimb
      rw [hroot] at hclimb
      have hright := ctxUp_none c hu
      have hcomb := ctxComb_of_links scr s.windows c (some w) (by simp) hlc
      have hleaves := leaves_plug c (Shape.node w Kind.leaf Shape.nil Shape.nil) hcomb
      rw [hright] at hleaves
      simp only [Shape.leaves, List.append_nil] at hleaves
      obtain ⟨hrt, -, -, hall⟩ := hrep
      rw [hr] at hrt
      generalize hT : plug c (Shape.node w Kind.leaf Shape.nil Shape.nil) = T at *
      cases T with
      | nil => simp [Shape.head] at hrt
      | node r0 kr chr restr =>
        simp only [Shape.head, Option.some.injEq] at hrt
        subst hrt
        obtain ⟨l, tl, e1, e2⟩ := first_leaf_spec s scr _ none none fuel hall hf r kr chr restr rfl
        refine ⟨r, l, hclimb, e1, ?_⟩
        rw [leaves_node, e2] at hleaves
        rw [hright]
        simp only [Shape.leaves, List.nil_append, List.append_nil]
        rw [← hleaves]
        rfl
    · rw [hu] at hclimb
      simp only at hclimb
      obtain ⟨l, tl, e1, e2⟩ := ctxUp_first s scr fuel c (some w) y hlc (by omega) hu
      refine ⟨y, l, hclimb, e1, ?_⟩
      rw [e2]
      simp [Shape.leaves]

/-- In a list without duplicates the cyclic successor of the element
between `A` and `B` is the first element of `B ++ A ++ [w]`. -/
theorem cyclic_succ (A B : List Win) (w l : Win) (i : Nat)
    (hnd : (A ++ w :: B).Nodup) (hw : (A ++ w :: B)[i]? = some w)
    (hl : (B ++ A ++ [w]).head? = some l) :
    (A ++ w :: B)[(i + 1) % (A ++ w :: B).length]? = some l := by
  have hi : i = A.length := by
    have hlt : i < (A ++ w :: B).length := by
      by_contra h
      rw [List.getElem?_eq_none (by omega)] at hw
      exact absurd hw (by simp)
    refine List.getElem?_inj hlt hnd ?_
    rw [hw, List.getElem?_append_right (le_refl _)]
    simp
  subst hi
  cases B with
  | nil =>
    simp only [List.length_append, List.length_cons, List.length_nil, Nat.mod_self,
      List.nil_append] at hl ⊢
    rw [← List.head?_eq_getElem?]
    exact hl
  | cons b B' =>
    simp only [List.cons_append, List.head?_cons, Option.some.injEq] at hl
    subst hl
    have : (A.length + 1) % (A ++ w :: b :: B').length = A.length + 1 := by
      apply Nat.mod_eq_of_lt
      simp only [List.length_append, List.length_cons]
      omega
    rw [this, List.getElem?_append_right (by omega)]
    simp

theorem ctxLeft_sub (c : Ctx) (z : Win) (hz : z ∈ ctxLeft c) : z ∈ ctxHandles c := by
  induction c with
  | nil => simp [ctxLeft] at hz
  | cons fr c ih =>
    cases fr with
    | right v kv chv =>
      simp only [ctxLeft, List.mem_append] at hz
      simp only [ctxHandles, List.mem_cons, List.mem_append]
      rcases hz with hz | hz
      · exact Or.inr (Or.inr (ih hz))
      · have := leaves_sub_handles _ z hz
        simp only [Shape.handles, List.mem_cons, List.mem_append, List.not_mem_nil,
          or_false] at this
        rcases this with h | h
        · exact Or.inl h
        · exact Or.inr (Or.inl h)
    | down P kP restP =>
      simp only [ctxLeft] at hz
      simp only [ctxHandles, List.mem_cons, List.mem_append]
      exact Or.inr (Or.inr (ih hz))

theorem ctxRight_sub (c : Ctx) (z : Win) (hz : z ∈ ctxRight c) : z ∈ ctxHandles c := by
  induction c with
  | nil => simp [ctxRight] at hz
  | cons fr c ih =>
    cases fr with
    | right v kv chv =>
      simp only [ctxRight] at hz
      simp only [ctxHandles, List.mem_cons, List.mem_append]
      exact Or.inr (Or.inr (ih hz))
    | down P kP restP =>
      simp only [ctxRight, List.mem_append] at hz
      simp only [ctxHandles, List.mem_cons, List.mem_append]
      rcases hz with hz | hz
      · exact Or.inr (Or.inl (leaves_sub_handles _ z hz))
      · exact Or.inr (Or.inr (ih hz))

/-- A leaf of the canonical order sits in the shape as a node of kind leaf
without children. -/
theorem leaf_decompose (s : State) (scr : Scr) (t : Shape) (w : Win) (hrep : Rep s scr t)
    (hw : w ∈ t.leaves) :
    ∃ c rest, t = plug c (Shape.node w Kind.leaf Shape.nil rest)
      ∧ t.leaves = ctxLeft c ++ w :: (rest.leaves ++ ctxRight c) := by
  obtain ⟨c, k, ch, rest, rfl⟩ := exists_plug_of_mem t w (leaves_sub_handles t w hw)
  obtain ⟨-, hnd, -, hlc, hlw, -, -⟩ := (rep_plug_node s scr c w k ch rest).1 hrep
  have hcomb := ctxComb_of_links scr s.windows c (some w) (by simp) hlc
  have hleaves := leaves_plug c (Shape.node w k ch rest) hcomb
  have hk : k = Kind.leaf := by
    by_contra hk
    have e : (Shape.node w k ch rest).leaves = ch.leaves ++ rest.leaves := by
      cases k with
      | leaf => exact absurd rfl hk
      | hcomb => rfl
      | vcomb => rfl
    rw [hleaves, e] at hw
    simp only [List.mem_append] at hw
    have hnd' := List.nodup_append.1 hnd
    have hdis := hnd'.2.2
    have hwn := (List.nodup_cons.1 hnd'.2.1).1
    simp only [List.mem_append, not_or] at hwn
    rcases hw with (hw | hw | hw) | hw
    · exact hdis (ctxLeft_sub c w hw) (List.mem_cons_self _ _)
    · exact hwn.1 (leaves_sub_handles _ w hw)
    · exact hwn.2 (leaves_sub_handles _ w hw)
    · exact hdis (ctxRight_sub c w hw) (List.mem_cons_self _ _)
  subst hk
  have hch : ch = Shape.nil := head_eq_none hlw.2.2.2.2.2.2.2
  subst hch
  refine ⟨c, rest, rfl, ?_⟩
  rw [hleaves]
  simp [Shape.leaves]

theorem next_root_single (E : Ext) (s : State) (scr : Scr) (mini : Mini) (all_screens : Bool)
    (r : Win) (hone : ∀ b, E.next_screen scr b = scr)
    (hr : (s.screens scr).root_window = some r) :
    next_root E s scr mini all_screens = Walk.val r := by
  unfold next_root
  have : (if all_screens = true then E.next_screen scr (decide (mini ≠ Mini.nil)) else scr)
      = scr := by
    split
    · exact hone _
    · rfl
  rw [this, hr]

/-- One pass of the loop of `Fnext_window` from the leaf at position `i` of
the canonical order ends at the leaf at the next position, cyclically. -/
theorem next_pass_index (E : Ext) (s : State) (scr : Scr) (mini : Mini) (all_screens : Bool)
    (t : Shape) (fuel : Nat) (hrep : Rep s scr t) (hone : ∀ b, E.next_screen scr b = scr)
    (hf : t.handles.length < fuel) (i : Nat) (w : Win) (hw : t.leaves[i]? = some w) :
    ∃ y l, next_climb E s mini all_screens fuel w = Walk.val y
      ∧ first_leaf s fuel y = Walk.val l
      ∧ t.leaves[(i + 1) % t.leaves.length]? = some l := by
  have hmem : w ∈ t.leaves := List.getElem?_mem hw
  obtain ⟨c, rest, rfl, hleaves⟩ := leaf_decompose s scr t w hrep hmem
  have hnd : (plug c (Shape.node w Kind.leaf Shape.nil rest)).leaves.Nodup :=
    leaves_nodup _ hrep.2.1
  obtain ⟨r, hr⟩ : ∃ r, (s.screens scr).root_window = some r := by
    rw [hrep.1, head_plug]
    cases c with
    | nil => exact ⟨w, rfl⟩
    | cons f c =>
      obtain ⟨r, -, e⟩ := ctxRoot_mem f c (Shape.node w Kind.leaf Shape.nil rest).head
      exact ⟨r, e⟩
  obtain ⟨y, l, e1, e2, e3⟩ := next_pass E s scr mini all_screens c w rest fuel r hrep
    (next_root_single E s scr mini all_screens r hone hr) hr hf
  refine ⟨y, l, e1, e2, ?_⟩
  rw [hleaves] at hnd hw ⊢
  exact cyclic_succ _ _ w l i hnd hw (by simpa [List.append_assoc] using e3)

theorem next_window_loop_step (E : Ext) (s : State) (mini : Mini) (all_screens : Bool)
    (fuel : Nat) (w y l : Win)
    (e1 : next_climb E s mini all_screens fuel w = Walk.val y)
    (e2 : first_leaf s fuel y = Walk.val l) :
    next_window_loop E s mini all_screens (fuel + 1) w =
      if MINI_WINDOW_P (s.windows l) = true ∧ mini ≠ Mini.t
          ∧ (mini ≠ Mini.nil ∨ s.minibuf_level = 0) then
        match (s.windows l).screen with
        | none => Walk.fault
        | some scr =>
          if (s.screens scr).root_window ≠ (s.screens scr).minibuffer_window then
            next_window_loop E s mini all_screens fuel l
          else Walk.val l
      else Walk.val l := by
  simp only [next_window_loop, e1, e2]
  all_goals rfl

/-- With a policy that accepts the minibuffer window the function
`Fnext_window` returns the cyclic successor in the canonical order of the
leaves. -/
theorem Fnext_window_accepting (E : Ext) (s : State) (scr : Scr) (mini : Mini)
    (all_screens : Bool) (t : Shape) (fuel : Nat) (hrep : Rep s scr t)
    (hone : ∀ b, E.next_screen scr b = scr)
    (hacc : mini = Mini.t ∨ (mini = Mini.nil ∧ s.minibuf_level ≠ 0))
    (hf : t.handles.length + 1 < fuel) (i : Nat) (w : Win) (hw : t.leaves[i]? = some w) :
    ∃ l, Fnext_window E fuel s (some w) mini all_screens = Walk.val l
      ∧ t.leaves[(i + 1) % t.leaves.length]? = some l := by
  cases fuel with
  | zero => omega
  | succ f =>
    have key : ∀ all, ∃ l, next_window_loop E s mini all (f + 1) w = Walk.val l
        ∧ t.leaves[(i + 1) % t.leaves.length]? = some l := by
      intro all
      obtain ⟨y, l, e1, e2, e3⟩ := next_pass_index E s scr mini all t f hrep hone (by omega)
        i w hw
      refine ⟨l, ?_, e3⟩
      rw [next_window_loop_step E s mini all f w y l e1 e2]
      rcases hacc with h | ⟨h1, h2⟩
      · simp [h]
      · simp [h1, h2]
    exact key _

theorem getD_of_getElem? (L : List Win) (j : Nat) (d l : Win) (h : L[j]? = some l) :
    L.getD j d = l := by
  rw [List.getD_eq_getElem?_getD, h]
  rfl

theorem iter_next_t (E : Ext) (s : State) (scr : Scr) (all_screens : Bool)
    (t : Shape) (fuel : Nat) (hrep : Rep s scr t) (hone : ∀ b, E.next_screen scr b = scr)
    (hf : t.handles.length + 1 < fuel) (i : Nat) (w : Win) (hw : t.leaves[i]? = some w) :
    ∀ k, ∃ l, iter_next E fuel s Mini.t all_screens k w = Walk.val l
      ∧ t.leaves[(i + k) % t.leaves.length]? = some l := by
  have hi : i < t.leaves.length := (List.getElem?_eq_some.1 hw).1
  intro k
  induction k with
  | zero =>
    refine ⟨w, rfl, ?_⟩
    rw [Nat.add_zero, Nat.mod_eq_of_lt hi]
    exact hw
  | succ k ih =>
    obtain ⟨l, e1, e2⟩ := ih
    obtain ⟨l', e3, e4⟩ := Fnext_window_accepting E s scr Mini.t all_screens t fuel hrep hone
      (Or.inl rfl) hf _ l e2
    refine ⟨l', ?_, ?_⟩
    · simp only [iter_next, e1]
      exact e3
    · rw [← e4, Nat.mod_add_mod]
      rfl

theorem screen_shape_leaves (R : Win) (k : Kind) (ch : Shape) (M : Win) :
    (screen_shape R k ch M).leaves = canonical_order R k ch M := by
  unfold screen_shape canonical_order
  rw [leaves_node]
  rfl

/-- C6: on a well-formed tree of a single screen, with root window `R` and
minibuffer window `M`, `Fnext_window` with the policy `t` follows the
canonical order (the leaves below `R` depth first, then `M`): from the leaf
`w` at position `i` it returns the leaf at the next position, cyclically; the
order has no duplicates, and `j` calls from `w` lead to the leaf `j` positions
further, so that a round visits every leaf once, the minibuffer window after
the last leaf below `R`, and ends at `w`. -/
theorem Fnext_window_canonical (E : Ext) (s : State) (scr : Scr) (R : Win) (k : Kind)
    (ch : Shape) (M : Win) (fuel : Nat) (all_screens : Bool)
    (hrep : Rep s scr (screen_shape R k ch M))
    (hone : ∀ b, E.next_screen scr b = scr)
    (hfuel : (screen_shape R k ch M).handles.length + 1 < fuel)
    (i : Nat) (w : Win) (hw : (canonical_order R k ch M)[i]? = some w) :
    (canonical_order R k ch M).Nodup
      ∧ Fnext_window E fuel s (some w) Mini.t all_screens =
          Walk.val ((canonical_order R k ch M).getD
            ((i + 1) % (canonical_order R k ch M).length) w)
      ∧ ∀ j, iter_next E fuel s Mini.t all_screens j w =
          Walk.val ((canonical_order R k ch M).getD
            ((i + j) % (canonical_order R k ch M).length) w) := by
  rw [← screen_shape_leaves] at hw ⊢
  refine ⟨leaves_nodup _ hrep.2.1, ?_, fun j => ?_⟩
  · obtain ⟨l, e1, e2⟩ := Fnext_window_accepting E s scr Mini.t all_screens _ fuel hrep hone
      (Or.inl rfl) hfuel i w hw
    rw [e1, getD_of_getElem? _ _ _ _ e2]
  · obtain ⟨l, e1, e2⟩ := iter_next_t E s scr all_screens _ fuel hrep hone hfuel i w hw j
    rw [e1, getD_of_getElem? _ _ _ _ e2]

/-- Witness of `Fnext_window_canonical`: the leaf 3 of `state6`, the last
leaf below the root window, whose successor is the minibuffer window 1. -/
theorem Fnext_window_canonical_witness :
    Rep state6 0 (screen_shape 2 Kind.vcomb chain43 1)
      ∧ canonical_order 2 Kind.vcomb chain43 1 = [0, 5, 3, 1]
      ∧ Fnext_window ext1 8 state6 (some 3) Mini.t false = Walk.val 1
      ∧ ((canonical_order 2 Kind.vcomb chain43 1).Nodup
        ∧ Fnext_window ext1 8 state6 (some 3) Mini.t false =
            Walk.val ((canonical_order 2 Kind.vcomb chain43 1).getD
              ((2 + 1) % (canonical_order 2 Kind.vcomb chain43 1).length) 3)
        ∧ ∀ j, iter_next ext1 8 state6 Mini.t false j 3 =
            Walk.val ((canonical_order 2 Kind.vcomb chain43 1).getD
              ((2 + j) % (canonical_order 2 Kind.vcomb chain43 1).length) 3)) :=
  ⟨by decide!, by decide!, by decide!,
    Fnext_window_canonical ext1 state6 0 2 Kind.vcomb chain43 1 8 false (by decide!)
      (fun _ => rfl) (by decide) 2 3 (by decide!)⟩

theorem rep_screen (s : State) (scr : Scr) (t : Shape) (x : Win) (hrep : Rep s scr t)
    (hx : x ∈ t.handles) : (s.windows x).screen = some scr := by
  obtain ⟨c, k, ch, rest, rfl⟩ := exists_plug_of_mem t x hx
  exact (rep_distinct s scr c x k ch rest hrep).1

theorem root_leaves_ne_nil (s : State) (scr : Scr) (R : Win) (k : Kind) (ch rest : Shape)
    (hrep : Rep s scr (Shape.node R k ch rest)) :
    ∃ a tl, (Shape.node R k ch Shape.nil).leaves = a :: tl := by
  obtain ⟨l, tl, -, e⟩ := first_leaf_spec s scr (Shape.node R k ch rest) none none
    ((Shape.node R k ch rest).handles.length + 1) hrep.2.2.2 (by omega) R k ch rest rfl
  exact ⟨l, tl, e⟩

/-- With a policy that rejects the minibuffer window, on a screen whose root
window is not its minibuffer window, `Fnext_window` returns a window that is
not a minibuffer window. -/
theorem Fnext_window_rejecting (E : Ext) (s : State) (scr : Scr) (mini : Mini)
    (all_screens : Bool) (R : Win) (k : Kind) (ch : Shape) (M : Win) (fuel : Nat)
    (hrep : Rep s scr (screen_shape R k ch M)) (hone : ∀ b, E.next_screen scr b = scr)
    (hroot : (s.screens scr).root_window ≠ (s.screens scr).minibuffer_window)
    (hord : ∀ x ∈ (Shape.node R k ch Shape.nil).leaves, MINI_WINDOW_P (s.windows x) = false)
    (hrej : (mini = Mini.nil ∧ s.minibuf_level = 0) ∨ mini = Mini.other)
    (hf : (screen_shape R k ch M).handles.length + 2 < fuel) (w : Win)
    (hw : w ∈ canonical_order R k ch M) :
    ∃ l, Fnext_window E fuel s (some w) mini all_screens = Walk.val l
      ∧ MINI_WINDOW_P (s.windows l) = false := by
  obtain ⟨a, tl, hA⟩ := root_leaves_ne_nil s scr R k ch _ hrep
  have hL : (screen_shape R k ch M).leaves = (a :: tl) ++ [M] := by
    rw [screen_shape_leaves, canonical_order, hA]
  have hnd := leaves_nodup _ hrep.2.1
  rw [← screen_shape_leaves] at hw
  obtain ⟨i, hi⟩ := List.getElem?_of_mem hw
  have hpol : mini ≠ Mini.t ∧ (mini ≠ Mini.nil ∨ s.minibuf_level = 0) := by
    rcases hrej with ⟨h1, h2⟩ | h
    · subst h1; exact ⟨by simp, Or.inr h2⟩
    · subst h; exact ⟨by simp, Or.inl (by simp)⟩
  match fuel, hf with
  | f + 2, hf =>
    have key : ∀ all, ∃ l, next_window_loop E s mini all (f + 2) w = Walk.val l
        ∧ MINI_WINDOW_P (s.windows l) = false := by
      intro all
      obtain ⟨y1, l1, e1, e2, e3⟩ := next_pass_index E s scr mini all _ (f + 1) hrep hone
        (by omega) i w hi
      rw [next_window_loop_step E s mini all (f + 1) w y1 l1 e1 e2]
      by_cases hm : MINI_WINDOW_P (s.windows l1) = true
      · have hl1 : l1 ∈ (screen_shape R k ch M).leaves := List.getElem?_mem e3
        rw [if_pos ⟨hm, hpol⟩, rep_screen s scr _ l1 hrep (leaves_sub_handles _ _ hl1)]
        simp only [hroot, ne_eq, not_false_eq_true, if_true]
        obtain ⟨y2, l2, e4, e5, e6⟩ := next_pass_index E s scr mini all _ f hrep hone
          (by omega) _ l1 e3
        rw [next_window_loop_step E s mini all f l1 y2 l2 e4 e5]
        have hl2 : l2 = a := by
          rw [hL] at e3 e6
          have hj : (i + 1) % ((a :: tl) ++ [M]).length = tl.length + 1 := by
            have hlt : (i + 1) % ((a :: tl) ++ [M]).length < ((a :: tl) ++ [M]).length :=
              (List.getElem?_eq_some.1 e3).1
            by_contra hne
            have hlt' : (i + 1) % ((a :: tl) ++ [M]).length < (a :: tl).length := by
              simp only [List.length_append, List.length_cons, List.length_nil] at hlt hne ⊢
              omega
            rw [List.getElem?_append_left hlt'] at e3
            have hmem : l1 ∈ (Shape.node R k ch Shape.nil).leaves := by
              rw [hA]; exact List.getElem?_mem e3
            rw [hord l1 hmem] at hm
            exact absurd hm (by simp)
          rw [hj] at e6
          have h0 : (tl.length + 1 + 1) % ((a :: tl) ++ [M]).length = 0 := by
            simp only [List.length_append, List.length_cons, List.length_nil]
            exact Nat.mod_self _
          rw [h0] at e6
          simpa using e6.symm
        subst hl2
        have : MINI_WINDOW_P (s.windows l2) = false := hord l2 (by rw [hA]; simp)
        exact ⟨l2, by simp [this], this⟩
      · have hm' : MINI_WINDOW_P (s.windows l1) = false := by
          simpa using hm
        exact ⟨l1, by simp [hm'], hm'⟩
    exact key _

/-- The minibuffer policy of `Fnext_window` in a session in which the next
screen of the screen is the screen itself. -/
theorem Fnext_window_policy_single (E : Ext) (s : State) (scr : Scr) (mini : Mini)
    (all_screens : Bool) (R : Win) (k : Kind) (ch : Shape) (M : Win) (fuel : Nat)
    (hrep : Rep s scr (screen_shape R k ch M)) (hone : ∀ b, E.next_screen scr b = scr)
    (hroot : (s.screens scr).root_window ≠ (s.screens scr).minibuffer_window)
    (hord : ∀ x ∈ (Shape.node R k ch Shape.nil).leaves, MINI_WINDOW_P (s.windows x) = false)
    (hfuel : (screen_shape R k ch M).handles.length + 2 < fuel) :
    (((mini = Mini.nil ∧ s.minibuf_level = 0) ∨ mini = Mini.other) →
        ∀ w ∈ canonical_order R k ch M,
          ∃ l, Fnext_window E fuel s (some w) mini all_screens = Walk.val l
            ∧ MINI_WINDOW_P (s.windows l) = false)
      ∧ (((mini = Mini.nil ∧ 0 < s.minibuf_level) ∨ mini = Mini.t) →
        ∀ w, (Shape.node R k ch Shape.nil).leaves.getLast? = some w →
          Fnext_window E fuel s (some w) mini all_screens = Walk.val M) := by
  constructor
  · intro hrej w hw
    exact Fnext_window_rejecting E s scr mini all_screens R k ch M fuel hrep hone hroot hord
      hrej hfuel w hw
  · intro hacc w hw
    have hacc' : mini = Mini.t ∨ (mini = Mini.nil ∧ s.minibuf_level ≠ 0) := by
      rcases hacc with ⟨h1, h2⟩ | h
      · exact Or.inr ⟨h1, by omega⟩
      · exact Or.inl h
    generalize hA : (Shape.node R k ch Shape.nil).leaves = A at hw
    have hL : (screen_shape R k ch M).leaves = A ++ [M] := by
      rw [screen_shape_leaves, canonical_order, hA]
    obtain ⟨A', rfl⟩ : ∃ A', A = A' ++ [w] := by
      rw [List.getLast?_eq_some_iff] at hw
      exact hw
    have hi : (screen_shape R k ch M).leaves[A'.length]? = some w := by
      rw [hL, List.append_assoc, List.getElem?_append_right (le_refl _)]
      simp
    obtain ⟨l, e1, e2⟩ := Fnext_window_accepting E s scr mini all_screens _ fuel hrep hone
      hacc' (by omega) A'.length w hi
    rw [e1]
    congr 1
    rw [hL] at e2
    have hn : (A'.length + 1) % (A' ++ [w] ++ [M]).length = A'.length + 1 := by
      apply Nat.mod_eq_of_lt
      simp only [List.length_append, List.length_cons, List.length_nil]
      omega
    rw [hn, List.getElem?_append_right (by simp)] at e2
    simpa using e2.symm

/-- Without `all_screens` the climbing loop of `Fnext_window` does not ask for
the next screen. -/
theorem next_climb_same_screen (E E' : Ext) (s : State) (mini : Mini) :
    ∀ (fuel : Nat) (w : Win),
      next_climb E s mini false fuel w = next_climb E' s mini false fuel w := by
  intro fuel
  induction fuel with
  | zero => intro w; rfl
  | succ n ih =>
    intro w
    simp only [next_climb, Bool.false_eq_true, if_false]
    rw [show (fun tem => next_climb E s mini false n tem)
      = fun tem => next_climb E' s mini false n tem from funext ih]

/-- Without `all_screens` the loop of `Fnext_window` does not ask for the next
screen. -/
theorem next_window_loop_same_screen (E E' : Ext) (s : State) (mini : Mini) :
    ∀ (fuel : Nat) (w : Win),
      next_window_loop E s mini false fuel w = next_window_loop E' s mini false fuel w := by
  intro fuel
  induction fuel with
  | zero => intro w; rfl
  | succ n ih =>
    intro w
    simp only [next_window_loop, next_climb_same_screen E E' s mini n w, ih]

/-- When `all_screens` is `nil` and no global minibuffer screen is in use,
`Fnext_window` does not ask for the next screen. -/
theorem Fnext_window_same_screen (E E' : Ext) (fuel : Nat) (s : State) (window : Option Win)
    (mini : Mini) (hg : s.global_minibuffer_screen.isSome = false) :
    Fnext_window E fuel s window mini false = Fnext_window E' fuel s window mini false := by
  simp only [Fnext_window, hg, Bool.false_eq_true, and_false, if_false]
  exact next_window_loop_same_screen E E' s mini fuel _

/-- C8, amended: the minibuffer policy of `Fnext_window` on a well-formed tree
of a screen `scr` whose root window is not its minibuffer window, with root
window `R` and minibuffer window `M`, where no leaf below `R` is a minibuffer
window, when the walk stays on the screen: `all_screens` is `nil` and no
global minibuffer screen is in use, or the next screen of `scr` is `scr`
itself.  With more units of fuel than the tree has windows plus 2: with the
policy `nil` while `minibuf_level` is 0, and with a policy other than `nil`
and `t` whatever `minibuf_level` is, the call from any leaf returns a window
that is not a minibuffer window; with the policy `nil` while `minibuf_level`
is positive, and with the policy `t`, the call from the last leaf below `R`
returns `M`. -/
theorem Fnext_window_minibuffer_policy (E : Ext) (s : State) (scr : Scr) (mini : Mini)
    (all_screens : Bool) (R : Win) (k : Kind) (ch : Shape) (M : Win) (fuel : Nat)
    (hrep : Rep s scr (screen_shape R k ch M))
    (hone : all_screens = true ∨ s.global_minibuffer_screen.isSome = true →
      ∀ b, E.next_screen scr b = scr)
    (hroot : (s.screens scr).root_window ≠ (s.screens scr).minibuffer_window)
    (hord : ∀ x ∈ (Shape.node R k ch Shape.nil).leaves, MINI_WINDOW_P (s.windows x) = false)
    (hfuel : (screen_shape R k ch M).handles.length + 2 < fuel) :
    (((mini = Mini.nil ∧ s.minibuf_level = 0) ∨ mini = Mini.other) →
        ∀ w ∈ canonical_order R k ch M,
          ∃ l, Fnext_window E fuel s (some w) mini all_screens = Walk.val l
            ∧ MINI_WINDOW_P (s.windows l) = false)
      ∧ (((mini = Mini.nil ∧ 0 < s.minibuf_level) ∨ mini = Mini.t) →
        ∀ w, (Shape.node R k ch Shape.nil).leaves.getLast? = some w →
          Fnext_window E fuel s (some w) mini all_screens = Walk.val M) := by
  by_cases hc : all_screens = true ∨ s.global_minibuffer_screen.isSome = true
  · exact Fnext_window_policy_single E s scr mini all_screens R k ch M fuel hrep (hone hc)
      hroot hord hfuel
  · simp only [not_or, Bool.not_eq_true] at hc
    obtain ⟨ha, hg⟩ := hc
    subst ha
    have h := Fnext_window_policy_single { E with next_screen := fun c _ => c } s scr mini
      false R k ch M fuel hrep (fun _ => rfl) hroot hord hfuel
    simp only [Fnext_window_same_screen E { E with next_screen := fun c _ => c } fuel s _ mini
      hg]
    exact h

/-- Witness of `Fnext_window_minibuffer_policy`: `state6` with the policy
`nil`, while no minibuffer is active, in a session with a second screen that
the walk does not visit. -/
theorem Fnext_window_minibuffer_policy_witness :
    Rep state6 0 (screen_shape 2 Kind.vcomb chain43 1)
      ∧ ext2.next_screen 0 false = 1
      ∧ Fnext_window ext2 9 state6 (some 3) Mini.nil false = Walk.val 0
      ∧ ((((Mini.nil = Mini.nil ∧ state6.minibuf_level = 0) ∨ Mini.nil = Mini.other) →
          ∀ w ∈ canonical_order 2 Kind.vcomb chain43 1,
            ∃ l, Fnext_window ext2 9 state6 (some w) Mini.nil false = Walk.val l
              ∧ MINI_WINDOW_P (state6.windows l) = false)
        ∧ (((Mini.nil = Mini.nil ∧ 0 < state6.minibuf_level) ∨ Mini.nil = Mini.t) →
          ∀ w, (Shape.node 2 Kind.vcomb chain43 Shape.nil).leaves.getLast? = some w →
            Fnext_window ext2 9 state6 (some w) Mini.nil false = Walk.val 1)) :=
  ⟨by decide!, by decide!, by decide!,
    Fnext_window_minibuffer_policy ext2 state6 0 Mini.nil false 2 Kind.vcomb chain43 1 9
      (by decide!) (fun h => absurd h (by decide)) (by decide!) (by decide!) (by decide)⟩

/-- Counterexample to C8 with `all_screens` set: `state2x` has the screen 0,
whose root window 0 is not its minibuffer window 1, and the screen 1, whose
only window is the minibuffer window 2; the next screen of screen 0 is the
screen 1.  With a policy other than `nil` and `t` and with `all_screens`,
`Fnext_window` from the leaf 0 skips the minibuffer window 1, goes on to the
screen 1 and returns its minibuffer window 2, at which the loop ends because
it is the root window of its screen. -/
theorem Fnext_window_other_screen :
    (Rep state2x 0 (screen_shape 0 Kind.leaf Shape.nil 1)
      ∧ (state2x.screens 0).root_window ≠ (state2x.screens 0).minibuffer_window
      ∧ MINI_WINDOW_P (state2x.windows 0) = false
      ∧ (state2x.windows 0).screen = some 0
      ∧ ext2.next_screen 0 true = 1
      ∧ (state2x.screens 1).root_window = some 2
      ∧ (state2x.screens 1).minibuffer_window = some 2)
    ∧ Fnext_window ext2 9 state2x (some 0) Mini.other true = Walk.val 2
    ∧ MINI_WINDOW_P (state2x.windows 2) = true := by
  decide!

/-- C7, the divergence: in `state6` (the leaves 0, 5, 3 below the root
window, then the minibuffer window 1) with the policy `t`,
`Fprevious_window` of the first leaf 0 is the leaf 3, the last leaf below the
root window, not the minibuffer window, while `Fnext_window` of 3 is the
minibuffer window 1; so the next window of the previous window of 0 is 1, and
the previous window of the next window of 1 is 3.  With the policy `nil` the
previous window of the minibuffer window 1 is 3 and the next window of 3
is 0. -/
theorem next_previous_not_inverse :
    Fprevious_window ext1 8 state6 (some 0) Mini.t false = Walk.val 3
      ∧ Fnext_window ext1 8 state6 (some 3) Mini.t false = Walk.val 1
      ∧ Fnext_window ext1 8 state6 (some 1) Mini.t false = Walk.val 0
      ∧ Fprevious_window ext1 8 state6 (some 1) Mini.nil false = Walk.val 3
      ∧ Fnext_window ext1 8 state6 (some 3) Mini.nil false = Walk.val 0 := by
  decide!

/-- The body of `Fdelete_window` in terms of its phases. -/
theorem Fdelete_window_succ (E : Ext) (fuel : Nat) (s : State) (window : Win) :
    Fdelete_window E (fuel + 1) s (some window) =
      match (s.windows window).parent with
      | none => Res.signal Err.delete_minibuffer_or_sole s
      | some parent =>
        (delete_begin E fuel s window).andThen fun _ s3 =>
        (delete_sibling (delete_unlink s3 window parent) window).andThen fun sib s8 =>
        (if (s8.windows parent).vchild ≠ none then
            set_window_height E fuel s8 sib
              ((s8.windows sib).height + (s8.windows window).height) true
          else Res.ok () s8).andThen fun _ s9 =>
        (if (s9.windows parent).hchild ≠ none then
            set_window_width E fuel s9 sib
              ((s9.windows sib).width + (s9.windows window).width) true
          else Res.ok () s9).andThen fun _ s10 =>
        delete_collapse s10 parent := by
  simp only [Fdelete_window, Option.getD_some]

theorem SameTree.refl (s : State) : SameTree s s := ⟨rfl, fun _ => rfl, fun _ => rfl⟩

theorem SameTree.trans {s s1 s2 : State} (h1 : SameTree s s1) (h2 : SameTree s1 s2) :
    SameTree s s2 :=
  ⟨h2.1.trans h1.1, fun c => (h2.2.1 c).trans (h1.2.1 c), fun x => (h2.2.2 x).trans (h1.2.2 x)⟩

theorem sameTree_setw (s : State) (x : Win) (w : Window) (h : w.core = (s.windows x).core) :
    SameTree s (setw s x w) := by
  refine ⟨rfl, fun _ => rfl, fun y => ?_⟩
  by_cases hy : y = x
  · subst hy; simp [h]
  · simp [hy]

theorem sameTree_sets (s : State) (c : Scr) (sc : Screen)
    (h : sc.root_window = (s.screens c).root_window) : SameTree s (sets s c sc) := by
  refine ⟨rfl, fun d => ?_, fun _ => rfl⟩
  by_cases hd : d = c
  · subst hd; simp [sets, h]
  · simp [sets, hd]

theorem sameTree_setb (s : State) (b : Buf) (bf : Buffer) : SameTree s (setb s b bf) :=
  ⟨rfl, fun _ => rfl, fun _ => rfl⟩

theorem unshow_buffer_sameTree (s : State) (w : Win) :
    (unshow_buffer s w).Sat fun _ s' => SameTree s s' := by
  unfold unshow_buffer
  split
  · split
    · trivial
    · simp only
      split
      · split
        · trivial
        · split
          · trivial
          · simp only [Res.andThen]
            split
            · exact (sameTree_setb _ _ _).trans (sameTree_setb _ _ _)
            · exact sameTree_setb _ _ _
      · simp only [Res.andThen]
        split
        · exact sameTree_setb _ _ _
        · exact SameTree.refl _
  · trivial

theorem select_stamp_sameTree (s : State) (window : Win) :
    SameTree s (select_stamp s window) :=
  SameTree.trans
    (show SameTree s { s with window_select_count := s.window_select_count + 1 } from
      ⟨rfl, fun _ => rfl, fun _ => rfl⟩)
    (sameTree_setw { s with window_select_count := s.window_select_count + 1 } window
      { s.windows window with use_time := s.window_select_count + 1 } rfl)

theorem select_switch_sameTree (s1 : State) (ow : Win) (ob : Buf) (window : Win) :
    SameTree s1 (select_switch s1 ow ob window) :=
  SameTree.trans
    (sameTree_setw s1 ow { s1.windows ow with
      pointm := set_marker (s1.windows ow).pointm (s1.buffers ob).pt ob } rfl)
    ⟨rfl, fun _ => rfl, fun _ => rfl⟩

theorem select_on_screen_sameTree (E : Ext) (hE : ∀ s c, SameTree s (E.Fselect_screen s c))
    (s3 : State) (window : Win) (wscr : Scr) :
    SameTree s3 (select_on_screen E s3 window wscr) := by
  unfold select_on_screen
  split
  · exact (sameTree_sets s3 wscr { s3.screens wscr with selected_window := some window }
      rfl).trans (hE _ _)
  · exact sameTree_sets s3 s3.selected_screen
      { s3.screens s3.selected_screen with selected_window := some window } rfl

theorem select_point_sameTree (s4 : State) (b : Buf) (p : Int) :
    SameTree s4 (select_point s4 b p) := by
  unfold select_point
  refine ⟨?_, fun c => ?_, fun x => ?_⟩ <;> simp only [] <;> split <;> split <;> rfl

theorem Fselect_window_sameTree (E : Ext) (hE : ∀ s c, SameTree s (E.Fselect_screen s c))
    (s : State) (window : Win) :
    (Fselect_window E s window).Sat fun _ s' => SameTree s s' := by
  unfold Fselect_window
  simp only []
  have h1 := select_stamp_sameTree s window
  split
  · trivial
  split
  · exact h1
  split
  · next ob _ _ _ =>
    have h3 := h1.trans (select_switch_sameTree (select_stamp s window) s.selected_window ob
      window)
    split
    · trivial
    · next wscr _ =>
      have h4 := h3.trans (select_on_screen_sameTree E hE _ window wscr)
      split
      · next b pm _ _ =>
        split
        · trivial
        split
        · trivial
        · exact h4.trans (select_point_sameTree _ b pm.charpos)
      · trivial
      · trivial
  · trivial
  · trivial

theorem SameTree.but {s s' : State} (h : SameTree s s') (w : Win) : SameTreeBut s w s' :=
  ⟨h.1, h.2.1, fun x _ => h.2.2 x, by rw [h.2.2 w]⟩

theorem Res.sat_ofWalk {α : Type} (r : Walk α) (s : State) (P : α → State → Prop)
    (h : ∀ a, P a s) : (Res.ofWalk r s).Sat P := by
  cases r with
  | val a => exact h a
  | fault => trivial
  | nofuel => trivial

theorem Res.Sat.bind {α β : Type} {r : Res α} {f : α → State → Res β}
    {P : α → State → Prop} {Q : β → State → Prop}
    (h : r.Sat P) (hf : ∀ a s, P a s → (f a s).Sat Q) : (r.andThen f).Sat Q := by
  cases r <;> simp_all

theorem delete_begin_post (E : Ext) (hE : ∀ s c, SameTree s (E.Fselect_screen s c))
    (fuel : Nat) (s : State) (w : Win) :
    (delete_begin E fuel s w).Sat fun _ s3 => SameTreeBut s w s3 := by
  unfold delete_begin
  have h1 : SameTree s { s with windows_or_buffers_changed := s.windows_or_buffers_changed + 1 } :=
    ⟨rfl, fun _ => rfl, fun _ => rfl⟩
  refine Res.Sat.bind (P := fun _ s2 => SameTree s s2) ?_ ?_
  · split
    · refine Res.Sat.bind (P := fun _ s2 => SameTree s s2) ?_ ?_
      · exact Res.sat_ofWalk _ _ _ (fun _ => h1)
      · intro nw s2 h2
        refine Res.Sat.bind (P := fun _ s2 => SameTree s s2) ?_ (fun _ _ h => h)
        exact (Fselect_window_sameTree E hE s2 nw).mono (fun _ _ h => h2.trans h)
    · exact h1
  · intro _ s2 h2
    split
    · refine Res.Sat.bind (P := fun _ s2 => SameTree s s2) ?_ ?_
      · exact (unshow_buffer_sameTree s2 w).mono (fun _ _ h => h2.trans h)
      · intro _ s2' h2'
        split
        · refine ⟨h2'.1, h2'.2.1, fun x hx => ?_, ?_⟩
          · rw [← h2'.2.2 x]
            simp [hx]
          · rw [← h2'.2.2 w]
            simp [Window.core]
        · trivial
    · exact h2.but w

/-- What `delete_unlink` and `delete_sibling` do to the store. -/
theorem delete_unlink_post (s : State) (w P : Win) (hP : (s.windows w).parent = some P)
    (hPw : P ≠ w)
    (hnx : ∀ y, (s.windows w).next = some y → y ≠ w ∧ y ≠ P ∧ (s.windows w).prev ≠ some y)
    (hpv : ∀ y, (s.windows w).prev = some y → y ≠ w ∧ y ≠ P) :
    (delete_sibling (delete_unlink s w P) w).Out
      (fun sib s8 => s8.nalloc = s.nalloc ∧ s8.screens = s.screens
        ∧ s8.windows w = s.windows w
        ∧ (∀ x, x ≠ w → s8.windows x = unlinked s w x)
        ∧ some sib = (match (s.windows w).prev with
            | some v => some v
            | none => (s.windows w).next))
      ((s.windows w).prev = none ∧ (s.windows w).next = none) False := by
  have hc1 : ∀ o : Option Win, (some w = o) = (o = some w) := fun o =>
    propext ⟨Eq.symm, Eq.symm⟩
  rcases hn : (s.windows w).next with _ | n <;> rcases hv : (s.windows w).prev with _ | v
  · simp [delete_sibling, delete_unlink, hn, hv, apply_ite State.windows, ite_apply, hPw.symm]
  · obtain ⟨hvw, hvP⟩ := hpv v hv
    by_cases hh : (s.windows P).hchild = some w <;>
      by_cases hvv : (s.windows P).vchild = some w <;>
      simp [delete_sibling, delete_unlink, hn, hv, apply_ite State.windows, ite_apply,
        hPw.symm, hPw, hvw, hvw.symm, hvP, hvP.symm, hh, hvv, hc1] <;>
      (intro x hx
       rcases eq_or_ne x v with hxv | hxv
       · subst hxv
         simp_all [unlinked]
       · rcases eq_or_ne x P with hxP | hxP
         · subst hxP
           have := hxv.symm
           simp_all [unlinked]
         · have := hxv.symm
           have := hxP.symm
           simp_all [unlinked])
  · obtain ⟨hnw, hnP, -⟩ := hnx n hn
    by_cases hh : (s.windows P).hchild = some w <;>
      by_cases hvv : (s.windows P).vchild = some w <;>
      simp [delete_sibling, delete_unlink, hn, hv, apply_ite State.windows, ite_apply,
        hPw.symm, hPw, hnw, hnw.symm, hnP, hnP.symm, hh, hvv, hc1] <;>
      (intro x hx
       rcases eq_or_ne x n with hxn | hxn
       · subst hxn
         simp_all [unlinked]
       · rcases eq_or_ne x P with hxP | hxP
         · subst hxP
           have := hxn.symm
           simp_all [unlinked]
         · have := hxn.symm
           have := hxP.symm
           simp_all [unlinked])
  · obtain ⟨hnw, hnP, hnv⟩ := hnx n hn
    obtain ⟨hvw, hvP⟩ := hpv v hv
    have hnv' : n ≠ v := fun e => hnv (by rw [hv, e])
    by_cases hh : (s.windows P).hchild = some w <;>
      by_cases hvv : (s.windows P).vchild = some w <;>
      simp [delete_sibling, delete_unlink, hn, hv, apply_ite State.windows, ite_apply,
        hPw.symm, hPw, hnw, hnw.symm, hnP, hnP.symm, hvw, hvw.symm, hvP, hvP.symm,
        hnv', hnv'.symm, hh, hvv, hc1] <;>
      (intro x hx
       rcases eq_or_ne x n with hxn | hxn
       · subst hxn
         simp_all [unlinked]
       · rcases eq_or_ne x v with hxv | hxv
         · subst hxv
           have := hxn.symm
           simp_all [unlinked]
         · rcases eq_or_ne x P with hxP | hxP
           · subst hxP
             have := hxn.symm
             have := hxv.symm
             simp_all [unlinked]
           · have := hxn.symm
             have := hxv.symm
             have := hxP.symm
             simp_all [unlinked])

theorem LinkOK.of_links {scr : Scr} {h h' : Win → Window} {i : NodeInfo}
    (e : (h' i.w).links = (h i.w).links) (hl : LinkOK scr h i) : LinkOK scr h' i := by
  have e1 := congrArg Window.parent e
  have e2 := congrArg Window.prev e
  have e3 := congrArg Window.next e
  have e4 := congrArg Window.screen e
  have e5 := congrArg Window.hchild e
  have e6 := congrArg Window.vchild e
  have e7 := congrArg Window.buffer e
  simp only [Window.links, Window.core] at e1 e2 e3 e4 e5 e6 e7
  unfold LinkOK at *
  rw [e1, e2, e3, e4, e5, e6, e7]
  exact hl

theorem unlinked_other (s : State) (w x : Win) (h1 : (s.windows w).next ≠ some x)
    (h2 : (s.windows w).prev ≠ some x)
    (h3 : (s.windows w).parent = some x → (s.windows x).hchild ≠ some w
      ∧ (s.windows x).vchild ≠ some w) :
    unlinked s w x = s.windows x := by
  unfold unlinked
  rw [if_neg h1, if_neg h2]
  split
  · next hp =>
    obtain ⟨a, b⟩ := h3 hp
    simp [a, b]
  · rfl

theorem LinkOK.of_window {scr : Scr} {h' : Win → Window} {i : NodeInfo} (W : Window)
    (e : (h' i.w).links = W.links) (hW : LinkOK scr (fun _ => W) i) : LinkOK scr h' i := by
  have : LinkOK scr (fun x => if x = i.w then h' i.w else W) i :=
    LinkOK.of_links (h := fun _ => W) (by simp [e]) hW
  exact LinkOK.congr (h := fun x => if x = i.w then h' i.w else W) (by simp) this

theorem hprev_eq_win (f : Frame) (c0 : Ctx) (v : Win) (h : hprev (f :: c0) = some v) :
    v = f.win := by
  cases f with
  | right w k ch => simp only [hprev, Option.some.injEq] at h; exact h.symm
  | down w k rest => simp [hprev] at h

theorem ctxHandles_cons (f : Frame) (c0 : Ctx) :
    ∃ l, ctxHandles (f :: c0) = f.win :: l ∧ (ctxHandles (f :: c0)).tail = l := by
  cases f <;> exact ⟨_, rfl, rfl⟩

/-- After the deleted window `w` has been taken out of its chain the store
represents the shape without the subtree of `w`. -/
theorem rep_unlink (s s8 : State) (scr : Scr) (f : Frame) (c0 : Ctx) (w : Win) (k : Kind)
    (ch rest : Shape)
    (hrep : Rep s scr (plug (f :: c0) (Shape.node w k ch rest)))
    (hna : s8.nalloc = s.nalloc)
    (hroot : (s8.screens scr).root_window = (s.screens scr).root_window)
    (hkeep : hprev (f :: c0) = none → rest ≠ Shape.nil)
    (hoth : ∀ x ∈ ctxHandles (f :: c0) ++ rest.handles,
      (s8.windows x).links = (unlinked s w x).links) :
    Rep s8 scr (plug (f :: c0) rest) := by
  obtain ⟨hroot0, hnd, hlt, hlc, hlw, -, hlr⟩ :=
    (rep_plug_node s scr (f :: c0) w k ch rest).1 hrep
  obtain ⟨hwp, hwv, hwn, -, -⟩ := hlw
  simp only at hwp hwv hwn
  have hnd1 := List.nodup_append.1 hnd
  have hndc : (ctxHandles (f :: c0)).Nodup := hnd1.1
  have hdis : ∀ a, a ∈ ctxHandles (f :: c0) → a ∈ w :: (ch.handles ++ rest.handles) → False :=
    fun a h1 h2 => hnd1.2.2 h1 h2
  have hnd2 := List.nodup_cons.1 hnd1.2.1
  have hwr : w ∉ rest.handles := fun h => hnd2.1 (List.mem_append_right _ h)
  have hndr : rest.handles.Nodup := (List.nodup_append.1 hnd2.2).2.1
  have hwc : w ∉ ctxHandles (f :: c0) := fun h => hdis w h (List.mem_cons_self _ _)
  have hcr : ∀ a, a ∈ ctxHandles (f :: c0) → a ∉ rest.handles := fun a h1 h2 =>
    hdis a h1 (List.mem_cons_of_mem _ (List.mem_append_right _ h2))
  have hnxr : ∀ y, (s.windows w).next = some y → y ∈ rest.handles := fun y hy =>
    head_mem_handles rest y (hwn.symm.trans hy)
  have hpvc : ∀ y, (s.windows w).prev = some y → y = f.win := fun y hy =>
    hprev_eq_win f c0 y (hwv.symm.trans hy)
  have hpac : ∀ y, (s.windows w).parent = some y → y ∈ ctxHandles (f :: c0) := by
    intro y hy
    rw [hwp] at hy
    rcases hp : hpar (f :: c0) with _ | ⟨kP, P⟩
    · rw [hp] at hy; simp at hy
    · rw [hp] at hy
      simp only [Option.map_some', Option.some.injEq] at hy
      subst hy
      exact hpar_mem _ _ _ hp
  obtain ⟨tl, htl, htl'⟩ := ctxHandles_cons f c0
  have hfw : f.win ∉ tl := by
    rw [htl] at hndc
    exact (List.nodup_cons.1 hndc).1
  rw [rep_plug]
  refine ⟨?_, ?_, ?_, ?_, ?_⟩
  · rw [hroot, hroot0]
    rfl
  · exact List.nodup_append.2 ⟨hndc, hndr, fun a h1 h2 => hcr a h1 h2⟩
  · intro x hx
    rw [hna]
    refine hlt x ?_
    simp only [List.mem_append, List.mem_cons] at hx ⊢
    rcases hx with hx | hx
    · exact Or.inl hx
    · exact Or.inr (Or.inr (Or.inr hx))
  · intro i hi
    rw [ctxInfos_eq, List.mem_append] at hi
    rcases hi with hi | hi
    · cases f with
      | right v kv chv =>
        simp only [ctxSpine, List.mem_singleton] at hi
        subst hi
        have hold := hlc ⟨v, kv, hpar c0, hprev c0, some w, chv.head⟩ (by simp [ctxInfos])
        have hwv' : (s.windows w).prev = some v := hwv
        have hnv : (s.windows w).next ≠ some v := fun h =>
          hcr v (by simp [ctxHandles]) (hnxr v h)
        refine LinkOK.of_window { s.windows v with next := (s.windows w).next } ?_ ?_
        · rw [hoth v (by simp [ctxHandles])]
          simp [unlinked, hnv, hwv']
        · obtain ⟨h1, h2, h3, h4, h5⟩ := hold
          exact ⟨h1, h2, hwn, h4, h5⟩
      | down P kP restP =>
        simp only [ctxSpine, List.mem_singleton] at hi
        subst hi
        have hold := hlc ⟨P, kP, hpar c0, hprev c0, restP.head, some w⟩ (by simp [ctxInfos])
        have hwp' : (s.windows w).parent = some P := hwp
        have hwv' : (s.windows w).prev = none := hwv
        have hnP : (s.windows w).next ≠ some P := fun h =>
          hcr P (by simp [ctxHandles]) (hnxr P h)
        have hne : rest.head ≠ none := fun h => hkeep rfl (head_eq_none h)
        refine LinkOK.of_window { s.windows P with
            hchild := if (s.windows P).hchild = some w then (s.windows w).next
              else (s.windows P).hchild,
            vchild := if (s.windows P).vchild = some w then (s.windows w).next
              else (s.windows P).vchild } ?_ ?_
        · rw [hoth P (by simp [ctxHandles])]
          simp [unlinked, hnP, hwv', hwp']
        · obtain ⟨h1, h2, h3, h4, h5⟩ := hold
          refine ⟨h1, h2, h3, h4, ?_⟩
          cases kP with
          | leaf => simp at h5
          | hcomb =>
            simp only at h5 ⊢
            simp [h5.1, h5.2.2.1, h5.2.2.2, hwn, hne]
          | vcomb =>
            simp only at h5 ⊢
            simp [h5.1, h5.2.2.1, h5.2.2.2, hwn, hne]
    · have hold : LinkOK scr s.windows i :=
        hlc i (by rw [ctxInfos_eq]; exact List.mem_append_right _ hi)
      obtain ⟨hiw, -, hic⟩ := ctxTail_fields f c0 i hi
      rw [htl'] at hiw
      have hiwc : i.w ∈ ctxHandles (f :: c0) := by
        rw [htl]; exact List.mem_cons_of_mem _ hiw
      refine LinkOK.of_links ?_ hold
      rw [hoth i.w (List.mem_append_left _ hiwc), unlinked_other s w i.w ?_ ?_ ?_]
      · exact fun h => hcr i.w hiwc (hnxr _ h)
      · exact fun h => hfw (hpvc _ h ▸ hiw)
      · intro _
        have hcw : i.child ≠ some w := fun h => hwc (hic w h)
        obtain ⟨-, -, -, -, h5⟩ := hold
        rcases i with ⟨iw, ik, ipar, iprev, inext, ichild⟩
        cases ik with
        | leaf => simp only at h5; simp [h5.1, h5.2.1]
        | hcomb =>
          simp only at h5 hcw ⊢
          rw [h5.1, h5.2.2.1]
          exact ⟨hcw, by simp⟩
        | vcomb =>
          simp only at h5 hcw ⊢
          rw [h5.1, h5.2.2.1]
          exact ⟨by simp, hcw⟩
  · intro i hi
    cases rest with
    | nil => simp [Shape.infos] at hi
    | node n kn chn restn =>
      have hwn' : (s.windows w).next = some n := hwn
      simp only [Shape.handles, List.nodup_cons, List.mem_append, not_or] at hndr
      have key : ∀ j, j.w ∈ chn.handles ++ restn.handles →
          LinkOK scr s.windows j → LinkOK scr s8.windows j := by
        intro j hj hold
        have hjr : j.w ∈ (Shape.node n kn chn restn).handles := by
          simp only [Shape.handles, List.mem_cons]
          exact Or.inr hj
        have hjn : j.w ≠ n := by
          intro e
          rw [e, List.mem_append] at hj
          rcases hj with hj | hj
          · exact hndr.1.1 hj
          · exact hndr.1.2 hj
        refine LinkOK.of_links ?_ hold
        rw [hoth j.w (List.mem_append_right _ hjr), unlinked_other s w j.w ?_ ?_ ?_]
        · rw [hwn']
          exact fun h => hjn (Option.some.inj h).symm
        · intro h
          have := hpvc _ h
          exact hcr j.w (by rw [this, htl]; exact List.mem_cons_self _ _) hjr
        · intro h
          exact absurd hjr (hcr j.w (hpac _ h))
      simp only [Shape.infos, List.mem_cons, List.mem_append] at hi
      rcases hi with rfl | hi | hi
      · have hold := hlr ⟨n, kn, hpar (f :: c0), some w, restn.head, chn.head⟩
          (by simp [Shape.infos])
        refine LinkOK.of_window { s.windows n with
            prev := (s.windows w).prev,
            top := if (s.windows w).prev = none then (s.windows w).top else (s.windows n).top,
            left := if (s.windows w).prev = none then (s.windows w).left
              else (s.windows n).left } ?_ ?_
        · rw [hoth n (by simp [Shape.handles])]
          simp [unlinked, hwn']
        · obtain ⟨h1, h2, h3, h4, h5⟩ := hold
          exact ⟨h1, hwv, h3, h4, h5⟩
      · exact key i (List.mem_append_left _ (infos_fields chn _ _ i hi).1)
          (hlr i (by simp [Shape.infos, hi]))
      · exact key i (List.mem_append_right _ (infos_fields restn _ _ i hi).1)
          (hlr i (by simp [Shape.infos, hi]))

theorem core_eq_iff (a b : Window) :
    a.core = b.core ↔ a.left = b.left ∧ a.top = b.top ∧ a.width = b.width
      ∧ a.height = b.height ∧ a.mini_p = b.mini_p ∧ a.screen = b.screen
      ∧ a.parent = b.parent ∧ a.next = b.next ∧ a.prev = b.prev ∧ a.hchild = b.hchild
      ∧ a.vchild = b.vchild ∧ a.buffer = b.buffer := by
  cases a; cases b
  simp only [Window.core, Window.mk.injEq, true_and, and_true]

theorem links_of_core {a b : Window} (h : a.core = b.core) : a.links = b.links := by
  unfold Window.links
  rw [h]

theorem unlinked_congr (s s3 : State) (w x : Win)
    (hw : ({ (s3.windows w).core with buffer := BufSlot.nil } : Window)
      = { (s.windows w).core with buffer := BufSlot.nil })
    (hx : (s3.windows x).core = (s.windows x).core) :
    (unlinked s3 w x).core = (unlinked s w x).core := by
  have e1 := congrArg Window.next hw
  have e2 := congrArg Window.prev hw
  have e3 := congrArg Window.parent hw
  have e4 := congrArg Window.top hw
  have e5 := congrArg Window.left hw
  simp only [Window.core] at e1 e2 e3 e4 e5
  rw [core_eq_iff] at hx
  obtain ⟨x1, x2, x3, x4, x5, x6, x7, x8, x9, x10, x11, x12⟩ := hx
  unfold unlinked
  rw [e1, e2, e3, e4, e5, x10, x11]
  split_ifs <;> simp [core_eq_iff, *]

theorem butCore_fields {a b : Window}
    (h : ({ a.core with buffer := BufSlot.nil } : Window) = { b.core with buffer := BufSlot.nil }) :
    a.next = b.next ∧ a.prev = b.prev ∧ a.parent = b.parent ∧ a.top = b.top
      ∧ a.left = b.left ∧ a.width = b.width ∧ a.height = b.height := by
  have e1 := congrArg Window.next h
  have e2 := congrArg Window.prev h
  have e3 := congrArg Window.parent h
  have e4 := congrArg Window.top h
  have e5 := congrArg Window.left h
  have e6 := congrArg Window.width h
  have e7 := congrArg Window.height h
  simp only [Window.core] at e1 e2 e3 e4 e5 e6 e7
  exact ⟨e1, e2, e3, e4, e5, e6, e7⟩

/-- The store after the first three phases of `Fdelete_window` on a window
`w` of a well-formed tree: it represents the shape without the subtree of
`w`. -/
theorem delete_unlink_rep (E : Ext) (hE : ∀ s c, SameTree s (E.Fselect_screen s c))
    (fuel : Nat) (s : State) (scr : Scr) (f : Frame) (c0 : Ctx) (w : Win) (k : Kind)
    (ch rest : Shape) (P : Win)
    (hrep : Rep s scr (plug (f :: c0) (Shape.node w k ch rest)))
    (hP : (s.windows w).parent = some P) :
    ((delete_begin E fuel s w).andThen fun _ s3 =>
        delete_sibling (delete_unlink s3 w P) w).Sat fun sib s8 =>
      Rep s8 scr (plug (f :: c0) rest)
        ∧ s8.nalloc = s.nalloc
        ∧ (∀ x, x ≠ w → (s8.windows x).core = (unlinked s w x).core)
        ∧ ({ (s8.windows w).core with buffer := BufSlot.nil } : Window)
            = { (s.windows w).core with buffer := BufSlot.nil }
        ∧ some sib = (match hprev (f :: c0) with
            | some v => some v
            | none => rest.head) := by
  obtain ⟨hscr, hwn, hnx, hpv, hpa⟩ := rep_distinct s scr (f :: c0) w k ch rest hrep
  obtain ⟨-, -, -, -, hlw, -, -⟩ := (rep_plug_node s scr (f :: c0) w k ch rest).1 hrep
  obtain ⟨-, hwv, hwnx, -, -⟩ := hlw
  simp only at hwv hwnx
  refine Res.Sat.bind (delete_begin_post E hE fuel s w) ?_
  rintro _ s3 ⟨h3n, h3r, h3o, h3w⟩
  obtain ⟨e1, e2, e3, e4, e5, e6, e7⟩ := butCore_fields h3w
  have hpost := delete_unlink_post s3 w P (by rw [e3]; exact hP) (hpa P hP).1
    (fun y hy => by
      rw [e1] at hy
      rw [e2]
      exact ⟨(hnx y hy).1, fun e => (hnx y hy).2.2.2 (e ▸ hP), (hnx y hy).2.2.1⟩)
    (fun y hy => by
      rw [e2] at hy
      exact ⟨(hpv y hy).1, fun e => (hpv y hy).2.2 (e ▸ hP)⟩)
  refine hpost.to_sat.mono ?_
  rintro sib s8 ⟨h8n, h8s, h8w, h8o, h8sib⟩
  have hcore : ∀ x, x ≠ w → (s8.windows x).core = (unlinked s w x).core := fun x hx => by
    rw [h8o x hx]
    exact unlinked_congr s s3 w x h3w (h3o x hx)
  have hne : ∀ x ∈ ctxHandles (f :: c0) ++ rest.handles, x ≠ w := by
    intro x hx e
    subst e
    obtain ⟨-, hnd, -⟩ := (rep_plug_node s scr (f :: c0) x k ch rest).1 hrep
    have h1 := List.nodup_append.1 hnd
    rcases List.mem_append.1 hx with h | h
    · exact h1.2.2 h (List.mem_cons_self _ _)
    · exact (List.nodup_cons.1 h1.2.1).1 (List.mem_append_right _ h)
  refine ⟨?_, h8n.trans h3n, hcore, ?_, ?_⟩
  · refine rep_unlink s s8 scr f c0 w k ch rest hrep (h8n.trans h3n) ?_ ?_
      (fun x hx => links_of_core (hcore x (hne x hx)))
    · rw [h8s]; exact h3r scr
    · intro hv hr
      subst hr
      rw [e2, hwv, hv, e1, hwnx] at h8sib
      simp [Shape.head] at h8sib
  · rw [h8w]; exact h3w
  · rw [h8sib, e2, e1, hwv, hwnx]

theorem links_of_yless {a b : Window} (h : a.yless = b.yless) : a.links = b.links := by
  have e1 := congrArg Window.parent h
  have e2 := congrArg Window.prev h
  have e3 := congrArg Window.next h
  have e4 := congrArg Window.screen h
  have e5 := congrArg Window.hchild h
  have e6 := congrArg Window.vchild h
  have e7 := congrArg Window.buffer h
  simp only [Window.yless] at e1 e2 e3 e4 e5 e6 e7
  cases a; cases b
  simp only [Window.links, Window.core, Window.mk.injEq, true_and]
  simp only at e1 e2 e3 e4 e5 e6 e7
  simp [*]

theorem links_of_xless {a b : Window} (h : a.xless = b.xless) : a.links = b.links := by
  have e1 := congrArg Window.parent h
  have e2 := congrArg Window.prev h
  have e3 := congrArg Window.next h
  have e4 := congrArg Window.screen h
  have e5 := congrArg Window.hchild h
  have e6 := congrArg Window.vchild h
  have e7 := congrArg Window.buffer h
  simp only [Window.xless] at e1 e2 e3 e4 e5 e6 e7
  cases a; cases b
  simp only [Window.links, Window.core, Window.mk.injEq, true_and]
  simp only at e1 e2 e3 e4 e5 e6 e7
  simp [*]

/-- A store with the same links represents the same shape. -/
theorem rep_of_links (s s' : State) (scr : Scr) (t : Shape) (hrep : Rep s scr t)
    (hn : s'.nalloc = s.nalloc)
    (hr : (s'.screens scr).root_window = (s.screens scr).root_window)
    (hl : ∀ z ∈ t.handles, (s'.windows z).links = (s.windows z).links) : Rep s' scr t := by
  obtain ⟨h1, h2, h3, h4⟩ := hrep
  refine ⟨hr.trans h1, h2, fun x hx => hn ▸ h3 x hx, fun i hi => ?_⟩
  refine LinkOK.of_links (hl i.w ?_) (h4 i hi)
  rw [← infos_map_w t none none]
  exact List.mem_map_of_mem _ hi

/-- The resize of a window of a well-formed tree keeps the tree. -/
theorem set_window_height_rep (E : Ext) (scr : Scr) (fuel : Nat) (s : State) (t : Shape)
    (x : Win) (v : Int) (hrep : Rep s scr t) (hx : x ∈ t.handles) :
    (set_window_height E fuel s x v true).Sat fun _ s' =>
      Rep s' scr t ∧ others s s' ∧ ∀ z, (s'.windows z).yless = (s.windows z).yless := by
  obtain ⟨c, k, ch, rest, rfl⟩ := exists_plug_of_mem t x hx
  refine (set_window_height_out E scr fuel s c x k ch rest v hrep).to_sat.mono ?_
  rintro _ s' ⟨e, ho⟩
  have hy := resize_node_y_yless _ _ _ _ _ _ e
  obtain ⟨f1, -, f3, -⟩ := others_fields ho
  exact ⟨rep_of_links s s' scr _ hrep f3 (by rw [f1]) fun z _ => links_of_yless (hy z), ho, hy⟩

theorem set_window_width_rep (E : Ext) (scr : Scr) (fuel : Nat) (s : State) (t : Shape)
    (x : Win) (v : Int) (hrep : Rep s scr t) (hx : x ∈ t.handles) :
    (set_window_width E fuel s x v true).Sat fun _ s' =>
      Rep s' scr t ∧ others s s' ∧ ∀ z, (s'.windows z).xless = (s.windows z).xless := by
  obtain ⟨c, k, ch, rest, rfl⟩ := exists_plug_of_mem t x hx
  refine (set_window_width_out E scr fuel s c x k ch rest v hrep).to_sat.mono ?_
  rintro _ s' ⟨e, ho⟩
  have hy := resize_node_x_xless _ _ _ _ _ _ e
  obtain ⟨f1, -, f3, -⟩ := others_fields ho
  exact ⟨rep_of_links s s' scr _ hrep f3 (by rw [f1]) fun z _ => links_of_xless (hy z), ho, hy⟩

theorem plug_above (c : Ctx) (t : Shape) : plug (ctxAbove c) (ctxChain c t) = plug c t := by
  induction c generalizing t with
  | nil => rfl
  | cons f c ih =>
    cases f with
    | right w k ch => exact ih _
    | down w k rest => rfl

theorem above_of_hpar (c : Ctx) (k : Kind) (P : Win) (h : hpar c = some (k, P)) :
    ∃ rest c1, ctxAbove c = Frame.down P k rest :: c1 := by
  induction c with
  | nil => simp [hpar] at h
  | cons f c ih =>
    cases f with
    | right w k ch => exact ih h
    | down w k rest =>
      simp only [hpar, Option.some.injEq, Prod.mk.injEq] at h
      obtain ⟨rfl, rfl⟩ := h
      exact ⟨rest, c, rfl⟩

/-- The targets of the links of a window of a represented tree. -/
theorem rep_links_mem (s : State) (scr : Scr) (c : Ctx) (w : Win) (k : Kind) (ch rest : Shape)
    (hrep : Rep s scr (plug c (Shape.node w k ch rest))) :
    (∀ y, (s.windows w).next = some y → y ∈ rest.handles)
      ∧ (∀ y, (s.windows w).prev = some y → y ∈ ctxHandles c)
      ∧ (∀ y, (s.windows w).parent = some y → y ∈ ctxHandles c)
      ∧ (∀ y, (s.windows w).hchild = some y → y ∈ ch.handles)
      ∧ (∀ y, (s.windows w).vchild = some y → y ∈ ch.handles) := by
  rw [rep_plug_node] at hrep
  obtain ⟨-, -, -, -, hw, -, -⟩ := hrep
  obtain ⟨hwpar, hwprev, hwnext, -, hk⟩ := hw
  simp only at hwpar hwprev hwnext hk
  refine ⟨fun y hy => ?_, fun y hy => ?_, fun y hy => ?_, fun y hy => ?_, fun y hy => ?_⟩
  · rw [hwnext] at hy
    exact head_mem_handles _ _ hy
  · rw [hwprev] at hy
    exact hprev_mem c y hy
  · rw [hwpar] at hy
    rcases hp : hpar c with _ | ⟨K, P⟩
    · simp [hp] at hy
    · simp only [hp, Option.map_some', Option.some.injEq] at hy
      exact hy ▸ hpar_mem c K P hp
  · cases k <;> simp only at hk
    · rw [hk.1] at hy; cases hy
    · rw [hk.1] at hy; exact head_mem_handles _ _ hy
    · rw [hk.2.2.1] at hy; cases hy
  · cases k <;> simp only at hk
    · rw [hk.2.1] at hy; cases hy
    · rw [hk.2.2.1] at hy; cases hy
    · rw [hk.1] at hy; exact head_mem_handles _ _ hy

theorem replaced_other (s : State) (o n x : Win) (h1 : (s.windows o).next ≠ some x)
    (h2 : (s.windows o).prev ≠ some x) (h3 : (s.windows o).parent ≠ some x) :
    replaced s o n x = s.windows x := by
  unfold replaced
  rw [if_neg h1, if_neg h2, if_neg h3]

theorem delete_collapse_eq (s : State) (P a : Win)
    (h : (s.windows P).hchild = some a
      ∨ ((s.windows P).hchild = none ∧ (s.windows P).vchild = some a)) :
    delete_collapse s P
      = if (s.windows a).next = none then replace_window s P a else Res.ok () s := by
  unfold delete_collapse
  rcases h with h | ⟨h1, h2⟩
  · simp [h]
  · simp [h1, h2]

/-- The last phase of `Fdelete_window` on a represented tree. -/
theorem delete_collapse_rep (s : State) (scr : Scr) (c : Ctx) (P : Win) (k : Kind)
    (chain rest : Shape) (hrep : Rep s scr (plug c (Shape.node P k chain rest))) :
    (delete_collapse s P).Sat fun _ s' =>
      Rep s' scr (collapseShape c P k chain rest) ∧ s'.nalloc = s.nalloc := by
  have hrep0 := hrep
  obtain ⟨hscr, -, hnx, hpv, hpa⟩ := rep_distinct s scr c P k chain rest hrep
  obtain ⟨mnx, mpv, mpa, -, -⟩ := rep_links_mem s scr c P k chain rest hrep
  rw [rep_plug_node] at hrep
  obtain ⟨hroot, hnd, hlt, hctx, hP, hch, hrest⟩ := hrep
  obtain ⟨hPpar, hPprev, hPnext, -, hk⟩ := hP
  simp only at hPpar hPprev hPnext hk
  cases chain with
  | nil =>
    cases k <;> simp [Shape.head] at hk
    simp [delete_collapse, hk.1, hk.2.1]
  | node a ka cha r =>
    have ha := hch _ (List.mem_cons_self _ _)
    have htem : (s.windows P).hchild = some a
        ∨ ((s.windows P).hchild = none ∧ (s.windows P).vchild = some a) := by
      cases k with
      | leaf => exact absurd hk.2.2.2 (by simp [Shape.head])
      | hcomb => exact Or.inl hk.1
      | vcomb => exact Or.inr ⟨hk.2.2.1, hk.1⟩
    rw [delete_collapse_eq s P a htem]
    obtain ⟨hapar, haprev, hanext, hascr, hak⟩ := ha
    simp only at hapar haprev hanext hak
    cases r with
    | node b kb chb r2 =>
      rw [if_neg (by rw [hanext]; simp [Shape.head])]
      exact ⟨hrep0, rfl⟩
    | nil =>
      rw [if_pos (by rw [hanext]; rfl)]
      simp only [Shape.handles, List.append_nil] at hnd hlt
      obtain ⟨hndc, hndw, hdisj⟩ := List.nodup_append.1 hnd
      obtain ⟨hP1, hndw2⟩ := List.nodup_cons.1 hndw
      rw [List.cons_append] at hndw2 hP1
      obtain ⟨ha1, hndw3⟩ := List.nodup_cons.1 hndw2
      obtain ⟨-, -, hcr⟩ := List.nodup_append.1 hndw3
      simp only [List.mem_cons, List.mem_append, not_or] at hP1 ha1
      obtain ⟨hPa, hPcha, hPrest⟩ := hP1
      obtain ⟨hacha, harest⟩ := ha1
      have hnx' : ∀ y, (s.windows P).next = some y → y ≠ P ∧ y ≠ a
          ∧ (s.windows P).prev ≠ some y ∧ (s.windows P).parent ≠ some y := fun y hy =>
        ⟨(hnx y hy).1, fun e => harest (e ▸ mnx y hy), (hnx y hy).2.2⟩
      have hpv' : ∀ y, (s.windows P).prev = some y → y ≠ P ∧ y ≠ a
          ∧ (s.windows P).parent ≠ some y := fun y hy =>
        ⟨(hpv y hy).1, fun e => hdisj (mpv y hy) (by simp [e]), (hpv y hy).2.2⟩
      have hpa' : ∀ y, (s.windows P).parent = some y → y ≠ P ∧ y ≠ a := fun y hy =>
        ⟨(hpa y hy).1, fun e => hdisj (mpa y hy) (by simp [e])⟩
      obtain ⟨_, s', e, hb⟩ := (Res.holds_iff _ _).1
        (replace_window_basic s P a scr hscr hPa hnx' hpv' hpa')
      have hs := replace_window_screens s P a scr hscr hPa hnx' hpv' hpa'
      have ho : ∀ x, x ≠ a → x ≠ P → s'.windows x = replaced s P a x := fun x h1 h2 => by
        have := replace_window_other s P a scr hscr hPa hnx' hpv' hpa' x h1 h2
        rw [e] at this
        exact this
      rw [e] at hs ⊢
      obtain ⟨hb1, -, -, -, -, hbP, hba⟩ := hb
      refine ⟨?_, hb1⟩
      show Rep s' scr (plug c (Shape.node a ka cha rest))
      refine rep_replace s s' scr c P a k ka (Shape.node a ka cha Shape.nil) cha rest hrep0
        ?_ ?_ ?_ ?_ ?_ ?_
      · have := hs scr
        simp only [Res.Holds] at this
        rw [this]
        by_cases h : (s.screens scr).root_window = some P <;> simp [h]
      · intro x hx
        refine ho x ?_ ?_
        · intro h; subst h
          rcases List.mem_append.1 hx with h | h
          · exact hdisj h (by simp)
          · exact harest h
        · intro h; subst h
          rcases List.mem_append.1 hx with h | h
          · exact hdisj h (by simp)
          · exact hPrest h
      · unfold LinkOK
        simp only [hba]
        refine ⟨hPpar, hPprev, hPnext, hascr, ?_⟩
        cases ka <;> exact hak
      · intro i hi
        have hiw : i.w ∈ cha.handles := by
          rw [← infos_map_w cha (some (ka, a)) none]
          exact List.mem_map_of_mem _ hi
        have hic : i.w ∉ ctxHandles c := fun h => hdisj h (by simp [hiw])
        have e1 : s'.windows i.w = s.windows i.w := by
          rw [ho _ (fun e => hacha (e ▸ hiw)) (fun e => hPcha (e ▸ hiw))]
          exact replaced_other s P a i.w (fun h => hcr hiw (mnx _ h)) (fun h => hic (mpv _ h))
            (fun h => hic (mpa _ h))
        refine LinkOK.of_links (by rw [e1]) (hch i (by simp [Shape.infos, hi]))
      · rw [List.nodup_append]
        refine ⟨hndc, hndw2, fun x hx hx' => hdisj hx (List.mem_cons_of_mem _ hx')⟩
      · intro x hx
        rw [hb1]
        refine hlt x ?_
        rcases List.mem_append.1 hx with h | h
        · exact List.mem_append_left _ h
        · exact List.mem_append_right _ (List.mem_cons_of_mem _ h)

theorem Res.andThen_assoc {α β γ : Type} (r : Res α) (f : α → State → Res β)
    (g : β → State → Res γ) :
    (r.andThen f).andThen g = r.andThen fun a s => (f a s).andThen g := by
  cases r <;> rfl

theorem deleteShape_eq (c c1 : Ctx) (P : Win) (k : Kind) (restP rest : Shape)
    (h : ctxAbove c = Frame.down P k restP :: c1) :
    deleteShape c rest = collapseShape c1 P k (ctxChain c rest) restP := by
  unfold deleteShape
  rw [h]

/-- The window tree after `Fdelete_window` on a window of a represented tree:
if the call returns, the store represents the shape without the subtree of
the window, a parent left with one child having given its place to it. -/
theorem Fdelete_window_rep (E : Ext) (hE : ∀ s c, SameTree s (E.Fselect_screen s c))
    (fuel : Nat) (s : State) (scr : Scr) (c : Ctx) (w : Win) (k : Kind) (ch rest : Shape)
    (hrep : Rep s scr (plug c (Shape.node w k ch rest))) :
    (Fdelete_window E fuel s (some w)).Sat fun _ s' =>
      Rep s' scr (deleteShape c rest) ∧ s'.nalloc = s.nalloc := by
  cases fuel with
  | zero => simp [Fdelete_window]
  | succ fuel =>
    rw [Fdelete_window_succ]
    obtain ⟨-, -, -, -, hlw, -, -⟩ := (rep_plug_node s scr c w k ch rest).1 hrep
    obtain ⟨hwp, -⟩ := hlw
    simp only at hwp
    rcases hp : hpar c with _ | ⟨kP, P⟩
    · rw [hwp, hp]; trivial
    rw [hp] at hwp
    simp only [Option.map_some'] at hwp
    rw [hwp]
    simp only
    cases c with
    | nil => simp [hpar] at hp
    | cons f c0 =>
      rw [← Res.andThen_assoc]
      refine Res.Sat.bind (delete_unlink_rep E hE fuel s scr f c0 w k ch rest P hrep hwp) ?_
      rintro sib s8 ⟨hrep8, hn8, -, -, hsib⟩
      have hmem : sib ∈ (plug (f :: c0) rest).handles := by
        rw [(handles_plug _ _).mem_iff, List.mem_append]
        rcases hv : hprev (f :: c0) with _ | v
        · rw [hv] at hsib
          exact Or.inr (head_mem_handles _ _ hsib.symm)
        · rw [hv] at hsib
          simp only [Option.some.injEq] at hsib
          exact Or.inl (hsib ▸ hprev_mem _ _ hv)
      refine Res.Sat.bind (P := fun _ s9 => Rep s9 scr (plug (f :: c0) rest)
        ∧ s9.nalloc = s.nalloc) ?_ ?_
      · split
        · refine (set_window_height_rep E scr fuel s8 _ sib _ hrep8 hmem).mono ?_
          rintro _ s9 ⟨h1, h2, -⟩
          exact ⟨h1, (others_fields h2).2.2.1.trans hn8⟩
        · exact ⟨hrep8, hn8⟩
      rintro _ s9 ⟨hrep9, hn9⟩
      refine Res.Sat.bind (P := fun _ s10 => Rep s10 scr (plug (f :: c0) rest)
        ∧ s10.nalloc = s.nalloc) ?_ ?_
      · split
        · refine (set_window_width_rep E scr fuel s9 _ sib _ hrep9 hmem).mono ?_
          rintro _ s10 ⟨h1, h2, -⟩
          exact ⟨h1, (others_fields h2).2.2.1.trans hn9⟩
        · exact ⟨hrep9, hn9⟩
      rintro _ s10 ⟨hrep10, hn10⟩
      obtain ⟨restP, c1, hab⟩ := above_of_hpar (f :: c0) kP P hp
      rw [deleteShape_eq _ _ _ _ _ _ hab]
      rw [← plug_above, hab] at hrep10
      refine (delete_collapse_rep s10 scr c1 P kP _ restP hrep10).mono ?_
      rintro _ s' ⟨h1, h2⟩
      exact ⟨h1, h2.trans hn10⟩

theorem mem_plug_ctx (c : Ctx) (t : Shape) (y : Win) (h : y ∈ ctxHandles c) :
    y ∈ (plug c t).handles :=
  (handles_plug c t).mem_iff.2 (List.mem_append_left _ h)

theorem mem_plug_hole (c : Ctx) (t : Shape) (y : Win) (h : y ∈ t.handles) :
    y ∈ (plug c t).handles :=
  (handles_plug c t).mem_iff.2 (List.mem_append_right _ h)

/-- Every window that can be reached from the root of a represented tree is
a window of its shape. -/
theorem reach_mem (s : State) (scr : Scr) (t : Shape) (hrep : Rep s scr t) (x : Win)
    (h : Reach s scr x) : x ∈ t.handles := by
  induction h with
  | root r hr => exact head_mem_handles _ _ (hrep.1.symm.trans hr)
  | hchild x y _ hy ih =>
    obtain ⟨c, k, ch, rest, rfl⟩ := exists_plug_of_mem t x ih
    obtain ⟨-, -, -, m, -⟩ := rep_links_mem s scr c x k ch rest hrep
    exact mem_plug_hole _ _ _ (by simp [Shape.handles, m y hy])
  | vchild x y _ hy ih =>
    obtain ⟨c, k, ch, rest, rfl⟩ := exists_plug_of_mem t x ih
    obtain ⟨-, -, -, -, m⟩ := rep_links_mem s scr c x k ch rest hrep
    exact mem_plug_hole _ _ _ (by simp [Shape.handles, m y hy])
  | next x y _ hy ih =>
    obtain ⟨c, k, ch, rest, rfl⟩ := exists_plug_of_mem t x ih
    obtain ⟨m, -⟩ := rep_links_mem s scr c x k ch rest hrep
    exact mem_plug_hole _ _ _ (by simp [Shape.handles, m y hy])

/-- In a represented tree exactly one of `hchild`, `vchild`, `buffer` is set
in every window. -/
theorem rep_one_content (s : State) (scr : Scr) (t : Shape) (hrep : Rep s scr t) (x : Win)
    (hx : x ∈ t.handles) : OneContent (s.windows x) := by
  obtain ⟨c, k, ch, rest, rfl⟩ := exists_plug_of_mem t x hx
  obtain ⟨-, -, -, -, hl, -, -⟩ := (rep_plug_node s scr c x k ch rest).1 hrep
  obtain ⟨-, -, -, -, hk⟩ := hl
  simp only at hk
  unfold OneContent
  cases k <;> simp only at hk
  · exact Or.inr (Or.inr ⟨hk.1, hk.2.1, hk.2.2.1⟩)
  · exact Or.inl ⟨by rw [hk.1]; exact hk.2.1, hk.2.2.1, hk.2.2.2⟩
  · exact Or.inr (Or.inl ⟨hk.2.2.1, by rw [hk.1]; exact hk.2.1, hk.2.2.2⟩)

/-- In a represented tree the sibling links are well formed at every
window. -/
theorem rep_siblings (s : State) (scr : Scr) (t : Shape) (hrep : Rep s scr t) (x : Win)
    (hx : x ∈ t.handles) : SiblingsOK s x := by
  obtain ⟨c, k, ch, rest, rfl⟩ := exists_plug_of_mem t x hx
  obtain ⟨-, -, -, hctx, hl, hch, hrest⟩ := (rep_plug_node s scr c x k ch rest).1 hrep
  obtain ⟨-, hpv, hnx, -, hk⟩ := hl
  simp only at hpv hnx hk
  have hfirst : ∀ (P : Option (Kind × Win)) (V : Option Win) (u : Shape) (y : Win),
      u.head = some y → (∀ i ∈ u.infos P V, LinkOK scr s.windows i) →
      (s.windows y).prev = V := by
    intro P V u y hu hi
    cases u with
    | nil => simp [Shape.head] at hu
    | node a ka cha ra =>
      simp only [Shape.head, Option.some.injEq] at hu
      subst hu
      exact (hi _ (List.mem_cons_self _ _)).2.1
  refine ⟨?_, ?_, ?_, ?_⟩
  · rw [hnx]
    cases hr : rest.head with
    | none => trivial
    | some y => exact hfirst _ _ rest y hr hrest
  · rw [hpv]
    cases c with
    | nil => trivial
    | cons f c =>
      cases f with
      | down v kv rv => trivial
      | right v kv chv => exact (hctx _ (List.mem_cons_self _ _)).2.2.1
  · cases k <;> simp only at hk
    · rw [hk.1]; trivial
    · rw [hk.1]
      cases hr : ch.head with
      | none => trivial
      | some y => exact hfirst _ _ ch y hr hch
    · rw [hk.2.2.1]; trivial
  · cases k <;> simp only at hk
    · rw [hk.2.1]; trivial
    · rw [hk.2.2.1]; trivial
    · rw [hk.1]
      cases hr : ch.head with
      | none => trivial
      | some y => exact hfirst _ _ ch y hr hch

/-- C5: in a store that represents the window tree of screen `scr`, exactly
one of `hchild`, `vchild`, `buffer` is set in every window that can be reached
from the root window, and the same holds in the store that a successful
`Fsplit_window` of a window `w` of the tree leaves (with or without a new
parent from `make_dummy_parent`) and in the store that a successful
`Fdelete_window` of `w` leaves, provided that selecting a screen does not
touch the window trees. -/
theorem one_content_preserved (E : Ext) (hE : ∀ s c, SameTree s (E.Fselect_screen s c))
    (fuel : Nat) (s : State) (scr : Scr) (t : Shape) (w : Win) (chsize : Option Int)
    (hor : Bool) (hrep : Rep s scr t) (hw : w ∈ t.handles) :
    (∀ x, Reach s scr x → OneContent (s.windows x))
      ∧ (∀ new s', Fsplit_window s (some w) chsize hor = Res.ok new s' →
          ∀ x, Reach s' scr x → OneContent (s'.windows x))
      ∧ (∀ s', Fdelete_window E fuel s (some w) = Res.ok () s' →
          ∀ x, Reach s' scr x → OneContent (s'.windows x)) := by
  obtain ⟨c, k, ch, rest, rfl⟩ := exists_plug_of_mem t w hw
  refine ⟨fun x hx => rep_one_content s scr _ hrep x (reach_mem s scr _ hrep x hx), ?_, ?_⟩
  · intro new s' e x hx
    have h := Fsplit_window_rep s scr c w k ch rest chsize hor hrep
    rw [e] at h
    obtain ⟨-, -, -, -, hrep'⟩ := h
    exact rep_one_content s' scr _ hrep' x (reach_mem s' scr _ hrep' x hx)
  · intro s' e x hx
    have h := Fdelete_window_rep E hE fuel s scr c w k ch rest hrep
    rw [e] at h
    exact rep_one_content s' scr _ h.1 x (reach_mem s' scr _ h.1 x hx)

/-- Witness of `one_content_preserved`: the split and the deletion of the
leaf 3 of `state6` both succeed. -/
theorem one_content_preserved_witness :
    (∀ s c, SameTree s (ext1.Fselect_screen s c))
      ∧ Rep state6 0 shape6 ∧ 3 ∈ shape6.handles
      ∧ (Fsplit_window state6 (some 3) none false).isOk = true
      ∧ (Fdelete_window ext1 8 state6 (some 3)).isOk = true
      ∧ ((∀ x, Reach state6 0 x → OneContent (state6.windows x))
        ∧ (∀ new s', Fsplit_window state6 (some 3) none false = Res.ok new s' →
            ∀ x, Reach s' 0 x → OneContent (s'.windows x))
        ∧ (∀ s', Fdelete_window ext1 8 state6 (some 3) = Res.ok () s' →
            ∀ x, Reach s' 0 x → OneContent (s'.windows x))) :=
  ⟨fun s _ => SameTree.refl s, by decide!, by decide!, by decide!, by decide!,
    one_content_preserved ext1 (fun s _ => SameTree.refl s) 8 state6 0 shape6 3 none false
      (by decide!) (by decide!)⟩

/-- C4: in a store that represents the window tree of screen `scr`, every
window `x` that can be reached from the root window is the previous window of
its next window and the next window of its previous window, and its `hchild`
or `vchild` has no previous window; the same holds in the store that a
successful `Fsplit_window` of a window `w` of the tree leaves and in the store
that a successful `Fdelete_window` of `w` leaves, provided that selecting a
screen does not touch the window trees. -/
theorem siblings_preserved (E : Ext) (hE : ∀ s c, SameTree s (E.Fselect_screen s c))
    (fuel : Nat) (s : State) (scr : Scr) (t : Shape) (w : Win) (chsize : Option Int)
    (hor : Bool) (hrep : Rep s scr t) (hw : w ∈ t.handles) :
    (∀ x, Reach s scr x → SiblingsOK s x)
      ∧ (∀ new s', Fsplit_window s (some w) chsize hor = Res.ok new s' →
          ∀ x, Reach s' scr x → SiblingsOK s' x)
      ∧ (∀ s', Fdelete_window E fuel s (some w) = Res.ok () s' →
          ∀ x, Reach s' scr x → SiblingsOK s' x) := by
  obtain ⟨c, k, ch, rest, rfl⟩ := exists_plug_of_mem t w hw
  refine ⟨fun x hx => rep_siblings s scr _ hrep x (reach_mem s scr _ hrep x hx), ?_, ?_⟩
  · intro new s' e x hx
    have h := Fsplit_window_rep s scr c w k ch rest chsize hor hrep
    rw [e] at h
    obtain ⟨-, -, -, -, hrep'⟩ := h
    exact rep_siblings s' scr _ hrep' x (reach_mem s' scr _ hrep' x hx)
  · intro s' e x hx
    have h := Fdelete_window_rep E hE fuel s scr c w k ch rest hrep
    rw [e] at h
    exact rep_siblings s' scr _ h.1 x (reach_mem s' scr _ h.1 x hx)

/-- Witness of `siblings_preserved`: the side-by-side split and the deletion
of the leaf 0 of `state6` both succeed. -/
theorem siblings_preserved_witness :
    (∀ s c, SameTree s (ext1.Fselect_screen s c))
      ∧ Rep state6 0 shape6 ∧ 0 ∈ shape6.handles
      ∧ (Fsplit_window state6 (some 0) none true).isOk = true
      ∧ (Fdelete_window ext1 8 state6 (some 0)).isOk = true
      ∧ ((∀ x, Reach state6 0 x → SiblingsOK state6 x)
        ∧ (∀ new s', Fsplit_window state6 (some 0) none true = Res.ok new s' →
            ∀ x, Reach s' 0 x → SiblingsOK s' x)
        ∧ (∀ s', Fdelete_window ext1 8 state6 (some 0) = Res.ok () s' →
            ∀ x, Reach s' 0 x → SiblingsOK s' x)) :=
  ⟨fun s _ => SameTree.refl s, by decide!, by decide!, by decide!, by decide!,
    siblings_preserved ext1 (fun s _ => SameTree.refl s) 8 state6 0 shape6 0 none true
      (by decide!) (by decide!)⟩

/-- The tiling at a node follows from the tiling at a node of another store
with the same geometry, the same parent and the same place to start. -/
theorem tileY_move {h h' : Win → Window} {i i' : NodeInfo} (hpar : i'.par = i.par)
    (hw : (h' i'.w).top = (h i.w).top ∧ (h' i'.w).height = (h i.w).height)
    (hP : ∀ k p, i.par = some (k, p) → SameY h h' p)
    (hstart : ∀ p, i.par = some (Kind.vcomb, p) → start_y h' p i'.prev = start_y h p i.prev)
    (hnext : ∀ p, i.par = some (Kind.vcomb, p) → i'.next = none → i.next = none)
    (ht : TileY h i) : TileY h' i' := by
  unfold TileY at *
  rw [hpar]
  rcases hp : i.par with _ | ⟨k, p⟩
  · trivial
  · rw [hp] at ht
    obtain ⟨p1, p2⟩ := hP k p hp
    cases k with
    | leaf => trivial
    | hcomb =>
      simp only at ht ⊢
      rw [hw.1, hw.2, p1, p2]
      exact ht
    | vcomb =>
      change (h i.w).top = start_y h p i.prev
        ∧ (i.next = none → (h i.w).top + (h i.w).height = (h p).top + (h p).height) at ht
      change (h' i'.w).top = start_y h' p i'.prev
        ∧ (i'.next = none → (h' i'.w).top + (h' i'.w).height = (h' p).top + (h' p).height)
      rw [hw.1, hw.2, p1, p2, hstart p hp]
      exact ⟨ht.1, fun hn => ht.2 (hnext p hp hn)⟩

theorem tileY_same (t : Shape) (P : Option (Kind × Win)) (V : Option Win)
    (h h' : Win → Window) (hag : ∀ z ∈ t.handles, SameY h h' z)
    (hP : ∀ k p, P = some (k, p) → SameY h h' p)
    (hV : ∀ u, V = some u → SameY h h' u) (i : NodeInfo) (hi : i ∈ t.infos P V)
    (ht : TileY h i) : TileY h' i := by
  obtain ⟨hw, -, -, hprev, hpar⟩ := infos_fields t P V i hi
  have hp' : ∀ k p, i.par = some (k, p) → SameY h h' p := fun k p hp => by
    rcases hpar k p hp with e | m
    · exact hP k p e
    · exact hag p m
  refine tileY_move rfl (hag _ hw) hp' (fun p hp => ?_) (fun _ _ hn => hn) ht
  rcases hv : i.prev with _ | u
  · simp only [start_y]
    exact (hp' _ p hp).1
  · have hu : SameY h h' u := by
      rcases hprev u hv with e | m
      · exact hV u e
      · exact hag u m
    simp only [start_y]
    rw [hu.1, hu.2]

/-- The tiling of a chain whose first window gets another previous window
that ends where the former one did. -/
theorem tileY_chain_move (rest : Shape) (P : Option (Kind × Win)) (V V' : Option Win)
    (h h' : Win → Window) (hag : ∀ z ∈ rest.handles, SameY h h' z)
    (hP : ∀ k p, P = some (k, p) → SameY h h' p)
    (hstart : ∀ p, P = some (Kind.vcomb, p) → start_y h' p V' = start_y h p V)
    (hall : ∀ i ∈ rest.infos P V, TileY h i) : ∀ i ∈ rest.infos P V', TileY h' i := by
  cases rest with
  | nil => intro i hi; simp [Shape.infos] at hi
  | node r kr chr rr =>
    intro i hi
    simp only [Shape.infos, List.mem_cons, List.mem_append] at hi hall
    rcases hi with hi | hi | hi
    · subst hi
      refine tileY_move (i := ⟨r, kr, P, V, rr.head, chr.head⟩) rfl
        (hag r (by simp [Shape.handles])) hP (fun p hp => hstart p hp)
        (fun _ _ hn => hn) (hall _ (Or.inl rfl))
    · refine tileY_same chr _ _ h h' (fun z hz => hag z (by simp [Shape.handles, hz])) ?_ ?_ i hi
        (hall i (Or.inr (Or.inl hi)))
      · intro k p e
        simp only [Option.some.injEq, Prod.mk.injEq] at e
        exact e.2 ▸ hag r (by simp [Shape.handles])
      · intro u e; cases e
    · refine tileY_same rr _ _ h h' (fun z hz => hag z (by simp [Shape.handles, hz])) hP ?_ i hi
        (hall i (Or.inr (Or.inr hi)))
      intro u e
      simp only [Option.some.injEq] at e
      exact e ▸ hag r (by simp [Shape.handles])

/-- The tiling at the windows of a context whose hole gets another chain. -/
theorem tileY_ctx_move (c : Ctx) (hd hd' : Option Win) (h h' : Win → Window)
    (hag : ∀ z ∈ ctxHandles c, SameY h h' z) (hn : hd' = none → hd = none)
    (hall : ∀ i ∈ ctxInfos c hd, TileY h i) : ∀ i ∈ ctxInfos c hd', TileY h' i := by
  intro i hi
  rw [ctxInfos_eq] at hi hall
  simp only [List.mem_append] at hi hall
  have key : ∀ j j' : NodeInfo, j ∈ ctxInfos c hd → j'.w = j.w → j'.par = j.par →
      j'.prev = j.prev → (j'.next = none → j.next = none) → TileY h j → TileY h' j' := by
    intro j j' hj e1 e2 e3 e4 ht
    obtain ⟨hw, -, -, hprev, hpar⟩ := ctxInfos_fields c hd j hj
    have hp' : ∀ k p, j.par = some (k, p) → SameY h h' p := fun k p hp => hag p (hpar k p hp)
    refine tileY_move e2 (by rw [e1]; exact hag _ hw) hp' (fun p hp => ?_) (fun _ _ => e4) ht
    rw [e3]
    rcases hv : j.prev with _ | u
    · simp only [start_y]
      exact (hp' _ p hp).1
    · have hu := hag u (hprev u hv)
      simp only [start_y]
      rw [hu.1, hu.2]
  rcases hi with hi | hi
  · cases c with
    | nil => simp [ctxSpine] at hi
    | cons f c =>
      cases f with
      | right v kv chv =>
        simp only [ctxSpine, List.mem_singleton] at hi
        subst hi
        refine key ⟨v, kv, hpar c, hprev c, hd, chv.head⟩ _ ?_ rfl rfl rfl hn
          (hall _ (Or.inl ?_))
        · rw [ctxInfos_eq]; simp [ctxSpine]
        · simp [ctxSpine]
      | down v kv rv =>
        simp only [ctxSpine, List.mem_singleton] at hi
        subst hi
        refine key ⟨v, kv, hpar c, hprev c, rv.head, hd⟩ _ ?_ rfl rfl rfl (fun e => e)
          (hall _ (Or.inl ?_))
        · rw [ctxInfos_eq]; simp [ctxSpine]
        · simp [ctxSpine]
  · refine key i i ?_ rfl rfl rfl (fun e => e) (hall i (Or.inr hi))
    rw [ctxInfos_eq]
    exact List.mem_append_right _ hi

/-- The tiling at a node follows from the tiling at a node of another store
with the same geometry, the same parent and the same place to start. -/
theorem tileX_move {h h' : Win → Window} {i i' : NodeInfo} (hpar : i'.par = i.par)
    (hw : (h' i'.w).left = (h i.w).left ∧ (h' i'.w).width = (h i.w).width)
    (hP : ∀ k p, i.par = some (k, p) → SameX h h' p)
    (hstart : ∀ p, i.par = some (Kind.hcomb, p) → start_x h' p i'.prev = start_x h p i.prev)
    (hnext : ∀ p, i.par = some (Kind.hcomb, p) → i'.next = none → i.next = none)
    (ht : TileX h i) : TileX h' i' := by
  unfold TileX at *
  rw [hpar]
  rcases hp : i.par with _ | ⟨k, p⟩
  · trivial
  · rw [hp] at ht
    obtain ⟨p1, p2⟩ := hP k p hp
    cases k with
    | leaf => trivial
    | vcomb =>
      simp only at ht ⊢
      rw [hw.1, hw.2, p1, p2]
      exact ht
    | hcomb =>
      change (h i.w).left = start_x h p i.prev
        ∧ (i.next = none → (h i.w).left + (h i.w).width = (h p).left + (h p).width) at ht
      change (h' i'.w).left = start_x h' p i'.prev
        ∧ (i'.next = none → (h' i'.w).left + (h' i'.w).width = (h' p).left + (h' p).width)
      rw [hw.1, hw.2, p1, p2, hstart p hp]
      exact ⟨ht.1, fun hn => ht.2 (hnext p hp hn)⟩

theorem tileX_same (t : Shape) (P : Option (Kind × Win)) (V : Option Win)
    (h h' : Win → Window) (hag : ∀ z ∈ t.handles, SameX h h' z)
    (hP : ∀ k p, P = some (k, p) → SameX h h' p)
    (hV : ∀ u, V = some u → SameX h h' u) (i : NodeInfo) (hi : i ∈ t.infos P V)
    (ht : TileX h i) : TileX h' i := by
  obtain ⟨hw, -, -, hprev, hpar⟩ := infos_fields t P V i hi
  have hp' : ∀ k p, i.par = some (k, p) → SameX h h' p := fun k p hp => by
    rcases hpar k p hp with e | m
    · exact hP k p e
    · exact hag p m
  refine tileX_move rfl (hag _ hw) hp' (fun p hp => ?_) (fun _ _ hn => hn) ht
  rcases hv : i.prev with _ | u
  · simp only [start_x]
    exact (hp' _ p hp).1
  · have hu : SameX h h' u := by
      rcases hprev u hv with e | m
      · exact hV u e
      · exact hag u m
    simp only [start_x]
    rw [hu.1, hu.2]

/-- The tiling of a chain whose first window gets another previous window
that ends where the former one did. -/
theorem tileX_chain_move (rest : Shape) (P : Option (Kind × Win)) (V V' : Option Win)
    (h h' : Win → Window) (hag : ∀ z ∈ rest.handles, SameX h h' z)
    (hP : ∀ k p, P = some (k, p) → SameX h h' p)
    (hstart : ∀ p, P = some (Kind.hcomb, p) → start_x h' p V' = start_x h p V)
    (hall : ∀ i ∈ rest.infos P V, TileX h i) : ∀ i ∈ rest.infos P V', TileX h' i := by
  cases rest with
  | nil => intro i hi; simp [Shape.infos] at hi
  | node r kr chr rr =>
    intro i hi
    simp only [Shape.infos, List.mem_cons, List.mem_append] at hi hall
    rcases hi with hi | hi | hi
    · subst hi
      refine tileX_move (i := ⟨r, kr, P, V, rr.head, chr.head⟩) rfl
        (hag r (by simp [Shape.handles])) hP (fun p hp => hstart p hp)
        (fun _ _ hn => hn) (hall _ (Or.inl rfl))
    · refine tileX_same chr _ _ h h' (fun z hz => hag z (by simp [Shape.handles, hz])) ?_ ?_ i hi
        (hall i (Or.inr (Or.inl hi)))
      · intro k p e
        simp only [Option.some.injEq, Prod.mk.injEq] at e
        exact e.2 ▸ hag r (by simp [Shape.handles])
      · intro u e; cases e
    · refine tileX_same rr _ _ h h' (fun z hz => hag z (by simp [Shape.handles, hz])) hP ?_ i hi
        (hall i (Or.inr (Or.inr hi)))
      intro u e
      simp only [Option.some.injEq] at e
      exact e ▸ hag r (by simp [Shape.handles])

/-- The tiling at the windows of a context whose hole gets another chain. -/
theorem tileX_ctx_move (c : Ctx) (hd hd' : Option Win) (h h' : Win → Window)
    (hag : ∀ z ∈ ctxHandles c, SameX h h' z) (hn : hd' = none → hd = none)
    (hall : ∀ i ∈ ctxInfos c hd, TileX h i) : ∀ i ∈ ctxInfos c hd', TileX h' i := by
  intro i hi
  rw [ctxInfos_eq] at hi hall
  simp only [List.mem_append] at hi hall
  have key : ∀ j j' : NodeInfo, j ∈ ctxInfos c hd → j'.w = j.w → j'.par = j.par →
      j'.prev = j.prev → (j'.next = none → j.next = none) → TileX h j → TileX h' j' := by
    intro j j' hj e1 e2 e3 e4 ht
    obtain ⟨hw, -, -, hprev, hpar⟩ := ctxInfos_fields c hd j hj
    have hp' : ∀ k p, j.par = some (k, p) → SameX h h' p := fun k p hp => hag p (hpar k p hp)
    refine tileX_move e2 (by rw [e1]; exact hag _ hw) hp' (fun p hp => ?_) (fun _ _ => e4) ht
    rw [e3]
    rcases hv : j.prev with _ | u
    · simp only [start_x]
      exact (hp' _ p hp).1
    · have hu := hag u (hprev u hv)
      simp only [start_x]
      rw [hu.1, hu.2]
  rcases hi with hi | hi
  · cases c with
    | nil => simp [ctxSpine] at hi
    | cons f c =>
      cases f with
      | right v kv chv =>
        simp only [ctxSpine, List.mem_singleton] at hi
        subst hi
        refine key ⟨v, kv, hpar c, hprev c, hd, chv.head⟩ _ ?_ rfl rfl rfl hn
          (hall _ (Or.inl ?_))
        · rw [ctxInfos_eq]; simp [ctxSpine]
        · simp [ctxSpine]
      | down v kv rv =>
        simp only [ctxSpine, List.mem_singleton] at hi
        subst hi
        refine key ⟨v, kv, hpar c, hprev c, rv.head, hd⟩ _ ?_ rfl rfl rfl (fun e => e)
          (hall _ (Or.inl ?_))
        · rw [ctxInfos_eq]; simp [ctxSpine]
        · simp [ctxSpine]
  · refine key i i ?_ rfl rfl rfl (fun e => e) (hall i (Or.inr hi))
    rw [ctxInfos_eq]
    exact List.mem_append_right _ hi

theorem forall_infos_plug (Q : NodeInfo → Prop) (c : Ctx) (t : Shape) :
    (∀ i ∈ (plug c t).infos none none, Q i) ↔
      (∀ i ∈ ctxInfos c t.head, Q i) ∧ (∀ i ∈ t.infos (hpar c) (hprev c), Q i) := by
  constructor
  · intro h
    exact ⟨fun i hi => h i ((infos_plug c t).mem_iff.2 (List.mem_append_left _ hi)),
      fun i hi => h i ((infos_plug c t).mem_iff.2 (List.mem_append_right _ hi))⟩
  · rintro ⟨h1, h2⟩ i hi
    rcases List.mem_append.1 ((infos_plug c t).mem_iff.1 hi) with h | h
    · exact h1 i h
    · exact h2 i h

theorem forall_infos_plug_node (Q : NodeInfo → Prop) (c : Ctx) (w : Win) (k : Kind)
    (ch rest : Shape) :
    (∀ i ∈ (plug c (Shape.node w k ch rest)).infos none none, Q i) ↔
      (∀ i ∈ ctxInfos c (some w), Q i) ∧ Q ⟨w, k, hpar c, hprev c, rest.head, ch.head⟩
        ∧ (∀ i ∈ ch.infos (some (k, w)) none, Q i)
        ∧ (∀ i ∈ rest.infos (hpar c) (some w), Q i) := by
  rw [forall_infos_plug]
  simp only [Shape.head, Shape.infos, List.mem_cons, List.mem_append, forall_eq_or_imp]
  constructor
  · rintro ⟨h1, h2, h3⟩
    exact ⟨h1, h2, fun i hi => h3 i (Or.inl hi), fun i hi => h3 i (Or.inr hi)⟩
  · rintro ⟨h1, h2, h3, h4⟩
    exact ⟨h1, h2, fun i hi => hi.elim (h3 i) (h4 i)⟩

theorem tiled_iff (s : State) (t : Shape) :
    Tiled s t ↔ (∀ i ∈ t.infos none none, TileX s.windows i)
      ∧ (∀ i ∈ t.infos none none, TileY s.windows i) := by
  unfold Tiled
  exact ⟨fun h => ⟨fun i hi => (h i hi).1, fun i hi => (h i hi).2⟩,
    fun h i hi => ⟨h.1 i hi, h.2 i hi⟩⟩

theorem start_y_same (h h' : Win → Window) (p : Win) (V : Option Win) (hP : SameY h h' p)
    (hV : ∀ u, V = some u → SameY h h' u) : start_y h' p V = start_y h p V := by
  cases V with
  | none => exact hP.1
  | some u =>
    simp only [start_y]
    rw [(hV u rfl).1, (hV u rfl).2]

/-- The tiling along the axis of a split without a new parent: the window
`w` keeps `size`, the new window `n` gets the rest. -/
theorem split_tile_y (h h' : Win → Window) (c : Ctx) (w n P : Win) (rest : Shape) (size : Int)
    (hp : hpar c = some (Kind.vcomb, P))
    (hold : ∀ z ∈ ctxHandles c ++ rest.handles, SameY h h' z)
    (hw : (h' w).top = (h w).top ∧ (h' w).height = size)
    (hn : (h' n).top = (h w).top + size ∧ (h' n).height = (h w).height - size)
    (ht : ∀ i ∈ (plug c (Shape.node w Kind.leaf Shape.nil rest)).infos none none, TileY h i) :
    ∀ i ∈ (plug c (Shape.node w Kind.leaf Shape.nil
      (Shape.node n Kind.leaf Shape.nil rest))).infos none none, TileY h' i := by
  rw [forall_infos_plug_node] at ht ⊢
  obtain ⟨h1, h2, -, h4⟩ := ht
  have hPm : SameY h h' P := hold P (List.mem_append_left _ (hpar_mem c _ P hp))
  have hVm : ∀ u, hprev c = some u → SameY h h' u := fun u hu =>
    hold u (List.mem_append_left _ (hprev_mem c u hu))
  have hst := start_y_same h h' P (hprev c) hPm hVm
  unfold TileY at h2
  simp only [hp] at h2
  change (h w).top = start_y h P (hprev c)
    ∧ (rest.head = none → (h w).top + (h w).height = (h P).top + (h P).height) at h2
  refine ⟨tileY_ctx_move c _ _ h h' (fun z hz => hold z (List.mem_append_left _ hz))
    (fun e => e) h1, ?_, ?_, ?_⟩
  · unfold TileY
    simp only [hp]
    change (h' w).top = start_y h' P (hprev c) ∧ (some n = none → _)
    rw [hst, hw.1]
    exact ⟨h2.1, fun e => by cases e⟩
  · intro i hi
    simp [Shape.infos] at hi
  · intro i hi
    simp only [Shape.infos, Shape.head, List.nil_append, List.mem_cons] at hi
    rcases hi with hi | hi
    · subst hi
      unfold TileY
      simp only [hp]
      rw [hn.1, hn.2, hw.1, hw.2, hPm.1, hPm.2]
      refine ⟨rfl, fun e => ?_⟩
      have := h2.2 e
      omega
    · refine tileY_chain_move rest (hpar c) (some w) (some n) h h'
        (fun z hz => hold z (List.mem_append_right _ hz)) ?_ ?_ h4 i hi
      · intro k p e
        rw [hp] at e
        simp only [Option.some.injEq, Prod.mk.injEq] at e
        exact e.2 ▸ hPm
      · intro p _
        simp only [start_y]
        rw [hn.1, hn.2]
        omega

/-- The tiling across the axis of a split without a new parent: the new
window `n` has the origin and the size of `w`. -/
theorem split_cross_x (h h' : Win → Window) (c : Ctx) (w n P : Win) (rest : Shape)
    (hp : hpar c = some (Kind.vcomb, P))
    (hold : ∀ z ∈ ctxHandles c ++ rest.handles, SameX h h' z)
    (hw : SameX h h' w)
    (hn : (h' n).left = (h w).left ∧ (h' n).width = (h w).width)
    (ht : ∀ i ∈ (plug c (Shape.node w Kind.leaf Shape.nil rest)).infos none none, TileX h i) :
    ∀ i ∈ (plug c (Shape.node w Kind.leaf Shape.nil
      (Shape.node n Kind.leaf Shape.nil rest))).infos none none, TileX h' i := by
  rw [forall_infos_plug_node] at ht ⊢
  obtain ⟨h1, h2, -, h4⟩ := ht
  have hPm : SameX h h' P := hold P (List.mem_append_left _ (hpar_mem c _ P hp))
  have hPk : ∀ k p, hpar c = some (k, p) → SameX h h' p := fun k p e => by
    rw [hp] at e
    simp only [Option.some.injEq, Prod.mk.injEq] at e
    exact e.2 ▸ hPm
  have hno : ∀ p, hpar c ≠ some (Kind.hcomb, p) := fun p e => by
    rw [hp] at e
    simp at e
  refine ⟨tileX_ctx_move c _ _ h h' (fun z hz => hold z (List.mem_append_left _ hz))
    (fun e => e) h1, ?_, ?_, ?_⟩
  · exact tileX_move (i := ⟨w, Kind.leaf, hpar c, hprev c, rest.head, Shape.nil.head⟩) rfl hw hPk
      (fun p e => absurd e (hno p)) (fun p e => absurd e (hno p)) h2
  · intro i hi
    simp [Shape.infos] at hi
  · intro i hi
    simp only [Shape.infos, Shape.head, List.nil_append, List.mem_cons] at hi
    rcases hi with hi | hi
    · subst hi
      exact tileX_move (i := ⟨w, Kind.leaf, hpar c, hprev c, rest.head, Shape.nil.head⟩) rfl hn hPk
        (fun p e => absurd e (hno p)) (fun p e => absurd e (hno p)) h2
    · exact tileX_chain_move rest (hpar c) (some w) (some n) h h'
        (fun z hz => hold z (List.mem_append_right _ hz)) hPk (fun p e => absurd e (hno p))
        h4 i hi

/-- The tiling after a new parent `D` with the geometry of `w` has taken the
place of `w` and `w` has become its only child. -/
theorem dummy_tile_y (h h' : Win → Window) (c : Ctx) (w D : Win) (kD : Kind) (rest : Shape)
    (hold : ∀ z ∈ ctxHandles c ++ rest.handles, SameY h h' z)
    (hw : SameY h h' w)
    (hD : (h' D).top = (h w).top ∧ (h' D).height = (h w).height)
    (ht : ∀ i ∈ (plug c (Shape.node w Kind.leaf Shape.nil rest)).infos none none, TileY h i) :
    ∀ i ∈ (plug c (Shape.node D kD (Shape.node w Kind.leaf Shape.nil Shape.nil)
      rest)).infos none none, TileY h' i := by
  rw [forall_infos_plug_node] at ht ⊢
  obtain ⟨h1, h2, -, h4⟩ := ht
  have hPk : ∀ k p, hpar c = some (k, p) → SameY h h' p := fun k p e =>
    hold p (List.mem_append_left _ (hpar_mem c _ p e))
  have hVm : ∀ u, hprev c = some u → SameY h h' u := fun u hu =>
    hold u (List.mem_append_left _ (hprev_mem c u hu))
  refine ⟨tileY_ctx_move c _ _ h h' (fun z hz => hold z (List.mem_append_left _ hz))
    (fun e => by cases e) h1, ?_, ?_, ?_⟩
  · exact tileY_move (i := ⟨w, Kind.leaf, hpar c, hprev c, rest.head, Shape.nil.head⟩) rfl hD hPk
      (fun p e => start_y_same h h' p _ (hPk _ p e) hVm) (fun _ _ e => e) h2
  · intro i hi
    simp only [Shape.infos, Shape.head, List.nil_append, List.mem_singleton] at hi
    subst hi
    unfold TileY
    cases kD with
    | leaf => trivial
    | hcomb => exact ⟨by rw [hw.1, hD.1], by rw [hw.2, hD.2]⟩
    | vcomb => exact ⟨by rw [hw.1, hD.1], fun _ => by rw [hw.1, hw.2, hD.1, hD.2]⟩
  · refine tileY_chain_move rest (hpar c) (some w) (some D) h h'
      (fun z hz => hold z (List.mem_append_right _ hz)) hPk ?_ h4
    intro p _
    simp only [start_y]
    rw [hD.1, hD.2]

theorem start_x_same (h h' : Win → Window) (p : Win) (V : Option Win) (hP : SameX h h' p)
    (hV : ∀ u, V = some u → SameX h h' u) : start_x h' p V = start_x h p V := by
  cases V with
  | none => exact hP.1
  | some u =>
    simp only [start_x]
    rw [(hV u rfl).1, (hV u rfl).2]

/-- The tiling along the axis of a split without a new parent: the window
`w` keeps `size`, the new window `n` gets the rest. -/
theorem split_tile_x (h h' : Win → Window) (c : Ctx) (w n P : Win) (rest : Shape) (size : Int)
    (hp : hpar c = some (Kind.hcomb, P))
    (hold : ∀ z ∈ ctxHandles c ++ rest.handles, SameX h h' z)
    (hw : (h' w).left = (h w).left ∧ (h' w).width = size)
    (hn : (h' n).left = (h w).left + size ∧ (h' n).width = (h w).width - size)
    (ht : ∀ i ∈ (plug c (Shape.node w Kind.leaf Shape.nil rest)).infos none none, TileX h i) :
    ∀ i ∈ (plug c (Shape.node w Kind.leaf Shape.nil
      (Shape.node n Kind.leaf Shape.nil rest))).infos none none, TileX h' i := by
  rw [forall_infos_plug_node] at ht ⊢
  obtain ⟨h1, h2, -, h4⟩ := ht
  have hPm : SameX h h' P := hold P (List.mem_append_left _ (hpar_mem c _ P hp))
  have hVm : ∀ u, hprev c = some u → SameX h h' u := fun u hu =>
    hold u (List.mem_append_left _ (hprev_mem c u hu))
  have hst := start_x_same h h' P (hprev c) hPm hVm
  unfold TileX at h2
  simp only [hp] at h2
  change (h w).left = start_x h P (hprev c)
    ∧ (rest.head = none → (h w).left + (h w).width = (h P).left + (h P).width) at h2
  refine ⟨tileX_ctx_move c _ _ h h' (fun z hz => hold z (List.mem_append_left _ hz))
    (fun e => e) h1, ?_, ?_, ?_⟩
  · unfold TileX
    simp only [hp]
    change (h' w).left = start_x h' P (hprev c) ∧ (some n = none → _)
    rw [hst, hw.1]
    exact ⟨h2.1, fun e => by cases e⟩
  · intro i hi
    simp [Shape.infos] at hi
  · intro i hi
    simp only [Shape.infos, Shape.head, List.nil_append, List.mem_cons] at hi
    rcases hi with hi | hi
    · subst hi
      unfold TileX
      simp only [hp]
      rw [hn.1, hn.2, hw.1, hw.2, hPm.1, hPm.2]
      refine ⟨rfl, fun e => ?_⟩
      have := h2.2 e
      omega
    · refine tileX_chain_move rest (hpar c) (some w) (some n) h h'
        (fun z hz => hold z (List.mem_append_right _ hz)) ?_ ?_ h4 i hi
      · intro k p e
        rw [hp] at e
        simp only [Option.some.injEq, Prod.mk.injEq] at e
        exact e.2 ▸ hPm
      · intro p _
        simp only [start_x]
        rw [hn.1, hn.2]
        omega

/-- The tiling across the axis of a split without a new parent: the new
window `n` has the origin and the size of `w`. -/
theorem split_cross_y (h h' : Win → Window) (c : Ctx) (w n P : Win) (rest : Shape)
    (hp : hpar c = some (Kind.hcomb, P))
    (hold : ∀ z ∈ ctxHandles c ++ rest.handles, SameY h h' z)
    (hw : SameY h h' w)
    (hn : (h' n).top = (h w).top ∧ (h' n).height = (h w).height)
    (ht : ∀ i ∈ (plug c (Shape.node w Kind.leaf Shape.nil rest)).infos none none, TileY h i) :
    ∀ i ∈ (plug c (Shape.node w Kind.leaf Shape.nil
      (Shape.node n Kind.leaf Shape.nil rest))).infos none none, TileY h' i := by
  rw [forall_infos_plug_node] at ht ⊢
  obtain ⟨h1, h2, -, h4⟩ := ht
  have hPm : SameY h h' P := hold P (List.mem_append_left _ (hpar_mem c _ P hp))
  have hPk : ∀ k p, hpar c = some (k, p) → SameY h h' p := fun k p e => by
    rw [hp] at e
    simp only [Option.some.injEq, Prod.mk.injEq] at e
    exact e.2 ▸ hPm
  have hno : ∀ p, hpar c ≠ some (Kind.vcomb, p) := fun p e => by
    rw [hp] at e
    simp at e
  refine ⟨tileY_ctx_move c _ _ h h' (fun z hz => hold z (List.mem_append_left _ hz))
    (fun e => e) h1, ?_, ?_, ?_⟩
  · exact tileY_move (i := ⟨w, Kind.leaf, hpar c, hprev c, rest.head, Shape.nil.head⟩) rfl hw hPk
      (fun p e => absurd e (hno p)) (fun p e => absurd e (hno p)) h2
  · intro i hi
    simp [Shape.infos] at hi
  · intro i hi
    simp only [Shape.infos, Shape.head, List.nil_append, List.mem_cons] at hi
    rcases hi with hi | hi
    · subst hi
      exact tileY_move (i := ⟨w, Kind.leaf, hpar c, hprev c, rest.head, Shape.nil.head⟩) rfl hn hPk
        (fun p e => absurd e (hno p)) (fun p e => absurd e (hno p)) h2
    · exact tileY_chain_move rest (hpar c) (some w) (some n) h h'
        (fun z hz => hold z (List.mem_append_right _ hz)) hPk (fun p e => absurd e (hno p))
        h4 i hi

/-- The tiling after a new parent `D` with the geometry of `w` has taken the
place of `w` and `w` has become its only child. -/
theorem dummy_tile_x (h h' : Win → Window) (c : Ctx) (w D : Win) (kD : Kind) (rest : Shape)
    (hold : ∀ z ∈ ctxHandles c ++ rest.handles, SameX h h' z)
    (hw : SameX h h' w)
    (hD : (h' D).left = (h w).left ∧ (h' D).width = (h w).width)
    (ht : ∀ i ∈ (plug c (Shape.node w Kind.leaf Shape.nil rest)).infos none none, TileX h i) :
    ∀ i ∈ (plug c (Shape.node D kD (Shape.node w Kind.leaf Shape.nil Shape.nil)
      rest)).infos none none, TileX h' i := by
  rw [forall_infos_plug_node] at ht ⊢
  obtain ⟨h1, h2, -, h4⟩ := ht
  have hPk : ∀ k p, hpar c = some (k, p) → SameX h h' p := fun k p e =>
    hold p (List.mem_append_left _ (hpar_mem c _ p e))
  have hVm : ∀ u, hprev c = some u → SameX h h' u := fun u hu =>
    hold u (List.mem_append_left _ (hprev_mem c u hu))
  refine ⟨tileX_ctx_move c _ _ h h' (fun z hz => hold z (List.mem_append_left _ hz))
    (fun e => by cases e) h1, ?_, ?_, ?_⟩
  · exact tileX_move (i := ⟨w, Kind.leaf, hpar c, hprev c, rest.head, Shape.nil.head⟩) rfl hD hPk
      (fun p e => start_x_same h h' p _ (hPk _ p e) hVm) (fun _ _ e => e) h2
  · intro i hi
    simp only [Shape.infos, Shape.head, List.nil_append, List.mem_singleton] at hi
    subst hi
    unfold TileX
    cases kD with
    | leaf => trivial
    | vcomb => exact ⟨by rw [hw.1, hD.1], by rw [hw.2, hD.2]⟩
    | hcomb => exact ⟨by rw [hw.1, hD.1], fun _ => by rw [hw.1, hw.2, hD.1, hD.2]⟩
  · refine tileX_chain_move rest (hpar c) (some w) (some D) h h'
      (fun z hz => hold z (List.mem_append_right _ hz)) hPk ?_ h4
    intro p _
    simp only [start_x]
    rw [hD.1, hD.2]

theorem hpar_info (c : Ctx) (hd : Option Win) (k : Kind) (P : Win)
    (hp : hpar c = some (k, P)) : ∃ i ∈ ctxInfos c hd, i.w = P ∧ i.k = k := by
  induction c generalizing hd with
  | nil => simp [hpar] at hp
  | cons f c ih =>
    cases f with
    | right v kv chv =>
      obtain ⟨i, hi, e⟩ := ih (some v) hp
      exact ⟨i, by simp [ctxInfos, hi], e⟩
    | down v kv rv =>
      simp only [hpar, Option.some.injEq, Prod.mk.injEq] at hp
      obtain ⟨rfl, rfl⟩ := hp
      exact ⟨_, List.mem_cons_self _ _, rfl, rfl⟩

/-- The kind of the parent of the hole, read from the store. -/
theorem rep_parent_kind (s : State) (scr : Scr) (c : Ctx) (t : Shape) (k : Kind) (P : Win)
    (hrep : Rep s scr (plug c t)) (hp : hpar c = some (k, P)) :
    ((s.windows P).hchild ≠ none ↔ k = Kind.hcomb)
      ∧ ((s.windows P).vchild ≠ none ↔ k = Kind.vcomb) := by
  obtain ⟨-, -, -, hctx, -⟩ := (rep_plug s scr c t).1 hrep
  obtain ⟨i, hi, rfl, rfl⟩ := hpar_info c t.head k P hp
  obtain ⟨-, -, -, -, hk⟩ := hctx i hi
  cases hik : i.k <;> rw [hik] at hk <;> simp only at hk
  · simp [hk.1, hk.2.1]
  · simp [hk.1, hk.2.1, hk.2.2.1]
  · simp [hk.1, hk.2.1, hk.2.2.1]

theorem rep_hole_ne (s : State) (scr : Scr) (c : Ctx) (w : Win) (k : Kind) (ch rest : Shape)
    (hrep : Rep s scr (plug c (Shape.node w k ch rest))) :
    ∀ z ∈ ctxHandles c ++ rest.handles, z ≠ w ∧ z ≠ s.nalloc := by
  obtain ⟨-, hnd, hlt, -⟩ := (rep_plug_node s scr c w k ch rest).1 hrep
  obtain ⟨-, hndw, hdisj⟩ := List.nodup_append.1 hnd
  obtain ⟨hw1, -⟩ := List.nodup_cons.1 hndw
  intro z hz
  rcases List.mem_append.1 hz with h | h
  · exact ⟨fun e => hdisj h (by simp [e]),
      Nat.ne_of_lt (hlt z (List.mem_append_left _ h))⟩
  · exact ⟨fun e => hw1 (by simp [← e, h]),
      Nat.ne_of_lt (hlt z (by simp [h]))⟩

/-- The second half of `Fsplit_window` keeps the tiling. -/
theorem splitPost_tiled (s s' : State) (scr : Scr) (c : Ctx) (w : Win) (rest : Shape)
    (size : Int) (hor : Bool) (b : Buf) (new P : Win)
    (hrep : Rep s scr (plug c (Shape.node w Kind.leaf Shape.nil rest)))
    (hp : hpar c = some (if hor = true then Kind.hcomb else Kind.vcomb, P))
    (ht : Tiled s (plug c (Shape.node w Kind.leaf Shape.nil rest)))
    (hpost : SplitPost s w size hor b new s') :
    Tiled s' (plug c (Shape.node w Kind.leaf Shape.nil
      (Shape.node s.nalloc Kind.leaf Shape.nil rest))) := by
  have hne := rep_hole_ne s scr c w _ _ rest hrep
  obtain ⟨-, -, -, hoth, hw, -, -, -, -, -, -, -, -, hl, htop, hwd, hh⟩ := hpost
  rw [tiled_iff] at ht ⊢
  have hgeo : ∀ z ∈ ctxHandles c ++ rest.handles,
      SameX s.windows s'.windows z ∧ SameY s.windows s'.windows z := fun z hz => by
    rw [SameX, SameY, hoth z (hne z hz).2 (hne z hz).1]
    split <;> exact ⟨⟨rfl, rfl⟩, rfl, rfl⟩
  cases hor with
  | true =>
    simp only [if_true] at hp hw hl htop hwd hh
    refine ⟨split_tile_x _ _ c w _ P rest size hp (fun z hz => (hgeo z hz).1) ?_ ⟨hl, hwd⟩ ht.1,
      split_cross_y _ _ c w _ P rest hp (fun z hz => (hgeo z hz).2) ?_ ⟨htop, hh⟩ ht.2⟩
    · rw [hw]; exact ⟨rfl, rfl⟩
    · rw [SameY, hw]; exact ⟨rfl, rfl⟩
  | false =>
    simp only [Bool.false_eq_true, if_false] at hp hw hl htop hwd hh
    refine ⟨split_cross_x _ _ c w _ P rest hp (fun z hz => (hgeo z hz).1) ?_ ⟨hl, hwd⟩ ht.1,
      split_tile_y _ _ c w _ P rest size hp (fun z hz => (hgeo z hz).2) ?_ ⟨htop, hh⟩ ht.2⟩
    · rw [SameX, hw]; exact ⟨rfl, rfl⟩
    · rw [hw]; exact ⟨rfl, rfl⟩

theorem replaced_geometry (s : State) (o n x : Win) :
    (replaced s o n x).left = (s.windows x).left ∧ (replaced s o n x).top = (s.windows x).top
      ∧ (replaced s o n x).width = (s.windows x).width
      ∧ (replaced s o n x).height = (s.windows x).height := by
  unfold replaced
  split_ifs <;> exact ⟨rfl, rfl, rfl, rfl⟩

/-- The new parent that `make_dummy_parent` puts above a leaf keeps the
tiling. -/
theorem dummyPost_tiled (s s3 : State) (scr : Scr) (c : Ctx) (w : Win) (rest : Shape)
    (hor : Bool) (hrep : Rep s scr (plug c (Shape.node w Kind.leaf Shape.nil rest)))
    (ht : Tiled s (plug c (Shape.node w Kind.leaf Shape.nil rest)))
    (hpost : DummyPost s w hor scr s3) :
    Tiled s3 (plug c (Shape.node s.nalloc (if hor = true then Kind.hcomb else Kind.vcomb)
      (Shape.node w Kind.leaf Shape.nil Shape.nil) rest)) := by
  have hne := rep_hole_ne s scr c w _ _ rest hrep
  obtain ⟨-, -, -, hw, hD, hoth⟩ := hpost
  rw [tiled_iff] at ht ⊢
  have hgeo : ∀ z ∈ ctxHandles c ++ rest.handles,
      SameX s.windows s3.windows z ∧ SameY s.windows s3.windows z := fun z hz => by
    obtain ⟨g1, g2, g3, g4⟩ := replaced_geometry s w s.nalloc z
    rw [SameX, SameY, hoth z (hne z hz).2 (hne z hz).1]
    exact ⟨⟨g1, g3⟩, g2, g4⟩
  have hDg : (s3.windows s.nalloc).left = (s.windows w).left
      ∧ (s3.windows s.nalloc).top = (s.windows w).top
      ∧ (s3.windows s.nalloc).width = (s.windows w).width
      ∧ (s3.windows s.nalloc).height = (s.windows w).height := by
    rw [hD]
    cases hor <;> exact ⟨rfl, rfl, rfl, rfl⟩
  refine ⟨dummy_tile_x _ _ c w _ _ rest (fun z hz => (hgeo z hz).1) ?_ ⟨hDg.1, hDg.2.2.1⟩ ht.1,
    dummy_tile_y _ _ c w _ _ rest (fun z hz => (hgeo z hz).2) ?_ ⟨hDg.2.1, hDg.2.2.2⟩ ht.2⟩
  · rw [SameX, hw]; exact ⟨rfl, rfl⟩
  · rw [SameY, hw]; exact ⟨rfl, rfl⟩

/-- `Fsplit_window` keeps the tiling: if it returns on a window of a
well-formed tree, the store is tiled with respect to the new shape. -/
theorem Fsplit_window_tiled (s : State) (scr : Scr) (c : Ctx) (w : Win) (k : Kind)
    (ch rest : Shape) (chsize : Option Int) (hor : Bool)
    (hrep : Rep s scr (plug c (Shape.node w k ch rest)))
    (ht : Tiled s (plug c (Shape.node w k ch rest))) :
    (Fsplit_window s (some w) chsize hor).Sat fun _ s' =>
      WF s' scr (splitShape c w rest hor (needs_parent s w hor) s.nalloc) := by
  refine (Fsplit_window_rep s scr c w k ch rest chsize hor hrep).mono ?_
  rintro new s' ⟨rfl, rfl, ⟨-, -, -, b, -, -, hout⟩, -, hrep'⟩
  refine ⟨hrep', ?_⟩
  by_cases hnp : needs_parent s w hor = true
  · rw [if_pos hnp] at hout
    obtain ⟨s3, hd, hsp⟩ := hout
    have hrep3 := rep_dummy s s3 scr c w rest hor hrep hd
    have ht3 := dummyPost_tiled s s3 scr c w rest hor hrep ht hd
    have := splitPost_tiled s3 s' scr
      (Frame.down s.nalloc (if hor = true then Kind.hcomb else Kind.vcomb) rest :: c) w
      Shape.nil _ hor b new s.nalloc (by cases hor <;> exact hrep3) (by cases hor <;> rfl)
      (by cases hor <;> exact ht3) hsp
    rw [hd.1] at this
    simp only [splitShape, hnp, if_true]
    cases hor <;> exact this
  · rw [if_neg hnp] at hout
    have hnp' : needs_parent s w hor = false := by simpa using hnp
    obtain ⟨-, -, -, -, hlw, -, -⟩ := (rep_plug_node s scr c w _ _ rest).1 hrep
    obtain ⟨hwp, -⟩ := hlw
    simp only at hwp
    unfold needs_parent at hnp'
    rcases hp : hpar c with _ | ⟨kP, P⟩
    · rw [hwp, hp] at hnp'
      simp at hnp'
    rw [hwp, hp] at hnp'
    simp only [Option.map_some'] at hnp'
    obtain ⟨k1, k2⟩ := rep_parent_kind s scr c _ kP P hrep hp
    have hk : kP = if hor = true then Kind.hcomb else Kind.vcomb := by
      cases hor
      · simp only [Bool.false_eq_true, if_false, decide_eq_false_iff_not] at hnp' ⊢
        exact k2.1 hnp'
      · simp only [if_true, decide_eq_false_iff_not] at hnp' ⊢
        exact k1.1 hnp'
    have := splitPost_tiled s s' scr c w rest _ hor b new P hrep (by rw [hp, hk]) ht hout
    rw [splitShape, if_neg hnp]
    exact this

/-- The tiling along the axis of the parent after the window `w` has gone
and its previous window `v` has taken over its size. -/
theorem delete_tile_y_prev (h h' : Win → Window) (c0 : Ctx) (v : Win) (kv : Kind) (chv : Shape)
    (w : Win) (k : Kind) (ch rest : Shape) (P : Win)
    (hp : hpar c0 = some (Kind.vcomb, P))
    (hold : ∀ z ∈ ctxHandles c0 ++ rest.handles, SameY h h' z)
    (hv : (h' v).top = (h v).top ∧ (h' v).height = (h v).height + (h w).height)
    (hchv : ∀ i ∈ chv.infos (some (kv, v)) none, TileY h' i)
    (ht : ∀ i ∈ (plug c0 (Shape.node v kv chv (Shape.node w k ch rest))).infos none none,
      TileY h i) :
    ∀ i ∈ (plug c0 (Shape.node v kv chv rest)).infos none none, TileY h' i := by
  rw [forall_infos_plug_node] at ht ⊢
  obtain ⟨h1, h2, -, h4⟩ := ht
  simp only [Shape.infos, Shape.head, List.mem_cons, List.mem_append, forall_eq_or_imp] at h4
  obtain ⟨hw, h4⟩ := h4
  have hPm : SameY h h' P := hold P (List.mem_append_left _ (hpar_mem c0 _ P hp))
  have hVm : ∀ u, hprev c0 = some u → SameY h h' u := fun u hu =>
    hold u (List.mem_append_left _ (hprev_mem c0 u hu))
  have hst := start_y_same h h' P (hprev c0) hPm hVm
  have hPk : ∀ k p, hpar c0 = some (k, p) → SameY h h' p := fun k p e =>
    hold p (List.mem_append_left _ (hpar_mem c0 _ p e))
  unfold TileY at h2 hw
  simp only [hp] at h2 hw
  change (h v).top = start_y h P (hprev c0) ∧ _ at h2
  refine ⟨tileY_ctx_move c0 _ _ h h' (fun z hz => hold z (List.mem_append_left _ hz))
    (fun e => e) h1, ?_, hchv, ?_⟩
  · unfold TileY
    simp only [hp]
    change (h' v).top = start_y h' P (hprev c0) ∧ _
    rw [hst, hv.1, hv.2, hPm.1, hPm.2]
    refine ⟨h2.1, fun e => ?_⟩
    have := hw.2 e
    omega
  · refine tileY_chain_move rest (hpar c0) (some w) (some v) h h'
      (fun z hz => hold z (List.mem_append_right _ hz)) hPk ?_ (fun i hi => h4 i (Or.inr hi))
    intro p _
    simp only [start_y]
    rw [hv.1, hv.2]
    omega

/-- The tiling across the axis of the parent after the window `w` has gone. -/
theorem delete_cross_x_prev (h h' : Win → Window) (c0 : Ctx) (v : Win) (kv : Kind)
    (chv : Shape) (w : Win) (k : Kind) (ch rest : Shape) (P : Win)
    (hp : hpar c0 = some (Kind.vcomb, P))
    (hold : ∀ z ∈ ctxHandles c0 ++ (v :: chv.handles ++ rest.handles), SameX h h' z)
    (ht : ∀ i ∈ (plug c0 (Shape.node v kv chv (Shape.node w k ch rest))).infos none none,
      TileX h i) :
    ∀ i ∈ (plug c0 (Shape.node v kv chv rest)).infos none none, TileX h' i := by
  rw [forall_infos_plug_node] at ht ⊢
  obtain ⟨h1, h2, h3, h4⟩ := ht
  simp only [Shape.infos, Shape.head, List.mem_cons, List.mem_append, forall_eq_or_imp] at h4
  obtain ⟨-, h4⟩ := h4
  have hPk : ∀ k p, hpar c0 = some (k, p) → SameX h h' p := fun k p e =>
    hold p (List.mem_append_left _ (hpar_mem c0 _ p e))
  have hno : ∀ p, hpar c0 ≠ some (Kind.hcomb, p) := fun p e => by
    rw [hp] at e
    simp at e
  have hvm : SameX h h' v := hold v (by simp)
  refine ⟨tileX_ctx_move c0 _ _ h h' (fun z hz => hold z (List.mem_append_left _ hz))
    (fun e => e) h1, ?_, ?_, ?_⟩
  · exact tileX_move (i := ⟨v, kv, hpar c0, hprev c0, some w, chv.head⟩) rfl hvm hPk
      (fun p e => absurd e (hno p)) (fun p e => absurd e (hno p)) h2
  · intro i hi
    refine tileX_same chv _ _ h h' (fun z hz => hold z (by simp [hz])) ?_ ?_ i hi (h3 i hi)
    · intro k p e
      simp only [Option.some.injEq, Prod.mk.injEq] at e
      exact e.2 ▸ hvm
    · intro u e; cases e
  · exact tileX_chain_move rest (hpar c0) (some w) (some v) h h'
      (fun z hz => hold z (by simp [hz])) hPk (fun p e => absurd e (hno p))
      (fun i hi => h4 i (Or.inr hi))

/-- The tiling along the axis of the parent `P` after its first child `w`
has gone and the next window `n` has taken over its origin and its size. -/
theorem delete_tile_y_next (h h' : Win → Window) (c0 : Ctx) (P w : Win) (k : Kind) (ch : Shape)
    (n : Win) (kn : Kind) (chn restn restP : Shape)
    (hold : ∀ z ∈ ctxHandles c0 ++ P :: (restn.handles ++ restP.handles), SameY h h' z)
    (hn : (h' n).top = (h w).top ∧ (h' n).height = (h n).height + (h w).height)
    (hchn : ∀ i ∈ chn.infos (some (kn, n)) none, TileY h' i)
    (ht : ∀ i ∈ (plug c0 (Shape.node P Kind.vcomb
      (Shape.node w k ch (Shape.node n kn chn restn)) restP)).infos none none, TileY h i) :
    ∀ i ∈ (plug c0 (Shape.node P Kind.vcomb (Shape.node n kn chn restn) restP)).infos none none,
      TileY h' i := by
  rw [forall_infos_plug_node] at ht ⊢
  obtain ⟨h1, h2, h3, h4⟩ := ht
  simp only [Shape.infos, List.mem_cons, List.mem_append, forall_eq_or_imp] at h3
  obtain ⟨hw, h3⟩ := h3
  have hn0 := h3 _ (Or.inr (Or.inl rfl))
  have h3r : ∀ i ∈ restn.infos (some (Kind.vcomb, P)) (some n), TileY h i := fun i hi =>
    h3 i (Or.inr (Or.inr (Or.inr hi)))
  have hPm : SameY h h' P := hold P (by simp)
  have hPk : ∀ k p, hpar c0 = some (k, p) → SameY h h' p := fun k p e =>
    hold p (List.mem_append_left _ (hpar_mem c0 _ p e))
  have hVm : ∀ u, hprev c0 = some u → SameY h h' u := fun u hu =>
    hold u (List.mem_append_left _ (hprev_mem c0 u hu))
  unfold TileY at hw hn0
  simp only at hw hn0
  refine ⟨tileY_ctx_move c0 _ _ h h' (fun z hz => hold z (List.mem_append_left _ hz))
    (fun e => e) h1, ?_, ?_, ?_⟩
  · exact tileY_move (i := ⟨P, Kind.vcomb, hpar c0, hprev c0, restP.head, some w⟩) rfl hPm hPk
      (fun p e => start_y_same h h' p _ (hPk _ p e) hVm) (fun _ _ e => e) h2
  · intro i hi
    simp only [Shape.infos, Shape.head, List.mem_cons, List.mem_append] at hi
    rcases hi with hi | hi | hi
    · subst hi
      unfold TileY
      simp only
      rw [hn.1, hn.2, hPm.1, hPm.2]
      refine ⟨hw.1, fun e => ?_⟩
      have := hn0.2 e
      omega
    · exact hchn i hi
    · refine tileY_chain_move restn _ (some n) (some n) h h'
        (fun z hz => hold z (by simp [hz])) ?_ ?_ h3r i hi
      · intro k p e
        simp only [Option.some.injEq, Prod.mk.injEq] at e
        exact e.2 ▸ hPm
      · intro p _
        simp only [start_y]
        rw [hn.1, hn.2]
        omega
  · intro i hi
    exact tileY_same restP _ _ h h' (fun z hz => hold z (by simp [hz])) hPk
      (fun u e => by simp only [Option.some.injEq] at e; exact e ▸ hPm) i hi (h4 i hi)

/-- The tiling across the axis of the parent `P` after its first child has
gone. -/
theorem delete_cross_x_next (h h' : Win → Window) (c0 : Ctx) (P w : Win) (k : Kind)
    (ch : Shape) (n : Win) (kn : Kind) (chn restn restP : Shape)
    (hold : ∀ z ∈ ctxHandles c0 ++ P :: ((Shape.node n kn chn restn).handles ++ restP.handles),
      SameX h h' z)
    (ht : ∀ i ∈ (plug c0 (Shape.node P Kind.vcomb
      (Shape.node w k ch (Shape.node n kn chn restn)) restP)).infos none none, TileX h i) :
    ∀ i ∈ (plug c0 (Shape.node P Kind.vcomb (Shape.node n kn chn restn) restP)).infos none none,
      TileX h' i := by
  rw [forall_infos_plug_node] at ht ⊢
  obtain ⟨h1, h2, h3, h4⟩ := ht
  simp only [Shape.infos, List.mem_cons, List.mem_append, forall_eq_or_imp] at h3
  obtain ⟨-, h3⟩ := h3
  have hPm : SameX h h' P := hold P (by simp)
  have hPk : ∀ k p, hpar c0 = some (k, p) → SameX h h' p := fun k p e =>
    hold p (List.mem_append_left _ (hpar_mem c0 _ p e))
  have hVm : ∀ u, hprev c0 = some u → SameX h h' u := fun u hu =>
    hold u (List.mem_append_left _ (hprev_mem c0 u hu))
  refine ⟨tileX_ctx_move c0 _ _ h h' (fun z hz => hold z (List.mem_append_left _ hz))
    (fun e => e) h1, ?_, ?_, ?_⟩
  · exact tileX_move (i := ⟨P, Kind.vcomb, hpar c0, hprev c0, restP.head, some w⟩) rfl hPm hPk
      (fun p e => start_x_same h h' p _ (hPk _ p e) hVm) (fun _ _ e => e) h2
  · refine tileX_chain_move (Shape.node n kn chn restn) _ (some w) none h h'
      (fun z hz => hold z (by simp only [List.mem_append, List.mem_cons]; tauto)) ?_ ?_ ?_
    · intro k p e
      simp only [Option.some.injEq, Prod.mk.injEq] at e
      exact e.2 ▸ hPm
    · intro p e
      simp at e
    · intro i hi
      simp only [Shape.infos, Shape.head, List.mem_cons, List.mem_append] at hi
      rcases hi with hi | hi | hi
      · exact h3 i (Or.inr (Or.inl hi))
      · exact h3 i (Or.inr (Or.inr (Or.inl hi)))
      · exact h3 i (Or.inr (Or.inr (Or.inr hi)))
  · intro i hi
    exact tileX_same restP _ _ h h' (fun z hz => hold z (by simp [hz])) hPk
      (fun u e => by simp only [Option.some.injEq] at e; exact e ▸ hPm) i hi (h4 i hi)

/-- The tiling after a parent `P` with the only child `a` has given its
place and its geometry to `a`. -/
theorem collapse_tile_y (h h' : Win → Window) (c1 : Ctx) (P : Win) (kP : Kind) (a : Win)
    (ka : Kind) (cha restP : Shape) (hk : kP ≠ Kind.leaf)
    (hold : ∀ z ∈ ctxHandles c1 ++ (cha.handles ++ restP.handles), SameY h h' z)
    (ha : (h' a).top = (h P).top ∧ (h' a).height = (h P).height)
    (ht : ∀ i ∈ (plug c1 (Shape.node P kP (Shape.node a ka cha Shape.nil)
      restP)).infos none none, TileY h i) :
    ∀ i ∈ (plug c1 (Shape.node a ka cha restP)).infos none none, TileY h' i := by
  rw [forall_infos_plug_node] at ht ⊢
  obtain ⟨h1, h2, h3, h4⟩ := ht
  simp only [Shape.infos, Shape.head, List.mem_cons, List.mem_append, forall_eq_or_imp,
    List.append_nil] at h3
  obtain ⟨ha0, h3⟩ := h3
  have hPk : ∀ k p, hpar c1 = some (k, p) → SameY h h' p := fun k p e =>
    hold p (List.mem_append_left _ (hpar_mem c1 _ p e))
  have hVm : ∀ u, hprev c1 = some u → SameY h h' u := fun u hu =>
    hold u (List.mem_append_left _ (hprev_mem c1 u hu))
  have hsame : SameY h h' a := by
    unfold TileY at ha0
    cases kP with
    | leaf => exact absurd rfl hk
    | hcomb =>
      simp only at ha0
      exact ⟨by rw [ha.1, ha0.1], by rw [ha.2, ha0.2]⟩
    | vcomb =>
      simp only at ha0
      have := ha0.2 trivial
      exact ⟨by rw [ha.1, ha0.1], by rw [ha.2]; omega⟩
  refine ⟨tileY_ctx_move c1 _ _ h h' (fun z hz => hold z (List.mem_append_left _ hz))
    (fun e => by cases e) h1, ?_, ?_, ?_⟩
  · exact tileY_move (i := ⟨P, kP, hpar c1, hprev c1, restP.head,
      (Shape.node a ka cha Shape.nil).head⟩) rfl ha hPk
      (fun p e => start_y_same h h' p _ (hPk _ p e) hVm) (fun _ _ e => e) h2
  · intro i hi
    refine tileY_same cha _ _ h h' (fun z hz => hold z (by simp [hz])) ?_ ?_ i hi (h3 i hi)
    · intro k p e
      simp only [Option.some.injEq, Prod.mk.injEq] at e
      exact e.2 ▸ hsame
    · intro u e; cases e
  · refine tileY_chain_move restP (hpar c1) (some P) (some a) h h'
      (fun z hz => hold z (by simp [hz])) hPk ?_ h4
    intro p _
    simp only [start_y]
    rw [ha.1, ha.2]

/-- The tiling along the axis of the parent after the window `w` has gone
and its previous window `v` has taken over its size. -/
theorem delete_tile_x_prev (h h' : Win → Window) (c0 : Ctx) (v : Win) (kv : Kind) (chv : Shape)
    (w : Win) (k : Kind) (ch rest : Shape) (P : Win)
    (hp : hpar c0 = some (Kind.hcomb, P))
    (hold : ∀ z ∈ ctxHandles c0 ++ rest.handles, SameX h h' z)
    (hv : (h' v).left = (h v).left ∧ (h' v).width = (h v).width + (h w).width)
    (hchv : ∀ i ∈ chv.infos (some (kv, v)) none, TileX h' i)
    (ht : ∀ i ∈ (plug c0 (Shape.node v kv chv (Shape.node w k ch rest))).infos none none,
      TileX h i) :
    ∀ i ∈ (plug c0 (Shape.node v kv chv rest)).infos none none, TileX h' i := by
  rw [forall_infos_plug_node] at ht ⊢
  obtain ⟨h1, h2, -, h4⟩ := ht
  simp only [Shape.infos, Shape.head, List.mem_cons, List.mem_append, forall_eq_or_imp] at h4
  obtain ⟨hw, h4⟩ := h4
  have hPm : SameX h h' P := hold P (List.mem_append_left _ (hpar_mem c0 _ P hp))
  have hVm : ∀ u, hprev c0 = some u → SameX h h' u := fun u hu =>
    hold u (List.mem_append_left _ (hprev_mem c0 u hu))
  have hst := start_x_same h h' P (hprev c0) hPm hVm
  have hPk : ∀ k p, hpar c0 = some (k, p) → SameX h h' p := fun k p e =>
    hold p (List.mem_append_left _ (hpar_mem c0 _ p e))
  unfold TileX at h2 hw
  simp only [hp] at h2 hw
  change (h v).left = start_x h P (hprev c0) ∧ _ at h2
  refine ⟨tileX_ctx_move c0 _ _ h h' (fun z hz => hold z (List.mem_append_left _ hz))
    (fun e => e) h1, ?_, hchv, ?_⟩
  · unfold TileX
    simp only [hp]
    change (h' v).left = start_x h' P (hprev c0) ∧ _
    rw [hst, hv.1, hv.2, hPm.1, hPm.2]
    refine ⟨h2.1, fun e => ?_⟩
    have := hw.2 e
    omega
  · refine tileX_chain_move rest (hpar c0) (some w) (some v) h h'
      (fun z hz => hold z (List.mem_append_right _ hz)) hPk ?_ (fun i hi => h4 i (Or.inr hi))
    intro p _
    simp only [start_x]
    rw [hv.1, hv.2]
    omega

/-- The tiling across the axis of the parent after the window `w` has gone. -/
theorem delete_cross_y_prev (h h' : Win → Window) (c0 : Ctx) (v : Win) (kv : Kind)
    (chv : Shape) (w : Win) (k : Kind) (ch rest : Shape) (P : Win)
    (hp : hpar c0 = some (Kind.hcomb, P))
    (hold : ∀ z ∈ ctxHandles c0 ++ (v :: chv.handles ++ rest.handles), SameY h h' z)
    (ht : ∀ i ∈ (plug c0 (Shape.node v kv chv (Shape.node w k ch rest))).infos none none,
      TileY h i) :
    ∀ i ∈ (plug c0 (Shape.node v kv chv rest)).infos none none, TileY h' i := by
  rw [forall_infos_plug_node] at ht ⊢
  obtain ⟨h1, h2, h3, h4⟩ := ht
  simp only [Shape.infos, Shape.head, List.mem_cons, List.mem_append, forall_eq_or_imp] at h4
  obtain ⟨-, h4⟩ := h4
  have hPk : ∀ k p, hpar c0 = some (k, p) → SameY h h' p := fun k p e =>
    hold p (List.mem_append_left _ (hpar_mem c0 _ p e))
  have hno : ∀ p, hpar c0 ≠ some (Kind.vcomb, p) := fun p e => by
    rw [hp] at e
    simp at e
  have hvm : SameY h h' v := hold v (by simp)
  refine ⟨tileY_ctx_move c0 _ _ h h' (fun z hz => hold z (List.mem_append_left _ hz))
    (fun e => e) h1, ?_, ?_, ?_⟩
  · exact tileY_move (i := ⟨v, kv, hpar c0, hprev c0, some w, chv.head⟩) rfl hvm hPk
      (fun p e => absurd e (hno p)) (fun p e => absurd e (hno p)) h2
  · intro i hi
    refine tileY_same chv _ _ h h' (fun z hz => hold z (by simp [hz])) ?_ ?_ i hi (h3 i hi)
    · intro k p e
      simp only [Option.some.injEq, Prod.mk.injEq] at e
      exact e.2 ▸ hvm
    · intro u e; cases e
  · exact tileY_chain_move rest (hpar c0) (some w) (some v) h h'
      (fun z hz => hold z (by simp [hz])) hPk (fun p e => absurd e (hno p))
      (fun i hi => h4 i (Or.inr hi))

/-- The tiling along the axis of the parent `P` after its first child `w`
has gone and the next window `n` has taken over its origin and its size. -/
theorem delete_tile_x_next (h h' : Win → Window) (c0 : Ctx) (P w : Win) (k : Kind) (ch : Shape)
    (n : Win) (kn : Kind) (chn restn restP : Shape)
    (hold : ∀ z ∈ ctxHandles c0 ++ P :: (restn.handles ++ restP.handles), SameX h h' z)
    (hn : (h' n).left = (h w).left ∧ (h' n).width = (h n).width + (h w).width)
    (hchn : ∀ i ∈ chn.infos (some (kn, n)) none, TileX h' i)
    (ht : ∀ i ∈ (plug c0 (Shape.node P Kind.hcomb
      (Shape.node w k ch (Shape.node n kn chn restn)) restP)).infos none none, TileX h i) :
    ∀ i ∈ (plug c0 (Shape.node P Kind.hcomb (Shape.node n kn chn restn) restP)).infos none none,
      TileX h' i := by
  rw [forall_infos_plug_node] at ht ⊢
  obtain ⟨h1, h2, h3, h4⟩ := ht
  simp only [Shape.infos, List.mem_cons, List.mem_append, forall_eq_or_imp] at h3
  obtain ⟨hw, h3⟩ := h3
  have hn0 := h3 _ (Or.inr (Or.inl rfl))
  have h3r : ∀ i ∈ restn.infos (some (Kind.hcomb, P)) (some n), TileX h i := fun i hi =>
    h3 i (Or.inr (Or.inr (Or.inr hi)))
  have hPm : SameX h h' P := hold P (by simp)
  have hPk : ∀ k p, hpar c0 = some (k, p) → SameX h h' p := fun k p e =>
    hold p (List.mem_append_left _ (hpar_mem c0 _ p e))
  have hVm : ∀ u, hprev c0 = some u → SameX h h' u := fun u hu =>
    hold u (List.mem_append_left _ (hprev_mem c0 u hu))
  unfold TileX at hw hn0
  simp only at hw hn0
  refine ⟨tileX_ctx_move c0 _ _ h h' (fun z hz => hold z (List.mem_append_left _ hz))
    (fun e => e) h1, ?_, ?_, ?_⟩
  · exact tileX_move (i := ⟨P, Kind.hcomb, hpar c0, hprev c0, restP.head, some w⟩) rfl hPm hPk
      (fun p e => start_x_same h h' p _ (hPk _ p e) hVm) (fun _ _ e => e) h2
  · intro i hi
    simp only [Shape.infos, Shape.head, List.mem_cons, List.mem_append] at hi
    rcases hi with hi | hi | hi
    · subst hi
      unfold TileX
      simp only
      rw [hn.1, hn.2, hPm.1, hPm.2]
      refine ⟨hw.1, fun e => ?_⟩
      have := hn0.2 e
      omega
    · exact hchn i hi
    · refine tileX_chain_move restn _ (some n) (some n) h h'
        (fun z hz => hold z (by simp [hz])) ?_ ?_ h3r i hi
      · intro k p e
        simp only [Option.some.injEq, Prod.mk.injEq] at e
        exact e.2 ▸ hPm
      · intro p _
        simp only [start_x]
        rw [hn.1, hn.2]
        omega
  · intro i hi
    exact tileX_same restP _ _ h h' (fun z hz => hold z (by simp [hz])) hPk
      (fun u e => by simp only [Option.some.injEq] at e; exact e ▸ hPm) i hi (h4 i hi)

/-- The tiling across the axis of the parent `P` after its first child has
gone. -/
theorem delete_cross_y_next (h h' : Win → Window) (c0 : Ctx) (P w : Win) (k : Kind)
    (ch : Shape) (n : Win) (kn : Kind) (chn restn restP : Shape)
    (hold : ∀ z ∈ ctxHandles c0 ++ P :: ((Shape.node n kn chn restn).handles ++ restP.handles),
      SameY h h' z)
    (ht : ∀ i ∈ (plug c0 (Shape.node P Kind.hcomb
      (Shape.node w k ch (Shape.node n kn chn restn)) restP)).infos none none, TileY h i) :
    ∀ i ∈ (plug c0 (Shape.node P Kind.hcomb (Shape.node n kn chn restn) restP)).infos none none,
      TileY h' i := by
  rw [forall_infos_plug_node] at ht ⊢
  obtain ⟨h1, h2, h3, h4⟩ := ht
  simp only [Shape.infos, List.mem_cons, List.mem_append, forall_eq_or_imp] at h3
  obtain ⟨-, h3⟩ := h3
  have hPm : SameY h h' P := hold P (by simp)
  have hPk : ∀ k p, hpar c0 = some (k, p) → SameY h h' p := fun k p e =>
    hold p (List.mem_append_left _ (hpar_mem c0 _ p e))
  have hVm : ∀ u, hprev c0 = some u → SameY h h' u := fun u hu =>
    hold u (List.mem_append_left _ (hprev_mem c0 u hu))
  refine ⟨tileY_ctx_move c0 _ _ h h' (fun z hz => hold z (List.mem_append_left _ hz))
    (fun e => e) h1, ?_, ?_, ?_⟩
  · exact tileY_move (i := ⟨P, Kind.hcomb, hpar c0, hprev c0, restP.head, some w⟩) rfl hPm hPk
      (fun p e => start_y_same h h' p _ (hPk _ p e) hVm) (fun _ _ e => e) h2
  · refine tileY_chain_move (Shape.node n kn chn restn) _ (some w) none h h'
      (fun z hz => hold z (by simp only [List.mem_append, List.mem_cons]; tauto)) ?_ ?_ ?_
    · intro k p e
      simp only [Option.some.injEq, Prod.mk.injEq] at e
      exact e.2 ▸ hPm
    · intro p e
      simp at e
    · intro i hi
      simp only [Shape.infos, Shape.head, List.mem_cons, List.mem_append] at hi
      rcases hi with hi | hi | hi
      · exact h3 i (Or.inr (Or.inl hi))
      · exact h3 i (Or.inr (Or.inr (Or.inl hi)))
      · exact h3 i (Or.inr (Or.inr (Or.inr hi)))
  · intro i hi
    exact tileY_same restP _ _ h h' (fun z hz => hold z (by simp [hz])) hPk
      (fun u e => by simp only [Option.some.injEq] at e; exact e ▸ hPm) i hi (h4 i hi)

/-- The tiling after a parent `P` with the only child `a` has given its
place and its geometry to `a`. -/
theorem collapse_tile_x (h h' : Win → Window) (c1 : Ctx) (P : Win) (kP : Kind) (a : Win)
    (ka : Kind) (cha restP : Shape) (hk : kP ≠ Kind.leaf)
    (hold : ∀ z ∈ ctxHandles c1 ++ (cha.handles ++ restP.handles), SameX h h' z)
    (ha : (h' a).left = (h P).left ∧ (h' a).width = (h P).width)
    (ht : ∀ i ∈ (plug c1 (Shape.node P kP (Shape.node a ka cha Shape.nil)
      restP)).infos none none, TileX h i) :
    ∀ i ∈ (plug c1 (Shape.node a ka cha restP)).infos none none, TileX h' i := by
  rw [forall_infos_plug_node] at ht ⊢
  obtain ⟨h1, h2, h3, h4⟩ := ht
  simp only [Shape.infos, Shape.head, List.mem_cons, List.mem_append, forall_eq_or_imp,
    List.append_nil] at h3
  obtain ⟨ha0, h3⟩ := h3
  have hPk : ∀ k p, hpar c1 = some (k, p) → SameX h h' p := fun k p e =>
    hold p (List.mem_append_left _ (hpar_mem c1 _ p e))
  have hVm : ∀ u, hprev c1 = some u → SameX h h' u := fun u hu =>
    hold u (List.mem_append_left _ (hprev_mem c1 u hu))
  have hsame : SameX h h' a := by
    unfold TileX at ha0
    cases kP with
    | leaf => exact absurd rfl hk
    | vcomb =>
      simp only at ha0
      exact ⟨by rw [ha.1, ha0.1], by rw [ha.2, ha0.2]⟩
    | hcomb =>
      simp only at ha0
      have := ha0.2 trivial
      exact ⟨by rw [ha.1, ha0.1], by rw [ha.2]; omega⟩
  refine ⟨tileX_ctx_move c1 _ _ h h' (fun z hz => hold z (List.mem_append_left _ hz))
    (fun e => by cases e) h1, ?_, ?_, ?_⟩
  · exact tileX_move (i := ⟨P, kP, hpar c1, hprev c1, restP.head,
      (Shape.node a ka cha Shape.nil).head⟩) rfl ha hPk
      (fun p e => start_x_same h h' p _ (hPk _ p e) hVm) (fun _ _ e => e) h2
  · intro i hi
    refine tileX_same cha _ _ h h' (fun z hz => hold z (by simp [hz])) ?_ ?_ i hi (h3 i hi)
    · intro k p e
      simp only [Option.some.injEq, Prod.mk.injEq] at e
      exact e.2 ▸ hsame
    · intro u e; cases e
  · refine tileX_chain_move restP (hpar c1) (some P) (some a) h h'
      (fun z hz => hold z (by simp [hz])) hPk ?_ h4
    intro p _
    simp only [start_x]
    rw [ha.1, ha.2]

theorem unlinked_size (s : State) (w x : Win) :
    (unlinked s w x).width = (s.windows x).width
      ∧ (unlinked s w x).height = (s.windows x).height := by
  unfold unlinked
  split_ifs <;> exact ⟨rfl, rfl⟩

theorem unlinked_origin (s : State) (w x : Win)
    (h : (s.windows w).next = some x → (s.windows w).prev ≠ none) :
    (unlinked s w x).left = (s.windows x).left ∧ (unlinked s w x).top = (s.windows x).top := by
  unfold unlinked
  by_cases h1 : (s.windows w).next = some x
  · rw [if_pos h1]
    simp [h h1]
  · rw [if_neg h1]
    split_ifs <;> exact ⟨rfl, rfl⟩

theorem unlinked_origin_next (s : State) (w x : Win) (h1 : (s.windows w).next = some x)
    (h2 : (s.windows w).prev = none) :
    (unlinked s w x).left = (s.windows w).left ∧ (unlinked s w x).top = (s.windows w).top := by
  unfold unlinked
  rw [if_pos h1]
  simp [h2]

theorem core_geometry {a b : Window} (h : a.core = b.core) :
    a.left = b.left ∧ a.top = b.top ∧ a.width = b.width ∧ a.height = b.height := by
  rw [core_eq_iff] at h
  exact ⟨h.1, h.2.1, h.2.2.1, h.2.2.2.1⟩

theorem yless_geometry {a b : Window} (h : a.yless = b.yless) :
    a.left = b.left ∧ a.width = b.width := by
  have e1 := congrArg Window.left h
  have e2 := congrArg Window.width h
  exact ⟨e1, e2⟩

theorem xless_geometry {a b : Window} (h : a.xless = b.xless) :
    a.top = b.top ∧ a.height = b.height := by
  have e1 := congrArg Window.top h
  have e2 := congrArg Window.height h
  exact ⟨e1, e2⟩

theorem tileY_same_inner (t : Shape) (h h' : Win → Window)
    (hag : ∀ z ∈ t.handles, SameY h h' z) (i : NodeInfo) (hi : i ∈ t.inner)
    (ht : TileY h i) : TileY h' i := by
  induction t with
  | nil => simp [Shape.inner] at hi
  | node y ky chy rest _ ihr =>
    simp only [Shape.inner, List.mem_append] at hi
    rcases hi with hi | hi
    · refine tileY_same chy (some (ky, y)) none h h' (fun z hz => hag z ?_) ?_ ?_ i hi ht
      · simp [Shape.handles, hz]
      · intro k p e
        simp only [Option.some.injEq, Prod.mk.injEq] at e
        rw [← e.2]
        exact hag y (by simp [Shape.handles])
      · intro u e
        exact absurd e (by simp)
    · exact ihr (fun z hz => hag z (by simp [Shape.handles, hz])) hi

theorem sum_height_same (h h' : Win → Window) (l : List Win)
    (hag : ∀ z ∈ l, (h' z).height = (h z).height) : sum_height h' l = sum_height h l := by
  unfold sum_height
  congr 1
  exact List.map_congr_left (fun z hz => hag z hz)

theorem tops_ctxChain : ∀ (c : Ctx) (t : Shape), ∃ pre, (ctxChain c t).tops = pre ++ t.tops := by
  intro c
  induction c with
  | nil => exact fun t => ⟨[], rfl⟩
  | cons f c ih =>
    intro t
    cases f with
    | right v kv chv =>
      obtain ⟨pre, hpre⟩ := ih (Shape.node v kv chv t)
      exact ⟨pre ++ [v], by rw [show ctxChain (Frame.right v kv chv :: c) t
        = ctxChain c (Shape.node v kv chv t) from rfl, hpre]; simp [Shape.tops]⟩
    | down P kP restP => exact ⟨[], rfl⟩

/-- The window `w` and the sibling that gets its space when `w` is deleted
are together at most as high as their parent, a vertical combination that its
children tile, when no height is negative. -/
theorem pair_le_parent_y (s : State) (scr : Scr) (f : Frame) (c0 : Ctx) (w : Win) (k : Kind)
    (ch rest : Shape) (P sib : Win)
    (hty : ∀ i ∈ (plug (f :: c0) (Shape.node w k ch rest)).infos none none, TileY s.windows i)
    (hnn : ∀ z ∈ (plug (f :: c0) (Shape.node w k ch rest)).handles, 0 ≤ (s.windows z).height)
    (hp : hpar (f :: c0) = some (Kind.vcomb, P))
    (hsib : some sib = (match hprev (f :: c0) with
      | some v => some v
      | none => rest.head)) :
    (s.windows sib).height + (s.windows w).height ≤ (s.windows P).height := by
  obtain ⟨restP, c1, hab⟩ := above_of_hpar (f :: c0) Kind.vcomb P hp
  have hpl : plug (f :: c0) (Shape.node w k ch rest)
      = plug c1 (Shape.node P Kind.vcomb (ctxChain (f :: c0) (Shape.node w k ch rest)) restP) := by
    rw [← plug_above, hab]; rfl
  rw [hpl, forall_infos_plug_node] at hty
  obtain ⟨-, -, hFC, -⟩ := hty
  have hnnF : ∀ z ∈ (ctxChain (f :: c0) (Shape.node w k ch rest)).tops,
      0 ≤ (s.windows z).height := by
    intro z hz
    refine hnn z ?_
    rw [hpl, (handles_plug _ _).mem_iff]
    simp only [Shape.handles, List.mem_append, List.mem_cons]
    exact Or.inr (Or.inr (Or.inl (tops_sub_handles _ z hz)))
  have hne : ctxChain (f :: c0) (Shape.node w k ch rest) ≠ Shape.nil := by
    obtain ⟨pre, hpre⟩ := tops_ctxChain (f :: c0) (Shape.node w k ch rest)
    intro e
    rw [e] at hpre
    simp [Shape.tops] at hpre
  have hsum := sum_height_of_tile s.windows P _ none hFC hne
  simp only [start_y] at hsum
  cases f with
  | right v kv chv =>
    simp only [hprev, Option.some.injEq] at hsib
    subst hsib
    obtain ⟨pre, hpre⟩ := tops_ctxChain c0 (Shape.node sib kv chv (Shape.node w k ch rest))
    have hpre' : (ctxChain (Frame.right sib kv chv :: c0) (Shape.node w k ch rest)).tops
        = pre ++ sib :: w :: rest.tops := hpre
    rw [hpre'] at hsum hnnF
    rw [sum_height_append, sum_height_cons, sum_height_cons] at hsum
    have h1 := sum_height_nonneg s.windows pre (fun z hz => hnnF z (by simp [hz]))
    have h2 := sum_height_nonneg s.windows rest.tops (fun z hz => hnnF z (by simp [hz]))
    omega
  | down P' kP restP' =>
    simp only [hprev] at hsib
    cases rest with
    | nil => simp [Shape.head] at hsib
    | node n kn chn restn =>
      simp only [Shape.head, Option.some.injEq] at hsib
      subst hsib
      have hpre' : (ctxChain (Frame.down P' kP restP' :: c0)
          (Shape.node w k ch (Shape.node sib kn chn restn))).tops = w :: sib :: restn.tops := rfl
      rw [hpre'] at hsum hnnF
      rw [sum_height_cons, sum_height_cons] at hsum
      have h2 := sum_height_nonneg s.windows restn.tops (fun z hz => hnnF z (by simp [hz]))
      omega

/-- What `set_window_height (x, v, 1)` does on a window of a well-formed
tree whose windows below `x` have non-negative heights and tiled `x` in a
store `s` with the same heights: if it returns, `x` has the height `v` and
the windows below tile it again. -/
theorem resize_sib_y (E : Ext) (scr : Scr) (fuel : Nat) (s s8 : State) (c : Ctx)
    (x : Win) (k : Kind) (ch rest : Shape) (v : Int)
    (hrep8 : Rep s8 scr (plug c (Shape.node x k ch rest))) (hv : 0 ≤ v)
    (hx : (s8.windows x).height = (s.windows x).height)
    (hsame : ∀ z ∈ ch.handles, SameY s.windows s8.windows z)
    (hnn : ∀ z ∈ ch.handles, 0 ≤ (s.windows z).height)
    (ht : ∀ i ∈ ch.infos (some (k, x)) none, TileY s.windows i)
    (hvb : v ≤ 32767) (hB : ∀ z ∈ x :: ch.handles, (s.windows z).height ≤ 32767) :
    (set_window_height E fuel s8 x v true).Sat fun _ s9 =>
      Rep s9 scr (plug c (Shape.node x k ch rest)) ∧ s9.nalloc = s8.nalloc
        ∧ (∀ z, SameX s8.windows s9.windows z)
        ∧ (∀ z, z ≠ x → z ∉ ch.handles → SameY s8.windows s9.windows z)
        ∧ ((s9.windows x).top = (s8.windows x).top ∧ (s9.windows x).height = v)
        ∧ ∀ i ∈ ch.infos (some (k, x)) none, TileY s9.windows i := by
  have hnd := rep_nodup_node s8 scr c x k ch rest hrep8
  refine (set_window_height_out E scr fuel s8 c x k ch rest v hrep8).to_sat.mono ?_
  rintro _ s9 ⟨e, ho⟩
  obtain ⟨f1, f2⟩ := resize_node_y_frame _ _ _ _ _ _ e
  have hy := resize_node_y_yless _ _ _ _ _ _ e
  obtain ⟨g1, -, g3, -⟩ := others_fields ho
  have := resize_node_y_tiled_of s8.windows s9.windows x k ch v (resize_y_tiled ch) e hnd hv
    (fun z hz => by rw [(hsame z hz).2]; exact hnn z hz)
    (fun i hi => tileY_same_inner ch _ _ hsame i hi (ht i (inner_sub ch _ _ i hi)))
    (fun hk hne => by
      subst hk
      have := sum_height_of_tile s.windows x ch none ht hne
      simp only [start_y] at this
      rw [sum_height_same s.windows s8.windows _
        (fun z hz => (hsame z (tops_sub_handles ch z hz)).2), hx]
      omega)
    hvb (fun z hz => by rw [(hsame z hz).2]; exact hB z (List.mem_cons_of_mem _ hz))
    (by rw [hx]; exact hB x (List.mem_cons_self _ _))
  refine ⟨rep_of_links s8 s9 scr _ hrep8 g3 (by rw [g1]) fun z _ => links_of_yless (hy z), g3,
    fun z => ?_, fun z h1 h2 => ?_, ?_, this.1⟩
  · obtain ⟨a, b⟩ := yless_geometry (hy z)
    exact ⟨a, b⟩
  · rw [SameY, f1 z h1 h2]
    exact ⟨rfl, rfl⟩
  · rw [f2 (List.nodup_cons.1 hnd).1]
    exact ⟨rfl, rfl⟩

theorem core_geometry_y {a b : Window} (h : a.core = b.core) :
    a.top = b.top ∧ a.height = b.height := by
  have e1 := congrArg Window.top h
  have e2 := congrArg Window.height h
  exact ⟨e1, e2⟩

theorem unlinked_height (s : State) (w x : Win) :
    (unlinked s w x).height = (s.windows x).height := by
  unfold unlinked
  split_ifs <;> rfl

theorem unlinked_top (s : State) (w x : Win)
    (h : (s.windows w).next = some x → (s.windows w).prev ≠ none) :
    (unlinked s w x).top = (s.windows x).top := by
  unfold unlinked
  by_cases h1 : (s.windows w).next = some x
  · rw [if_pos h1]
    simp [h h1]
  · rw [if_neg h1]
    split_ifs <;> rfl

theorem unlinked_top_next (s : State) (w x : Win) (h1 : (s.windows w).next = some x)
    (h2 : (s.windows w).prev = none) : (unlinked s w x).top = (s.windows w).top := by
  unfold unlinked
  rw [if_pos h1]
  simp [h2]

theorem butCore_height {a b : Window}
    (h : ({ a.core with buffer := BufSlot.nil } : Window) = { b.core with buffer := BufSlot.nil }) :
    a.height = b.height := by
  have e := congrArg Window.height h
  simpa [Window.core] using e

/-- The vertical geometry of the windows other than `w` after `w` has been
unlinked: only the next window of a first child `w` has moved, to the top of
`w`. -/
theorem unlinked_same_y (s s8 : State) (w : Win)
    (hcore : ∀ x, x ≠ w → (s8.windows x).core = (unlinked s w x).core) (z : Win) (hz : z ≠ w) :
    (s8.windows z).height = (s.windows z).height
      ∧ (((s.windows w).next = some z → (s.windows w).prev ≠ none) →
          (s8.windows z).top = (s.windows z).top)
      ∧ ((s.windows w).next = some z → (s.windows w).prev = none →
          (s8.windows z).top = (s.windows w).top) := by
  obtain ⟨a, b⟩ := core_geometry_y (hcore z hz)
  exact ⟨b.trans (unlinked_height s w z), fun h => a.trans (unlinked_top s w z h),
    fun h1 h2 => a.trans (unlinked_top_next s w z h1 h2)⟩

theorem core_geometry_x {a b : Window} (h : a.core = b.core) :
    a.left = b.left ∧ a.width = b.width := by
  have e1 := congrArg Window.left h
  have e2 := congrArg Window.width h
  exact ⟨e1, e2⟩

theorem unlinked_width (s : State) (w y : Win) :
    (unlinked s w y).width = (s.windows y).width := by
  unfold unlinked
  split_ifs <;> rfl

theorem unlinked_left (s : State) (w y : Win)
    (h : (s.windows w).next = some y → (s.windows w).prev ≠ none) :
    (unlinked s w y).left = (s.windows y).left := by
  unfold unlinked
  by_cases h1 : (s.windows w).next = some y
  · rw [if_pos h1]
    simp [h h1]
  · rw [if_neg h1]
    split_ifs <;> rfl

theorem unlinked_left_next (s : State) (w y : Win) (h1 : (s.windows w).next = some y)
    (h2 : (s.windows w).prev = none) : (unlinked s w y).left = (s.windows w).left := by
  unfold unlinked
  rw [if_pos h1]
  simp [h2]

theorem butCore_width {a b : Window}
    (h : ({ a.core with buffer := BufSlot.nil } : Window) = { b.core with buffer := BufSlot.nil }) :
    a.width = b.width := by
  have e := congrArg Window.width h
  simpa [Window.core] using e

/-- The horizontal geometry of the windows other than `w` after `w` has been
unlinked: only the next window of a first child `w` has moved, to the left of
`w`. -/
theorem unlinked_same_x (s s8 : State) (w : Win)
    (hcore : ∀ y, y ≠ w → (s8.windows y).core = (unlinked s w y).core) (z : Win) (hz : z ≠ w) :
    (s8.windows z).width = (s.windows z).width
      ∧ (((s.windows w).next = some z → (s.windows w).prev ≠ none) →
          (s8.windows z).left = (s.windows z).left)
      ∧ ((s.windows w).next = some z → (s.windows w).prev = none →
          (s8.windows z).left = (s.windows w).left) := by
  obtain ⟨a, b⟩ := core_geometry_x (hcore z hz)
  exact ⟨b.trans (unlinked_width s w z), fun h => a.trans (unlinked_left s w z h),
    fun h1 h2 => a.trans (unlinked_left_next s w z h1 h2)⟩

theorem tileX_same_inner (t : Shape) (h h' : Win → Window)
    (hag : ∀ z ∈ t.handles, SameX h h' z) (i : NodeInfo) (hi : i ∈ t.inner)
    (ht : TileX h i) : TileX h' i := by
  induction t with
  | nil => simp [Shape.inner] at hi
  | node x ky chy rest _ ihr =>
    simp only [Shape.inner, List.mem_append] at hi
    rcases hi with hi | hi
    · refine tileX_same chy (some (ky, x)) none h h' (fun z hz => hag z ?_) ?_ ?_ i hi ht
      · simp [Shape.handles, hz]
      · intro k p e
        simp only [Option.some.injEq, Prod.mk.injEq] at e
        rw [← e.2]
        exact hag x (by simp [Shape.handles])
      · intro u e
        exact absurd e (by simp)
    · exact ihr (fun z hz => hag z (by simp [Shape.handles, hz])) hi

theorem sum_width_same (h h' : Win → Window) (l : List Win)
    (hag : ∀ z ∈ l, (h' z).width = (h z).width) : sum_width h' l = sum_width h l := by
  unfold sum_width
  congr 1
  exact List.map_congr_left (fun z hz => hag z hz)

/-- The window `w` and the sibling that gets its space when `w` is deleted
are together at most as wide as their parent, a horizontal combination that its
children tile, when no width is negative. -/
theorem pair_le_parent_x (s : State) (scr : Scr) (f : Frame) (c0 : Ctx) (w : Win) (k : Kind)
    (ch rest : Shape) (P sib : Win)
    (hty : ∀ i ∈ (plug (f :: c0) (Shape.node w k ch rest)).infos none none, TileX s.windows i)
    (hnn : ∀ z ∈ (plug (f :: c0) (Shape.node w k ch rest)).handles, 0 ≤ (s.windows z).width)
    (hp : hpar (f :: c0) = some (Kind.hcomb, P))
    (hsib : some sib = (match hprev (f :: c0) with
      | some v => some v
      | none => rest.head)) :
    (s.windows sib).width + (s.windows w).width ≤ (s.windows P).width := by
  obtain ⟨restP, c1, hab⟩ := above_of_hpar (f :: c0) Kind.hcomb P hp
  have hpl : plug (f :: c0) (Shape.node w k ch rest)
      = plug c1 (Shape.node P Kind.hcomb (ctxChain (f :: c0) (Shape.node w k ch rest)) restP) := by
    rw [← plug_above, hab]; rfl
  rw [hpl, forall_infos_plug_node] at hty
  obtain ⟨-, -, hFC, -⟩ := hty
  have hnnF : ∀ z ∈ (ctxChain (f :: c0) (Shape.node w k ch rest)).tops,
      0 ≤ (s.windows z).width := by
    intro z hz
    refine hnn z ?_
    rw [hpl, (handles_plug _ _).mem_iff]
    simp only [Shape.handles, List.mem_append, List.mem_cons]
    exact Or.inr (Or.inr (Or.inl (tops_sub_handles _ z hz)))
  have hne : ctxChain (f :: c0) (Shape.node w k ch rest) ≠ Shape.nil := by
    obtain ⟨pre, hpre⟩ := tops_ctxChain (f :: c0) (Shape.node w k ch rest)
    intro e
    rw [e] at hpre
    simp [Shape.tops] at hpre
  have hsum := sum_width_of_tile s.windows P _ none hFC hne
  simp only [start_x] at hsum
  cases f with
  | right v kv chv =>
    simp only [hprev, Option.some.injEq] at hsib
    subst hsib
    obtain ⟨pre, hpre⟩ := tops_ctxChain c0 (Shape.node sib kv chv (Shape.node w k ch rest))
    have hpre' : (ctxChain (Frame.right sib kv chv :: c0) (Shape.node w k ch rest)).tops
        = pre ++ sib :: w :: rest.tops := hpre
    rw [hpre'] at hsum hnnF
    rw [sum_width_append, sum_width_cons, sum_width_cons] at hsum
    have h1 := sum_width_nonneg s.windows pre (fun z hz => hnnF z (by simp [hz]))
    have h2 := sum_width_nonneg s.windows rest.tops (fun z hz => hnnF z (by simp [hz]))
    omega
  | down P' kP restP' =>
    simp only [hprev] at hsib
    cases rest with
    | nil => simp [Shape.head] at hsib
    | node n kn chn restn =>
      simp only [Shape.head, Option.some.injEq] at hsib
      subst hsib
      have hpre' : (ctxChain (Frame.down P' kP restP' :: c0)
          (Shape.node w k ch (Shape.node sib kn chn restn))).tops = w :: sib :: restn.tops := rfl
      rw [hpre'] at hsum hnnF
      rw [sum_width_cons, sum_width_cons] at hsum
      have h2 := sum_width_nonneg s.windows restn.tops (fun z hz => hnnF z (by simp [hz]))
      omega

/-- What `set_window_width (y, v, 1)` does on a window of a well-formed
tree whose windows below `y` have non-negative widths and tiled `y` in a
store `s` with the same widths: if it returns, `y` has the width `v` and
the windows below tile it again. -/
theorem resize_sib_x (E : Ext) (scr : Scr) (fuel : Nat) (s s8 : State) (c : Ctx)
    (y : Win) (k : Kind) (ch rest : Shape) (v : Int)
    (hrep8 : Rep s8 scr (plug c (Shape.node y k ch rest))) (hv : 0 ≤ v)
    (hx : (s8.windows y).width = (s.windows y).width)
    (hsame : ∀ z ∈ ch.handles, SameX s.windows s8.windows z)
    (hnn : ∀ z ∈ ch.handles, 0 ≤ (s.windows z).width)
    (ht : ∀ i ∈ ch.infos (some (k, y)) none, TileX s.windows i)
    (hvb : v ≤ 32767) (hB : ∀ z ∈ y :: ch.handles, (s.windows z).width ≤ 32767) :
    (set_window_width E fuel s8 y v true).Sat fun _ s9 =>
      Rep s9 scr (plug c (Shape.node y k ch rest)) ∧ s9.nalloc = s8.nalloc
        ∧ (∀ z, SameY s8.windows s9.windows z)
        ∧ (∀ z, z ≠ y → z ∉ ch.handles → SameX s8.windows s9.windows z)
        ∧ ((s9.windows y).left = (s8.windows y).left ∧ (s9.windows y).width = v)
        ∧ ∀ i ∈ ch.infos (some (k, y)) none, TileX s9.windows i := by
  have hnd := rep_nodup_node s8 scr c y k ch rest hrep8
  refine (set_window_width_out E scr fuel s8 c y k ch rest v hrep8).to_sat.mono ?_
  rintro _ s9 ⟨e, ho⟩
  obtain ⟨f1, f2⟩ := resize_node_x_frame _ _ _ _ _ _ e
  have hy := resize_node_x_xless _ _ _ _ _ _ e
  obtain ⟨g1, -, g3, -⟩ := others_fields ho
  have := resize_node_x_tiled_of s8.windows s9.windows y k ch v (resize_x_tiled ch) e hnd hv
    (fun z hz => by rw [(hsame z hz).2]; exact hnn z hz)
    (fun i hi => tileX_same_inner ch _ _ hsame i hi (ht i (inner_sub ch _ _ i hi)))
    (fun hk hne => by
      subst hk
      have := sum_width_of_tile s.windows y ch none ht hne
      simp only [start_x] at this
      rw [sum_width_same s.windows s8.windows _
        (fun z hz => (hsame z (tops_sub_handles ch z hz)).2), hx]
      omega)
    hvb (fun z hz => by rw [(hsame z hz).2]; exact hB z (List.mem_cons_of_mem _ hz))
    (by rw [hx]; exact hB y (List.mem_cons_self _ _))
  refine ⟨rep_of_links s8 s9 scr _ hrep8 g3 (by rw [g1]) fun z _ => links_of_xless (hy z), g3,
    fun z => ?_, fun z h1 h2 => ?_, ?_, this.1⟩
  · obtain ⟨a, b⟩ := xless_geometry (hy z)
    exact ⟨a, b⟩
  · rw [SameX, f1 z h1 h2]
    exact ⟨rfl, rfl⟩
  · rw [f2 (List.nodup_cons.1 hnd).1]
    exact ⟨rfl, rfl⟩

/-- The resize step of `Fdelete_window` below a vertical combination: after
the window `w` has been taken out of a well-formed tree with non-negative
heights of at most 32767, `set_window_height` on its sibling restores the
tiling. -/
theorem delete_resize_y (E : Ext) (scr : Scr) (fuel : Nat) (s s8 : State) (f : Frame)
    (c0 : Ctx) (w : Win) (k : Kind) (ch rest : Shape) (P sib : Win)
    (hrep : Rep s scr (plug (f :: c0) (Shape.node w k ch rest)))
    (htx : ∀ i ∈ (plug (f :: c0) (Shape.node w k ch rest)).infos none none, TileX s.windows i)
    (hty : ∀ i ∈ (plug (f :: c0) (Shape.node w k ch rest)).infos none none, TileY s.windows i)
    (hnn : ∀ z ∈ (plug (f :: c0) (Shape.node w k ch rest)).handles, 0 ≤ (s.windows z).height)
    (hp : hpar (f :: c0) = some (Kind.vcomb, P))
    (hrep8 : Rep s8 scr (plug (f :: c0) rest))
    (hcore : ∀ x, x ≠ w → (s8.windows x).core = (unlinked s w x).core)
    (hw8 : ({ (s8.windows w).core with buffer := BufSlot.nil } : Window)
      = { (s.windows w).core with buffer := BufSlot.nil })
    (hsib : some sib = (match hprev (f :: c0) with
      | some v => some v
      | none => rest.head))
    (hB : ∀ z ∈ (plug (f :: c0) (Shape.node w k ch rest)).handles,
      (s.windows z).height ≤ 32767) :
    (set_window_height E fuel s8 sib
        ((s8.windows sib).height + (s8.windows w).height) true).Sat fun _ s9 =>
      Rep s9 scr (plug (f :: c0) rest) ∧ s9.nalloc = s8.nalloc
        ∧ (∀ i ∈ (plug (f :: c0) rest).infos none none, TileX s9.windows i)
        ∧ (∀ i ∈ (plug (f :: c0) rest).infos none none, TileY s9.windows i) := by
  obtain ⟨-, hnd, -, -, hlw, -, -⟩ := (rep_plug_node s scr (f :: c0) w k ch rest).1 hrep
  obtain ⟨-, hwv, hwn, -, -⟩ := hlw
  simp only at hwv hwn
  have e7 := butCore_height hw8
  have hmem : ∀ z, z ∈ ctxHandles (f :: c0) ++ rest.handles →
      z ∈ (plug (f :: c0) (Shape.node w k ch rest)).handles := fun z hz => by
    rw [(handles_plug _ _).mem_iff]
    simp only [Shape.handles, List.mem_append, List.mem_cons] at hz ⊢
    tauto
  have hwmem : w ∈ (plug (f :: c0) (Shape.node w k ch rest)).handles :=
    mem_plug_hole _ _ _ (by simp [Shape.handles])
  have hne : ∀ z ∈ ctxHandles (f :: c0) ++ rest.handles, z ≠ w := by
    intro z hz e
    subst e
    obtain ⟨-, hndw, hdisj⟩ := List.nodup_append.1 hnd
    rcases List.mem_append.1 hz with h | h
    · exact hdisj h (List.mem_cons_self _ _)
    · exact (List.nodup_cons.1 hndw).1 (List.mem_append_right _ h)
  have hux := unlinked_same_x s s8 w hcore
  have huy := unlinked_same_y s s8 w hcore
  have hpair := pair_le_parent_y s scr f c0 w k ch rest P sib hty hnn hp hsib
  have hPB : (s.windows P).height ≤ 32767 :=
    hB P (hmem P (List.mem_append_left _ (hpar_mem (f :: c0) _ P hp)))
  cases f with
  | right v kv chv =>
    simp only [hprev, Option.some.injEq] at hsib hwv
    subst hsib
    simp only [hpar] at hp
    have hgx : ∀ z, z ≠ w → SameX s.windows s8.windows z := fun z hz =>
      ⟨(hux z hz).2.1 (fun _ => by rw [hwv]; simp), (hux z hz).1⟩
    have hgy : ∀ z, z ≠ w → SameY s.windows s8.windows z := fun z hz =>
      ⟨(huy z hz).2.1 (fun _ => by rw [hwv]; simp), (huy z hz).1⟩
    have hsw : sib ≠ w := hne sib (by simp [ctxHandles])
    have htx0 := htx
    have hty0 := hty
    rw [show plug (Frame.right sib kv chv :: c0) (Shape.node w k ch rest)
      = plug c0 (Shape.node sib kv chv (Shape.node w k ch rest)) from rfl,
      forall_infos_plug_node] at htx hty
    have hrep8' : Rep s8 scr (plug c0 (Shape.node sib kv chv rest)) := hrep8
    have hnd8 := rep_nodup_node s8 scr c0 sib kv chv rest hrep8'
    obtain ⟨-, hnd8full, -⟩ := (rep_plug_node s8 scr c0 sib kv chv rest).1 hrep8'
    refine (resize_sib_y E scr fuel s s8 c0 sib kv chv rest _ hrep8' ?_ (huy sib hsw).1
      (fun z hz => hgy z (hne z (by simp [ctxHandles, hz])))
      (fun z hz => hnn z (hmem z (by simp [ctxHandles, hz]))) hty.2.2.1 ?_
      (fun z hz => hB z (hmem z (by
        simp only [ctxHandles, List.mem_append, List.mem_cons] at hz ⊢
        tauto)))).mono ?_
    · rw [(huy sib hsw).1, e7]
      have := hnn sib (hmem sib (by simp [ctxHandles]))
      have := hnn w hwmem
      omega
    · rw [(huy sib hsw).1, e7]
      omega
    rintro _ s9 ⟨r1, r2, r3, r4, r5, r6⟩
    have hfar : ∀ z ∈ ctxHandles c0 ++ rest.handles, z ≠ sib ∧ z ∉ chv.handles := by
      intro z hz
      obtain ⟨-, hndw, hdisj⟩ := List.nodup_append.1 hnd8full
      obtain ⟨hs1, hnd2⟩ := List.nodup_cons.1 hndw
      obtain ⟨-, -, hd2⟩ := List.nodup_append.1 hnd2
      rcases List.mem_append.1 hz with h | h
      · exact ⟨fun e => hdisj h (by simp [e]), fun h2 => hdisj h (by simp [h2])⟩
      · exact ⟨fun e => hs1 (by simp [← e, h]), fun h2 => hd2 h2 h⟩
    have hne' : ∀ z ∈ ctxHandles c0 ++ rest.handles, z ≠ w := fun z hz =>
      hne z (by
        simp only [ctxHandles, List.mem_append, List.mem_cons] at hz ⊢
        tauto)
    refine ⟨r1, r2, ?_, ?_⟩
    · refine delete_cross_x_prev s.windows s9.windows c0 sib kv chv w k ch rest P hp ?_
        (by rw [forall_infos_plug_node]; exact htx)
      intro z hz
      have hzw : z ≠ w := hne z (by
        simp only [ctxHandles, List.mem_append, List.mem_cons] at hz ⊢
        tauto)
      exact ⟨(r3 z).1.trans (hgx z hzw).1, (r3 z).2.trans (hgx z hzw).2⟩
    · refine delete_tile_y_prev s.windows s9.windows c0 sib kv chv w k ch rest P hp ?_ ?_ r6
        (by rw [forall_infos_plug_node]; exact hty)
      · intro z hz
        obtain ⟨a, b⟩ := r4 z (hfar z hz).1 (hfar z hz).2
        obtain ⟨a', b'⟩ := hgy z (hne' z hz)
        exact ⟨a.trans a', b.trans b'⟩
      · rw [r5.1, r5.2, (hgy sib hsw).1, (huy sib hsw).1, e7]
        exact ⟨rfl, rfl⟩
  | down P' kP restP =>
    simp only [hprev] at hsib hwv
    simp only [hpar, Option.some.injEq, Prod.mk.injEq] at hp
    obtain ⟨rfl, rfl⟩ := hp
    cases rest with
    | nil => simp [Shape.head] at hsib
    | node n kn chn restn =>
      simp only [Shape.head, Option.some.injEq] at hsib hwn
      subst hsib
      have hsw : sib ≠ w := hne sib (by simp [Shape.handles])
      have hnot : ∀ z, z ≠ sib → (s.windows w).next = some z → (s.windows w).prev ≠ none :=
        fun z hzs e => by
          rw [hwn] at e
          exact absurd (Option.some.inj e).symm hzs
      have hgx : ∀ z, z ≠ w → z ≠ sib → SameX s.windows s8.windows z := fun z hz hzs =>
        ⟨(hux z hz).2.1 (hnot z hzs), (hux z hz).1⟩
      have hgy : ∀ z, z ≠ w → z ≠ sib → SameY s.windows s8.windows z := fun z hz hzs =>
        ⟨(huy z hz).2.1 (hnot z hzs), (huy z hz).1⟩
      have hsibx : (s8.windows sib).left = (s.windows w).left := (hux sib hsw).2.2 hwn hwv
      have hsiby : (s8.windows sib).top = (s.windows w).top := (huy sib hsw).2.2 hwn hwv
      rw [show plug (Frame.down P' Kind.vcomb restP :: c0)
        (Shape.node w k ch (Shape.node sib kn chn restn))
        = plug c0 (Shape.node P' Kind.vcomb (Shape.node w k ch (Shape.node sib kn chn restn))
          restP) from rfl] at htx hty
      have htx0 := htx
      have hty0 := hty
      rw [forall_infos_plug_node] at htx hty
      obtain ⟨-, -, htx3, -⟩ := htx
      obtain ⟨-, -, hty3, -⟩ := hty
      simp only [Shape.infos, List.mem_cons, List.mem_append, forall_eq_or_imp] at htx3 hty3
      have hxw := htx3.1
      have hxn := htx3.2 _ (Or.inr (Or.inl rfl))
      unfold TileX at hxw hxn
      simp only at hxw hxn
      obtain ⟨-, hnd8full, -⟩ := (rep_plug_node s8 scr
        (Frame.down P' Kind.vcomb restP :: c0) sib kn chn restn).1 hrep8
      refine (resize_sib_y E scr fuel s s8 (Frame.down P' Kind.vcomb restP :: c0) sib kn chn
        restn _ hrep8 ?_ (huy sib hsw).1 ?_
        (fun z hz => hnn z (hmem z (by simp [Shape.handles, hz])))
        (fun i hi => hty3.2 i (Or.inr (Or.inr (Or.inl hi)))) ?_
        (fun z hz => hB z (hmem z (by
          simp only [Shape.handles, List.mem_append, List.mem_cons] at hz ⊢
          tauto)))).mono ?_
      · rw [(huy sib hsw).1, e7]
        have := hnn sib (hmem sib (by simp [Shape.handles]))
        have := hnn w hwmem
        omega
      · intro z hz
        refine hgy z (hne z (by simp [Shape.handles, hz])) ?_
        intro e
        obtain ⟨-, hndw, -⟩ := List.nodup_append.1 hnd8full
        exact (List.nodup_cons.1 hndw).1 (by simp [← e, hz])
      · rw [(huy sib hsw).1, e7]
        omega
      rintro _ s9 ⟨r1, r2, r3, r4, r5, r6⟩
      obtain ⟨-, hndw, hdisj⟩ := List.nodup_append.1 hnd8full
      obtain ⟨hs1, hnd2⟩ := List.nodup_cons.1 hndw
      obtain ⟨-, -, hd2⟩ := List.nodup_append.1 hnd2
      refine ⟨r1, r2, ?_, ?_⟩
      · refine delete_cross_x_next s.windows s9.windows c0 P' w k ch sib kn chn restn restP ?_
          htx0
        intro z hz
        have hzw : z ≠ w := hne z (by
          simp only [ctxHandles, Shape.handles, List.mem_append, List.mem_cons] at hz ⊢
          tauto)
        by_cases hzs : z = sib
        · subst hzs
          exact ⟨by rw [(r3 z).1, hsibx, hxw.1, hxn.1],
            (r3 z).2.trans (hux z hzw).1⟩
        · exact ⟨(r3 z).1.trans (hgx z hzw hzs).1, (r3 z).2.trans (hgx z hzw hzs).2⟩
      · refine delete_tile_y_next s.windows s9.windows c0 P' w k ch sib kn chn restn restP ?_ ?_
          r6 hty0
        · intro z hz
          have hzw : z ≠ w := hne z (by
            simp only [ctxHandles, Shape.handles, List.mem_append, List.mem_cons] at hz ⊢
            tauto)
          have hzs : z ≠ sib := fun e => by
            subst e
            simp only [List.mem_append, List.mem_cons] at hz
            rcases hz with h | h | h | h
            · exact hdisj (by simp [ctxHandles, h]) (List.mem_cons_self _ _)
            · exact hdisj (by simp [ctxHandles, h]) (List.mem_cons_self _ _)
            · exact hs1 (by simp [h])
            · exact hdisj (by simp [ctxHandles, h]) (List.mem_cons_self _ _)
          have hzc : z ∉ chn.handles := fun h2 => by
            simp only [List.mem_append, List.mem_cons] at hz
            rcases hz with h | h | h | h
            · exact hdisj (a := z) (by simp [ctxHandles, h]) (by simp [h2])
            · exact hdisj (a := z) (by simp [ctxHandles, h]) (by simp [h2])
            · exact hd2 h2 h
            · exact hdisj (a := z) (by simp [ctxHandles, h]) (by simp [h2])
          obtain ⟨a, b⟩ := r4 z hzs hzc
          obtain ⟨a', b'⟩ := hgy z hzw hzs
          exact ⟨a.trans a', b.trans b'⟩
        · rw [r5.1, r5.2, hsiby, (huy sib hsw).1, e7]
          exact ⟨rfl, rfl⟩

/-- The resize step of `Fdelete_window` below a horizontal combination: after
the window `w` has been taken out of a well-formed tree with non-negative
widths of at most 32767, `set_window_width` on its sibling restores the
tiling. -/
theorem delete_resize_x (E : Ext) (scr : Scr) (fuel : Nat) (s s8 : State) (f : Frame)
    (c0 : Ctx) (w : Win) (k : Kind) (ch rest : Shape) (P sib : Win)
    (hrep : Rep s scr (plug (f :: c0) (Shape.node w k ch rest)))
    (htx : ∀ i ∈ (plug (f :: c0) (Shape.node w k ch rest)).infos none none, TileY s.windows i)
    (hty : ∀ i ∈ (plug (f :: c0) (Shape.node w k ch rest)).infos none none, TileX s.windows i)
    (hnn : ∀ z ∈ (plug (f :: c0) (Shape.node w k ch rest)).handles, 0 ≤ (s.windows z).width)
    (hp : hpar (f :: c0) = some (Kind.hcomb, P))
    (hrep8 : Rep s8 scr (plug (f :: c0) rest))
    (hcore : ∀ y, y ≠ w → (s8.windows y).core = (unlinked s w y).core)
    (hw8 : ({ (s8.windows w).core with buffer := BufSlot.nil } : Window)
      = { (s.windows w).core with buffer := BufSlot.nil })
    (hsib : some sib = (match hprev (f :: c0) with
      | some v => some v
      | none => rest.head))
    (hB : ∀ z ∈ (plug (f :: c0) (Shape.node w k ch rest)).handles,
      (s.windows z).width ≤ 32767) :
    (set_window_width E fuel s8 sib
        ((s8.windows sib).width + (s8.windows w).width) true).Sat fun _ s9 =>
      Rep s9 scr (plug (f :: c0) rest) ∧ s9.nalloc = s8.nalloc
        ∧ (∀ i ∈ (plug (f :: c0) rest).infos none none, TileY s9.windows i)
        ∧ (∀ i ∈ (plug (f :: c0) rest).infos none none, TileX s9.windows i) := by
  obtain ⟨-, hnd, -, -, hlw, -, -⟩ := (rep_plug_node s scr (f :: c0) w k ch rest).1 hrep
  obtain ⟨-, hwv, hwn, -, -⟩ := hlw
  simp only at hwv hwn
  have e7 := butCore_width hw8
  have hmem : ∀ z, z ∈ ctxHandles (f :: c0) ++ rest.handles →
      z ∈ (plug (f :: c0) (Shape.node w k ch rest)).handles := fun z hz => by
    rw [(handles_plug _ _).mem_iff]
    simp only [Shape.handles, List.mem_append, List.mem_cons] at hz ⊢
    tauto
  have hwmem : w ∈ (plug (f :: c0) (Shape.node w k ch rest)).handles :=
    mem_plug_hole _ _ _ (by simp [Shape.handles])
  have hne : ∀ z ∈ ctxHandles (f :: c0) ++ rest.handles, z ≠ w := by
    intro z hz e
    subst e
    obtain ⟨-, hndw, hdisj⟩ := List.nodup_append.1 hnd
    rcases List.mem_append.1 hz with h | h
    · exact hdisj h (List.mem_cons_self _ _)
    · exact (List.nodup_cons.1 hndw).1 (List.mem_append_right _ h)
  have hux := unlinked_same_y s s8 w hcore
  have huy := unlinked_same_x s s8 w hcore
  have hpair := pair_le_parent_x s scr f c0 w k ch rest P sib hty hnn hp hsib
  have hPB : (s.windows P).width ≤ 32767 :=
    hB P (hmem P (List.mem_append_left _ (hpar_mem (f :: c0) _ P hp)))
  cases f with
  | right v kv chv =>
    simp only [hprev, Option.some.injEq] at hsib hwv
    subst hsib
    simp only [hpar] at hp
    have hgx : ∀ z, z ≠ w → SameY s.windows s8.windows z := fun z hz =>
      ⟨(hux z hz).2.1 (fun _ => by rw [hwv]; simp), (hux z hz).1⟩
    have hgy : ∀ z, z ≠ w → SameX s.windows s8.windows z := fun z hz =>
      ⟨(huy z hz).2.1 (fun _ => by rw [hwv]; simp), (huy z hz).1⟩
    have hsw : sib ≠ w := hne sib (by simp [ctxHandles])
    have htx0 := htx
    have hty0 := hty
    rw [show plug (Frame.right sib kv chv :: c0) (Shape.node w k ch rest)
      = plug c0 (Shape.node sib kv chv (Shape.node w k ch rest)) from rfl,
      forall_infos_plug_node] at htx hty
    have hrep8' : Rep s8 scr (plug c0 (Shape.node sib kv chv rest)) := hrep8
    have hnd8 := rep_nodup_node s8 scr c0 sib kv chv rest hrep8'
    obtain ⟨-, hnd8full, -⟩ := (rep_plug_node s8 scr c0 sib kv chv rest).1 hrep8'
    refine (resize_sib_x E scr fuel s s8 c0 sib kv chv rest _ hrep8' ?_ (huy sib hsw).1
      (fun z hz => hgy z (hne z (by simp [ctxHandles, hz])))
      (fun z hz => hnn z (hmem z (by simp [ctxHandles, hz]))) hty.2.2.1 ?_
      (fun z hz => hB z (hmem z (by
        simp only [ctxHandles, List.mem_append, List.mem_cons] at hz ⊢
        tauto)))).mono ?_
    · rw [(huy sib hsw).1, e7]
      have := hnn sib (hmem sib (by simp [ctxHandles]))
      have := hnn w hwmem
      omega
    · rw [(huy sib hsw).1, e7]
      omega
    rintro _ s9 ⟨r1, r2, r3, r4, r5, r6⟩
    have hfar : ∀ z ∈ ctxHandles c0 ++ rest.handles, z ≠ sib ∧ z ∉ chv.handles := by
      intro z hz
      obtain ⟨-, hndw, hdisj⟩ := List.nodup_append.1 hnd8full
      obtain ⟨hs1, hnd2⟩ := List.nodup_cons.1 hndw
      obtain ⟨-, -, hd2⟩ := List.nodup_append.1 hnd2
      rcases List.mem_append.1 hz with h | h
      · exact ⟨fun e => hdisj h (by simp [e]), fun h2 => hdisj h (by simp [h2])⟩
      · exact ⟨fun e => hs1 (by simp [← e, h]), fun h2 => hd2 h2 h⟩
    have hne' : ∀ z ∈ ctxHandles c0 ++ rest.handles, z ≠ w := fun z hz =>
      hne z (by
        simp only [ctxHandles, List.mem_append, List.mem_cons] at hz ⊢
        tauto)
    refine ⟨r1, r2, ?_, ?_⟩
    · refine delete_cross_y_prev s.windows s9.windows c0 sib kv chv w k ch rest P hp ?_
        (by rw [forall_infos_plug_node]; exact htx)
      intro z hz
      have hzw : z ≠ w := hne z (by
        simp only [ctxHandles, List.mem_append, List.mem_cons] at hz ⊢
        tauto)
      exact ⟨(r3 z).1.trans (hgx z hzw).1, (r3 z).2.trans (hgx z hzw).2⟩
    · refine delete_tile_x_prev s.windows s9.windows c0 sib kv chv w k ch rest P hp ?_ ?_ r6
        (by rw [forall_infos_plug_node]; exact hty)
      · intro z hz
        obtain ⟨a, b⟩ := r4 z (hfar z hz).1 (hfar z hz).2
        obtain ⟨a', b'⟩ := hgy z (hne' z hz)
        exact ⟨a.trans a', b.trans b'⟩
      · rw [r5.1, r5.2, (hgy sib hsw).1, (huy sib hsw).1, e7]
        exact ⟨rfl, rfl⟩
  | down P' kP restP =>
    simp only [hprev] at hsib hwv
    simp only [hpar, Option.some.injEq, Prod.mk.injEq] at hp
    obtain ⟨rfl, rfl⟩ := hp
    cases rest with
    | nil => simp [Shape.head] at hsib
    | node n kn chn restn =>
      simp only [Shape.head, Option.some.injEq] at hsib hwn
      subst hsib
      have hsw : sib ≠ w := hne sib (by simp [Shape.handles])
      have hnot : ∀ z, z ≠ sib → (s.windows w).next = some z → (s.windows w).prev ≠ none :=
        fun z hzs e => by
          rw [hwn] at e
          exact absurd (Option.some.inj e).symm hzs
      have hgx : ∀ z, z ≠ w → z ≠ sib → SameY s.windows s8.windows z := fun z hz hzs =>
        ⟨(hux z hz).2.1 (hnot z hzs), (hux z hz).1⟩
      have hgy : ∀ z, z ≠ w → z ≠ sib → SameX s.windows s8.windows z := fun z hz hzs =>
        ⟨(huy z hz).2.1 (hnot z hzs), (huy z hz).1⟩
      have hsibx : (s8.windows sib).top = (s.windows w).top := (hux sib hsw).2.2 hwn hwv
      have hsiby : (s8.windows sib).left = (s.windows w).left := (huy sib hsw).2.2 hwn hwv
      rw [show plug (Frame.down P' Kind.hcomb restP :: c0)
        (Shape.node w k ch (Shape.node sib kn chn restn))
        = plug c0 (Shape.node P' Kind.hcomb (Shape.node w k ch (Shape.node sib kn chn restn))
          restP) from rfl] at htx hty
      have htx0 := htx
      have hty0 := hty
      rw [forall_infos_plug_node] at htx hty
      obtain ⟨-, -, htx3, -⟩ := htx
      obtain ⟨-, -, hty3, -⟩ := hty
      simp only [Shape.infos, List.mem_cons, List.mem_append, forall_eq_or_imp] at htx3 hty3
      have hxw := htx3.1
      have hxn := htx3.2 _ (Or.inr (Or.inl rfl))
      unfold TileY at hxw hxn
      simp only at hxw hxn
      obtain ⟨-, hnd8full, -⟩ := (rep_plug_node s8 scr
        (Frame.down P' Kind.hcomb restP :: c0) sib kn chn restn).1 hrep8
      refine (resize_sib_x E scr fuel s s8 (Frame.down P' Kind.hcomb restP :: c0) sib kn chn
        restn _ hrep8 ?_ (huy sib hsw).1 ?_
        (fun z hz => hnn z (hmem z (by simp [Shape.handles, hz])))
        (fun i hi => hty3.2 i (Or.inr (Or.inr (Or.inl hi)))) ?_
        (fun z hz => hB z (hmem z (by
          simp only [Shape.handles, List.mem_append, List.mem_cons] at hz ⊢
          tauto)))).mono ?_
      · rw [(huy sib hsw).1, e7]
        have := hnn sib (hmem sib (by simp [Shape.handles]))
        have := hnn w hwmem
        omega
      · intro z hz
        refine hgy z (hne z (by simp [Shape.handles, hz])) ?_
        intro e
        obtain ⟨-, hndw, -⟩ := List.nodup_append.1 hnd8full
        exact (List.nodup_cons.1 hndw).1 (by simp [← e, hz])
      · rw [(huy sib hsw).1, e7]
        omega
      rintro _ s9 ⟨r1, r2, r3, r4, r5, r6⟩
      obtain ⟨-, hndw, hdisj⟩ := List.nodup_append.1 hnd8full
      obtain ⟨hs1, hnd2⟩ := List.nodup_cons.1 hndw
      obtain ⟨-, -, hd2⟩ := List.nodup_append.1 hnd2
      refine ⟨r1, r2, ?_, ?_⟩
      · refine delete_cross_y_next s.windows s9.windows c0 P' w k ch sib kn chn restn restP ?_
          htx0
        intro z hz
        have hzw : z ≠ w := hne z (by
          simp only [ctxHandles, Shape.handles, List.mem_append, List.mem_cons] at hz ⊢
          tauto)
        by_cases hzs : z = sib
        · subst hzs
          exact ⟨by rw [(r3 z).1, hsibx, hxw.1, hxn.1],
            (r3 z).2.trans (hux z hzw).1⟩
        · exact ⟨(r3 z).1.trans (hgx z hzw hzs).1, (r3 z).2.trans (hgx z hzw hzs).2⟩
      · refine delete_tile_x_next s.windows s9.windows c0 P' w k ch sib kn chn restn restP ?_ ?_
          r6 hty0
        · intro z hz
          have hzw : z ≠ w := hne z (by
            simp only [ctxHandles, Shape.handles, List.mem_append, List.mem_cons] at hz ⊢
            tauto)
          have hzs : z ≠ sib := fun e => by
            subst e
            simp only [List.mem_append, List.mem_cons] at hz
            rcases hz with h | h | h | h
            · exact hdisj (by simp [ctxHandles, h]) (List.mem_cons_self _ _)
            · exact hdisj (by simp [ctxHandles, h]) (List.mem_cons_self _ _)
            · exact hs1 (by simp [h])
            · exact hdisj (by simp [ctxHandles, h]) (List.mem_cons_self _ _)
          have hzc : z ∉ chn.handles := fun h2 => by
            simp only [List.mem_append, List.mem_cons] at hz
            rcases hz with h | h | h | h
            · exact hdisj (a := z) (by simp [ctxHandles, h]) (by simp [h2])
            · exact hdisj (a := z) (by simp [ctxHandles, h]) (by simp [h2])
            · exact hd2 h2 h
            · exact hdisj (a := z) (by simp [ctxHandles, h]) (by simp [h2])
          obtain ⟨a, b⟩ := r4 z hzs hzc
          obtain ⟨a', b'⟩ := hgy z hzw hzs
          exact ⟨a.trans a', b.trans b'⟩
        · rw [r5.1, r5.2, hsiby, (huy sib hsw).1, e7]
          exact ⟨rfl, rfl⟩

theorem Res.Sat.both {α : Type} {r : Res α} {P Q : α → State → Prop}
    (h1 : r.Sat P) (h2 : r.Sat Q) : r.Sat fun a s => P a s ∧ Q a s := by
  cases r <;> simp_all

/-- The store after `replace_window` has put the only child `a` of `P` in the
place of `P`. -/
theorem replace_child_post (s : State) (scr : Scr) (c : Ctx) (P : Win) (k : Kind) (a : Win)
    (ka : Kind) (cha rest : Shape)
    (hrep : Rep s scr (plug c (Shape.node P k (Shape.node a ka cha Shape.nil) rest))) :
    (replace_window s P a).Holds fun _ s' =>
      (∀ x, x ≠ a → x ≠ P → s'.windows x = replaced s P a x)
        ∧ (s'.windows a).left = (s.windows P).left ∧ (s'.windows a).top = (s.windows P).top
        ∧ (s'.windows a).width = (s.windows P).width
        ∧ (s'.windows a).height = (s.windows P).height := by
  obtain ⟨hscr, -, hnx, hpv, hpa⟩ := rep_distinct s scr c P k _ rest hrep
  obtain ⟨mnx, mpv, mpa, -, -⟩ := rep_links_mem s scr c P k _ rest hrep
  obtain ⟨-, hnd, -⟩ := (rep_plug_node s scr c P k _ rest).1 hrep
  simp only [Shape.handles, List.append_nil] at hnd
  obtain ⟨-, hndw, hdisj⟩ := List.nodup_append.1 hnd
  obtain ⟨hP1, hndw2⟩ := List.nodup_cons.1 hndw
  rw [List.cons_append] at hndw2 hP1
  obtain ⟨ha1, -⟩ := List.nodup_cons.1 hndw2
  simp only [List.mem_cons, List.mem_append, not_or] at hP1 ha1
  obtain ⟨hPa, -, -⟩ := hP1
  obtain ⟨-, harest⟩ := ha1
  have hnx' : ∀ y, (s.windows P).next = some y → y ≠ P ∧ y ≠ a
      ∧ (s.windows P).prev ≠ some y ∧ (s.windows P).parent ≠ some y := fun y hy =>
    ⟨(hnx y hy).1, fun e => harest (e ▸ mnx y hy), (hnx y hy).2.2⟩
  have hpv' : ∀ y, (s.windows P).prev = some y → y ≠ P ∧ y ≠ a
      ∧ (s.windows P).parent ≠ some y := fun y hy =>
    ⟨(hpv y hy).1, fun e => hdisj (mpv y hy) (by simp [e]), (hpv y hy).2.2⟩
  have hpa' : ∀ y, (s.windows P).parent = some y → y ≠ P ∧ y ≠ a := fun y hy =>
    ⟨(hpa y hy).1, fun e => hdisj (mpa y hy) (by simp [e])⟩
  obtain ⟨_, s', e, hb⟩ := (Res.holds_iff _ _).1
    (replace_window_basic s P a scr hscr hPa hnx' hpv' hpa')
  have ho : ∀ x, x ≠ a → x ≠ P → s'.windows x = replaced s P a x := fun x h1 h2 => by
    have := replace_window_other s P a scr hscr hPa hnx' hpv' hpa' x h1 h2
    rw [e] at this
    exact this
  rw [e]
  obtain ⟨-, -, -, -, -, -, hba⟩ := hb
  refine ⟨ho, ?_⟩
  rw [hba]
  exact ⟨rfl, rfl, rfl, rfl⟩

/-- The last phase of `Fdelete_window` keeps the tiling. -/
theorem delete_collapse_tiled (s : State) (scr : Scr) (c : Ctx) (P : Win) (k : Kind)
    (chain rest : Shape) (hrep : Rep s scr (plug c (Shape.node P k chain rest)))
    (ht : Tiled s (plug c (Shape.node P k chain rest))) :
    (delete_collapse s P).Sat fun _ s' => Tiled s' (collapseShape c P k chain rest) := by
  obtain ⟨-, hnd, -, -, hP, hch, -⟩ := (rep_plug_node s scr c P k chain rest).1 hrep
  obtain ⟨-, -, -, -, hk⟩ := hP
  simp only at hk
  cases chain with
  | nil =>
    cases k <;> simp [Shape.head] at hk
    simp [delete_collapse, hk.1, hk.2.1]
  | node a ka cha r =>
    have hkl : k ≠ Kind.leaf := fun e => by
      subst e
      exact absurd hk.2.2.2 (by simp [Shape.head])
    have htem : (s.windows P).hchild = some a
        ∨ ((s.windows P).hchild = none ∧ (s.windows P).vchild = some a) := by
      cases k with
      | leaf => exact absurd rfl hkl
      | hcomb => exact Or.inl hk.1
      | vcomb => exact Or.inr ⟨hk.2.2.1, hk.1⟩
    rw [delete_collapse_eq s P a htem]
    have ha := hch _ (List.mem_cons_self _ _)
    obtain ⟨-, -, hanext, -, -⟩ := ha
    simp only at hanext
    cases r with
    | node b kb chb r2 =>
      rw [if_neg (by rw [hanext]; simp [Shape.head])]
      exact ht
    | nil =>
      rw [if_pos (by rw [hanext]; rfl)]
      refine (replace_child_post s scr c P k a ka cha rest hrep).sat.mono ?_
      rintro _ s' ⟨ho, g1, g2, g3, g4⟩
      simp only [Shape.handles, List.append_nil] at hnd
      obtain ⟨-, hndw, hdisj⟩ := List.nodup_append.1 hnd
      obtain ⟨hP1, hndw2⟩ := List.nodup_cons.1 hndw
      rw [List.cons_append] at hndw2 hP1
      obtain ⟨ha1, -⟩ := List.nodup_cons.1 hndw2
      simp only [List.mem_cons, List.mem_append, not_or] at hP1 ha1
      have hgeo : ∀ z ∈ ctxHandles c ++ (cha.handles ++ rest.handles),
          SameX s.windows s'.windows z ∧ SameY s.windows s'.windows z := by
        intro z hz
        have hza : z ≠ a := fun e => by
          subst e
          simp only [List.mem_append] at hz
          rcases hz with h | h | h
          · exact hdisj h (by simp)
          · exact ha1.1 h
          · exact ha1.2 h
        have hzP : z ≠ P := fun e => by
          subst e
          simp only [List.mem_append] at hz
          rcases hz with h | h | h
          · exact hdisj h (by simp)
          · exact hP1.2.1 h
          · exact hP1.2.2 h
        obtain ⟨q1, q2, q3, q4⟩ := replaced_geometry s P a z
        rw [SameX, SameY, ho z hza hzP]
        exact ⟨⟨q1, q3⟩, q2, q4⟩
      rw [tiled_iff] at ht ⊢
      exact ⟨collapse_tile_x _ _ c P k a ka cha rest hkl (fun z hz => (hgeo z hz).1) ⟨g1, g3⟩
        ht.1, collapse_tile_y _ _ c P k a ka cha rest hkl (fun z hz => (hgeo z hz).2) ⟨g2, g4⟩
        ht.2⟩

theorem ctxChain_ne_nil (c : Ctx) (t : Shape) (ht : t ≠ Shape.nil) :
    ctxChain c t ≠ Shape.nil := by
  induction c generalizing t with
  | nil => exact ht
  | cons f c ih =>
    cases f with
    | right v kv chv => exact ih _ (by simp)
    | down v kv rv => exact ht

/-- The parent of a window of a represented tree is a combination. -/
theorem hpar_not_leaf (s : State) (scr : Scr) (c : Ctx) (t : Shape) (k : Kind) (P : Win)
    (hrep : Rep s scr (plug c t)) (hne : t ≠ Shape.nil) (hp : hpar c = some (k, P)) :
    k ≠ Kind.leaf := by
  obtain ⟨restP, c1, hab⟩ := above_of_hpar c k P hp
  rw [← plug_above, hab] at hrep
  obtain ⟨-, -, -, -, hP, -, -⟩ := (rep_plug_node s scr c1 P k _ restP).1 hrep
  obtain ⟨-, -, -, -, hk⟩ := hP
  intro e
  subst e
  simp only at hk
  have := ctxChain_ne_nil c t hne
  cases hc : ctxChain c t with
  | nil => exact this hc
  | node a ka cha r =>
    rw [hc] at hk
    exact absurd hk.2.2.2 (by simp [Shape.head])

/-- The two resize steps of `Fdelete_window`, of which the one along the axis
of the parent `P` runs: after the window `w` has been taken out of a
well-formed tree with non-negative sizes of at most 32767, they restore the
tiling. -/
theorem delete_resize_tiled (E : Ext) (scr : Scr) (fuel : Nat) (s s8 : State) (f : Frame)
    (c0 : Ctx) (w : Win) (k : Kind) (ch rest : Shape) (kP : Kind) (P sib : Win)
    (hrep : Rep s scr (plug (f :: c0) (Shape.node w k ch rest)))
    (ht : Tiled s (plug (f :: c0) (Shape.node w k ch rest)))
    (hnn : ∀ z ∈ (plug (f :: c0) (Shape.node w k ch rest)).handles,
      0 ≤ (s.windows z).height ∧ 0 ≤ (s.windows z).width)
    (hB : ∀ z ∈ (plug (f :: c0) (Shape.node w k ch rest)).handles,
      (s.windows z).height ≤ 32767 ∧ (s.windows z).width ≤ 32767)
    (hp : hpar (f :: c0) = some (kP, P))
    (hrep8 : Rep s8 scr (plug (f :: c0) rest))
    (hcore : ∀ x, x ≠ w → (s8.windows x).core = (unlinked s w x).core)
    (hw8 : ({ (s8.windows w).core with buffer := BufSlot.nil } : Window)
      = { (s.windows w).core with buffer := BufSlot.nil })
    (hsib : some sib = (match hprev (f :: c0) with
      | some v => some v
      | none => rest.head)) :
    ((if (s8.windows P).vchild ≠ none then
          set_window_height E fuel s8 sib
            ((s8.windows sib).height + (s8.windows w).height) true
        else Res.ok () s8).andThen fun _ s9 =>
      if (s9.windows P).hchild ≠ none then
          set_window_width E fuel s9 sib
            ((s9.windows sib).width + (s9.windows w).width) true
        else Res.ok () s9).Sat fun _ s10 =>
      Rep s10 scr (plug (f :: c0) rest) ∧ Tiled s10 (plug (f :: c0) rest) := by
  obtain ⟨k8h, k8v⟩ := rep_parent_kind s8 scr (f :: c0) rest kP P hrep8 hp
  have hkl := hpar_not_leaf s scr (f :: c0) _ kP P hrep (by simp) hp
  rw [tiled_iff] at ht
  cases kP with
  | leaf => exact absurd rfl hkl
  | vcomb =>
    rw [if_pos (k8v.2 rfl)]
    refine Res.Sat.bind (delete_resize_y E scr fuel s s8 f c0 w k ch rest P sib hrep
      ht.1 ht.2 (fun z hz => (hnn z hz).1) hp hrep8 hcore hw8 hsib
      (fun z hz => (hB z hz).1)) ?_
    rintro _ s9 ⟨r1, -, r3, r4⟩
    obtain ⟨k9h, -⟩ := rep_parent_kind s9 scr (f :: c0) rest _ P r1 hp
    rw [if_neg (by rw [k9h]; simp)]
    exact ⟨r1, (tiled_iff _ _).2 ⟨r3, r4⟩⟩
  | hcomb =>
    rw [if_neg (by rw [k8v]; simp)]
    simp only [Res.andThen_ok]
    rw [if_pos (k8h.2 rfl)]
    refine (delete_resize_x E scr fuel s s8 f c0 w k ch rest P sib hrep
      ht.2 ht.1 (fun z hz => (hnn z hz).2) hp hrep8 hcore hw8 hsib
      (fun z hz => (hB z hz).2)).mono ?_
    rintro _ s9 ⟨r1, -, r3, r4⟩
    exact ⟨r1, (tiled_iff _ _).2 ⟨r4, r3⟩⟩

/-- `Fdelete_window` keeps the tree well formed: if it returns on a window
of a well-formed, tiled tree whose windows have non-negative sizes of at most
32767, the store is well formed with respect to the shape without the
window. -/
theorem Fdelete_window_wf (E : Ext) (hE : ∀ s c, SameTree s (E.Fselect_screen s c))
    (fuel : Nat) (s : State) (scr : Scr) (c : Ctx) (w : Win) (k : Kind) (ch rest : Shape)
    (hrep : Rep s scr (plug c (Shape.node w k ch rest)))
    (ht : Tiled s (plug c (Shape.node w k ch rest)))
    (hnn : ∀ z ∈ (plug c (Shape.node w k ch rest)).handles,
      0 ≤ (s.windows z).height ∧ 0 ≤ (s.windows z).width)
    (hB : ∀ z ∈ (plug c (Shape.node w k ch rest)).handles,
      (s.windows z).height ≤ 32767 ∧ (s.windows z).width ≤ 32767) :
    (Fdelete_window E fuel s (some w)).Sat fun _ s' => WF s' scr (deleteShape c rest) := by
  cases fuel with
  | zero => simp [Fdelete_window]
  | succ fuel =>
    rw [Fdelete_window_succ]
    obtain ⟨-, -, -, -, hlw, -, -⟩ := (rep_plug_node s scr c w k ch rest).1 hrep
    obtain ⟨hwp, -⟩ := hlw
    simp only at hwp
    rcases hp : hpar c with _ | ⟨kP, P⟩
    · rw [hwp, hp]; trivial
    rw [hp] at hwp
    simp only [Option.map_some'] at hwp
    rw [hwp]
    simp only
    cases c with
    | nil => simp [hpar] at hp
    | cons f c0 =>
      rw [← Res.andThen_assoc]
      refine Res.Sat.bind (delete_unlink_rep E hE fuel s scr f c0 w k ch rest P hrep hwp) ?_
      rintro sib s8 ⟨hrep8, hn8, hcore, hw8, hsib⟩
      rw [← Res.andThen_assoc]
      refine Res.Sat.bind (delete_resize_tiled E scr fuel s s8 f c0 w k ch rest kP P sib hrep
        ht hnn hB hp hrep8 hcore hw8 hsib) ?_
      rintro _ s10 ⟨hrep10, ht10⟩
      obtain ⟨restP, c1, hab⟩ := above_of_hpar (f :: c0) kP P hp
      rw [deleteShape_eq _ _ _ _ _ _ hab]
      rw [← plug_above, hab] at hrep10 ht10
      exact (((delete_collapse_rep s10 scr c1 P kP _ restP hrep10).mono
        fun _ _ h => h.1).both
          (delete_collapse_tiled s10 scr c1 P kP _ restP hrep10 ht10)).mono
        fun _ _ h => ⟨h.1, h.2⟩

/-- C3, amended: let the store be well formed with respect to a shape of the
window tree of screen `scr` (links as the shape says, and every window tiled:
the children of a combination follow one another along its axis from its
origin to its end and have its origin and size across the axis), and let `w`
be a window of the tree.  Then the store that a successful `Fsplit_window` of
`w` leaves is well formed with respect to the shape with the new window (and
the new parent), and, if every window has a height and a width from 0 to
32767 (up to which the resize loops compute their positions without overflow
of an `int`), the store that a successful `Fdelete_window` of `w` leaves is
well formed with respect to the shape without `w`, a parent that is left with
one child having given its place to it; selecting a screen is assumed not to
touch the window trees. -/
theorem tiling_preserved (E : Ext) (hE : ∀ s c, SameTree s (E.Fselect_screen s c))
    (fuel : Nat) (s : State) (scr : Scr) (c : Ctx) (w : Win) (k : Kind) (ch rest : Shape)
    (chsize : Option Int) (hor : Bool)
    (hwf : WF s scr (plug c (Shape.node w k ch rest))) :
    (∀ new s', Fsplit_window s (some w) chsize hor = Res.ok new s' →
        WF s' scr (splitShape c w rest hor (needs_parent s w hor) s.nalloc))
      ∧ ((∀ z ∈ (plug c (Shape.node w k ch rest)).handles,
            0 ≤ (s.windows z).height ∧ (s.windows z).height ≤ 32767
              ∧ 0 ≤ (s.windows z).width ∧ (s.windows z).width ≤ 32767) →
          ∀ s', Fdelete_window E fuel s (some w) = Res.ok () s' →
            WF s' scr (deleteShape c rest)) := by
  refine ⟨fun new s' e => ?_, fun hsz s' e => ?_⟩
  · have h := Fsplit_window_tiled s scr c w k ch rest chsize hor hwf.1 hwf.2
    rw [e] at h
    exact h
  · have h := Fdelete_window_wf E hE fuel s scr c w k ch rest hwf.1 hwf.2
      (fun z hz => ⟨(hsz z hz).1, (hsz z hz).2.2.1⟩)
      (fun z hz => ⟨(hsz z hz).2.1, (hsz z hz).2.2.2⟩)
    rw [e] at h
    exact h

/-- Witness of `tiling_preserved`: the split and the deletion of the leaf 3
of `state6`, the lower child of the root, whose previous sibling is a
horizontal combination of the leaves 0 and 5. -/
theorem tiling_preserved_witness :
    (∀ s c, SameTree s (ext1.Fselect_screen s c))
      ∧ WF state6 0 (plug [Frame.right 4 Kind.hcomb chain05, Frame.down 2 Kind.vcomb chain1]
          (Shape.node 3 Kind.leaf Shape.nil Shape.nil))
      ∧ (Fsplit_window state6 (some 3) none false).isOk = true
      ∧ (Fdelete_window ext1 8 state6 (some 3)).isOk = true
      ∧ (∀ z ∈ (plug [Frame.right 4 Kind.hcomb chain05, Frame.down 2 Kind.vcomb chain1]
          (Shape.node 3 Kind.leaf Shape.nil Shape.nil)).handles,
            0 ≤ (state6.windows z).height ∧ (state6.windows z).height ≤ 32767
              ∧ 0 ≤ (state6.windows z).width ∧ (state6.windows z).width ≤ 32767)
      ∧ ((∀ new s', Fsplit_window state6 (some 3) none false = Res.ok new s' →
          WF s' 0 (splitShape [Frame.right 4 Kind.hcomb chain05, Frame.down 2 Kind.vcomb chain1]
            3 Shape.nil false (needs_parent state6 3 false) state6.nalloc))
        ∧ ((∀ z ∈ (plug [Frame.right 4 Kind.hcomb chain05, Frame.down 2 Kind.vcomb chain1]
              (Shape.node 3 Kind.leaf Shape.nil Shape.nil)).handles,
              0 ≤ (state6.windows z).height ∧ (state6.windows z).height ≤ 32767
                ∧ 0 ≤ (state6.windows z).width ∧ (state6.windows z).width ≤ 32767) →
            ∀ s', Fdelete_window ext1 8 state6 (some 3) = Res.ok () s' →
              WF s' 0 (deleteShape
                [Frame.right 4 Kind.hcomb chain05, Frame.down 2 Kind.vcomb chain1]
                Shape.nil))) :=
  ⟨fun s _ => SameTree.refl s, by decide!, by decide!, by decide!, by decide!,
    tiling_preserved ext1 (fun s _ => SameTree.refl s) 8 state6 0
      [Frame.right 4 Kind.hcomb chain05, Frame.down 2 Kind.vcomb chain1] 3 Kind.leaf Shape.nil
      Shape.nil none false (by decide!)⟩

/-- Counterexample to C3 as stated for every size: `state8 40000 20000 20000`
is well formed and tiled; its root 2 is a vertical combination of the leaf 0
and the horizontal combination 4, of 40000 lines each, and 4 holds the
vertical combination 5 of the leaves 6 and 7, of 20000 lines each.
`Fdelete_window (0)` returns and gives the 40000 lines to window 4; in the
resize of window 5 to 80000 lines the expression `(opos * height) << 1`
overflows an `int`, the leaves 6 and 7 get -13686 and 39999 lines, and the
tree is not tiled any more. -/
theorem Fdelete_window_tiling_wraps :
    WF (state8 40000 20000 20000) 0
        (plug [Frame.down 2 Kind.vcomb chain1] (Shape.node 0 Kind.leaf Shape.nil chain4h))
    ∧ (Fdelete_window ext1 12 (state8 40000 20000 20000) (some 0)).Holds fun _ s' =>
        (s'.windows 5).height = 80000 ∧ (s'.windows 6).height = -13686
          ∧ (s'.windows 7).height = 39999
          ∧ ¬ WF s' 0 (deleteShape [Frame.down 2 Kind.vcomb chain1] chain4h) := by
  decide!

theorem Res.holds_of_isOk {α : Type} {r : Res α} {P : α → State → Prop}
    (h1 : r.isOk = true) (h2 : r.Sat P) : r.Holds P := by
  cases r <;> simp_all [Res.isOk]

theorem Res.isOk_andThen {α β : Type} {r : Res α} {f : α → State → Res β}
    {P : α → State → Prop} (h : r.Holds P) (hf : ∀ a s, P a s → (f a s).isOk = true) :
    (r.andThen f).isOk = true := by
  cases r <;> simp_all

/-- `Fsplit_window` returns on an ordinary window of a represented tree
that shows a live buffer if the size passes the check. -/
theorem Fsplit_window_isOk (s : State) (scr : Scr) (c : Ctx) (w : Win) (k : Kind)
    (ch rest : Shape) (chsize : Option Int) (hor : Bool) (b : Buf)
    (hrep : Rep s scr (plug c (Shape.node w k ch rest)))
    (hm : MINI_WINDOW_P (s.windows w) = false) (hns : (s.screens scr).no_split = false)
    (hbuf : (s.windows w).buffer = BufSlot.buf b) (hlive : (s.buffers b).name_live = true)
    (hgood : ¬ split_size_bad s w (split_size s w chsize hor) hor) :
    (Fsplit_window s (some w) chsize hor).isOk = true := by
  obtain ⟨hscr, hwne, hnx, hpv, hpa⟩ := rep_distinct s scr c w k ch rest hrep
  unfold Fsplit_window
  simp only [Option.getD_some, hscr, hm, hns, Bool.false_eq_true, if_false, hgood,
    needs_parent_clamp]
  by_cases hnp : needs_parent s w hor = true
  · simp only [hnp, if_true]
    refine Res.isOk_andThen
      (make_dummy_parent_post (clamp_min s) w hor scr (by simpa using hscr) (by simpa using hwne)
        (by simpa using hnx) (by simpa using hpv) (by simpa using hpa)) ?_
    rintro _ s3 ⟨hpar3, hdum⟩
    rw [dummyPost_clamp] at hdum
    simp only [clamp_min_nalloc] at hpar3 hdum ⊢
    simp only [hpar3]
    generalize hs3 : setw s3 s.nalloc _ = s3' at hdum ⊢
    obtain ⟨hnalloc, hbufs, hscreens, hwin, hnewD, hother⟩ := hdum
    refine (split_finish_spec s3' w (split_size s w chsize hor) hor b ?_ ?_ ?_ ?_).isOk
    · rw [hnalloc]
      have hwlt : w < s.nalloc := ((rep_plug_node s scr c w k ch rest).mp hrep).2.2.1 w (by simp)
      exact Nat.ne_of_lt (Nat.lt_succ_of_lt hwlt)
    · intro y hy; rw [hwin] at hy; simp at hy
    · rw [hwin]; exact hbuf
    · rw [hbufs]; exact hlive
  · simp only [hnp, if_false]
    refine (split_finish_spec (clamp_min s) w (split_size s w chsize hor) hor b
      (by simpa using hwne) (by
        intro y hy
        simp only [clamp_min_windows] at hy
        simp only [clamp_min_nalloc]
        exact ⟨(hnx y hy).2.1, (hnx y hy).1⟩) (by simpa using hbuf) (by simpa using hlive)).isOk

theorem split_size_bad_iff (s : State) (w : Win) (size : Int) (hor : Bool) :
    split_size_bad s w size hor ↔
      (size < MINSIZE (clamp_min s) hor
        ∨ CURSIZE hor (s.windows w) - size < MINSIZE (clamp_min s) hor) := by
  unfold split_size_bad MINSIZE CURSIZE
  cases hor <;> simp only [Bool.false_eq_true, if_false, if_true] <;>
    constructor <;> (rintro (h | h); exact Or.inl h; exact Or.inr (by omega))

theorem Fsplit_window_bad (s : State) (scr : Scr) (w : Win) (chsize : Option Int) (hor : Bool)
    (hscr : (s.windows w).screen = some scr)
    (hm : MINI_WINDOW_P (s.windows w) = false) (hns : (s.screens scr).no_split = false)
    (hbad : split_size_bad s w (split_size s w chsize hor) hor) :
    Fsplit_window s (some w) chsize hor = Res.signal Err.args_out_of_range (clamp_min s) := by
  unfold Fsplit_window
  simp only [Option.getD_some, hscr, hm, hns, Bool.false_eq_true, if_false, hbad, if_true]

/-- C11: `Fsplit_window` on a window `w` of a represented tree that is not a
minibuffer window, shows a live buffer and is on a screen that may be split
signals an error if and only if the size for `w` is below the minimum or
leaves less than the minimum for the new window, the minimum being
`window_min_width` or `window_min_height` raised to at least 2.  The error is
`args_out_of_range`, signalled with all windows and screens as they were;
otherwise the call returns and both windows have at least the minimum size
along the axis of the split. -/
theorem Fsplit_window_size_check (s : State) (scr : Scr) (t : Shape) (w : Win)
    (chsize : Option Int) (hor : Bool) (b : Buf) (hrep : Rep s scr t) (hw : w ∈ t.handles)
    (hm : MINI_WINDOW_P (s.windows w) = false) (hns : (s.screens scr).no_split = false)
    (hbuf : (s.windows w).buffer = BufSlot.buf b) (hlive : (s.buffers b).name_live = true) :
    ((Fsplit_window s (some w) chsize hor).isSignal = true ↔
        (split_size s w chsize hor < MINSIZE (clamp_min s) hor
          ∨ CURSIZE hor (s.windows w) - split_size s w chsize hor < MINSIZE (clamp_min s) hor))
      ∧ (∀ e s', Fsplit_window s (some w) chsize hor = Res.signal e s' →
          e = Err.args_out_of_range ∧ s'.windows = s.windows ∧ s'.screens = s.screens
            ∧ s'.nalloc = s.nalloc)
      ∧ ((Fsplit_window s (some w) chsize hor).isSignal = false →
          ∃ new s', Fsplit_window s (some w) chsize hor = Res.ok new s'
            ∧ MINSIZE (clamp_min s) hor ≤ CURSIZE hor (s'.windows w)
            ∧ MINSIZE (clamp_min s) hor ≤ CURSIZE hor (s'.windows new)) := by
  have hscr := rep_screen s scr t w hrep hw
  rw [← split_size_bad_iff]
  by_cases hbad : split_size_bad s w (split_size s w chsize hor) hor
  · rw [Fsplit_window_bad s scr w chsize hor hscr hm hns hbad]
    refine ⟨by simp [Res.isSignal, hbad], ?_, by simp [Res.isSignal]⟩
    intro e s' h
    simp only [Res.signal.injEq] at h
    obtain ⟨rfl, rfl⟩ := h
    simp
  · obtain ⟨c, k, ch, rest, rfl⟩ := exists_plug_of_mem t w hw
    have hok := Fsplit_window_isOk s scr c w k ch rest chsize hor b hrep hm hns hbuf hlive hbad
    have hsz := Fsplit_window_sizes s scr _ w chsize hor hrep (mem_plug_hole _ _ _ (by
      simp [Shape.handles]))
    have hgood := (not_congr (split_size_bad_iff s w (split_size s w chsize hor) hor)).1 hbad
    cases hr : Fsplit_window s (some w) chsize hor with
    | ok new s' =>
      rw [hr] at hsz
      refine ⟨by simp [Res.isSignal, hbad], ?_, fun _ => ?_⟩
      · intro e s'' h
        cases h
      refine ⟨new, s', rfl, ?_⟩
      simp only [Res.Sat] at hsz
      unfold CURSIZE at hgood ⊢
      cases hor
      · simp only [Bool.false_eq_true, if_false] at hsz hgood ⊢
        rw [hsz.1, hsz.2]
        omega
      · simp only [if_true] at hsz hgood ⊢
        rw [hsz.1, hsz.2]
        omega
    | signal e s' => rw [hr] at hok; simp [Res.isOk] at hok
    | fault => rw [hr] at hok; simp [Res.isOk] at hok
    | nofuel => rw [hr] at hok; simp [Res.isOk] at hok

/-- Witness of `Fsplit_window_size_check`: the root leaf of `state2`, 23
lines high, with the size 21, which leaves 2 lines where 4 are the minimum. -/
theorem Fsplit_window_size_check_witness :
    Rep state2 0 shape2 ∧ 0 ∈ shape2.handles
      ∧ (Fsplit_window state2 (some 0) (some 21) false).isSignal = true
      ∧ (Fsplit_window state2 (some 0) (some 11) false).isOk = true
      ∧ (((Fsplit_window state2 (some 0) (some 21) false).isSignal = true ↔
          (split_size state2 0 (some 21) false < MINSIZE (clamp_min state2) false
            ∨ CURSIZE false (state2.windows 0) - split_size state2 0 (some 21) false
                < MINSIZE (clamp_min state2) false))
        ∧ (∀ e s', Fsplit_window state2 (some 0) (some 21) false = Res.signal e s' →
            e = Err.args_out_of_range ∧ s'.windows = state2.windows
              ∧ s'.screens = state2.screens ∧ s'.nalloc = state2.nalloc)
        ∧ ((Fsplit_window state2 (some 0) (some 21) false).isSignal = false →
            ∃ new s', Fsplit_window state2 (some 0) (some 21) false = Res.ok new s'
              ∧ MINSIZE (clamp_min state2) false ≤ CURSIZE false (s'.windows 0)
              ∧ MINSIZE (clamp_min state2) false ≤ CURSIZE false (s'.windows new))) :=
  ⟨by decide!, by decide!, by decide!, by decide!,
    Fsplit_window_size_check state2 0 shape2 0 (some 21) false 0 (by decide!) (by decide!)
      (by decide!) (by decide!) (by decide!) (by decide!)⟩

/-- C12: `Fsplit_window` signals an error, for every size and orientation,
if the window is a minibuffer window or its screen is marked as not to be
split; the error is signalled in the state of the call: no window, no screen
and neither `window_min_height` nor `window_min_width` has changed. -/
theorem Fsplit_window_refuses (s : State) (window : Option Win) (chsize : Option Int)
    (hor : Bool) (scr : Scr)
    (h : MINI_WINDOW_P (s.windows (window.getD s.selected_window)) = true
      ∨ ((s.windows (window.getD s.selected_window)).screen = some scr
          ∧ (s.screens scr).no_split = true)) :
    ∃ e, Fsplit_window s window chsize hor = Res.signal e s
      ∧ (e = Err.split_minibuffer ∨ e = Err.split_unsplittable) := by
  unfold Fsplit_window
  by_cases hm : MINI_WINDOW_P (s.windows (window.getD s.selected_window)) = true
  · exact ⟨Err.split_minibuffer, by simp [hm], Or.inl rfl⟩
  · rcases h with h | ⟨h1, h2⟩
    · exact absurd h hm
    · exact ⟨Err.split_unsplittable, by simp [hm, h1, h2], Or.inr rfl⟩

/-- Witness of `Fsplit_window_refuses`: the minibuffer window 1 of `state2`. -/
theorem Fsplit_window_refuses_witness :
    (MINI_WINDOW_P (state2.windows ((some 1).getD state2.selected_window)) = true
        ∨ ((state2.windows ((some 1).getD state2.selected_window)).screen = some 0
            ∧ (state2.screens 0).no_split = true))
      ∧ ∃ e, Fsplit_window state2 (some 1) none true = Res.signal e state2
        ∧ (e = Err.split_minibuffer ∨ e = Err.split_unsplittable) :=
  ⟨Or.inl (by decide!), Fsplit_window_refuses state2 (some 1) none true 0 (Or.inl (by decide!))⟩

/-- C13, amended: a vertical split, without a size, of a root window `R`
that is a leaf showing the live buffer `b` returns a new leaf and makes a
new vertical combination the root window of the screen; its children are `R`
followed by the new leaf, both show `b`; `R` keeps half of its height rounded
down and the new leaf gets the rest: 12 and 12 lines of 24, 11 and 12 lines
of 23. -/
theorem Fsplit_window_root_leaf (s : State) (scr : Scr) (R : Win) (rest : Shape) (b : Buf)
    (hrep : Rep s scr (Shape.node R Kind.leaf Shape.nil rest))
    (hm : MINI_WINDOW_P (s.windows R) = false) (hns : (s.screens scr).no_split = false)
    (hbuf : (s.windows R).buffer = BufSlot.buf b) (hlive : (s.buffers b).name_live = true)
    (hgood : ¬ split_size_bad s R (split_size s R none false) false) :
    ∃ s', Fsplit_window s (some R) none false = Res.ok (s.nalloc + 1) s'
      ∧ (s'.screens scr).root_window = some s.nalloc
      ∧ (s'.windows s.nalloc).vchild = some R ∧ (s'.windows s.nalloc).hchild = none
      ∧ (s'.windows s.nalloc).buffer = BufSlot.nil
      ∧ (s'.windows R).parent = some s.nalloc ∧ (s'.windows R).prev = none
      ∧ (s'.windows R).next = some (s.nalloc + 1)
      ∧ (s'.windows (s.nalloc + 1)).parent = some s.nalloc
      ∧ (s'.windows (s.nalloc + 1)).prev = some R
      ∧ (s'.windows (s.nalloc + 1)).next = none
      ∧ (s'.windows R).buffer = BufSlot.buf b
      ∧ (s'.windows (s.nalloc + 1)).buffer = BufSlot.buf b
      ∧ (s'.windows R).height = (s.windows R).height / 2
      ∧ (s'.windows (s.nalloc + 1)).height = (s.windows R).height - (s.windows R).height / 2
      ∧ ((s.windows R).height = 24 →
          (s'.windows R).height = 12 ∧ (s'.windows (s.nalloc + 1)).height = 12)
      ∧ ((s.windows R).height = 23 →
          (s'.windows R).height = 11 ∧ (s'.windows (s.nalloc + 1)).height = 12) := by
  have hrep0 : Rep s scr (plug [] (Shape.node R Kind.leaf Shape.nil rest)) := hrep
  obtain ⟨hroot, -, hlt, -, hl, -, -⟩ := (rep_plug_node s scr [] R _ _ rest).1 hrep0
  obtain ⟨hpar, hprev, -, -, hk⟩ := hl
  have hpar : (s.windows R).parent = none := hpar
  have hprev : (s.windows R).prev = none := hprev
  simp only at hk
  simp only [ctxRoot] at hroot
  have hRn : R ≠ s.nalloc := Nat.ne_of_lt (hlt R (by simp))
  have hok := Fsplit_window_isOk s scr [] R _ _ rest none false b hrep0 hm hns hbuf hlive hgood
  have hsat := Fsplit_window_rep s scr [] R _ _ rest none false hrep0
  have hnp : needs_parent s R false = true := by simp [needs_parent, hpar]
  cases hr : Fsplit_window s (some R) none false with
  | signal e s' => rw [hr] at hok; simp [Res.isOk] at hok
  | fault => rw [hr] at hok; simp [Res.isOk] at hok
  | nofuel => rw [hr] at hok; simp [Res.isOk] at hok
  | ok new s' =>
    rw [hr] at hsat
    obtain ⟨-, -, ⟨-, -, -, b', hb', -, hout⟩, hnew, -⟩ := hsat
    rw [hbuf] at hb'
    cases hb'
    rw [if_pos hnp] at hout hnew
    subst hnew
    obtain ⟨s3, ⟨hn3, -, hsc3, hw3, hD3, -⟩, hpost⟩ := hout
    obtain ⟨-, hscr', -, hoth, hw', hp', hv', hx', -, -, hb2, -, -, -, -, -, hh'⟩ := hpost
    simp only [Bool.false_eq_true, if_false] at hD3 hw' hh'
    have hnext3 : (s3.windows R).next = none := by rw [hw3]
    have hD : s'.windows s.nalloc = s3.windows s.nalloc := by
      rw [hoth s.nalloc (by rw [hn3]; omega) (fun e => hRn e.symm), hnext3]
      simp
    have hsize : split_size s R none false = (s.windows R).height / 2 := rfl
    have hR : (s'.windows R).height = (s.windows R).height / 2 := by rw [hw', ← hsize]
    have hN : (s'.windows (s.nalloc + 1)).height
        = (s.windows R).height - (s.windows R).height / 2 := by
      rw [← hn3, hh', hw3, ← hsize]
    refine ⟨s', rfl, ?_, ?_, ?_, ?_, ?_, ?_, ?_, ?_, ?_, ?_, ?_, ?_, hR, hN, ?_, ?_⟩
    · rw [hscr', hsc3]; simp [hroot, Shape.head]
    · rw [hD, hD3]
    · rw [hD, hD3]; exact hk.1
    · rw [hD, hD3]
    · rw [hw', hw3]
    · rw [hw', hw3]
    · rw [hw', hn3]
    · rw [← hn3, hp', hw3]
    · rw [← hn3, hv']
    · rw [← hn3, hx', hw3]
    · rw [hw', hw3]; exact hbuf
    · rw [← hn3, hb2]
    · intro h; rw [hR, hN, h]; decide
    · intro h; rw [hR, hN, h]; decide

/-- Witness of `Fsplit_window_root_leaf`: the only window of `state24`. -/
theorem Fsplit_window_root_leaf_witness :
    Rep state24 0 (Shape.node 0 Kind.leaf Shape.nil Shape.nil)
      ∧ (state24.windows 0).height = 24
      ∧ ∃ s', Fsplit_window state24 (some 0) none false = Res.ok (state24.nalloc + 1) s'
        ∧ (s'.windows 0).height = 12 ∧ (s'.windows (state24.nalloc + 1)).height = 12 := by
  obtain ⟨s', h⟩ := Fsplit_window_root_leaf state24 0 0 Shape.nil 0 (by decide!) (by decide!)
    (by decide!) (by decide!) (by decide!) (by decide!)
  exact ⟨by decide!, by decide!, s', h.1, h.2.2.2.2.2.2.2.2.2.2.2.2.2.2.2.1 (by decide!)⟩

/-- C13, refuted as stated: the root leaf 0 of `state2` has 23 lines, the
minibuffer window has the 24th; after the vertical split window 0 has 11
lines and the new window 12, not 12 and 11. -/
theorem split_23_counterexample :
    (Fsplit_window state2 (some 0) none false).Holds fun new s' =>
      (state2.windows 0).height = 23 ∧ (state2.screens 0).root_window = some 0
        ∧ (s'.windows 0).height = 11 ∧ (s'.windows new).height = 12
        ∧ ¬ ((s'.windows 0).height = 12 ∧ (s'.windows new).height = 11) := by decide!

theorem shownAt_buf {s : State} {x : Win} (h : ShownAt s x)
    (hb : (s.windows x).buffer ≠ BufSlot.nil) :
    ∃ b pm st, (s.windows x).buffer = BufSlot.buf b ∧ (s.windows x).pointm = some pm
      ∧ (s.windows x).start = some st ∧ (s.buffers b).name_live = true
      ∧ pm.buffer = some b ∧ st.buffer = some b := by
  unfold ShownAt at h
  split at h
  · next e => exact absurd e hb
  · next b pm st e1 e2 e3 => exact ⟨b, pm, st, e1, e2, e3, h⟩
  · exact h.elim

/-- The climb of `Fnext_window` within one screen ends at a window of the
tree. -/
theorem next_climb_mem (E : Ext) (s : State) (scr : Scr) (t : Shape) (mini : Mini)
    (hrep : Rep s scr t) : ∀ (fuel : Nat) (w y : Win), w ∈ t.handles →
    next_climb E s mini false fuel w = Walk.val y → y ∈ t.handles := by
  intro fuel
  induction fuel with
  | zero => intro w y _ h; simp [next_climb] at h
  | succ fuel ih =>
    intro w y hw h
    obtain ⟨c, k, ch, rest, rfl⟩ := exists_plug_of_mem t w hw
    obtain ⟨mnx, -, mpa, -, -⟩ := rep_links_mem s scr c w k ch rest hrep
    unfold next_climb at h
    rcases hn : (s.windows w).next with _ | tem
    · rw [hn] at h
      rcases hp : (s.windows w).parent with _ | par
      · rw [hp] at h
        simp only [rep_screen s scr _ w hrep hw, Bool.false_eq_true, if_false] at h
        rcases hr : (s.screens scr).root_window with _ | r
        · rw [hr] at h; simp at h
        · rw [hr] at h
          simp only [Walk.val.injEq] at h
          subst h
          exact head_mem_handles _ _ (hrep.1.symm.trans hr)
      · rw [hp] at h
        exact ih par y (mem_plug_ctx _ _ _ (mpa par hp)) h
    · rw [hn] at h
      simp only [Walk.val.injEq] at h
      subst h
      exact mem_plug_hole _ _ _ (by simp [Shape.handles, mnx _ hn])

/-- The descent of `Fnext_window` ends at a window of the tree without
children. -/
theorem first_leaf_mem (s : State) (scr : Scr) (t : Shape) (hrep : Rep s scr t) :
    ∀ (fuel : Nat) (y l : Win), y ∈ t.handles → first_leaf s fuel y = Walk.val l →
    l ∈ t.handles ∧ (s.windows l).hchild = none ∧ (s.windows l).vchild = none := by
  intro fuel
  induction fuel with
  | zero => intro y l _ h; simp [first_leaf] at h
  | succ fuel ih =>
    intro y l hy h
    obtain ⟨c, k, ch, rest, rfl⟩ := exists_plug_of_mem t y hy
    obtain ⟨-, -, -, mh, mv⟩ := rep_links_mem s scr c y k ch rest hrep
    unfold first_leaf at h
    rcases hh : (s.windows y).hchild with _ | a
    · rw [hh] at h
      rcases hv : (s.windows y).vchild with _ | a
      · rw [hv] at h
        simp only [Walk.val.injEq] at h
        subst h
        exact ⟨hy, hh, hv⟩
      · rw [hv] at h
        exact ih a l (mem_plug_hole _ _ _ (by simp [Shape.handles, mv a hv])) h
    · rw [hh] at h
      exact ih a l (mem_plug_hole _ _ _ (by simp [Shape.handles, mh a hh])) h

theorem next_window_loop_mem (E : Ext) (s : State) (scr : Scr) (t : Shape) (mini : Mini)
    (hrep : Rep s scr t) : ∀ (fuel : Nat) (w l : Win), w ∈ t.handles →
    next_window_loop E s mini false fuel w = Walk.val l →
    l ∈ t.handles ∧ (s.windows l).hchild = none ∧ (s.windows l).vchild = none := by
  intro fuel
  induction fuel with
  | zero => intro w l _ h; simp [next_window_loop] at h
  | succ fuel ih =>
    intro w l hw h
    unfold next_window_loop at h
    rcases h1 : next_climb E s mini false fuel w with y | _ | _
    · rw [h1] at h
      simp only at h
      have hy := next_climb_mem E s scr t mini hrep fuel w y hw h1
      rcases h2 : first_leaf s fuel y with w1 | _ | _
      · rw [h2] at h
        simp only at h
        have hw1 := first_leaf_mem s scr t hrep fuel y w1 hy h2
        split at h
        · rw [rep_screen s scr t w1 hrep hw1.1] at h
          simp only at h
          split at h
          · exact ih w1 l hw1.1 h
          · simp only [Walk.val.injEq] at h
            exact h ▸ hw1
        · simp only [Walk.val.injEq] at h
          exact h ▸ hw1
      · rw [h2] at h; simp at h
      · rw [h2] at h; simp at h
    · rw [h1] at h; simp at h
    · rw [h1] at h; simp at h

/-- The window that `Fdelete_window` selects in place of the selected window
is a leaf of the tree. -/
theorem Fnext_window_mem (E : Ext) (s : State) (scr : Scr) (t : Shape) (hrep : Rep s scr t)
    (fuel : Nat) (w l : Win) (hw : w ∈ t.handles)
    (h : Fnext_window E fuel s (some w) Mini.nil false = Walk.val l) :
    l ∈ t.handles ∧ (s.windows l).buffer ≠ BufSlot.nil := by
  unfold Fnext_window at h
  simp only [Option.getD_some, reduceCtorEq, ne_eq, not_true_eq_false, false_and, or_self,
    if_false] at h
  obtain ⟨h1, h2, h3⟩ := next_window_loop_mem E s scr t Mini.nil hrep fuel w l hw h
  refine ⟨h1, ?_⟩
  have := rep_one_content s scr t hrep l h1
  unfold OneContent at this
  rcases this with h | h | h
  · exact absurd h2 h.1
  · exact absurd h3 h.2.1
  · exact h.2.2

@[simp] theorem Res.isSignal_ok {α : Type} (a : α) (s : State) :
    (Res.ok a s).isSignal = false := rfl
@[simp] theorem Res.isSignal_fault {α : Type} : (Res.fault : Res α).isSignal = false := rfl
@[simp] theorem Res.isSignal_nofuel {α : Type} : (Res.nofuel : Res α).isSignal = false := rfl
@[simp] theorem Res.isSignal_signal {α : Type} (e : Err) (s : State) :
    (Res.signal e s : Res α).isSignal = true := rfl

/-- A sequence does not signal if its first part does not and the second
part does not after a normal return of the first. -/
theorem Res.quiet_andThen {α β : Type} {r : Res α} {f : α → State → Res β}
    {P : α → State → Prop} (h1 : r.isSignal = false) (h2 : r.Sat P)
    (hf : ∀ a s, P a s → (f a s).isSignal = false) : (r.andThen f).isSignal = false := by
  cases r <;> simp_all

theorem Res.sat_true {α : Type} (r : Res α) : r.Sat fun _ _ => True := by
  cases r <;> trivial

theorem Res.Out.quiet {α : Type} {r : Res α} {P : α → State → Prop} {F N : Prop}
    (h : r.Out P F N) : r.isSignal = false := by
  cases r <;> simp_all [Res.Out]

theorem Res.quiet_ofWalk {α : Type} (r : Walk α) (s : State) :
    (Res.ofWalk r s).isSignal = false := by
  cases r <;> rfl

theorem unshow_buffer_quiet (s : State) (w : Win)
    (h : ∀ st, (s.windows w).start = some st → st.buffer ≠ none) :
    (unshow_buffer s w).isSignal = false := by
  unfold unshow_buffer
  split
  · next buf pm hb hpm =>
    split
    · rfl
    · refine Res.quiet_andThen (P := fun _ _ => True) ?_ ?_ ?_
      · split
        · rcases hs : (s.windows w).start with _ | st
          · rfl
          · simp only
            rw [if_neg (h st hs)]
            rfl
        · rfl
      · exact Res.sat_true _
      · intro _ s1 _
        split <;> rfl
  · rfl

theorem select_stamp_fields (s : State) (nw x : Win) :
    ((select_stamp s nw).windows x).start = (s.windows x).start
      ∧ ((select_stamp s nw).windows x).buffer = (s.windows x).buffer
      ∧ ((select_stamp s nw).windows x).pointm = (s.windows x).pointm
      ∧ ((select_stamp s nw).windows x).screen = (s.windows x).screen
      ∧ (select_stamp s nw).selected_window = s.selected_window
      ∧ (select_stamp s nw).selected_screen = s.selected_screen
      ∧ (select_stamp s nw).buffers = s.buffers
      ∧ (select_stamp s nw).screens = s.screens := by
  unfold select_stamp
  by_cases h : x = nw
  · subst h; simp [setw]
  · simp [setw, h]

theorem select_switch_fields (s1 : State) (ow : Win) (ob : Buf) (nw x : Win) :
    ((select_switch s1 ow ob nw).windows x).start = (s1.windows x).start
      ∧ ((select_switch s1 ow ob nw).windows x).buffer = (s1.windows x).buffer
      ∧ (x ≠ ow → ((select_switch s1 ow ob nw).windows x).pointm = (s1.windows x).pointm)
      ∧ ((select_switch s1 ow ob nw).windows x).screen = (s1.windows x).screen
      ∧ (select_switch s1 ow ob nw).selected_screen = s1.selected_screen
      ∧ (select_switch s1 ow ob nw).buffers = s1.buffers
      ∧ (select_switch s1 ow ob nw).screens = s1.screens := by
  unfold select_switch
  by_cases h : x = ow
  · subst h; simp [setw]
  · simp [setw, h]

theorem select_on_screen_same (E : Ext) (s3 : State) (nw : Win) :
    (select_on_screen E s3 nw s3.selected_screen).windows = s3.windows
      ∧ (select_on_screen E s3 nw s3.selected_screen).buffers = s3.buffers := by
  unfold select_on_screen
  simp [sets]

theorem select_point_windows (s4 : State) (b : Buf) (p : Int) :
    (select_point s4 b p).windows = s4.windows := by
  unfold select_point
  simp only []
  split_ifs <;> rfl

/-- `Fselect_window` does not signal on a leaf of the selected screen that
shows a live buffer with its `pointm` in a buffer, if the selected window has
a `pointm` too; it leaves the `start` markers alone. -/
theorem Fselect_window_quiet (E : Ext) (s : State) (nw : Win) (b : Buf) (pm : Marker)
    (hb : (s.windows nw).buffer = BufSlot.buf b) (hl : (s.buffers b).name_live = true)
    (hpm : (s.windows nw).pointm = some pm) (hpmb : pm.buffer ≠ none)
    (hscr : (s.windows nw).screen = some s.selected_screen)
    (how : ∀ ob, (s.windows s.selected_window).buffer = BufSlot.buf ob →
      (s.windows s.selected_window).pointm ≠ none) :
    (Fselect_window E s nw).isSignal = false
      ∧ (Fselect_window E s nw).Sat fun _ s' =>
          ∀ x, (s'.windows x).start = (s.windows x).start
            ∧ (s'.windows x).buffer = (s.windows x).buffer := by
  obtain ⟨-, -, -, -, f5, f6, f7, -⟩ := select_stamp_fields s nw nw
  unfold Fselect_window
  simp only [hb, reduceCtorEq, if_false]
  by_cases hsel : nw = (select_stamp s nw).selected_window
  · rw [if_pos hsel]
    exact ⟨rfl, fun x => ⟨(select_stamp_fields s nw x).1, (select_stamp_fields s nw x).2.1⟩⟩
  rw [if_neg hsel]
  rw [f5] at hsel
  obtain ⟨-, g2, g3, -⟩ := select_stamp_fields s nw s.selected_window
  rw [g2, g3]
  rcases hob : (s.windows s.selected_window).buffer with _ | _ | ob
  · exact ⟨rfl, trivial⟩
  · exact ⟨rfl, trivial⟩
  rcases hop : (s.windows s.selected_window).pointm with _ | opm
  · exact absurd hop (how ob hob)
  simp only
  obtain ⟨k1, k2, k3, k4, k5, k6, -⟩ := select_switch_fields (select_stamp s nw)
    s.selected_window ob nw nw
  rw [k4, (select_stamp_fields s nw nw).2.2.2.1, hscr]
  simp only
  have hscr4 : s.selected_screen
      = (select_switch (select_stamp s nw) s.selected_window ob nw).selected_screen := by
    rw [k5, f6]
  rw [hscr4]
  obtain ⟨m1, m2⟩ := select_on_screen_same E
    (select_switch (select_stamp s nw) s.selected_window ob nw) nw
  rw [m1, m2, k2, k3 hsel, k6, f7, (select_stamp_fields s nw nw).2.1,
    (select_stamp_fields s nw nw).2.2.1, hb, hpm]
  simp only [hl, Bool.true_eq_false, if_false, if_neg hpmb]
  refine ⟨rfl, fun x => ?_⟩
  rw [select_point_windows, m1, (select_switch_fields _ _ _ _ x).1,
    (select_switch_fields _ _ _ _ x).2.1, (select_stamp_fields s nw x).1,
    (select_stamp_fields s nw x).2.1]
  exact ⟨rfl, rfl⟩

theorem Res.ofWalk_sat {α : Type} (r : Walk α) (s : State) :
    (Res.ofWalk r s).Sat fun a s' => s' = s ∧ r = Walk.val a := by
  cases r <;> simp [Res.ofWalk]

/-- The first phase of `Fdelete_window` does not signal on a window of a
represented tree of the selected screen whose leaves show live buffers. -/
theorem delete_begin_quiet (E : Ext) (fuel : Nat) (s : State) (scr : Scr) (t : Shape) (w : Win)
    (hrep : Rep s scr t) (hw : w ∈ t.handles) (hshown : Shown s t)
    (hscr : s.selected_screen = scr) : (delete_begin E fuel s w).isSignal = false := by
  unfold delete_begin
  simp only []
  refine Res.quiet_andThen (P := fun _ s2 => ∀ x, (s2.windows x).start = (s.windows x).start
    ∧ (s2.windows x).buffer = (s.windows x).buffer) ?_ ?_ ?_
  · split
    · next hsel =>
      refine Res.quiet_andThen (Res.quiet_ofWalk _ _) (Res.ofWalk_sat _ _) ?_
      rintro nw s1 ⟨rfl, hnw⟩
      have hrep1 : Rep { s with windows_or_buffers_changed := s.windows_or_buffers_changed + 1 }
          scr t := hrep
      obtain ⟨hm, hbn⟩ := Fnext_window_mem E _ scr t hrep1 fuel w nw hw hnw
      obtain ⟨b, pm, st, e1, e2, e3, e4, e5, e6⟩ := shownAt_buf (hshown nw hm) hbn
      have hq := Fselect_window_quiet E
        { s with windows_or_buffers_changed := s.windows_or_buffers_changed + 1 } nw b pm
        e1 e4 e2 (by rw [e5]; simp) (by rw [← hscr] at hrep1; exact rep_screen _ _ t nw hrep1 hm)
        (fun ob hob => by
          have hsel' : s.selected_window = w := hsel.symm
          simp only [hsel'] at hob ⊢
          obtain ⟨_, pm', _, _, e2', _⟩ := shownAt_buf (hshown w hw) (by rw [hob]; simp)
          rw [e2']; simp)
      refine Res.quiet_andThen hq.1 hq.2 ?_
      intro _ _ _
      rfl
    · rfl
  · split
    · refine Res.Sat.bind (Res.ofWalk_sat _ _) ?_
      rintro nw s1 ⟨rfl, hnw⟩
      have hrep1 : Rep { s with windows_or_buffers_changed := s.windows_or_buffers_changed + 1 }
          scr t := hrep
      obtain ⟨hm, hbn⟩ := Fnext_window_mem E _ scr t hrep1 fuel w nw hw hnw
      obtain ⟨b, pm, st, e1, e2, e3, e4, e5, e6⟩ := shownAt_buf (hshown nw hm) hbn
      next hsel =>
      have hq := Fselect_window_quiet E
        { s with windows_or_buffers_changed := s.windows_or_buffers_changed + 1 } nw b pm
        e1 e4 e2 (by rw [e5]; simp) (by rw [← hscr] at hrep1; exact rep_screen _ _ t nw hrep1 hm)
        (fun ob hob => by
          have hsel' : s.selected_window = w := hsel.symm
          simp only [hsel'] at hob ⊢
          obtain ⟨_, pm', _, _, e2', _⟩ := shownAt_buf (hshown w hw) (by rw [hob]; simp)
          rw [e2']; simp)
      refine Res.Sat.bind hq.2 ?_
      intro _ s2 h
      exact h
    · intro x
      exact ⟨rfl, rfl⟩
  · intro _ s2 h2
    split
    · next hb2 =>
      refine Res.quiet_andThen (unshow_buffer_quiet s2 w ?_) (Res.sat_true _) ?_
      · intro st hst
        rw [(h2 w).1] at hst
        rw [(h2 w).2] at hb2
        obtain ⟨b, pm, st', e1, e2, e3, e4, e5, e6⟩ := shownAt_buf (hshown w hw) hb2
        rw [e3] at hst
        cases hst
        rw [e6]; simp
      · intro _ s3 _
        split <;> rfl
    · rfl

theorem replace_window_quiet (s : State) (o n : Win) : (replace_window s o n).isSignal = false := by
  unfold replace_window
  split
  · rfl
  · simp only []
    split <;> rfl

theorem delete_sibling_quiet (s : State) (w : Win) : (delete_sibling s w).isSignal = false := by
  unfold delete_sibling
  split
  · rfl
  · split <;> rfl

theorem delete_collapse_quiet (s : State) (P : Win) : (delete_collapse s P).isSignal = false := by
  unfold delete_collapse
  simp only []
  split
  · rfl
  · split
    · exact replace_window_quiet _ _ _
    · rfl

theorem set_window_height_quiet (E : Ext) (scr : Scr) (fuel : Nat) (s : State) (t : Shape)
    (x : Win) (v : Int) (hrep : Rep s scr t) (hx : x ∈ t.handles) :
    (set_window_height E fuel s x v true).isSignal = false := by
  obtain ⟨c, k, ch, rest, rfl⟩ := exists_plug_of_mem t x hx
  exact (set_window_height_out E scr fuel s c x k ch rest v hrep).quiet

theorem set_window_width_quiet (E : Ext) (scr : Scr) (fuel : Nat) (s : State) (t : Shape)
    (x : Win) (v : Int) (hrep : Rep s scr t) (hx : x ∈ t.handles) :
    (set_window_width E fuel s x v true).isSignal = false := by
  obtain ⟨c, k, ch, rest, rfl⟩ := exists_plug_of_mem t x hx
  exact (set_window_width_out E scr fuel s c x k ch rest v hrep).quiet

/-- `Fdelete_window` does not signal on a window with a parent in a
represented tree of the selected screen whose leaves show live buffers. -/
theorem Fdelete_window_quiet (E : Ext) (hE : ∀ s c, SameTree s (E.Fselect_screen s c))
    (fuel : Nat) (s : State) (scr : Scr) (t : Shape) (w : Win)
    (hrep : Rep s scr t) (hw : w ∈ t.handles) (hshown : Shown s t)
    (hscr : s.selected_screen = scr) (hpar : (s.windows w).parent ≠ none) :
    (Fdelete_window E fuel s (some w)).isSignal = false := by
  cases fuel with
  | zero => simp [Fdelete_window]
  | succ fuel =>
    rw [Fdelete_window_succ]
    rcases hp : (s.windows w).parent with _ | P
    · exact absurd hp hpar
    simp only
    have hq0 := delete_begin_quiet E fuel s scr t w hrep hw hshown hscr
    obtain ⟨c, k, ch, rest, rfl⟩ := exists_plug_of_mem t w hw
    cases c with
    | nil =>
      obtain ⟨-, -, -, -, hlw, -, -⟩ := (rep_plug_node s scr [] w k ch rest).1 hrep
      rw [hlw.1] at hp
      simp [WinTree.hpar] at hp
    | cons f c0 =>
      rw [← Res.andThen_assoc]
      refine Res.quiet_andThen ?_
        (delete_unlink_rep E hE fuel s scr f c0 w k ch rest P hrep hp) ?_
      · exact Res.quiet_andThen hq0 (Res.sat_true _) (fun _ _ _ => delete_sibling_quiet _ _)
      rintro sib s8 ⟨hrep8, hn8, -, -, hsib⟩
      have hmem : sib ∈ (plug (f :: c0) rest).handles := by
        rw [(handles_plug _ _).mem_iff, List.mem_append]
        rcases hv : hprev (f :: c0) with _ | v
        · rw [hv] at hsib
          exact Or.inr (head_mem_handles _ _ hsib.symm)
        · rw [hv] at hsib
          simp only [Option.some.injEq] at hsib
          exact Or.inl (hsib ▸ hprev_mem _ _ hv)
      refine Res.quiet_andThen (P := fun _ s9 => Rep s9 scr (plug (f :: c0) rest)) ?_ ?_ ?_
      · split
        · exact set_window_height_quiet E scr fuel s8 _ sib _ hrep8 hmem
        · rfl
      · split
        · exact (set_window_height_rep E scr fuel s8 _ sib _ hrep8 hmem).mono fun _ _ h => h.1
        · exact hrep8
      intro _ s9 hrep9
      refine Res.quiet_andThen (P := fun _ _ => True) ?_ (Res.sat_true _)
        (fun _ _ _ => delete_collapse_quiet _ _)
      split
      · exact set_window_width_quiet E scr fuel s9 _ sib _ hrep9 hmem
      · rfl

/-- C14: on a window `w` of a represented tree of the selected screen whose
leaves show live buffers (with their markers in them) `Fdelete_window`
signals an error if and only if `w` has no parent; the error is signalled in
the state of the call, nothing has changed.  Selecting a screen is assumed
not to touch the window trees. -/
theorem Fdelete_window_signals (E : Ext) (hE : ∀ s c, SameTree s (E.Fselect_screen s c))
    (fuel : Nat) (s : State) (scr : Scr) (t : Shape) (w : Win)
    (hrep : Rep s scr t) (hw : w ∈ t.handles) (hshown : Shown s t)
    (hscr : s.selected_screen = scr) :
    ((Fdelete_window E (fuel + 1) s (some w)).isSignal = true ↔ (s.windows w).parent = none)
      ∧ ∀ e s', Fdelete_window E (fuel + 1) s (some w) = Res.signal e s' →
          e = Err.delete_minibuffer_or_sole ∧ s' = s := by
  by_cases hp : (s.windows w).parent = none
  · have e : Fdelete_window E (fuel + 1) s (some w)
        = Res.signal Err.delete_minibuffer_or_sole s := by
      rw [Fdelete_window_succ, hp]
    rw [e]
    refine ⟨by simp [hp], fun e' s' h => ?_⟩
    simp only [Res.signal.injEq] at h
    exact ⟨h.1.symm, h.2.symm⟩
  · have hq := Fdelete_window_quiet E hE (fuel + 1) s scr t w hrep hw hshown hscr hp
    refine ⟨by simp [hq, hp], fun e s' h => ?_⟩
    rw [h] at hq
    simp at hq

/-- Witness of `Fdelete_window_signals`: the root window 2 of `state6`. -/
theorem Fdelete_window_signals_witness :
    (∀ s c, SameTree s (ext1.Fselect_screen s c))
      ∧ Rep state6 0 shape6 ∧ 2 ∈ shape6.handles ∧ Shown state6 shape6
      ∧ state6.selected_screen = 0
      ∧ (Fdelete_window ext1 (7 + 1) state6 (some 3)).isOk = true
      ∧ (((Fdelete_window ext1 (7 + 1) state6 (some 2)).isSignal = true
            ↔ (state6.windows 2).parent = none)
        ∧ ∀ e s', Fdelete_window ext1 (7 + 1) state6 (some 2) = Res.signal e s' →
            e = Err.delete_minibuffer_or_sole ∧ s' = state6) :=
  ⟨fun s _ => SameTree.refl s, by decide!, by decide!, by decide!, by decide!, by decide!,
    Fdelete_window_signals ext1 (fun s _ => SameTree.refl s) 7 state6 0 shape6 2 (by decide!)
      (by decide!) (by decide!) (by decide!)⟩

/-- What a returning `set_window_height (x, v, 1)` changes on a window of a
represented tree: the vertical geometry of `x` and of the windows below it;
`x` keeps its top and has the height `v`. -/
theorem resize_frame_y (E : Ext) (scr : Scr) (fuel : Nat) (s8 : State) (c : Ctx)
    (x : Win) (k : Kind) (ch rest : Shape) (v : Int)
    (hrep8 : Rep s8 scr (plug c (Shape.node x k ch rest))) :
    (set_window_height E fuel s8 x v true).Sat fun _ s9 =>
      Rep s9 scr (plug c (Shape.node x k ch rest)) ∧ s9.nalloc = s8.nalloc
        ∧ s9.screens = s8.screens
        ∧ (∀ z, SameX s8.windows s9.windows z)
        ∧ (∀ z, z ≠ x → z ∉ ch.handles → SameY s8.windows s9.windows z)
        ∧ ((s9.windows x).top = (s8.windows x).top ∧ (s9.windows x).height = v) := by
  have hnd := rep_nodup_node s8 scr c x k ch rest hrep8
  refine (set_window_height_out E scr fuel s8 c x k ch rest v hrep8).to_sat.mono ?_
  rintro _ s9 ⟨e, ho⟩
  obtain ⟨f1, f2⟩ := resize_node_y_frame _ _ _ _ _ _ e
  have hy := resize_node_y_yless _ _ _ _ _ _ e
  obtain ⟨g1, -, g3, -⟩ := others_fields ho
  refine ⟨rep_of_links s8 s9 scr _ hrep8 g3 (by rw [g1]) fun z _ => links_of_yless (hy z), g3,
    g1, fun z => ?_, fun z h1 h2 => ?_, ?_⟩
  · obtain ⟨a, b⟩ := yless_geometry (hy z)
    exact ⟨a, b⟩
  · rw [SameY, f1 z h1 h2]
    exact ⟨rfl, rfl⟩
  · rw [f2 (List.nodup_cons.1 hnd).1]
    exact ⟨rfl, rfl⟩

/-- The geometry after the resize step of `Fdelete_window` below a vertical
combination, in terms of the geometry before the call: the sibling has the
heights of both windows; across the axis nothing has changed but the origin
of the next window of a first child. -/
theorem delete_frame_y (E : Ext) (scr : Scr) (fuel : Nat) (s s8 s9 : State) (c : Ctx)
    (w sib : Win) (k : Kind) (ch rest : Shape)
    (hrep8 : Rep s8 scr (plug c (Shape.node sib k ch rest))) (hsw : sib ≠ w)
    (hcore : ∀ x, x ≠ w → (s8.windows x).core = (unlinked s w x).core)
    (hw8 : ({ (s8.windows w).core with buffer := BufSlot.nil } : Window)
      = { (s.windows w).core with buffer := BufSlot.nil })
    (hres : set_window_height E fuel s8 sib
      ((s8.windows sib).height + (s8.windows w).height) true = Res.ok () s9) :
    Rep s9 scr (plug c (Shape.node sib k ch rest)) ∧ s9.nalloc = s8.nalloc
      ∧ s9.screens = s8.screens
      ∧ (∀ z, z ≠ w → (s9.windows z).width = (s.windows z).width
          ∧ (((s.windows w).next = some z → (s.windows w).prev ≠ none) →
              (s9.windows z).left = (s.windows z).left)
          ∧ ((s.windows w).next = some z → (s.windows w).prev = none →
              (s9.windows z).left = (s.windows w).left))
      ∧ (∀ z, z ≠ w → z ≠ sib → z ∉ ch.handles → (s9.windows z).height = (s.windows z).height
          ∧ (((s.windows w).next = some z → (s.windows w).prev ≠ none) →
              (s9.windows z).top = (s.windows z).top)
          ∧ ((s.windows w).next = some z → (s.windows w).prev = none →
              (s9.windows z).top = (s.windows w).top))
      ∧ (s9.windows sib).height = (s.windows sib).height + (s.windows w).height
      ∧ (((s.windows w).next = some sib → (s.windows w).prev ≠ none) →
          (s9.windows sib).top = (s.windows sib).top)
      ∧ ((s.windows w).next = some sib → (s.windows w).prev = none →
          (s9.windows sib).top = (s.windows w).top) := by
  have h := resize_frame_y E scr fuel s8 c sib k ch rest
    ((s8.windows sib).height + (s8.windows w).height) hrep8
  rw [hres] at h
  obtain ⟨r1, r2, r2', r3, r4, r5⟩ := h
  have hux := unlinked_same_x s s8 w hcore
  have huy := unlinked_same_y s s8 w hcore
  have e7 := butCore_height hw8
  refine ⟨r1, r2, r2', fun z hz => ?_, fun z hz hzs hzc => ?_, ?_, ?_, ?_⟩
  · obtain ⟨a, b⟩ := r3 z
    obtain ⟨u1, u2, u3⟩ := hux z hz
    exact ⟨b.trans u1, fun h => a.trans (u2 h), fun h1 h2 => a.trans (u3 h1 h2)⟩
  · obtain ⟨a, b⟩ := r4 z hzs hzc
    obtain ⟨u1, u2, u3⟩ := huy z hz
    exact ⟨b.trans u1, fun h => a.trans (u2 h), fun h1 h2 => a.trans (u3 h1 h2)⟩
  · rw [r5.2, (huy sib hsw).1, e7]
  · intro h
    rw [r5.1]
    exact (huy sib hsw).2.1 h
  · intro h1 h2
    rw [r5.1]
    exact (huy sib hsw).2.2 h1 h2

/-- What a returning `set_window_width (y, v, 1)` changes on a window of a
represented tree: the horizontal geometry of `y` and of the windows below it;
`y` keeps its left and has the width `v`. -/
theorem resize_frame_x (E : Ext) (scr : Scr) (fuel : Nat) (s8 : State) (c : Ctx)
    (y : Win) (k : Kind) (ch rest : Shape) (v : Int)
    (hrep8 : Rep s8 scr (plug c (Shape.node y k ch rest))) :
    (set_window_width E fuel s8 y v true).Sat fun _ s9 =>
      Rep s9 scr (plug c (Shape.node y k ch rest)) ∧ s9.nalloc = s8.nalloc
        ∧ s9.screens = s8.screens
        ∧ (∀ z, SameY s8.windows s9.windows z)
        ∧ (∀ z, z ≠ y → z ∉ ch.handles → SameX s8.windows s9.windows z)
        ∧ ((s9.windows y).left = (s8.windows y).left ∧ (s9.windows y).width = v) := by
  have hnd := rep_nodup_node s8 scr c y k ch rest hrep8
  refine (set_window_width_out E scr fuel s8 c y k ch rest v hrep8).to_sat.mono ?_
  rintro _ s9 ⟨e, ho⟩
  obtain ⟨f1, f2⟩ := resize_node_x_frame _ _ _ _ _ _ e
  have hy := resize_node_x_xless _ _ _ _ _ _ e
  obtain ⟨g1, -, g3, -⟩ := others_fields ho
  refine ⟨rep_of_links s8 s9 scr _ hrep8 g3 (by rw [g1]) fun z _ => links_of_xless (hy z), g3,
    g1, fun z => ?_, fun z h1 h2 => ?_, ?_⟩
  · obtain ⟨a, b⟩ := xless_geometry (hy z)
    exact ⟨a, b⟩
  · rw [SameX, f1 z h1 h2]
    exact ⟨rfl, rfl⟩
  · rw [f2 (List.nodup_cons.1 hnd).1]
    exact ⟨rfl, rfl⟩

/-- The geometry after the resize step of `Fdelete_window` below a horizontal
combination, in terms of the geometry before the call: the sibling has the
widths of both windows; across the axis nothing has changed but the origin
of the next window of a first child. -/
theorem delete_frame_x (E : Ext) (scr : Scr) (fuel : Nat) (s s8 s9 : State) (c : Ctx)
    (w sib : Win) (k : Kind) (ch rest : Shape)
    (hrep8 : Rep s8 scr (plug c (Shape.node sib k ch rest))) (hsw : sib ≠ w)
    (hcore : ∀ y, y ≠ w → (s8.windows y).core = (unlinked s w y).core)
    (hw8 : ({ (s8.windows w).core with buffer := BufSlot.nil } : Window)
      = { (s.windows w).core with buffer := BufSlot.nil })
    (hres : set_window_width E fuel s8 sib
      ((s8.windows sib).width + (s8.windows w).width) true = Res.ok () s9) :
    Rep s9 scr (plug c (Shape.node sib k ch rest)) ∧ s9.nalloc = s8.nalloc
      ∧ s9.screens = s8.screens
      ∧ (∀ z, z ≠ w → (s9.windows z).height = (s.windows z).height
          ∧ (((s.windows w).next = some z → (s.windows w).prev ≠ none) →
              (s9.windows z).top = (s.windows z).top)
          ∧ ((s.windows w).next = some z → (s.windows w).prev = none →
              (s9.windows z).top = (s.windows w).top))
      ∧ (∀ z, z ≠ w → z ≠ sib → z ∉ ch.handles → (s9.windows z).width = (s.windows z).width
          ∧ (((s.windows w).next = some z → (s.windows w).prev ≠ none) →
              (s9.windows z).left = (s.windows z).left)
          ∧ ((s.windows w).next = some z → (s.windows w).prev = none →
              (s9.windows z).left = (s.windows w).left))
      ∧ (s9.windows sib).width = (s.windows sib).width + (s.windows w).width
      ∧ (((s.windows w).next = some sib → (s.windows w).prev ≠ none) →
          (s9.windows sib).left = (s.windows sib).left)
      ∧ ((s.windows w).next = some sib → (s.windows w).prev = none →
          (s9.windows sib).left = (s.windows w).left) := by
  have h := resize_frame_x E scr fuel s8 c sib k ch rest
    ((s8.windows sib).width + (s8.windows w).width) hrep8
  rw [hres] at h
  obtain ⟨r1, r2, r2', r3, r4, r5⟩ := h
  have hux := unlinked_same_y s s8 w hcore
  have huy := unlinked_same_x s s8 w hcore
  have e7 := butCore_width hw8
  refine ⟨r1, r2, r2', fun z hz => ?_, fun z hz hzs hzc => ?_, ?_, ?_, ?_⟩
  · obtain ⟨a, b⟩ := r3 z
    obtain ⟨u1, u2, u3⟩ := hux z hz
    exact ⟨b.trans u1, fun h => a.trans (u2 h), fun h1 h2 => a.trans (u3 h1 h2)⟩
  · obtain ⟨a, b⟩ := r4 z hzs hzc
    obtain ⟨u1, u2, u3⟩ := huy z hz
    exact ⟨b.trans u1, fun h => a.trans (u2 h), fun h1 h2 => a.trans (u3 h1 h2)⟩
  · rw [r5.2, (huy sib hsw).1, e7]
  · intro h
    rw [r5.1]
    exact (huy sib hsw).2.1 h
  · intro h1 h2
    rw [r5.1]
    exact (huy sib hsw).2.2 h1 h2

theorem infos_par_mem (t : Shape) (P : Option (Kind × Win)) (V : Option Win) (i : NodeInfo)
    (hi : i ∈ t.infos P V) : i.par = P ∨ ∃ y ∈ t.handles, i.par.map Prod.snd = some y := by
  induction t generalizing P V with
  | nil => simp [Shape.infos] at hi
  | node y ky chy rest ihc ihr =>
    simp only [Shape.infos, List.mem_cons, List.mem_append] at hi
    rcases hi with rfl | hi | hi
    · exact Or.inl rfl
    · rcases ihc _ _ hi with h | ⟨z, hz, e⟩
      · exact Or.inr ⟨y, by simp [Shape.handles], by rw [h]; rfl⟩
      · exact Or.inr ⟨z, by simp [Shape.handles, hz], e⟩
    · rcases ihr _ _ hi with h | ⟨z, hz, e⟩
      · exact Or.inl h
      · exact Or.inr ⟨z, by simp [Shape.handles, hz], e⟩

/-- In a represented tree the parent of a window below `x` is `x` or a window
below `x`; so the parent of `x` and the windows with that parent are not below
`x`. -/
theorem rep_sibling_outside (s : State) (scr : Scr) (c : Ctx) (x : Win) (k : Kind)
    (ch rest : Shape) (kP : Kind) (P : Win)
    (hrep : Rep s scr (plug c (Shape.node x k ch rest))) (hp : hpar c = some (kP, P)) (z : Win)
    (hz : z = P ∨ (s.windows z).parent = some P) : z ∉ ch.handles := by
  obtain ⟨-, hnd, -, -, -, hch, -⟩ := (rep_plug_node s scr c x k ch rest).1 hrep
  have hPc : P ∈ ctxHandles c := hpar_mem c kP P hp
  obtain ⟨-, -, hdisj⟩ := List.nodup_append.1 hnd
  have hPout : P ∉ x :: ch.handles := fun h =>
    hdisj hPc (by
      simp only [List.mem_cons, List.mem_append] at h ⊢
      tauto)
  intro hzc
  rcases hz with rfl | hz
  · exact hPout (List.mem_cons_of_mem _ hzc)
  · have hm : z ∈ (ch.infos (some (k, x)) none).map NodeInfo.w := by
      rw [infos_map_w]; exact hzc
    obtain ⟨i, hi, rfl⟩ := List.mem_map.1 hm
    have hl := (hch i hi).1
    rw [hz] at hl
    rcases infos_par_mem _ _ _ i hi with h | ⟨y, hy, e⟩
    · rw [h] at hl
      simp only [Option.map_some', Option.some.injEq] at hl
      exact hPout (by rw [hl]; exact List.mem_cons_self _ _)
    · rw [e] at hl
      simp only [Option.some.injEq] at hl
      exact hPout (by rw [hl]; exact List.mem_cons_of_mem _ hy)

theorem ctxChain_tops_length (c : Ctx) :
    ∃ m, ∀ t, (ctxChain c t).tops.length = m + t.tops.length := by
  induction c with
  | nil => exact ⟨0, fun t => by simp [ctxChain]⟩
  | cons f c ih =>
    cases f with
    | right v kv chv =>
      obtain ⟨m, hm⟩ := ih
      exact ⟨m + 1, fun t => by simp only [ctxChain, hm, Shape.tops, List.length_cons]; omega⟩
    | down v kv r => exact ⟨0, fun t => by simp [ctxChain]⟩

theorem bound_eq (t : Shape) : t.bound = 1 + 3 * t.handles.length := by
  induction t with
  | nil => rfl
  | node y ky chy rest ihc ihr =>
    simp only [Shape.bound, Shape.handles, List.length_cons, List.length_append, ihc, ihr]
    omega

/-- The two resize steps of `Fdelete_window`, of which the one along the axis
of the parent `P` runs: the geometry afterwards in terms of the geometry
before the call. -/
theorem delete_resize_frame (E : Ext) (scr : Scr) (fuel : Nat) (s s8 : State) (c : Ctx)
    (w sib : Win) (k : Kind) (ch rest : Shape) (kP : Kind) (P : Win)
    (hrep8 : Rep s8 scr (plug c (Shape.node sib k ch rest))) (hsw : sib ≠ w)
    (hp : hpar c = some (kP, P)) (hkl : kP ≠ Kind.leaf)
    (hcore : ∀ x, x ≠ w → (s8.windows x).core = (unlinked s w x).core)
    (hw8 : ({ (s8.windows w).core with buffer := BufSlot.nil } : Window)
      = { (s.windows w).core with buffer := BufSlot.nil }) :
    ((if (s8.windows P).vchild ≠ none then
          set_window_height E fuel s8 sib
            ((s8.windows sib).height + (s8.windows w).height) true
        else Res.ok () s8).andThen fun _ s9 =>
      if (s9.windows P).hchild ≠ none then
          set_window_width E fuel s9 sib
            ((s9.windows sib).width + (s9.windows w).width) true
        else Res.ok () s9).Sat fun _ s10 =>
      Rep s10 scr (plug c (Shape.node sib k ch rest)) ∧ s10.nalloc = s8.nalloc
        ∧ s10.screens = s8.screens
        ∧ (∀ z, z ≠ w → z ≠ sib → z ∉ ch.handles →
            (s10.windows z).height = (s.windows z).height
              ∧ (s10.windows z).width = (s.windows z).width
              ∧ (((s.windows w).next = some z → (s.windows w).prev ≠ none) →
                  (s10.windows z).top = (s.windows z).top
                    ∧ (s10.windows z).left = (s.windows z).left))
        ∧ (kP = Kind.vcomb →
            (s10.windows sib).height = (s.windows sib).height + (s.windows w).height
              ∧ (s10.windows sib).width = (s.windows sib).width)
        ∧ (kP = Kind.hcomb →
            (s10.windows sib).width = (s.windows sib).width + (s.windows w).width
              ∧ (s10.windows sib).height = (s.windows sib).height)
        ∧ (((s.windows w).next = some sib → (s.windows w).prev ≠ none) →
            (s10.windows sib).top = (s.windows sib).top
              ∧ (s10.windows sib).left = (s.windows sib).left)
        ∧ ((s.windows w).next = some sib → (s.windows w).prev = none →
            (s10.windows sib).top = (s.windows w).top
              ∧ (s10.windows sib).left = (s.windows w).left) := by
  obtain ⟨k8h, k8v⟩ := rep_parent_kind s8 scr c _ kP P hrep8 hp
  cases kP with
  | leaf => exact absurd rfl hkl
  | vcomb =>
    rw [if_pos (k8v.2 rfl)]
    cases hres : set_window_height E fuel s8 sib
        ((s8.windows sib).height + (s8.windows w).height) true with
    | ok u s9 =>
      obtain ⟨r1, r2, r2', r3, r4, r5, r6, r7⟩ :=
        delete_frame_y E scr fuel s s8 s9 c w sib k ch rest hrep8 hsw hcore hw8 hres
      obtain ⟨k9h, -⟩ := rep_parent_kind s9 scr c _ _ P r1 hp
      rw [Res.andThen_ok, if_neg (by rw [k9h]; simp)]
      refine ⟨r1, r2, r2', fun z hz hzs hzc => ?_, fun _ => ⟨r5, (r3 sib hsw).1⟩,
        nofun, fun h => ⟨r6 h, (r3 sib hsw).2.1 h⟩,
        fun h1 h2 => ⟨r7 h1 h2, (r3 sib hsw).2.2 h1 h2⟩⟩
      obtain ⟨a1, a2, -⟩ := r4 z hz hzs hzc
      obtain ⟨b1, b2, -⟩ := r3 z hz
      exact ⟨a1, b1, fun h => ⟨a2 h, b2 h⟩⟩
    | signal e s9 => trivial
    | fault => trivial
    | nofuel => trivial
  | hcomb =>
    rw [if_neg (by rw [k8v]; simp)]
    rw [Res.andThen_ok, if_pos (k8h.2 rfl)]
    cases hres : set_window_width E fuel s8 sib
        ((s8.windows sib).width + (s8.windows w).width) true with
    | ok u s9 =>
      obtain ⟨r1, r2, r2', r3, r4, r5, r6, r7⟩ :=
        delete_frame_x E scr fuel s s8 s9 c w sib k ch rest hrep8 hsw hcore hw8 hres
      refine ⟨r1, r2, r2', fun z hz hzs hzc => ?_, nofun,
        fun _ => ⟨r5, (r3 sib hsw).1⟩, fun h => ⟨(r3 sib hsw).2.1 h, r6 h⟩,
        fun h1 h2 => ⟨(r3 sib hsw).2.2 h1 h2, r7 h1 h2⟩⟩
      obtain ⟨a1, a2, -⟩ := r4 z hz hzs hzc
      obtain ⟨b1, b2, -⟩ := r3 z hz
      exact ⟨b1, a1, fun h => ⟨b2 h, a2 h⟩⟩
    | signal e s9 => trivial
    | fault => trivial
    | nofuel => trivial

/-- `Fdelete_window` phase by phase on a window `w` of a represented tree,
with parent `P`: if the call returns, the state `s10` before the last phase
represents the shape without `w`; the sibling `sib` (the previous window of
`w`, or else the next one) has the size of both windows along the axis of `P`
and its old size across, at its old origin or else at the origin of `w`; `P`
and the other children of `P` have their old geometry; the last phase runs on
`s10`. -/
theorem Fdelete_window_phases (E : Ext) (hE : ∀ s c, SameTree s (E.Fselect_screen s c))
    (fuel : Nat) (s : State) (scr : Scr) (f : Frame) (c0 : Ctx) (w : Win) (k : Kind)
    (ch rest : Shape) (kP : Kind) (P : Win)
    (hrep : Rep s scr (plug (f :: c0) (Shape.node w k ch rest)))
    (hp : hpar (f :: c0) = some (kP, P)) :
    (Fdelete_window E (fuel + 1) s (some w)).Sat fun _ s' =>
      ∃ sib s10,
        some sib = (match (s.windows w).prev with
          | some v => some v
          | none => (s.windows w).next)
        ∧ sib ≠ w
        ∧ Rep s10 scr (plug (f :: c0) rest)
        ∧ (∀ z, z ≠ w → z ≠ sib → (z = P ∨ (s.windows z).parent = some P) →
            (s10.windows z).height = (s.windows z).height
              ∧ (s10.windows z).width = (s.windows z).width
              ∧ (s10.windows z).top = (s.windows z).top
              ∧ (s10.windows z).left = (s.windows z).left)
        ∧ (kP = Kind.vcomb →
            (s10.windows sib).height = (s.windows sib).height + (s.windows w).height
              ∧ (s10.windows sib).width = (s.windows sib).width)
        ∧ (kP = Kind.hcomb →
            (s10.windows sib).width = (s.windows sib).width + (s.windows w).width
              ∧ (s10.windows sib).height = (s.windows sib).height)
        ∧ ((s.windows w).prev = some sib →
            (s10.windows sib).top = (s.windows sib).top
              ∧ (s10.windows sib).left = (s.windows sib).left)
        ∧ ((s.windows w).prev = none →
            (s10.windows sib).top = (s.windows w).top
              ∧ (s10.windows sib).left = (s.windows w).left)
        ∧ delete_collapse s10 P = Res.ok () s' := by
  rw [Fdelete_window_succ]
  obtain ⟨-, hnd, -, -, hlw, -, -⟩ := (rep_plug_node s scr (f :: c0) w k ch rest).1 hrep
  obtain ⟨hwp, hwv, hwn, -, -⟩ := hlw
  simp only at hwp hwv hwn
  rw [hp] at hwp
  simp only [Option.map_some'] at hwp
  rw [hwp]
  simp only
  have hne : ∀ z ∈ ctxHandles (f :: c0) ++ rest.handles, z ≠ w := by
    intro z hz e
    subst e
    obtain ⟨-, hndw, hdisj⟩ := List.nodup_append.1 hnd
    rcases List.mem_append.1 hz with h | h
    · exact hdisj h (List.mem_cons_self _ _)
    · exact (List.nodup_cons.1 hndw).1 (List.mem_append_right _ h)
  rw [← Res.andThen_assoc]
  refine Res.Sat.bind (delete_unlink_rep E hE fuel s scr f c0 w k ch rest P hrep hwp) ?_
  rintro sib s8 ⟨hrep8, hn8, hcore, hw8, hsib⟩
  have hkl := hpar_not_leaf s scr (f :: c0) _ kP P hrep (by simp) hp
  rw [← Res.andThen_assoc]
  cases f with
  | right v kv chv =>
    simp only [hprev, Option.some.injEq] at hsib hwv
    subst hsib
    have hsw : sib ≠ w := hne sib (by simp [ctxHandles])
    have hp0 : hpar c0 = some (kP, P) := hp
    have hrep8' : Rep s8 scr (plug c0 (Shape.node sib kv chv rest)) := hrep8
    have hrep' : Rep s scr (plug c0 (Shape.node sib kv chv (Shape.node w k ch rest))) := hrep
    refine Res.Sat.bind (delete_resize_frame E scr fuel s s8 c0 w sib kv chv rest kP P
      hrep8' hsw hp0 hkl hcore hw8) ?_
    rintro _ s10 ⟨r1, -, -, r4, r5, r6, r7, r8⟩
    cases hdc : delete_collapse s10 P with
    | ok u s' =>
      refine ⟨sib, s10, by rw [hwv], hsw, r1, fun z hz hzs hzP => ?_, r5, r6,
        fun _ => r7 (fun _ => by rw [hwv]; simp), fun h => ?_, hdc⟩
      · obtain ⟨a1, a2, a3⟩ := r4 z hz hzs
          (rep_sibling_outside s scr c0 sib kv chv _ kP P hrep' hp0 z hzP)
        obtain ⟨a4, a5⟩ := a3 (fun _ => by rw [hwv]; simp)
        exact ⟨a1, a2, a4, a5⟩
      · rw [hwv] at h
        cases h
    | signal e s9 => trivial
    | fault => trivial
    | nofuel => trivial
  | down P' kP' restP =>
    simp only [hprev] at hsib hwv
    cases rest with
    | nil =>
      simp only [Shape.head] at hsib
      cases hsib
    | node n kn chn restn =>
      simp only [Shape.head, Option.some.injEq] at hsib hwn
      subst hsib
      have hsw : sib ≠ w := hne sib (by simp [Shape.handles])
      have hrep' : Rep s scr (plug (Frame.right w k ch :: Frame.down P' kP' restP :: c0)
        (Shape.node sib kn chn restn)) := hrep
      refine Res.Sat.bind (delete_resize_frame E scr fuel s s8 _ w sib kn chn restn kP P
        hrep8 hsw hp hkl hcore hw8) ?_
      rintro _ s10 ⟨r1, -, -, r4, r5, r6, r7, r8⟩
      cases hdc : delete_collapse s10 P with
      | ok u s' =>
        refine ⟨sib, s10, by rw [hwv, hwn], hsw, r1, fun z hz hzs hzP => ?_, r5, r6,
          fun h => ?_, fun _ => r8 hwn hwv, hdc⟩
        · obtain ⟨a1, a2, a3⟩ := r4 z hz hzs
            (rep_sibling_outside s scr _ sib kn chn _ kP P hrep' hp z hzP)
          obtain ⟨a4, a5⟩ := a3 (fun h => by
            rw [hwn] at h
            exact absurd (Option.some.inj h).symm hzs)
          exact ⟨a1, a2, a4, a5⟩
        · rw [hwv] at h
          cases h
      | signal e s9 => trivial
      | fault => trivial
      | nofuel => trivial

/-- The first three phases of `Fdelete_window` return on a window with a
sibling if the first one does. -/
theorem delete_unlink_isOk (E : Ext) (hE : ∀ s c, SameTree s (E.Fselect_screen s c))
    (fuel : Nat) (s : State) (scr : Scr) (f : Frame) (c0 : Ctx) (w : Win) (k : Kind)
    (ch rest : Shape) (P : Win)
    (hrep : Rep s scr (plug (f :: c0) (Shape.node w k ch rest)))
    (hP : (s.windows w).parent = some P)
    (hsibl : hprev (f :: c0) ≠ none ∨ rest ≠ Shape.nil)
    (hbegin : (delete_begin E fuel s w).isOk = true) :
    ((delete_begin E fuel s w).andThen fun _ s3 =>
        delete_sibling (delete_unlink s3 w P) w).isOk = true := by
  obtain ⟨hscr, hwn, hnx, hpv, hpa⟩ := rep_distinct s scr (f :: c0) w k ch rest hrep
  obtain ⟨-, -, -, -, hlw, -, -⟩ := (rep_plug_node s scr (f :: c0) w k ch rest).1 hrep
  obtain ⟨-, hwv, hwnx, -, -⟩ := hlw
  simp only at hwv hwnx
  refine Res.isOk_andThen (Res.holds_of_isOk hbegin (delete_begin_post E hE fuel s w)) ?_
  rintro _ s3 ⟨h3n, h3r, h3o, h3w⟩
  obtain ⟨e1, e2, e3, e4, e5, e6, e7⟩ := butCore_fields h3w
  have hpost := delete_unlink_post s3 w P (by rw [e3]; exact hP) (hpa P hP).1
    (fun y hy => by
      rw [e1] at hy
      rw [e2]
      exact ⟨(hnx y hy).1, fun e => (hnx y hy).2.2.2 (e ▸ hP), (hnx y hy).2.2.1⟩)
    (fun y hy => by
      rw [e2] at hy
      exact ⟨(hpv y hy).1, fun e => (hpv y hy).2.2 (e ▸ hP)⟩)
  refine (hpost.to_holds ?_ (fun h => h)).isOk
  rintro ⟨h1, h2⟩
  rw [e2, hwv] at h1
  rw [e1, hwnx] at h2
  rcases hsibl with h | h
  · exact h h1
  · cases rest with
    | nil => exact h rfl
    | node n kn chn restn => simp [Shape.head] at h2

/-- The resize steps of `Fdelete_window` return if no window from the
sibling down has height or width 0 and the fuel covers the subtree of the
sibling. -/
theorem delete_resize_isOk (E : Ext) (scr : Scr) (fuel : Nat) (s8 : State) (c : Ctx)
    (w sib : Win) (k : Kind) (ch rest : Shape) (kP : Kind) (P : Win)
    (hrep8 : Rep s8 scr (plug c (Shape.node sib k ch rest)))
    (hp : hpar c = some (kP, P)) (hkl : kP ≠ Kind.leaf)
    (hnz : ∀ z ∈ sib :: ch.handles, (s8.windows z).height ≠ 0 ∧ (s8.windows z).width ≠ 0)
    (hfuel : 1 + ch.bound ≤ fuel) :
    ((if (s8.windows P).vchild ≠ none then
          set_window_height E fuel s8 sib
            ((s8.windows sib).height + (s8.windows w).height) true
        else Res.ok () s8).andThen fun _ s9 =>
      if (s9.windows P).hchild ≠ none then
          set_window_width E fuel s9 sib
            ((s9.windows sib).width + (s9.windows w).width) true
        else Res.ok () s9).isOk = true := by
  obtain ⟨k8h, k8v⟩ := rep_parent_kind s8 scr c _ kP P hrep8 hp
  have hnd := rep_nodup_node s8 scr c sib k ch rest hrep8
  have hsub : ∀ z ∈ (Shape.node sib k ch Shape.nil).handles, z ∈ sib :: ch.handles := by
    intro z hz
    simpa [Shape.handles] using hz
  cases kP with
  | leaf => exact absurd rfl hkl
  | vcomb =>
    rw [if_pos (k8v.2 rfl)]
    obtain ⟨h', hs⟩ := resize_node_y_some s8.windows sib k ch
      ((s8.windows sib).height + (s8.windows w).height) hnd
      (fun z hz => (hnz z (hsub z (vcombs_sub_handles _ z hz))).1)
    have hout := (set_window_height_out E scr fuel s8 c sib k ch rest
      ((s8.windows sib).height + (s8.windows w).height) hrep8).to_holds
      (by rw [hs]; simp) (by omega)
    have hfr := resize_frame_y E scr fuel s8 c sib k ch rest
      ((s8.windows sib).height + (s8.windows w).height) hrep8
    refine Res.isOk_andThen (Res.holds_of_isOk hout.isOk hfr) ?_
    rintro _ s9 ⟨r1, -⟩
    obtain ⟨k9h, -⟩ := rep_parent_kind s9 scr c _ _ P r1 hp
    rw [if_neg (by rw [k9h]; simp)]
    rfl
  | hcomb =>
    rw [if_neg (by rw [k8v]; simp), Res.andThen_ok, if_pos (k8h.2 rfl)]
    obtain ⟨h', hs⟩ := resize_node_x_some s8.windows sib k ch
      ((s8.windows sib).width + (s8.windows w).width) hnd
      (fun z hz => (hnz z (hsub z (hcombs_sub_handles _ z hz))).2)
    exact ((set_window_width_out E scr fuel s8 c sib k ch rest
      ((s8.windows sib).width + (s8.windows w).width) hrep8).to_holds
      (by rw [hs]; simp) (by omega)).isOk

/-- The last phase of `Fdelete_window` returns on a parent with a child. -/
theorem delete_collapse_isOk (s : State) (scr : Scr) (c : Ctx) (P : Win) (k : Kind)
    (chain rest : Shape) (hrep : Rep s scr (plug c (Shape.node P k chain rest)))
    (hne : chain ≠ Shape.nil) : (delete_collapse s P).isOk = true := by
  obtain ⟨-, -, -, -, hP, hch, -⟩ := (rep_plug_node s scr c P k chain rest).1 hrep
  obtain ⟨-, -, -, -, hk⟩ := hP
  simp only at hk
  cases chain with
  | nil => exact absurd rfl hne
  | node a ka cha r =>
    have ha := hch _ (List.mem_cons_self _ _)
    have htem : (s.windows P).hchild = some a
        ∨ ((s.windows P).hchild = none ∧ (s.windows P).vchild = some a) := by
      cases k with
      | leaf => exact absurd hk.2.2.2 (by simp [Shape.head])
      | hcomb => exact Or.inl hk.1
      | vcomb => exact Or.inr ⟨hk.2.2.1, hk.1⟩
    rw [delete_collapse_eq s P a htem]
    obtain ⟨-, -, hanext, -⟩ := ha
    simp only at hanext
    cases r with
    | nil =>
      rw [if_pos (by rw [hanext]; rfl)]
      exact (replace_child_post s scr c P k a ka cha rest hrep).isOk
    | node b kb chb r2 =>
      rw [if_neg (by rw [hanext]; simp [Shape.head])]
      rfl

/-- `Fdelete_window` returns on a window with a sibling in a represented
tree without windows of height or width 0, if its first phase returns and the
fuel covers the tree. -/
theorem Fdelete_window_isOk (E : Ext) (hE : ∀ s c, SameTree s (E.Fselect_screen s c))
    (fuel : Nat) (s : State) (scr : Scr) (f : Frame) (c0 : Ctx) (w : Win) (k : Kind)
    (ch rest : Shape) (kP : Kind) (P : Win)
    (hrep : Rep s scr (plug (f :: c0) (Shape.node w k ch rest)))
    (hp : hpar (f :: c0) = some (kP, P))
    (hsibl : hprev (f :: c0) ≠ none ∨ rest ≠ Shape.nil)
    (hbegin : (delete_begin E fuel s w).isOk = true)
    (hnz : ∀ z ∈ (plug (f :: c0) (Shape.node w k ch rest)).handles,
      (s.windows z).height ≠ 0 ∧ (s.windows z).width ≠ 0)
    (hfuel : (plug (f :: c0) (Shape.node w k ch rest)).bound ≤ fuel) :
    (Fdelete_window E (fuel + 1) s (some w)).isOk = true := by
  rw [Fdelete_window_succ]
  obtain ⟨-, hnd, -, -, hlw, -, -⟩ := (rep_plug_node s scr (f :: c0) w k ch rest).1 hrep
  obtain ⟨hwp, hwv, hwn, -, -⟩ := hlw
  simp only at hwp hwv hwn
  rw [hp] at hwp
  simp only [Option.map_some'] at hwp
  rw [hwp]
  simp only
  have hlen : (plug (f :: c0) (Shape.node w k ch rest)).handles.length
      = (ctxHandles (f :: c0)).length + (1 + (ch.handles.length + rest.handles.length)) := by
    rw [(handles_plug _ _).length_eq]
    simp only [Shape.handles, List.length_append, List.length_cons]
    omega
  rw [bound_eq, hlen] at hfuel
  have hmem : ∀ z, z ∈ ctxHandles (f :: c0) ++ rest.handles →
      z ∈ (plug (f :: c0) (Shape.node w k ch rest)).handles := fun z hz => by
    rw [(handles_plug _ _).mem_iff]
    simp only [Shape.handles, List.mem_append, List.mem_cons] at hz ⊢
    tauto
  have hne : ∀ z ∈ ctxHandles (f :: c0) ++ rest.handles, z ≠ w := by
    intro z hz e
    subst e
    obtain ⟨-, hndw, hdisj⟩ := List.nodup_append.1 hnd
    rcases List.mem_append.1 hz with h | h
    · exact hdisj h (List.mem_cons_self _ _)
    · exact (List.nodup_cons.1 hndw).1 (List.mem_append_right _ h)
  rw [← Res.andThen_assoc]
  refine Res.isOk_andThen (Res.holds_of_isOk
    (delete_unlink_isOk E hE fuel s scr f c0 w k ch rest P hrep hwp hsibl hbegin)
    (delete_unlink_rep E hE fuel s scr f c0 w k ch rest P hrep hwp)) ?_
  rintro sib s8 ⟨hrep8, hn8, hcore, hw8, hsib⟩
  have hkl := hpar_not_leaf s scr (f :: c0) _ kP P hrep (by simp) hp
  have huy := unlinked_same_y s s8 w hcore
  have hux := unlinked_same_x s s8 w hcore
  have hnz8 : ∀ z ∈ ctxHandles (f :: c0) ++ rest.handles,
      (s8.windows z).height ≠ 0 ∧ (s8.windows z).width ≠ 0 := fun z hz => by
    rw [(huy z (hne z hz)).1, (hux z (hne z hz)).1]
    exact hnz z (hmem z hz)
  obtain ⟨restP, c1, hab⟩ := above_of_hpar (f :: c0) kP P hp
  have hchain : ctxChain (f :: c0) rest ≠ Shape.nil := by
    cases f with
    | right v kv chv =>
      show ctxChain c0 (Shape.node v kv chv rest) ≠ Shape.nil
      exact ctxChain_ne_nil _ _ (by simp)
    | down P' kP' restP' =>
      rcases hsibl with h | h
      · exact absurd rfl h
      · exact h
  rw [← Res.andThen_assoc]
  have hfin : ∀ s10, Rep s10 scr (plug (f :: c0) rest) →
      (delete_collapse s10 P).isOk = true := fun s10 h10 => by
    rw [← plug_above, hab] at h10
    exact delete_collapse_isOk s10 scr c1 P kP _ restP h10 hchain
  cases f with
  | right v kv chv =>
    simp only [hprev, Option.some.injEq] at hsib
    subst hsib
    have hsw : sib ≠ w := hne sib (by simp [ctxHandles])
    have hp0 : hpar c0 = some (kP, P) := hp
    have hrep8' : Rep s8 scr (plug c0 (Shape.node sib kv chv rest)) := hrep8
    have hok := delete_resize_isOk E scr fuel s8 c0 w sib kv chv rest kP P hrep8' hp0 hkl
      (fun z hz => hnz8 z (by
        simp only [ctxHandles, List.mem_append, List.mem_cons] at hz ⊢
        tauto))
      (by
        rw [bound_eq]
        simp only [ctxHandles, List.length_cons, List.length_append] at hfuel
        omega)
    refine Res.isOk_andThen (Res.holds_of_isOk hok (delete_resize_frame E scr fuel s s8 c0 w
      sib kv chv rest kP P hrep8' hsw hp0 hkl hcore hw8)) ?_
    rintro _ s10 ⟨r1, -⟩
    exact hfin s10 r1
  | down P' kP' restP' =>
    simp only [hprev] at hsib
    cases rest with
    | nil =>
      simp only [Shape.head] at hsib
      cases hsib
    | node n kn chn restn =>
      simp only [Shape.head, Option.some.injEq] at hsib
      subst hsib
      have hsw : sib ≠ w := hne sib (by simp [Shape.handles])
      have hok := delete_resize_isOk E scr fuel s8 _ w sib kn chn restn kP P hrep8 hp hkl
        (fun z hz => hnz8 z (by
          simp only [Shape.handles, List.mem_append, List.mem_cons] at hz ⊢
          tauto))
        (by
          rw [bound_eq]
          simp only [Shape.handles, List.length_cons, List.length_append] at hfuel
          omega)
      refine Res.isOk_andThen (Res.holds_of_isOk hok (delete_resize_frame E scr fuel s s8 _ w
        sib kn chn restn kP P hrep8 hsw hp hkl hcore hw8)) ?_
      rintro _ s10 ⟨r1, -⟩
      exact hfin s10 r1

/-- The last phase of `Fdelete_window` does nothing on a parent with two or
more children. -/
theorem delete_collapse_noop (s : State) (scr : Scr) (c : Ctx) (P : Win) (k : Kind)
    (chain rest : Shape) (hrep : Rep s scr (plug c (Shape.node P k chain rest)))
    (h2 : 2 ≤ chain.tops.length) : delete_collapse s P = Res.ok () s := by
  obtain ⟨-, -, -, -, hP, hch, -⟩ := (rep_plug_node s scr c P k chain rest).1 hrep
  obtain ⟨-, -, -, -, hk⟩ := hP
  simp only at hk
  cases chain with
  | nil => simp [Shape.tops] at h2
  | node a ka cha r =>
    have ha := hch _ (List.mem_cons_self _ _)
    have htem : (s.windows P).hchild = some a
        ∨ ((s.windows P).hchild = none ∧ (s.windows P).vchild = some a) := by
      cases k with
      | leaf => exact absurd hk.2.2.2 (by simp [Shape.head])
      | hcomb => exact Or.inl hk.1
      | vcomb => exact Or.inr ⟨hk.2.2.1, hk.1⟩
    rw [delete_collapse_eq s P a htem]
    obtain ⟨-, -, hanext, -⟩ := ha
    simp only at hanext
    cases r with
    | nil => simp [Shape.tops] at h2
    | node b kb chb r2 => rw [if_neg (by rw [hanext]; simp [Shape.head])]

theorem not_mem_plug_rest (s : State) (scr : Scr) (c : Ctx) (w : Win) (k : Kind)
    (ch rest : Shape) (hrep : Rep s scr (plug c (Shape.node w k ch rest))) :
    w ∉ (plug c rest).handles := by
  obtain ⟨-, hnd, -⟩ := (rep_plug_node s scr c w k ch rest).1 hrep
  rw [(handles_plug _ _).mem_iff]
  intro hz
  obtain ⟨-, hndw, hdisj⟩ := List.nodup_append.1 hnd
  rcases List.mem_append.1 hz with h | h
  · exact hdisj h (List.mem_cons_self _ _)
  · exact (List.nodup_cons.1 hndw).1 (List.mem_append_right _ h)

/-- C15: `Fdelete_window` on a window `w` of a well-formed tree whose parent
`P` has three or more children, in a tree without windows of height or width
0: if the first phase (selecting another window, releasing the buffer)
returns and the fuel covers the tree, the call returns; the store then
represents the shape without `w`, with `P` still in place, and `w` cannot be
reached from the root; one sibling `sib`, the previous window of `w` if there
is one and the next one otherwise, has the sizes of both windows along the
axis of `P` (heights below a vertical combination, widths below a horizontal
one) and its old size across; it has kept its origin if it is the previous
window and is at the origin of `w` if it is the next one; `P` and every other
child of `P` have their old geometry. -/
theorem Fdelete_window_gives_space (E : Ext) (hE : ∀ s c, SameTree s (E.Fselect_screen s c))
    (fuel : Nat) (s : State) (scr : Scr) (f : Frame) (c0 : Ctx) (w : Win) (k : Kind)
    (ch rest : Shape) (kP : Kind) (P : Win)
    (hrep : Rep s scr (plug (f :: c0) (Shape.node w k ch rest)))
    (hp : hpar (f :: c0) = some (kP, P))
    (h3 : 3 ≤ (ctxChain (f :: c0) (Shape.node w k ch rest)).tops.length)
    (hbegin : (delete_begin E fuel s w).isOk = true)
    (hnz : ∀ z ∈ (plug (f :: c0) (Shape.node w k ch rest)).handles,
      (s.windows z).height ≠ 0 ∧ (s.windows z).width ≠ 0)
    (hfuel : (plug (f :: c0) (Shape.node w k ch rest)).bound ≤ fuel) :
    ∃ s' sib, Fdelete_window E (fuel + 1) s (some w) = Res.ok () s'
      ∧ some sib = (match (s.windows w).prev with
          | some v => some v
          | none => (s.windows w).next)
      ∧ sib ≠ w
      ∧ Rep s' scr (plug (f :: c0) rest) ∧ ¬ Reach s' scr w
      ∧ (s'.windows P).parent = (s.windows P).parent
      ∧ (kP = Kind.vcomb →
          (s'.windows sib).height = (s.windows sib).height + (s.windows w).height
            ∧ (s'.windows sib).width = (s.windows sib).width)
      ∧ (kP = Kind.hcomb →
          (s'.windows sib).width = (s.windows sib).width + (s.windows w).width
            ∧ (s'.windows sib).height = (s.windows sib).height)
      ∧ ((s.windows w).prev = some sib →
          (s'.windows sib).top = (s.windows sib).top
            ∧ (s'.windows sib).left = (s.windows sib).left)
      ∧ ((s.windows w).prev = none →
          (s'.windows sib).top = (s.windows w).top
            ∧ (s'.windows sib).left = (s.windows w).left)
      ∧ ∀ z, z ≠ w → z ≠ sib → (z = P ∨ (s.windows z).parent = some P) →
          (s'.windows z).height = (s.windows z).height
            ∧ (s'.windows z).width = (s.windows z).width
            ∧ (s'.windows z).top = (s.windows z).top
            ∧ (s'.windows z).left = (s.windows z).left := by
  have hsibl : hprev (f :: c0) ≠ none ∨ rest ≠ Shape.nil := by
    cases f with
    | right v kv chv => exact Or.inl (by simp [hprev])
    | down P' kP' restP' =>
      refine Or.inr fun e => ?_
      subst e
      simp [ctxChain, Shape.tops] at h3
  have hok := Fdelete_window_isOk E hE fuel s scr f c0 w k ch rest kP P hrep hp hsibl hbegin
    hnz hfuel
  have hph := Fdelete_window_phases E hE fuel s scr f c0 w k ch rest kP P hrep hp
  cases hres : Fdelete_window E (fuel + 1) s (some w) with
  | ok u s' =>
    rw [hres] at hph
    obtain ⟨sib, s10, hsib, hsw, r10, g, gv, gh, o1, o2, hdc⟩ := hph
    obtain ⟨restP, c1, hab⟩ := above_of_hpar (f :: c0) kP P hp
    obtain ⟨m, hm⟩ := ctxChain_tops_length (f :: c0)
    have r10' := r10
    rw [← plug_above, hab] at r10'
    have hnoop := delete_collapse_noop s10 scr c1 P kP _ restP r10' (by
      have h1 := hm (Shape.node w k ch rest)
      have h2 := hm rest
      simp only [Shape.tops, List.length_cons] at h1
      omega)
    rw [hnoop] at hdc
    have hs : s10 = s' := by injection hdc
    subst hs
    have hrepP := hrep
    rw [← plug_above, hab] at hrepP
    obtain ⟨-, -, -, -, hP, -, -⟩ := (rep_plug_node s scr c1 P kP _ restP).1 hrepP
    obtain ⟨-, -, -, -, hP10, -, -⟩ := (rep_plug_node s10 scr c1 P kP _ restP).1 r10'
    refine ⟨s10, sib, rfl, hsib, hsw, r10, fun hr => ?_, hP10.1.trans hP.1.symm, gv, gh, o1, o2,
      g⟩
    exact not_mem_plug_rest s scr (f :: c0) w k ch rest hrep
      (reach_mem s10 scr _ r10 w hr)
  | signal e s' => rw [hres] at hok; cases hok
  | fault => rw [hres] at hok; cases hok
  | nofuel => rw [hres] at hok; cases hok

/-- Witness of `Fdelete_window_gives_space`: the middle leaf 3 of `state3v`,
whose parent 2 is a vertical combination of the leaves 0, 3 and 4. -/
theorem Fdelete_window_gives_space_witness :
    (∀ s c, SameTree s (ext1.Fselect_screen s c))
      ∧ Rep state3v 0 (plug [Frame.right 0 Kind.leaf Shape.nil, Frame.down 2 Kind.vcomb chain1]
          (Shape.node 3 Kind.leaf Shape.nil chain4))
      ∧ (delete_begin ext1 16 state3v 3).isOk = true
      ∧ ∃ s' sib, Fdelete_window ext1 (16 + 1) state3v (some 3) = Res.ok () s'
        ∧ some sib = (match (state3v.windows 3).prev with
            | some v => some v
            | none => (state3v.windows 3).next)
        ∧ sib ≠ 3
        ∧ Rep s' 0 (plug [Frame.right 0 Kind.leaf Shape.nil, Frame.down 2 Kind.vcomb chain1]
            chain4)
        ∧ ¬ Reach s' 0 3
        ∧ (s'.windows 2).parent = (state3v.windows 2).parent
        ∧ (Kind.vcomb = Kind.vcomb →
            (s'.windows sib).height = (state3v.windows sib).height + (state3v.windows 3).height
              ∧ (s'.windows sib).width = (state3v.windows sib).width)
        ∧ (Kind.vcomb = Kind.hcomb →
            (s'.windows sib).width = (state3v.windows sib).width + (state3v.windows 3).width
              ∧ (s'.windows sib).height = (state3v.windows sib).height)
        ∧ ((state3v.windows 3).prev = some sib →
            (s'.windows sib).top = (state3v.windows sib).top
              ∧ (s'.windows sib).left = (state3v.windows sib).left)
        ∧ ((state3v.windows 3).prev = none →
            (s'.windows sib).top = (state3v.windows 3).top
              ∧ (s'.windows sib).left = (state3v.windows 3).left)
        ∧ ∀ z, z ≠ 3 → z ≠ sib → (z = 2 ∨ (state3v.windows z).parent = some 2) →
            (s'.windows z).height = (state3v.windows z).height
              ∧ (s'.windows z).width = (state3v.windows z).width
              ∧ (s'.windows z).top = (state3v.windows z).top
              ∧ (s'.windows z).left = (state3v.windows z).left :=
  ⟨fun s _ => SameTree.refl s, by decide!, by decide!,
    Fdelete_window_gives_space ext1 (fun s _ => SameTree.refl s) 16 state3v 0
      (Frame.right 0 Kind.leaf Shape.nil) [Frame.down 2 Kind.vcomb chain1] 3 Kind.leaf Shape.nil
      chain4 Kind.vcomb 2 (by decide!) rfl (by decide) (by decide!) (by decide!) (by decide)⟩

/-- The first window of a chain below `G` is the child of `G`. -/
theorem rep_first_child (s : State) (scr : Scr) (c : Ctx) (x : Win) (k : Kind)
    (ch rest : Shape) (kG : Kind) (G : Win)
    (hrep : Rep s scr (plug c (Shape.node x k ch rest))) (hv : hprev c = none)
    (hp : hpar c = some (kG, G)) :
    (kG = Kind.hcomb → (s.windows G).hchild = some x)
      ∧ (kG = Kind.vcomb → (s.windows G).vchild = some x) := by
  obtain ⟨-, -, -, hctx, -⟩ := (rep_plug_node s scr c x k ch rest).1 hrep
  cases c with
  | nil => simp [hpar] at hp
  | cons f c' =>
    cases f with
    | right v kv chv => simp [hprev] at hv
    | down G' kG' restG =>
      simp only [hpar, Option.some.injEq, Prod.mk.injEq] at hp
      obtain ⟨rfl, rfl⟩ := hp
      have h := hctx _ (List.mem_cons_self _ _)
      obtain ⟨-, -, -, -, hk⟩ := h
      constructor
      · intro e
        subst e
        exact hk.1
      · intro e
        subst e
        exact hk.1

theorem not_mem_plug_child (s : State) (scr : Scr) (c : Ctx) (P : Win) (k : Kind) (a : Win)
    (ka : Kind) (cha rest : Shape)
    (hrep : Rep s scr (plug c (Shape.node P k (Shape.node a ka cha Shape.nil) rest))) :
    P ∉ (plug c (Shape.node a ka cha rest)).handles := by
  obtain ⟨-, hnd, -⟩ := (rep_plug_node s scr c P k _ rest).1 hrep
  rw [(handles_plug _ _).mem_iff]
  intro hz
  obtain ⟨-, hndw, hdisj⟩ := List.nodup_append.1 hnd
  rcases List.mem_append.1 hz with h | h
  · exact hdisj h (List.mem_cons_self _ _)
  · refine (List.nodup_cons.1 hndw).1 ?_
    simp only [Shape.handles, List.mem_cons, List.mem_append, List.append_nil] at h ⊢
    tauto

theorem handles_collapse_sub (c : Ctx) (P : Win) (k : Kind) (a : Win) (ka : Kind)
    (cha rest : Shape) (z : Win) (hz : z ∈ (plug c (Shape.node a ka cha rest)).handles) :
    z ∈ (plug c (Shape.node P k (Shape.node a ka cha Shape.nil) rest)).handles := by
  rw [(handles_plug _ _).mem_iff] at hz ⊢
  simp only [Shape.handles, List.mem_cons, List.mem_append, List.append_nil] at hz ⊢
  tauto

/-- The last phase of `Fdelete_window` on a parent with a single child is
`replace_window`. -/
theorem delete_collapse_single (s : State) (scr : Scr) (c : Ctx) (P : Win) (k : Kind) (a : Win)
    (ka : Kind) (cha rest : Shape)
    (hrep : Rep s scr (plug c (Shape.node P k (Shape.node a ka cha Shape.nil) rest))) :
    delete_collapse s P = replace_window s P a := by
  obtain ⟨-, -, -, -, hP, hch, -⟩ := (rep_plug_node s scr c P k _ rest).1 hrep
  obtain ⟨-, -, -, -, hk⟩ := hP
  simp only at hk
  have ha := hch _ (List.mem_cons_self _ _)
  have htem : (s.windows P).hchild = some a
      ∨ ((s.windows P).hchild = none ∧ (s.windows P).vchild = some a) := by
    cases k with
    | leaf => exact absurd hk.2.2.2 (by simp [Shape.head])
    | hcomb => exact Or.inl hk.1
    | vcomb => exact Or.inr ⟨hk.2.2.1, hk.1⟩
  rw [delete_collapse_eq s P a htem]
  obtain ⟨-, -, hanext, -⟩ := ha
  simp only at hanext
  rw [if_pos (by rw [hanext]; rfl)]

/-- `Fdelete_window` on a window whose parent `P` has one other child `a`:
the call returns and `a` stands in the place of `P`. -/
theorem delete_two_children (E : Ext) (hE : ∀ s c, SameTree s (E.Fselect_screen s c))
    (fuel : Nat) (s : State) (scr : Scr) (f : Frame) (c0 : Ctx) (w : Win) (k : Kind)
    (ch rest : Shape) (kP : Kind) (P : Win) (c1 : Ctx) (restP : Shape) (a : Win) (ka : Kind)
    (cha chain : Shape)
    (hrep : Rep s scr (plug (f :: c0) (Shape.node w k ch rest)))
    (hp : hpar (f :: c0) = some (kP, P))
    (hbefore : plug (f :: c0) (Shape.node w k ch rest)
      = plug c1 (Shape.node P kP chain restP))
    (hafter : plug (f :: c0) rest
      = plug c1 (Shape.node P kP (Shape.node a ka cha Shape.nil) restP))
    (hds : deleteShape (f :: c0) rest = plug c1 (Shape.node a ka cha restP))
    (hsibl : hprev (f :: c0) ≠ none ∨ rest ≠ Shape.nil)
    (hbegin : (delete_begin E fuel s w).isOk = true)
    (hnz : ∀ z ∈ (plug (f :: c0) (Shape.node w k ch rest)).handles,
      (s.windows z).height ≠ 0 ∧ (s.windows z).width ≠ 0)
    (hfuel : (plug (f :: c0) (Shape.node w k ch rest)).bound ≤ fuel) :
    ∃ s', Fdelete_window E (fuel + 1) s (some w) = Res.ok () s'
      ∧ Rep s' scr (plug c1 (Shape.node a ka cha restP))
      ∧ ((s'.windows a).parent = (s.windows P).parent
        ∧ (s'.windows a).prev = (s.windows P).prev
        ∧ (s'.windows a).next = (s.windows P).next)
      ∧ ((s'.windows a).left = (s.windows P).left ∧ (s'.windows a).top = (s.windows P).top
        ∧ (s'.windows a).width = (s.windows P).width
        ∧ (s'.windows a).height = (s.windows P).height)
      ∧ (∀ G, (s.windows P).parent = some G →
          ((s.windows G).hchild = some P → (s'.windows G).hchild = some a)
            ∧ ((s.windows G).vchild = some P → (s'.windows G).vchild = some a))
      ∧ ((s.screens scr).root_window = some P → (s'.screens scr).root_window = some a)
      ∧ ¬ Reach s' scr P ∧ ¬ Reach s' scr w := by
  have hok := Fdelete_window_isOk E hE fuel s scr f c0 w k ch rest kP P hrep hp hsibl hbegin
    hnz hfuel
  have hph := Fdelete_window_phases E hE fuel s scr f c0 w k ch rest kP P hrep hp
  have hrp := Fdelete_window_rep E hE (fuel + 1) s scr (f :: c0) w k ch rest hrep
  obtain ⟨-, -, hnx, hpv, hpa⟩ := rep_distinct s scr (f :: c0) w k ch rest hrep
  obtain ⟨-, -, -, -, hlw, -, -⟩ := (rep_plug_node s scr (f :: c0) w k ch rest).1 hrep
  have hwp : (s.windows w).parent = some P := by
    rw [hlw.1, hp]
    rfl
  have hwout := not_mem_plug_rest s scr (f :: c0) w k ch rest hrep
  cases hres : Fdelete_window E (fuel + 1) s (some w) with
  | ok u s' =>
    rw [hres] at hph hrp
    obtain ⟨sib, s10, hsib, hsw, r10, g, -, -, -, -, hdc⟩ := hph
    have hPsib : P ≠ sib := by
      intro e
      subst e
      rcases hv : (s.windows w).prev with _ | v
      · rw [hv] at hsib
        exact (hnx P hsib.symm).2.2.2 hwp
      · rw [hv] at hsib
        simp only [Option.some.injEq] at hsib
        subst hsib
        exact (hpv P hv).2.2 hwp
    obtain ⟨gh, gw, gt, gl⟩ := g P (hpa P hwp).1 hPsib (Or.inl rfl)
    rw [hafter] at r10 hwout
    rw [hbefore] at hrep
    have hrp' : Rep s' scr (plug c1 (Shape.node a ka cha restP)) := by
      rw [← hds]
      exact hrp.1
    rw [delete_collapse_single s10 scr c1 P kP a ka cha restP r10] at hdc
    have rpost := replace_child_post s10 scr c1 P kP a ka cha restP r10
    rw [hdc] at rpost
    obtain ⟨-, pl, pt, pw, ph⟩ := rpost
    obtain ⟨hroot, -, -, -, hP, -, -⟩ := (rep_plug_node s scr c1 P kP _ restP).1 hrep
    obtain ⟨hroot', -, -, -, ha, -, -⟩ := (rep_plug_node s' scr c1 a ka cha restP).1 hrp'
    have hPout := not_mem_plug_child s10 scr c1 P kP a ka cha restP r10
    refine ⟨s', rfl, hrp', ⟨ha.1.trans hP.1.symm, ha.2.1.trans hP.2.1.symm,
      ha.2.2.1.trans hP.2.2.1.symm⟩, ⟨pl.trans gl, pt.trans gt, pw.trans gw, ph.trans gh⟩,
      fun G hG => ?_, fun hr => ?_, fun hr => hPout (reach_mem s' scr _ hrp' P hr),
      fun hr => hwout (handles_collapse_sub c1 P kP a ka cha restP w
        (reach_mem s' scr _ hrp' w hr))⟩
    · have hG' := hP.1
      simp only at hG'
      rw [hG] at hG'
      rcases hpc : hpar c1 with _ | ⟨kG, G'⟩
      · rw [hpc] at hG'
        cases hG'
      rw [hpc] at hG'
      simp only [Option.map_some', Option.some.injEq] at hG'
      subst hG'
      have hGmem : G ∈ (plug c1 (Shape.node P kP chain restP)).handles :=
        mem_plug_ctx _ _ _ (hpar_mem c1 kG G hpc)
      obtain ⟨-, -, sh, sv⟩ := rep_siblings s scr _ hrep G hGmem
      obtain ⟨kh, kv⟩ := rep_parent_kind s scr c1 _ kG G hrep hpc
      have hPprev := hP.2.1
      simp only at hPprev
      constructor
      · intro e
        rw [e] at sh kh
        simp only at sh
        rw [hPprev] at sh
        exact (rep_first_child s' scr c1 a ka cha restP kG G hrp' sh hpc).1 (kh.1 (by simp))
      · intro e
        rw [e] at sv kv
        simp only at sv
        rw [hPprev] at sv
        exact (rep_first_child s' scr c1 a ka cha restP kG G hrp' sv hpc).2 (kv.1 (by simp))
    · cases c1 with
      | nil => exact hroot'
      | cons f1 c2 =>
        exfalso
        refine hPout (head_mem_handles _ P ?_)
        rw [head_plug]
        rw [hroot] at hr
        exact hr
  | signal e s' => rw [hres] at hok; cases hok
  | fault => rw [hres] at hok; cases hok
  | nofuel => rw [hres] at hok; cases hok

theorem clamp_min_eq (s : State) (hw : 2 ≤ s.window_min_width) (hh : 2 ≤ s.window_min_height) :
    clamp_min s = s := by
  unfold clamp_min
  simp only [if_neg (not_lt.2 hw), if_neg (not_lt.2 hh)]

/-- `change_window_height` on a selected window whose parent is a
combination of the wanted orientation and whose size with `delta` is below
the minimum is `Fdelete_window` on it. -/
theorem change_window_height_delete (E : Ext) (fuel : Nat) (s : State) (delta : Int)
    (widthflag : Bool) (P : Win)
    (hw : 2 ≤ s.window_min_width) (hh : 2 ≤ s.window_min_height)
    (hP : (s.windows s.selected_window).parent = some P)
    (hv : if widthflag then (s.windows P).hchild ≠ none else (s.windows P).vchild ≠ none)
    (hsmall : CURSIZE widthflag (s.windows s.selected_window) + delta < MINSIZE s widthflag) :
    change_window_height E (fuel + 1) s delta widthflag
      = Fdelete_window E (fuel + 1) s (some s.selected_window) := by
  unfold change_window_height
  simp only [clamp_min_eq s hw hh]
  have hc : change_climb s widthflag (fuel + 1) s.selected_window
      = Res.ok (s.selected_window, some P) s := by
    simp only [change_climb, hP]
    rw [if_pos hv]
  rw [hc, Res.andThen_ok]
  simp only
  rw [if_pos ⟨hsmall, by rw [hP]; simp⟩]

/-- C16: `Fdelete_window` on one of the two children `w` and `a` (in either
order) of a combination `P` of a well-formed tree without windows of height
or width 0: if the first phase (selecting another window, releasing the
buffer) returns and the fuel covers the tree, the call returns and the
combination has collapsed: the store represents the shape with `a` in the
place of `P`; the parent, the previous and the next window of `a` are the
former ones of `P`; the left, top, width and height of `a` are those of `P`;
the child slot of the parent of `P` that held `P`, and the root window of the
screen if it was `P`, hold `a`; neither `P` nor `w` can be reached from the
root any more.  And `Fshrink_window (n, nil)` is this call when `w` is the
selected window, `P` a vertical combination and the height of `w` less `n` is
below `window_min_height` (which with `window_min_width` is at least 2): such
as for a selected top leaf of height 3 with `window_min_height` 4 and `n` 1
in a vertical root of two leaves, where the other leaf becomes the root. -/
theorem Fdelete_window_collapses (E : Ext) (hE : ∀ s c, SameTree s (E.Fselect_screen s c))
    (fuel : Nat) (s : State) (scr : Scr) (c1 : Ctx) (P : Win) (kP : Kind) (restP : Shape)
    (w : Win) (k : Kind) (ch : Shape) (a : Win) (ka : Kind) (cha chain : Shape)
    (hchain : chain = Shape.node w k ch (Shape.node a ka cha Shape.nil)
      ∨ chain = Shape.node a ka cha (Shape.node w k ch Shape.nil))
    (hrep : Rep s scr (plug c1 (Shape.node P kP chain restP)))
    (hbegin : (delete_begin E fuel s w).isOk = true)
    (hnz : ∀ z ∈ (plug c1 (Shape.node P kP chain restP)).handles,
      (s.windows z).height ≠ 0 ∧ (s.windows z).width ≠ 0)
    (hfuel : (plug c1 (Shape.node P kP chain restP)).bound ≤ fuel) :
    ∃ s', Fdelete_window E (fuel + 1) s (some w) = Res.ok () s'
      ∧ Rep s' scr (plug c1 (Shape.node a ka cha restP))
      ∧ ((s'.windows a).parent = (s.windows P).parent
        ∧ (s'.windows a).prev = (s.windows P).prev
        ∧ (s'.windows a).next = (s.windows P).next)
      ∧ ((s'.windows a).left = (s.windows P).left ∧ (s'.windows a).top = (s.windows P).top
        ∧ (s'.windows a).width = (s.windows P).width
        ∧ (s'.windows a).height = (s.windows P).height)
      ∧ (∀ G, (s.windows P).parent = some G →
          ((s.windows G).hchild = some P → (s'.windows G).hchild = some a)
            ∧ ((s.windows G).vchild = some P → (s'.windows G).vchild = some a))
      ∧ ((s.screens scr).root_window = some P → (s'.screens scr).root_window = some a)
      ∧ (¬ Reach s' scr P ∧ ¬ Reach s' scr w)
      ∧ ∀ n : Int, s.selected_window = w → kP = Kind.vcomb → 2 ≤ s.window_min_width →
          2 ≤ s.window_min_height → (s.windows w).height - n < s.window_min_height →
          Fshrink_window E (fuel + 1) s n false = Res.ok () s' := by
  have hmain : ∃ s', Fdelete_window E (fuel + 1) s (some w) = Res.ok () s'
      ∧ Rep s' scr (plug c1 (Shape.node a ka cha restP))
      ∧ ((s'.windows a).parent = (s.windows P).parent
        ∧ (s'.windows a).prev = (s.windows P).prev
        ∧ (s'.windows a).next = (s.windows P).next)
      ∧ ((s'.windows a).left = (s.windows P).left ∧ (s'.windows a).top = (s.windows P).top
        ∧ (s'.windows a).width = (s.windows P).width
        ∧ (s'.windows a).height = (s.windows P).height)
      ∧ (∀ G, (s.windows P).parent = some G →
          ((s.windows G).hchild = some P → (s'.windows G).hchild = some a)
            ∧ ((s.windows G).vchild = some P → (s'.windows G).vchild = some a))
      ∧ ((s.screens scr).root_window = some P → (s'.screens scr).root_window = some a)
      ∧ ¬ Reach s' scr P ∧ ¬ Reach s' scr w := by
    rcases hchain with rfl | rfl
    · exact delete_two_children E hE fuel s scr (Frame.down P kP restP) c1 w k ch
        (Shape.node a ka cha Shape.nil) kP P c1 restP a ka cha _ hrep rfl rfl rfl rfl
        (Or.inr (by simp)) hbegin hnz hfuel
    · exact delete_two_children E hE fuel s scr (Frame.right a ka cha)
        (Frame.down P kP restP :: c1) w k ch Shape.nil kP P c1 restP a ka cha _ hrep rfl rfl
        rfl rfl (Or.inl (by simp [hprev])) hbegin hnz hfuel
  obtain ⟨s', h1, h2, h3, h4, h5, h6, h7, h8⟩ := hmain
  refine ⟨s', h1, h2, h3, h4, h5, h6, ⟨h7, h8⟩, ?_⟩
  intro n hsel hk hmw hmh hsm
  have hwP : (s.windows w).parent = some P ∧ (s.windows P).vchild ≠ none := by
    rcases hchain with rfl | rfl
    · have hr : Rep s scr (plug (Frame.down P kP restP :: c1)
          (Shape.node w k ch (Shape.node a ka cha Shape.nil))) := hrep
      obtain ⟨-, -, -, -, hl, -, -⟩ := (rep_plug_node s scr _ w k ch _).1 hr
      exact ⟨hl.1, (rep_parent_kind s scr _ _ kP P hr rfl).2.2 hk⟩
    · have hr : Rep s scr (plug (Frame.right a ka cha :: Frame.down P kP restP :: c1)
          (Shape.node w k ch Shape.nil)) := hrep
      obtain ⟨-, -, -, -, hl, -, -⟩ := (rep_plug_node s scr _ w k ch _).1 hr
      exact ⟨hl.1, (rep_parent_kind s scr _ _ kP P hr rfl).2.2 hk⟩
  unfold Fshrink_window
  subst hsel
  rw [change_window_height_delete E fuel s (-n) false P hmw hmh hwP.1 hwP.2
    (by simp only [CURSIZE, MINSIZE]; simpa [sub_eq_add_neg] using hsm)]
  exact h1

/-- Witness of `Fdelete_window_collapses`: the selected top leaf 0, 3 lines
high, of `statev 3 20`, whose root 2 is a vertical combination of the leaves
0 and 3, with `window_min_height` 4: `Fshrink_window (1, nil)` deletes the
leaf 0 and the leaf 3 becomes the root window, with the geometry of window
2. -/
theorem Fdelete_window_collapses_witness :
    (∀ s c, SameTree s (ext1.Fselect_screen s c))
      ∧ Rep (statev 3 20) 0 (plug [] shapev)
      ∧ (delete_begin ext1 13 (statev 3 20) 0).isOk = true
      ∧ ((statev 3 20).selected_window = 0 ∧ ((statev 3 20).windows 0).height = 3
        ∧ (statev 3 20).window_min_height = 4
        ∧ ((statev 3 20).screens 0).root_window = some 2)
      ∧ ∃ s', Fdelete_window ext1 (13 + 1) (statev 3 20) (some 0) = Res.ok () s'
        ∧ Fshrink_window ext1 (13 + 1) (statev 3 20) 1 false = Res.ok () s'
        ∧ Rep s' 0 (plug [] (Shape.node 3 Kind.leaf Shape.nil chain1))
        ∧ (s'.screens 0).root_window = some 3
        ∧ ((s'.windows 3).parent = none ∧ (s'.windows 3).prev = none
          ∧ (s'.windows 3).next = some 1)
        ∧ ((s'.windows 3).left = 0 ∧ (s'.windows 3).top = 0 ∧ (s'.windows 3).width = 80
          ∧ (s'.windows 3).height = 23)
        ∧ (¬ Reach s' 0 2 ∧ ¬ Reach s' 0 0) := by
  obtain ⟨s', h1, h2, h3, h4, -, h6, h7, h8⟩ :=
    Fdelete_window_collapses ext1 (fun s _ => SameTree.refl s) 13 (statev 3 20) 0 [] 2
      Kind.vcomb chain1 0 Kind.leaf Shape.nil 3 Kind.leaf Shape.nil
      (Shape.node 0 Kind.leaf Shape.nil chain3) (Or.inl rfl) (by decide!) (by decide!)
      (by decide!) (by decide)
  exact ⟨fun s _ => SameTree.refl s, by decide!, by decide!, by decide!, s', h1,
    h8 1 rfl rfl (by decide) (by decide) (by decide), h2, h6 rfl, h3, h4, h7⟩

/-- C17: the selected window does not survive the deletion of a combination
that contains it.  In `state6` (a well-formed, exactly tiled tree whose
leaves show live buffers) the selected leaf 0 is a child of the horizontal
combination 4, which has the parent 2.  `Fdelete_window` on window 4 returns,
and so does `Fshrink_window (8, nil)`, which is that call (window 4 is the
first window above the selected one whose parent is a vertical combination,
and 11 - 8 lines are fewer than `window_min_height`); afterwards the root
window of the screen is the leaf 3, `selected_window` is still window 0, and
window 0 cannot be reached from the root of its screen. -/
theorem delete_combination_strands_selected :
    (WF state6 0 shape6 ∧ Shown state6 shape6 ∧ state6.selected_window = 0
      ∧ (state6.windows 0).parent = some 4 ∧ (state6.windows 4).parent = some 2)
      ∧ ∃ s', Fdelete_window ext1 10 state6 (some 4) = Res.ok () s'
        ∧ Fshrink_window ext1 10 state6 8 false = Res.ok () s'
        ∧ (s'.screens 0).root_window = some 3
        ∧ s'.selected_window = 0
        ∧ (s'.windows s'.selected_window).screen = some 0
        ∧ ¬ Reach s' 0 s'.selected_window := by
  have hshrink : Fshrink_window ext1 10 state6 8 false
      = Fdelete_window ext1 10 state6 (some 4) := by
    rfl
  have hok : (Fdelete_window ext1 10 state6 (some 4)).isOk = true := by decide!
  have hrep : Rep ((Fdelete_window ext1 10 state6 (some 4)).stateD state6) 0
      (Shape.node 3 Kind.leaf Shape.nil chain1) := by decide!
  have hsel : ((Fdelete_window ext1 10 state6 (some 4)).stateD state6).selected_window = 0 := by
    decide!
  refine ⟨by decide!, _, Res.eq_ok_of_isOk state6 hok, ?_, by decide!, hsel, by decide!, ?_⟩
  · rw [hshrink]
    exact Res.eq_ok_of_isOk state6 hok
  · intro h
    rw [hsel] at h
    have hm := reach_mem _ 0 _ hrep 0 h
    revert hm
    decide

/-- The resize function of `change_window_height` on a leaf, with a size
that is not below the minimum: the size and `last_modified` of the leaf are
set, nothing else in the window store changes. -/
theorem setsizefun_leaf (E : Ext) (fuel : Nat) (widthflag : Bool) (s : State) (w : Win) (v : Int)
    (hh : (s.windows w).hchild = none) (hv : (s.windows w).vchild = none)
    (hmin : MINSIZE s widthflag ≤ v) :
    ∃ s', setsizefun E (fuel + 1) widthflag s w v false = Res.ok () s'
      ∧ s'.windows w = (if widthflag then { s.windows w with last_modified := 0, width := v }
          else { s.windows w with last_modified := 0, height := v })
      ∧ (∀ z, z ≠ w → s'.windows z = s.windows z)
      ∧ s'.window_min_height = s.window_min_height
      ∧ s'.window_min_width = s.window_min_width := by
  cases widthflag
  · simp only [MINSIZE, Bool.false_eq_true, if_false] at hmin
    simp only [setsizefun, Bool.false_eq_true, if_false, set_window_height, not_lt.2 hmin,
      and_false, setw_windows, if_true, hh, hv]
    exact ⟨_, rfl, by simp, fun z hz => by simp [hz], rfl, rfl⟩
  · simp only [MINSIZE, if_true] at hmin
    simp only [setsizefun, if_true, set_window_width, not_lt.2 hmin,
      and_false, setw_windows, hh, hv]
    exact ⟨_, rfl, by simp, fun z hz => by simp [hz], rfl, rfl⟩

theorem set_CURBEG_windows (widthflag : Bool) (s : State) (w : Win) (v : Int) (z : Win) :
    (set_CURBEG widthflag s w v).windows z
      = if z = w then (if widthflag then { s.windows w with left := v }
          else { s.windows w with top := v })
        else s.windows z := by
  cases widthflag <;> simp [set_CURBEG]

theorem set_CURBEG_min (widthflag : Bool) (s : State) (w : Win) (v : Int) :
    MINSIZE (set_CURBEG widthflag s w v) widthflag = MINSIZE s widthflag := by
  cases widthflag <;> rfl

theorem MINSIZE_congr (s s' : State) (widthflag : Bool)
    (h1 : s'.window_min_height = s.window_min_height)
    (h2 : s'.window_min_width = s.window_min_width) :
    MINSIZE s' widthflag = MINSIZE s widthflag := by
  cases widthflag <;> simp [MINSIZE, h1, h2]

/-- C19, amended: `change_window_height (delta, widthflag)` takes the space
from the next sibling when the target and the next sibling are leaves.  Let the selected window `w` be a leaf whose parent `P` is a
combination of the wanted orientation (a horizontal one if `widthflag` is
set, a vertical one otherwise) and whose next sibling `n` is a leaf; let the
size of `w` with `delta` be at least the minimum (after the clamping of the
minimum to 2), `delta` at most the size of `P` less the size of `w`, and the
size of `n` less `delta` at least the minimum.  Then the call returns (with
any fuel but 0): `w` has its old size plus `delta` at its old origin, `n` has
its old size less `delta` and its origin has moved by `delta`; across the
axis both are as before; and every other window, the parent `P` among them,
is unchanged. -/
theorem change_window_height_steals_next (E : Ext) (fuel : Nat) (s : State) (delta : Int)
    (widthflag : Bool) (w P n : Win)
    (hsel : s.selected_window = w)
    (hP : (s.windows w).parent = some P) (hPw : P ≠ w) (hPn : P ≠ n)
    (hor : if widthflag then (s.windows P).hchild ≠ none else (s.windows P).vchild ≠ none)
    (hn : (s.windows w).next = some n) (hnw : n ≠ w)
    (hwleaf : (s.windows w).hchild = none ∧ (s.windows w).vchild = none)
    (hnleaf : (s.windows n).hchild = none ∧ (s.windows n).vchild = none)
    (hmin : MINSIZE (clamp_min s) widthflag ≤ CURSIZE widthflag (s.windows w) + delta)
    (hmax : delta ≤ CURSIZE widthflag (s.windows P) - CURSIZE widthflag (s.windows w))
    (hnext : MINSIZE (clamp_min s) widthflag ≤ CURSIZE widthflag (s.windows n) - delta) :
    ∃ s', change_window_height E (fuel + 1) s delta widthflag = Res.ok () s'
      ∧ (CURSIZE widthflag (s'.windows w) = CURSIZE widthflag (s.windows w) + delta
        ∧ CURBEG widthflag (s'.windows w) = CURBEG widthflag (s.windows w))
      ∧ (CURSIZE widthflag (s'.windows n) = CURSIZE widthflag (s.windows n) - delta
        ∧ CURBEG widthflag (s'.windows n) = CURBEG widthflag (s.windows n) + delta)
      ∧ (CURSIZE (!widthflag) (s'.windows w) = CURSIZE (!widthflag) (s.windows w)
        ∧ CURBEG (!widthflag) (s'.windows w) = CURBEG (!widthflag) (s.windows w)
        ∧ CURSIZE (!widthflag) (s'.windows n) = CURSIZE (!widthflag) (s.windows n)
        ∧ CURBEG (!widthflag) (s'.windows n) = CURBEG (!widthflag) (s.windows n))
      ∧ s'.windows P = s.windows P
      ∧ ∀ z, z ≠ w → z ≠ n → s'.windows z = s.windows z := by
  unfold change_window_height
  have hc : change_climb (clamp_min s) widthflag (fuel + 1) (clamp_min s).selected_window
      = Res.ok (w, some P) (clamp_min s) := by
    simp only [change_climb, clamp_min_windows, clamp_min_selected_window, hsel, hP]
    rw [if_pos hor]
  simp only [hc, Res.andThen_ok, clamp_min_windows, change_maxdelta]
  rw [if_neg (fun h => absurd h.1 (not_lt.2 hmin)), if_neg (not_lt.2 hmax)]
  unfold change_steal_next
  simp only [clamp_min_windows, hn]
  rw [if_pos hnext]
  obtain ⟨s2, e2, a2, b2, m2h, m2w⟩ := setsizefun_leaf E fuel widthflag (clamp_min s) n
    (CURSIZE widthflag (s.windows n) - delta) (by rw [clamp_min_windows]; exact hnleaf.1)
    (by rw [clamp_min_windows]; exact hnleaf.2) hnext
  rw [clamp_min_windows] at a2 b2
  have hw2 : s2.windows w = s.windows w := b2 w hnw.symm
  obtain ⟨s3, e3, a3, b3, m3h, m3w⟩ := setsizefun_leaf E fuel widthflag s2 w
    (CURSIZE widthflag (s2.windows w) + delta) (by rw [hw2]; exact hwleaf.1)
    (by rw [hw2]; exact hwleaf.2)
    (by rw [hw2, MINSIZE_congr _ _ _ m2h m2w]; exact hmin)
  have hn3 : s3.windows n = s2.windows n := b3 n hnw
  have hnx3 : (s3.windows w).next = some n := by
    rw [a3, hw2]
    cases widthflag <;> exact hn
  have hnx4 : ((set_CURBEG widthflag s3 n (CURBEG widthflag (s3.windows n) + delta)).windows
      w).next = some n := by
    rw [set_CURBEG_windows, if_neg hnw.symm]
    exact hnx3
  have hn4 : (set_CURBEG widthflag s3 n (CURBEG widthflag (s3.windows n) + delta)).windows n
      = (if widthflag then
          { s3.windows n with left := CURBEG widthflag (s3.windows n) + delta }
        else { s3.windows n with top := CURBEG widthflag (s3.windows n) + delta }) := by
    rw [set_CURBEG_windows, if_pos rfl]
  obtain ⟨s5, e5, a5, b5, m5h, m5w⟩ := setsizefun_leaf E fuel widthflag
    (set_CURBEG widthflag s3 n (CURBEG widthflag (s3.windows n) + delta)) n
    (CURSIZE widthflag ((set_CURBEG widthflag s3 n
      (CURBEG widthflag (s3.windows n) + delta)).windows n))
    (by rw [hn4, hn3, a2]; cases widthflag <;> exact hnleaf.1)
    (by rw [hn4, hn3, a2]; cases widthflag <;> exact hnleaf.2)
    (by
      rw [set_CURBEG_min, MINSIZE_congr _ _ _ m3h m3w, MINSIZE_congr _ _ _ m2h m2w, hn4, hn3, a2]
      cases widthflag <;> exact hnext)
  rw [e2, Res.andThen_ok, e3, Res.andThen_ok]
  simp only [hnx3, hnx4]
  rw [e5, Res.andThen_ok]
  have hw5 : s5.windows w = s3.windows w := by
    rw [b5 w hnw.symm, set_CURBEG_windows, if_neg hnw.symm]
  have hz : ∀ z, z ≠ w → z ≠ n →
      (setw s5 w { s5.windows w with last_modified := 0 }).windows z = s.windows z := by
    intro z hzw hzn
    rw [setw_windows, if_neg hzw, b5 z hzn, set_CURBEG_windows, if_neg hzn, b3 z hzw, b2 z hzn]
  have hwf : (setw s5 w { s5.windows w with last_modified := 0 }).windows w
      = { s3.windows w with last_modified := 0 } := by
    rw [setw_windows, if_pos rfl, hw5]
  have hnf : (setw s5 w { s5.windows w with last_modified := 0 }).windows n
      = s5.windows n := by
    rw [setw_windows, if_neg hnw]
  refine ⟨_, rfl, ?_, ?_, ?_, hz P hPw hPn, hz⟩
  · rw [hwf, a3, hw2]
    cases widthflag <;> exact ⟨rfl, rfl⟩
  · rw [hnf, a5, hn4, hn3, a2]
    cases widthflag <;> exact ⟨rfl, rfl⟩
  · rw [hwf, a3, hw2, hnf, a5, hn4, hn3, a2]
    cases widthflag <;> exact ⟨rfl, rfl, rfl, rfl⟩

/-- Witness of `change_window_height_steals_next`: `Fenlarge_window (3, nil)`
on the selected top leaf 0 of `statev 12 12`, a vertical combination of two
leaves of 12 lines each: the top leaf gets 15 lines, the bottom leaf 9 lines
from line 15 on. -/
theorem change_window_height_steals_next_witness :
    ((statev 12 12).selected_window = 0 ∧ ((statev 12 12).windows 0).parent = some 2
        ∧ ((statev 12 12).windows 2).vchild ≠ none
        ∧ ((statev 12 12).windows 0).next = some 3)
      ∧ ∃ s', Fenlarge_window ext1 (0 + 1) (statev 12 12) 3 false = Res.ok () s'
        ∧ (s'.windows 0).height = 15 ∧ (s'.windows 0).top = 0
        ∧ (s'.windows 3).height = 9 ∧ (s'.windows 3).top = 15
        ∧ s'.windows 2 = (statev 12 12).windows 2 := by
  obtain ⟨s', e, ⟨h1, h2⟩, ⟨h3, h4⟩, -, h5, -⟩ :=
    change_window_height_steals_next ext1 0 (statev 12 12) 3 false 0 2 3 rfl rfl (by decide)
      (by decide) (by decide!) rfl (by decide) (by decide!) (by decide!) (by decide!)
      (by decide!) (by decide!)
  exact ⟨by decide!, s', e, h1, h2, h3, h4, h5⟩

/-- Counterexample to C19 with a combination as next sibling: in `statec`,
a well-formed, tiled tree, the selected leaf 0 (8 lines) is a child of the
vertical combination 1 (19 lines), its next sibling is the vertical
combination 5 (8 lines, of the leaves 6 and 7 of 4 lines each), and the leaf 2
(3 lines) follows; `window_min_height` is 4.  For `delta = 4` the conditions
of the claim hold: 8 + 4 is at least 4, 4 is at most 19 - 8, and 8 - 4 is at
least 4.  `change_window_height (4, 0)` resizes window 5 to 4 lines with
deletion: its children get 2 lines each, the leaf 6 is deleted and the leaf 7
takes the place of window 5; the loop over the children goes on along the
`next` of window 7 to the leaf 2, which has fewer than 4 lines, and deletes
it.  Afterwards the next sibling of window 0 is the leaf 7 with 7 lines from
line 12 on, the sibling 2 is deleted, and window 5 is no window of the tree
any more, with 4 lines at its old top 8. -/
theorem change_window_height_deletes_sibling :
    (WF statec 0 shapec ∧ statec.selected_window = 0
      ∧ (statec.windows 0).parent = some 1 ∧ (statec.windows 1).vchild ≠ none
      ∧ (statec.windows 0).next = some 5 ∧ (statec.windows 5).next = some 2
      ∧ MINSIZE (clamp_min statec) false = 4
      ∧ CURSIZE false (statec.windows 0) = 8 ∧ CURSIZE false (statec.windows 1) = 19
      ∧ CURSIZE false (statec.windows 5) = 8 ∧ CURBEG false (statec.windows 5) = 8
      ∧ (statec.windows 2).buffer = BufSlot.buf 0)
    ∧ (change_window_height ext1 30 statec 4 false).Holds fun _ s' =>
        (s'.windows 0).height = 12 ∧ (s'.windows 0).next = some 7
          ∧ (s'.windows 7).parent = some 1 ∧ (s'.windows 7).top = 12
          ∧ (s'.windows 7).height = 7 ∧ (s'.windows 7).next = none
          ∧ (s'.windows 5).height = 4 ∧ (s'.windows 5).top = 8
          ∧ (s'.windows 2).buffer = BufSlot.nil := by
  decide!

theorem Res.sideError_andThen {α β : Type} {r : Res α} {f : α → State → Res β}
    (h1 : r.isSideError = false) (hf : ∀ a s, (f a s).isSideError = false) :
    (r.andThen f).isSideError = false := by
  cases r with
  | ok a s => exact hf a s
  | signal e s => cases e <;> first | rfl | exact h1
  | fault => rfl
  | nofuel => rfl

theorem Res.sideError_ofWalk {α : Type} (r : Walk α) (s : State) :
    (Res.ofWalk r s).isSideError = false := by
  cases r <;> rfl

theorem unshow_buffer_sideError (s : State) (w : Win) :
    (unshow_buffer s w).isSideError = false := by
  unfold unshow_buffer
  split
  · split
    · rfl
    · refine Res.sideError_andThen ?_ ?_
      · split
        · split
          · rfl
          · split <;> rfl
        · rfl
      · intro _ s1
        split <;> rfl
  · rfl

theorem Fselect_window_sideError (E : Ext) (s : State) (w : Win) :
    (Fselect_window E s w).isSideError = false := by
  unfold Fselect_window
  simp only []
  split
  · rfl
  · split
    · rfl
    · split
      · split
        · rfl
        · split
          · split
            · rfl
            · split <;> rfl
          · rfl
          · rfl
      · rfl
      · rfl

theorem delete_begin_sideError (E : Ext) (fuel : Nat) (s : State) (w : Win) :
    (delete_begin E fuel s w).isSideError = false := by
  unfold delete_begin
  simp only []
  refine Res.sideError_andThen ?_ ?_
  · split
    · refine Res.sideError_andThen (Res.sideError_ofWalk _ _) ?_
      intro nw s2
      exact Res.sideError_andThen (Fselect_window_sideError E s2 nw) (fun _ _ => rfl)
    · rfl
  · intro _ s2
    split
    · refine Res.sideError_andThen (unshow_buffer_sideError s2 w) ?_
      intro _ s3
      split <;> rfl
    · rfl

theorem replace_window_sideError (s : State) (o n : Win) :
    (replace_window s o n).isSideError = false := by
  unfold replace_window
  split
  · rfl
  · simp only []
    split <;> rfl

theorem delete_sibling_sideError (s : State) (w : Win) :
    (delete_sibling s w).isSideError = false := by
  unfold delete_sibling
  split
  · rfl
  · split <;> rfl

theorem delete_collapse_sideError (s : State) (P : Win) :
    (delete_collapse s P).isSideError = false := by
  unfold delete_collapse
  simp only []
  split
  · rfl
  · split
    · exact replace_window_sideError _ _ _
    · rfl

/-- Neither the resize functions nor `Fdelete_window` signal the error "No
other window to side of this one". -/
theorem resize_sideError (E : Ext) : ∀ fuel : Nat,
    (∀ s w v nd, (set_window_height E fuel s w v nd).isSideError = false)
      ∧ (∀ s w c v nd, (set_height_hloop E fuel s w c v nd).isSideError = false)
      ∧ (∀ s c h oh t lb lob, (set_height_vloop E fuel s c h oh t lb lob).isSideError = false)
      ∧ (∀ s c, (set_height_dloop E fuel s c).isSideError = false)
      ∧ (∀ s w v nd, (set_window_width E fuel s w v nd).isSideError = false)
      ∧ (∀ s w c v nd, (set_width_vloop E fuel s w c v nd).isSideError = false)
      ∧ (∀ s c h oh t lb lob, (set_width_hloop E fuel s c h oh t lb lob).isSideError = false)
      ∧ (∀ s c, (set_width_dloop E fuel s c).isSideError = false)
      ∧ (∀ s w, (Fdelete_window E fuel s w).isSideError = false) := by
  intro fuel
  induction fuel with
  | zero =>
    refine ⟨?_, ?_, ?_, ?_, ?_, ?_, ?_, ?_, ?_⟩ <;> intros <;>
      simp only [set_window_height, set_height_hloop, set_height_vloop, set_height_dloop,
        set_window_width, set_width_vloop, set_width_hloop, set_width_dloop, Fdelete_window] <;>
      rfl
  | succ fuel ih =>
    obtain ⟨h1, h2, h3, h4, w1, w2, w3, w4, d⟩ := ih
    refine ⟨?_, ?_, ?_, ?_, ?_, ?_, ?_, ?_, ?_⟩
    · intro s w v nd
      simp only [set_window_height]
      split
      · exact d _ _
      · split
        · exact h2 _ _ _ _ _
        · split
          · refine Res.sideError_andThen (h3 _ _ _ _ _ _ _) ?_
            intro _ s4
            split
            · exact h4 _ _
            · rfl
          · rfl
    · intro s w c v nd
      cases c with
      | none => simp only [set_height_hloop]; rfl
      | some c =>
        simp only [set_height_hloop]
        exact Res.sideError_andThen (h1 _ _ _ _) (fun _ _ => h2 _ _ _ _ _)
    · intro s c h oh t lb lob
      cases c with
      | none => simp only [set_height_vloop]; rfl
      | some c =>
        simp only [set_height_vloop]
        split
        · rfl
        · exact Res.sideError_andThen (h1 _ _ _ _) (fun _ _ => h3 _ _ _ _ _ _ _)
    · intro s c
      cases c with
      | none => simp only [set_height_dloop]; rfl
      | some c =>
        simp only [set_height_dloop]
        exact Res.sideError_andThen (h1 _ _ _ _) (fun _ _ => h4 _ _)
    · intro s w v nd
      simp only [set_window_width]
      split
      · exact d _ _
      · split
        · exact w2 _ _ _ _ _
        · split
          · refine Res.sideError_andThen (w3 _ _ _ _ _ _ _) ?_
            intro _ s4
            split
            · exact w4 _ _
            · rfl
          · rfl
    · intro s w c v nd
      cases c with
      | none => simp only [set_width_vloop]; rfl
      | some c =>
        simp only [set_width_vloop]
        exact Res.sideError_andThen (w1 _ _ _ _) (fun _ _ => w2 _ _ _ _ _)
    · intro s c h oh t lb lob
      cases c with
      | none => simp only [set_width_hloop]; rfl
      | some c =>
        simp only [set_width_hloop]
        split
        · rfl
        · exact Res.sideError_andThen (w1 _ _ _ _) (fun _ _ => w3 _ _ _ _ _ _ _)
    · intro s c
      cases c with
      | none => simp only [set_width_dloop]; rfl
      | some c =>
        simp only [set_width_dloop]
        exact Res.sideError_andThen (w1 _ _ _ _) (fun _ _ => w4 _ _)
    · intro s w
      simp only [Fdelete_window]
      split
      · rfl
      · refine Res.sideError_andThen (delete_begin_sideError _ _ _ _) ?_
        intro _ s3
        refine Res.sideError_andThen (delete_sibling_sideError _ _) ?_
        intro sib s8
        refine Res.sideError_andThen ?_ ?_
        · split
          · exact h1 _ _ _ _
          · rfl
        · intro _ s9
          refine Res.sideError_andThen ?_ ?_
          · split
            · exact w1 _ _ _ _
            · rfl
          · intro _ s10
            exact delete_collapse_sideError _ _

theorem setsizefun_sideError (E : Ext) (fuel : Nat) (widthflag : Bool) (s : State) (w : Win)
    (v : Int) (nd : Bool) : (setsizefun E fuel widthflag s w v nd).isSideError = false := by
  unfold setsizefun
  split
  · exact (resize_sideError E fuel).2.2.2.2.1 _ _ _ _
  · exact (resize_sideError E fuel).1 _ _ _ _

theorem change_inflate_sideError (E : Ext) (fuel : Nat) (widthflag : Bool) (s : State)
    (w : Win) (p : Option Win) (d : Int) :
    (change_inflate E fuel widthflag s w p d).isSideError = false := by
  unfold change_inflate
  split
  · rfl
  · simp only []
    refine Res.sideError_andThen (setsizefun_sideError _ _ _ _ _ _ _) ?_
    intro _ s3
    exact Res.sideError_andThen (setsizefun_sideError _ _ _ _ _ _ _) (fun _ _ => rfl)

theorem change_steal_prev_sideError (E : Ext) (fuel : Nat) (widthflag : Bool) (s : State)
    (w : Win) (p : Option Win) (d : Int) :
    (change_steal_prev E fuel widthflag s w p d).isSideError = false := by
  unfold change_steal_prev
  split
  · exact change_inflate_sideError _ _ _ _ _ _ _
  · split
    · refine Res.sideError_andThen (setsizefun_sideError _ _ _ _ _ _ _) ?_
      intro _ s2
      exact Res.sideError_andThen (setsizefun_sideError _ _ _ _ _ _ _) (fun _ _ => rfl)
    · exact change_inflate_sideError _ _ _ _ _ _ _

theorem change_steal_next_sideError (E : Ext) (fuel : Nat) (widthflag : Bool) (s : State)
    (w : Win) (p : Option Win) (d : Int) :
    (change_steal_next E fuel widthflag s w p d).isSideError = false := by
  unfold change_steal_next
  split
  · exact change_steal_prev_sideError _ _ _ _ _ _ _
  · split
    · refine Res.sideError_andThen (setsizefun_sideError _ _ _ _ _ _ _) ?_
      intro _ s2
      refine Res.sideError_andThen (setsizefun_sideError _ _ _ _ _ _ _) ?_
      intro _ s3
      split
      · rfl
      · simp only []
        split
        · rfl
        · exact Res.sideError_andThen (setsizefun_sideError _ _ _ _ _ _ _) (fun _ _ => rfl)
    · exact change_steal_prev_sideError _ _ _ _ _ _ _

/-- What `change_window_height` does after the climbing loop does not signal
the error "No other window to side of this one". -/
theorem change_rest_sideError (E : Ext) (fuel : Nat) (widthflag : Bool) (s1 : State)
    (delta : Int) (wp : Win × Option Win) :
    (if CURSIZE widthflag (s1.windows wp.1) + delta < MINSIZE s1 widthflag
          ∧ (s1.windows wp.1).parent ≠ none then
        Fdelete_window E fuel s1 (some wp.1)
      else
        match change_maxdelta s1 widthflag wp.1 wp.2 with
        | none => Res.fault
        | some maxdelta =>
          change_steal_next E fuel widthflag s1 wp.1 wp.2
            (if delta > maxdelta then maxdelta else delta)).isSideError = false := by
  split
  · exact (resize_sideError E fuel).2.2.2.2.2.2.2.2 _ _
  · split
    · rfl
    · exact change_steal_next_sideError _ _ _ _ _ _ _

/-- The climbing loop of `change_window_height` leaves the state as it is; it
signals only with `widthflag` set, and then the error "No other window to
side of this one". -/
theorem change_climb_cases (s : State) (widthflag : Bool) : ∀ (fuel : Nat) (w : Win),
    change_climb s widthflag fuel w = Res.nofuel
      ∨ (widthflag = true
          ∧ change_climb s widthflag fuel w = Res.signal Err.no_other_window_to_side s)
      ∨ ∃ wp, change_climb s widthflag fuel w = Res.ok wp s := by
  intro fuel
  induction fuel with
  | zero => intro w; exact Or.inl rfl
  | succ fuel ih =>
    intro w
    simp only [change_climb]
    cases hp : (s.windows w).parent with
    | none =>
      simp only []
      cases widthflag
      · exact Or.inr (Or.inr ⟨_, rfl⟩)
      · exact Or.inr (Or.inl ⟨rfl, rfl⟩)
    | some p =>
      simp only []
      by_cases hc : (if widthflag = true then (s.windows p).hchild ≠ none
          else (s.windows p).vchild ≠ none)
      · rw [if_pos hc]
        exact Or.inr (Or.inr ⟨_, rfl⟩)
      · rw [if_neg hc]
        exact ih _

/-- The outcome of the climbing loop depends on the parent of the window
only. -/
theorem change_climb_parent (s : State) (widthflag : Bool) (fuel : Nat) (w v : Win)
    (h : (s.windows w).parent = (s.windows v).parent) :
    (change_climb s widthflag fuel w = Res.signal Err.no_other_window_to_side s
        ↔ change_climb s widthflag fuel v = Res.signal Err.no_other_window_to_side s)
      ∧ ((∃ wp, change_climb s widthflag fuel w = Res.ok wp s)
        ↔ ∃ wp, change_climb s widthflag fuel v = Res.ok wp s) := by
  cases fuel with
  | zero => simp [change_climb]
  | succ fuel =>
    simp only [change_climb, h]
    cases hp : (s.windows v).parent with
    | none => cases widthflag <;> simp
    | some p =>
      simp only []
      by_cases hc : (if widthflag = true then (s.windows p).hchild ≠ none
          else (s.windows p).vchild ≠ none)
      · rw [if_pos hc, if_pos hc]
        simp
      · rw [if_neg hc, if_neg hc]
        exact ⟨Iff.rfl, Iff.rfl⟩

/-- The climbing loop of `change_window_height` with `widthflag` set, from a
window of a represented tree: it signals if no window above is a horizontal
combination and returns otherwise. -/
theorem change_climb_spec (s : State) (scr : Scr) : ∀ (c : Ctx) (w : Win) (k : Kind)
    (ch rest : Shape) (fuel : Nat), Rep s scr (plug c (Shape.node w k ch rest)) →
    c.length < fuel →
    ((∀ P r, Frame.down P Kind.hcomb r ∉ c)
        ∧ change_climb s true fuel w = Res.signal Err.no_other_window_to_side s)
      ∨ ((∃ P r, Frame.down P Kind.hcomb r ∈ c)
        ∧ ∃ wp, change_climb s true fuel w = Res.ok wp s) := by
  intro c
  induction c with
  | nil =>
    intro w k ch rest fuel hrep hf
    obtain ⟨-, -, -, -, hl, -, -⟩ := (rep_plug_node s scr [] w k ch rest).1 hrep
    have hp : (s.windows w).parent = none := hl.1
    cases fuel with
    | zero => simp at hf
    | succ fuel =>
      left
      refine ⟨by simp, ?_⟩
      simp only [change_climb, hp, if_true]
  | cons f c ih =>
    intro w k ch rest fuel hrep hf
    obtain ⟨-, -, -, -, hl, -, -⟩ := (rep_plug_node s scr (f :: c) w k ch rest).1 hrep
    have hp : (s.windows w).parent = (hpar (f :: c)).map Prod.snd := hl.1
    cases f with
    | right v kv chv =>
      have hrep' : Rep s scr (plug c (Shape.node v kv chv (Shape.node w k ch rest))) := hrep
      obtain ⟨-, -, -, -, hlv, -, -⟩ := (rep_plug_node s scr c v kv chv _).1 hrep'
      have hpv : (s.windows v).parent = (hpar c).map Prod.snd := hlv.1
      have hwv : (s.windows w).parent = (s.windows v).parent := by rw [hp, hpv]; rfl
      obtain ⟨e1, e2⟩ := change_climb_parent s true fuel w v hwv
      rcases ih v kv chv _ fuel hrep' (by simp only [List.length_cons] at hf; omega) with
        ⟨h1, h2⟩ | ⟨⟨P, r, h1⟩, h2⟩
      · left
        refine ⟨fun P r hm => ?_, e1.2 h2⟩
        simp only [List.mem_cons] at hm
        rcases hm with hm | hm
        · cases hm
        · exact h1 P r hm
      · right
        exact ⟨⟨P, r, List.mem_cons_of_mem _ h1⟩, e2.2 h2⟩
    | down P kP restP =>
      have hrep' : Rep s scr (plug c (Shape.node P kP (Shape.node w k ch rest) restP)) := hrep
      have hp' : (s.windows w).parent = some P := hp
      obtain ⟨kh, -⟩ := rep_parent_kind s scr (Frame.down P kP restP :: c) _ kP P hrep rfl
      cases fuel with
      | zero => simp at hf
      | succ fuel =>
        simp only [change_climb, hp', if_true]
        by_cases hk : kP = Kind.hcomb
        · right
          subst hk
          rw [if_pos (kh.2 rfl)]
          exact ⟨⟨P, restP, List.mem_cons_self _ _⟩, _, rfl⟩
        · rw [if_neg (fun h => hk (kh.1 h))]
          rcases ih P kP _ restP fuel hrep' (by simp only [List.length_cons] at hf; omega) with
            ⟨h1, h2⟩ | ⟨⟨Q, r, h1⟩, h2⟩
          · left
            refine ⟨fun Q r hm => ?_, h2⟩
            simp only [List.mem_cons] at hm
            rcases hm with hm | hm
            · cases hm
              exact hk rfl
            · exact h1 Q r hm
          · right
            exact ⟨⟨Q, r, List.mem_cons_of_mem _ h1⟩, h2⟩

theorem Res.ne_of_sideError {α : Type} {r : Res α} (h : r.isSideError = false) (s' : State) :
    r ≠ Res.signal Err.no_other_window_to_side s' := by
  intro e
  rw [e] at h
  cases h

/-- C20: `change_window_height (delta, widthflag)` with the selected window
`w` in a represented tree, the fuel covering the path from `w` to the root.
With `widthflag` set the call signals the error "No other window to side of
this one" if and only if no window above `w` (no window whose chain of
children holds `w` or a window above `w`) is a horizontal combination; the
windows and the screens are then as before the call.  With `widthflag` clear
the call never signals this error, whatever the fuel. -/
theorem change_window_height_side_error (E : Ext) (fuel : Nat) (s : State) (scr : Scr) (c : Ctx)
    (w : Win) (k : Kind) (ch rest : Shape) (delta : Int)
    (hrep : Rep s scr (plug c (Shape.node w k ch rest)))
    (hsel : s.selected_window = w) (hfuel : c.length < fuel) :
    ((∃ s', change_window_height E fuel s delta true
          = Res.signal Err.no_other_window_to_side s')
        ↔ ∀ P r, Frame.down P Kind.hcomb r ∉ c)
      ∧ (∀ s', change_window_height E fuel s delta true
            = Res.signal Err.no_other_window_to_side s' →
          s'.windows = s.windows ∧ s'.screens = s.screens)
      ∧ ∀ fuel' s', change_window_height E fuel' s delta false
          ≠ Res.signal Err.no_other_window_to_side s' := by
  have hrep0 : Rep (clamp_min s) scr (plug c (Shape.node w k ch rest)) := by
    unfold Rep at hrep ⊢
    simpa using hrep
  have hthird : ∀ fuel' s', change_window_height E fuel' s delta false
      ≠ Res.signal Err.no_other_window_to_side s' := by
    intro fuel' s'
    apply Res.ne_of_sideError
    unfold change_window_height
    simp only []
    rcases change_climb_cases (clamp_min s) false fuel' (clamp_min s).selected_window with
      h | ⟨h, -⟩ | ⟨wp, h⟩
    · rw [h]; rfl
    · cases h
    · rw [h, Res.andThen_ok]
      exact change_rest_sideError E fuel' false (clamp_min s) delta wp
  refine ⟨?_, ?_, hthird⟩
  · unfold change_window_height
    simp only [clamp_min_selected_window, hsel]
    rcases change_climb_spec (clamp_min s) scr c w k ch rest fuel hrep0 hfuel with
      ⟨h1, h2⟩ | ⟨⟨P, r, h1⟩, wp, h2⟩
    · rw [h2]
      exact ⟨fun _ => h1, fun _ => ⟨_, rfl⟩⟩
    · rw [h2, Res.andThen_ok]
      constructor
      · rintro ⟨s', e⟩
        exact absurd e (Res.ne_of_sideError
          (change_rest_sideError E fuel true (clamp_min s) delta wp) s')
      · intro h
        exact absurd h1 (h P r)
  · intro s'
    unfold change_window_height
    simp only [clamp_min_selected_window, hsel]
    rcases change_climb_spec (clamp_min s) scr c w k ch rest fuel hrep0 hfuel with
      ⟨h1, h2⟩ | ⟨⟨P, r, h1⟩, wp, h2⟩
    · rw [h2]
      intro e
      have e' : clamp_min s = s' := by
        simp only [Res.andThen_signal] at e
        injection e
      subst e'
      exact ⟨clamp_min_windows s, clamp_min_screens s⟩
    · rw [h2, Res.andThen_ok]
      intro e
      exact absurd e (Res.ne_of_sideError
        (change_rest_sideError E fuel true (clamp_min s) delta wp) s')

/-- Witness of `change_window_height_side_error`: the selected leaf 0 of
`statev 12 12`, a child of the root window, a vertical combination: with
`widthflag` set the call signals. -/
theorem change_window_height_side_error_witness :
    Rep (statev 12 12) 0 (plug [Frame.down 2 Kind.vcomb chain1]
        (Shape.node 0 Kind.leaf Shape.nil chain3))
      ∧ (statev 12 12).selected_window = 0
      ∧ ((∃ s', change_window_height ext1 2 (statev 12 12) 3 true
            = Res.signal Err.no_other_window_to_side s')
          ↔ ∀ P r, Frame.down P Kind.hcomb r ∉ [Frame.down 2 Kind.vcomb chain1])
        ∧ (∀ s', change_window_height ext1 2 (statev 12 12) 3 true
              = Res.signal Err.no_other_window_to_side s' →
            s'.windows = (statev 12 12).windows ∧ s'.screens = (statev 12 12).screens)
        ∧ ∀ fuel' s', change_window_height ext1 fuel' (statev 12 12) 3 false
            ≠ Res.signal Err.no_other_window_to_side s' :=
  ⟨by decide!, rfl,
    change_window_height_side_error ext1 2 (statev 12 12) 0 [Frame.down 2 Kind.vcomb chain1] 0
      Kind.leaf Shape.nil chain3 3 (by decide!) rfl (by decide)⟩

/-- C18: `set_window_height` with `nodelete` 0 deletes a window twice and
leaves children that do not add up to the new height.  In `staten` (a
well-formed, exactly tiled tree whose leaves show live buffers and have at
least `window_min_height` = 4 lines; its windows are those that two vertical
splits, a horizontal split and a deletion make of a single window, see
`staten_calls`) the root window 1, of 24 lines, is a vertical combination of
window 5 (a vertical combination of the leaves 0 and 6, of 4 and 8 lines),
the leaf 2 (4 lines) and the leaf 7 (8 lines).  `set_window_height (1, 18, 0)`
returns; afterwards window 1 has 18 lines and the children 6 and 7, window 6
has the lines 0 to 14 and window 7 the lines 12 to 17: 15 + 6 lines are not
18. -/
theorem set_window_height_deletes_twice :
    (WF staten 0 shapen ∧ Shown staten shapen
        ∧ (∀ z ∈ shapen.leaves, staten.window_min_height ≤ (staten.windows z).height)
        ∧ staten.window_min_height ≤ 18
        ∧ WF staten_calls 0 shapen
        ∧ ∀ x ∈ shapen.handles, (staten_calls.windows x).core = (staten.windows x).core)
      ∧ ∃ s', set_window_height ext1 20 staten 1 18 false = Res.ok () s'
        ∧ Rep s' 0 (Shape.node 1 Kind.vcomb
            (Shape.node 6 Kind.leaf Shape.nil (Shape.node 7 Kind.leaf Shape.nil Shape.nil))
            Shape.nil)
        ∧ (s'.windows 1).height = 18
        ∧ ((s'.windows 6).top = 0 ∧ (s'.windows 6).height = 15)
        ∧ ((s'.windows 7).top = 12 ∧ (s'.windows 7).height = 6)
        ∧ staten.window_min_height ≤ (s'.windows 6).height
        ∧ staten.window_min_height ≤ (s'.windows 7).height
        ∧ sum_height s'.windows [6, 7] ≠ 18 :=
  ⟨by decide!, _, Res.eq_ok_of_isOk staten (by decide!), by decide!, by decide!, by decide!,
    by decide!, by decide!, by decide!, by decide!⟩

theorem Res.andThen_ne_signal {α β : Type} (r : Res α) (f : α → State → Res β) (e : Err)
    (h1 : ∀ s', r ≠ Res.signal e s') (h2 : ∀ a s1 s', f a s1 ≠ Res.signal e s') (s' : State) :
    r.andThen f ≠ Res.signal e s' := by
  cases r with
  | ok a s1 => exact h2 a s1 s'
  | signal e1 s1 =>
    intro h
    exact h1 s' (by simpa [Res.andThen] using h)
  | fault => simp [Res.andThen]
  | nofuel => simp [Res.andThen]

theorem unshow_buffer_signal (s : State) (w : Win) (e : Err) (s' : State)
    (h : unshow_buffer s w = Res.signal e s') : e = Err.marker_nowhere := by
  unfold unshow_buffer at h
  split at h
  · rename_i buf pm hb hp
    by_cases c1 : pm.buffer ≠ some buf
    · rw [if_pos c1] at h; exact absurd h (by simp)
    · rw [if_neg c1] at h
      by_cases c2 : w = s.selected_window ∨ BufSlot.buf buf ≠ (s.windows s.selected_window).buffer
      · simp only [if_pos c2] at h
        rcases hs : (s.windows w).start with _ | st
        · rw [hs] at h; exact absurd h (by simp [Res.andThen])
        · rw [hs] at h
          by_cases c3 : st.buffer = none
          · simp only [c3, if_true, Res.andThen] at h
            injection h with h1 _
            exact h1.symm
          · simp only [c3, if_false, Res.andThen] at h
            split at h <;> exact absurd h (by simp)
      · simp only [if_neg c2, Res.andThen] at h
        split at h <;> exact absurd h (by simp)
  · exact absurd h (by simp)

theorem Fset_window_buffer_signals (s : State) (w : Win) (b0 b : Buf)
    (hlive : (s.windows w).buffer = BufSlot.buf b0)
    (halive : (s.buffers b).name_live = true)
    (hc : (s.windows w).dedicated = true ∧ b0 ≠ b) :
    Fset_window_buffer s w (BufSlot.buf b) = Res.signal Err.window_dedicated s := by
  unfold Fset_window_buffer
  simp only [halive, hlive, Bool.true_eq_false, if_false, reduceCtorEq, ne_eq,
    not_false_eq_true, if_true, BufSlot.buf.injEq]
  simp only [if_pos hc, Res.andThen]

theorem Fset_window_buffer_accepts (s : State) (w : Win) (b0 b : Buf)
    (hlive : (s.windows w).buffer = BufSlot.buf b0)
    (halive : (s.buffers b).name_live = true)
    (hc : ¬ ((s.windows w).dedicated = true ∧ b0 ≠ b)) (s' : State) :
    Fset_window_buffer s w (BufSlot.buf b) ≠ Res.signal Err.window_dedicated s' := by
  unfold Fset_window_buffer
  simp only [halive, hlive, Bool.true_eq_false, if_false, reduceCtorEq, ne_eq,
    not_false_eq_true, if_true, BufSlot.buf.injEq]
  simp only [if_neg hc]
  refine Res.andThen_ne_signal _ _ _ ?_ ?_ s'
  · intro s1 h
    exact absurd (unshow_buffer_signal s w _ _ h) (by simp)
  · intro a s1 s2
    split
    · exact fun h => Res.noConfusion h
    · exact fun h => Res.noConfusion h (fun h1 _ => Err.noConfusion h1)

/-- C25: `Fset_window_buffer (w, buf)` on a live window `w` (one whose
`buffer` slot holds a buffer `b0`) with a live buffer `buf` signals the error
"Window is dedicated" exactly when `w` is dedicated and `b0` is another
buffer than `buf`; the state at the signal is the state before the call, so
the buffer, the markers, `start_at_line_beg` and `last_modified` of `w` and
`windows_or_buffers_changed` are unchanged. -/
theorem Fset_window_buffer_dedicated (s : State) (w : Win) (b0 b : Buf)
    (hlive : (s.windows w).buffer = BufSlot.buf b0)
    (halive : (s.buffers b).name_live = true) :
    ((∃ s', Fset_window_buffer s w (BufSlot.buf b) = Res.signal Err.window_dedicated s')
        ↔ ((s.windows w).dedicated = true ∧ b0 ≠ b))
      ∧ ∀ s', Fset_window_buffer s w (BufSlot.buf b) = Res.signal Err.window_dedicated s' →
          s' = s := by
  by_cases hc : (s.windows w).dedicated = true ∧ b0 ≠ b
  · have h := Fset_window_buffer_signals s w b0 b hlive halive hc
    refine ⟨⟨fun _ => hc, fun _ => ⟨s, h⟩⟩, fun s' h' => ?_⟩
    rw [h] at h'
    injection h' with _ h2
    exact h2.symm
  · have h := Fset_window_buffer_accepts s w b0 b hlive halive hc
    exact ⟨⟨fun ⟨s', h'⟩ => absurd h' (h s'), fun h' => absurd h' hc⟩,
      fun s' h' => absurd h' (h s')⟩

theorem Fset_window_buffer_dedicated_witness :
    ((∃ s', Fset_window_buffer { state2 with windows := fun i => { store2 i with dedicated := true } }
          0 (BufSlot.buf 1) = Res.signal Err.window_dedicated s')
        ↔ (true = true ∧ (0 : Buf) ≠ 1))
      ∧ ∀ s', Fset_window_buffer { state2 with windows := fun i => { store2 i with dedicated := true } }
          0 (BufSlot.buf 1) = Res.signal Err.window_dedicated s' →
          s' = { state2 with windows := fun i => { store2 i with dedicated := true } } :=
  Fset_window_buffer_dedicated
    { state2 with windows := fun i => { store2 i with dedicated := true } } 0 0 1 rfl
    (by decide)

theorem select_point_pt (s : State) (b : Buf) (p : Int) :
    ((select_point s b p).buffers b).pt = if p > (s.buffers b).zv then (s.buffers b).zv else p := by
  unfold select_point
  by_cases h1 : p < (s.buffers b).begv <;> by_cases h2 : p > (s.buffers b).zv <;>
    simp only [h1, h2, if_true, if_false, setb] <;> simp [h2]

/-- C26: `Fselect_window` does not bring a recorded position before `BEGV`
into the visible range.  In `state3v_narrowed` the buffer 0 is narrowed to
the positions 5 to 10, window 0 is selected and the marker `pointm` of window
3 is at position 1; after `Fselect_window (3)` the buffer 0 is current, still
narrowed to 5 to 10, and its point is 1, not `BEGV`: the point that the first
`if` of the C code sets to `BEGV` is set again, to the recorded position, by
the `else` branch of the second `if`. -/
theorem Fselect_window_point_before_begv :
    ∃ s', Fselect_window ext1 state3v_narrowed 3 = Res.ok 3 s'
      ∧ state3v_narrowed.selected_window = 0
      ∧ (state3v_narrowed.windows 3).buffer = BufSlot.buf 0
      ∧ (state3v_narrowed.windows 3).pointm = some { buffer := some 0, charpos := 1 }
      ∧ s'.selected_window = 3 ∧ s'.current_buffer = 0
      ∧ (s'.buffers 0).begv = 5 ∧ (s'.buffers 0).zv = 10
      ∧ (s'.buffers 0).pt = 1 :=
  ⟨_, rfl, rfl, rfl, rfl, rfl, rfl, rfl, rfl, rfl⟩

theorem Res.ofWalk_ne_signal {α : Type} (r : Walk α) (s : State) (e : Err) (s' : State) :
    Res.ofWalk r s ≠ Res.signal e s' := by
  cases r <;> simp [Res.ofWalk]

theorem delete_all_subwindows_ne_signal (e : Err) : ∀ (fuel : Nat) (s : State) (w : Win)
    (s' : State), delete_all_subwindows fuel s w ≠ Res.signal e s' := by
  intro fuel
  induction fuel with
  | zero => intro s w s'; simp [delete_all_subwindows]
  | succ f ih =>
    intro s w s'
    unfold delete_all_subwindows
    refine Res.andThen_ne_signal _ _ _ ?_ ?_ s'
    · intro s1
      split
      · exact ih _ _ _
      · simp
    · intro _ s2 s3
      refine Res.andThen_ne_signal _ _ _ ?_ ?_ s3
      · intro s1
        split
        · exact ih _ _ _
        · simp
      · intro _ s4 s5
        split
        · exact ih _ _ _
        · simp

theorem Fselect_window_ne_mismatch (E : Ext) (s : State) (w : Win) (s' : State) :
    Fselect_window E s w ≠ Res.signal Err.screen_size_mismatch s' := by
  unfold Fselect_window
  simp only
  repeat' split
  all_goals simp

theorem Fgoto_char_ne_mismatch (s : State) (m : Option Marker) (s' : State) :
    Fgoto_char s m ≠ Res.signal Err.screen_size_mismatch s' := by
  unfold Fgoto_char
  repeat' split
  all_goals simp

theorem restore_links_ne_signal (s : State) (v : List SavedWindow) (p : SavedWindow)
    (w : Win) (e : Err) (s' : State) : restore_links s v p w ≠ Res.signal e s' := by
  unfold restore_links
  refine Res.andThen_ne_signal _ _ _ (Res.ofWalk_ne_signal _ _ _) ?_ s'
  intro parent s1 s2
  simp only
  split
  · refine Res.andThen_ne_signal _ _ _ (Res.ofWalk_ne_signal _ _ _) ?_ s2
    intro prev s3 s4
    repeat' split
    all_goals simp
  · repeat' split
    all_goals simp

theorem restore_buffer_ne_mismatch (E : Ext) (s : State) (p : SavedWindow) (w : Win)
    (ncb : Option Buf) (s' : State) :
    restore_buffer E s p w ncb ≠ Res.signal Err.screen_size_mismatch s' := by
  unfold restore_buffer
  split
  · simp
  · simp
  · split
    · refine Res.andThen_ne_signal _ _ _ (Res.ofWalk_ne_signal _ _ _) ?_ s'
      intro st s1 s2
      refine Res.andThen_ne_signal _ _ _ (Res.ofWalk_ne_signal _ _ _) ?_ s2
      intro pm s3 s4
      simp only
      split
      · exact Fgoto_char_ne_mismatch _ _ _
      · simp
    · repeat' split
      all_goals simp

theorem restore_window_ne_mismatch (E : Ext) (s : State) (v : List SavedWindow)
    (ncb : Option Buf) (p : SavedWindow) (s' : State) :
    restore_window E s v ncb p ≠ Res.signal Err.screen_size_mismatch s' := by
  unfold restore_window
  split
  · simp
  · refine Res.andThen_ne_signal _ _ _ (restore_links_ne_signal _ _ _ _ _) ?_ s'
    intro _ s1 s2
    exact restore_buffer_ne_mismatch _ _ _ _ _ _

theorem restore_loop_ne_mismatch (E : Ext) (v : List SavedWindow) (ncb : Option Buf) :
    ∀ (l : List SavedWindow) (s s' : State),
      restore_loop E v ncb s l ≠ Res.signal Err.screen_size_mismatch s' := by
  intro l
  induction l with
  | nil => intro s s'; simp [restore_loop]
  | cons p l ih =>
    intro s s'
    unfold restore_loop
    refine Res.andThen_ne_signal _ _ _ (restore_window_ne_mismatch _ _ _ _ _) ?_ s'
    intro _ s1 s2
    exact ih _ _

theorem restore_selection_ne_mismatch (E : Ext) (s : State) (data : SaveWindowData) (c : Scr)
    (ncb : Option Buf) (s' : State) :
    restore_selection E s data c ncb ≠ Res.signal Err.screen_size_mismatch s' := by
  unfold restore_selection
  refine Res.andThen_ne_signal _ _ _ ?_ ?_ s'
  · intro s1
    repeat' split
    all_goals simp
  · intro _ s1 s2
    split
    · refine Res.andThen_ne_signal _ _ _ (Fselect_window_ne_mismatch _ _ _) ?_ s2
      intro _ s3 s4
      repeat' split
      all_goals simp
    · simp

/-- C28: `Fset_window_configuration` on a configuration whose first saved
window `w0` is on screen `c` signals the error "Screen size ... in saved
window configuration mismatches screen" exactly when the recorded screen
height or width differs from the height or width of `c`; the state at the
signal is the state before the call, so no window, no buffer, the root
window of the screen, the selected window and `windows_or_buffers_changed`
have changed. -/
theorem Fset_window_configuration_mismatch (E : Ext) (fuel : Nat) (s : State)
    (data : SaveWindowData) (p0 : SavedWindow) (w0 : Win) (c : Scr)
    (h0 : data.saved_windows[0]? = some p0) (hw0 : p0.window = some w0)
    (hc : (s.windows w0).screen = some c) :
    ((∃ s', Fset_window_configuration E fuel s data
          = Res.signal Err.screen_size_mismatch s')
        ↔ (data.screen_height ≠ (s.screens c).height
            ∨ data.screen_width ≠ (s.screens c).width))
      ∧ ∀ s', Fset_window_configuration E fuel s data
          = Res.signal Err.screen_size_mismatch s' → s' = s := by
  by_cases hm : data.screen_height ≠ (s.screens c).height
      ∨ data.screen_width ≠ (s.screens c).width
  · have h : Fset_window_configuration E fuel s data
        = Res.signal Err.screen_size_mismatch s := by
      unfold Fset_window_configuration
      simp only [h0, hw0, hc]
      rw [if_pos hm]
    refine ⟨⟨fun _ => hm, fun _ => ⟨s, h⟩⟩, fun s' h' => ?_⟩
    rw [h] at h'
    injection h' with _ h2
    exact h2.symm
  · have h : ∀ s', Fset_window_configuration E fuel s data
        ≠ Res.signal Err.screen_size_mismatch s' := by
      intro s'
      unfold Fset_window_configuration
      simp only [h0, hw0, hc]
      rw [if_neg hm]
      split
      · simp
      · refine Res.andThen_ne_signal _ _ _ (delete_all_subwindows_ne_signal _ _ _ _) ?_ s'
        intro _ s1 s2
        refine Res.andThen_ne_signal _ _ _ (restore_loop_ne_mismatch _ _ _ _ _) ?_ s2
        intro _ s3 s4
        exact restore_selection_ne_mismatch _ _ _ _ _ _
    exact ⟨⟨fun ⟨s', h'⟩ => absurd h' (h s'), fun h' => absurd h' hm⟩,
      fun s' h' => absurd h' (h s')⟩

/-- Witness of `Fset_window_configuration_mismatch`: the configuration
`config_25`, recorded on a screen of 25 lines, on the screen of `state6`, which
has 24 lines. -/
theorem Fset_window_configuration_mismatch_witness :
    ((∃ s', Fset_window_configuration ext1 20 state6 config_25
          = Res.signal Err.screen_size_mismatch s')
        ↔ (config_25.screen_height ≠ (state6.screens 0).height
            ∨ config_25.screen_width ≠ (state6.screens 0).width))
      ∧ ∀ s', Fset_window_configuration ext1 20 state6 config_25
          = Res.signal Err.screen_size_mismatch s' → s' = state6 :=
  Fset_window_configuration_mismatch ext1 20 state6 config_25 { window := some 2 } 2 0 rfl rfl
    rfl

theorem set_window_width_keep (E : Ext) (f : Nat) (s : State) (x : Win) (v : Int)
    (nodelete : Bool) (hc : ¬ (nodelete = false ∧ v < s.window_min_width)) :
    set_window_width E (f + 1) s x v nodelete =
      match (s.windows x).vchild with
      | some c => set_width_vloop E f (width_touched s x v) x (some c) v nodelete
      | none =>
        match (s.windows x).hchild with
        | some c =>
          (set_width_hloop E f (width_touched s x v) (some c) v
            (s.windows x).width (s.windows x).left (s.windows x).left 0).andThen fun _ s4 =>
              if nodelete = false then set_width_dloop E f s4 (s4.windows x).hchild
              else Res.ok () s4
        | none => Res.ok () (width_touched s x v) := by
  have key : set_window_width E (f + 1) s x v nodelete =
      (fun s3 : State =>
        match (s3.windows x).vchild with
        | some c => set_width_vloop E f s3 x (some c) v nodelete
        | none =>
          match (s3.windows x).hchild with
          | some c =>
            (set_width_hloop E f s3 (some c) v (s.windows x).width (s3.windows x).left
              (s3.windows x).left 0).andThen fun _ s4 =>
                if nodelete = false then set_width_dloop E f s4 (s4.windows x).hchild
                else Res.ok () s4
          | none => Res.ok () s3)
        (setw { setw s x { s.windows x with last_modified := 0 } with
            windows_or_buffers_changed := s.windows_or_buffers_changed + 1 } x
          { (setw s x { s.windows x with last_modified := 0 }).windows x with width := v }) := by
    simp only [set_window_width, hc, if_false]
    rfl
  rw [key, touch_width_state]
  have e1 : ((width_touched s x v).windows x).vchild = (s.windows x).vchild := by
    simp [width_touched, touch_width]
  have e2 : ((width_touched s x v).windows x).hchild = (s.windows x).hchild := by
    simp [width_touched, touch_width]
  have e3 : ((width_touched s x v).windows x).left = (s.windows x).left := by
    simp [width_touched, touch_width]
  simp only [e1, e2, e3]

/-- On a leaf `set_window_width` sets the width and `last_modified`, unless
it is to delete the window. -/
theorem set_window_width_leaf (E : Ext) (f : Nat) (s : State) (x : Win) (v : Int)
    (nodelete : Bool) (hh : (s.windows x).hchild = none) (hv : (s.windows x).vchild = none)
    (hmin : nodelete = false → s.window_min_width ≤ v) :
    set_window_width E (f + 1) s x v nodelete = Res.ok () (width_touched s x v) := by
  rw [set_window_width_keep E f s x v nodelete (fun h => absurd h.2 (not_lt.2 (hmin h.1))),
    hv, hh]

theorem width_touched_windows (s : State) (x : Win) (v : Int) (z : Win) :
    (width_touched s x v).windows z
      = if z = x then { s.windows x with last_modified := 0, width := v } else s.windows z := rfl

theorem left_set_windows (s : State) (x : Win) (v : Int) (z : Win) :
    (left_set s x v).windows z
      = if z = x then { s.windows x with left := v } else s.windows z := rfl

theorem width_touched_min (s : State) (x : Win) (v : Int) :
    (width_touched s x v).window_min_width = s.window_min_width := rfl

theorem left_set_min (s : State) (x : Win) (v : Int) :
    (left_set s x v).window_min_width = s.window_min_width := rfl

theorem set_width_dloop_succ (E : Ext) (f : Nat) (s : State) (x : Win) :
    set_width_dloop E (f + 1) s (some x) =
      (set_window_width E f s x (s.windows x).width false).andThen fun _ s2 =>
        set_width_dloop E f s2 (s2.windows x).next := by
  simp only [set_width_dloop]

theorem set_window_width_comb (E : Ext) (f : Nat) (s : State) (x c : Win) (v : Int)
    (hv : (s.windows x).vchild = none) (hh : (s.windows x).hchild = some c)
    (hmin : s.window_min_width ≤ v) :
    set_window_width E (f + 1) s x v false =
      (set_width_hloop E f (width_touched s x v) (some c) v
          (s.windows x).width (s.windows x).left (s.windows x).left 0).andThen fun _ s4 =>
        set_width_dloop E f s4 (s4.windows x).hchild := by
  rw [set_window_width_keep E f s x v false (fun h => absurd h.2 (not_lt.2 hmin)), hv, hh]
  rfl

theorem set_width_hloop_none (E : Ext) (f : Nat) (s : State) (v old left lr lo : Int) :
    set_width_hloop E (f + 1) s none v old left lr lo = Res.ok () s := by
  simp only [set_width_hloop]

theorem set_width_dloop_none (E : Ext) (f : Nat) (s : State) :
    set_width_dloop E (f + 1) s none = Res.ok () s := by
  simp only [set_width_dloop]

/-- One pass of the first loop of `set_window_width` over a leaf child. -/
theorem set_width_hloop_leaf (E : Ext) (f : Nat) (s : State) (x : Win)
    (v old left lastright lastoright : Int) (hold : old ≠ 0)
    (hh : (s.windows x).hchild = none) (hv : (s.windows x).vchild = none) :
    set_width_hloop E (f + 2) s (some x) v old left lastright lastoright =
      set_width_hloop E (f + 1)
        (width_touched (left_set s x lastright) x
          (scale_pos (lastoright + (s.windows x).width) v old + left - lastright))
        (s.windows x).next v old left
        (scale_pos (lastoright + (s.windows x).width) v old + left)
        (lastoright + (s.windows x).width) := by
  rw [set_width_hloop_succ, if_neg (by simp only [shl1]; omega),
    set_window_width_leaf E f _ x _ true (by rw [left_set_windows, if_pos rfl]; exact hh)
      (by rw [left_set_windows, if_pos rfl]; exact hv) (by simp),
    Res.andThen_ok]
  simp only [width_touched_windows, left_set_windows, if_true]

/-- One pass of the second loop of `set_window_width` over a leaf child that
is wide enough. -/
theorem set_width_dloop_leaf (E : Ext) (f : Nat) (s : State) (x : Win)
    (hh : (s.windows x).hchild = none) (hv : (s.windows x).vchild = none)
    (hmin : s.window_min_width ≤ (s.windows x).width) :
    set_width_dloop E (f + 2) s (some x) =
      set_width_dloop E (f + 1) (width_touched s x (s.windows x).width) (s.windows x).next := by
  rw [set_width_dloop_succ, set_window_width_leaf E f s x _ false hh hv (fun _ => hmin),
    Res.andThen_ok]
  simp only [width_touched_windows, if_true]

/-- C30: scenario 4.  Let `P` be a horizontal combination of width 80 whose
children are the three leaves `a`, `b`, `d` of widths 20, 20 and 40, and let
`window_min_width` be 10.  Then `set_window_width (P, 160, 0)` returns (with 5
units of fuel or more); `P` has the width 160, the children have the widths
40, 40 and 80, which sum to 160, and the lefts `left (P)`, `left (P)` + 40 and
`left (P)` + 80; and no child is deleted: apart from `left`, `width` and
`last_modified` every window is as before, links and buffer included. -/
theorem set_window_width_scenario (E : Ext) (fuel : Nat) (s : State) (P a b d : Win)
    (hnd : [P, a, b, d].Nodup)
    (hP : (s.windows P).vchild = none ∧ (s.windows P).hchild = some a
      ∧ (s.windows P).width = 80)
    (ha : (s.windows a).hchild = none ∧ (s.windows a).vchild = none
      ∧ (s.windows a).next = some b ∧ (s.windows a).width = 20)
    (hb : (s.windows b).hchild = none ∧ (s.windows b).vchild = none
      ∧ (s.windows b).next = some d ∧ (s.windows b).width = 20)
    (hd : (s.windows d).hchild = none ∧ (s.windows d).vchild = none
      ∧ (s.windows d).next = none ∧ (s.windows d).width = 40)
    (hmin : s.window_min_width = 10) (hfuel : 5 ≤ fuel) :
    ∃ s', set_window_width E fuel s P 160 false = Res.ok () s'
      ∧ (s'.windows P).width = 160
      ∧ ((s'.windows a).width = 40 ∧ (s'.windows b).width = 40 ∧ (s'.windows d).width = 80)
      ∧ (s'.windows a).width + (s'.windows b).width + (s'.windows d).width = 160
      ∧ ((s'.windows a).left = (s.windows P).left
        ∧ (s'.windows b).left = (s.windows P).left + 40
        ∧ (s'.windows d).left = (s.windows P).left + 80)
      ∧ ∀ z, (s'.windows z).xless = (s.windows z).xless := by
  obtain ⟨n, rfl⟩ : ∃ n, fuel = n + 5 := ⟨fuel - 5, by omega⟩
  simp only [List.nodup_cons, List.mem_cons, List.mem_singleton, not_or, List.not_mem_nil,
    not_false_eq_true, List.nodup_nil, and_true] at hnd
  obtain ⟨⟨hPa, hPb, hPd⟩, ⟨hab, had⟩, hbd⟩ := hnd
  have haP := Ne.symm hPa
  have hbP := Ne.symm hPb
  have hdP := Ne.symm hPd
  have hba := Ne.symm hab
  have hda := Ne.symm had
  have hdb := Ne.symm hbd
  obtain ⟨hP1, hP2, hP3⟩ := hP
  obtain ⟨ha1, ha2, ha3, ha4⟩ := ha
  obtain ⟨hb1, hb2, hb3, hb4⟩ := hb
  obtain ⟨hd1, hd2, hd3, hd4⟩ := hd
  have e1 : scale_pos 20 160 80 = 40 := by decide
  have e2 : scale_pos 40 160 80 = 80 := by decide
  have e3 : scale_pos 80 160 80 = 160 := by decide
  rw [set_window_width_comb E (n + 4) s P a 160 hP1 hP2 (by omega), hP3]
  rw [set_width_hloop_leaf E (n + 2) _ a _ _ _ _ _ (by decide)
    (by simp only [width_touched_windows, if_neg haP]; exact ha1)
    (by simp only [width_touched_windows, if_neg haP]; exact ha2)]
  simp only [width_touched_windows, if_neg haP, ha3, ha4, zero_add, e1]
  rw [set_width_hloop_leaf E (n + 1) _ b _ _ _ _ _ (by decide)
    (by simp only [width_touched_windows, left_set_windows, if_neg hba, if_neg hbP]; exact hb1)
    (by simp only [width_touched_windows, left_set_windows, if_neg hba, if_neg hbP]; exact hb2)]
  simp only [width_touched_windows, left_set_windows, if_neg hba, if_neg hbP, hb3, hb4,
    show (20 : Int) + 20 = 40 by decide, e2]
  rw [set_width_hloop_leaf E n _ d _ _ _ _ _ (by decide)
    (by simp only [width_touched_windows, left_set_windows, if_neg hda, if_neg hdb, if_neg hdP]
        exact hd1)
    (by simp only [width_touched_windows, left_set_windows, if_neg hda, if_neg hdb, if_neg hdP]
        exact hd2)]
  simp only [width_touched_windows, left_set_windows, if_neg hda, if_neg hdb, if_neg hdP, hd3,
    hd4, show (40 : Int) + 40 = 80 by decide, e3, set_width_hloop_none, Res.andThen_ok,
    if_neg hPa, if_neg hPb, if_neg hPd, if_true, hP2]
  have hL1 : (40 : Int) + (s.windows P).left - (s.windows P).left = 40 := by omega
  have hL2 : (80 : Int) + (s.windows P).left - (40 + (s.windows P).left) = 40 := by omega
  have hL3 : (160 : Int) + (s.windows P).left - (80 + (s.windows P).left) = 80 := by omega
  rw [hL1, hL2, hL3]
  rw [set_width_dloop_leaf E (n + 2) _ a
    (by simp only [width_touched_windows, left_set_windows, if_neg haP, if_neg hbP, if_neg hdP, if_neg hab,
      if_neg had, if_neg hba, if_neg hbd, if_neg hda, if_neg hdb, if_neg hPa, if_neg hPb, if_neg hPd,
      if_true]
        exact ha1)
    (by simp only [width_touched_windows, left_set_windows, if_neg haP, if_neg hbP, if_neg hdP, if_neg hab,
      if_neg had, if_neg hba, if_neg hbd, if_neg hda, if_neg hdb, if_neg hPa, if_neg hPb, if_neg hPd,
      if_true]
        exact ha2)
    (by simp only [width_touched_windows, left_set_windows, if_neg haP, if_neg hbP, if_neg hdP, if_neg hab,
      if_neg had, if_neg hba, if_neg hbd, if_neg hda, if_neg hdb, if_neg hPa, if_neg hPb, if_neg hPd,
      if_true, width_touched_min, left_set_min, hmin]
        decide)]
  simp only [width_touched_windows, left_set_windows, if_neg haP, if_neg hbP, if_neg hdP, if_neg hab,
      if_neg had, if_neg hba, if_neg hbd, if_neg hda, if_neg hdb, if_neg hPa, if_neg hPb, if_neg hPd,
      if_true, ha3]
  rw [set_width_dloop_leaf E (n + 1) _ b
    (by simp only [width_touched_windows, left_set_windows, if_neg haP, if_neg hbP, if_neg hdP, if_neg hab,
      if_neg had, if_neg hba, if_neg hbd, if_neg hda, if_neg hdb, if_neg hPa, if_neg hPb, if_neg hPd,
      if_true]
        exact hb1)
    (by simp only [width_touched_windows, left_set_windows, if_neg haP, if_neg hbP, if_neg hdP, if_neg hab,
      if_neg had, if_neg hba, if_neg hbd, if_neg hda, if_neg hdb, if_neg hPa, if_neg hPb, if_neg hPd,
      if_true]
        exact hb2)
    (by simp only [width_touched_windows, left_set_windows, if_neg haP, if_neg hbP, if_neg hdP, if_neg hab,
      if_neg had, if_neg hba, if_neg hbd, if_neg hda, if_neg hdb, if_neg hPa, if_neg hPb, if_neg hPd,
      if_true, width_touched_min, left_set_min, hmin]
        decide)]
  simp only [width_touched_windows, left_set_windows, if_neg haP, if_neg hbP, if_neg hdP, if_neg hab,
      if_neg had, if_neg hba, if_neg hbd, if_neg hda, if_neg hdb, if_neg hPa, if_neg hPb, if_neg hPd,
      if_true, hb3]
  rw [set_width_dloop_leaf E n _ d
    (by simp only [width_touched_windows, left_set_windows, if_neg haP, if_neg hbP, if_neg hdP, if_neg hab,
      if_neg had, if_neg hba, if_neg hbd, if_neg hda, if_neg hdb, if_neg hPa, if_neg hPb, if_neg hPd,
      if_true]
        exact hd1)
    (by simp only [width_touched_windows, left_set_windows, if_neg haP, if_neg hbP, if_neg hdP, if_neg hab,
      if_neg had, if_neg hba, if_neg hbd, if_neg hda, if_neg hdb, if_neg hPa, if_neg hPb, if_neg hPd,
      if_true]
        exact hd2)
    (by simp only [width_touched_windows, left_set_windows, if_neg haP, if_neg hbP, if_neg hdP, if_neg hab,
      if_neg had, if_neg hba, if_neg hbd, if_neg hda, if_neg hdb, if_neg hPa, if_neg hPb, if_neg hPd,
      if_true, width_touched_min, left_set_min, hmin]
        decide)]
  simp only [width_touched_windows, left_set_windows, if_neg haP, if_neg hbP, if_neg hdP, if_neg hab,
      if_neg had, if_neg hba, if_neg hbd, if_neg hda, if_neg hdb, if_neg hPa, if_neg hPb, if_neg hPd,
      if_true, hd3, set_width_dloop_none]
  refine ⟨_, rfl, ?_, ⟨?_, ?_, ?_⟩, ?_, ⟨?_, ?_, ?_⟩, ?_⟩
  · simp only [width_touched_windows, left_set_windows, if_neg haP, if_neg hbP, if_neg hdP, if_neg hab,
      if_neg had, if_neg hba, if_neg hbd, if_neg hda, if_neg hdb, if_neg hPa, if_neg hPb, if_neg hPd,
      if_true]
  · simp only [width_touched_windows, left_set_windows, if_neg haP, if_neg hbP, if_neg hdP, if_neg hab,
      if_neg had, if_neg hba, if_neg hbd, if_neg hda, if_neg hdb, if_neg hPa, if_neg hPb, if_neg hPd,
      if_true]
  · simp only [width_touched_windows, left_set_windows, if_neg haP, if_neg hbP, if_neg hdP, if_neg hab,
      if_neg had, if_neg hba, if_neg hbd, if_neg hda, if_neg hdb, if_neg hPa, if_neg hPb, if_neg hPd,
      if_true]
  · simp only [width_touched_windows, left_set_windows, if_neg haP, if_neg hbP, if_neg hdP, if_neg hab,
      if_neg had, if_neg hba, if_neg hbd, if_neg hda, if_neg hdb, if_neg hPa, if_neg hPb, if_neg hPd,
      if_true]
  · simp only [width_touched_windows, left_set_windows, if_neg haP, if_neg hbP, if_neg hdP, if_neg hab,
      if_neg had, if_neg hba, if_neg hbd, if_neg hda, if_neg hdb, if_neg hPa, if_neg hPb, if_neg hPd,
      if_true]
    decide
  · simp only [width_touched_windows, left_set_windows, if_neg haP, if_neg hbP, if_neg hdP, if_neg hab,
      if_neg had, if_neg hba, if_neg hbd, if_neg hda, if_neg hdb, if_neg hPa, if_neg hPb, if_neg hPd,
      if_true]
  · simp only [width_touched_windows, left_set_windows, if_neg haP, if_neg hbP, if_neg hdP, if_neg hab,
      if_neg had, if_neg hba, if_neg hbd, if_neg hda, if_neg hdb, if_neg hPa, if_neg hPb, if_neg hPd,
      if_true]
    omega
  · simp only [width_touched_windows, left_set_windows, if_neg haP, if_neg hbP, if_neg hdP, if_neg hab,
      if_neg had, if_neg hba, if_neg hbd, if_neg hda, if_neg hdb, if_neg hPa, if_neg hPb, if_neg hPd,
      if_true]
    omega
  · intro z
    simp only [width_touched, left_set, touch_width_xless, set_left_xless]

/-- Witness of `set_window_width_scenario`: the horizontal combination 2 of
`state3h`, with the leaves 0, 3 and 4. -/
theorem set_window_width_scenario_witness :
    ∃ s', set_window_width ext1 5 state3h 2 160 false = Res.ok () s'
      ∧ (s'.windows 2).width = 160
      ∧ ((s'.windows 0).width = 40 ∧ (s'.windows 3).width = 40 ∧ (s'.windows 4).width = 80)
      ∧ (s'.windows 0).width + (s'.windows 3).width + (s'.windows 4).width = 160
      ∧ ((s'.windows 0).left = (state3h.windows 2).left
        ∧ (s'.windows 3).left = (state3h.windows 2).left + 40
        ∧ (s'.windows 4).left = (state3h.windows 2).left + 80)
      ∧ ∀ z, (s'.windows z).xless = (state3h.windows z).xless :=
  set_window_width_scenario ext1 5 state3h 2 0 3 4 (by decide) (by decide) (by decide)
    (by decide) (by decide) (by decide) (by decide)

/-- Scaling up moves two positions apart at least as far as they were. -/
theorem scale_pos_grow (a d v old : Int) (ha : 0 ≤ a) (hd : 0 ≤ d) (h : 0 < old)
    (hv : old ≤ v) (hab : a + d ≤ 32767) (hvb : v ≤ 32767) :
    d ≤ scale_pos (a + d) v old - scale_pos a v old := by
  rw [scale_pos_eq (a + d) v old (by omega) (by omega) h hab hvb (by omega),
    scale_pos_eq a v old ha (by omega) h (by omega) hvb (by omega)]
  have h1 : 0 ≤ a * v := Int.mul_nonneg ha (by omega)
  have h2 : d * old ≤ d * v := Int.mul_le_mul_of_nonneg_left hv hd
  have h3 : (2 * (a * v) + old) / (2 * old) + d
      = (2 * (a * v) + old + d * (2 * old)) / (2 * old) := by
    rw [Int.add_mul_ediv_right _ _ (by omega)]
  have h4 : (2 * (a * v) + old + d * (2 * old)) / (2 * old)
      ≤ (2 * ((a + d) * v) + old) / (2 * old) := by
    apply Int.ediv_le_ediv (by omega)
    nlinarith
  omega

/-- Scaling a position from the size `h` up to a size `h'` and back gives
the position again. -/
theorem scale_pos_round_trip (B h h' : Int) (hB : 0 ≤ B) (hh : 0 < h) (hle : h ≤ h')
    (hBh : B ≤ h) (hb : h' ≤ 32767) :
    scale_pos (scale_pos B h' h) h h' = B := by
  have hq0 := scale_pos_nonneg B h' h hB (by omega) hh (by omega) hb (by omega)
  have hq1 : scale_pos B h' h ≤ h' := by
    have := scale_pos_mono B h h' h (by omega) hh hB hBh (by omega) hb (by omega)
    rw [scale_pos_full h' h (by omega) hh hb (by omega)] at this
    exact this
  rw [scale_pos_eq _ h h' hq0 (by omega) (by omega) (by omega) (by omega) hb]
  have hq : scale_pos B h' h = (2 * (B * h') + h) / (2 * h) :=
    scale_pos_eq B h' h hB (by omega) hh (by omega) hb (by omega)
  generalize scale_pos B h' h = q at hq hq0 hq1
  have h1 : 0 ≤ B * h' := Int.mul_nonneg hB (by omega)
  have l1 : (2 * h) * q ≤ 2 * (B * h') + h := by
    rw [hq]; exact Int.mul_ediv_self_le (by omega)
  have l2 : 2 * (B * h') + h < (2 * h) * q + 2 * h := by
    rw [hq]; exact Int.lt_mul_ediv_self_add (by omega)
  rcases (lt_or_eq_of_le hle) with hlt | heq
  · have u1 : (2 * h') * B ≤ 2 * (q * h) + h' := by nlinarith
    have u2 : 2 * (q * h) + h' < (2 * h') * B + 2 * h' := by nlinarith
    apply Int.le_antisymm
    · have := Int.ediv_lt_of_lt_mul (a := 2 * (q * h) + h') (b := B + 1) (c := 2 * h')
        (by omega) (by nlinarith)
      omega
    · exact Int.le_ediv_of_mul_le (by omega) (by nlinarith)
  · subst heq
    have hqB : q = B := by
      apply Int.le_antisymm
      · have : (2 * h) * q < (2 * h) * (B + 1) := by nlinarith
        have := Int.lt_of_mul_lt_mul_left this (by omega)
        omega
      · have : (2 * h) * B < (2 * h) * (q + 1) := by nlinarith
        have := Int.lt_of_mul_lt_mul_left this (by omega)
        omega
    subst hqB
    apply Int.le_antisymm
    · have := Int.ediv_lt_of_lt_mul (a := 2 * (q * h) + h) (b := q + 1) (c := 2 * h)
        (by omega) (by nlinarith)
      omega
    · exact Int.le_ediv_of_mul_le (by omega) (by nlinarith)

/-- The children of a horizontal combination that they tile have its height. -/
theorem hcomb_tops_height (h : Win → Window) (P : Win) : ∀ (t : Shape) (V : Option Win),
    (∀ i ∈ t.infos (some (Kind.hcomb, P)) V, TileY h i) →
    ∀ c ∈ t.tops, (h c).height = (h P).height := by
  intro t
  induction t with
  | nil => intro V _ c hc; simp [Shape.tops] at hc
  | node y ky chy rest _ ihr =>
    intro V ht c hc
    simp only [Shape.tops, List.mem_cons] at hc
    rcases hc with rfl | hc
    · have hy := ht ⟨c, ky, some (Kind.hcomb, P), V, rest.head, chy.head⟩
        (by simp [Shape.infos])
      simp only [TileY] at hy
      exact hy.2
    · exact ihr (some y) (fun i hi => ht i (by simp [Shape.infos, hi])) c hc

theorem resize_node_y_grows (h h' : Win → Window) (x : Win) (k : Kind) (ch : Shape) (v : Int)
    (ih : GrowsY ch)
    (e : resize_node_y h x k ch v = some h') (hnd : (x :: ch.handles).Nodup)
    (hnn : ∀ z ∈ ch.handles, 0 ≤ (h z).height)
    (hin : ∀ i ∈ ch.inner, TileY h i)
    (hh : k = Kind.hcomb → ∀ c ∈ ch.tops, (h c).height ≤ v)
    (hv : k = Kind.vcomb → 0 ≤ (h x).height ∧ (h x).height ≤ v)
    (hvb : v ≤ 32767) (hsum : k = Kind.vcomb → sum_height h ch.tops ≤ (h x).height) :
    ∀ z ∈ ch.handles, (h z).height ≤ (h' z).height := by
  have hx : x ∉ ch.handles := (List.nodup_cons.1 hnd).1
  have hag : ∀ z ∈ ch.handles, touch_height h x v z = h z := fun z hz =>
    touch_height_other h x v z (fun e => hx (e ▸ hz))
  have hin3 : ∀ i ∈ ch.inner, TileY (touch_height h x v) i := fun i hi =>
    tileY_transport_inner ch h _ hag i hi (hin i hi)
  have hnn3 : ∀ z ∈ ch.handles, 0 ≤ (touch_height h x v z).height := fun z hz => by
    rw [hag z hz]; exact hnn z hz
  by_cases hnil : ch = Shape.nil
  · subst hnil
    simp [Shape.handles]
  intro z hz
  rw [← hag z hz]
  revert z
  unfold resize_node_y at e
  cases k with
  | leaf =>
    simp only [Option.some.injEq] at e
    subst e
    intro z _
    exact le_refl _
  | hcomb =>
    exact ih false x v 0 0 0 0 _ h' e hnd hnn3 hin3
      (fun _ c hc => by rw [hag c (tops_sub_handles ch c hc)]; exact hh rfl c hc) (by simp)
      hvb (by simp)
  | vcomb =>
    simp only at e
    obtain ⟨h0, hle⟩ := hv rfl
    have hold : (h x).height ≠ 0 := by
      intro h0
      obtain ⟨y, ky, chy, rest, rfl⟩ : ∃ y ky chy rest, ch = Shape.node y ky chy rest := by
        cases ch with
        | nil => exact absurd rfl hnil
        | node y ky chy rest => exact ⟨y, ky, chy, rest, rfl⟩
      rw [resize_y_node] at e
      simp [h0, shl1] at e
    have hpos : 0 < (h x).height := by omega
    refine ih true x v (h x).height _ _ 0 _ h' e hnd hnn3 hin3 (by simp) ?_ hvb ?_
    · intro _
      refine ⟨hpos, hle, le_refl 0, ?_⟩
      rw [scale_pos_zero _ _ hpos (by omega)]; simp
    · intro _
      rw [sum_height_congr h _ _ (fun z hz => hag z (tops_sub_handles ch z hz))]
      have := hsum rfl
      omega

theorem resize_y_grows : ∀ t : Shape, GrowsY t := by
  intro t
  induction t with
  | nil =>
    intro vert P v old top lastbot lastobot h h' e _ _ _ _ _ _ _ z hz
    simp [Shape.handles] at hz
  | node y ky chy rest ihc ihr =>
    intro vert P v old top lastbot lastobot h h' e hnd hnn hin hfalse hvert hvb hbd
    rw [resize_y_node] at e
    split at e
    · exact absurd e (by simp)
    split at e
    · exact absurd e (by simp)
    next hz0 _ h2 e2 =>
    simp only [Shape.handles, List.nodup_cons, List.mem_cons, List.mem_append,
      List.nodup_append, not_or] at hnd
    obtain ⟨⟨hPy, hPc, hPr⟩, ⟨hyc, hyr⟩, hndc, hndr, hdisj⟩ := hnd
    generalize hX : (if vert = true then lastbot else (h P).top) = X at e2
    generalize hvy : (if vert = true then
      scale_pos (lastobot + (h y).height) v old + top - lastbot else v) = vy at e2
    obtain ⟨f1, f2⟩ := resize_node_y_frame _ _ _ _ _ _ e2
    have f3 := resize_y_frame _ _ _ _ _ _ _ _ _ _ e
    have g1 : ∀ z, z ≠ y → z ∉ chy.handles → h2 z = h z := fun z hz hzc => by
      rw [f1 z hz hzc, set_top_other _ _ _ _ hz]
    have g2h : (h2 y).height = vy := by rw [f2 hyc]
    have hy0 : 0 ≤ (h y).height := hnn y (by simp [Shape.handles])
    have hsr0 : 0 ≤ sum_height h rest.tops :=
      sum_height_nonneg h rest.tops
        (fun z hz => hnn z (by simp [Shape.handles, tops_sub_handles rest z hz]))
    have hst : sum_height h (Shape.node y ky chy rest).tops
        = (h y).height + sum_height h rest.tops := by
      simp [Shape.tops, sum_height]
    have hyv : (h y).height ≤ vy ∧ vy ≤ 32767 := by
      subst hvy
      split
      · next hvt =>
        obtain ⟨ho, hov, hlo, hlb⟩ := hvert hvt
        have hsb := hbd hvt
        rw [hst] at hsb
        have := scale_pos_grow lastobot (h y).height v old hlo hy0 ho hov (by omega) hvb
        have m2 := scale_pos_mono (lastobot + (h y).height) old v old (by omega) ho (by omega)
          (by omega) (by omega) hvb (by omega)
        rw [scale_pos_full v old (by omega) ho hvb (by omega)] at m2
        have m3 := scale_pos_nonneg lastobot v old hlo (by omega) ho (by omega) hvb (by omega)
        omega
      · next hvt => exact ⟨hfalse (by simpa using hvt) y (by simp [Shape.tops]), hvb⟩
    obtain ⟨hyv, hvyB⟩ := hyv
    have hagc : ∀ z ∈ chy.handles, set_top h y X z = h z := fun z hz =>
      set_top_other h y X z (fun e => hyc (e ▸ hz))
    have hsy : (set_top h y X y).height = (h y).height := by simp [set_top]
    have hnest := resize_node_y_grows (set_top h y X) h2 y ky chy vy ihc e2
      (List.nodup_cons.2 ⟨hyc, hndc⟩)
      (fun z hz => by rw [hagc z hz]; exact hnn z (by simp [Shape.handles, hz]))
      (fun i hi => tileY_transport_inner chy h _ hagc i hi
        (hin i (by simp [Shape.inner, inner_sub chy _ _ i hi])))
      (by
        intro hk c hc
        subst hk
        rw [hagc c (tops_sub_handles chy c hc),
          hcomb_tops_height h y chy none (fun i hi => hin i (by simp [Shape.inner, hi])) c hc]
        exact hyv)
      (fun _ => by rw [hsy]; exact ⟨hy0, hyv⟩)
      hvyB
      (by
        intro hk
        subst hk
        by_cases hne : chy = Shape.nil
        · subst hne
          simp only [Shape.tops, sum_height, List.map_nil, List.sum_nil]
          rw [hsy]; exact hy0
        have := sum_height_of_tile h y chy none
          (fun i hi => hin i (by simp [Shape.inner, hi])) hne
        simp only [start_y] at this
        rw [sum_height_congr h _ _ (fun z hz => hagc z (tops_sub_handles chy z hz)), hsy]
        omega)
    have hagr : ∀ z ∈ rest.handles, h2 z = h z := fun z hz =>
      g1 z (fun e => hyr (e ▸ hz)) (fun hzc => hdisj hzc hz)
    have hrest := ihr vert P v old top _ _ h2 h' e
      (List.nodup_cons.2 ⟨hPr, hndr⟩)
      (fun z hz => by rw [hagr z hz]; exact hnn z (by simp [Shape.handles, hz]))
      (fun i hi => tileY_transport_inner rest h _ hagr i hi (hin i (by simp [Shape.inner, hi])))
      (fun hvt c hc => by
        rw [hagr c (tops_sub_handles rest c hc)]
        exact hfalse hvt c (by simp [Shape.tops, hc]))
      (by
        intro hvt
        obtain ⟨ho, hov, hlo, hlb⟩ := hvert hvt
        simp only [hvt, if_true]
        exact ⟨ho, hov, by omega, by omega⟩)
      hvb
      (by
        intro hvt
        have hsb := hbd hvt
        rw [hst] at hsb
        simp only [hvt, if_true]
        rw [sum_height_congr h _ _ (fun z hz => hagr z (tops_sub_handles rest z hz))]
        omega)
    intro z hz
    simp only [Shape.handles, List.mem_cons, List.mem_append] at hz
    rcases hz with rfl | hz | hz
    · rw [f3 z hyr, g2h]; exact hyv
    · rw [f3 z (fun hr => hdisj hz hr), ← hagc z hz]
      exact hnest z hz
    · rw [← hagr z hz]
      exact hrest z hz

theorem sum_height_nil (h : Win → Window) : sum_height h [] = 0 := rfl

/-- The top and the height that `resize_y` gives to a child of a vertical
combination: the scaled positions of its old top and bottom. -/
theorem resize_y_child : ∀ (t : Shape) (P : Win) (v old top lastbot lastobot : Int)
    (h h' : Win → Window),
    resize_y true P v old top lastbot lastobot h t = some h' → t.handles.Nodup →
    lastbot = top + scale_pos lastobot v old →
    ∀ (pre : List Win) (y : Win) (post : List Win), t.tops = pre ++ y :: post →
      (h' y).top = top + scale_pos (lastobot + sum_height h pre) v old
      ∧ (h' y).height = scale_pos (lastobot + sum_height h pre + (h y).height) v old
          - scale_pos (lastobot + sum_height h pre) v old := by
  intro t
  induction t with
  | nil =>
    intro P v old top lastbot lastobot h h' _ _ _ pre y post ht
    simp [Shape.tops] at ht
  | node y0 ky chy rest _ ihr =>
    intro P v old top lastbot lastobot h h' e hnd hlb pre y post ht
    rw [resize_y_node] at e
    split at e
    · exact absurd e (by simp)
    split at e
    · exact absurd e (by simp)
    next _ _ h2 e2 =>
    simp only [if_true] at e e2
    simp only [Shape.handles, List.nodup_cons, List.mem_append, List.nodup_append,
      not_or] at hnd
    obtain ⟨⟨hyc, hyr⟩, hndc, hndr, hdisj⟩ := hnd
    obtain ⟨f1, f2⟩ := resize_node_y_frame _ _ _ _ _ _ e2
    have f3 := resize_y_frame _ _ _ _ _ _ _ _ _ _ e
    have hagr : ∀ z ∈ rest.handles, h2 z = h z := fun z hz => by
      have hzy : z ≠ y0 := fun e => hyr (e ▸ hz)
      rw [f1 z hzy (fun hzc => hdisj hzc hz), set_top_other _ _ _ _ hzy]
    simp only [Shape.tops] at ht
    cases pre with
    | nil =>
      simp only [List.nil_append, List.cons.injEq] at ht
      obtain ⟨rfl, -⟩ := ht
      rw [f3 y0 hyr, f2 hyc]
      simp only [sum_height_nil, add_zero, set_top, if_true]
      exact ⟨hlb, by omega⟩
    | cons p pre' =>
      simp only [List.cons_append, List.cons.injEq] at ht
      obtain ⟨rfl, ht⟩ := ht
      have hmem : ∀ z ∈ pre', z ∈ rest.handles := fun z hz =>
        tops_sub_handles rest z (by rw [ht]; simp [hz])
      have hy : y ∈ rest.handles := tops_sub_handles rest y (by rw [ht]; simp)
      have := ihr P v old top _ _ h2 h' e hndr (by omega) pre' y post ht
      rw [sum_height_congr h _ _ (fun z hz => hagr z (hmem z hz)), hagr y hy] at this
      rw [sum_height_cons, ← add_assoc]
      exact this

/-- The new heights of the first children of a vertical combination add up
to the scaled sum of the old ones. -/
theorem resize_y_prefix (t : Shape) (P : Win) (v old top lastbot lastobot : Int)
    (h h' : Win → Window)
    (e : resize_y true P v old top lastbot lastobot h t = some h') (hnd : t.handles.Nodup)
    (hlb : lastbot = top + scale_pos lastobot v old) :
    ∀ (pre post : List Win), t.tops = pre ++ post →
      sum_height h' pre = scale_pos (lastobot + sum_height h pre) v old
        - scale_pos lastobot v old := by
  intro pre
  induction pre using List.reverseRecOn with
  | nil => intro post _; simp [sum_height_nil]
  | append_singleton q y ih =>
    intro post ht
    rw [List.append_assoc, List.singleton_append] at ht
    have hq := ih (y :: post) ht
    obtain ⟨-, hy⟩ := resize_y_child t P v old top lastbot lastobot h h' e hnd hlb q y post ht
    rw [sum_height_append, sum_height_append, sum_height_cons, sum_height_cons, sum_height_nil,
      sum_height_nil, hq, hy]
    simp only [add_zero]
    rw [← add_assoc]
    omega

/-- A child of a vertical combination that its children tile starts where
the children before it end. -/
theorem top_of_tile (h : Win → Window) (P : Win) : ∀ (t : Shape) (V : Option Win),
    (∀ i ∈ t.infos (some (Kind.vcomb, P)) V, TileY h i) →
    ∀ (pre : List Win) (y : Win) (post : List Win), t.tops = pre ++ y :: post →
      (h y).top = start_y h P V + sum_height h pre := by
  intro t
  induction t with
  | nil => intro V _ pre y post ht; simp [Shape.tops] at ht
  | node y0 ky chy rest _ ihr =>
    intro V hti pre y post ht
    have hy := hti ⟨y0, ky, some (Kind.vcomb, P), V, rest.head, chy.head⟩
      (by simp [Shape.infos])
    simp only [TileY] at hy
    have hs : (h y0).top = start_y h P V := by
      rw [hy.1]; cases V <;> rfl
    simp only [Shape.tops] at ht
    cases pre with
    | nil =>
      simp only [List.nil_append, List.cons.injEq] at ht
      obtain ⟨rfl, -⟩ := ht
      rw [hs, sum_height_nil, add_zero]
    | cons p pre' =>
      simp only [List.cons_append, List.cons.injEq] at ht
      obtain ⟨rfl, ht⟩ := ht
      have := ihr (some y0) (fun i hi => hti i (by simp [Shape.infos, hi])) pre' y post ht
      simp only [start_y] at this
      rw [this, sum_height_cons, ← hs]
      omega

/-- Resizing a vertical combination from its height to a height that is not
smaller, and at most 32767, and back, on the window store: every child has
its old height and top again. -/
theorem resize_node_y_round_trip (h h1 h2 : Win → Window) (x : Win) (ch : Shape) (v : Int)
    (e1 : resize_node_y h x Kind.vcomb ch v = some h1)
    (e2 : resize_node_y h1 x Kind.vcomb ch (h x).height = some h2)
    (hnd : (x :: ch.handles).Nodup)
    (hold : 1 ≤ (h x).height) (hv : (h x).height ≤ v)
    (hnn : ∀ z ∈ ch.handles, 0 ≤ (h z).height)
    (ht : ∀ i ∈ ch.infos (some (Kind.vcomb, x)) none, TileY h i)
    (hvb : v ≤ 32767) :
    ∀ (pre : List Win) (y : Win) (post : List Win), ch.tops = pre ++ y :: post →
      (h2 y).height = (h y).height ∧ (h2 y).top = (h y).top := by
  intro pre y post hto
  have hx : x ∉ ch.handles := (List.nodup_cons.1 hnd).1
  have hndc : ch.handles.Nodup := (List.nodup_cons.1 hnd).2
  obtain ⟨-, fx1⟩ := resize_node_y_frame _ _ _ _ _ _ e1
  have hx1 := fx1 hx
  have hmem : ∀ z ∈ pre, z ∈ ch.handles := fun z hz =>
    tops_sub_handles ch z (by rw [hto]; simp [hz])
  have hy : y ∈ ch.handles := tops_sub_handles ch y (by rw [hto]; simp)
  have hag : ∀ z ∈ ch.handles, touch_height h x v z = h z := fun z hz =>
    touch_height_other h x v z (fun e => hx (e ▸ hz))
  have hag1 : ∀ z ∈ ch.handles, touch_height h1 x (h x).height z = h1 z := fun z hz =>
    touch_height_other h1 x _ z (fun e => hx (e ▸ hz))
  have hpos : 0 < (h x).height := by omega
  have hposv : 0 < v := by omega
  unfold resize_node_y at e1 e2
  simp only at e1 e2
  have ht3 : (touch_height h x v x).top = (h x).top := by simp [touch_height]
  have ht31 : (touch_height h1 x (h x).height x).top = (h x).top := by
    simp [touch_height, hx1]
  have ho1 : (h1 x).height = v := by rw [hx1]
  rw [ht3] at e1
  rw [ht31, ho1] at e2
  obtain ⟨-, c1⟩ := resize_y_child ch x v _ _ _ 0 _ h1 e1 hndc
    (by rw [scale_pos_zero _ _ hpos (by omega)]; simp) pre y post hto
  have p1 := resize_y_prefix ch x v _ _ _ 0 _ h1 e1 hndc
    (by rw [scale_pos_zero _ _ hpos (by omega)]; simp) pre (y :: post) hto
  obtain ⟨c2t, c2h⟩ := resize_y_child ch x (h x).height v _ _ 0 _ h2 e2 hndc
    (by rw [scale_pos_zero _ _ hposv hvb]; simp) pre y post hto
  rw [sum_height_congr h _ _ (fun z hz => hag z (hmem z hz)), hag y hy, zero_add] at c1
  rw [sum_height_congr h _ _ (fun z hz => hag z (hmem z hz)),
    scale_pos_zero _ _ hpos (by omega), zero_add, sub_zero] at p1
  rw [sum_height_congr h1 _ _ (fun z hz => hag1 z (hmem z hz)), zero_add, p1] at c2t c2h
  rw [hag1 y hy, c1] at c2h
  have hS : 0 ≤ sum_height h pre := sum_height_nonneg h pre (fun z hz => hnn z (hmem z hz))
  have hy0 : 0 ≤ (h y).height := hnn y hy
  have hSp : 0 ≤ sum_height h post := sum_height_nonneg h post (fun z hz =>
    hnn z (tops_sub_handles ch z (by rw [hto]; simp [hz])))
  have htot := sum_height_of_tile h x ch none ht (by
    intro e
    rw [e] at hto
    simp [Shape.tops] at hto)
  simp only [start_y] at htot
  rw [hto, sum_height_append, sum_height_cons] at htot
  have r1 := scale_pos_round_trip (sum_height h pre) (h x).height v hS hpos hv (by omega) hvb
  have r2 := scale_pos_round_trip (sum_height h pre + (h y).height) (h x).height v
    (by omega) hpos hv (by omega) hvb
  have e3 : scale_pos (sum_height h pre) v (h x).height
      + (scale_pos (sum_height h pre + (h y).height) v (h x).height
        - scale_pos (sum_height h pre) v (h x).height)
      = scale_pos (sum_height h pre + (h y).height) v (h x).height := by omega
  rw [e3, r1, r2] at c2h
  rw [r1] at c2t
  have := top_of_tile h x ch none ht pre y post hto
  simp only [start_y] at this
  exact ⟨by omega, by omega⟩

/-- C29, amended: proportional resizing of a vertical combination to a
height that is not smaller, and back.  Let `x` be a vertical combination of a
well-formed tree, of height `h` at least 1, let the windows below `x` have
non-negative heights and tile it along the vertical axis (so that the heights
of the children of `x` add up to `h`), and let no vertical combination below
`x` have the height 0.  For every `v` with `h ≤ v` and `v ≤ 32767` (up to
which no position is computed with an overflow of an `int`),
`set_window_height (x, v, 1)` followed by `set_window_height (x, h, 1)`
returns, with `1 + ch.bound` units of fuel each, and `x` and every child of
`x` have their first height and top again. -/
theorem set_window_height_round_trip (E : Ext) (scr : Scr) (fuel : Nat) (s : State) (c : Ctx)
    (x : Win) (ch rest : Shape) (v : Int)
    (hrep : Rep s scr (plug c (Shape.node x Kind.vcomb ch rest)))
    (hold : 1 ≤ (s.windows x).height) (hv : (s.windows x).height ≤ v)
    (hnn : ∀ z ∈ ch.handles, 0 ≤ (s.windows z).height)
    (ht : ∀ i ∈ ch.infos (some (Kind.vcomb, x)) none, TileY s.windows i)
    (hnz : ∀ z ∈ ch.vcombs, (s.windows z).height ≠ 0)
    (hfuel : 1 + ch.bound ≤ fuel) (hvb : v ≤ 32767) :
    ∃ s1 s2, set_window_height E fuel s x v true = Res.ok () s1
      ∧ set_window_height E fuel s1 x (s.windows x).height true = Res.ok () s2
      ∧ (s2.windows x).height = (s.windows x).height ∧ (s2.windows x).top = (s.windows x).top
      ∧ ∀ y ∈ ch.tops, (s2.windows y).height = (s.windows y).height
          ∧ (s2.windows y).top = (s.windows y).top := by
  have hnd := rep_nodup_node s scr c x Kind.vcomb ch rest hrep
  have hx : x ∉ ch.handles := (List.nodup_cons.1 hnd).1
  have hxm : x ∈ (plug c (Shape.node x Kind.vcomb ch rest)).handles := by
    exact (handles_plug c _).mem_iff.2 (by simp [Shape.handles])
  -- the first call
  have hsome1 : ∀ h : Win → Window, (h x).height ≠ 0 →
      (∀ z ∈ ch.vcombs, (h z).height ≠ 0) → ∀ w,
      ¬ resize_node_y h x Kind.vcomb ch w = none := by
    intro h h0 hz w e
    obtain ⟨h', e'⟩ := resize_node_y_some h x Kind.vcomb ch w hnd (fun z hz' => by
      simp only [Shape.vcombs, if_true, List.singleton_append, List.mem_cons, List.mem_append,
        List.not_mem_nil, or_false] at hz'
      rcases hz' with rfl | hz'
      · exact h0
      · exact hz z hz')
    rw [e] at e'
    exact absurd e' (by simp)
  obtain ⟨_, s1, r1, e1, -⟩ := (Res.holds_iff _ _).1
    ((set_window_height_out E scr fuel s c x Kind.vcomb ch rest v hrep).to_holds
      (hsome1 s.windows (by omega) hnz v) (by omega))
  have hrep1 : Rep s1 scr (plug c (Shape.node x Kind.vcomb ch rest)) := by
    have := set_window_height_rep E scr fuel s _ x v hrep hxm
    rw [r1] at this
    exact this.1
  obtain ⟨-, fx1⟩ := resize_node_y_frame _ _ _ _ _ _ e1
  have hx1 := fx1 hx
  have hgrow := resize_node_y_grows s.windows s1.windows x Kind.vcomb ch v (resize_y_grows ch)
    e1 hnd hnn (fun i hi => ht i (inner_sub ch _ _ i hi)) (fun hk => absurd hk (by simp))
    (fun _ => ⟨by omega, hv⟩) hvb
    (fun _ => by
      by_cases hne : ch = Shape.nil
      · subst hne
        simp only [Shape.tops, sum_height, List.map_nil, List.sum_nil]
        omega
      have := sum_height_of_tile s.windows x ch none ht hne
      simp only [start_y] at this
      omega)
  -- the second call
  obtain ⟨_, s2, r2, e2, -⟩ := (Res.holds_iff _ _).1
    ((set_window_height_out E scr fuel s1 c x Kind.vcomb ch rest (s.windows x).height
      hrep1).to_holds
      (hsome1 s1.windows (by rw [hx1]; show v ≠ 0; omega) (fun z hz => by
        have h1 := hgrow z (vcombs_sub_handles ch z hz)
        have h2 := hnn z (vcombs_sub_handles ch z hz)
        have h3 := hnz z hz
        omega) _) (by omega))
  obtain ⟨-, fx2⟩ := resize_node_y_frame _ _ _ _ _ _ e2
  have hx2 := fx2 hx
  refine ⟨s1, s2, r1, r2, by rw [hx2], by rw [hx2, hx1], fun y hy => ?_⟩
  obtain ⟨pre, post, hto⟩ := List.append_of_mem hy
  exact resize_node_y_round_trip s.windows s1.windows s2.windows x ch v e1 e2 hnd hold hv hnn ht
    hvb pre y post hto

/-- Witness of `set_window_height_round_trip`: the root window 2 of
`state3v`, 23 lines high, with the leaves 0, 3 and 4 of 8, 8 and 7 lines, made
30 lines high and 23 lines high again. -/
theorem set_window_height_round_trip_witness :
    Rep state3v 0 (plug [] (Shape.node 2 Kind.vcomb chain034 chain1))
      ∧ ∃ s1 s2, set_window_height ext1 14 state3v 2 30 true = Res.ok () s1
        ∧ set_window_height ext1 14 s1 2 (state3v.windows 2).height true = Res.ok () s2
        ∧ (s2.windows 2).height = (state3v.windows 2).height
        ∧ (s2.windows 2).top = (state3v.windows 2).top
        ∧ ∀ y ∈ chain034.tops, (s2.windows y).height = (state3v.windows y).height
            ∧ (s2.windows y).top = (state3v.windows y).top :=
  ⟨by decide!,
    set_window_height_round_trip ext1 0 14 state3v [] 2 chain034 chain1 30 (by decide!)
      (by decide) (by decide) (by decide!) (by decide!) (by decide!) (by decide) (by decide)⟩

/-- Counterexample to the round trip through a smaller height: the root
window 2 of `state111` is a vertical combination, 3 lines high, of three
leaves of 1 line each that tile it.  `set_window_height (2, 1, 1)` followed by
`set_window_height (2, 3, 1)` leaves the leaves with 0, 3 and 0 lines. -/
theorem set_window_height_round_trip_shrinking :
    (WF state111 0 (plug [] (Shape.node 2 Kind.vcomb chain034 chain1))
      ∧ (state111.windows 2).height = 3
      ∧ sum_height state111.windows chain034.tops = 3
      ∧ ((state111.windows 0).height = 1 ∧ (state111.windows 3).height = 1
        ∧ (state111.windows 4).height = 1))
      ∧ ∃ s1 s2, set_window_height ext1 6 state111 2 1 true = Res.ok () s1
        ∧ set_window_height ext1 6 s1 2 3 true = Res.ok () s2
        ∧ ((s1.windows 0).height = 0 ∧ (s1.windows 3).height = 1 ∧ (s1.windows 4).height = 0)
        ∧ ((s2.windows 0).height = 0 ∧ (s2.windows 3).height = 3
          ∧ (s2.windows 4).height = 0) := by
  have h1 : (set_window_height ext1 6 state111 2 1 true).isOk = true := by decide!
  have h2 : (set_window_height ext1 6
      ((set_window_height ext1 6 state111 2 1 true).stateD state111) 2 3 true).isOk = true := by
    decide!
  exact ⟨by decide!, _, _, Res.eq_ok_of_isOk state111 h1, Res.eq_ok_of_isOk state111 h2,
    by decide!, by decide!⟩

theorem rep_parent_mem (s : State) (scr : Scr) (t : Shape) (hrep : Rep s scr t) (w p : Win)
    (hw : w ∈ t.handles) (hp : (s.windows w).parent = some p) : p ∈ t.handles := by
  obtain ⟨c, k, ch, rest, rfl⟩ := exists_plug_of_mem t w hw
  have := (rep_links_mem s scr c w k ch rest hrep).2.2.1 p hp
  exact (handles_plug c _).mem_iff.2 (List.mem_append_left _ this)

/-- On the windows of a screen the climbing loop of `next_screen_window` is
the one of `Fnext_window` within one screen. -/
theorem screen_climb_eq (E : Ext) (s : State) (scr : Scr) (mini : Mini) (t : Shape)
    (hrep : Rep s scr t) : ∀ (fuel : Nat) (w : Win), w ∈ t.handles →
    screen_climb s scr fuel w = next_climb E s mini false fuel w := by
  intro fuel
  induction fuel with
  | zero => intro w _; rfl
  | succ f ih =>
    intro w hw
    unfold screen_climb next_climb
    rcases hn : (s.windows w).next with _ | n
    · rcases hp : (s.windows w).parent with _ | p
      · simp only [rep_screen s scr t w hrep hw, Bool.false_eq_true, if_false]
      · exact ih p (rep_parent_mem s scr t hrep w p hw hp)
    · rfl

/-- One pass of the loop of `next_screen_window` from the leaf at position
`j` of the canonical order rotated by `i0` ends at the leaf at the next
position, cyclically. -/
theorem screen_pass_index (s : State) (scr : Scr) (t : Shape) (fuel : Nat)
    (hrep : Rep s scr t) (hf : t.handles.length < fuel) (i0 j : Nat) (w : Win)
    (hw : (t.leaves.rotate i0)[j]? = some w) :
    ∃ y l, screen_climb s scr fuel w = Walk.val y
      ∧ first_leaf s fuel y = Walk.val l
      ∧ (t.leaves.rotate i0)[(j + 1) % (t.leaves.rotate i0).length]? = some l := by
  have hj : j < t.leaves.length := by
    have := (List.getElem?_eq_some.1 hw).1
    simpa using this
  have hw' : t.leaves[(j + i0) % t.leaves.length]? = some w := by
    rw [List.getElem?_rotate hj] at hw
    exact hw
  obtain ⟨y, l, e1, e2, e3⟩ := next_pass_index ext1 s scr Mini.nil false t fuel hrep
    (fun _ => rfl) hf _ w hw'
  refine ⟨y, l, ?_, e2, ?_⟩
  · rw [screen_climb_eq ext1 s scr Mini.nil t hrep fuel w
      (leaves_sub_handles t w (List.getElem?_mem hw'))]
    exact e1
  · have hn : 0 < t.leaves.length := by omega
    rw [List.length_rotate, List.getElem?_rotate (Nat.mod_lt _ hn)]
    rw [← e3]
    congr 1
    rw [Nat.mod_add_mod, Nat.mod_add_mod]
    congr 1
    omega

theorem next_screen_window_loop_step (s : State) (scr : Scr) (mini : Mini)
    (fuel : Nat) (w y l : Win)
    (e1 : screen_climb s scr fuel w = Walk.val y)
    (e2 : first_leaf s fuel y = Walk.val l) :
    next_screen_window_loop s scr mini (fuel + 1) w =
      if mini_ok s mini l = true then Walk.val l
      else next_screen_window_loop s scr mini fuel l := by
  simp only [next_screen_window_loop, e1, e2, mini_ok]
  by_cases h : MINI_WINDOW_P (s.windows l) = true ∧ mini ≠ Mini.t
      ∧ (mini ≠ Mini.nil ∨ s.minibuf_level = 0)
  · rw [if_pos h, if_neg]
    simp only [Bool.not_eq_true', Bool.not_eq_false, Bool.and_eq_true, Bool.or_eq_true,
      decide_eq_true_eq]
    exact ⟨⟨h.1, h.2.1⟩, h.2.2⟩
  · rw [if_neg h, if_pos]
    simp only [Bool.not_eq_true', Bool.and_eq_false_iff, Bool.or_eq_false_iff,
      decide_eq_false_iff_not]
    simp only [not_and_or, not_or] at h
    rcases h with h | h | h
    · exact Or.inl (Or.inl (by simpa using h))
    · exact Or.inl (Or.inr h)
    · exact Or.inr h

theorem getElem?_append_cons (pre : List Win) (w : Win) (rest : List Win) :
    (pre ++ w :: rest)[pre.length]? = some w := by
  induction pre with
  | nil => simp
  | cons a pre ih => simpa using ih

theorem getElem?_append_cons_succ (pre : List Win) (w x : Win) (rest : List Win) :
    (pre ++ w :: x :: rest)[pre.length + 1]? = some x := by
  induction pre with
  | nil => simp
  | cons a pre ih => simpa using ih

/-- One pass of the loop of `next_screen_window`, on the rotated canonical
order written twice: the pass from the leaf at a position ends at the leaf at
the next position. -/
theorem screen_pass_double (s : State) (scr : Scr) (t : Shape) (fuel : Nat)
    (hrep : Rep s scr t) (hf : t.handles.length < fuel) (i0 j : Nat) (w : Win)
    (hw : (t.leaves.rotate i0 ++ t.leaves.rotate i0)[j]? = some w)
    (hj : j + 1 < (t.leaves.rotate i0 ++ t.leaves.rotate i0).length) :
    ∃ y l, screen_climb s scr fuel w = Walk.val y
      ∧ first_leaf s fuel y = Walk.val l
      ∧ (t.leaves.rotate i0 ++ t.leaves.rotate i0)[j + 1]? = some l := by
  generalize hR : t.leaves.rotate i0 = R at hw hj ⊢
  have key : ∀ j w, R[j]? = some w → ∃ y l, screen_climb s scr fuel w = Walk.val y
      ∧ first_leaf s fuel y = Walk.val l ∧ R[(j + 1) % R.length]? = some l := by
    intro j w h
    rw [← hR] at h ⊢
    exact screen_pass_index s scr t fuel hrep hf i0 j w h
  simp only [List.length_append] at hj
  by_cases h1 : j < R.length
  · rw [List.getElem?_append_left h1] at hw
    obtain ⟨y, l, e1, e2, e3⟩ := key j w hw
    refine ⟨y, l, e1, e2, ?_⟩
    by_cases h2 : j + 1 < R.length
    · rw [List.getElem?_append_left h2]
      rwa [Nat.mod_eq_of_lt h2] at e3
    · have h3 : j + 1 = R.length := by omega
      rw [h3, Nat.mod_self] at e3
      rw [h3, List.getElem?_append_right (le_refl _), Nat.sub_self]
      exact e3
  · rw [List.getElem?_append_right (by omega)] at hw
    obtain ⟨y, l, e1, e2, e3⟩ := key (j - R.length) w hw
    refine ⟨y, l, e1, e2, ?_⟩
    rw [List.getElem?_append_right (by omega)]
    have h4 : j - R.length + 1 < R.length := by omega
    rw [Nat.mod_eq_of_lt h4] at e3
    have h5 : j + 1 - R.length = j - R.length + 1 := by omega
    rw [h5]
    exact e3

/-- The loop of `next_screen_window` skips the leaves at which it does not
stop and returns the first leaf after them. -/
theorem next_screen_window_loop_skip (s : State) (scr : Scr) (mini : Mini) (t : Shape)
    (hrep : Rep s scr t) (i0 : Nat) (l : Win) (tail : List Win)
    (hl : mini_ok s mini l = true) :
    ∀ (mid pre : List Win) (w : Win) (fuel : Nat),
      t.leaves.rotate i0 ++ t.leaves.rotate i0 = pre ++ w :: (mid ++ l :: tail) →
      (∀ m ∈ mid, mini_ok s mini m = false) →
      t.handles.length + mid.length + 1 < fuel →
      next_screen_window_loop s scr mini fuel w = Walk.val l := by
  intro mid
  induction mid with
  | nil =>
    intro pre w fuel hD _ hf
    obtain ⟨f, rfl⟩ : ∃ f, fuel = f + 1 := ⟨fuel - 1, by omega⟩
    obtain ⟨y, l', e1, e2, e3⟩ := screen_pass_double s scr t f hrep (by omega) i0 pre.length w
      (by rw [hD]; exact getElem?_append_cons _ _ _) (by rw [hD]; simp)
    rw [hD, List.nil_append, getElem?_append_cons_succ] at e3
    simp only [Option.some.injEq] at e3
    subst e3
    rw [next_screen_window_loop_step s scr mini f w y l e1 e2, if_pos hl]
  | cons m mid ih =>
    intro pre w fuel hD hmid hf
    obtain ⟨f, rfl⟩ : ∃ f, fuel = f + 1 := ⟨fuel - 1, by omega⟩
    simp only [List.length_cons] at hf
    obtain ⟨y, l', e1, e2, e3⟩ := screen_pass_double s scr t f hrep (by omega) i0 pre.length w
      (by rw [hD]; exact getElem?_append_cons _ _ _) (by rw [hD]; simp)
    rw [hD, List.cons_append, getElem?_append_cons_succ] at e3
    simp only [Option.some.injEq] at e3
    subst e3
    rw [next_screen_window_loop_step s scr mini f w y m e1 e2,
      if_neg (by rw [hmid m (by simp)]; simp)]
    exact ih (pre ++ [w]) m f (by rw [hD]; simp) (fun x hx => hmid x (by simp [hx]))
      (by omega)

theorem exists_first (p : Win → Bool) : ∀ l : List Win,
    (∀ x ∈ l, p x = false)
      ∨ ∃ mid x post, l = mid ++ x :: post ∧ (∀ m ∈ mid, p m = false) ∧ p x = true := by
  intro l
  induction l with
  | nil => exact Or.inl (by simp)
  | cons a l ih =>
    by_cases ha : p a = true
    · exact Or.inr ⟨[], a, l, rfl, by simp, ha⟩
    · have ha' : p a = false := by simpa using ha
      rcases ih with h | ⟨mid, x, post, e, h1, h2⟩
      · exact Or.inl (by simpa [ha'] using h)
      · refine Or.inr ⟨a :: mid, x, post, by rw [e]; rfl, ?_, h2⟩
        intro m hm
        simp only [List.mem_cons] at hm
        rcases hm with rfl | hm
        · exact ha'
        · exact h1 m hm

theorem filter_eq_nil_of (p : Win → Bool) (l : List Win) (h : ∀ x ∈ l, p x = false) :
    l.filter p = [] := by
  rw [List.filter_eq_nil_iff]
  intro x hx
  rw [h x hx]
  simp

/-- One pass of the loop of `window_loop` on a screen, given the next
window and what the body does. -/
theorem window_loop_go_succ (E : Ext) (type : LoopOp) (mini : Bool) (c : Scr) (f : Win)
    (F : Nat) (s : State) (w : Win) (best : Option Win) (nxt : Win) (stv : LoopStep)
    (h : next_screen_window_loop s c (if mini = true then Mini.t else Mini.nil) F w
      = Walk.val nxt)
    (hr : (if MINI_WINDOW_P (s.windows w) = false ∨ (mini = true ∧ s.minibuf_level > 0) then
          window_loop_case E F type (some c) s w best
        else Res.ok (LoopStep.go best) s) = Res.ok stv s) :
    window_loop_go E type mini (some c) f (F + 1) s w best =
      match stv with
      | LoopStep.ret x => Res.ok (some x) s
      | LoopStep.go b =>
        if nxt = f then Res.ok b s else window_loop_go E type mini (some c) f F s nxt b := by
  simp only [window_loop_go, next_screen_window, h, hr, Res.andThen]
  cases stv <;> rfl

/-- The loop of `window_loop` on a screen, for an operation whose body
changes no state: from a leaf at which `next_screen_window` stops the loop
visits the leaves after it, in the canonical order rotated to start with the
first window, at which `next_screen_window` stops. -/
theorem window_loop_go_pure (E : Ext) (s : State) (scr : Scr) (t : Shape)
    (hrep : Rep s scr t) (i0 : Nat) (type : LoopOp) (mini : Bool)
    (st : Win → Option Win → LoopStep) (f : Win) (rest : List Win)
    (hR : t.leaves.rotate i0 = f :: rest)
    (hf : mini_ok s (if mini = true then Mini.t else Mini.nil) f = true)
    (hst : ∀ (F : Nat) (w : Win) (best : Option Win),
      (if MINI_WINDOW_P (s.windows w) = false ∨ (mini = true ∧ s.minibuf_level > 0) then
          window_loop_case E F type (some scr) s w best
        else Res.ok (LoopStep.go best) s) = Res.ok (st w best) s) :
    ∀ (n : Nat) (suf pre : List Win) (w : Win) (best : Option Win) (fuel : Nat),
      suf.length ≤ n → f :: rest = pre ++ w :: suf →
      t.handles.length + (f :: rest).length + suf.length + 2 < fuel →
      window_loop_go E type mini (some scr) f fuel s w best =
        Res.ok (loop_fold st
          (w :: suf.filter (mini_ok s (if mini = true then Mini.t else Mini.nil))) best) s := by
  have hnd : (f :: rest).Nodup := by
    rw [← hR]
    exact List.nodup_rotate.2 (leaves_nodup t hrep.2.1)
  intro n
  induction n with
  | zero =>
    intro suf pre w best fuel hlen hsplit hfuel
    have hsuf : suf = [] := List.length_eq_zero.1 (by omega)
    subst hsuf
    obtain ⟨F, rfl⟩ : ∃ F, fuel = F + 1 := ⟨fuel - 1, by omega⟩
    have hD : t.leaves.rotate i0 ++ t.leaves.rotate i0 = pre ++ w :: ([] ++ f :: rest) := by
      rw [hR, hsplit]; simp
    have hn := next_screen_window_loop_skip s scr _ t hrep i0 f rest hf [] pre w F hD
      (by simp) (by simp at hfuel ⊢; omega)
    have hr := hst F w best
    cases hs : st w best with
    | ret x =>
      rw [hs] at hr
      rw [window_loop_go_succ E type mini scr f F s w best f _ hn hr]
      simp [loop_fold, hs]
    | go b =>
      rw [hs] at hr
      rw [window_loop_go_succ E type mini scr f F s w best f _ hn hr]
      simp [loop_fold, hs]
  | succ n ih =>
    intro suf pre w best fuel hlen hsplit hfuel
    obtain ⟨F, rfl⟩ : ∃ F, fuel = F + 1 := ⟨fuel - 1, by omega⟩
    rcases exists_first (mini_ok s (if mini = true then Mini.t else Mini.nil)) suf with
      hall | ⟨mid, l, post, rfl, hmid, hl⟩
    · have hD : t.leaves.rotate i0 ++ t.leaves.rotate i0
          = pre ++ w :: (suf ++ f :: rest) := by
        rw [hR, hsplit]; simp
      have hn := next_screen_window_loop_skip s scr _ t hrep i0 f rest hf suf pre w F hD
        hall (by simp at hfuel ⊢; omega)
      have hr := hst F w best
      rw [filter_eq_nil_of _ _ hall]
      cases hs : st w best with
      | ret x =>
        rw [hs] at hr
        rw [window_loop_go_succ E type mini scr f F s w best f _ hn hr]
        simp [loop_fold, hs]
      | go b =>
        rw [hs] at hr
        rw [window_loop_go_succ E type mini scr f F s w best f _ hn hr]
        simp [loop_fold, hs]
    · have hD : t.leaves.rotate i0 ++ t.leaves.rotate i0
          = pre ++ w :: (mid ++ l :: (post ++ (f :: rest))) := by
        rw [hR, hsplit]; simp
      have hn := next_screen_window_loop_skip s scr _ t hrep i0 l _ hl mid pre w F hD
        hmid (by simp at hfuel ⊢; omega)
      have hlf : l ≠ f := by
        intro e
        subst e
        rw [hsplit] at hnd
        cases pre with
        | nil =>
          simp only [List.nil_append, List.cons.injEq] at hsplit
          obtain ⟨rfl, -⟩ := hsplit
          have := (List.nodup_cons.1 hnd).1
          exact this (by simp)
        | cons a pre =>
          simp only [List.cons_append, List.cons.injEq] at hsplit
          obtain ⟨rfl, -⟩ := hsplit
          have := (List.nodup_cons.1 hnd).1
          exact this (by simp)
      have hr := hst F w best
      have hfil : (mid ++ l :: post).filter
          (mini_ok s (if mini = true then Mini.t else Mini.nil))
          = l :: post.filter (mini_ok s (if mini = true then Mini.t else Mini.nil)) := by
        rw [List.filter_append, filter_eq_nil_of _ _ hmid, List.nil_append,
          List.filter_cons_of_pos hl]
      rw [hfil]
      cases hs : st w best with
      | ret x =>
        rw [hs] at hr
        rw [window_loop_go_succ E type mini scr f F s w best l _ hn hr]
        simp [loop_fold, hs]
      | go b =>
        rw [hs] at hr
        rw [window_loop_go_succ E type mini scr f F s w best l _ hn hr]
        simp only [loop_fold, hs, if_neg hlf]
        refine ih post (pre ++ w :: mid) l b F ?_ (by rw [hsplit]; simp) ?_
        · simp only [List.length_append, List.length_cons] at hlen
          omega
        · simp only [List.length_append, List.length_cons] at hfuel ⊢
          omega

theorem rotate_of_mem (L : List Win) (f : Win) (hf : f ∈ L) :
    ∃ i0 rest, L[i0]? = some f ∧ L.rotate i0 = f :: rest := by
  obtain ⟨a, b, rfl⟩ := List.append_of_mem hf
  refine ⟨a.length, b ++ a, getElem?_append_cons a f b, ?_⟩
  rw [List.rotate_append_length_eq]
  rfl

/-- The function `window_loop` on a screen, for an operation whose body
changes no state: the result is the one of the loop over the leaves at which
`next_screen_window` stops, in the canonical order rotated to start with the
selected window of the screen. -/
theorem window_loop_pure (E : Ext) (s : State) (scr : Scr) (t : Shape)
    (hrep : Rep s scr t) (type : LoopOp) (mini : Bool)
    (st : Win → Option Win → LoopStep) (f : Win) (i0 : Nat) (rest : List Win)
    (htype : ∀ obj, type ≠ LoopOp.DELETE_OTHER_WINDOWS obj)
    (hsel : (s.screens scr).selected_window = some f)
    (hR : t.leaves.rotate i0 = f :: rest)
    (hf : mini_ok s (if mini = true then Mini.t else Mini.nil) f = true)
    (hst : ∀ (F : Nat) (w : Win) (best : Option Win),
      (if MINI_WINDOW_P (s.windows w) = false ∨ (mini = true ∧ s.minibuf_level > 0) then
          window_loop_case E F type (some scr) s w best
        else Res.ok (LoopStep.go best) s) = Res.ok (st w best) s)
    (fuel : Nat) (hfuel : t.handles.length + 2 * t.leaves.length + 2 < fuel) :
    window_loop E fuel s type mini (Screens.screen scr) =
      Res.ok (loop_fold st
        ((t.leaves.rotate i0).filter (mini_ok s (if mini = true then Mini.t else Mini.nil)))
        none) s := by
  have hlen : (f :: rest).length = t.leaves.length := by rw [← hR, List.length_rotate]
  have hgo := window_loop_go_pure E s scr t hrep i0 type mini st f rest hR hf hst rest.length
    rest [] f none fuel (le_refl _) rfl (by
      simp only [List.length_cons] at hlen ⊢
      omega)
  rw [hR, List.filter_cons_of_pos hf, ← hgo]
  unfold window_loop
  cases type with
  | DELETE_OTHER_WINDOWS obj => exact absurd rfl (htype obj)
  | GET_BUFFER_WINDOW obj => simp only [hsel]
  | GET_LRU_WINDOW obj => simp only [hsel]
  | GET_LARGEST_WINDOW => simp only [hsel]

theorem loop_fold_pick (elig : Win → Bool) (key : Win → Int) : ∀ (l : List Win)
    (best : Option Win),
    loop_fold (fun w b => LoopStep.go (pick elig key b w)) l best = l.foldl (pick elig key) best := by
  intro l
  induction l with
  | nil => intro best; rfl
  | cons a l ih => intro best; simp only [loop_fold, List.foldl_cons]; exact ih _

theorem loop_fold_find (p : Win → Bool) : ∀ (l : List Win) (best : Option Win),
    loop_fold (fun w b => if p w = true then LoopStep.ret w else LoopStep.go b) l best =
      match l.find? p with
      | some w => some w
      | none => best := by
  intro l
  induction l with
  | nil => intro best; rfl
  | cons a l ih =>
    intro best
    by_cases ha : p a = true
    · simp [loop_fold, ha]
    · have ha' : p a = false := by simpa using ha
      simp only [loop_fold, ha', Bool.false_eq_true, if_false, List.find?_cons_of_neg,
        not_false_eq_true]
      exact ih best

/-- The search `pick` from a best window `b0`: the result is `b0` if no
eligible window of the list has a greater key, and otherwise the first
eligible window of the list with the greatest key. -/
theorem foldl_pick_some (elig : Win → Bool) (key : Win → Int) : ∀ (l : List Win) (b0 : Win),
    ∃ b, l.foldl (pick elig key) (some b0) = some b
      ∧ ((b = b0 ∧ ∀ x ∈ l.filter elig, key x ≤ key b0)
        ∨ ∃ pre post, l.filter elig = pre ++ b :: post ∧ key b0 < key b
            ∧ (∀ x ∈ pre, key x < key b) ∧ ∀ x ∈ post, key x ≤ key b) := by
  intro l
  induction l with
  | nil => intro b0; exact ⟨b0, rfl, Or.inl ⟨rfl, by simp⟩⟩
  | cons a l ih =>
    intro b0
    by_cases ha : elig a = true
    · by_cases hk : key a > key b0
      · obtain ⟨b, e, h⟩ := ih a
        refine ⟨b, by simp [pick, ha, hk, e], Or.inr ?_⟩
        rw [List.filter_cons_of_pos ha]
        rcases h with ⟨rfl, h⟩ | ⟨pre, post, e1, h1, h2, h3⟩
        · exact ⟨[], _, rfl, hk, by simp, h⟩
        · refine ⟨a :: pre, post, by rw [e1]; rfl, by omega, ?_, h3⟩
          intro x hx
          simp only [List.mem_cons] at hx
          rcases hx with rfl | hx
          · exact h1
          · exact h2 x hx
      · obtain ⟨b, e, h⟩ := ih b0
        refine ⟨b, by simp [pick, ha, hk, e], ?_⟩
        rw [List.filter_cons_of_pos ha]
        rcases h with ⟨rfl, h⟩ | ⟨pre, post, e1, h1, h2, h3⟩
        · refine Or.inl ⟨rfl, ?_⟩
          intro x hx
          simp only [List.mem_cons] at hx
          rcases hx with rfl | hx
          · omega
          · exact h x hx
        · refine Or.inr ⟨a :: pre, post, by rw [e1]; rfl, h1, ?_, h3⟩
          intro x hx
          simp only [List.mem_cons] at hx
          rcases hx with rfl | hx
          · omega
          · exact h2 x hx
    · obtain ⟨b, e, h⟩ := ih b0
      refine ⟨b, by simp [pick, ha, e], ?_⟩
      rw [List.filter_cons_of_neg ha]
      exact h

/-- The search `pick` from no window: the result is `nil` if the list has no
eligible window, and otherwise the first eligible window of the list with the
greatest key. -/
theorem foldl_pick_none (elig : Win → Bool) (key : Win → Int) : ∀ (l : List Win),
    (l.filter elig = [] ∧ l.foldl (pick elig key) none = none)
      ∨ ∃ b pre post, l.foldl (pick elig key) none = some b
          ∧ l.filter elig = pre ++ b :: post
          ∧ (∀ x ∈ pre, key x < key b) ∧ ∀ x ∈ post, key x ≤ key b := by
  intro l
  induction l with
  | nil => exact Or.inl ⟨rfl, rfl⟩
  | cons a l ih =>
    by_cases ha : elig a = true
    · right
      obtain ⟨b, e, h⟩ := foldl_pick_some elig key l a
      rw [List.filter_cons_of_pos ha]
      refine ⟨b, ?_⟩
      rcases h with ⟨rfl, h⟩ | ⟨pre, post, e1, h1, h2, h3⟩
      · exact ⟨[], _, by simp [pick, ha, e], rfl, by simp, h⟩
      · refine ⟨a :: pre, post, by simp [pick, ha, e], by rw [e1]; rfl, ?_, h3⟩
        intro x hx
        simp only [List.mem_cons] at hx
        rcases hx with rfl | hx
        · exact h1
        · exact h2 x hx
    · rw [List.filter_cons_of_neg ha]
      have e : (a :: l).foldl (pick elig key) none = l.foldl (pick elig key) none := by
        simp [pick, ha]
      rw [e]
      exact ih

/-- The body of `window_loop` for `GET_LRU_WINDOW` is a step of the search
for the eligible window (as wide as the screen, if `obj` is `t`) with the
least use time. -/
theorem window_loop_case_lru (E : Ext) (s : State) (scr : Scr) (obj : Bool) (F : Nat) (w : Win)
    (best : Option Win) :
    (if MINI_WINDOW_P (s.windows w) = false ∨ (false = true ∧ s.minibuf_level > 0) then
        window_loop_case E F (LoopOp.GET_LRU_WINDOW obj) (some scr) s w best
      else Res.ok (LoopStep.go best) s) =
      Res.ok (LoopStep.go (pick (fun x => eligible s x && (!obj || full_width s scr x))
        (fun x => -(s.windows x).use_time) best w)) s := by
  simp only [window_loop_case, pick, eligible, full_width, Bool.false_eq_true, false_and,
    or_false]
  by_cases hm : MINI_WINDOW_P (s.windows w) = true
  · simp [hm]
  · have hm' : MINI_WINDOW_P (s.windows w) = false := by simpa using hm
    by_cases hd : (s.windows w).dedicated = true
    · cases obj <;> by_cases hw : (s.windows w).width = (s.screens scr).width <;>
        simp [hm', hd, hw]
    · have hd' : (s.windows w).dedicated = false := by simpa using hd
      cases obj
      · rcases best with _ | b
        · simp [hm', hd']
        · by_cases hu : (s.windows b).use_time > (s.windows w).use_time
          · simp [hm', hd', hu]
          · simp [hm', hd', hu]
      · by_cases hw : (s.windows w).width = (s.screens scr).width
        · rcases best with _ | b
          · simp [hm', hd', hw]
          · by_cases hu : (s.windows b).use_time > (s.windows w).use_time
            · simp [hm', hd', hw, hu]
            · simp [hm', hd', hw, hu]
        · simp [hm', hd', hw]

/-- The body of `window_loop` for `GET_BUFFER_WINDOW` while the minibuffer
is not active returns a window that is no minibuffer window and shows the
buffer. -/
theorem window_loop_case_buffer (E : Ext) (s : State) (scr : Scr) (obj : Buf) (F : Nat)
    (w : Win) (best : Option Win) (hlevel : s.minibuf_level = 0) :
    (if MINI_WINDOW_P (s.windows w) = false ∨ (true = true ∧ s.minibuf_level > 0) then
        window_loop_case E F (LoopOp.GET_BUFFER_WINDOW obj) (some scr) s w best
      else Res.ok (LoopStep.go best) s) =
      Res.ok ((fun w b =>
        if (!MINI_WINDOW_P (s.windows w) && decide ((s.windows w).buffer = BufSlot.buf obj))
            = true then LoopStep.ret w
        else LoopStep.go b) w best) s := by
  simp only [window_loop_case, hlevel, gt_iff_lt, lt_self_iff_false, and_false, or_false]
  by_cases hm : MINI_WINDOW_P (s.windows w) = true
  · simp [hm]
  · have hm' : MINI_WINDOW_P (s.windows w) = false := by simpa using hm
    by_cases hb : (s.windows w).buffer = BufSlot.buf obj
    · simp [hm', hb]
    · simp [hm', hb]

theorem mini_ok_nil (s : State) (w : Win) :
    mini_ok s Mini.nil w = true ↔ (MINI_WINDOW_P (s.windows w) = false ∨ s.minibuf_level ≠ 0) := by
  simp only [mini_ok, ne_eq, reduceCtorEq, not_false_eq_true, decide_True, Bool.and_true,
    not_true_eq_false, decide_False, Bool.false_or, Bool.not_eq_true', Bool.and_eq_false_iff,
    decide_eq_false_iff_not]

theorem mini_ok_t (s : State) (w : Win) : mini_ok s Mini.t w = true := by
  simp [mini_ok]

theorem filter_mini_ok (s : State) (mini : Mini) (e : Win → Bool) (l : List Win)
    (he : ∀ x, e x = true → MINI_WINDOW_P (s.windows x) = false) :
    (l.filter (mini_ok s mini)).filter e = l.filter e := by
  rw [List.filter_filter]
  apply List.filter_congr
  intro x _
  by_cases hx : e x = true
  · simp [hx, mini_ok, he x hx]
  · simp [hx]

/-- A window that is the first one with the greatest key among the eligible
leaves, in the rotated canonical order, is an eligible leaf, and no eligible
leaf has a greater key. -/
theorem search_max (L : List Win) (i0 : Nat) (e : Win → Bool) (k : Win → Int) (b : Win)
    (pre post : List Win) (h : (L.rotate i0).filter e = pre ++ b :: post)
    (h1 : ∀ x ∈ pre, k x < k b) (h2 : ∀ x ∈ post, k x ≤ k b) :
    b ∈ L ∧ e b = true ∧ ∀ x ∈ L, e x = true → k x ≤ k b := by
  have hb : b ∈ (L.rotate i0).filter e := by rw [h]; simp
  rw [List.mem_filter, List.mem_rotate] at hb
  refine ⟨hb.1, hb.2, fun x hx hex => ?_⟩
  have hx' : x ∈ (L.rotate i0).filter e := by
    rw [List.mem_filter, List.mem_rotate]; exact ⟨hx, hex⟩
  rw [h, List.mem_append, List.mem_cons] at hx'
  rcases hx' with hx' | rfl | hx'
  · exact le_of_lt (h1 x hx')
  · exact le_refl _
  · exact h2 x hx'

/-- The function `window_loop` on a screen for an operation that searches
the eligible window with the greatest key: the result is `nil` if no leaf is
eligible, and otherwise the first eligible leaf with the greatest key in the
canonical order rotated to start with the selected window of the screen. -/
theorem window_loop_search (E : Ext) (s : State) (scr : Scr) (t : Shape)
    (hrep : Rep s scr t) (type : LoopOp) (e : Win → Bool) (k : Win → Int)
    (f : Win) (i0 : Nat) (rest : List Win)
    (htype : ∀ obj, type ≠ LoopOp.DELETE_OTHER_WINDOWS obj)
    (hsel : (s.screens scr).selected_window = some f)
    (hR : t.leaves.rotate i0 = f :: rest)
    (hf : MINI_WINDOW_P (s.windows f) = false ∨ s.minibuf_level ≠ 0)
    (he : ∀ x, e x = true → MINI_WINDOW_P (s.windows x) = false)
    (hst : ∀ (F : Nat) (w : Win) (best : Option Win),
      (if MINI_WINDOW_P (s.windows w) = false ∨ (false = true ∧ s.minibuf_level > 0) then
          window_loop_case E F type (some scr) s w best
        else Res.ok (LoopStep.go best) s) = Res.ok (LoopStep.go (pick e k best w)) s)
    (fuel : Nat) (hfuel : t.handles.length + 2 * t.leaves.length + 2 < fuel) :
    ∃ r, window_loop E fuel s type false (Screens.screen scr) = Res.ok r s
      ∧ ((r = none ∧ ∀ x ∈ t.leaves, e x = false)
        ∨ ∃ b pre post, r = some b ∧ (t.leaves.rotate i0).filter e = pre ++ b :: post
            ∧ (∀ x ∈ pre, k x < k b) ∧ ∀ x ∈ post, k x ≤ k b) := by
  have h := window_loop_pure E s scr t hrep type false
    (fun w b => LoopStep.go (pick e k b w)) f i0 rest htype hsel hR
    ((mini_ok_nil s f).2 hf) hst fuel hfuel
  simp only [Bool.false_eq_true, if_false] at h
  rw [loop_fold_pick] at h
  refine ⟨_, h, ?_⟩
  rcases foldl_pick_none e k ((t.leaves.rotate i0).filter (mini_ok s Mini.nil)) with
    ⟨h1, h2⟩ | ⟨b, pre, post, h1, h2, h3, h4⟩
  · left
    rw [filter_mini_ok s Mini.nil e _ he, List.filter_eq_nil_iff] at h1
    refine ⟨h2, fun x hx => ?_⟩
    have := h1 x (List.mem_rotate.2 hx)
    simpa using this
  · right
    rw [filter_mini_ok s Mini.nil e _ he] at h2
    exact ⟨b, pre, post, h1, h2, h3, h4⟩

theorem eligible_iff (s : State) (w : Win) :
    eligible s w = true ↔
      (MINI_WINDOW_P (s.windows w) = false ∧ (s.windows w).dedicated = false) := by
  simp [eligible]

theorem eligible_false_iff (s : State) (w : Win) :
    eligible s w = false ↔
      (MINI_WINDOW_P (s.windows w) = true ∨ (s.windows w).dedicated = true) := by
  unfold eligible
  cases MINI_WINDOW_P (s.windows w) <;> cases (s.windows w).dedicated <;> simp

/-- What `Fget_lru_window` returns on a screen: `nil` if no leaf is
eligible; otherwise an eligible leaf that is either as wide as the screen,
not the selected window, and the least recently used of the eligible leaves
that are as wide as the screen, or the least recently used of all eligible
leaves. -/
theorem Fget_lru_window_spec (E : Ext) (fuel : Nat) (s : State) (scr : Scr) (t : Shape)
    (f : Win) (hrep : Rep s scr t)
    (hsel : (s.screens scr).selected_window = some f) (hfl : f ∈ t.leaves)
    (hf : MINI_WINDOW_P (s.windows f) = false ∨ s.minibuf_level ≠ 0)
    (hfuel : t.handles.length + 2 * t.leaves.length + 2 < fuel) :
    ∃ r, Fget_lru_window E fuel s (Screens.screen scr) = Res.ok r s
      ∧ ((r = none ∧ ∀ x ∈ t.leaves, eligible s x = false)
        ∨ ∃ w, r = some w ∧ w ∈ t.leaves ∧ eligible s w = true
            ∧ ((full_width s scr w = true ∧ w ≠ s.selected_window
                ∧ ∀ x ∈ t.leaves, eligible s x = true → full_width s scr x = true →
                    (s.windows w).use_time ≤ (s.windows x).use_time)
              ∨ ∀ x ∈ t.leaves, eligible s x = true →
                    (s.windows w).use_time ≤ (s.windows x).use_time)) := by
  obtain ⟨i0, rest, -, hR⟩ := rotate_of_mem t.leaves f hfl
  obtain ⟨r1, e1, h1⟩ := window_loop_search E s scr t hrep (LoopOp.GET_LRU_WINDOW true)
    (fun x => eligible s x && (!true || full_width s scr x))
    (fun x => -(s.windows x).use_time) f i0 rest (fun _ => by simp) hsel hR hf
    (fun x hx => by
      simp only [Bool.and_eq_true] at hx
      exact ((eligible_iff s x).1 hx.1).1)
    (fun F w best => window_loop_case_lru E s scr true F w best) fuel hfuel
  obtain ⟨r2, e2, h2⟩ := window_loop_search E s scr t hrep (LoopOp.GET_LRU_WINDOW false)
    (fun x => eligible s x && (!false || full_width s scr x))
    (fun x => -(s.windows x).use_time) f i0 rest (fun _ => by simp) hsel hR hf
    (fun x hx => by
      simp only [Bool.and_eq_true] at hx
      exact ((eligible_iff s x).1 hx.1).1)
    (fun F w best => window_loop_case_lru E s scr false F w best) fuel hfuel
  have hpass2 : (r2 = none ∧ ∀ x ∈ t.leaves, eligible s x = false)
      ∨ ∃ w, r2 = some w ∧ w ∈ t.leaves ∧ eligible s w = true
          ∧ ∀ x ∈ t.leaves, eligible s x = true →
              (s.windows w).use_time ≤ (s.windows x).use_time := by
    rcases h2 with ⟨h, hall⟩ | ⟨b, pre, post, h, hfil, hp, hq⟩
    · exact Or.inl ⟨h, fun x hx => by simpa using hall x hx⟩
    · obtain ⟨m1, m2, m3⟩ := search_max t.leaves i0 _ _ b pre post hfil hp hq
      refine Or.inr ⟨b, h, m1, by simpa using m2, fun x hx hex => ?_⟩
      have := m3 x hx (by simpa using hex)
      omega
  unfold Fget_lru_window
  rw [e1, Res.andThen_ok]
  by_cases hc : r1 ≠ none ∧ r1 ≠ some s.selected_window
  · rw [if_pos hc]
    refine ⟨r1, rfl, ?_⟩
    rcases h1 with ⟨h, -⟩ | ⟨b, pre, post, h, hfil, hp, hq⟩
    · exact absurd h hc.1
    · obtain ⟨m1, m2, m3⟩ := search_max t.leaves i0 _ _ b pre post hfil hp hq
      simp only [Bool.not_true, Bool.false_or, Bool.and_eq_true] at m2 m3
      refine Or.inr ⟨b, h, m1, m2.1, Or.inl ⟨m2.2, ?_, fun x hx hex hfx => ?_⟩⟩
      · intro e
        exact hc.2 (by rw [h, e])
      · have := m3 x hx ⟨hex, hfx⟩
        omega
  · rw [if_neg hc, e2]
    refine ⟨r2, rfl, ?_⟩
    rcases hpass2 with h | ⟨w, h, m1, m2, m3⟩
    · exact Or.inl h
    · exact Or.inr ⟨w, h, m1, m2, Or.inr m3⟩

/-- C21, amended: what `Fget_lru_window` returns on screen `scr` of a
well-formed tree when the selected window `f` of the screen is a leaf of the
tree at which the traversal stops: `f` is no minibuffer window, or a
minibuffer is active.  With more than `handles + 2 * leaves + 2` units of fuel
the call returns and changes no state.  It returns `nil` if and only if every
leaf of the screen is a minibuffer window or dedicated.  A window `w` that it
returns is a leaf that is neither dedicated nor a minibuffer window, and its
use time is at most the use time of every such leaf `x` that is as wide as
the screen; if `w` is not as wide as the screen, or is the selected window,
then its use time is at most the use time of every such leaf. -/
theorem Fget_lru_window_least (E : Ext) (fuel : Nat) (s : State) (scr : Scr) (t : Shape)
    (f : Win) (hrep : Rep s scr t)
    (hsel : (s.screens scr).selected_window = some f) (hfl : f ∈ t.leaves)
    (hf : MINI_WINDOW_P (s.windows f) = false ∨ s.minibuf_level ≠ 0)
    (hfuel : t.handles.length + 2 * t.leaves.length + 2 < fuel) :
    ∃ r, Fget_lru_window E fuel s (Screens.screen scr) = Res.ok r s
      ∧ (r = none ↔ ∀ x ∈ t.leaves,
          MINI_WINDOW_P (s.windows x) = true ∨ (s.windows x).dedicated = true)
      ∧ ∀ w, r = some w →
        w ∈ t.leaves ∧ MINI_WINDOW_P (s.windows w) = false ∧ (s.windows w).dedicated = false
        ∧ ∀ x ∈ t.leaves, MINI_WINDOW_P (s.windows x) = false →
            (s.windows x).dedicated = false →
            ((s.windows x).width = (s.screens scr).width
              ∨ (s.windows w).width ≠ (s.screens scr).width ∨ w = s.selected_window) →
            (s.windows w).use_time ≤ (s.windows x).use_time := by
  obtain ⟨r, e, h⟩ := Fget_lru_window_spec E fuel s scr t f hrep hsel hfl hf hfuel
  refine ⟨r, e, ?_, fun w hw => ?_⟩
  · rcases h with ⟨h, hall⟩ | ⟨w', h, m1, m2, -⟩
    · subst h
      exact ⟨fun _ x hx => (eligible_false_iff s x).1 (hall x hx), fun _ => rfl⟩
    · subst h
      refine ⟨fun h => absurd h (by simp), fun hall => ?_⟩
      have := (eligible_false_iff s w').2 (hall w' m1)
      rw [m2] at this
      exact absurd this (by simp)
  rcases h with ⟨h, -⟩ | ⟨w', h, m1, m2, m3⟩
  · rw [h] at hw; exact absurd hw (by simp)
  · rw [h] at hw
    simp only [Option.some.injEq] at hw
    subst hw
    obtain ⟨e1, e2⟩ := (eligible_iff s w').1 m2
    refine ⟨m1, e1, e2, fun x hx hx1 hx2 hor => ?_⟩
    have hex := (eligible_iff s x).2 ⟨hx1, hx2⟩
    rcases m3 with ⟨hfw, hne, hall⟩ | hall
    · simp only [full_width, decide_eq_true_eq] at hfw hall
      rcases hor with hor | hor | hor
      · exact hall x hx hex hor
      · exact absurd hfw hor
      · exact absurd hor hne
    · exact hall x hx hex

/-- Witness of `Fget_lru_window_least`: the screen of `state3v_used`, whose
leaves 0, 3 and 4 are as wide as the screen and have the use times 7, 5 and
3; the leaf 0 is the selected window, and the call returns the leaf 4. -/
theorem Fget_lru_window_least_witness :
    (Rep state3v_used 0 (Shape.node 2 Kind.vcomb chain034 chain1)
      ∧ (state3v_used.screens 0).selected_window = some 0
      ∧ MINI_WINDOW_P (state3v_used.windows 0) = false
      ∧ ((state3v_used.windows 0).use_time = 7 ∧ (state3v_used.windows 3).use_time = 5
        ∧ (state3v_used.windows 4).use_time = 3)
      ∧ Fget_lru_window ext1 20 state3v_used (Screens.screen 0)
          = Res.ok (some 4) state3v_used)
    ∧ ∃ r, Fget_lru_window ext1 20 state3v_used (Screens.screen 0) = Res.ok r state3v_used
      ∧ (r = none ↔ ∀ x ∈ (Shape.node 2 Kind.vcomb chain034 chain1).leaves,
          MINI_WINDOW_P (state3v_used.windows x) = true
            ∨ (state3v_used.windows x).dedicated = true)
      ∧ ∀ w, r = some w →
        w ∈ (Shape.node 2 Kind.vcomb chain034 chain1).leaves
        ∧ MINI_WINDOW_P (state3v_used.windows w) = false
        ∧ (state3v_used.windows w).dedicated = false
        ∧ ∀ x ∈ (Shape.node 2 Kind.vcomb chain034 chain1).leaves,
            MINI_WINDOW_P (state3v_used.windows x) = false →
            (state3v_used.windows x).dedicated = false →
            ((state3v_used.windows x).width = (state3v_used.screens 0).width
              ∨ (state3v_used.windows w).width ≠ (state3v_used.screens 0).width
              ∨ w = state3v_used.selected_window) →
            (state3v_used.windows w).use_time ≤ (state3v_used.windows x).use_time :=
  ⟨⟨by decide!, rfl, rfl, by decide!, rfl⟩,
    Fget_lru_window_least ext1 20 state3v_used 0 (Shape.node 2 Kind.vcomb chain034 chain1) 0
      (by decide!) rfl (by decide) (Or.inl rfl) (by decide)⟩

/-- Counterexample to the least use time among all eligible leaves: in
`state6_used`, a well-formed tree whose selected window is the leaf 0, the
leaves 0, 5 and 3 are neither dedicated nor minibuffer windows and have the
use times 4, 3 and 5; the leaf 3 is as wide as the screen, the leaves 0 and 5
are not.  `Fget_lru_window` returns the leaf 3, whose use time is the
greatest of the three. -/
theorem Fget_lru_window_prefers_full_width :
    (WF state6_used 0 shape6 ∧ (state6_used.screens 0).selected_window = some 0
      ∧ shape6.leaves = [0, 5, 3, 1]
      ∧ (∀ x ∈ [0, 5, 3], MINI_WINDOW_P (state6_used.windows x) = false
          ∧ (state6_used.windows x).dedicated = false)
      ∧ ((state6_used.windows 0).use_time = 4 ∧ (state6_used.windows 5).use_time = 3
        ∧ (state6_used.windows 3).use_time = 5))
      ∧ Fget_lru_window ext1 20 state6_used (Screens.screen 0) = Res.ok (some 3) state6_used :=
  ⟨by decide!, rfl⟩

/-- C24: `Fget_buffer_window (buffer)` on screen `scr` of a well-formed tree
whose selected window `f` is a leaf, while the minibuffer is not active.
With enough fuel the call returns and changes no state, so it modifies no
window; a window that it returns is a leaf that is no minibuffer window and
shows the buffer; and it returns `nil` if and only if no leaf of the screen
is such a window. -/
theorem Fget_buffer_window_finds (E : Ext) (fuel : Nat) (s : State) (scr : Scr) (t : Shape)
    (f : Win) (b : Buf) (hrep : Rep s scr t)
    (hsel : (s.screens scr).selected_window = some f) (hfl : f ∈ t.leaves)
    (hlevel : s.minibuf_level = 0)
    (hfuel : t.handles.length + 2 * t.leaves.length + 2 < fuel) :
    ∃ r, Fget_buffer_window E fuel s (some b) (Screens.screen scr) = Res.ok r s
      ∧ (∀ w, r = some w →
          w ∈ t.leaves ∧ MINI_WINDOW_P (s.windows w) = false
          ∧ (s.windows w).buffer = BufSlot.buf b)
      ∧ (r = none ↔ ∀ x ∈ t.leaves,
          ¬ (MINI_WINDOW_P (s.windows x) = false ∧ (s.windows x).buffer = BufSlot.buf b)) := by
  obtain ⟨i0, rest, -, hR⟩ := rotate_of_mem t.leaves f hfl
  have h := window_loop_pure E s scr t hrep (LoopOp.GET_BUFFER_WINDOW b) true _ f i0 rest
    (fun _ => by simp) hsel hR (mini_ok_t s f)
    (fun F w best => window_loop_case_buffer E s scr b F w best hlevel) fuel hfuel
  simp only [if_true] at h
  rw [loop_fold_find] at h
  have hall : (t.leaves.rotate i0).filter (mini_ok s Mini.t) = t.leaves.rotate i0 :=
    List.filter_eq_self.2 (fun x _ => mini_ok_t s x)
  rw [hall] at h
  unfold Fget_buffer_window
  simp only
  rw [h]
  refine ⟨_, rfl, ?_⟩
  rcases hfind : (t.leaves.rotate i0).find? (fun w =>
      !MINI_WINDOW_P (s.windows w) && decide ((s.windows w).buffer = BufSlot.buf b)) with _ | w
  · simp only [reduceCtorEq, false_implies, implies_true, true_and, true_iff]
    intro x hx
    rw [List.find?_eq_none] at hfind
    have := hfind x (List.mem_rotate.2 hx)
    simpa using this
  · have hp := List.find?_some hfind
    have hm := List.mem_rotate.1 (List.mem_of_find?_eq_some hfind)
    simp only [Bool.and_eq_true, Bool.not_eq_true', decide_eq_true_eq] at hp
    refine ⟨fun w' hw' => ?_, fun h => absurd h (by simp), fun hno => absurd hp (hno w hm)⟩
    simp only [Option.some.injEq] at hw'
    subst hw'
    exact ⟨hm, hp.1, hp.2⟩

/-- Witness of `Fget_buffer_window_finds`: the buffer 0 on the screen of
`state6`. -/
theorem Fget_buffer_window_finds_witness :
    ∃ r, Fget_buffer_window ext1 20 state6 (some 0) (Screens.screen 0) = Res.ok r state6
      ∧ (∀ w, r = some w →
          w ∈ shape6.leaves ∧ MINI_WINDOW_P (state6.windows w) = false
          ∧ (state6.windows w).buffer = BufSlot.buf 0)
      ∧ (r = none ↔ ∀ x ∈ shape6.leaves,
          ¬ (MINI_WINDOW_P (state6.windows x) = false
            ∧ (state6.windows x).buffer = BufSlot.buf 0)) :=
  Fget_buffer_window_finds ext1 20 state6 0 shape6 0 0 (by decide!) rfl (by decide) rfl
    (by decide)

theorem head_eq_none_iff (t : Shape) : t.head = none ↔ t = Shape.nil := by
  cases t <;> simp [Shape.head]

/-- The child pointers of a window of a tree, by its kind. -/
theorem linkOK_children (scr : Scr) (h : Win → Window) (w : Win) (k : Kind)
    (P : Option (Kind × Win)) (V N : Option Win) (ch : Shape)
    (hl : LinkOK scr h { w := w, k := k, par := P, prev := V, next := N, child := ch.head }) :
    ((h w).vchild = none ∧ (h w).hchild = none ∧ ch = Shape.nil)
      ∨ ((h w).vchild = ch.head ∧ (h w).hchild = none ∧ k = Kind.vcomb ∧ ch ≠ Shape.nil)
      ∨ ((h w).vchild = none ∧ (h w).hchild = ch.head ∧ k = Kind.hcomb ∧ ch ≠ Shape.nil) := by
  obtain ⟨-, -, -, -, hk⟩ := hl
  cases k <;> simp only at hk
  · exact Or.inl ⟨hk.2.1, hk.1, (head_eq_none_iff ch).1 hk.2.2.2⟩
  · exact Or.inr (Or.inr ⟨hk.2.2.1, hk.1, rfl, fun e => hk.2.1 ((head_eq_none_iff ch).2 e)⟩)
  · exact Or.inr (Or.inl ⟨hk.1, hk.2.2.1, rfl, fun e => hk.2.1 ((head_eq_none_iff ch).2 e)⟩)

/-- The function `count_windows` counts the windows of a chain and below. -/
theorem count_windows_spec (s : State) (scr : Scr) : ∀ (t : Shape) (P : Option (Kind × Win))
    (V : Option Win) (fuel : Nat), (∀ i ∈ t.infos P V, LinkOK scr s.windows i) →
    t.handles.length < fuel → ∀ w, t.head = some w →
    count_windows s fuel w = Walk.val t.handles.length := by
  intro t
  induction t with
  | nil => intro P V fuel _ _ w hw; simp [Shape.head] at hw
  | node w k ch rest ihc ihr =>
    intro P V fuel hl hf w' hw'
    simp only [Shape.head, Option.some.injEq] at hw'
    subst hw'
    obtain ⟨f, rfl⟩ : ∃ f, fuel = f + 1 := ⟨fuel - 1, by omega⟩
    simp only [Shape.handles, List.length_cons, List.length_append] at hf
    have hw := hl ⟨w, k, P, V, rest.head, ch.head⟩ (by simp [Shape.infos])
    have hn : (s.windows w).next = rest.head := hw.2.2.1
    have hr := ihr P (some w) f (fun i hi => hl i (by simp [Shape.infos, hi])) (by omega)
    have hc := ihc (some (k, w)) none f (fun i hi => hl i (by simp [Shape.infos, hi]))
      (by omega)
    unfold count_windows
    rw [hn]
    rcases hh : rest.head with _ | r
    · have hr0 : rest.handles.length = 0 := by rw [(head_eq_none_iff rest).1 hh]; rfl
      rcases linkOK_children scr s.windows w k P V rest.head ch hw with
        ⟨h1, h2, h3⟩ | ⟨h1, h2, -, h4⟩ | ⟨h1, h2, -, h4⟩
      · subst h3
        simp only [h1, h2, Shape.handles, List.length_nil, List.length_cons,
          List.length_append, hr0]
      · obtain ⟨c, hc'⟩ := Option.ne_none_iff_exists'.1 (fun e => h4 ((head_eq_none_iff ch).1 e))
        simp only [h1, h2, hc', hc c hc', Shape.handles, List.length_cons, List.length_append,
          hr0]
        congr 1
        omega
      · obtain ⟨c, hc'⟩ := Option.ne_none_iff_exists'.1 (fun e => h4 ((head_eq_none_iff ch).1 e))
        simp only [h1, h2, hc', hc c hc', Shape.handles, List.length_cons, List.length_append,
          hr0]
        congr 1
        omega
    · rcases linkOK_children scr s.windows w k P V rest.head ch hw with
        ⟨h1, h2, h3⟩ | ⟨h1, h2, -, h4⟩ | ⟨h1, h2, -, h4⟩
      · subst h3
        simp only [h1, h2, hr r hh, Shape.handles, List.length_nil, List.length_cons,
          List.length_append]
        congr 1
        omega
      · obtain ⟨c, hc'⟩ := Option.ne_none_iff_exists'.1 (fun e => h4 ((head_eq_none_iff ch).1 e))
        simp only [h1, h2, hc', hc c hc', hr r hh, Shape.handles, List.length_cons,
          List.length_append]
        congr 1
        omega
      · obtain ⟨c, hc'⟩ := Option.ne_none_iff_exists'.1 (fun e => h4 ((head_eq_none_iff ch).1 e))
        simp only [h1, h2, hc', hc c hc', hr r hh, Shape.handles, List.length_cons,
          List.length_append]
        congr 1
        omega

theorem blanked_windows (cur : State) (l : List Win) (x : Win) :
    (blanked cur l).windows x
      = if x ∈ l then { cur.windows x with buffer := BufSlot.nil } else cur.windows x := rfl

theorem blanked_nil (cur : State) : blanked cur [] = cur := by
  unfold blanked
  simp

theorem blanked_blanked (cur : State) (l1 l2 : List Win) :
    blanked (blanked cur l1) l2 = blanked cur (l1 ++ l2) := by
  unfold blanked
  simp only [State.mk.injEq, and_true, true_and]
  funext x
  by_cases h1 : x ∈ l1 <;> by_cases h2 : x ∈ l2 <;> simp [h1, h2]

theorem blanked_congr (cur : State) (l l' : List Win) (h : ∀ x, x ∈ l ↔ x ∈ l') :
    blanked cur l = blanked cur l' := by
  unfold blanked
  simp only [State.mk.injEq, and_true, true_and]
  funext x
  simp only [h x]

theorem setw_blank (cur : State) (w : Win) :
    setw cur w { cur.windows w with buffer := BufSlot.nil } = blanked cur [w] := by
  unfold blanked setw
  simp only [State.mk.injEq, and_true, true_and]
  funext x
  by_cases h : x = w
  · subst h; simp
  · simp [h]

/-- One call of `delete_all_subwindows`, with the recursive calls written
with `Option.elim`. -/
theorem delete_all_subwindows_succ (f : Nat) (s : State) (w : Win) :
    delete_all_subwindows (f + 1) s w =
      (((blanked s [w]).windows w).next.elim (Res.ok () (blanked s [w]))
          (delete_all_subwindows f (blanked s [w]))).andThen fun _ s2 =>
        ((s2.windows w).vchild.elim (Res.ok () s2) (delete_all_subwindows f s2)).andThen
          fun _ s3 => (s3.windows w).hchild.elim (Res.ok () s3) (delete_all_subwindows f s3) := by
  rw [delete_all_subwindows, setw_blank]
  dsimp only
  congr 1
  · cases ((blanked s [w]).windows w).next <;> rfl
  · funext _ s2
    congr 1
    · cases (s2.windows w).vchild <;> rfl
    · funext _ s3
      cases (s3.windows w).hchild <;> rfl

/-- The function `delete_all_subwindows` marks the windows of a chain and
below as deleted, and changes nothing else. -/
theorem delete_all_subwindows_spec (scr : Scr) (h0 : Win → Window) : ∀ (t : Shape)
    (P : Option (Kind × Win)) (V : Option Win) (fuel : Nat) (cur : State),
    (∀ i ∈ t.infos P V, LinkOK scr h0 i) →
    (∀ x ∈ t.handles, (cur.windows x).next = (h0 x).next
      ∧ (cur.windows x).vchild = (h0 x).vchild ∧ (cur.windows x).hchild = (h0 x).hchild) →
    t.handles.length < fuel →
    t.head.elim (Res.ok () cur) (delete_all_subwindows fuel cur)
      = Res.ok () (blanked cur t.handles) := by
  intro t
  induction t with
  | nil =>
    intro P V fuel cur _ _ _
    simp only [Shape.head, Option.elim, Shape.handles, blanked_nil]
  | node w k ch rest ihc ihr =>
    intro P V fuel cur hl hcur hf
    obtain ⟨f, rfl⟩ : ∃ f, fuel = f + 1 := ⟨fuel - 1, by omega⟩
    simp only [Shape.handles, List.length_cons, List.length_append] at hf
    have hw := hl ⟨w, k, P, V, rest.head, ch.head⟩ (by simp [Shape.infos])
    have hn : (h0 w).next = rest.head := hw.2.2.1
    obtain ⟨c1, c2, c3⟩ := hcur w (by simp [Shape.handles])
    have hlinks : ∀ (l : List Win) (x : Win),
        ((blanked cur l).windows x).next = (cur.windows x).next
        ∧ ((blanked cur l).windows x).vchild = (cur.windows x).vchild
        ∧ ((blanked cur l).windows x).hchild = (cur.windows x).hchild := by
      intro l x
      rw [blanked_windows]
      split <;> exact ⟨rfl, rfl, rfl⟩
    have hr := ihr P (some w) f (blanked cur [w])
      (fun i hi => hl i (by simp [Shape.infos, hi]))
      (fun x hx => by
        obtain ⟨a, b, c⟩ := hlinks [w] x
        obtain ⟨a', b', c'⟩ := hcur x (by simp [Shape.handles, hx])
        exact ⟨a.trans a', b.trans b', c.trans c'⟩)
      (by omega)
    have hc := ihc (some (k, w)) none f (blanked cur (w :: rest.handles))
      (fun i hi => hl i (by simp [Shape.infos, hi]))
      (fun x hx => by
        obtain ⟨a, b, c⟩ := hlinks (w :: rest.handles) x
        obtain ⟨a', b', c'⟩ := hcur x (by simp [Shape.handles, hx])
        exact ⟨a.trans a', b.trans b', c.trans c'⟩)
      (by omega)
    have hfin : blanked cur (w :: rest.handles ++ ch.handles)
        = blanked cur (w :: (ch.handles ++ rest.handles)) :=
      blanked_congr _ _ _ (fun x => by
        simp only [List.cons_append, List.mem_cons, List.mem_append]
        tauto)
    show delete_all_subwindows (f + 1) cur w = _
    rw [delete_all_subwindows_succ, (hlinks [w] w).1, c1, hn, hr, Res.andThen_ok,
      blanked_blanked, List.singleton_append, (hlinks _ w).2.1, c2]
    simp only [Shape.handles]
    rcases linkOK_children scr h0 w k P V rest.head ch hw with
      ⟨h1, h2, h3⟩ | ⟨h1, h2, -, -⟩ | ⟨h1, h2, -, -⟩
    · subst h3
      rw [h1]
      simp only [Option.elim, Res.andThen_ok]
      rw [(hlinks _ w).2.2, c3, h2]
      simp only [Shape.handles, List.nil_append]
    · rw [h1, hc, Res.andThen_ok, blanked_blanked, (hlinks _ w).2.2, c3, h2, hfin]
      rfl
    · rw [h1]
      simp only [Option.elim, Res.andThen_ok]
      rw [(hlinks _ w).2.2, c3, h2]
      have := hc
      simp only [Option.elim] at this
      rw [this, blanked_blanked, hfin]

theorem slotted_windows (cur : State) (slot : Win → Nat) (l : List Win) (x : Win) :
    (slotted cur slot l).windows x
      = if x ∈ l then { cur.windows x with temslot := slot x } else cur.windows x := rfl

theorem slotted_nil (cur : State) (slot : Win → Nat) : slotted cur slot [] = cur := by
  unfold slotted
  simp

theorem slotted_slotted (cur : State) (slot : Win → Nat) (l1 l2 : List Win) :
    slotted (slotted cur slot l1) slot l2 = slotted cur slot (l1 ++ l2) := by
  unfold slotted
  simp only [State.mk.injEq, and_true, true_and]
  funext x
  by_cases h1 : x ∈ l1 <;> by_cases h2 : x ∈ l2 <;> simp [h1, h2]

theorem setw_slot (cur : State) (slot : Win → Nat) (w : Win) (i : Nat) (h : slot w = i) :
    setw cur w { cur.windows w with temslot := i } = slotted cur slot [w] := by
  unfold slotted setw
  simp only [State.mk.injEq, and_true, true_and]
  funext x
  by_cases hx : x = w
  · subst hx; simp [h]
  · simp [hx]

theorem temEq_refl (s : State) : TemEq s s := ⟨rfl, fun _ => rfl⟩

theorem temEq_slotted {s cur : State} (h : TemEq s cur) (slot : Win → Nat) (l : List Win) :
    TemEq s (slotted cur slot l) := by
  obtain ⟨h1, h2⟩ := h
  constructor
  · unfold slotted
    rw [h1]
  · intro x
    rw [slotted_windows]
    split
    · rw [h2 x]
    · exact h2 x

theorem save_markers_shown (s cur : State) (x : Win) (h : TemEq s cur) (hs : ShownAt s x) :
    save_markers cur x = Res.ok (saved_markers s x) cur := by
  obtain ⟨h1, h2⟩ := h
  have hsel : cur.selected_window = s.selected_window := by rw [h1]
  have hbuf : cur.buffers = s.buffers := by rw [h1]
  have hb : (cur.windows x).buffer = (s.windows x).buffer := by rw [h2 x]
  have hp : (cur.windows x).pointm = (s.windows x).pointm := by rw [h2 x]
  have hst : (cur.windows x).start = (s.windows x).start := by rw [h2 x]
  have hsl : (cur.windows x).start_at_line_beg = (s.windows x).start_at_line_beg := by
    rw [h2 x]
  unfold ShownAt at hs
  unfold save_markers saved_markers
  simp only [hb, hp, hst, hsl, hsel, hbuf]
  rcases hbx : (s.windows x).buffer with _ | _ | b
  · rfl
  · rw [hbx] at hs
    exact absurd hs (by simp)
  · rcases hpx : (s.windows x).pointm with _ | pm
    · rw [hbx, hpx] at hs
      exact absurd hs (by simp)
    · rcases hsx : (s.windows x).start with _ | st
      · rw [hbx, hpx, hsx] at hs
        exact absurd hs (by simp)
      · by_cases hx : x = s.selected_window
        · simp [hx, Fcopy_marker, Res.andThen]
        · simp [hx, Fcopy_marker, Res.andThen]

/-- One call of `save_window_save` on a window, with two units of fuel or
more. -/
theorem save_window_save_succ (f : Nat) (s : State) (w : Win) (vec : List SavedWindow)
    (i : Nat) (hi : i < vec.length) :
    save_window_save (f + 2) s (some w) vec i =
      (save_markers (setw s w { s.windows w with temslot := i }) w).andThen fun m s2 =>
        (save_window_save (f + 1) s2 (s2.windows w).vchild
            (vec.set i (saved_of s2 w m.1 m.2.1 m.2.2)) (i + 1)).andThen fun a s3 =>
          (save_window_save (f + 1) s3 (s3.windows w).hchild a.1 a.2).andThen fun b s4 =>
            save_window_save (f + 1) s4 (s4.windows w).next b.1 b.2 := by
  rw [save_window_save, if_neg (by omega)]
  dsimp only
  congr 1
  funext m s2
  congr 1
  · cases (s2.windows w).vchild <;> rfl
  · funext a s3
    congr 1
    cases (s3.windows w).hchild <;> rfl

theorem save_window_save_none (f : Nat) (s : State) (vec : List SavedWindow) (i : Nat) :
    save_window_save (f + 1) s none vec i = Res.ok (vec, i) s := by
  rw [save_window_save]

/-- The saved window that `save_window_save` makes of window `w` is
`entry s slot w` when the parent and the previous window of `w` have their
indices in their `temslot`. -/
theorem saved_of_entry (s cur : State) (slot : Win → Nat) (w : Win) (h : TemEq s cur)
    (hp : ∀ q, (s.windows w).parent = some q → (cur.windows q).temslot = slot q)
    (hv : ∀ v, (s.windows w).prev = some v → (cur.windows v).temslot = slot v) :
    saved_of cur w (saved_markers s w).1 (saved_markers s w).2.1 (saved_markers s w).2.2
      = entry s slot w := by
  obtain ⟨-, h2⟩ := h
  unfold saved_of entry
  have e : ∀ (f : Window → Option Win), (∀ a b, f { a with temslot := b } = f a) →
      (∀ q, f (s.windows w) = some q → (cur.windows q).temslot = slot q) →
      (f (cur.windows w)).map (fun q => (cur.windows q).temslot)
        = (f (s.windows w)).map slot := by
    intro f hf hq
    rw [h2 w, hf]
    rcases hfw : f (s.windows w) with _ | q
    · rfl
    · simp only [Option.map_some', hq q hfw]
  have e1 := e Window.parent (fun _ _ => rfl) hp
  have e2 := e Window.prev (fun _ _ => rfl) hv
  simp only [e1, e2]
  rw [h2 w]

/-- The function `save_window_save` fills the vector with the saved windows
of a chain and below, in pre-order, and records the indices in the
windows. -/
theorem save_window_save_spec (s : State) (scr : Scr) (slot : Win → Nat) : ∀ (t : Shape)
    (P : Option (Kind × Win)) (V : Option Win) (fuel : Nat) (cur : State)
    (done todo after : List SavedWindow),
    (∀ i ∈ t.infos P V, LinkOK scr s.windows i) →
    (∀ x ∈ t.handles, ShownAt s x) →
    TemEq s cur →
    todo.length = t.handles.length →
    (∀ j x, t.handles[j]? = some x → slot x = done.length + j) →
    t.handles.Nodup →
    (∀ k q, P = some (k, q) → (cur.windows q).temslot = slot q ∧ q ∉ t.handles) →
    (∀ v, V = some v → (cur.windows v).temslot = slot v ∧ v ∉ t.handles) →
    t.handles.length < fuel →
    save_window_save fuel cur t.head (done ++ todo ++ after) done.length
      = Res.ok (done ++ t.handles.map (entry s slot) ++ after, done.length + t.handles.length)
          (slotted cur slot t.handles) := by
  intro t
  induction t with
  | nil =>
    intro P V fuel cur done todo after _ _ _ hlen _ _ _ _ hf
    obtain ⟨f, rfl⟩ : ∃ f, fuel = f + 1 := ⟨fuel - 1, by omega⟩
    simp only [Shape.handles, List.length_nil, List.length_eq_zero] at hlen
    subst hlen
    simp only [Shape.head, save_window_save_none, Shape.handles, List.map_nil, List.append_nil,
      List.length_nil, Nat.add_zero, slotted_nil]
  | node w k ch rest ihc ihr =>
    intro P V fuel cur done todo after hl hsh htem hlen hslot hnd hP hV hf
    simp only [Shape.handles, List.length_cons, List.length_append] at hf hlen
    obtain ⟨f, rfl⟩ : ∃ f, fuel = f + 2 := ⟨fuel - 2, by omega⟩
    obtain ⟨e0, todo', rfl⟩ : ∃ e0 todo', todo = e0 :: todo' := by
      cases todo with
      | nil => simp at hlen
      | cons a l => exact ⟨a, l, rfl⟩
    simp only [List.length_cons, Nat.add_right_cancel_iff] at hlen
    have hw := hl ⟨w, k, P, V, rest.head, ch.head⟩ (by simp [Shape.infos])
    obtain ⟨hpar, hprev, hnext, -, -⟩ := hw
    simp only at hpar hprev hnext
    simp only [Shape.handles, List.nodup_cons, List.mem_append, List.nodup_append,
      not_or] at hnd
    obtain ⟨⟨hwc, hwr⟩, hndc, hndr, hdisj⟩ := hnd
    have hsw : slot w = done.length := by
      have := hslot 0 w (by simp [Shape.handles])
      simpa using this
    -- the window itself
    have hs1 : setw cur w { cur.windows w with temslot := done.length }
        = slotted cur slot [w] := setw_slot cur slot w _ hsw
    have htem1 : TemEq s (slotted cur slot [w]) := temEq_slotted htem slot [w]
    have hent : saved_of (slotted cur slot [w]) w (saved_markers s w).1 (saved_markers s w).2.1
        (saved_markers s w).2.2 = entry s slot w := by
      refine saved_of_entry s _ slot w htem1 ?_ ?_
      · intro q hq
        rw [hpar] at hq
        rcases P with _ | ⟨kq, q'⟩
        · simp at hq
        · simp only [Option.map_some', Option.some.injEq] at hq
          subst hq
          obtain ⟨a, b⟩ := hP kq q' rfl
          have hne : q' ≠ w := fun e => b (by simp [Shape.handles, e])
          rw [slotted_windows, if_neg (by simpa using hne)]
          exact a
      · intro v hv
        rw [hprev] at hv
        subst hv
        obtain ⟨a, b⟩ := hV v rfl
        have hne : v ≠ w := fun e => b (by simp [Shape.handles, e])
        rw [slotted_windows, if_neg (by simpa using hne)]
        exact a
    have hvec : (done ++ e0 :: todo' ++ after).set done.length (entry s slot w)
        = (done ++ [entry s slot w]) ++ todo'.take ch.handles.length
            ++ (todo'.drop ch.handles.length ++ after) := by
      rw [List.append_assoc, List.set_append_right _ _ (le_refl _), Nat.sub_self]
      simp only [List.cons_append, List.set_cons_zero, List.append_assoc, List.singleton_append]
      rw [← List.append_assoc (todo'.take _) _ after, List.take_append_drop]
      rfl
    have hfield : ∀ (c : State), TemEq s c → (c.windows w).vchild = (s.windows w).vchild
        ∧ (c.windows w).hchild = (s.windows w).hchild
        ∧ (c.windows w).next = (s.windows w).next := by
      intro c hc
      rw [hc.2 w]
      exact ⟨rfl, rfl, rfl⟩
    have htem3 : TemEq s (slotted (slotted cur slot [w]) slot ch.handles) :=
      temEq_slotted htem1 slot _
    -- the children
    have hc := ihc (some (k, w)) none (f + 1) (slotted cur slot [w])
      (done ++ [entry s slot w]) (todo'.take ch.handles.length)
      (todo'.drop ch.handles.length ++ after)
      (fun i hi => hl i (by simp [Shape.infos, hi]))
      (fun x hx => hsh x (by simp [Shape.handles, hx])) htem1
      (by rw [List.length_take]; omega)
      (fun j x hj => by
        have := hslot (j + 1) x (by
          simp only [Shape.handles, List.getElem?_cons_succ]
          rw [List.getElem?_append_left (List.getElem?_eq_some.1 hj).1]
          exact hj)
        rw [this, List.length_append, List.length_singleton]
        omega)
      hndc
      (fun k' q hq => by
        simp only [Option.some.injEq, Prod.mk.injEq] at hq
        obtain ⟨-, rfl⟩ := hq
        exact ⟨by rw [slotted_windows, if_pos (by simp)], hwc⟩)
      (fun v hv => absurd hv (by simp)) (by omega)
    -- the rest of the chain
    have hr := ihr P (some w) (f + 1) (slotted (slotted cur slot [w]) slot ch.handles)
      (done ++ [entry s slot w] ++ ch.handles.map (entry s slot))
      (todo'.drop ch.handles.length) after
      (fun i hi => hl i (by simp [Shape.infos, hi]))
      (fun x hx => hsh x (by simp [Shape.handles, hx])) htem3
      (by rw [List.length_drop]; omega)
      (fun j x hj => by
        have := hslot (1 + ch.handles.length + j) x (by
          simp only [Shape.handles]
          rw [Nat.add_assoc, Nat.add_comm 1, List.getElem?_cons_succ,
            List.getElem?_append_right (by omega), Nat.add_sub_cancel_left]
          exact hj)
        rw [this]
        simp only [List.length_append, List.length_singleton, List.length_map]
        omega)
      hndr
      (fun k' q hq => by
        obtain ⟨a, b⟩ := hP k' q hq
        simp only [Shape.handles, List.mem_cons, List.mem_append, not_or] at b
        refine ⟨?_, b.2.2⟩
        rw [slotted_windows, if_neg b.2.1, slotted_windows, if_neg (by simpa using b.1)]
        exact a)
      (fun v hv => by
        simp only [Option.some.injEq] at hv
        subst hv
        refine ⟨?_, hwr⟩
        rw [slotted_windows, if_neg hwc, slotted_windows, if_pos (by simp)])
      (by omega)
    have hlen1 : (done ++ [entry s slot w]).length = done.length + 1 := by simp
    have hfinal : (Res.ok (done ++ [entry s slot w] ++ ch.handles.map (entry s slot)
          ++ rest.handles.map (entry s slot) ++ after,
          (done ++ [entry s slot w] ++ ch.handles.map (entry s slot)).length
            + rest.handles.length)
          (slotted (slotted (slotted cur slot [w]) slot ch.handles) slot rest.handles)
          : Res (List SavedWindow × Nat))
        = Res.ok (done ++ (Shape.node w k ch rest).handles.map (entry s slot) ++ after,
            done.length + (Shape.node w k ch rest).handles.length)
          (slotted cur slot (Shape.node w k ch rest).handles) := by
      rw [slotted_slotted, slotted_slotted]
      simp only [Shape.handles, List.map_cons, List.map_append, List.append_assoc,
        List.singleton_append, List.length_append, List.length_cons, List.length_map,
        List.length_nil, List.cons_append, List.nil_append]
      congr 2
      omega
    show save_window_save (f + 2) cur (some w) (done ++ e0 :: todo' ++ after) done.length = _
    rw [save_window_save_succ f cur w _ _ (by simp), hs1,
      save_markers_shown s _ w htem1 (hsh w (by simp [Shape.handles])), Res.andThen_ok, hent,
      hvec, (hfield _ htem1).1]
    rw [hlen1] at hc
    rcases linkOK_children scr s.windows w k P V rest.head ch
        (hl ⟨w, k, P, V, rest.head, ch.head⟩ (by simp [Shape.infos])) with
      ⟨h1, h2, h3⟩ | ⟨h1, h2, -, -⟩ | ⟨h1, h2, -, -⟩
    · have h1' : (s.windows w).vchild = ch.head := by rw [h1, h3]; rfl
      rw [h1', hc, Res.andThen_ok]
      dsimp only
      rw [(hfield _ htem3).2.1, h2, save_window_save_none, Res.andThen_ok]
      dsimp only
      rw [(hfield _ htem3).2.2, hnext]
      have hr' := hr.trans hfinal
      simp only [List.append_assoc, List.length_append, List.length_singleton,
        List.length_map, List.length_cons, List.length_nil, Nat.zero_add,
        Nat.add_assoc] at hr' ⊢
      exact hr'
    · rw [h1, hc, Res.andThen_ok]
      dsimp only
      rw [(hfield _ htem3).2.1, h2, save_window_save_none, Res.andThen_ok]
      dsimp only
      rw [(hfield _ htem3).2.2, hnext]
      have hr' := hr.trans hfinal
      simp only [List.append_assoc, List.length_append, List.length_singleton,
        List.length_map, List.length_cons, List.length_nil, Nat.zero_add,
        Nat.add_assoc] at hr' ⊢
      exact hr'
    · rw [h1, save_window_save_none, Res.andThen_ok]
      dsimp only
      rw [(hfield _ htem1).2.1, h2, hc, Res.andThen_ok]
      dsimp only
      rw [(hfield _ htem3).2.2, hnext]
      have hr' := hr.trans hfinal
      simp only [List.append_assoc, List.length_append, List.length_singleton,
        List.length_map, List.length_cons, List.length_nil, Nat.zero_add,
        Nat.add_assoc] at hr' ⊢
      exact hr'

theorem pair_sublist_cons (w x : Win) (l : List Win) (hx : x ∈ l) : [w, x].Sublist (w :: l) :=
  List.Sublist.cons₂ w (List.singleton_sublist.2 hx)

theorem sublist_node_child {l : List Win} (w : Win) (ch rest : Shape)
    (h : l.Sublist ch.handles) : l.Sublist (Shape.node w Kind.leaf ch rest).handles :=
  List.Sublist.cons w (h.trans (List.sublist_append_left _ _))

theorem sublist_node_rest {l : List Win} (w : Win) (ch rest : Shape)
    (h : l.Sublist rest.handles) : l.Sublist (Shape.node w Kind.leaf ch rest).handles :=
  List.Sublist.cons w (h.trans (List.sublist_append_right _ _))

theorem head_info (t : Shape) (P : Option (Kind × Win)) (V : Option Win) (y : Win)
    (h : t.head = some y) : ∃ j ∈ t.infos P V, j.w = y ∧ j.prev = V ∧ j.par = P := by
  cases t with
  | nil => simp [Shape.head] at h
  | node w k ch rest =>
    simp only [Shape.head, Option.some.injEq] at h
    subst h
    exact ⟨_, List.mem_cons_self _ _, rfl, rfl, rfl⟩

/-- In the pre-order of a chain the parent of a window comes before it. -/
theorem infos_par_before (t : Shape) : ∀ (P : Option (Kind × Win)) (V : Option Win),
    ∀ i ∈ t.infos P V,
      i.par = P ∨ ∃ j ∈ t.infos P V, i.par = some (j.k, j.w) ∧ [j.w, i.w].Sublist t.handles := by
  induction t with
  | nil => intro P V i hi; simp [Shape.infos] at hi
  | node w k ch rest ihc ihr =>
    intro P V i hi
    simp only [Shape.infos, List.mem_cons, List.mem_append] at hi
    rcases hi with hi | hi | hi
    · subst hi; exact Or.inl rfl
    · right
      rcases ihc _ _ i hi with h | ⟨j, hj, hp, hs⟩
      · refine ⟨_, List.mem_cons_self _ _, h, ?_⟩
        exact pair_sublist_cons _ _ _
          (List.mem_append_left _ (infos_fields ch _ _ i hi).1)
      · exact ⟨j, by simp [Shape.infos, hj], hp, sublist_node_child w ch rest hs⟩
    · rcases ihr _ _ i hi with h | ⟨j, hj, hp, hs⟩
      · exact Or.inl h
      · exact Or.inr ⟨j, by simp [Shape.infos, hj], hp, sublist_node_rest w ch rest hs⟩

/-- In the pre-order of a chain the previous sibling of a window comes
before it, and the window is its next sibling. -/
theorem infos_prev_before (t : Shape) : ∀ (P : Option (Kind × Win)) (V : Option Win),
    ∀ i ∈ t.infos P V,
      i.prev = none ∨ (i.prev = V ∧ t.head = some i.w)
        ∨ ∃ j ∈ t.infos P V, i.prev = some j.w ∧ j.next = some i.w
            ∧ [j.w, i.w].Sublist t.handles := by
  induction t with
  | nil => intro P V i hi; simp [Shape.infos] at hi
  | node w k ch rest ihc ihr =>
    intro P V i hi
    simp only [Shape.infos, List.mem_cons, List.mem_append] at hi
    rcases hi with hi | hi | hi
    · subst hi; exact Or.inr (Or.inl ⟨rfl, rfl⟩)
    · rcases ihc _ _ i hi with h | ⟨h, -⟩ | ⟨j, hj, hp, hn, hs⟩
      · exact Or.inl h
      · exact Or.inl h
      · exact Or.inr (Or.inr ⟨j, by simp [Shape.infos, hj], hp, hn,
          sublist_node_child w ch rest hs⟩)
    · rcases ihr _ _ i hi with h | ⟨h, hh⟩ | ⟨j, hj, hp, hn, hs⟩
      · exact Or.inl h
      · refine Or.inr (Or.inr ⟨_, List.mem_cons_self _ _, h, hh, ?_⟩)
        exact pair_sublist_cons _ _ _
          (List.mem_append_right _ (infos_fields rest _ _ i hi).1)
      · exact Or.inr (Or.inr ⟨j, by simp [Shape.infos, hj], hp, hn,
          sublist_node_rest w ch rest hs⟩)

/-- In the pre-order of a chain the next sibling of a window comes after it,
and the window is its previous sibling. -/
theorem infos_next_after (t : Shape) : ∀ (P : Option (Kind × Win)) (V : Option Win),
    ∀ i ∈ t.infos P V,
      i.next = none ∨ ∃ j ∈ t.infos P V, i.next = some j.w ∧ j.prev = some i.w
            ∧ [i.w, j.w].Sublist t.handles := by
  induction t with
  | nil => intro P V i hi; simp [Shape.infos] at hi
  | node w k ch rest ihc ihr =>
    intro P V i hi
    simp only [Shape.infos, List.mem_cons, List.mem_append] at hi
    rcases hi with hi | hi | hi
    · subst hi
      cases hr : rest.head with
      | none => exact Or.inl rfl
      | some y =>
        obtain ⟨j, hj, hw, hp, -⟩ := head_info rest P (some w) y hr
        refine Or.inr ⟨j, by simp [Shape.infos, hj], by simp [hw], hp, ?_⟩
        rw [hw]
        exact pair_sublist_cons _ _ _
          (List.mem_append_right _ (head_mem_handles rest y hr))
    · rcases ihc _ _ i hi with h | ⟨j, hj, hp, hn, hs⟩
      · exact Or.inl h
      · exact Or.inr ⟨j, by simp [Shape.infos, hj], hp, hn, sublist_node_child w ch rest hs⟩
    · rcases ihr _ _ i hi with h | ⟨j, hj, hp, hn, hs⟩
      · exact Or.inl h
      · exact Or.inr ⟨j, by simp [Shape.infos, hj], hp, hn, sublist_node_rest w ch rest hs⟩

/-- A window without previous sibling is the first window of the chain or
the first child of its parent. -/
theorem infos_first_child (t : Shape) : ∀ (P : Option (Kind × Win)) (V : Option Win),
    ∀ i ∈ t.infos P V, i.prev = none →
      (i.par = P ∧ V = none ∧ t.head = some i.w)
        ∨ ∃ j ∈ t.infos P V, i.par = some (j.k, j.w) ∧ j.child = some i.w := by
  induction t with
  | nil => intro P V i hi; simp [Shape.infos] at hi
  | node w k ch rest ihc ihr =>
    intro P V i hi hp
    simp only [Shape.infos, List.mem_cons, List.mem_append] at hi
    rcases hi with hi | hi | hi
    · subst hi; exact Or.inl ⟨rfl, hp, rfl⟩
    · right
      rcases ihc _ _ i hi hp with ⟨h, -, hh⟩ | ⟨j, hj, hq, hc⟩
      · exact ⟨_, List.mem_cons_self _ _, h, hh⟩
      · exact ⟨j, by simp [Shape.infos, hj], hq, hc⟩
    · rcases ihr _ _ i hi hp with ⟨-, h, -⟩ | ⟨j, hj, hq, hc⟩
      · exact absurd h (by simp)
      · exact Or.inr ⟨j, by simp [Shape.infos, hj], hq, hc⟩

theorem mem_of_pair_sublist_left {q x : Win} {l1 l2 : List Win}
    (hn : (l1 ++ x :: l2).Nodup) (h : [q, x].Sublist (l1 ++ x :: l2)) : q ∈ l1 := by
  have hx1 : x ∉ l1 := fun hx => by
    have := List.nodup_append.1 hn
    exact this.2.2 hx (List.mem_cons_self _ _) 
  have hx2 : x ∉ l2 := by
    have := (List.nodup_append.1 hn).2.1
    exact (List.nodup_cons.1 this).1
  induction l1 with
  | nil =>
    simp only [List.nil_append] at h
    cases h with
    | cons _ h' => exact absurd (h'.subset (by simp)) hx2
    | cons₂ _ h' => exact absurd (h'.subset (by simp)) hx2
  | cons a l ih =>
    simp only [List.cons_append] at h hn
    cases h with
    | cons _ h' =>
      exact List.mem_cons_of_mem _
        (ih (List.nodup_cons.1 hn).2 h' (fun hx => hx1 (List.mem_cons_of_mem _ hx)))
    | cons₂ _ h' => exact List.mem_cons_self _ _

theorem mem_of_pair_sublist_right {x z : Win} {l1 l2 : List Win}
    (hn : (l1 ++ x :: l2).Nodup) (h : [x, z].Sublist (l1 ++ x :: l2)) : z ∈ l2 := by
  have hx1 : x ∉ l1 := fun hx => by
    have := List.nodup_append.1 hn
    exact this.2.2 hx (List.mem_cons_self _ _) 
  induction l1 with
  | nil =>
    simp only [List.nil_append] at h hn
    cases h with
    | cons _ h' =>
      have : x ∈ l2 := h'.subset (by simp)
      exact absurd this (List.nodup_cons.1 hn).1
    | cons₂ _ h' => exact h'.subset (by simp)
  | cons a l ih =>
    simp only [List.cons_append] at h hn
    cases h with
    | cons _ h' =>
      exact ih (List.nodup_cons.1 hn).2 h' (fun hx => hx1 (List.mem_cons_of_mem _ hx))
    | cons₂ _ h' =>
      exact absurd (List.mem_cons_self _ _) hx1

/-- In a tiled tree whose combinations have at least two children and whose
leaves are at least one column wide, every window is at least one column
wide and the first child of a horizontal combination is narrower than the
combination. -/
theorem widths_of_tiled (h : Win → Window) : ∀ (t : Shape) (P : Option (Kind × Win))
    (V : Option Win), (∀ i ∈ t.infos P V, TileX h i) → t.branched = true →
    (∀ x ∈ t.leaves, 1 ≤ (h x).width) →
    (∀ x ∈ t.handles, 1 ≤ (h x).width)
      ∧ ∀ i ∈ t.infos P V, i.k = Kind.hcomb → ∀ c, i.child = some c →
          (h c).width ≠ (h i.w).width := by
  intro t
  induction t with
  | nil => intro P V _ _ _; exact ⟨by simp [Shape.handles], by simp [Shape.infos]⟩
  | node w k ch rest ihc ihr =>
    intro P V ht hb hl
    simp only [Shape.branched, Bool.and_eq_true] at hb
    obtain ⟨⟨hk, hbc⟩, hbr⟩ := hb
    have htc : ∀ i ∈ ch.infos (some (k, w)) none, TileX h i :=
      fun i hi => ht i (by simp [Shape.infos, hi])
    have htr : ∀ i ∈ rest.infos P (some w), TileX h i :=
      fun i hi => ht i (by simp [Shape.infos, hi])
    have hlr : ∀ x ∈ rest.leaves, 1 ≤ (h x).width := by
      intro x hx
      apply hl
      cases k <;> simp [Shape.leaves, hx]
    obtain ⟨hr1, hr2⟩ := ihr P (some w) htr hbr hlr
    have hlc : ∀ x ∈ ch.leaves, 1 ≤ (h x).width := by
      intro x hx
      cases k with
      | leaf =>
        simp only [decide_eq_true_eq] at hk
        subst hk
        simp [Shape.leaves] at hx
      | hcomb => exact hl x (by simp [Shape.leaves, hx])
      | vcomb => exact hl x (by simp [Shape.leaves, hx])
    obtain ⟨hc1, hc2⟩ := ihc (some (k, w)) none htc hbc hlc
    have key : 1 ≤ (h w).width ∧ (k = Kind.hcomb → ∀ c, ch.head = some c →
        (h c).width ≠ (h w).width) := by
      cases k with
      | leaf => exact ⟨hl w (by simp [Shape.leaves]), fun e => absurd e (by simp)⟩
      | vcomb =>
        refine ⟨?_, fun e => absurd e (by simp)⟩
        simp only [decide_eq_true_eq] at hk
        cases ch with
        | nil => simp [Shape.tops] at hk
        | node c kc chc rest2 =>
          have h1 := htc _ (List.mem_cons_self _ _)
          simp only [TileX] at h1
          rw [← h1.2]
          exact hc1 c (by simp [Shape.handles])
      | hcomb =>
        simp only [decide_eq_true_eq] at hk
        cases ch with
        | nil => simp [Shape.tops] at hk
        | node c kc chc rest2 =>
          cases rest2 with
          | nil => simp [Shape.tops] at hk
          | node c2 kc2 chc2 rest3 =>
            have h1 := sum_width_of_tile h w _ none htc (by simp)
            have h2 : 1 ≤ (h c).width := hc1 c (by simp [Shape.handles])
            have h3 : 1 ≤ (h c2).width := hc1 c2 (by simp [Shape.handles])
            have h4 : 0 ≤ sum_width h rest3.tops :=
              sum_width_nonneg h _ (fun z hz => by
                have := hc1 z (by
                  have := tops_sub_handles rest3 z hz
                  simp [Shape.handles, this])
                omega)
            simp only [start_x, Shape.tops, sum_width, List.map_cons, List.sum_cons]
              at h1 h4
            refine ⟨by omega, fun _ c0 hc0 => ?_⟩
            simp only [Shape.head, Option.some.injEq] at hc0
            subst hc0
            omega
    refine ⟨?_, ?_⟩
    · intro x hx
      simp only [Shape.handles, List.mem_cons, List.mem_append] at hx
      rcases hx with rfl | hx | hx
      · exact key.1
      · exact hc1 x hx
      · exact hr1 x hx
    · intro i hi
      simp only [Shape.infos, List.mem_cons, List.mem_append] at hi
      rcases hi with rfl | hi | hi
      · exact key.2
      · exact hc2 i hi
      · exact hr2 i hi

/-- In a well-formed tree whose combinations have at least two children and
whose leaves are at least one column wide, every window is placed. -/
theorem placed_of_wf (s : State) (scr : Scr) (t : Shape) (hwf : WF s scr t)
    (hb : t.branched = true) (hl : ∀ x ∈ t.leaves, 1 ≤ (s.windows x).width) :
    ∀ x ∈ t.handles, Placed s t.handles x := by
  intro x hx
  obtain ⟨⟨-, -, -, hlink⟩, htile⟩ := hwf
  obtain ⟨-, hnar⟩ := widths_of_tiled s.windows t none none (fun i hi => (htile i hi).1) hb hl
  rw [← infos_map_w t none none] at hx
  obtain ⟨i, hi, rfl⟩ := List.mem_map.1 hx
  have hli := hlink i hi
  obtain ⟨hpar, hprev, hnext, -, -⟩ := hli
  refine ⟨?_, ?_, ?_, ?_⟩
  · intro q hq
    rw [hpar] at hq
    rcases infos_par_before t none none i hi with h | ⟨j, hj, hp, hs⟩
    · rw [h] at hq; simp at hq
    · rw [hp] at hq
      simp only [Option.map_some', Option.some.injEq] at hq
      rw [← hq]; exact hs
  · intro v hv
    rw [hprev] at hv
    rcases infos_prev_before t none none i hi with h | ⟨h, -⟩ | ⟨j, hj, hp, hn, hs⟩
    · rw [h] at hv; simp at hv
    · rw [h] at hv; simp at hv
    · rw [hp] at hv
      simp only [Option.some.injEq] at hv
      rw [← hv]
      exact ⟨hs, by rw [(hlink j hj).2.2.1]; exact hn⟩
  · intro z hz
    rw [hnext] at hz
    rcases infos_next_after t none none i hi with h | ⟨j, hj, hp, hn, hs⟩
    · rw [h] at hz; simp at hz
    · rw [hp] at hz
      simp only [Option.some.injEq] at hz
      rw [← hz]
      exact ⟨hs, by rw [(hlink j hj).2.1]; exact hn⟩
  · intro hp q hq
    rw [hprev] at hp
    rw [hpar] at hq
    rcases infos_first_child t none none i hi hp with ⟨h, -, -⟩ | ⟨j, hj, hpj, hc⟩
    · rw [h] at hq; simp at hq
    · rw [hpj] at hq
      simp only [Option.map_some', Option.some.injEq] at hq
      subst hq
      have hlj := hlink j hj
      have htx := (htile i hi).1
      have hn := hnar j hj
      obtain ⟨-, -, -, -, hk⟩ := hlj
      unfold TileX at htx
      rw [hpj] at htx
      rcases hjk : j.k with _ | _ | _
      · rw [hjk] at hk
        simp only at hk
        rw [hk.2.2.2] at hc
        simp at hc
      · rw [hjk] at hk
        simp only at hk
        rw [if_neg (hn hjk _ hc)]
        exact ⟨hk.1.trans hc, hk.2.2.1⟩
      · rw [hjk] at hk htx
        simp only at hk htx
        rw [if_pos htx.2]
        exact ⟨hk.1.trans hc, hk.2.2.1⟩

theorem saved_window_at_map (s : State) (slot : Win → Nat) (H : List Win) (y : Win)
    (h : H[slot y]? = some y) :
    saved_window_at (H.map (entry s slot)) (slot y) = Walk.val (some y) := by
  unfold saved_window_at
  rw [List.getElem?_map, h]
  rfl

theorem window_eta_children (w : Window) (a b : Option Win) (h1 : w.vchild = a)
    (h2 : w.hchild = b) : { w with vchild := a, hchild := b } = w := by
  subst h1; subst h2; rfl

theorem window_eta_children2 (w : Window) (a b : Option Win) (h1 : w.vchild = a)
    (h2 : w.hchild = b) : { w with hchild := b, vchild := a } = w := by
  subst h1; subst h2; rfl

/-- The links that the loop of `Fset_window_configuration` restores for
window `x` from its saved window. -/
theorem restore_links_spec (s cur : State) (slot : Win → Nat) (V : List SavedWindow) (x : Win)
    (hq : ∀ q, (s.windows x).parent = some q →
      saved_window_at V (slot q) = Walk.val (some q) ∧ q ≠ x
        ∧ (cur.windows q).width = (s.windows q).width
        ∧ (cur.windows q).vchild = (s.windows q).vchild
        ∧ (cur.windows q).hchild = (s.windows q).hchild)
    (hv : ∀ v, (s.windows x).prev = some v →
      saved_window_at V (slot v) = Walk.val (some v) ∧ v ≠ x)
    (h4 : (s.windows x).prev = none → ∀ q, (s.windows x).parent = some q →
        if (s.windows x).width = (s.windows q).width then
          (s.windows q).vchild = some x ∧ (s.windows q).hchild = none
        else (s.windows q).hchild = some x ∧ (s.windows q).vchild = none) :
    ∃ cur1, restore_links cur V (entry s slot x) x = Res.ok () cur1
      ∧ cur1 = { cur with windows := cur1.windows }
      ∧ cur1.windows x = { cur.windows x with
          next := none, parent := (s.windows x).parent, prev := (s.windows x).prev }
      ∧ (∀ v, (s.windows x).prev = some v →
          cur1.windows v = { cur.windows v with next := some x })
      ∧ ∀ y, y ≠ x → (s.windows x).prev ≠ some y → cur1.windows y = cur.windows y := by
  unfold restore_links
  have e1 : (entry s slot x).parent = (s.windows x).parent.map slot := rfl
  have e2 : (entry s slot x).prev = (s.windows x).prev.map slot := rfl
  have e3 : (entry s slot x).window = some x := rfl
  have e4 : (entry s slot x).width = (s.windows x).width := rfl
  simp only [e1, e2, e3, e4]
  rcases hp : (s.windows x).parent with _ | q
  · rcases hpv : (s.windows x).prev with _ | v
    · simp only [Option.map_none', Res.ofWalk, Res.andThen, setw, if_true]
      refine ⟨_, rfl, rfl, ?_, ?_, ?_⟩
      · dsimp only; rw [if_pos rfl]
      · intro v hv; exact absurd hv (by simp)
      · intro y hy _
        simp [hy]
    · obtain ⟨hv1, hv2⟩ := hv v hpv
      have hv3 : ¬ (x = v) := fun e => hv2 e.symm
      simp only [Option.map_none', Option.map_some', hv1, Res.ofWalk, Res.andThen, setw,
        if_true, Option.some.injEq, hv2, hv3, and_false, if_false]
      refine ⟨_, rfl, rfl, ?_, ?_, ?_⟩
      · dsimp only; rw [if_neg hv3, if_pos rfl]
      · intro v' hv'
        subst hv'
        dsimp only; rw [if_pos rfl]
      · intro y hy hy2
        have : y ≠ v := fun e => hy2 (by rw [e])
        simp [hy, this]
  · obtain ⟨hq1, hq2, hq3, hq4, hq5⟩ := hq q hp
    have hq6 : ¬ (x = q) := fun e => hq2 e.symm
    rcases hpv : (s.windows x).prev with _ | v
    · have h4' := h4 hpv q hp
      by_cases hw : (s.windows x).width = (s.windows q).width
      · rw [if_pos hw] at h4'
        have hw' : (s.windows x).width = (cur.windows q).width := hw.trans hq3.symm
        simp only [Option.map_none', Option.map_some', hq1, Res.ofWalk, Res.andThen, setw,
          if_true, hq2, if_false, if_pos hw']
        refine ⟨_, rfl, rfl, ?_, ?_, ?_⟩
        · simp [hq6]
        · intro v hv; exact absurd hv (by simp)
        · intro y hy _
          simp only [hy, if_false]
          by_cases hyq : y = q
          · subst hyq
            simp only [if_true]
            exact window_eta_children _ _ _ (hq4.trans h4'.1) (hq5.trans h4'.2)
          · simp [hyq]
      · rw [if_neg hw] at h4'
        have hw' : ¬ (s.windows x).width = (cur.windows q).width := fun e => hw (e.trans hq3)
        simp only [Option.map_none', Option.map_some', hq1, Res.ofWalk, Res.andThen, setw,
          if_true, hq2, if_false, if_neg hw']
        refine ⟨_, rfl, rfl, ?_, ?_, ?_⟩
        · simp [hq6]
        · intro v hv; exact absurd hv (by simp)
        · intro y hy _
          simp only [hy, if_false]
          by_cases hyq : y = q
          · subst hyq
            simp only [if_true]
            exact window_eta_children2 _ _ _ (hq4.trans h4'.2) (hq5.trans h4'.1)
          · simp [hyq]
    · obtain ⟨hv1, hv2⟩ := hv v hpv
      have hv3 : ¬ (x = v) := fun e => hv2 e.symm
      simp only [Option.map_some', hq1, hv1, Res.ofWalk, Res.andThen, setw,
        if_true, Option.some.injEq, hv2, hv3, and_false, if_false]
      refine ⟨_, rfl, rfl, ?_, ?_, ?_⟩
      · dsimp only; rw [if_neg hv3, if_pos rfl]
      · intro v' hv'
        subst hv'
        dsimp only; rw [if_pos rfl]
      · intro y hy hy2
        have : y ≠ v := fun e => hy2 (by rw [e])
        simp [hy, this]

theorem restore_marker_some (m : Option Marker) (k : Marker) (b b0 : Buf)
    (h : k.buffer = some b0) :
    restore_marker m (some k) b = Walk.val (set_marker m k.charpos b) := by
  unfold restore_marker
  simp only [h]

/-- The buffer and the markers that the loop of `Fset_window_configuration`
restores for window `x` from its saved window. -/
theorem restore_buffer_spec (E : Ext) (s c2 : State) (slot : Win → Nat) (x : Win)
    (ncb : Option Buf) (hbuf : c2.buffers = s.buffers)
    (hcb : c2.current_buffer = s.current_buffer) (hs : ShownAt s x)
    (hncb : ∀ b, (s.buffers b).name_live = true → ¬ (some b ≠ ncb ∧ b = s.current_buffer)) :
    ∃ c3 a b c, restore_buffer E c2 (entry s slot x) x ncb = Res.ok () c3
      ∧ c3 = { c2 with windows := c3.windows }
      ∧ c3.windows x = { c2.windows x with
          buffer := (s.windows x).buffer, start := a, pointm := b, start_at_line_beg := c }
      ∧ ∀ y, y ≠ x → c3.windows y = c2.windows y := by
  unfold restore_buffer
  have e1 : (entry s slot x).buffer = (s.windows x).buffer := rfl
  have e2 : (entry s slot x).start = (saved_markers s x).2.1 := rfl
  have e3 : (entry s slot x).pointm = (saved_markers s x).1 := rfl
  have e4 : (entry s slot x).start_at_line_beg = (saved_markers s x).2.2 := rfl
  simp only [e1, e2, e3, e4]
  unfold ShownAt at hs
  unfold saved_markers
  rcases hbx : (s.windows x).buffer with _ | _ | pb
  · refine ⟨_, (c2.windows x).start, (c2.windows x).pointm, (c2.windows x).start_at_line_beg,
      rfl, rfl, ?_, ?_⟩
    · simp only [setw, if_true]
    · intro y hy
      simp only [setw, if_neg hy]
  · rw [hbx] at hs
    exact absurd hs (by simp)
  · rcases hpx : (s.windows x).pointm with _ | pm
    · rw [hbx, hpx] at hs
      exact absurd hs (by simp)
    · rcases hsx : (s.windows x).start with _ | st
      · rw [hbx, hpx, hsx] at hs
        exact absurd hs (by simp)
      · rw [hbx, hpx, hsx] at hs
        simp only at hs
        obtain ⟨hlive, hpm, hst⟩ := hs
        have hn := hncb pb hlive
        have hn' : ¬ (some pb ≠ ncb ∧ pb = c2.current_buffer) := by rw [hcb]; exact hn
        have hl2 : (c2.buffers pb).name_live = true := by rw [hbuf]; exact hlive
        simp only [hl2, if_true]
        rw [restore_marker_some _ st pb pb hst]
        simp only [Res.ofWalk, Res.andThen]
        by_cases hsel : x = s.selected_window
        · have hsm : set_marker (some Fmake_marker) (s.buffers pb).pt pb
              = some { buffer := some pb, charpos := (s.buffers pb).pt } := rfl
          simp only [if_pos hsel, hsm]
          rw [restore_marker_some _ _ pb pb rfl]
          simp only [Res.ofWalk, Res.andThen]
          refine ⟨_, set_marker (c2.windows x).start st.charpos pb,
            set_marker (c2.windows x).pointm (s.buffers pb).pt pb,
            (s.windows x).start_at_line_beg, if_neg hn', rfl, ?_, ?_⟩
          · simp only [setw, if_true]
          · intro y hy
            simp only [setw, if_neg hy]
        · simp only [if_neg hsel]
          rw [restore_marker_some _ pm pb pb hpm]
          simp only [Res.ofWalk, Res.andThen]
          refine ⟨_, set_marker (c2.windows x).start st.charpos pb,
            set_marker (c2.windows x).pointm pm.charpos pb,
            (s.windows x).start_at_line_beg, if_neg hn', rfl, ?_, ?_⟩
          · simp only [setw, if_true]
          · intro y hy
            simp only [setw, if_neg hy]

theorem rest_trans {a b c : State}
    (h1 : a = { b with windows := a.windows,
                       windows_or_buffers_changed := a.windows_or_buffers_changed })
    (h2 : b = { c with windows := b.windows,
                       windows_or_buffers_changed := b.windows_or_buffers_changed }) :
    a = { c with windows := a.windows,
                 windows_or_buffers_changed := a.windows_or_buffers_changed } := by
  rw [h1, h2]

theorem rest_of_windows {a b : State} (h1 : a = { b with windows := a.windows }) :
    a = { b with windows := a.windows,
                 windows_or_buffers_changed := a.windows_or_buffers_changed } := by
  rw [h1]

theorem bind_mem_snoc (o : Option Win) (l : List Win) (x : Win) (h : o ≠ some x) :
    (o.bind fun z => if z ∈ l ++ [x] then some z else none)
      = o.bind fun z => if z ∈ l then some z else none := by
  cases o with
  | none => rfl
  | some z =>
    have hz : z ≠ x := fun e => h (by rw [e])
    simp [hz]

/-- One turn of the loop of `Fset_window_configuration` restores the next
window of the list. -/
theorem restore_window_step (E : Ext) (s cur : State) (slot : Win → Nat) (H l1 l2 : List Win)
    (x : Win) (ncb : Option Buf) (hH : H = l1 ++ x :: l2) (hnd : H.Nodup)
    (hP : Partly s H l1 cur) (hpl : ∀ y ∈ H, Placed s H y) (hs : ShownAt s x)
    (hV : ∀ y ∈ H, H[slot y]? = some y)
    (hncb : ∀ b, (s.buffers b).name_live = true → ¬ (some b ≠ ncb ∧ b = s.current_buffer)) :
    ∃ cur', restore_window E cur (H.map (entry s slot)) ncb (entry s slot x) = Res.ok () cur'
      ∧ Partly s H (l1 ++ [x]) cur' := by
  obtain ⟨hrest, hkeep, hdone, hout⟩ := hP
  have hxH : x ∈ H := by rw [hH]; simp
  have hl1H : ∀ y ∈ l1, y ∈ H := fun y hy => by rw [hH]; simp [hy]
  have hnd' : (l1 ++ x :: l2).Nodup := hH ▸ hnd
  have hx1 : x ∉ l1 := fun hx => (List.nodup_append.1 hnd').2.2 hx (List.mem_cons_self _ _)
  have hx2 : x ∉ l2 := (List.nodup_cons.1 (List.nodup_append.1 hnd').2.1).1
  obtain ⟨p1, p2, p3, p4⟩ := hpl x hxH
  have hq : ∀ q, (s.windows x).parent = some q → q ∈ l1 := fun q hq =>
    mem_of_pair_sublist_left hnd' (hH ▸ p1 q hq)
  have hv : ∀ v, (s.windows x).prev = some v → v ∈ l1 := fun v hv =>
    mem_of_pair_sublist_left hnd' (hH ▸ (p2 v hv).1)
  have hz : ∀ z, (s.windows x).next = some z → z ∈ l2 := fun z hz =>
    mem_of_pair_sublist_right hnd' (hH ▸ (p3 z hz).1)
  obtain ⟨cur1, hr1, he1, h1x, h1v, h1y⟩ := restore_links_spec s cur slot
    (H.map (entry s slot)) x
    (fun q hq' => ⟨saved_window_at_map s slot H q (hV q (hl1H q (hq q hq'))),
      fun e => hx1 (e ▸ hq q hq'), (hdone q (hq q hq')).2.2.2.2.1,
      (hkeep q).2.1, (hkeep q).1⟩)
    (fun v hv' => ⟨saved_window_at_map s slot H v (hV v (hl1H v (hv v hv'))),
      fun e => hx1 (e ▸ hv v hv')⟩) p4
  have hb1 : cur1.buffers = s.buffers := by rw [he1, hrest]
  have hc1 : cur1.current_buffer = s.current_buffer := by rw [he1, hrest]
  obtain ⟨c3, a, b, c, hr3, he3, h3x, h3y⟩ := restore_buffer_spec E s
    (setw cur1 x { cur1.windows x with
      left := (entry s slot x).left, top := (entry s slot x).top,
      width := (entry s slot x).width, height := (entry s slot x).height,
      hscroll := (entry s slot x).hscroll, display_table := (entry s slot x).display_table,
      last_modified := 0 }) slot x ncb hb1 hc1 hs hncb
  refine ⟨c3, ?_, ?_, ?_, ?_, ?_⟩
  · unfold restore_window
    have e3 : (entry s slot x).window = some x := rfl
    simp only [e3, hr1, Res.andThen]
    exact hr3
  · have h2 : c3 = { cur1 with windows := c3.windows } := by
      rw [he3]; rfl
    exact rest_trans (rest_of_windows h2) (rest_trans (rest_of_windows he1) hrest)
  · intro y
    by_cases hy : y = x
    · subst hy
      rw [h3x]
      simp only [setw, if_true]
      rw [h1x]
      exact hkeep y
    · rw [h3y y hy]
      simp only [setw, if_neg hy]
      by_cases hyv : (s.windows x).prev = some y
      · rw [h1v y hyv]
        exact hkeep y
      · rw [h1y y hy hyv]
        exact hkeep y
  · intro y hy
    simp only [List.mem_append, List.mem_singleton] at hy
    by_cases hyx : y = x
    · subst hyx
      rw [h3x]
      simp only [setw, if_true]
      rw [h1x]
      refine ⟨rfl, rfl, rfl, rfl, rfl, rfl, rfl, trivial, ?_⟩
      show none = _
      rcases hn : (s.windows y).next with _ | z
      · rfl
      · have hz2 := hz z hn
        have hz3 : z ∉ l1 ++ [y] := by
          intro hm
          simp only [List.mem_append, List.mem_singleton] at hm
          rcases hm with hm | hm
          · exact (List.nodup_append.1 hnd').2.2 hm (List.mem_cons_of_mem _ hz2)
          · exact hx2 (hm ▸ hz2)
        simp only [Option.some_bind, if_neg hz3]
    · have hy1 : y ∈ l1 := by
        rcases hy with h | h
        · exact h
        · exact absurd h hyx
      obtain ⟨d1, d2, d3, d4, d5, d6, d7, d8, d9⟩ := hdone y hy1
      rw [h3y y hyx]
      simp only [setw, if_neg hyx]
      by_cases hyv : (s.windows x).prev = some y
      · rw [h1v y hyv]
        refine ⟨d1, d2, d3, d4, d5, d6, d7, d8, ?_⟩
        rw [(p2 y hyv).2]
        simp
      · rw [h1y y hyx hyv]
        refine ⟨d1, d2, d3, d4, d5, d6, d7, d8, ?_⟩
        rw [d9]
        symm
        apply bind_mem_snoc
        intro hn
        exact hyv ((hpl y (hl1H y hy1)).2.2.1 x hn).2
  · intro y hy
    have hyx : y ≠ x := fun e => hy (e ▸ hxH)
    have hyv : (s.windows x).prev ≠ some y := fun e => hy (hl1H y (hv y e))
    unfold Restored
    rw [h3y y hyx]
    simp only [setw, if_neg hyx]
    rw [h1y y hyx hyv]
    exact hout y hy

/-- The loop of `Fset_window_configuration` restores the windows that are
left of the list. -/
theorem restore_loop_spec (E : Ext) (s : State) (slot : Win → Nat) (H : List Win)
    (ncb : Option Buf) (hnd : H.Nodup) (hpl : ∀ y ∈ H, Placed s H y)
    (hs : ∀ y ∈ H, ShownAt s y) (hV : ∀ y ∈ H, H[slot y]? = some y)
    (hncb : ∀ b, (s.buffers b).name_live = true → ¬ (some b ≠ ncb ∧ b = s.current_buffer)) :
    ∀ (l2 l1 : List Win) (cur : State), H = l1 ++ l2 → Partly s H l1 cur →
      ∃ cur', restore_loop E (H.map (entry s slot)) ncb cur (l2.map (entry s slot))
          = Res.ok () cur' ∧ Partly s H H cur' := by
  intro l2
  induction l2 with
  | nil =>
    intro l1 cur hH hP
    simp only [List.append_nil] at hH
    subst hH
    exact ⟨cur, rfl, hP⟩
  | cons x l ih =>
    intro l1 cur hH hP
    obtain ⟨cur1, h1, hP1⟩ := restore_window_step E s cur slot H l1 l x ncb hH hnd hP hpl
      (hs x (by rw [hH]; simp)) hV hncb
    obtain ⟨cur2, h2, hP2⟩ := ih (l1 ++ [x]) cur1 (by rw [hH]; simp) hP1
    refine ⟨cur2, ?_, hP2⟩
    simp only [List.map_cons, restore_loop, h1, Res.andThen]
    exact h2

/-- When all windows of the list have been restored, every window has its
links, geometry, `buffer` and `hscroll` back. -/
theorem partly_restored (s cur : State) (H : List Win) (hpl : ∀ y ∈ H, Placed s H y)
    (hP : Partly s H H cur) : ∀ x, Restored s cur x := by
  obtain ⟨-, hkeep, hdone, hout⟩ := hP
  intro x
  by_cases hx : x ∈ H
  · obtain ⟨d1, d2, d3, d4, d5, d6, d7, d8, d9⟩ := hdone x hx
    obtain ⟨k1, k2, k3, k4⟩ := hkeep x
    refine ⟨(core_eq_iff _ _).2 ⟨d3, d4, d5, d6, k3, k4, d1, ?_, d2, k1, k2, d8⟩, d7⟩
    rw [d9]
    rcases hn : (s.windows x).next with _ | z
    · rfl
    · have hz : z ∈ H := ((hpl x hx).2.2.1 z hn).1.subset (by simp)
      simp [hz]
  · exact hout x hx

/-- The state in which the loop of `Fset_window_configuration` starts: the
windows of the tree carry their indices and are marked as deleted. -/
theorem partly_start (s : State) (slot : Win → Nat) (H : List Win) (n : Int) :
    Partly s H []
      (blanked { slotted s slot H with windows_or_buffers_changed := n } H) := by
  refine ⟨rfl, ?_, ?_, ?_⟩
  · intro x
    rw [blanked_windows]
    by_cases hx : x ∈ H
    · simp only [if_pos hx, slotted_windows, and_self]
    · simp only [if_neg hx, slotted_windows, and_self]
  · intro x hx
    exact absurd hx (List.not_mem_nil _)
  · intro x hx
    unfold Restored
    rw [blanked_windows]
    simp only [if_neg hx, slotted_windows, and_self]

theorem indexOf_of_getElem (H : List Win) (hnd : H.Nodup) (j : Nat) (x : Win)
    (h : H[j]? = some x) : H.indexOf x = j := by
  obtain ⟨hj, hx⟩ := List.getElem?_eq_some.1 h
  rw [← hx]
  exact List.indexOf_getElem hnd j hj

/-- With enough fuel `Fcurrent_window_configuration` returns the saved
windows of the tree of the selected screen in pre-order, and leaves in the
windows their indices in the vector. -/
theorem Fcurrent_window_configuration_spec (fuel : Nat) (s : State) (t : Shape) (w0 : Win)
    (hrep : Rep s s.selected_screen t) (hs : Shown s t) (hw0 : t.head = some w0)
    (hfuel : t.handles.length < fuel) :
    Fcurrent_window_configuration fuel s = Res.ok
      { screen_width := (s.screens s.selected_screen).width,
        screen_height := (s.screens s.selected_screen).height,
        current_window := s.selected_window, current_buffer := s.current_buffer,
        root_window := some w0,
        saved_windows := t.handles.map (entry s (fun x => t.handles.indexOf x)) }
      (slotted s (fun x => t.handles.indexOf x) t.handles) := by
  obtain ⟨hroot, hnd, -, hlink⟩ := hrep
  rw [hw0] at hroot
  unfold Fcurrent_window_configuration
  simp only [hroot]
  rw [count_windows_spec s _ t none none fuel hlink hfuel w0 hw0]
  simp only [Res.ofWalk, Res.andThen]
  have h := save_window_save_spec s _ (fun x => t.handles.indexOf x) t none none fuel s []
    (List.replicate t.handles.length {}) [] hlink hs (temEq_refl s) (by simp)
    (fun j x hj => by
      simp only [List.length_nil, Nat.zero_add]
      exact indexOf_of_getElem _ hnd j x hj)
    hnd (by simp) (by simp) hfuel
  simp only [List.nil_append, List.append_nil, List.length_nil, hw0, Nat.zero_add] at h
  rw [h]

theorem Fselect_window_current (E : Ext) (s : State)
    (h : (s.windows s.selected_window).buffer ≠ BufSlot.nil) :
    Fselect_window E s s.selected_window
      = Res.ok s.selected_window (select_stamp s s.selected_window) := by
  unfold Fselect_window
  simp only [if_neg h]
  have : s.selected_window = (select_stamp s s.selected_window).selected_window := rfl
  rw [if_pos this]

/-- The end of `Fset_window_configuration` on the selected screen when the
saved window is the selected one: the window is stamped and a buffer is made
current. -/
theorem restore_selection_current (E : Ext) (s4 : State) (data : SaveWindowData)
    (ncb : Option Buf) (b : Buf) (c : Scr) (hc : c = s4.selected_screen)
    (hw : data.current_window = s4.selected_window)
    (hb : (s4.windows s4.selected_window).buffer = BufSlot.buf b) :
    ∃ cb, restore_selection E s4 data c ncb
      = Res.ok () { select_stamp s4 s4.selected_window with current_buffer := cb } := by
  subst hc
  unfold restore_selection
  have h1 : ¬ (s4.selected_screen ≠ s4.selected_screen
      ∧ E.SCREEN_IS_TERMCAP s4.selected_screen = false) := fun h => h.1 rfl
  simp only [if_neg h1, Res.andThen, if_true, hw]
  rw [Fselect_window_current E s4 (by rw [hb]; simp)]
  simp only
  cases ncb with
  | some c => exact ⟨c, rfl⟩
  | none =>
    refine ⟨b, ?_⟩
    have : ((select_stamp s4 s4.selected_window).windows
        (select_stamp s4 s4.selected_window).selected_window).buffer = BufSlot.buf b := by
      simp only [select_stamp, setw, if_true]
      exact hb
    simp only [this]

theorem leaf_info (t : Shape) : ∀ (P : Option (Kind × Win)) (V : Option Win) (x : Win),
    x ∈ t.leaves → ∃ i ∈ t.infos P V, i.w = x ∧ i.k = Kind.leaf := by
  induction t with
  | nil => intro P V x hx; simp [Shape.leaves] at hx
  | node w k ch rest ihc ihr =>
    intro P V x hx
    have hrest : x ∈ rest.leaves → ∃ i ∈ (Shape.node w k ch rest).infos P V,
        i.w = x ∧ i.k = Kind.leaf := fun h => by
      obtain ⟨i, hi, h1, h2⟩ := ihr P (some w) x h
      exact ⟨i, by simp [Shape.infos, hi], h1, h2⟩
    have hch : x ∈ ch.leaves → ∃ i ∈ (Shape.node w k ch rest).infos P V,
        i.w = x ∧ i.k = Kind.leaf := fun h => by
      obtain ⟨i, hi, h1, h2⟩ := ihc (some (k, w)) none x h
      exact ⟨i, by simp [Shape.infos, hi], h1, h2⟩
    cases k with
    | leaf =>
      simp only [Shape.leaves, List.mem_cons] at hx
      rcases hx with rfl | hx
      · exact ⟨_, List.mem_cons_self _ _, rfl, rfl⟩
      · exact hrest hx
    | hcomb =>
      simp only [Shape.leaves, List.mem_append] at hx
      exact hx.elim hch hrest
    | vcomb =>
      simp only [Shape.leaves, List.mem_append] at hx
      exact hx.elim hch hrest

theorem leaf_buffer (s : State) (scr : Scr) (t : Shape) (hrep : Rep s scr t) (x : Win)
    (hx : x ∈ t.leaves) : (s.windows x).buffer ≠ BufSlot.nil := by
  obtain ⟨i, hi, rfl, hk⟩ := leaf_info t none none x hx
  have h := (hrep.2.2.2 i hi).2.2.2.2
  rw [hk] at h
  exact h.2.2.1

/-- With enough fuel `Fset_window_configuration` on the configuration that
`Fcurrent_window_configuration` returned restores every window. -/
theorem Fset_window_configuration_restores (E : Ext) (fuel : Nat) (s : State) (t : Shape)
    (w0 : Win) (hwf : WF s s.selected_screen t) (hb : t.branched = true)
    (hw : ∀ x ∈ t.leaves, 1 ≤ (s.windows x).width) (hs : Shown s t)
    (hsel : s.selected_window ∈ t.leaves) (hw0 : t.head = some w0)
    (hfuel : t.handles.length < fuel) :
    ∃ s2, Fset_window_configuration E fuel
        (slotted s (fun x => t.handles.indexOf x) t.handles)
        { screen_width := (s.screens s.selected_screen).width,
          screen_height := (s.screens s.selected_screen).height,
          current_window := s.selected_window, current_buffer := s.current_buffer,
          root_window := some w0,
          saved_windows := t.handles.map (entry s (fun x => t.handles.indexOf x)) }
        = Res.ok () s2
      ∧ (∀ c, (s2.screens c).root_window = (s.screens c).root_window)
      ∧ s2.selected_window = s.selected_window
      ∧ ∀ x, Restored s s2 x := by
  obtain ⟨hroot, hnd, -, hlink⟩ := hwf.1
  rw [hw0] at hroot
  have hpl := placed_of_wf s _ t hwf hb hw
  have hw0H : w0 ∈ t.handles := head_mem_handles t w0 hw0
  have hH0 : t.handles[0]? = some w0 := by
    cases t with
    | nil => simp [Shape.head] at hw0
    | node w k ch rest =>
      simp only [Shape.head, Option.some.injEq] at hw0
      subst hw0
      simp [Shape.handles]
  have hscr : ((slotted s (fun x => t.handles.indexOf x) t.handles).windows w0).screen
      = some s.selected_screen := by
    rw [slotted_windows, if_pos hw0H]
    exact rep_screen s _ t w0 hwf.1 hw0H
  have hV : ∀ y ∈ t.handles, t.handles[(fun x => t.handles.indexOf x) y]? = some y :=
    fun y hy => List.getElem?_indexOf hy
  have hncb : ∀ b, (s.buffers b).name_live = true →
      ¬ (some b ≠ (if (s.buffers s.current_buffer).name_live = false then none
            else some s.current_buffer) ∧ b = s.current_buffer) := by
    intro b hb ⟨h1, h2⟩
    subst h2
    simp [hb] at h1
  have hdel := delete_all_subwindows_spec s.selected_screen s.windows t none none fuel
    { slotted s (fun x => t.handles.indexOf x) t.handles with
      windows_or_buffers_changed :=
        (slotted s (fun x => t.handles.indexOf x) t.handles).windows_or_buffers_changed
          + 1 } hlink
    (fun x hx => by
      dsimp only
      rw [slotted_windows, if_pos hx]
      exact ⟨rfl, rfl, rfl⟩) hfuel
  rw [hw0] at hdel
  simp only [Option.elim] at hdel
  obtain ⟨cur, hloop, hP⟩ := restore_loop_spec E s (fun x => t.handles.indexOf x) t.handles
    (if (s.buffers s.current_buffer).name_live = false then none else some s.current_buffer)
    hnd hpl hs hV hncb t.handles [] _ (by simp)
    (partly_start s (fun x => t.handles.indexOf x) t.handles
      (s.windows_or_buffers_changed + 1))
  have hR := partly_restored s cur t.handles hpl hP
  obtain ⟨hrest, -, -, -⟩ := hP
  have hselH : s.selected_window ∈ t.handles := leaves_sub_handles t _ hsel
  have hcs : cur.selected_window = s.selected_window := by rw [hrest]
  have hcc : cur.selected_screen = s.selected_screen := by rw [hrest]
  have hcscr : cur.screens = s.screens := by rw [hrest]
  obtain ⟨b, hbuf⟩ : ∃ b, (s.windows s.selected_window).buffer = BufSlot.buf b := by
    have h1 := hs _ hselH
    have h2 := leaf_buffer s _ t hwf.1 _ hsel
    unfold ShownAt at h1
    rcases hbx : (s.windows s.selected_window).buffer with _ | _ | b
    · exact absurd hbx h2
    · rw [hbx] at h1; exact absurd h1 (by simp)
    · exact ⟨b, rfl⟩
  have hbuf' : ((sets cur s.selected_screen { cur.screens s.selected_screen with
      root_window := some w0 }).windows
        (sets cur s.selected_screen { cur.screens s.selected_screen with
          root_window := some w0 }).selected_window).buffer = BufSlot.buf b := by
    show (cur.windows cur.selected_window).buffer = _
    rw [hcs, ← hbuf]
    exact ((core_eq_iff _ _).1 (hR s.selected_window).1).2.2.2.2.2.2.2.2.2.2.2
  obtain ⟨cb, hfin⟩ := restore_selection_current E
    (sets cur s.selected_screen { cur.screens s.selected_screen with root_window := some w0 })
    { screen_width := (s.screens s.selected_screen).width,
      screen_height := (s.screens s.selected_screen).height,
      current_window := s.selected_window, current_buffer := s.current_buffer,
      root_window := some w0,
      saved_windows := t.handles.map (entry s (fun x => t.handles.indexOf x)) }
    (if (s.buffers s.current_buffer).name_live = false then none else some s.current_buffer)
    b s.selected_screen hcc.symm hcs.symm hbuf'
  refine ⟨{ select_stamp (sets cur s.selected_screen { cur.screens s.selected_screen with
      root_window := some w0 }) cur.selected_window with current_buffer := cb },
    ?_, ?_, ?_, ?_⟩
  · unfold Fset_window_configuration
    simp only [List.getElem?_map, hH0, Option.map_some']
    have e1 : (entry s (fun x => t.handles.indexOf x) w0).window = some w0 := rfl
    simp only [e1, hscr]
    have hcond : ¬ ((s.screens s.selected_screen).height
          ≠ ((slotted s (fun x => t.handles.indexOf x) t.handles).screens
              s.selected_screen).height
        ∨ (s.screens s.selected_screen).width
          ≠ ((slotted s (fun x => t.handles.indexOf x) t.handles).screens
              s.selected_screen).width) := by
      intro h
      rcases h with h | h <;> exact h rfl
    have hroot' : ((slotted s (fun x => t.handles.indexOf x) t.handles).screens
        s.selected_screen).root_window = some w0 := hroot
    rw [if_neg hcond]
    simp only [hroot']
    rw [hdel]
    simp only [Res.andThen]
    have hloop' : restore_loop E (t.handles.map (entry s fun x => t.handles.indexOf x))
        (if ((slotted s (fun x => t.handles.indexOf x) t.handles).buffers
            s.current_buffer).name_live = false then none else some s.current_buffer)
        (blanked { slotted s (fun x => t.handles.indexOf x) t.handles with
          windows_or_buffers_changed :=
            (slotted s (fun x => t.handles.indexOf x) t.handles).windows_or_buffers_changed
              + 1 } t.handles)
        (t.handles.map (entry s fun x => t.handles.indexOf x)) = Res.ok () cur := hloop
    rw [hloop']
    simp only [Res.andThen]
    exact hfin
  · intro c
    show ((sets cur s.selected_screen _).screens c).root_window = _
    simp only [sets]
    by_cases hc : c = s.selected_screen
    · rw [if_pos hc, hc, hroot]
    · rw [if_neg hc, hcscr]
  · exact hcs
  · intro x
    obtain ⟨r1, r2⟩ := hR x
    unfold Restored
    show ((select_stamp _ cur.selected_window).windows x).core = _ ∧ _
    simp only [select_stamp, setw, sets]
    by_cases hx : x = cur.selected_window
    · rw [if_pos hx, ← hx]
      exact ⟨r1, r2⟩
    · rw [if_neg hx]
      exact ⟨r1, r2⟩

/-- C27: snapshot and restore are a round trip.  Let the tree of the
selected screen be well formed with shape `t` (links and exact tiling), let
every combination have at least two children and every leaf be at least one
column wide, let every leaf show a live buffer with its markers in it, and
let the selected window be a leaf of the tree.  Then with enough fuel
`Fcurrent_window_configuration` returns a configuration, and
`Fset_window_configuration` on that configuration returns; afterwards the
root window of every screen, the selected window, and `parent`, `prev`,
`next`, `hchild`, `vchild` (so the orientation of every combination), `left`,
`top`, `width`, `height`, `hscroll` and `buffer` of every window are what they
were before the two calls. -/
theorem set_window_configuration_round_trip (E : Ext) (fuel : Nat) (s : State) (t : Shape)
    (hwf : WF s s.selected_screen t) (hb : t.branched = true)
    (hw : ∀ x ∈ t.leaves, 1 ≤ (s.windows x).width) (hs : Shown s t)
    (hsel : s.selected_window ∈ t.leaves) (hfuel : t.handles.length < fuel) :
    ∃ data s1 s2, Fcurrent_window_configuration fuel s = Res.ok data s1
      ∧ Fset_window_configuration E fuel s1 data = Res.ok () s2
      ∧ (∀ c, (s2.screens c).root_window = (s.screens c).root_window)
      ∧ s2.selected_window = s.selected_window
      ∧ ∀ x, (s2.windows x).parent = (s.windows x).parent
          ∧ (s2.windows x).prev = (s.windows x).prev
          ∧ (s2.windows x).next = (s.windows x).next
          ∧ (s2.windows x).hchild = (s.windows x).hchild
          ∧ (s2.windows x).vchild = (s.windows x).vchild
          ∧ (s2.windows x).left = (s.windows x).left
          ∧ (s2.windows x).top = (s.windows x).top
          ∧ (s2.windows x).width = (s.windows x).width
          ∧ (s2.windows x).height = (s.windows x).height
          ∧ (s2.windows x).hscroll = (s.windows x).hscroll
          ∧ (s2.windows x).buffer = (s.windows x).buffer := by
  obtain ⟨w0, hw0⟩ : ∃ w0, t.head = some w0 := by
    cases t with
    | nil => simp [Shape.leaves] at hsel
    | node w k ch rest => exact ⟨w, rfl⟩
  obtain ⟨s2, h2, hroot, hselw, hR⟩ :=
    Fset_window_configuration_restores E fuel s t w0 hwf hb hw hs hsel hw0 hfuel
  refine ⟨_, _, s2, Fcurrent_window_configuration_spec fuel s t w0 hwf.1 hs hw0 hfuel, h2,
    hroot, hselw, fun x => ?_⟩
  obtain ⟨hc, hh⟩ := hR x
  obtain ⟨c1, c2, c3, c4, -, -, c7, c8, c9, c10, c11, c12⟩ := (core_eq_iff _ _).1 hc
  exact ⟨c7, c9, c8, c10, c11, c1, c2, c3, c4, hh, c12⟩

theorem set_window_configuration_round_trip_witness :
    ∃ data s1 s2, Fcurrent_window_configuration 7 state6 = Res.ok data s1
      ∧ Fset_window_configuration ext1 7 s1 data = Res.ok () s2
      ∧ (∀ c, (s2.screens c).root_window = (state6.screens c).root_window)
      ∧ s2.selected_window = state6.selected_window
      ∧ ∀ x, (s2.windows x).parent = (state6.windows x).parent
          ∧ (s2.windows x).prev = (state6.windows x).prev
          ∧ (s2.windows x).next = (state6.windows x).next
          ∧ (s2.windows x).hchild = (state6.windows x).hchild
          ∧ (s2.windows x).vchild = (state6.windows x).vchild
          ∧ (s2.windows x).left = (state6.windows x).left
          ∧ (s2.windows x).top = (state6.windows x).top
          ∧ (s2.windows x).width = (state6.windows x).width
          ∧ (s2.windows x).height = (state6.windows x).height
          ∧ (s2.windows x).hscroll = (state6.windows x).hscroll
          ∧ (s2.windows x).buffer = (state6.windows x).buffer :=
  set_window_configuration_round_trip ext1 7 state6 shape6 (by decide!) (by decide)
    (by decide) (by decide!) (by decide) (by decide)

/-- C39: enlarging can shrink.  In `state2` the selected window 0 is the
root window of its screen, a leaf of 23 lines, and its only sibling is the
minibuffer window 1 of one line; `window_min_height` is 4.
`Fenlarge_window (1, nil)` returns, window 0 is not deleted, and afterwards
window 0 has 20 lines and the minibuffer window has 4: the bound `maxdelta`
is the height of the minibuffer window minus `window_min_height`, that is
-3, `delta` is lowered to it, and the next window "spares" -3 lines. -/
theorem enlarge_window_shrinks_root :
    (WF state2 0 shape2 ∧ Shown state2 shape2 ∧ state2.selected_window = 0
      ∧ (state2.windows 0).parent = none ∧ (state2.windows 0).next = some 1
      ∧ (state2.windows 1).mini_p = true ∧ (state2.windows 1).next = none
      ∧ (state2.windows 0).height = 23 ∧ (state2.windows 1).height = 1
      ∧ state2.window_min_height = 4)
      ∧ ∃ s', Fenlarge_window ext1 10 state2 1 false = Res.ok () s'
        ∧ (s'.windows 0).buffer = BufSlot.buf 0
        ∧ (s'.screens 0).root_window = some 0
        ∧ (s'.windows 0).height = 20
        ∧ ((s'.windows 1).top = 20 ∧ (s'.windows 1).height = 4) :=
  ⟨by decide!, _, Res.eq_ok_of_isOk state2 (by decide!), by decide!, by decide!, by decide!,
    by decide!⟩

/-- C34: growing to the size of the parent can divide by zero.  In `state9`
(a well-formed, exactly tiled tree whose leaves show live buffers and are at
least `window_min_height` lines high and `window_min_width` columns wide,
but for the minibuffer window) the
selected leaf 8, of 9 lines, is the last child of the vertical combination 2,
of 23 lines, after the leaf 0 and the horizontal combination 3, which holds
the vertical combination 4.  `Fenlarge_window (14, nil)` does not return: the
first loop of `set_window_height` on window 2 gives the windows 0, 3 and 4 the
height 0, the second loop deletes window 0, `Fdelete_window` gives its space
to window 3 with `set_window_height (3, 0, 1)`, and that call divides by the
old height 0 of window 4.  So does a call of `set_window_height` on window 4
in any state in which window 4 is a vertical combination of height 0. -/
theorem enlarge_to_parent_divides_by_zero :
    (WF state9 0 shape9 ∧ Shown state9 shape9 ∧ shape9.branched = true
      ∧ state9.selected_window = 8 ∧ (state9.windows 8).parent = some 2
      ∧ (state9.windows 2).vchild = some 0
      ∧ (state9.windows 2).height = 23 ∧ (state9.windows 8).height = 9
      ∧ state9.window_min_height ≤ 23
      ∧ (∀ x ∈ shape9.leaves, (state9.windows x).mini_p = false →
          state9.window_min_height ≤ (state9.windows x).height
            ∧ state9.window_min_width ≤ (state9.windows x).width))
      ∧ (Fenlarge_window ext1 40 state9 14 false).isFault = true
      ∧ ∀ (s : State) (fuel : Nat) (c : Win) (v : Int), (s.windows 4).height = 0 →
          (s.windows 4).hchild = none → (s.windows 4).vchild = some c →
          (set_window_height ext1 (fuel + 2) s 4 v true).isFault = true := by
  refine ⟨by decide!, by decide!, ?_⟩
  intro s fuel c v hh hh' hv
  simp [set_window_height, set_height_vloop, setw, hh, hh', hv, shl1, Res.isFault]

/-- C33: the third way of `change_window_height` is not exact.  In `state3m`
the selected leaf 3, of 10 lines, stands between the leaves 0 and 4, of 6
lines each, in the vertical combination 2, of 22 lines; `window_min_height`
is 4, so neither sibling can spare 3 lines, and 22 > 10 + 3.
`Fenlarge_window (3, nil)` returns and deletes no window; afterwards window
2 has 22 lines again, but window 3 has 12 lines, not 13, and its siblings
have 5 lines each. -/
theorem enlarge_window_not_exact :
    (WF state3m 0 (Shape.node 2 Kind.vcomb chain034 chain1) ∧ Shown state3m
        (Shape.node 2 Kind.vcomb chain034 chain1)
      ∧ state3m.selected_window = 3 ∧ (state3m.windows 3).parent = some 2
      ∧ (state3m.windows 3).prev = some 0 ∧ (state3m.windows 3).next = some 4
      ∧ (state3m.windows 2).height = 22 ∧ (state3m.windows 3).height = 10
      ∧ (state3m.windows 0).height - 3 < state3m.window_min_height
      ∧ (state3m.windows 4).height - 3 < state3m.window_min_height)
      ∧ ∃ s', Fenlarge_window ext1 20 state3m 3 false = Res.ok () s'
        ∧ WF s' 0 (Shape.node 2 Kind.vcomb chain034 chain1)
        ∧ (s'.windows 2).height = 22
        ∧ (s'.windows 3).height = 12
        ∧ (s'.windows 0).height = 5 ∧ (s'.windows 4).height = 5 :=
  ⟨by decide!, _, Res.eq_ok_of_isOk state3m (by decide!), by decide!, by decide!, by decide!,
    by decide!⟩

/-- C35: `set_window_width` has no guard for a window without parent.  For a
window `w` without parent and a width `v` below `window_min_width`,
`set_window_width (w, v, 0)` calls `Fdelete_window`, which signals the error
"Attempt to delete minibuffer or sole ordinary window" and leaves the state
as it was: the width `v` is not written.  `set_window_height (w, v, 0)` on a
leaf `w` without parent returns and writes the height `v`, whatever `v`
is. -/
theorem set_window_width_root_signals (E : Ext) (fuel : Nat) (s : State) (w : Win) (v : Int)
    (hp : (s.windows w).parent = none) (hv : v < s.window_min_width) :
    set_window_width E (fuel + 2) s w v false = Res.signal Err.delete_minibuffer_or_sole s
      ∧ ((s.windows w).hchild = none → (s.windows w).vchild = none →
          ∃ s', set_window_height E (fuel + 2) s w v false = Res.ok () s'
            ∧ (s'.windows w).height = v) := by
  constructor
  · simp [set_window_width, Fdelete_window, hp, hv]
  · intro hh hv'
    simp only [set_window_height, hp, ne_eq, not_true_eq_false, false_and, and_false,
      if_false, setw, if_true, hh, hv']
    exact ⟨_, rfl, by simp⟩

theorem set_window_width_root_signals_witness :
    set_window_width ext1 2 state2 0 5 false
        = Res.signal Err.delete_minibuffer_or_sole state2
      ∧ ((state2.windows 0).hchild = none → (state2.windows 0).vchild = none →
          ∃ s', set_window_height ext1 2 state2 0 5 false = Res.ok () s'
            ∧ (s'.windows 0).height = 5) :=
  set_window_width_root_signals ext1 0 state2 0 5 (by decide) (by decide)

/-- C32, amended: the position formula of the resize loops rounds to the
nearest position as long as the sizes are at most 32767.  For an old size
`oheight` from 1 to 32767, a new size `height` from 0 to 32767 and old
positions `0 ≤ opos ≤ opos' ≤ oheight`, the new position that the C code
computes on `int`s (the value `scale_pos opos height oheight`) is
`((opos * height) * 2 + oheight) / (oheight * 2)` on integers, with the
division of C: no operation overflows.  It differs from
`opos * height / oheight` by at most one half, it is 0 at `opos = 0` and
`height` at `opos = oheight`, and it does not decrease with `opos`, so that no
child gets a negative size. -/
theorem scale_pos_nearest (opos opos' height oheight : Int) (ho : 1 ≤ oheight)
    (hh : 0 ≤ height) (h0 : 0 ≤ opos) (h1 : opos ≤ opos') (h2 : opos' ≤ oheight)
    (hob : oheight ≤ 32767) (hhb : height ≤ 32767) :
    scale_pos opos height oheight
        = Int.tdiv ((opos * height) * 2 + oheight) (oheight * 2)
      ∧ 2 * |scale_pos opos height oheight * oheight - opos * height| ≤ oheight
      ∧ scale_pos 0 height oheight = 0
      ∧ scale_pos oheight height oheight = height
      ∧ scale_pos opos height oheight ≤ scale_pos opos' height oheight
      ∧ 0 ≤ scale_pos opos' height oheight - scale_pos opos height oheight := by
  have hm := scale_pos_mono opos opos' height oheight hh (by omega) h0 h1 (by omega) hhb hob
  refine ⟨(scale_pos_fits opos height oheight h0 hh (by omega) (by omega) hhb hob).trans rfl,
    ?_, scale_pos_zero height oheight (by omega) hob,
    scale_pos_full height oheight hh (by omega) hhb hob, hm, by omega⟩
  have hq : scale_pos opos height oheight = (2 * (opos * height) + oheight) / (2 * oheight) :=
    scale_pos_eq opos height oheight h0 hh (by omega) (by omega) hhb hob
  generalize scale_pos opos height oheight = q at hq
  have l1 : (2 * oheight) * q ≤ 2 * (opos * height) + oheight := by
    rw [hq]; exact Int.mul_ediv_self_le (by omega)
  have l2 : 2 * (opos * height) + oheight < (2 * oheight) * q + 2 * oheight := by
    rw [hq]; exact Int.lt_mul_ediv_self_add (by omega)
  rcases abs_cases (q * oheight - opos * height) with ⟨e, _⟩ | ⟨e, _⟩ <;> rw [e] <;> nlinarith

theorem scale_pos_nearest_witness :
    scale_pos 8 34 23 = Int.tdiv ((8 * 34) * 2 + 23) (23 * 2)
      ∧ 2 * |scale_pos 8 34 23 * 23 - 8 * 34| ≤ 23
      ∧ scale_pos 0 34 23 = 0
      ∧ scale_pos 23 34 23 = 34
      ∧ scale_pos 8 34 23 ≤ scale_pos 16 34 23
      ∧ 0 ≤ scale_pos 16 34 23 - scale_pos 8 34 23 :=
  scale_pos_nearest 8 16 34 23 (by decide) (by decide) (by decide) (by decide) (by decide)
    (by decide) (by decide)

/-- Counterexample to C32 as stated for all integers: for `oheight = 40000`,
`height = 60000` and `opos = 20000` the expression `(opos * height) << 1`
overflows an `int` and the position is -23686, which is negative, below the
position 0 of `opos = 0`, and far from `opos * height / oheight = 30000`. -/
theorem scale_pos_wraps :
    scale_pos 20000 60000 40000 = -23686
      ∧ scale_pos 0 60000 40000 = 0
      ∧ ¬ (2 * |scale_pos 20000 60000 40000 * 40000 - 20000 * 60000| ≤ 40000)
      ∧ ¬ (scale_pos 0 60000 40000 ≤ scale_pos 20000 60000 40000)
      ∧ scale_pos 40000 60000 40000 ≠ 60000 := by
  decide!

/-- C37: what `replace_window (old, new)` changes.  Let `old` be a window of
a screen, another window than `new`, and let the next window, the previous
window and the parent of `old` be windows other than `old` and `new` and
distinct from each other.  Then `replace_window` returns; `new` has the left,
top, width, height, `next`, `prev` and `parent` of `old` and is otherwise
unchanged (so its `hchild`, `vchild` and `buffer` are); `old` is unchanged; the
next window of `old` has the `prev` `new`, its previous window has the `next`
`new`, and in its parent each of `vchild`, `hchild` that was `old` is `new`;
no other window has changed; the root window of the screen of `old` is `new`
if it was `old`, and no other slot of a screen has changed. -/
theorem replace_window_frame (s : State) (old new : Win) (scr : Scr)
    (hscr : (s.windows old).screen = some scr) (hon : old ≠ new)
    (hnx : ∀ y, (s.windows old).next = some y → y ≠ old ∧ y ≠ new
      ∧ (s.windows old).prev ≠ some y ∧ (s.windows old).parent ≠ some y)
    (hpv : ∀ y, (s.windows old).prev = some y → y ≠ old ∧ y ≠ new
      ∧ (s.windows old).parent ≠ some y)
    (hpa : ∀ y, (s.windows old).parent = some y → y ≠ old ∧ y ≠ new) :
    ∃ s', replace_window s old new = Res.ok () s'
      ∧ s'.windows new = { s.windows new with
          left := (s.windows old).left, top := (s.windows old).top,
          width := (s.windows old).width, height := (s.windows old).height,
          next := (s.windows old).next, prev := (s.windows old).prev,
          parent := (s.windows old).parent }
      ∧ s'.windows old = s.windows old
      ∧ (∀ y, (s.windows old).next = some y →
          s'.windows y = { s.windows y with prev := some new })
      ∧ (∀ y, (s.windows old).prev = some y →
          s'.windows y = { s.windows y with next := some new })
      ∧ (∀ y, (s.windows old).parent = some y →
          s'.windows y = { s.windows y with
            vchild := if (s.windows y).vchild = some old then some new
              else (s.windows y).vchild,
            hchild := if (s.windows y).hchild = some old then some new
              else (s.windows y).hchild })
      ∧ (∀ x, x ≠ new → x ≠ old → (s.windows old).next ≠ some x →
          (s.windows old).prev ≠ some x → (s.windows old).parent ≠ some x →
          s'.windows x = s.windows x)
      ∧ (∀ c, s'.screens c = if c = scr ∧ (s.screens scr).root_window = some old
          then { s.screens scr with root_window := some new } else s.screens c) := by
  have hb := replace_window_basic s old new scr hscr hon hnx hpv hpa
  have hs := replace_window_screens s old new scr hscr hon hnx hpv hpa
  have ho := fun x h1 h2 => replace_window_other s old new scr hscr hon hnx hpv hpa x h1 h2
  obtain ⟨u, s', e, hb'⟩ := (Res.holds_iff _ _).1 hb
  rw [e] at hs ho
  simp only [Res.Holds] at hs ho
  obtain ⟨-, -, -, -, -, hold, hnew⟩ := hb'
  refine ⟨s', e, hnew, hold, ?_, ?_, ?_, ?_, hs⟩
  · intro y hy
    obtain ⟨h1, h2, -, -⟩ := hnx y hy
    rw [ho y h2 h1]
    simp only [replaced, hy, if_true]
  · intro y hy
    obtain ⟨h1, h2, -⟩ := hpv y hy
    rw [ho y h2 h1]
    have hn : (s.windows old).next ≠ some y := fun e => (hnx y e).2.2.1 hy
    simp only [replaced, hy, if_neg hn, if_true]
  · intro y hy
    obtain ⟨h1, h2⟩ := hpa y hy
    rw [ho y h2 h1]
    have hn : (s.windows old).next ≠ some y := fun e => (hnx y e).2.2.2 hy
    have hp : (s.windows old).prev ≠ some y := fun e => (hpv y e).2.2 hy
    simp only [replaced, hy, if_neg hn, if_neg hp, if_true]
  · intro x h1 h2 h3 h4 h5
    rw [ho x h1 h2]
    simp only [replaced, if_neg h3, if_neg h4, if_neg h5]

theorem replace_window_frame_witness :
    ∃ s', replace_window state6 4 0 = Res.ok () s'
      ∧ s'.windows 0 = { state6.windows 0 with
          left := (state6.windows 4).left, top := (state6.windows 4).top,
          width := (state6.windows 4).width, height := (state6.windows 4).height,
          next := (state6.windows 4).next, prev := (state6.windows 4).prev,
          parent := (state6.windows 4).parent }
      ∧ s'.windows 4 = state6.windows 4
      ∧ (∀ y, (state6.windows 4).next = some y →
          s'.windows y = { state6.windows y with prev := some 0 })
      ∧ (∀ y, (state6.windows 4).prev = some y →
          s'.windows y = { state6.windows y with next := some 0 })
      ∧ (∀ y, (state6.windows 4).parent = some y →
          s'.windows y = { state6.windows y with
            vchild := if (state6.windows y).vchild = some 4 then some 0
              else (state6.windows y).vchild,
            hchild := if (state6.windows y).hchild = some 4 then some 0
              else (state6.windows y).hchild })
      ∧ (∀ x, x ≠ 0 → x ≠ 4 → (state6.windows 4).next ≠ some x →
          (state6.windows 4).prev ≠ some x → (state6.windows 4).parent ≠ some x →
          s'.windows x = state6.windows x)
      ∧ (∀ c, s'.screens c = if c = 0 ∧ (state6.screens 0).root_window = some 4
          then { state6.screens 0 with root_window := some 0 } else state6.screens c) :=
  replace_window_frame state6 4 0 0 (by decide) (by decide)
    (fun y hy => by
      have e : (3 : Win) = y := Option.some.inj hy
      subst e
      decide)
    (fun y hy => by
      have e : (none : Option Win) = some y := hy
      exact absurd e (by simp))
    (fun y hy => by
      have e : (2 : Win) = y := Option.some.inj hy
      subst e
      decide)

theorem select_point_rest (s4 : State) (b : Buf) (p : Int) :
    (select_point s4 b p).screens = s4.screens
      ∧ (select_point s4 b p).window_select_count = s4.window_select_count
      ∧ (select_point s4 b p).nalloc = s4.nalloc
      ∧ (select_point s4 b p).minibuf_level = s4.minibuf_level
      ∧ (select_point s4 b p).selected_window = s4.selected_window := by
  unfold select_point
  simp only []
  split_ifs <;> exact ⟨rfl, rfl, rfl, rfl, rfl⟩

theorem indexOf_lt_of_pair_sublist {H : List Win} (hnd : H.Nodup) {q x : Win}
    (h : [q, x].Sublist H) : H.indexOf q < H.indexOf x := by
  have hx : x ∈ H := h.subset (by simp)
  obtain ⟨l1, l2, rfl⟩ := List.append_of_mem hx
  have hq : q ∈ l1 := mem_of_pair_sublist_left hnd h
  have hx1 : x ∉ l1 := fun hx' =>
    (List.nodup_append.1 hnd).2.2 hx' (List.mem_cons_self _ _)
  rw [List.indexOf_append_of_mem hq, List.indexOf_append_of_not_mem hx1,
    List.indexOf_cons_self]
  have := List.indexOf_lt_length.2 hq
  omega

/-- C40: the vector of saved windows is filled exactly.  Let the tree of a
screen be represented by shape `t` with root window `w0`, and let its leaves
show live buffers with their markers in them.  With more fuel than windows,
`count_windows (w0)` is the number `n` of windows of the tree, and
`save_window_save (w0, vector, 0)` on a vector whose first `n` elements are
`vec` returns `n`; the elements after the first `n` are untouched, element
`i` below `n` holds the saved window of the `i`-th window of the tree in
pre-order, and the index that a saved window records as its parent or as its
previous sibling is smaller than its own index. -/
theorem save_window_save_fills (fuel : Nat) (s : State) (scr : Scr) (t : Shape) (w0 : Win)
    (vec after : List SavedWindow) (hrep : Rep s scr t) (hs : Shown s t)
    (hw0 : t.head = some w0) (hlen : vec.length = t.handles.length)
    (hfuel : t.handles.length < fuel) :
    count_windows s fuel w0 = Walk.val t.handles.length
      ∧ ∃ (out : List SavedWindow) (s' : State), save_window_save fuel s (some w0) (vec ++ after) 0
            = Res.ok (out ++ after, t.handles.length) s'
          ∧ out.length = t.handles.length
          ∧ (∀ (i : Nat) (x : Win), t.handles[i]? = some x → ∃ p : SavedWindow, out[i]? = some p ∧ p.window = some x)
          ∧ ∀ (i : Nat) (p : SavedWindow), out[i]? = some p →
              (∀ j, p.parent = some j → j < i) ∧ (∀ j, p.prev = some j → j < i) := by
  obtain ⟨-, hnd, -, hlink⟩ := hrep
  refine ⟨count_windows_spec s scr t none none fuel hlink hfuel w0 hw0, ?_⟩
  have h := save_window_save_spec s scr (fun x => t.handles.indexOf x) t none none fuel s []
    vec after hlink hs (temEq_refl s) hlen
    (fun j x hj => by
      simp only [List.length_nil, Nat.zero_add]
      exact indexOf_of_getElem _ hnd j x hj)
    hnd (by simp) (by simp) hfuel
  simp only [List.nil_append, List.length_nil, hw0, Nat.zero_add] at h
  refine ⟨_, _, h, by simp, fun i x hi => ?_, fun i p hp => ?_⟩
  · refine ⟨entry s (fun x => t.handles.indexOf x) x, ?_, rfl⟩
    simp only [List.getElem?_map, hi, Option.map_some']
  · rw [List.getElem?_map] at hp
    rcases hx : t.handles[i]? with _ | x
    · rw [hx] at hp; exact absurd hp (by simp)
    rw [hx] at hp
    simp only [Option.map_some', Option.some.injEq] at hp
    subst hp
    have hi : t.handles.indexOf x = i := indexOf_of_getElem _ hnd i x hx
    have hxm : x ∈ t.handles := List.getElem?_mem hx
    rw [← infos_map_w t none none] at hxm
    obtain ⟨i0, hi0, hw⟩ := List.mem_map.1 hxm
    obtain ⟨hpar, hprev, -⟩ := hlink i0 hi0
    rw [hw] at hpar hprev
    constructor
    · intro j hj
      have hj' : (s.windows x).parent.map (fun x => t.handles.indexOf x) = some j := hj
      rw [hpar] at hj'
      rcases infos_par_before t none none i0 hi0 with e | ⟨j0, -, e, hsub⟩
      · rw [e] at hj'; exact absurd hj' (by simp)
      · rw [e] at hj'
        simp only [Option.map_some', Option.some.injEq] at hj'
        rw [hw] at hsub
        have := indexOf_lt_of_pair_sublist hnd hsub
        omega
    · intro j hj
      have hj' : (s.windows x).prev.map (fun x => t.handles.indexOf x) = some j := hj
      rw [hprev] at hj'
      rcases infos_prev_before t none none i0 hi0 with e | ⟨e, -⟩ | ⟨j0, -, e, -, hsub⟩
      · rw [e] at hj'; exact absurd hj' (by simp)
      · rw [e] at hj'; exact absurd hj' (by simp)
      · rw [e] at hj'
        simp only [Option.map_some', Option.some.injEq] at hj'
        rw [hw] at hsub
        have := indexOf_lt_of_pair_sublist hnd hsub
        omega

theorem save_window_save_fills_witness :
    count_windows state6 7 2 = Walk.val shape6.handles.length
      ∧ ∃ (out : List SavedWindow) (s' : State), save_window_save 7 state6 (some 2) (List.replicate 6 ({} : SavedWindow) ++ [({} : SavedWindow), ({} : SavedWindow)]) 0
            = Res.ok (out ++ [({} : SavedWindow), ({} : SavedWindow)], shape6.handles.length) s'
          ∧ out.length = shape6.handles.length
          ∧ (∀ (i : Nat) (x : Win), shape6.handles[i]? = some x → ∃ p : SavedWindow, out[i]? = some p ∧ p.window = some x)
          ∧ ∀ (i : Nat) (p : SavedWindow), out[i]? = some p →
              (∀ j, p.parent = some j → j < i) ∧ (∀ j, p.prev = some j → j < i) :=
  save_window_save_fills 7 state6 0 shape6 2 (List.replicate 6 ({} : SavedWindow)) [({} : SavedWindow), ({} : SavedWindow)] (by decide!)
    (by decide!) rfl rfl (by decide)

/-- The children of a vertical combination that they tile have its width. -/
theorem vcomb_tops_width (h : Win → Window) (P : Win) : ∀ (t : Shape) (V : Option Win),
    (∀ i ∈ t.infos (some (Kind.vcomb, P)) V, TileX h i) →
    ∀ c ∈ t.tops, (h c).width = (h P).width := by
  intro t
  induction t with
  | nil => intro V _ c hc; simp [Shape.tops] at hc
  | node x ky chy rest _ ihr =>
    intro V ht c hc
    simp only [Shape.tops, List.mem_cons] at hc
    rcases hc with rfl | hc
    · have hy := ht ⟨c, ky, some (Kind.vcomb, P), V, rest.head, chy.head⟩
        (by simp [Shape.infos])
      simp only [TileX] at hy
      exact hy.2
    · exact ihr (some x) (fun i hi => ht i (by simp [Shape.infos, hi])) c hc

theorem resize_node_x_grows (h h' : Win → Window) (y : Win) (k : Kind) (ch : Shape) (v : Int)
    (ih : GrowsX ch)
    (e : resize_node_x h y k ch v = some h') (hnd : (y :: ch.handles).Nodup)
    (hnn : ∀ z ∈ ch.handles, 0 ≤ (h z).width)
    (hin : ∀ i ∈ ch.inner, TileX h i)
    (hh : k = Kind.vcomb → ∀ c ∈ ch.tops, (h c).width ≤ v)
    (hv : k = Kind.hcomb → 0 ≤ (h y).width ∧ (h y).width ≤ v)
    (hvb : v ≤ 32767) (hsum : k = Kind.hcomb → sum_width h ch.tops ≤ (h y).width) :
    ∀ z ∈ ch.handles, (h z).width ≤ (h' z).width := by
  have hx : y ∉ ch.handles := (List.nodup_cons.1 hnd).1
  have hag : ∀ z ∈ ch.handles, touch_width h y v z = h z := fun z hz =>
    touch_width_other h y v z (fun e => hx (e ▸ hz))
  have hin3 : ∀ i ∈ ch.inner, TileX (touch_width h y v) i := fun i hi =>
    tileX_transport_inner ch h _ hag i hi (hin i hi)
  have hnn3 : ∀ z ∈ ch.handles, 0 ≤ (touch_width h y v z).width := fun z hz => by
    rw [hag z hz]; exact hnn z hz
  by_cases hnil : ch = Shape.nil
  · subst hnil
    simp [Shape.handles]
  intro z hz
  rw [← hag z hz]
  revert z
  unfold resize_node_x at e
  cases k with
  | leaf =>
    simp only [Option.some.injEq] at e
    subst e
    intro z _
    exact le_refl _
  | vcomb =>
    exact ih false y v 0 0 0 0 _ h' e hnd hnn3 hin3
      (fun _ c hc => by rw [hag c (tops_sub_handles ch c hc)]; exact hh rfl c hc) (by simp)
      hvb (by simp)
  | hcomb =>
    simp only at e
    obtain ⟨h0, hle⟩ := hv rfl
    have hold : (h y).width ≠ 0 := by
      intro h0
      obtain ⟨x, ky, chy, rest, rfl⟩ : ∃ x ky chy rest, ch = Shape.node x ky chy rest := by
        cases ch with
        | nil => exact absurd rfl hnil
        | node x ky chy rest => exact ⟨x, ky, chy, rest, rfl⟩
      rw [resize_x_node] at e
      simp [h0, shl1] at e
    have hpos : 0 < (h y).width := by omega
    refine ih true y v (h y).width _ _ 0 _ h' e hnd hnn3 hin3 (by simp) ?_ hvb ?_
    · intro _
      refine ⟨hpos, hle, le_refl 0, ?_⟩
      rw [scale_pos_zero _ _ hpos (by omega)]; simp
    · intro _
      rw [sum_width_congr h _ _ (fun z hz => hag z (tops_sub_handles ch z hz))]
      have := hsum rfl
      omega

theorem resize_x_grows : ∀ t : Shape, GrowsX t := by
  intro t
  induction t with
  | nil =>
    intro hor P v old left lastright lastoright h h' e _ _ _ _ _ _ _ z hz
    simp [Shape.handles] at hz
  | node x ky chy rest ihc ihr =>
    intro hor P v old left lastright lastoright h h' e hnd hnn hin hfalse hvert hvb hbd
    rw [resize_x_node] at e
    split at e
    · exact absurd e (by simp)
    split at e
    · exact absurd e (by simp)
    next hz0 _ h2 e2 =>
    simp only [Shape.handles, List.nodup_cons, List.mem_cons, List.mem_append,
      List.nodup_append, not_or] at hnd
    obtain ⟨⟨hPy, hPc, hPr⟩, ⟨hyc, hyr⟩, hndc, hndr, hdisj⟩ := hnd
    generalize hX : (if hor = true then lastright else (h P).left) = Y at e2
    generalize hvy : (if hor = true then
      scale_pos (lastoright + (h x).width) v old + left - lastright else v) = vy at e2
    obtain ⟨f1, f2⟩ := resize_node_x_frame _ _ _ _ _ _ e2
    have f3 := resize_x_frame _ _ _ _ _ _ _ _ _ _ e
    have g1 : ∀ z, z ≠ x → z ∉ chy.handles → h2 z = h z := fun z hz hzc => by
      rw [f1 z hz hzc, set_left_other _ _ _ _ hz]
    have g2h : (h2 x).width = vy := by rw [f2 hyc]
    have hy0 : 0 ≤ (h x).width := hnn x (by simp [Shape.handles])
    have hsr0 : 0 ≤ sum_width h rest.tops :=
      sum_width_nonneg h rest.tops
        (fun z hz => hnn z (by simp [Shape.handles, tops_sub_handles rest z hz]))
    have hst : sum_width h (Shape.node x ky chy rest).tops
        = (h x).width + sum_width h rest.tops := by
      simp [Shape.tops, sum_width]
    have hyv : (h x).width ≤ vy ∧ vy ≤ 32767 := by
      subst hvy
      split
      · next hvt =>
        obtain ⟨ho, hov, hlo, hlb⟩ := hvert hvt
        have hsb := hbd hvt
        rw [hst] at hsb
        have := scale_pos_grow lastoright (h x).width v old hlo hy0 ho hov (by omega) hvb
        have m2 := scale_pos_mono (lastoright + (h x).width) old v old (by omega) ho (by omega)
          (by omega) (by omega) hvb (by omega)
        rw [scale_pos_full v old (by omega) ho hvb (by omega)] at m2
        have m3 := scale_pos_nonneg lastoright v old hlo (by omega) ho (by omega) hvb (by omega)
        omega
      · next hvt => exact ⟨hfalse (by simpa using hvt) x (by simp [Shape.tops]), hvb⟩
    obtain ⟨hyv, hvyB⟩ := hyv
    have hagc : ∀ z ∈ chy.handles, set_left h x Y z = h z := fun z hz =>
      set_left_other h x Y z (fun e => hyc (e ▸ hz))
    have hsy : (set_left h x Y x).width = (h x).width := by simp [set_left]
    have hnest := resize_node_x_grows (set_left h x Y) h2 x ky chy vy ihc e2
      (List.nodup_cons.2 ⟨hyc, hndc⟩)
      (fun z hz => by rw [hagc z hz]; exact hnn z (by simp [Shape.handles, hz]))
      (fun i hi => tileX_transport_inner chy h _ hagc i hi
        (hin i (by simp [Shape.inner, inner_sub chy _ _ i hi])))
      (by
        intro hk c hc
        subst hk
        rw [hagc c (tops_sub_handles chy c hc),
          vcomb_tops_width h x chy none (fun i hi => hin i (by simp [Shape.inner, hi])) c hc]
        exact hyv)
      (fun _ => by rw [hsy]; exact ⟨hy0, hyv⟩)
      hvyB
      (by
        intro hk
        subst hk
        by_cases hne : chy = Shape.nil
        · subst hne
          simp only [Shape.tops, sum_width, List.map_nil, List.sum_nil]
          rw [hsy]; exact hy0
        have := sum_width_of_tile h x chy none
          (fun i hi => hin i (by simp [Shape.inner, hi])) hne
        simp only [start_x] at this
        rw [sum_width_congr h _ _ (fun z hz => hagc z (tops_sub_handles chy z hz)), hsy]
        omega)
    have hagr : ∀ z ∈ rest.handles, h2 z = h z := fun z hz =>
      g1 z (fun e => hyr (e ▸ hz)) (fun hzc => hdisj hzc hz)
    have hrest := ihr hor P v old left _ _ h2 h' e
      (List.nodup_cons.2 ⟨hPr, hndr⟩)
      (fun z hz => by rw [hagr z hz]; exact hnn z (by simp [Shape.handles, hz]))
      (fun i hi => tileX_transport_inner rest h _ hagr i hi (hin i (by simp [Shape.inner, hi])))
      (fun hvt c hc => by
        rw [hagr c (tops_sub_handles rest c hc)]
        exact hfalse hvt c (by simp [Shape.tops, hc]))
      (by
        intro hvt
        obtain ⟨ho, hov, hlo, hlb⟩ := hvert hvt
        simp only [hvt, if_true]
        exact ⟨ho, hov, by omega, by omega⟩)
      hvb
      (by
        intro hvt
        have hsb := hbd hvt
        rw [hst] at hsb
        simp only [hvt, if_true]
        rw [sum_width_congr h _ _ (fun z hz => hagr z (tops_sub_handles rest z hz))]
        omega)
    intro z hz
    simp only [Shape.handles, List.mem_cons, List.mem_append] at hz
    rcases hz with rfl | hz | hz
    · rw [f3 z hyr, g2h]; exact hyv
    · rw [f3 z (fun hr => hdisj hz hr), ← hagc z hz]
      exact hnest z hz
    · rw [← hagr z hz]
      exact hrest z hz

/-! ## Shapes after the deletion of a leaf -/

theorem plug_append (c c2 : Ctx) (t : Shape) : plug (c ++ c2) t = plug c2 (plug c t) := by
  induction c generalizing t with
  | nil => rfl
  | cons f c ih =>
    cases f with
    | right w k ch => exact ih _
    | down w k rest => exact ih _

theorem branched_node (w : Win) (k : Kind) (ch rest : Shape) :
    (Shape.node w k ch rest).branched = true ↔
      (k = Kind.leaf → ch = Shape.nil) ∧ (k ≠ Kind.leaf → 2 ≤ ch.tops.length)
        ∧ ch.branched = true ∧ rest.branched = true := by
  cases k <;> simp [Shape.branched, and_assoc]

theorem branched_hole : ∀ (c : Ctx) (t : Shape), (plug c t).branched = true →
    t.branched = true := by
  intro c
  induction c with
  | nil => intro t h; exact h
  | cons f c ih =>
    intro t h
    cases f with
    | right w k ch => exact ((branched_node w k ch t).1 (ih _ h)).2.2.2
    | down w k rest => exact ((branched_node w k t rest).1 (ih _ h)).2.2.1

theorem branched_chain_hole : ∀ (c : Ctx) (t : Shape), (ctxChain c t).branched = true →
    t.branched = true := by
  intro c
  induction c with
  | nil => intro t h; exact h
  | cons f c ih =>
    intro t h
    cases f with
    | right w k ch => exact ((branched_node w k ch t).1 (ih _ h)).2.2.2
    | down w k rest => exact h

theorem branched_chain_replace : ∀ (c : Ctx) (t t' : Shape),
    (ctxChain c t).branched = true → t'.branched = true →
    (ctxChain c t').branched = true := by
  intro c
  induction c with
  | nil => intro t t' _ h; exact h
  | cons f c ih =>
    intro t t' h h'
    cases f with
    | right w k ch =>
      have hn := (branched_node w k ch t).1 (branched_chain_hole c _ h)
      exact ih _ (Shape.node w k ch t') h
        ((branched_node w k ch t').2 ⟨hn.1, hn.2.1, hn.2.2.1, h'⟩)
    | down w k rest => exact h'

/-- In a tree whose combinations have two or more children a window with a
parent has a sibling. -/
theorem branched_siblings (c : Ctx) (t : Shape) (P : Win) (k : Kind) (restP : Shape) (c1 : Ctx)
    (h : (plug c t).branched = true) (hne : t ≠ Shape.nil)
    (hab : ctxAbove c = Frame.down P k restP :: c1) : 2 ≤ (ctxChain c t).tops.length := by
  rw [← plug_above, hab] at h
  have hn := (branched_node P k (ctxChain c t) restP).1 (branched_hole c1 _ h)
  by_cases hk : k = Kind.leaf
  · exact absurd (hn.1 hk) (ctxChain_ne_nil c t hne)
  · exact hn.2.1 hk

theorem branched_replace : ∀ (c : Ctx) (t t' : Shape), (plug c t).branched = true →
    t ≠ Shape.nil → t'.branched = true →
    (∀ P k rest c1, ctxAbove c = Frame.down P k rest :: c1 → 2 ≤ (ctxChain c t').tops.length) →
    (plug c t').branched = true := by
  intro c
  induction c with
  | nil => intro t t' _ _ h _; exact h
  | cons f c ih =>
    intro t t' h hne ht' hcond
    cases f with
    | right w k ch =>
      have hn := (branched_node w k ch t).1 (branched_hole c _ h)
      exact ih (Shape.node w k ch t) (Shape.node w k ch t') h (by simp)
        ((branched_node w k ch t').2 ⟨hn.1, hn.2.1, hn.2.2.1, ht'⟩)
        (fun P k' rest c1 hab => hcond P k' rest c1 hab)
    | down w k rest =>
      have hn := (branched_node w k t rest).1 (branched_hole c _ h)
      have h2 : 2 ≤ t'.tops.length := hcond w k rest c rfl
      refine ih (Shape.node w k t rest) (Shape.node w k t' rest) h (by simp)
        ((branched_node w k t' rest).2 ⟨fun hk => absurd (hn.1 hk) hne, fun _ => h2, ht',
          hn.2.2.2⟩) ?_
      intro P k' rest' c1 hab
      have h3 := branched_siblings c (Shape.node w k t rest) P k' rest' c1 h (by simp) hab
      obtain ⟨m, hm⟩ := ctxChain_tops_length c
      rw [hm] at h3 ⊢
      simpa [Shape.tops] using h3

theorem tops_single (t : Shape) (h : t.tops.length = 1) :
    ∃ a ka cha, t = Shape.node a ka cha Shape.nil := by
  cases t with
  | nil => simp [Shape.tops] at h
  | node a ka cha r =>
    cases r with
    | nil => exact ⟨a, ka, cha, rfl⟩
    | node b kb chb r2 => simp [Shape.tops] at h

/-- The deletion of a leaf keeps the property that every combination has two
or more children. -/
theorem branched_delete (c : Ctx) (w : Win) (rest : Shape)
    (h : (plug c (Shape.node w Kind.leaf Shape.nil rest)).branched = true) :
    (deleteShape c rest).branched = true := by
  have hrest : rest.branched = true :=
    ((branched_node w Kind.leaf Shape.nil rest).1 (branched_hole c _ h)).2.2.2
  unfold deleteShape
  split
  · next P k restP c1 hab =>
    have h2 := branched_siblings c _ P k restP c1 h (by simp) hab
    have hb : (plug c1 (Shape.node P k (ctxChain c (Shape.node w Kind.leaf Shape.nil rest))
        restP)).branched = true := by
      have := h
      rw [← plug_above, hab] at this
      exact this
    have hPn := (branched_node P k _ restP).1 (branched_hole c1 _ hb)
    have hc' : (ctxChain c rest).branched = true :=
      branched_chain_replace c _ rest hPn.2.2.1 hrest
    obtain ⟨m, hm⟩ := ctxChain_tops_length c
    have hlen : 1 ≤ (ctxChain c rest).tops.length := by
      rw [hm] at h2 ⊢
      simp only [Shape.tops, List.length_cons] at h2
      omega
    have hup : ∀ (X : Shape), X.tops.length = 1 + restP.tops.length →
        ∀ P' k' rest' c2, ctxAbove c1 = Frame.down P' k' rest' :: c2 →
        2 ≤ (ctxChain c1 X).tops.length := by
      intro X hX P' k' rest' c2 hab2
      have h3 := branched_siblings c1 _ P' k' rest' c2 hb (by simp) hab2
      obtain ⟨m1, hm1⟩ := ctxChain_tops_length c1
      rw [hm1] at h3 ⊢
      simp only [Shape.tops, List.length_cons] at h3
      omega
    unfold collapseShape
    split
    · next a ka cha hch =>
      rw [hch, branched_node] at hc'
      exact branched_replace c1 _ (Shape.node a ka cha restP) hb (by simp)
        ((branched_node a ka cha restP).2 ⟨hc'.1, hc'.2.1, hc'.2.2.1, hPn.2.2.2⟩)
        (hup _ (by simp [Shape.tops]; omega))
    · next hnot =>
      have h2' : 2 ≤ (ctxChain c rest).tops.length := by
        by_contra hlt
        obtain ⟨a, ka, cha, e⟩ := tops_single (ctxChain c rest) (by omega)
        exact hnot a ka cha e
      have hkl : k ≠ Kind.leaf := fun hk =>
        absurd (hPn.1 hk) (ctxChain_ne_nil c _ (by simp))
      exact branched_replace c1 _ (Shape.node P k (ctxChain c rest) restP) hb (by simp)
        ((branched_node P k _ restP).2 ⟨fun hk => absurd hk hkl, fun _ => h2', hc',
          hPn.2.2.2⟩)
        (hup _ (by simp [Shape.tops]; omega))
  · next hno =>
    exact branched_replace c _ rest h (by simp) hrest
      (fun P k r c1 hab => absurd hab (hno P k r c1))

theorem ctxComb_above : ∀ c : Ctx, ctxComb c → ctxComb (ctxAbove c) := by
  intro c
  induction c with
  | nil => intro h; exact h
  | cons f c ih =>
    intro h
    cases f with
    | right w k ch => exact ih h
    | down w k rest => exact h

/-- The leaves after the deletion of a window are the other leaves, in their
order. -/
theorem leaves_deleteShape (c : Ctx) (rest : Shape) (hc : ctxComb c) :
    (deleteShape c rest).leaves = ctxLeft c ++ rest.leaves ++ ctxRight c := by
  rw [← leaves_plug c rest hc]
  unfold deleteShape
  split
  · next P k restP c1 hab =>
    have hca := ctxComb_above c hc
    rw [hab] at hca
    obtain ⟨hk, hc1⟩ := hca
    have hpl : plug c rest = plug c1 (Shape.node P k (ctxChain c rest) restP) := by
      rw [← plug_above, hab]; rfl
    rw [hpl]
    unfold collapseShape
    split
    · next a ka cha hch =>
      rw [leaves_plug c1 _ hc1, leaves_plug c1 _ hc1, leaves_node a ka cha restP]
      cases k with
      | leaf => exact absurd rfl hk
      | hcomb => simp [Shape.leaves, hch]
      | vcomb => simp [Shape.leaves, hch]
    · rfl
  · rfl

theorem handles_deleteShape (c : Ctx) (rest : Shape) (z : Win)
    (hz : z ∈ (deleteShape c rest).handles) : z ∈ (plug c rest).handles := by
  unfold deleteShape at hz
  split at hz
  · next P k restP c1 hab =>
    have hpl : plug c rest = plug c1 (Shape.node P k (ctxChain c rest) restP) := by
      rw [← plug_above, hab]; rfl
    rw [hpl]
    unfold collapseShape at hz
    split at hz
    · next a ka cha hch =>
      rw [hch]
      exact handles_collapse_sub c1 P k a ka cha restP z hz
    · exact hz
  · exact hz

theorem deleteShape_right (w : Win) (k : Kind) (ch : Shape) (c : Ctx) (rest : Shape) :
    deleteShape (Frame.right w k ch :: c) rest = deleteShape c (Shape.node w k ch rest) := rfl

/-- The deletion of a window below the root window keeps the windows that
follow the root window. -/
theorem deleteShape_root (R : Win) (k : Kind) (mb : Shape) : ∀ (c : Ctx) (rest : Shape),
    ∃ R' k' ch', deleteShape (c ++ [Frame.down R k mb]) rest = Shape.node R' k' ch' mb := by
  intro c
  induction c with
  | nil =>
    intro rest
    simp only [List.nil_append, deleteShape, ctxAbove, ctxChain, collapseShape]
    split
    · exact ⟨_, _, _, rfl⟩
    · exact ⟨_, _, _, rfl⟩
  | cons f c ih =>
    intro rest
    cases f with
    | right w' k' ch' =>
      rw [List.cons_append, deleteShape_right]
      exact ih _
    | down P kP restP =>
      simp only [List.cons_append, deleteShape, ctxAbove, ctxChain, collapseShape]
      split
      · exact ⟨_, _, _, plug_append c _ _⟩
      · exact ⟨_, _, _, plug_append c _ _⟩

theorem leaves_ge_tops : ∀ t : Shape, t.branched = true → t.tops.length ≤ t.leaves.length := by
  intro t
  induction t with
  | nil => intro _; simp [Shape.tops, Shape.leaves]
  | node w k ch rest ihc ihr =>
    intro h
    obtain ⟨h1, h2, h3, h4⟩ := (branched_node w k ch rest).1 h
    have := ihr h4
    have hc := ihc h3
    cases k with
    | leaf => simp only [Shape.tops, Shape.leaves, List.length_cons]; omega
    | hcomb =>
      have := h2 (by simp)
      simp only [Shape.tops, Shape.leaves, List.length_cons, List.length_append]; omega
    | vcomb =>
      have := h2 (by simp)
      simp only [Shape.tops, Shape.leaves, List.length_cons, List.length_append]; omega

/-- A tree whose combinations have two or more children and which has one
leaf is that leaf. -/
theorem single_leaf_root (R : Win) (k : Kind) (ch : Shape) (x : Win)
    (h : (Shape.node R k ch Shape.nil).branched = true)
    (hl : (Shape.node R k ch Shape.nil).leaves = [x]) :
    R = x ∧ k = Kind.leaf ∧ ch = Shape.nil := by
  obtain ⟨h1, h2, h3, -⟩ := (branched_node R k ch Shape.nil).1 h
  have hc := leaves_ge_tops ch h3
  cases k with
  | leaf =>
    simp only [Shape.leaves, List.cons.injEq, and_true] at hl
    exact ⟨hl, rfl, h1 rfl⟩
  | hcomb =>
    have := h2 (by simp)
    simp only [Shape.leaves, List.append_nil] at hl
    rw [hl] at hc
    simp at hc
    omega
  | vcomb =>
    have := h2 (by simp)
    simp only [Shape.leaves, List.append_nil] at hl
    rw [hl] at hc
    simp at hc
    omega

/-! ## What the later phases of `Fdelete_window` leave alone -/

theorem sameContent_refl (s : State) : SameContent s s :=
  ⟨fun _ => rfl, fun _ => rfl, rfl, rfl, rfl, rfl, rfl⟩

theorem sameContent_trans {s s1 s2 : State} (h1 : SameContent s s1) (h2 : SameContent s1 s2) :
    SameContent s s2 := by
  obtain ⟨a1, a2, a3, a4, a5, a6, a7⟩ := h1
  obtain ⟨b1, b2, b3, b4, b5, b6, b7⟩ := h2
  exact ⟨fun x => (b1 x).trans (a1 x), fun c => (b2 c).trans (a2 c), b3.trans a3, b4.trans a4,
    b5.trans a5, b6.trans a6, b7.trans a7⟩

theorem sameContent_setw (s : State) (y : Win) (w : Window)
    (h : w.content = (s.windows y).content) : SameContent s (setw s y w) := by
  refine ⟨fun x => ?_, fun _ => rfl, rfl, rfl, rfl, rfl, rfl⟩
  unfold setw
  by_cases hx : x = y
  · subst hx; simpa using h
  · simp [hx]

theorem sameContent_sets_root (s : State) (c : Scr) (r : Option Win) :
    SameContent s (sets s c { s.screens c with root_window := r }) := by
  refine ⟨fun x => rfl, fun d => ?_, rfl, rfl, rfl, rfl, rfl⟩
  unfold sets
  by_cases hd : d = c
  · subst hd; simp
  · simp [hd]

theorem content_of_yless {a b : Window} (h : a.yless = b.yless) : a.content = b.content := by
  have e : a.content = a.yless.content := rfl
  have e' : b.content = b.yless.content := rfl
  rw [e, e', h]

theorem content_of_xless {a b : Window} (h : a.xless = b.xless) : a.content = b.content := by
  have e : a.content = a.xless.content := rfl
  have e' : b.content = b.xless.content := rfl
  rw [e, e', h]

theorem sameContent_of_others {s s' : State} (h : others s s')
    (hw : ∀ x, (s'.windows x).content = (s.windows x).content) : SameContent s s' := by
  unfold others at h
  refine ⟨hw, fun c => ?_, ?_, ?_, ?_, ?_, ?_⟩ <;> rw [h]

theorem unlink_content (s : State) (w P : Win) : SameContent s (delete_unlink s w P) := by
  have h1 : ∀ s : State, SameContent s (match (s.windows w).next with
      | some tem => setw s tem { s.windows tem with prev := (s.windows w).prev }
      | none => s) := fun s => by
    split
    · exact sameContent_setw _ _ _ rfl
    · exact sameContent_refl _
  have h2 : ∀ s : State, SameContent s (match (s.windows w).prev with
      | some tem => setw s tem { s.windows tem with next := (s.windows w).next }
      | none => s) := fun s => by
    split
    · exact sameContent_setw _ _ _ rfl
    · exact sameContent_refl _
  have h3 : ∀ s : State, SameContent s (if some w = (s.windows P).hchild then
      setw s P { s.windows P with hchild := (s.windows w).next } else s) := fun s => by
    split
    · exact sameContent_setw _ _ _ rfl
    · exact sameContent_refl _
  have h4 : ∀ s : State, SameContent s (if some w = (s.windows P).vchild then
      setw s P { s.windows P with vchild := (s.windows w).next } else s) := fun s => by
    split
    · exact sameContent_setw _ _ _ rfl
    · exact sameContent_refl _
  exact sameContent_trans (h1 s) (sameContent_trans (h2 _) (sameContent_trans (h3 _) (h4 _)))

theorem sibling_content (s : State) (w : Win) :
    (delete_sibling s w).Sat fun _ s' => SameContent s s' := by
  unfold delete_sibling
  split
  · exact sameContent_refl _
  · split
    · trivial
    · next sib _ =>
      have h1 : ∀ s : State, SameContent s
          (setw s sib { s.windows sib with top := (s.windows w).top }) :=
        fun s => sameContent_setw _ _ _ rfl
      have h2 : ∀ s : State, SameContent s
          (setw s sib { s.windows sib with left := (s.windows w).left }) :=
        fun s => sameContent_setw _ _ _ rfl
      exact sameContent_trans (h1 _) (h2 _)

theorem replace_window_content (s : State) (old new : Win) :
    (replace_window s old new).Sat fun _ s' => SameContent s s' := by
  have h1 : ∀ (s : State) (scr : Scr), SameContent s
      (if (s.screens scr).root_window = some old then
        sets s scr { s.screens scr with root_window := some new } else s) := fun s scr => by
    split
    · exact sameContent_sets_root _ _ _
    · exact sameContent_refl _
  have h4 : ∀ s : State, SameContent s (match (s.windows old).next with
      | some tem => setw s tem { s.windows tem with prev := some new }
      | none => s) := fun s => by
    split
    · exact sameContent_setw _ _ _ rfl
    · exact sameContent_refl _
  have h6 : ∀ s : State, SameContent s (match (s.windows old).prev with
      | some tem => setw s tem { s.windows tem with next := some new }
      | none => s) := fun s => by
    split
    · exact sameContent_setw _ _ _ rfl
    · exact sameContent_refl _
  have h8 : ∀ (s : State) (tem : Win), SameContent s
      (if (s.windows tem).vchild = some old then
        setw s tem { s.windows tem with vchild := some new } else s) := fun s tem => by
    split
    · exact sameContent_setw _ _ _ rfl
    · exact sameContent_refl _
  have h9 : ∀ (s : State) (tem : Win), SameContent s
      (if (s.windows tem).hchild = some old then
        setw s tem { s.windows tem with hchild := some new } else s) := fun s tem => by
    split
    · exact sameContent_setw _ _ _ rfl
    · exact sameContent_refl _
  have h2 : ∀ s : State, SameContent s (setw s new { s.windows new with
      left := (s.windows old).left, top := (s.windows old).top,
      width := (s.windows old).width, height := (s.windows old).height }) :=
    fun s => sameContent_setw _ _ _ rfl
  have h3 : ∀ s : State, SameContent s
      (setw s new { s.windows new with next := (s.windows old).next }) :=
    fun s => sameContent_setw _ _ _ rfl
  have h5 : ∀ s : State, SameContent s
      (setw s new { s.windows new with prev := (s.windows old).prev }) :=
    fun s => sameContent_setw _ _ _ rfl
  have h7 : ∀ s : State, SameContent s
      (setw s new { s.windows new with parent := (s.windows old).parent }) :=
    fun s => sameContent_setw _ _ _ rfl
  have h10 : ∀ s7 : State, SameContent s s7 →
      (match (s7.windows old).parent with
        | some tem =>
          Res.ok ()
            (if ((if (s7.windows tem).vchild = some old then
                  setw s7 tem { s7.windows tem with vchild := some new }
                else s7).windows tem).hchild = some old then
              setw (if (s7.windows tem).vchild = some old then
                  setw s7 tem { s7.windows tem with vchild := some new }
                else s7) tem { (if (s7.windows tem).vchild = some old then
                  setw s7 tem { s7.windows tem with vchild := some new }
                else s7).windows tem with hchild := some new }
            else (if (s7.windows tem).vchild = some old then
                  setw s7 tem { s7.windows tem with vchild := some new }
                else s7))
        | none => Res.ok () s7 : Res Unit).Sat fun _ s' => SameContent s s' := by
    intro s7 h17
    split
    · next tem _ => exact sameContent_trans h17 (sameContent_trans (h8 s7 tem) (h9 _ tem))
    · exact h17
  unfold replace_window
  split
  · trivial
  · next scr _ =>
    exact h10 _ (sameContent_trans (h1 s scr) (sameContent_trans (h2 _)
      (sameContent_trans (h3 _) (sameContent_trans (h4 _)
        (sameContent_trans (h5 _) (sameContent_trans (h6 _) (h7 _)))))))

theorem collapse_content (s : State) (P : Win) :
    (delete_collapse s P).Sat fun _ s' => SameContent s s' := by
  unfold delete_collapse
  simp only []
  split
  · trivial
  · split
    · exact replace_window_content _ _ _
    · exact sameContent_refl _

/-- A returning `set_window_height (x, v, 1)` on a window of a represented
tree changes nothing but vertical geometry. -/
theorem resize_content_y (E : Ext) (scr : Scr) (fuel : Nat) (s8 : State) (c : Ctx)
    (x : Win) (k : Kind) (ch rest : Shape) (v : Int)
    (hrep8 : Rep s8 scr (plug c (Shape.node x k ch rest))) :
    (set_window_height E fuel s8 x v true).Sat fun _ s9 => SameContent s8 s9 := by
  refine (set_window_height_out E scr fuel s8 c x k ch rest v hrep8).to_sat.mono ?_
  rintro _ s9 ⟨e, ho⟩
  exact sameContent_of_others ho
    (fun z => content_of_yless (resize_node_y_yless _ _ _ _ _ _ e z))

theorem resize_content_x (E : Ext) (scr : Scr) (fuel : Nat) (s8 : State) (c : Ctx)
    (x : Win) (k : Kind) (ch rest : Shape) (v : Int)
    (hrep8 : Rep s8 scr (plug c (Shape.node x k ch rest))) :
    (set_window_width E fuel s8 x v true).Sat fun _ s9 => SameContent s8 s9 := by
  refine (set_window_width_out E scr fuel s8 c x k ch rest v hrep8).to_sat.mono ?_
  rintro _ s9 ⟨e, ho⟩
  exact sameContent_of_others ho
    (fun z => content_of_xless (resize_node_x_xless _ _ _ _ _ _ e z))

theorem Res.andThen_eq_ok {α β : Type} {r : Res α} {f : α → State → Res β} {b : β}
    {s' : State} (h : r.andThen f = Res.ok b s') :
    ∃ a s1, r = Res.ok a s1 ∧ f a s1 = Res.ok b s' := by
  cases r with
  | ok a s1 => exact ⟨a, s1, rfl, h⟩
  | signal e s1 => simp [Res.andThen] at h
  | fault => simp [Res.andThen] at h
  | nofuel => simp [Res.andThen] at h

theorem Res.sat_of_eq {α : Type} {r : Res α} {P : α → State → Prop} {a : α} {s' : State}
    (h : r.Sat P) (e : r = Res.ok a s') : P a s' := by
  subst e
  exact h

/-! ## The first phase of `Fdelete_window` on a leaf -/

/-- On the windows of a screen whose root window is not its minibuffer window
the loop of `Fnext_window` within one screen is the loop of
`next_screen_window`. -/
theorem next_window_loop_screen (E : Ext) (s : State) (scr : Scr) (mini : Mini) (t : Shape)
    (hrep : Rep s scr t)
    (hroot : (s.screens scr).root_window ≠ (s.screens scr).minibuffer_window) :
    ∀ (fuel : Nat) (w : Win), w ∈ t.handles →
      next_window_loop E s mini false fuel w = next_screen_window_loop s scr mini fuel w := by
  intro fuel
  induction fuel with
  | zero => intro w _; rfl
  | succ f ih =>
    intro w hw
    unfold next_window_loop next_screen_window_loop
    rw [screen_climb_eq E s scr mini t hrep f w hw]
    cases hc : next_climb E s mini false f w with
    | fault => rfl
    | nofuel => rfl
    | val tem =>
      simp only
      have htem := next_climb_mem E s scr t mini hrep f w tem hw hc
      cases hl : first_leaf s f tem with
      | fault => rfl
      | nofuel => rfl
      | val w1 =>
        simp only
        obtain ⟨hw1, -, -⟩ := first_leaf_mem s scr t hrep f tem w1 htem hl
        split
        · rw [rep_screen s scr t w1 hrep hw1]
          simp only [hroot, ne_eq, not_false_eq_true, if_true]
          exact ih w1 hw1
        · rfl

/-- In a tree with another leaf that is no minibuffer window, `Fnext_window`
with the policy `nil` returns a leaf other than its argument. -/
theorem Fnext_window_other (E : Ext) (s : State) (scr : Scr) (t : Shape) (hrep : Rep s scr t)
    (hroot : (s.screens scr).root_window ≠ (s.screens scr).minibuffer_window)
    (w x : Win) (hw : w ∈ t.leaves) (hx : x ∈ t.leaves) (hxw : x ≠ w)
    (hxm : MINI_WINDOW_P (s.windows x) = false) (fuel : Nat)
    (hf : t.handles.length + t.leaves.length + 1 < fuel) :
    ∃ nw, Fnext_window E fuel s (some w) Mini.nil false = Walk.val nw ∧ nw ∈ t.leaves
      ∧ nw ≠ w := by
  have e : Fnext_window E fuel s (some w) Mini.nil false
      = next_screen_window_loop s scr Mini.nil fuel w := by
    unfold Fnext_window
    simp only [Option.getD_some, reduceCtorEq, ne_eq, not_true_eq_false, false_and, or_self,
      if_false]
    exact next_window_loop_screen E s scr Mini.nil t hrep hroot fuel w
      (leaves_sub_handles t w hw)
  rw [e]
  obtain ⟨i0, rest, -, hR⟩ := rotate_of_mem t.leaves w hw
  have hnd : (w :: rest).Nodup := by
    rw [← hR]
    exact List.nodup_rotate.2 (leaves_nodup t hrep.2.1)
  have hxr : x ∈ rest := by
    have : x ∈ t.leaves.rotate i0 := List.mem_rotate.2 hx
    rw [hR] at this
    rcases List.mem_cons.1 this with h | h
    · exact absurd h hxw
    · exact h
  have hlen : rest.length < t.leaves.length := by
    have := congrArg List.length hR
    simp only [List.length_rotate, List.length_cons] at this
    omega
  rcases exists_first (mini_ok s Mini.nil) rest with hall | ⟨mid, l, post, hsplit, hmid, hl⟩
  · have := hall x hxr
    rw [(mini_ok_nil s x).2 (Or.inl hxm)] at this
    exact absurd this (by simp)
  · have hD : t.leaves.rotate i0 ++ t.leaves.rotate i0
        = [] ++ w :: (mid ++ l :: (post ++ w :: rest)) := by
      rw [hR, hsplit]; simp
    have hmidlen : mid.length ≤ rest.length := by
      rw [hsplit]; simp
    refine ⟨l, next_screen_window_loop_skip s scr Mini.nil t hrep i0 l _ hl mid [] w fuel hD
      hmid (by omega), ?_, ?_⟩
    · have : l ∈ t.leaves.rotate i0 := by rw [hR, hsplit]; simp
      exact List.mem_rotate.1 this
    · intro e
      subst e
      exact (List.nodup_cons.1 hnd).1 (by rw [hsplit]; simp)

theorem select_point_keeps (s4 : State) (b : Buf) (p : Int) :
    (∀ b', ((select_point s4 b p).buffers b').name_live = (s4.buffers b').name_live)
      ∧ (select_point s4 b p).selected_screen = s4.selected_screen := by
  unfold select_point
  simp only []
  refine ⟨fun b' => ?_, ?_⟩
  · by_cases hb : b' = b
    · subst hb; split_ifs <;> simp [setb]
    · split_ifs <;> simp [setb, hb]
  · split_ifs <;> rfl

/-- `Fselect_window` on a leaf of the selected screen other than the selected
window: what it leaves alone. -/
theorem Fselect_window_switch (E : Ext) (s : State) (nw : Win) (b : Buf) (pm : Marker)
    (ob : Buf) (opm : Marker)
    (hb : (s.windows nw).buffer = BufSlot.buf b) (hl : (s.buffers b).name_live = true)
    (hpm : (s.windows nw).pointm = some pm) (hpmb : pm.buffer ≠ none)
    (hscr : (s.windows nw).screen = some s.selected_screen)
    (hob : (s.windows s.selected_window).buffer = BufSlot.buf ob)
    (hop : (s.windows s.selected_window).pointm = some opm)
    (hne : nw ≠ s.selected_window) :
    ∃ s1, Fselect_window E s nw = Res.ok nw s1
      ∧ (∀ x, (s1.windows x).start = (s.windows x).start
          ∧ (s1.windows x).buffer = (s.windows x).buffer
          ∧ (s1.windows x).mini_p = (s.windows x).mini_p
          ∧ (x ≠ s.selected_window → (s1.windows x).pointm = (s.windows x).pointm))
      ∧ (s1.windows s.selected_window).pointm
          = some { buffer := some ob, charpos := (s.buffers ob).pt }
      ∧ (∀ b', (s1.buffers b').name_live = (s.buffers b').name_live)
      ∧ s1.selected_window = nw ∧ s1.selected_screen = s.selected_screen
      ∧ s1.minibuf_level = s.minibuf_level
      ∧ (∀ c, (s1.screens c).minibuffer_window = (s.screens c).minibuffer_window) := by
  obtain ⟨-, -, -, -, f5, f6, f7, -⟩ := select_stamp_fields s nw nw
  unfold Fselect_window
  simp only [hb, reduceCtorEq, if_false]
  have hsel : ¬ nw = (select_stamp s nw).selected_window := by rw [f5]; exact hne
  rw [if_neg hsel]
  obtain ⟨-, g2, g3, -⟩ := select_stamp_fields s nw s.selected_window
  rw [g2, g3, hob, hop]
  simp only
  obtain ⟨k1, k2, k3, k4, k5, k6, -⟩ := select_switch_fields (select_stamp s nw)
    s.selected_window ob nw nw
  rw [k4, (select_stamp_fields s nw nw).2.2.2.1, hscr]
  simp only
  have hscr4 : s.selected_screen
      = (select_switch (select_stamp s nw) s.selected_window ob nw).selected_screen := by
    rw [k5, f6]
  rw [hscr4]
  obtain ⟨m1, m2⟩ := select_on_screen_same E
    (select_switch (select_stamp s nw) s.selected_window ob nw) nw
  rw [m1, m2, k2, k3 hne, k6, f7, (select_stamp_fields s nw nw).2.1,
    (select_stamp_fields s nw nw).2.2.1, hb, hpm]
  simp only [hl, Bool.true_eq_false, if_false, if_neg hpmb]
  obtain ⟨p1, p2, p3, p4, p5⟩ := select_point_rest
    (select_on_screen E (select_switch (select_stamp s nw) s.selected_window ob nw) nw
      (select_switch (select_stamp s nw) s.selected_window ob nw).selected_screen) b pm.charpos
  obtain ⟨q1, q2⟩ := select_point_keeps
    (select_on_screen E (select_switch (select_stamp s nw) s.selected_window ob nw) nw
      (select_switch (select_stamp s nw) s.selected_window ob nw).selected_screen) b pm.charpos
  have hos : select_on_screen E (select_switch (select_stamp s nw) s.selected_window ob nw) nw
      (select_switch (select_stamp s nw) s.selected_window ob nw).selected_screen
      = sets (select_switch (select_stamp s nw) s.selected_window ob nw)
          (select_switch (select_stamp s nw) s.selected_window ob nw).selected_screen
          { (select_switch (select_stamp s nw) s.selected_window ob nw).screens
              (select_switch (select_stamp s nw) s.selected_window ob nw).selected_screen with
            selected_window := some nw } := by
    unfold select_on_screen
    simp
  have hne' : ¬ s.selected_window = nw := fun e => hne e.symm
  refine ⟨_, rfl, fun x => ?_, ?_, fun b' => ?_, ?_, ?_, ?_, fun c => ?_⟩
  · rw [select_point_windows, m1]
    unfold select_switch select_stamp
    by_cases hx : x = nw <;> by_cases hx2 : x = s.selected_window <;>
      simp [setw, hx, hx2, hne, hne']
  · rw [select_point_windows, m1]
    unfold select_switch select_stamp
    simp [setw, hne', set_marker, hop]
  · rw [q1, m2, k6, f7]
  · rw [p5, hos]; rfl
  · rw [q2, hos]; rfl
  · rw [p4, hos]; rfl
  · rw [p1, hos]
    simp only [sets]
    split
    · next hc => rw [hc]; rfl
    · rfl

/-- `unshow_buffer` on a window that shows a buffer with its markers in it
returns and touches buffers only. -/
theorem unshow_buffer_ok (s : State) (w : Win) (b : Buf) (pm st : Marker)
    (hb : (s.windows w).buffer = BufSlot.buf b) (hpm : (s.windows w).pointm = some pm)
    (hpb : pm.buffer = some b) (hst : (s.windows w).start = some st)
    (hsb : st.buffer ≠ none) :
    ∃ s', unshow_buffer s w = Res.ok () s' ∧ s'.windows = s.windows
      ∧ (∀ b', (s'.buffers b').name_live = (s.buffers b').name_live)
      ∧ s'.selected_window = s.selected_window ∧ s'.selected_screen = s.selected_screen
      ∧ s'.minibuf_level = s.minibuf_level ∧ s'.screens = s.screens := by
  unfold unshow_buffer
  simp only [hb, hpm, hpb, ne_eq, not_true_eq_false, if_false, hst, hsb]
  by_cases h1 : w = s.selected_window ∨ ¬ BufSlot.buf b = (s.windows s.selected_window).buffer
  · rw [if_pos h1]
    simp only [Res.andThen]
    by_cases h2 : ¬ BufSlot.buf b = (s.windows s.selected_window).buffer
    · rw [if_pos h2]
      refine ⟨_, rfl, rfl, fun b' => ?_, rfl, rfl, rfl, rfl⟩
      by_cases hb' : b' = b
      · subst hb'; simp [setb]
      · simp [setb, hb']
    · rw [if_neg h2]
      refine ⟨_, rfl, rfl, fun b' => ?_, rfl, rfl, rfl, rfl⟩
      by_cases hb' : b' = b
      · subst hb'; simp [setb]
      · simp [setb, hb']
  · rw [if_neg h1]
    simp only [Res.andThen]
    have h2 : ¬ ¬ BufSlot.buf b = (s.windows s.selected_window).buffer := fun h => h1 (Or.inr h)
    rw [if_neg h2]
    exact ⟨_, rfl, rfl, fun _ => rfl, rfl, rfl, rfl, rfl⟩

/-- The end of the first phase of `Fdelete_window`: release the markers and
clear the `buffer` slot of a window that shows a buffer. -/
theorem delete_begin_tail (s2 : State) (w : Win) (b : Buf) (pm st : Marker)
    (hb : (s2.windows w).buffer = BufSlot.buf b) (hpm : (s2.windows w).pointm = some pm)
    (hpb : pm.buffer = some b) (hst : (s2.windows w).start = some st)
    (hsb : st.buffer ≠ none) :
    ∃ s3, (if (s2.windows w).buffer ≠ BufSlot.nil then
        (unshow_buffer s2 w).andThen fun _ s =>
          match (s.windows w).pointm, (s.windows w).start with
          | some _, some _ =>
            let sa := setw s w { s.windows w with
              pointm := unchain_marker (s.windows w).pointm }
            let sb := setw sa w { sa.windows w with
              start := unchain_marker (sa.windows w).start }
            Res.ok () (setw sb w { sb.windows w with buffer := BufSlot.nil })
          | _, _ => Res.fault
      else Res.ok () s2) = Res.ok () s3
      ∧ (∀ y, y ≠ w → s3.windows y = s2.windows y)
      ∧ (s3.windows w).mini_p = (s2.windows w).mini_p
      ∧ (∀ b', (s3.buffers b').name_live = (s2.buffers b').name_live)
      ∧ s3.selected_window = s2.selected_window ∧ s3.selected_screen = s2.selected_screen
      ∧ s3.minibuf_level = s2.minibuf_level ∧ s3.screens = s2.screens := by
  obtain ⟨s', e, hw', hl', h1, h2, h3, h4⟩ := unshow_buffer_ok s2 w b pm st hb hpm hpb hst hsb
  rw [if_pos (by rw [hb]; simp), e]
  simp only [Res.andThen, hw', hpm, hst]
  refine ⟨_, rfl, fun y hy => ?_, ?_, hl', h1, h2, h3, h4⟩
  · simp [setw, hy, hw']
  · simp [setw, hw']

/-- The first phase of `Fdelete_window` on a leaf `w` of a tree in order
that has another leaf that is no minibuffer window: it returns, another leaf
is selected if `w` was, and the other windows keep what they show. -/
theorem delete_begin_leaf (E : Ext) (fuel : Nat) (s : State) (t : Shape) (w x : Win)
    (hlive : Live s t) (hw : w ∈ t.leaves) (hx : x ∈ t.leaves) (hxw : x ≠ w)
    (hxm : MINI_WINDOW_P (s.windows x) = false)
    (hroot : (s.screens s.selected_screen).root_window
      ≠ (s.screens s.selected_screen).minibuffer_window)
    (hf : t.handles.length + t.leaves.length + 1 < fuel) :
    ∃ s3, delete_begin E fuel s w = Res.ok () s3
      ∧ (∀ y, y ≠ w → (s3.windows y).buffer = (s.windows y).buffer
          ∧ (s3.windows y).start = (s.windows y).start
          ∧ (s3.windows y).pointm = (s.windows y).pointm)
      ∧ (∀ y, (s3.windows y).mini_p = (s.windows y).mini_p)
      ∧ (∀ b', (s3.buffers b').name_live = (s.buffers b').name_live)
      ∧ s3.selected_window ∈ t.leaves ∧ s3.selected_window ≠ w
      ∧ s3.selected_screen = s.selected_screen ∧ s3.minibuf_level = s.minibuf_level
      ∧ (∀ c, (s3.screens c).minibuffer_window = (s.screens c).minibuffer_window) := by
  obtain ⟨⟨hrep, -⟩, hshown, -, -, hselm, -⟩ := hlive
  have hwH := leaves_sub_handles t w hw
  obtain ⟨b, pm, st, e1, e2, e3, e4, e5, e6⟩ :=
    shownAt_buf (hshown w hwH) (leaf_buffer s _ t hrep w hw)
  unfold delete_begin
  simp only []
  by_cases hsel : w = s.selected_window
  · have hsel1 : w = ({ s with windows_or_buffers_changed
        := s.windows_or_buffers_changed + 1 } : State).selected_window := hsel
    rw [if_pos hsel1]
    obtain ⟨nw, hnw, hnwl, hnww⟩ := Fnext_window_other E
      { s with windows_or_buffers_changed := s.windows_or_buffers_changed + 1 }
      s.selected_screen t hrep hroot w x hw hx hxw hxm fuel hf
    have hnwH := leaves_sub_handles t nw hnwl
    obtain ⟨nb, npm, nst, n1, n2, n3, n4, n5, n6⟩ :=
      shownAt_buf (hshown nw hnwH) (leaf_buffer s _ t hrep nw hnwl)
    obtain ⟨s2, hs2, k1, k2, k3, k4, k5, k6, k7⟩ := Fselect_window_switch E
      { s with windows_or_buffers_changed := s.windows_or_buffers_changed + 1 } nw nb npm b pm
      n1 n4 n2 (by rw [n5]; simp) (rep_screen s _ t nw hrep hnwH)
      (by rw [← hsel]; exact e1) (by rw [← hsel]; exact e2) (by rw [← hsel]; exact hnww)
    rw [hnw]
    simp only [Res.ofWalk, Res.andThen, hs2]
    have k2' : (s2.windows w).pointm = some { buffer := some b, charpos := (s.buffers b).pt } := by
      rw [hsel]; exact k2
    obtain ⟨s3, hs3, t1, t2, t3, t4, t5, t6, t7⟩ := delete_begin_tail s2 w b _ st
      ((k1 w).2.1.trans e1) k2' rfl ((k1 w).1.trans e3) (by rw [e6]; simp)
    refine ⟨s3, hs3, fun y hy => ?_, fun y => ?_, fun b' => (t3 b').trans (k3 b'), ?_, ?_,
      t5.trans k5, t6.trans k6, fun c => by rw [t7]; exact k7 c⟩
    · rw [t1 y hy]
      exact ⟨(k1 y).2.1, (k1 y).1, (k1 y).2.2.2 (by rw [← hsel]; exact hy)⟩
    · by_cases hy : y = w
      · subst hy; rw [t2]; exact (k1 y).2.2.1
      · rw [t1 y hy]; exact (k1 y).2.2.1
    · rw [t4, k4]; exact hnwl
    · rw [t4, k4]; exact hnww
  · have hsel1 : ¬ w = ({ s with windows_or_buffers_changed
        := s.windows_or_buffers_changed + 1 } : State).selected_window := hsel
    rw [if_neg hsel1]
    simp only [Res.andThen]
    obtain ⟨s3, hs3, t1, t2, t3, t4, t5, t6, t7⟩ := delete_begin_tail
      { s with windows_or_buffers_changed := s.windows_or_buffers_changed + 1 } w b pm st
      e1 e2 e5 e3 (by rw [e6]; simp)
    refine ⟨s3, hs3, fun y hy => ?_, fun y => ?_, t3, ?_, ?_, t5, t6,
      fun c => by rw [t7]⟩
    · rw [t1 y hy]; exact ⟨rfl, rfl, rfl⟩
    · by_cases hy : y = w
      · subst hy; rw [t2]
      · rw [t1 y hy]
    · rw [t4]; exact hselm
    · rw [t4]; exact fun e => hsel e.symm

/-- A returning `set_window_height (x, v, 1)` with `v` at least the height
of `x` and at most 32767 makes no window lower. -/
theorem resize_no_shrink_y (E : Ext) (scr : Scr) (fuel : Nat) (s8 s9 : State) (c : Ctx)
    (x : Win) (k : Kind) (ch rest : Shape) (v : Int)
    (hrep8 : Rep s8 scr (plug c (Shape.node x k ch rest)))
    (hres : set_window_height E fuel s8 x v true = Res.ok () s9)
    (hnn : ∀ z ∈ x :: ch.handles, 0 ≤ (s8.windows z).height)
    (hle : (s8.windows x).height ≤ v)
    (hin : ∀ i ∈ ch.inner, TileY s8.windows i)
    (hh : k = Kind.hcomb → ∀ y ∈ ch.tops, (s8.windows y).height ≤ v)
    (hvb : v ≤ 32767)
    (hsum : k = Kind.vcomb → sum_height s8.windows ch.tops ≤ (s8.windows x).height) :
    ∀ z, (s8.windows z).height ≤ (s9.windows z).height := by
  have hnd := rep_nodup_node s8 scr c x k ch rest hrep8
  have hout := set_window_height_out E scr fuel s8 c x k ch rest v hrep8
  rw [hres] at hout
  obtain ⟨e, -⟩ := hout
  obtain ⟨f1, f2⟩ := resize_node_y_frame _ _ _ _ _ _ e
  have hg := resize_node_y_grows s8.windows s9.windows x k ch v (resize_y_grows ch) e hnd
    (fun z hz => hnn z (List.mem_cons_of_mem _ hz)) hin hh
    (fun _ => ⟨hnn x (List.mem_cons_self _ _), hle⟩) hvb hsum
  intro z
  by_cases hzc : z ∈ ch.handles
  · exact hg z hzc
  · by_cases hzx : z = x
    · subst hzx
      rw [f2 (List.nodup_cons.1 hnd).1]
      exact hle
    · rw [f1 z hzx hzc]

/-- A returning `set_window_width (y, v, 1)` with `v` at least the width
of `y` and at most 32767 makes no window narrower. -/
theorem resize_no_shrink_x (E : Ext) (scr : Scr) (fuel : Nat) (s8 s9 : State) (c : Ctx)
    (y : Win) (k : Kind) (ch rest : Shape) (v : Int)
    (hrep8 : Rep s8 scr (plug c (Shape.node y k ch rest)))
    (hres : set_window_width E fuel s8 y v true = Res.ok () s9)
    (hnn : ∀ z ∈ y :: ch.handles, 0 ≤ (s8.windows z).width)
    (hle : (s8.windows y).width ≤ v)
    (hin : ∀ i ∈ ch.inner, TileX s8.windows i)
    (hh : k = Kind.vcomb → ∀ x ∈ ch.tops, (s8.windows x).width ≤ v)
    (hvb : v ≤ 32767)
    (hsum : k = Kind.hcomb → sum_width s8.windows ch.tops ≤ (s8.windows y).width) :
    ∀ z, (s8.windows z).width ≤ (s9.windows z).width := by
  have hnd := rep_nodup_node s8 scr c y k ch rest hrep8
  have hout := set_window_width_out E scr fuel s8 c y k ch rest v hrep8
  rw [hres] at hout
  obtain ⟨e, -⟩ := hout
  obtain ⟨f1, f2⟩ := resize_node_x_frame _ _ _ _ _ _ e
  have hg := resize_node_x_grows s8.windows s9.windows y k ch v (resize_x_grows ch) e hnd
    (fun z hz => hnn z (List.mem_cons_of_mem _ hz)) hin hh
    (fun _ => ⟨hnn y (List.mem_cons_self _ _), hle⟩) hvb hsum
  intro z
  by_cases hzc : z ∈ ch.handles
  · exact hg z hzc
  · by_cases hzx : z = y
    · subst hzx
      rw [f2 (List.nodup_cons.1 hnd).1]
      exact hle
    · rw [f1 z hzx hzc]

/-- The resize steps of `Fdelete_window` make no window other than the
deleted one smaller, when the new size of the sibling is at most 32767. -/
theorem delete_resize_grows (E : Ext) (scr : Scr) (fuel : Nat) (s s8 s9 s10 : State) (c : Ctx)
    (w sib : Win) (k : Kind) (ch rest : Shape) (P : Win)
    (hrep8 : Rep s8 scr (plug c (Shape.node sib k ch rest))) (hsw : sib ≠ w)
    (hcore : ∀ x, x ≠ w → (s8.windows x).core = (unlinked s w x).core)
    (hw8 : ({ (s8.windows w).core with buffer := BufSlot.nil } : Window)
      = { (s.windows w).core with buffer := BufSlot.nil })
    (h9 : (if (s8.windows P).vchild ≠ none then
          set_window_height E fuel s8 sib
            ((s8.windows sib).height + (s8.windows w).height) true
        else Res.ok () s8) = Res.ok () s9)
    (h10 : (if (s9.windows P).hchild ≠ none then
          set_window_width E fuel s9 sib
            ((s9.windows sib).width + (s9.windows w).width) true
        else Res.ok () s9) = Res.ok () s10)
    (hpos : ∀ z ∈ w :: sib :: ch.handles, 0 ≤ (s.windows z).height ∧ 0 ≤ (s.windows z).width)
    (hwc : w ∉ ch.handles)
    (ht : ∀ i ∈ ch.infos (some (k, sib)) none, TileX s.windows i ∧ TileY s.windows i)
    (hnext : ∀ z ∈ ch.handles, (s.windows w).next ≠ some z)
    (hbY : (s8.windows P).vchild ≠ none →
      (s.windows sib).height + (s.windows w).height ≤ 32767)
    (hbX : (s9.windows P).hchild ≠ none →
      (s.windows sib).width + (s.windows w).width ≤ 32767) :
    ∀ z, z ≠ w → (s.windows z).height ≤ (s10.windows z).height
      ∧ (s.windows z).width ≤ (s10.windows z).width := by
  have huy := unlinked_same_y s s8 w hcore
  have hux := unlinked_same_x s s8 w hcore
  have e7 := butCore_height hw8
  have e7x := butCore_width hw8
  have hcw : ∀ z ∈ ch.handles, z ≠ w := fun z hz e => hwc (e ▸ hz)
  have hsY : ∀ z ∈ ch.handles, SameY s.windows s8.windows z := fun z hz =>
    ⟨(huy z (hcw z hz)).2.1 (fun h => absurd h (hnext z hz)), (huy z (hcw z hz)).1⟩
  have hsX : ∀ z ∈ ch.handles, SameX s.windows s8.windows z := fun z hz =>
    ⟨(hux z (hcw z hz)).2.1 (fun h => absurd h (hnext z hz)), (hux z (hcw z hz)).1⟩
  have hY : (∀ z, (s8.windows z).height ≤ (s9.windows z).height)
      ∧ (∀ z, SameX s8.windows s9.windows z)
      ∧ Rep s9 scr (plug c (Shape.node sib k ch rest)) := by
    by_cases hv : (s8.windows P).vchild ≠ none
    · rw [if_pos hv] at h9
      have hf := resize_frame_y E scr fuel s8 c sib k ch rest
        ((s8.windows sib).height + (s8.windows w).height) hrep8
      rw [h9] at hf
      obtain ⟨r1, -, -, r3, -, -⟩ := hf
      refine ⟨resize_no_shrink_y E scr fuel s8 s9 c sib k ch rest _ hrep8 h9 ?_ ?_ ?_ ?_ ?_ ?_,
        r3, r1⟩
      · intro z hz
        have hzw : z ≠ w := by
          rcases List.mem_cons.1 hz with h | h
          · rw [h]; exact hsw
          · exact hcw z h
        rw [(huy z hzw).1]
        exact (hpos z (List.mem_cons_of_mem _ hz)).1
      · rw [e7]
        have := (hpos w (List.mem_cons_self _ _)).1
        omega
      · exact fun i hi => tileY_same_inner ch _ _ hsY i hi (ht i (inner_sub ch _ _ i hi)).2
      · intro hk y hy
        subst hk
        rw [(huy y (hcw y (tops_sub_handles ch y hy))).1,
          hcomb_tops_height s.windows sib ch none (fun i hi => (ht i hi).2) y hy,
          ← (huy sib hsw).1, e7]
        have := (hpos w (List.mem_cons_self _ _)).1
        omega
      · rw [(huy sib hsw).1, e7]
        exact hbY hv
      · intro hk
        subst hk
        rw [sum_height_same s.windows s8.windows _
          (fun z hz => (hsY z (tops_sub_handles ch z hz)).2), (huy sib hsw).1]
        by_cases hne : ch = Shape.nil
        · subst hne
          simp only [Shape.tops, sum_height, List.map_nil, List.sum_nil]
          exact (hpos sib (by simp)).1
        have := sum_height_of_tile s.windows sib ch none (fun i hi => (ht i hi).2) hne
        simp only [start_y] at this
        omega
    · rw [if_neg hv] at h9
      simp only [Res.ok.injEq, true_and] at h9
      subst h9
      exact ⟨fun z => le_refl _, fun z => ⟨rfl, rfl⟩, hrep8⟩
  obtain ⟨y1, y2, y3⟩ := hY
  have hX : (∀ z, (s9.windows z).width ≤ (s10.windows z).width)
      ∧ (∀ z, SameY s9.windows s10.windows z) := by
    by_cases hv : (s9.windows P).hchild ≠ none
    · rw [if_pos hv] at h10
      have hf := resize_frame_x E scr fuel s9 c sib k ch rest
        ((s9.windows sib).width + (s9.windows w).width) y3
      rw [h10] at hf
      obtain ⟨-, -, -, r3, -, -⟩ := hf
      refine ⟨resize_no_shrink_x E scr fuel s9 s10 c sib k ch rest _ y3 h10 ?_ ?_ ?_ ?_ ?_ ?_,
        r3⟩
      · intro z hz
        have hzw : z ≠ w := by
          rcases List.mem_cons.1 hz with h | h
          · rw [h]; exact hsw
          · exact hcw z h
        rw [(y2 z).2, (hux z hzw).1]
        exact (hpos z (List.mem_cons_of_mem _ hz)).2
      · rw [(y2 w).2, e7x]
        have := (hpos w (List.mem_cons_self _ _)).2
        omega
      · exact fun i hi => tileX_same_inner ch _ _
          (fun z hz => ⟨(y2 z).1.trans (hsX z hz).1, (y2 z).2.trans (hsX z hz).2⟩) i hi
          (ht i (inner_sub ch _ _ i hi)).1
      · intro hk y hy
        subst hk
        rw [(y2 y).2, (hux y (hcw y (tops_sub_handles ch y hy))).1,
          vcomb_tops_width s.windows sib ch none (fun i hi => (ht i hi).1) y hy,
          (y2 sib).2, (y2 w).2, ← (hux sib hsw).1, e7x]
        have := (hpos w (List.mem_cons_self _ _)).2
        omega
      · rw [(y2 sib).2, (y2 w).2, (hux sib hsw).1, e7x]
        exact hbX hv
      · intro hk
        subst hk
        rw [sum_width_same s.windows s9.windows _
          (fun z hz => (y2 z).2.trans (hsX z (tops_sub_handles ch z hz)).2), (y2 sib).2,
          (hux sib hsw).1]
        by_cases hne : ch = Shape.nil
        · subst hne
          simp only [Shape.tops, sum_width, List.map_nil, List.sum_nil]
          exact (hpos sib (by simp)).2
        have := sum_width_of_tile s.windows sib ch none (fun i hi => (ht i hi).1) hne
        simp only [start_x] at this
        omega
    · rw [if_neg hv] at h10
      simp only [Res.ok.injEq, true_and] at h10
      subst h10
      exact ⟨fun z => le_refl _, fun z => ⟨rfl, rfl⟩⟩
  obtain ⟨x1, x2⟩ := hX
  intro z hz
  constructor
  · rw [← (huy z hz).1, (x2 z).2]
    exact y1 z
  · rw [← (hux z hz).1, ← (y2 z).2]
    exact x1 z

/-! ## The geometry after the last phase of `Fdelete_window` -/

theorem sameGeo_refl (s : State) : SameGeo s s := ⟨rfl, fun _ => rfl⟩

theorem sameGeo_trans {s s1 s2 : State} (h1 : SameGeo s s1) (h2 : SameGeo s1 s2) :
    SameGeo s s2 :=
  ⟨h2.1.trans h1.1, fun z => (h2.2 z).trans (h1.2 z)⟩

theorem sameGeo_setw (s : State) (y : Win) (w : Window)
    (h : w.geo = (s.windows y).geo) : SameGeo s (setw s y w) := by
  refine ⟨rfl, fun x => ?_⟩
  unfold setw
  by_cases hx : x = y
  · subst hx; simpa using h
  · simp [hx]

/-- What `replace_window` does to the geometry and to the root window. -/
theorem replace_window_geo (s : State) (old new : Win) :
    (replace_window s old new).Sat fun _ s' =>
      (∀ z, z ≠ new → (s'.windows z).geo = (s.windows z).geo)
        ∧ (s'.windows new).geo = (s.windows old).geo
        ∧ ∀ scr, (s.windows old).screen = some scr →
            (s'.screens scr).root_window
              = if (s.screens scr).root_window = some old then some new
                else (s.screens scr).root_window := by
  have h4 : ∀ s : State, SameGeo s (match (s.windows old).next with
      | some tem => setw s tem { s.windows tem with prev := some new }
      | none => s) := fun s => by
    split
    · exact sameGeo_setw _ _ _ rfl
    · exact sameGeo_refl _
  have h6 : ∀ s : State, SameGeo s (match (s.windows old).prev with
      | some tem => setw s tem { s.windows tem with next := some new }
      | none => s) := fun s => by
    split
    · exact sameGeo_setw _ _ _ rfl
    · exact sameGeo_refl _
  have h8 : ∀ (s : State) (tem : Win), SameGeo s
      (if (s.windows tem).vchild = some old then
        setw s tem { s.windows tem with vchild := some new } else s) := fun s tem => by
    split
    · exact sameGeo_setw _ _ _ rfl
    · exact sameGeo_refl _
  have h9 : ∀ (s : State) (tem : Win), SameGeo s
      (if (s.windows tem).hchild = some old then
        setw s tem { s.windows tem with hchild := some new } else s) := fun s tem => by
    split
    · exact sameGeo_setw _ _ _ rfl
    · exact sameGeo_refl _
  have h3 : ∀ s : State, SameGeo s
      (setw s new { s.windows new with next := (s.windows old).next }) :=
    fun s => sameGeo_setw _ _ _ rfl
  have h5 : ∀ s : State, SameGeo s
      (setw s new { s.windows new with prev := (s.windows old).prev }) :=
    fun s => sameGeo_setw _ _ _ rfl
  have h7 : ∀ s : State, SameGeo s
      (setw s new { s.windows new with parent := (s.windows old).parent }) :=
    fun s => sameGeo_setw _ _ _ rfl
  have h10 : ∀ (s2 s7 : State), SameGeo s2 s7 →
      (match (s7.windows old).parent with
        | some tem =>
          Res.ok ()
            (if ((if (s7.windows tem).vchild = some old then
                  setw s7 tem { s7.windows tem with vchild := some new }
                else s7).windows tem).hchild = some old then
              setw (if (s7.windows tem).vchild = some old then
                  setw s7 tem { s7.windows tem with vchild := some new }
                else s7) tem { (if (s7.windows tem).vchild = some old then
                  setw s7 tem { s7.windows tem with vchild := some new }
                else s7).windows tem with hchild := some new }
            else (if (s7.windows tem).vchild = some old then
                  setw s7 tem { s7.windows tem with vchild := some new }
                else s7))
        | none => Res.ok () s7 : Res Unit).Sat fun _ s' => SameGeo s2 s' := by
    intro s2 s7 h17
    split
    · next tem _ => exact sameGeo_trans h17 (sameGeo_trans (h8 s7 tem) (h9 _ tem))
    · exact h17
  unfold replace_window
  split
  · trivial
  · next scr hscr =>
    have hs2 : ∀ s1 : State, s1.windows = s.windows →
        (∀ z, z ≠ new → ((setw s1 new { s1.windows new with
          left := (s1.windows old).left, top := (s1.windows old).top,
          width := (s1.windows old).width, height := (s1.windows old).height }).windows z).geo
            = (s.windows z).geo)
        ∧ ((setw s1 new { s1.windows new with
          left := (s1.windows old).left, top := (s1.windows old).top,
          width := (s1.windows old).width, height := (s1.windows old).height }).windows new).geo
            = (s.windows old).geo := by
      intro s1 e
      constructor
      · intro z hz
        simp [setw, hz, e]
      · simp [setw, e, Window.geo]
    have hs1 : (if (s.screens scr).root_window = some old then
          sets s scr { s.screens scr with root_window := some new } else s).windows
          = s.windows := by
      split <;> rfl
    have hr1 : ((if (s.screens scr).root_window = some old then
          sets s scr { s.screens scr with root_window := some new } else s).screens
          scr).root_window
          = if (s.screens scr).root_window = some old then some new
            else (s.screens scr).root_window := by
      split
      · simp [sets]
      · rfl
    refine (h10 _ _ (sameGeo_trans (h3 _) (sameGeo_trans (h4 _)
      (sameGeo_trans (h5 _) (sameGeo_trans (h6 _) (h7 _)))))).mono ?_
    rintro _ s' ⟨g1, g2⟩
    obtain ⟨a1, a2⟩ := hs2 _ hs1
    refine ⟨fun z hz => (g2 z).trans (a1 z hz), (g2 new).trans a2, fun scr' hscr' => ?_⟩
    rw [hscr] at hscr'
    cases hscr'
    rw [g1]
    exact hr1

/-- What the last phase of `Fdelete_window` does to the geometry: a window
keeps its geometry or gets the one of the parent, and the root window of the
screen of a parentless window keeps its geometry. -/
theorem collapse_geo (s : State) (scr : Scr) (P : Win)
    (hscr : (s.windows P).screen = some scr)
    (hpar : ∀ a, ((s.windows P).hchild = some a ∨ (s.windows P).vchild = some a) →
      (s.windows a).parent ≠ none) :
    (delete_collapse s P).Sat fun _ s' =>
      (∀ z, (s'.windows z).geo = (s.windows z).geo ∨ (s'.windows z).geo = (s.windows P).geo)
        ∧ ∀ r r', (s.screens scr).root_window = some r → (s.windows r).parent = none →
            (s'.screens scr).root_window = some r' →
            (s'.windows r').geo = (s.windows r).geo := by
  unfold delete_collapse
  simp only []
  split
  · trivial
  · next a ha =>
    have hap : (s.windows a).parent ≠ none := by
      refine hpar a ?_
      rcases hh : (s.windows P).hchild with _ | b
      · rw [hh] at ha
        exact Or.inr ha
      · rw [hh] at ha
        simp only [Option.some.injEq] at ha
        rw [ha]
        exact Or.inl rfl
    split
    · refine (replace_window_geo s P a).mono ?_
      rintro _ s' ⟨g1, g2, g3⟩
      refine ⟨fun z => ?_, fun r r' hr hrp hr' => ?_⟩
      · by_cases hz : z = a
        · subst hz; exact Or.inr g2
        · exact Or.inl (g1 z hz)
      · rw [g3 scr hscr, hr] at hr'
        by_cases hrP : r = P
        · subst hrP
          rw [if_pos rfl] at hr'
          cases hr'
          exact g2
        · rw [if_neg (fun e => hrP (Option.some.inj e))] at hr'
          cases hr'
          refine g1 r (fun e => ?_)
          subst e
          exact hap hrp
    · refine ⟨fun z => Or.inl rfl, fun r r' hr _ hr' => ?_⟩
      rw [hr] at hr'
      cases hr'
      rfl

/-! ## `Fdelete_window` on a leaf keeps the tree in order -/

/-- In a represented tree the windows below a window have a parent. -/
theorem rep_below_parent (s : State) (scr : Scr) (c : Ctx) (x : Win) (k : Kind)
    (ch rest : Shape) (hrep : Rep s scr (plug c (Shape.node x k ch rest))) :
    ∀ z ∈ ch.handles, (s.windows z).parent ≠ none := by
  obtain ⟨-, -, -, -, -, hch, -⟩ := (rep_plug_node s scr c x k ch rest).1 hrep
  intro z hz
  rw [← infos_map_w ch (some (k, x)) none] at hz
  obtain ⟨i, hi, rfl⟩ := List.mem_map.1 hz
  obtain ⟨hpar, -⟩ := hch i hi
  rw [hpar]
  rcases infos_par_mem ch _ _ i hi with h | ⟨y, -, e⟩
  · rw [h]; simp
  · rw [e]; simp

/-- Where the sibling stands that gets the space of a deleted window. -/
theorem sibling_position (s : State) (scr : Scr) (f : Frame) (c0 : Ctx) (w : Win) (k : Kind)
    (ch rest : Shape) (hrep : Rep s scr (plug (f :: c0) (Shape.node w k ch rest))) (sib : Win)
    (hsib : some sib = (match hprev (f :: c0) with
      | some v => some v
      | none => rest.head)) :
    ∃ c' k' ch' rest', plug (f :: c0) rest = plug c' (Shape.node sib k' ch' rest')
      ∧ hpar c' = hpar (f :: c0) ∧ sib ≠ w ∧ w ∉ ch'.handles
      ∧ (∀ z ∈ ch'.handles, (s.windows w).next ≠ some z)
      ∧ (∀ Q : NodeInfo → Prop,
          (∀ i ∈ (plug (f :: c0) (Shape.node w k ch rest)).infos none none, Q i) →
          ∀ i ∈ ch'.infos (some (k', sib)) none, Q i) := by
  obtain ⟨-, hnd, -, -, hlw, -, -⟩ := (rep_plug_node s scr (f :: c0) w k ch rest).1 hrep
  obtain ⟨-, -, hwn, -, -⟩ := hlw
  simp only at hwn
  obtain ⟨mnext, -⟩ := rep_links_mem s scr (f :: c0) w k ch rest hrep
  obtain ⟨hndc, hndw, hdisj⟩ := List.nodup_append.1 hnd
  cases f with
  | right v kv chv =>
    simp only [hprev, Option.some.injEq] at hsib
    subst hsib
    have hvc : ∀ z ∈ sib :: chv.handles, z ∈ ctxHandles (Frame.right sib kv chv :: c0) := by
      intro z hz
      simp only [ctxHandles, List.mem_cons, List.mem_append] at hz ⊢
      tauto
    refine ⟨c0, kv, chv, rest, rfl, rfl, ?_, ?_, ?_, ?_⟩
    · intro e
      exact hdisj (hvc sib (List.mem_cons_self _ _)) (e ▸ List.mem_cons_self _ _)
    · intro hwc
      exact hdisj (hvc w (List.mem_cons_of_mem _ hwc)) (List.mem_cons_self _ _)
    · intro z hz e
      have := mnext z e
      exact hdisj (hvc z (List.mem_cons_of_mem _ hz))
        (List.mem_cons_of_mem _ (List.mem_append_right _ this))
    · intro Q hQ
      have hrw : plug (Frame.right sib kv chv :: c0) (Shape.node w k ch rest)
          = plug c0 (Shape.node sib kv chv (Shape.node w k ch rest)) := rfl
      rw [hrw, forall_infos_plug_node] at hQ
      exact hQ.2.2.1
  | down P' kP' restP =>
    simp only [hprev] at hsib
    cases rest with
    | nil => simp [Shape.head] at hsib
    | node n kn chn restn =>
      simp only [Shape.head, Option.some.injEq] at hsib hwn
      subst hsib
      simp only [Shape.handles, List.nodup_cons, List.mem_append, List.mem_cons,
        List.nodup_append, not_or] at hndw
      refine ⟨Frame.down P' kP' restP :: c0, kn, chn, restn, rfl, rfl, ?_, ?_, ?_, ?_⟩
      · intro e
        exact hndw.1.2.1 e.symm
      · intro hwc
        exact hndw.1.2.2.1 hwc
      · intro z hz e
        rw [hwn] at e
        have e' : sib = z := Option.some.inj e
        subst e'
        exact hndw.2.2.1.1.1 hz
      · intro Q hQ
        rw [forall_infos_plug_node] at hQ
        intro i hi
        exact hQ.2.2.2 i (by simp [Shape.infos, hi])

theorem shownAt_congr (s s' : State) (x : Win)
    (hb : (s'.windows x).buffer = (s.windows x).buffer)
    (hp : (s'.windows x).pointm = (s.windows x).pointm)
    (hs : (s'.windows x).start = (s.windows x).start)
    (hl : ∀ b, (s'.buffers b).name_live = (s.buffers b).name_live)
    (h : ShownAt s x) : ShownAt s' x := by
  unfold ShownAt at h ⊢
  rw [hb, hp, hs]
  split
  · trivial
  · next b pm st e1 e2 e3 =>
    rw [e1, e2, e3] at h
    simp only at h
    rw [hl b]
    exact h
  · next h1 h2 =>
    rcases e1 : (s.windows x).buffer with _ | _ | b
    · exact h1 e1
    · rw [e1] at h
      exact h
    · rcases e2 : (s.windows x).pointm with _ | pm
      · rw [e1, e2] at h
        exact h
      · rcases e3 : (s.windows x).start with _ | st
        · rw [e1, e2, e3] at h
          exact h
        · exact h2 b pm st e1 e2 e3

theorem content_fields {a b : Window} (h : a.content = b.content) :
    a.buffer = b.buffer ∧ a.pointm = b.pointm ∧ a.start = b.start ∧ a.mini_p = b.mini_p :=
  ⟨show a.content.buffer = b.content.buffer by rw [h],
    show a.content.pointm = b.content.pointm by rw [h],
    show a.content.start = b.content.start by rw [h],
    show a.content.mini_p = b.content.mini_p by rw [h]⟩

theorem rep_root_parent (s : State) (scr : Scr) (t : Shape) (hrep : Rep s scr t) (r : Win)
    (hr : (s.screens scr).root_window = some r) : (s.windows r).parent = none := by
  obtain ⟨h1, -, -, h4⟩ := hrep
  rw [h1] at hr
  obtain ⟨j, hj, e1, -, e3⟩ := head_info t none none r hr
  have := (h4 j hj).1
  rw [e1, e3] at this
  exact this

theorem mem_plug_rest (c : Ctx) (w : Win) (k : Kind) (ch rest : Shape) (z : Win)
    (hz : z ∈ (plug c rest).handles) : z ∈ (plug c (Shape.node w k ch rest)).handles := by
  rw [(handles_plug _ _).mem_iff] at hz ⊢
  simp only [Shape.handles, List.mem_append, List.mem_cons] at hz ⊢
  tauto

theorem geo_sizes {a b : Window} (h : a.geo = b.geo) : a.height = b.height ∧ a.width = b.width := by
  unfold Window.geo at h
  simp only [Prod.mk.injEq] at h
  exact ⟨h.2.2.2, h.2.2.1⟩

/-- In a tiling no window below a combination is higher than the combination. -/
theorem below_le_y (scr : Scr) (h : Win → Window) : ∀ (t : Shape) (kP : Kind) (P : Win)
    (V : Option Win),
    (∀ i ∈ t.infos (some (kP, P)) V, LinkOK scr h i) →
    (∀ i ∈ t.infos (some (kP, P)) V, TileY h i) →
    (∀ z ∈ t.handles, 0 ≤ (h z).height) →
    kP ≠ Kind.leaf →
    (kP = Kind.vcomb → (h P).top ≤ start_y h P V) →
    ∀ z ∈ t.handles, (h z).height ≤ (h P).height := by
  intro t
  induction t with
  | nil => intro kP P V _ _ _ _ _ z hz; simp [Shape.handles] at hz
  | node y ky chy rest ihc ihr =>
    intro kP P V hl ht hnn hk hst
    have hiy : (⟨y, ky, some (kP, P), V, rest.head, chy.head⟩ : NodeInfo)
        ∈ (Shape.node y ky chy rest).infos (some (kP, P)) V := by simp [Shape.infos]
    have hly := hl _ hiy
    have hty := ht _ hiy
    have hy0 : 0 ≤ (h y).height := hnn y (by simp [Shape.handles])
    have hyP : (h y).height ≤ (h P).height ∧
        (kP = Kind.vcomb → (h P).top ≤ (h y).top + (h y).height) := by
      cases kP with
      | leaf => exact absurd rfl hk
      | hcomb =>
        simp only [TileY] at hty
        exact ⟨le_of_eq hty.2, fun e => by cases e⟩
      | vcomb =>
        have hs := sum_height_of_tile h P (Shape.node y ky chy rest) V ht (by simp)
        have hr : 0 ≤ sum_height h rest.tops :=
          sum_height_nonneg h _ (fun z hz => hnn z (by
            simp only [Shape.handles, List.mem_cons, List.mem_append]
            exact Or.inr (Or.inr (tops_sub_handles rest z hz))))
        have h0 := hst rfl
        simp only [TileY] at hty
        have hs' : (h y).top = start_y h P V := by
          rw [hty.1]; cases V <;> rfl
        simp only [Shape.tops, sum_height_cons] at hs
        constructor
        · omega
        · intro _; omega
    intro z hz
    simp only [Shape.handles, List.mem_cons, List.mem_append] at hz
    rcases hz with rfl | hz | hz
    · exact hyP.1
    · have hky : ky ≠ Kind.leaf := by
        intro e
        subst e
        have := hly.2.2.2.2
        simp only at this
        have hn : chy.head = none := this.2.2.2
        cases chy with
        | nil => simp [Shape.handles] at hz
        | node a b c d => simp [Shape.head] at hn
      have := ihc ky y none
        (fun i hi => hl i (by simp [Shape.infos, hi]))
        (fun i hi => ht i (by simp [Shape.infos, hi]))
        (fun u hu => hnn u (by simp [Shape.handles, hu]))
        hky (fun _ => le_refl _) z hz
      omega
    · exact ihr kP P (some y)
        (fun i hi => hl i (by simp [Shape.infos, hi]))
        (fun i hi => ht i (by simp [Shape.infos, hi]))
        (fun u hu => hnn u (by simp [Shape.handles, hu]))
        hk (fun e => hyP.2 e) z hz

/-- In a tiling no window below a combination is wider than the combination. -/
theorem below_le_x (scr : Scr) (h : Win → Window) : ∀ (t : Shape) (kP : Kind) (P : Win)
    (V : Option Win),
    (∀ i ∈ t.infos (some (kP, P)) V, LinkOK scr h i) →
    (∀ i ∈ t.infos (some (kP, P)) V, TileX h i) →
    (∀ z ∈ t.handles, 0 ≤ (h z).width) →
    kP ≠ Kind.leaf →
    (kP = Kind.hcomb → (h P).left ≤ start_x h P V) →
    ∀ z ∈ t.handles, (h z).width ≤ (h P).width := by
  intro t
  induction t with
  | nil => intro kP P V _ _ _ _ _ z hz; simp [Shape.handles] at hz
  | node x ky chy rest ihc ihr =>
    intro kP P V hl ht hnn hk hst
    have hiy : (⟨x, ky, some (kP, P), V, rest.head, chy.head⟩ : NodeInfo)
        ∈ (Shape.node x ky chy rest).infos (some (kP, P)) V := by simp [Shape.infos]
    have hly := hl _ hiy
    have hty := ht _ hiy
    have hy0 : 0 ≤ (h x).width := hnn x (by simp [Shape.handles])
    have hyP : (h x).width ≤ (h P).width ∧
        (kP = Kind.hcomb → (h P).left ≤ (h x).left + (h x).width) := by
      cases kP with
      | leaf => exact absurd rfl hk
      | vcomb =>
        simp only [TileX] at hty
        exact ⟨le_of_eq hty.2, fun e => by cases e⟩
      | hcomb =>
        have hs := sum_width_of_tile h P (Shape.node x ky chy rest) V ht (by simp)
        have hr : 0 ≤ sum_width h rest.tops :=
          sum_width_nonneg h _ (fun z hz => hnn z (by
            simp only [Shape.handles, List.mem_cons, List.mem_append]
            exact Or.inr (Or.inr (tops_sub_handles rest z hz))))
        have h0 := hst rfl
        simp only [TileX] at hty
        have hs' : (h x).left = start_x h P V := by
          rw [hty.1]; cases V <;> rfl
        simp only [Shape.tops, sum_width_cons] at hs
        constructor
        · omega
        · intro _; omega
    intro z hz
    simp only [Shape.handles, List.mem_cons, List.mem_append] at hz
    rcases hz with rfl | hz | hz
    · exact hyP.1
    · have hky : ky ≠ Kind.leaf := by
        intro e
        subst e
        have := hly.2.2.2.2
        simp only at this
        have hn : chy.head = none := this.2.2.2
        cases chy with
        | nil => simp [Shape.handles] at hz
        | node a b c d => simp [Shape.head] at hn
      have := ihc ky x none
        (fun i hi => hl i (by simp [Shape.infos, hi]))
        (fun i hi => ht i (by simp [Shape.infos, hi]))
        (fun u hu => hnn u (by simp [Shape.handles, hu]))
        hky (fun _ => le_refl _) z hz
      omega
    · exact ihr kP P (some x)
        (fun i hi => hl i (by simp [Shape.infos, hi]))
        (fun i hi => ht i (by simp [Shape.infos, hi]))
        (fun u hu => hnn u (by simp [Shape.handles, hu]))
        hk (fun e => hyP.2 e) z hz

/-- The windows in the hole of a context are among the chain of siblings
around the hole. -/
theorem mem_ctxChain_hole : ∀ (c : Ctx) (t : Shape) (z : Win), z ∈ t.handles →
    z ∈ (ctxChain c t).handles := by
  intro c
  induction c with
  | nil => exact fun t z hz => hz
  | cons f c ih =>
    intro t z hz
    cases f with
    | right v kv chv =>
      exact ih (Shape.node v kv chv t) z (by simp [Shape.handles, hz])
    | down P kP restP => exact hz

/-- In a well-formed tree whose windows have non-negative heights, no window
is higher than its parent. -/
theorem below_parent_le_y (s : State) (scr : Scr) (c : Ctx) (t : Shape) (kP : Kind) (P : Win)
    (hrep : Rep s scr (plug c t))
    (hty : ∀ i ∈ (plug c t).infos none none, TileY s.windows i)
    (hnn : ∀ z ∈ (plug c t).handles, 0 ≤ (s.windows z).height)
    (hp : hpar c = some (kP, P)) (hkl : kP ≠ Kind.leaf) :
    ∀ z ∈ t.handles, (s.windows z).height ≤ (s.windows P).height := by
  obtain ⟨restP, c1, hab⟩ := above_of_hpar c kP P hp
  have hpl : plug c t = plug c1 (Shape.node P kP (ctxChain c t) restP) := by
    rw [← plug_above, hab]; rfl
  rw [hpl] at hrep hty hnn
  rw [forall_infos_plug_node] at hty
  obtain ⟨-, -, -, -, -, hl, -⟩ := (rep_plug_node s scr c1 P kP _ restP).1 hrep
  intro z hz
  exact below_le_y scr s.windows (ctxChain c t) kP P none hl hty.2.2.1
    (fun u hu => hnn u (mem_plug_hole _ _ u (by simp [Shape.handles, hu])))
    hkl (fun _ => le_refl _) z (mem_ctxChain_hole c t z hz)

/-- In a well-formed tree whose windows have non-negative widths, no window
is wider than its parent. -/
theorem below_parent_le_x (s : State) (scr : Scr) (c : Ctx) (t : Shape) (kP : Kind) (P : Win)
    (hrep : Rep s scr (plug c t))
    (hty : ∀ i ∈ (plug c t).infos none none, TileX s.windows i)
    (hnn : ∀ z ∈ (plug c t).handles, 0 ≤ (s.windows z).width)
    (hp : hpar c = some (kP, P)) (hkl : kP ≠ Kind.leaf) :
    ∀ z ∈ t.handles, (s.windows z).width ≤ (s.windows P).width := by
  obtain ⟨restP, c1, hab⟩ := above_of_hpar c kP P hp
  have hpl : plug c t = plug c1 (Shape.node P kP (ctxChain c t) restP) := by
    rw [← plug_above, hab]; rfl
  rw [hpl] at hrep hty hnn
  rw [forall_infos_plug_node] at hty
  obtain ⟨-, -, -, -, -, hl, -⟩ := (rep_plug_node s scr c1 P kP _ restP).1 hrep
  intro z hz
  exact below_le_x scr s.windows (ctxChain c t) kP P none hl hty.2.2.1
    (fun u hu => hnn u (mem_plug_hole _ _ u (by simp [Shape.handles, hu])))
    hkl (fun _ => le_refl _) z (mem_ctxChain_hole c t z hz)

/-- `Fdelete_window` on a leaf `w` with a parent, in a tree in order that has
another leaf that is no minibuffer window: the call returns, the tree without
`w` is in order, no window has changed its minibuffer flag, and the root
window of the screen has the geometry that the root window had; sizes of at
most 32767 stay so. -/
theorem delete_leaf_step (E : Ext) (hE : ∀ s c, SameTree s (E.Fselect_screen s c))
    (fuel : Nat) (s : State) (f : Frame) (c0 : Ctx) (w : Win) (rest : Shape) (kP : Kind)
    (P x : Win)
    (hlive : Live s (plug (f :: c0) (Shape.node w Kind.leaf Shape.nil rest)))
    (hp : hpar (f :: c0) = some (kP, P))
    (hx : x ∈ (plug (f :: c0) (Shape.node w Kind.leaf Shape.nil rest)).leaves) (hxw : x ≠ w)
    (hxm : MINI_WINDOW_P (s.windows x) = false)
    (hroot : (s.screens s.selected_screen).root_window
      ≠ (s.screens s.selected_screen).minibuffer_window)
    (hfuel : (plug (f :: c0) (Shape.node w Kind.leaf Shape.nil rest)).bound ≤ fuel)
    (hB : ∀ z ∈ (plug (f :: c0) (Shape.node w Kind.leaf Shape.nil rest)).handles,
      (s.windows z).height ≤ 32767 ∧ (s.windows z).width ≤ 32767) :
    ∃ s', Fdelete_window E (fuel + 1) s (some w) = Res.ok () s'
      ∧ Live s' (deleteShape (f :: c0) rest)
      ∧ (∀ y, (s'.windows y).mini_p = (s.windows y).mini_p)
      ∧ s'.minibuf_level = s.minibuf_level ∧ s'.selected_screen = s.selected_screen
      ∧ (∀ c, (s'.screens c).minibuffer_window = (s.screens c).minibuffer_window)
      ∧ (∀ r r', (s.screens s.selected_screen).root_window = some r →
          (s'.screens s.selected_screen).root_window = some r' →
          (s'.windows r').geo = (s.windows r).geo)
      ∧ ∀ z ∈ (deleteShape (f :: c0) rest).handles,
          (s'.windows z).height ≤ 32767 ∧ (s'.windows z).width ≤ 32767 := by
  obtain ⟨⟨hrep, htil⟩, hshown, hbr, hpos, hselm, hmbw⟩ := hlive
  obtain ⟨-, hnd, -, hctx, hlw, -, hrestl⟩ :=
    (rep_plug_node s _ (f :: c0) w Kind.leaf Shape.nil rest).1 hrep
  have hwp : (s.windows w).parent = some P := by rw [hlw.1, hp]; rfl
  have hcomb : ctxComb (f :: c0) :=
    ctxComb_of_links _ s.windows (f :: c0) (some w) (by simp) hctx
  have hleaves : (plug (f :: c0) (Shape.node w Kind.leaf Shape.nil rest)).leaves
      = ctxLeft (f :: c0) ++ (w :: rest.leaves) ++ ctxRight (f :: c0) := by
    rw [leaves_plug _ _ hcomb]; rfl
  have hwl : w ∈ (plug (f :: c0) (Shape.node w Kind.leaf Shape.nil rest)).leaves := by
    rw [hleaves]; simp
  have hwH := leaves_sub_handles _ w hwl
  have hsibl : hprev (f :: c0) ≠ none ∨ rest ≠ Shape.nil := by
    obtain ⟨restP, c1, hab⟩ := above_of_hpar (f :: c0) kP P hp
    have h2 := branched_siblings (f :: c0) _ P kP restP c1 hbr (by simp) hab
    by_contra hcon
    simp only [not_or, not_not] at hcon
    obtain ⟨h1, h3⟩ := hcon
    cases f with
    | right v kv chv => simp [hprev] at h1
    | down P' kP' restP' =>
      subst h3
      simp [ctxChain, Shape.tops] at h2
  have hlen1 : 1 ≤ (plug (f :: c0) (Shape.node w Kind.leaf Shape.nil rest)).handles.length :=
    List.length_pos_of_mem hwH
  have hlen2 := (leaves_sublist (plug (f :: c0)
    (Shape.node w Kind.leaf Shape.nil rest))).length_le
  have hbd := bound_eq (plug (f :: c0) (Shape.node w Kind.leaf Shape.nil rest))
  obtain ⟨s3, hb3, b1, b2, b3, b4, b5, b6, b7, b8⟩ := delete_begin_leaf E fuel s _ w x
    ⟨⟨hrep, htil⟩, hshown, hbr, hpos, hselm, hmbw⟩ hwl hx hxw hxm hroot (by omega)
  have hok := Fdelete_window_isOk E hE fuel s _ f c0 w Kind.leaf Shape.nil rest kP P hrep hp
    hsibl (by rw [hb3]; rfl)
    (fun z hz => by
      obtain ⟨a, b⟩ := hpos z hz
      constructor <;> omega) hfuel
  have heq := Res.eq_ok_of_isOk s hok
  generalize (Fdelete_window E (fuel + 1) s (some w)).stateD s = s' at heq
  refine ⟨s', heq, ?_⟩
  -- the phases
  have heq' := heq
  rw [Fdelete_window_succ, hwp] at heq'
  simp only at heq'
  obtain ⟨_, s3', hb, h1⟩ := Res.andThen_eq_ok heq'
  rw [hb3] at hb
  simp only [Res.ok.injEq, true_and] at hb
  subst hb
  obtain ⟨sib, s8, hs, h2⟩ := Res.andThen_eq_ok h1
  obtain ⟨_, s9, h9, h3⟩ := Res.andThen_eq_ok h2
  obtain ⟨_, s10, h10, hc⟩ := Res.andThen_eq_ok h3
  have hur := delete_unlink_rep E hE fuel s _ f c0 w Kind.leaf Shape.nil rest P hrep hwp
  rw [hb3] at hur
  obtain ⟨hrep8, hn8, hcore, hw8, hsib⟩ := Res.sat_of_eq hur hs
  obtain ⟨c', k', ch', rest', hplug, hpc', hsw, hwc, hnext, hinf⟩ :=
    sibling_position s _ f c0 w Kind.leaf Shape.nil rest hrep sib hsib
  have hnn0 : ∀ z ∈ (plug (f :: c0) (Shape.node w Kind.leaf Shape.nil rest)).handles,
      0 ≤ (s.windows z).height ∧ 0 ≤ (s.windows z).width := fun z hz => by
    obtain ⟨a, b⟩ := hpos z hz
    constructor <;> omega
  have ht10 := delete_resize_tiled E _ fuel s s8 f c0 w Kind.leaf Shape.nil rest kP P sib hrep
    htil hnn0 hB hp hrep8 hcore hw8 hsib
  have hPB := hB P (mem_plug_ctx _ _ P (hpar_mem _ kP P hp))
  rw [hplug] at hrep8
  have hkl := hpar_not_leaf s _ (f :: c0) _ kP P hrep (by simp) hp
  have hrf := delete_resize_frame E _ fuel s s8 c' w sib k' ch' rest' kP P hrep8 hsw
    (hpc'.trans hp) hkl hcore hw8
  have hcomb2 : ((if (s8.windows P).vchild ≠ none then
          set_window_height E fuel s8 sib
            ((s8.windows sib).height + (s8.windows w).height) true
        else Res.ok () s8).andThen fun _ s9 =>
      if (s9.windows P).hchild ≠ none then
          set_window_width E fuel s9 sib
            ((s9.windows sib).width + (s9.windows w).width) true
        else Res.ok () s9) = Res.ok () s10 := by
    rw [h9]; exact h10
  obtain ⟨r1, -, r2', r4, -⟩ := Res.sat_of_eq hrf hcomb2
  obtain ⟨-, ht10⟩ := Res.sat_of_eq ht10 hcomb2
  rw [← hplug] at r1
  have hsibH : ∀ z ∈ sib :: ch'.handles,
      z ∈ (plug (f :: c0) (Shape.node w Kind.leaf Shape.nil rest)).handles := by
    intro z hz
    refine mem_plug_rest _ _ _ _ _ z ?_
    rw [hplug]
    refine mem_plug_hole _ _ z ?_
    simp only [Shape.handles, List.mem_cons, List.mem_append] at hz ⊢
    tauto
  -- the tree afterwards
  have hwf' : WF s' s.selected_screen (deleteShape (f :: c0) rest) :=
    Res.sat_of_eq (Fdelete_window_wf E hE (fuel + 1) s _ (f :: c0) w Kind.leaf Shape.nil rest
      hrep htil hnn0 hB) heq
  -- what is left alone
  have c1 := unlink_content s3 w P
  have c2 := Res.sat_of_eq (sibling_content (delete_unlink s3 w P) w) hs
  have c3 : SameContent s8 s9 ∧ Rep s9 s.selected_screen
      (plug c' (Shape.node sib k' ch' rest')) := by
    by_cases hv : (s8.windows P).vchild ≠ none
    · rw [if_pos hv] at h9
      have q1 := resize_content_y E _ fuel s8 c' sib k' ch' rest'
        ((s8.windows sib).height + (s8.windows w).height) hrep8
      have q2 := resize_frame_y E _ fuel s8 c' sib k' ch' rest'
        ((s8.windows sib).height + (s8.windows w).height) hrep8
      rw [h9] at q1 q2
      exact ⟨q1, q2.1⟩
    · rw [if_neg hv] at h9
      simp only [Res.ok.injEq, true_and] at h9
      subst h9
      exact ⟨sameContent_refl _, hrep8⟩
  have c4 : SameContent s9 s10 := by
    by_cases hv : (s9.windows P).hchild ≠ none
    · rw [if_pos hv] at h10
      have q1 := resize_content_x E _ fuel s9 c' sib k' ch' rest'
        ((s9.windows sib).width + (s9.windows w).width) c3.2
      rw [h10] at q1
      exact q1
    · rw [if_neg hv] at h10
      simp only [Res.ok.injEq, true_and] at h10
      subst h10
      exact sameContent_refl _
  have hg := delete_resize_grows E _ fuel s s8 s9 s10 c' w sib k' ch' rest' P hrep8 hsw hcore
    hw8 h9 h10
    (fun z hz => by
      have hzH : z ∈ (plug (f :: c0) (Shape.node w Kind.leaf Shape.nil rest)).handles := by
        rcases List.mem_cons.1 hz with h | h
        · rw [h]; exact hwH
        · exact hsibH z h
      obtain ⟨a, b⟩ := hpos z hzH
      constructor <;> omega)
    hwc (hinf (fun i => TileX s.windows i ∧ TileY s.windows i) htil) hnext
    (fun hv => by
      have hk := (rep_parent_kind s8 _ c' _ kP P hrep8 (hpc'.trans hp)).2.1 hv
      subst hk
      have := pair_le_parent_y s s.selected_screen f c0 w Kind.leaf Shape.nil rest P sib
        ((tiled_iff _ _).1 htil).2 (fun z hz => (hnn0 z hz).1) hp hsib
      omega)
    (fun hv => by
      have hk := (rep_parent_kind s9 _ c' _ kP P c3.2 (hpc'.trans hp)).1.1 hv
      subst hk
      have := pair_le_parent_x s s.selected_screen f c0 w Kind.leaf Shape.nil rest P sib
        ((tiled_iff _ _).1 htil).1 (fun z hz => (hnn0 z hz).2) hp hsib
      omega)
  have c5 := Res.sat_of_eq (collapse_content s10 P) hc
  have hcont : SameContent s3 s' :=
    sameContent_trans c1 (sameContent_trans c2 (sameContent_trans c3.1
      (sameContent_trans c4 c5)))
  obtain ⟨k1, k2, k3, k4, k5, k6, k7⟩ := hcont
  -- the geometry
  have hPH : P ∈ (plug (f :: c0) rest).handles :=
    mem_plug_ctx _ _ P (hpar_mem _ kP P hp)
  have hnw : ∀ z ∈ (plug (f :: c0) rest).handles, z ≠ w := fun z hz e =>
    not_mem_plug_rest s _ (f :: c0) w Kind.leaf Shape.nil rest hrep (e ▸ hz)
  have hG10 : ∀ z ∈ (plug (f :: c0) rest).handles,
      1 ≤ (s10.windows z).height ∧ 1 ≤ (s10.windows z).width := by
    intro z hz
    obtain ⟨a, b⟩ := hg z (hnw z hz)
    obtain ⟨a', b'⟩ := hpos z (mem_plug_rest _ _ _ _ _ z hz)
    constructor <;> omega
  obtain ⟨restP, cP, hab⟩ := above_of_hpar (f :: c0) kP P hp
  have hrepP : Rep s10 s.selected_screen
      (plug cP (Shape.node P kP (ctxChain (f :: c0) rest) restP)) := by
    have : plug (f :: c0) rest = plug cP (Shape.node P kP (ctxChain (f :: c0) rest) restP) := by
      rw [← plug_above, hab]; rfl
    rw [← this]
    exact r1
  have hcg := Res.sat_of_eq (collapse_geo s10 s.selected_screen P
    (rep_screen s10 _ _ P r1 hPH)
    (fun a ha => by
      obtain ⟨-, -, -, m4, m5⟩ := rep_links_mem s10 _ cP P kP _ restP hrepP
      refine rep_below_parent s10 _ cP P kP _ restP hrepP a ?_
      rcases ha with h | h
      · exact m4 a h
      · exact m5 a h)) hc
  obtain ⟨g1, g2⟩ := hcg
  refine ⟨⟨?_, ?_, branched_delete (f :: c0) w rest hbr, ?_, ?_, ?_⟩, ?_, ?_, ?_, ?_, ?_, ?_⟩
  · rw [k5, b6]; exact hwf'
  · intro z hz
    have hz' := handles_deleteShape _ _ z hz
    have hzw := hnw z hz'
    obtain ⟨d1, d2, d3, -⟩ := content_fields (k1 z)
    obtain ⟨e1, e2, e3⟩ := b1 z hzw
    refine shownAt_congr s s' z (d1.trans e1) (d2.trans e3) (d3.trans e2) (fun b => ?_)
      (hshown z (mem_plug_rest _ _ _ _ _ z hz'))
    rw [k3]; exact b3 b
  · intro z hz
    have hz' := handles_deleteShape _ _ z hz
    rcases g1 z with h | h
    · obtain ⟨a, b⟩ := geo_sizes h
      rw [a, b]; exact hG10 z hz'
    · obtain ⟨a, b⟩ := geo_sizes h
      rw [a, b]; exact hG10 P hPH
  · rw [k4, leaves_deleteShape _ _ hcomb]
    have := b4
    rw [hleaves] at this
    simp only [List.mem_append, List.mem_cons] at this ⊢
    rcases this with (h | h | h) | h
    · exact Or.inl (Or.inl h)
    · exact absurd h b5
    · exact Or.inl (Or.inr h)
    · exact Or.inr h
  · intro m hm
    rw [k5, b6, k2, b8] at hm
    show (s'.windows m).mini_p = true
    rw [(content_fields (k1 m)).2.2.2, b2]
    exact hmbw m hm
  · intro y
    rw [(content_fields (k1 y)).2.2.2, b2]
  · rw [k6, b7]
  · rw [k5, b6]
  · intro c
    rw [k2, b8]
  · intro r r' hr hr'
    have hr8 : (s10.screens s.selected_screen).root_window = some r := by
      rw [r1.1, head_plug, ← hr, hrep.1, head_plug]
      rfl
    have hrp : (s.windows r).parent = none := rep_root_parent s _ _ hrep r hr
    have hrp10 : (s10.windows r).parent = none := rep_root_parent s10 _ _ r1 r hr8
    rw [g2 r r' hr8 hrp10 hr']
    have hrw : r ≠ w := fun e => by rw [e, hwp] at hrp; cases hrp
    have hrs : r ≠ sib := fun e => by
      obtain ⟨-, -, -, -, hl, -, -⟩ := (rep_plug_node s10 _ c' sib k' ch' rest').1
        (hplug ▸ r1)
      have := hl.1
      simp only at this
      rw [← e, hrp10, hpc', hp] at this
      cases this
    have hrc : r ∉ ch'.handles := fun h =>
      rep_below_parent s10 _ c' sib k' ch' rest' (hplug ▸ r1) r h hrp10
    obtain ⟨a1, a2, a3⟩ := r4 r hrw hrs hrc
    obtain ⟨a4, a5⟩ := a3 (fun hn => by
      exfalso
      have hrh : rest.head = some r := by
        rw [← hn]; exact hlw.2.2.1.symm
      obtain ⟨j, hj, e1, -, e3⟩ := head_info rest (hpar (f :: c0)) (some w) r hrh
      have := (hrestl j hj).1
      rw [e1, e3, hp, hrp] at this
      cases this)
    unfold Window.geo
    rw [a1, a2, a4, a5]
  · intro z hz
    have hz' := handles_deleteShape _ _ z hz
    have r1' : Rep s10 s.selected_screen (plug c' (Shape.node sib k' ch' rest')) := hplug ▸ r1
    obtain ⟨-, hnd', -, -, -, -, -⟩ := (rep_plug_node s10 _ c' sib k' ch' rest').1 r1'
    have hPc : P ∈ ctxHandles c' := hpar_mem _ kP P (hpc'.trans hp)
    have hPs : P ≠ sib := fun e =>
      (List.nodup_append.1 hnd').2.2 hPc (by rw [e]; exact List.mem_cons_self _ _)
    have hPch : P ∉ ch'.handles := fun h =>
      (List.nodup_append.1 hnd').2.2 hPc (by simp [h])
    obtain ⟨p1, p2, -⟩ := r4 P (hnw P hPH) hPs hPch
    have hB10 : ∀ u ∈ (plug (f :: c0) rest).handles,
        (s10.windows u).height ≤ 32767 ∧ (s10.windows u).width ≤ 32767 := by
      intro u hu
      by_cases hu1 : u = sib ∨ u ∈ ch'.handles
      · have hus : u ∈ (Shape.node sib k' ch' rest').handles := by
          simp only [Shape.handles, List.mem_cons, List.mem_append]
          tauto
        have t10 : Tiled s10 (plug c' (Shape.node sib k' ch' rest')) := hplug ▸ ht10
        rw [tiled_iff] at t10
        have hy := below_parent_le_y s10 _ c' _ kP P r1' t10.2
          (fun v hv => (hG10 v (hplug ▸ hv)).1.trans' (by decide)) (hpc'.trans hp) hkl u hus
        have hx := below_parent_le_x s10 _ c' _ kP P r1' t10.1
          (fun v hv => (hG10 v (hplug ▸ hv)).2.trans' (by decide)) (hpc'.trans hp) hkl u hus
        constructor <;> omega
      · simp only [not_or] at hu1
        obtain ⟨q1, q2, -⟩ := r4 u (hnw u hu) hu1.1 hu1.2
        rw [q1, q2]
        exact hB u (mem_plug_rest _ _ _ _ _ u hu)
    rcases g1 z with h | h
    · obtain ⟨a, b⟩ := geo_sizes h
      rw [a, b]; exact hB10 z hz'
    · obtain ⟨a, b⟩ := geo_sizes h
      rw [a, b]; exact hB10 P hPH

theorem rotate_erase (L : List Win) (hnd : L.Nodup) (i : Nat) (pre suf : List Win) (w : Win)
    (h : L.rotate i = pre ++ w :: suf) : ∃ j, (L.erase w).rotate j = pre ++ suf := by
  rw [List.rotate_eq_drop_append_take_mod] at h
  have hL : L = L.take (i % L.length) ++ L.drop (i % L.length) :=
    (List.take_append_drop _ _).symm
  generalize L.take (i % L.length) = Tk at h hL
  generalize L.drop (i % L.length) = D at h hL
  subst hL
  rcases List.append_eq_append_iff.1 h with ⟨a, rfl, ha⟩ | ⟨c, rfl, hc⟩
  · subst ha
    have hwa : w ∉ a := by
      intro hw
      exact (List.nodup_append.1 hnd.of_append_left).2.2 hw (List.mem_cons_self _ _)
    refine ⟨(a ++ suf).length, ?_⟩
    have : ((a ++ w :: suf) ++ D).erase w = (a ++ suf) ++ D := by
      rw [List.append_assoc, List.erase_append_right _ hwa]
      simp
    rw [this, List.rotate_append_length_eq]
    simp
  · cases c with
    | nil =>
      simp only [List.nil_append] at hc
      subst hc
      refine ⟨suf.length, ?_⟩
      simp only [List.append_nil, List.cons_append, List.erase_cons_head]
      exact List.rotate_append_length_eq _ _
    | cons x c' =>
      simp only [List.cons_append, List.cons.injEq] at hc
      obtain ⟨rfl, rfl⟩ := hc
      have hw1 : w ∉ Tk := by
        intro hw
        exact (List.nodup_append.1 hnd).2.2 hw (by simp)
      have hw2 : w ∉ pre := by
        intro hw
        exact (List.nodup_append.1 hnd.of_append_right).2.2 hw (List.mem_cons_self _ _)
      refine ⟨Tk.length, ?_⟩
      have : (Tk ++ (pre ++ w :: c')).erase w = Tk ++ (pre ++ c') := by
        rw [List.erase_append_right _ hw1, List.erase_append_right _ hw2]
        simp
      rw [this, List.rotate_append_length_eq]
      simp

theorem window_loop_go_step (E : Ext) (type : LoopOp) (mini : Bool) (c : Scr) (f : Win)
    (F : Nat) (s s1 : State) (w : Win) (best : Option Win) (nxt : Win) (b : Option Win)
    (h : next_screen_window_loop s c (if mini = true then Mini.t else Mini.nil) F w
      = Walk.val nxt)
    (hr : (if MINI_WINDOW_P (s.windows w) = false ∨ (mini = true ∧ s.minibuf_level > 0) then
          window_loop_case E F type (some c) s w best
        else Res.ok (LoopStep.go best) s) = Res.ok (LoopStep.go b) s1) :
    window_loop_go E type mini (some c) f (F + 1) s w best =
      if nxt = f then Res.ok b s1 else window_loop_go E type mini (some c) f F s1 nxt b := by
  simp only [window_loop_go, next_screen_window, h, hr, Res.andThen]

theorem hpar_append_down (R : Win) (k : Kind) (mb : Shape) (c : Ctx) :
    ∃ kP P, hpar (c ++ [Frame.down R k mb]) = some (kP, P) := by
  induction c with
  | nil => exact ⟨k, R, rfl⟩
  | cons f c ih =>
    cases f with
    | right v kv chv => exact ih
    | down v kv restv => exact ⟨kv, v, rfl⟩

/-- One round of the loop of `delete-other-windows` that deletes the ordinary
leaf `w`, which is not the window `obj` to keep: `Fdelete_window` returns, and
the invariant holds for a tree with the leaves of the old one without `w`. -/
theorem pruning_step (E : Ext) (hE : ∀ s c, SameTree s (E.Fselect_screen s c))
    (s0 : State) (mb : Shape) (g : Int × Int × Int × Int) (obj : Win)
    (hobjm : (s0.windows obj).mini_p = false)
    (fuel : Nat) (s : State) (t : Shape) (w : Win)
    (hP : Pruning s0 mb g s t) (hobj : obj ∈ t.leaves) (hw : w ∈ t.leaves) (hwo : w ≠ obj)
    (hwm : (s0.windows w).mini_p = false) (hfuel : t.bound ≤ fuel) :
    ∃ s' t', Fdelete_window E (fuel + 1) s (some w) = Res.ok () s'
      ∧ Pruning s0 mb g s' t' ∧ t'.leaves = t.leaves.erase w ∧ t'.bound ≤ t.bound := by
  obtain ⟨hlive, ⟨R, k, ch, rfl, hg, hord⟩, hmbm, hmp, hlev, hscr, hmw, hB⟩ := hP
  have hrep : Rep s s.selected_screen (Shape.node R k ch mb) := hlive.1.1
  have hmbw := hlive.2.2.2.2.2
  have hsplit := leaves_node R k ch mb
  have hmbl : ∀ z ∈ mb.leaves, (s0.windows z).mini_p = true :=
    fun z hz => hmbm z (leaves_sub_handles _ z hz)
  have hO : ∀ z, z ∈ (Shape.node R k ch mb).leaves → (s0.windows z).mini_p = false →
      z ∈ (Shape.node R k ch Shape.nil).leaves := by
    intro z hz hzm
    rw [hsplit] at hz
    rcases List.mem_append.1 hz with h | h
    · exact h
    · rw [hmbl z h] at hzm; cases hzm
  have hwO := hO w hw hwm
  have hoO := hO obj hobj hobjm
  have hwch : w ∈ ch.leaves := by
    cases k with
    | leaf =>
      simp only [Shape.leaves, List.mem_singleton] at hwO hoO
      exact absurd (hwO.trans hoO.symm) hwo
    | hcomb => simpa [Shape.leaves] using hwO
    | vcomb => simpa [Shape.leaves] using hwO
  obtain ⟨c2, kw, chw, restw, hch⟩ := exists_plug_of_mem ch w (leaves_sub_handles _ w hwch)
  have ht : Shape.node R k ch mb
      = plug (c2 ++ [Frame.down R k mb]) (Shape.node w kw chw restw) := by
    rw [plug_append, ← hch]; rfl
  have hrep' := hrep
  rw [ht] at hrep'
  obtain ⟨-, hnd, -, hctx, hlw, -, -⟩ := (rep_plug_node s _ _ w kw chw restw).1 hrep'
  have hbuf := leaf_buffer s _ _ hrep w hw
  have hkw : kw = Kind.leaf ∧ chw = Shape.nil := by
    cases kw with
    | leaf => exact ⟨rfl, head_eq_none hlw.2.2.2.2.2.2.2⟩
    | hcomb => exact absurd hlw.2.2.2.2.2.2.2 hbuf
    | vcomb => exact absurd hlw.2.2.2.2.2.2.2 hbuf
  obtain ⟨rfl, rfl⟩ := hkw
  obtain ⟨kP, P, hp⟩ := hpar_append_down R k mb c2
  obtain ⟨f, c0, hfc⟩ : ∃ f c0, c2 ++ [Frame.down R k mb] = f :: c0 := by
    cases c2 with
    | nil => exact ⟨_, _, rfl⟩
    | cons a l => exact ⟨_, _, rfl⟩
  have hRroot : (s.screens s.selected_screen).root_window = some R := hrep.1
  have hRm : (s0.windows R).mini_p = false := hord R (by simp [Shape.handles])
  have hroot : (s.screens s.selected_screen).root_window
      ≠ (s.screens s.selected_screen).minibuffer_window := by
    intro e
    have := hmbw R (by rw [← e, hRroot])
    have h2 : (s.windows R).mini_p = true := this
    rw [hmp, hRm] at h2
    cases h2
  have hcomb : ctxComb (c2 ++ [Frame.down R k mb]) :=
    ctxComb_of_links _ s.windows _ (some w) (by simp) hctx
  have hndl := leaves_nodup _ hrep.2.1
  have hleaves : (Shape.node R k ch mb).leaves
      = ctxLeft (c2 ++ [Frame.down R k mb]) ++ (w :: restw.leaves)
        ++ ctxRight (c2 ++ [Frame.down R k mb]) := by
    rw [ht, leaves_plug _ _ hcomb]; rfl
  have hlive2 := hlive
  rw [ht] at hlive2 hobj hfuel hB
  rw [hfc] at hlive2 hobj hfuel hp hB
  obtain ⟨s', hs', hlive', hmp', hlev', hscr', hmw', hgeo, hB'⟩ :=
    delete_leaf_step E hE fuel s f c0 w restw kP P obj hlive2 hp hobj (Ne.symm hwo)
      (by show (s.windows obj).mini_p = false; rw [hmp, hobjm]) hroot hfuel hB
  rw [← hfc] at hlive' hB'
  obtain ⟨R', k', ch', ht'⟩ := deleteShape_root R k mb c2 restw
  have hrep1 : Rep s' s'.selected_screen (deleteShape (c2 ++ [Frame.down R k mb]) restw) :=
    hlive'.1.1
  have hsub : ∀ z ∈ (deleteShape (c2 ++ [Frame.down R k mb]) restw).handles,
      z ∈ (Shape.node R k ch mb).handles := by
    intro z hz
    rw [ht]
    exact mem_plug_rest _ w Kind.leaf Shape.nil restw z (handles_deleteShape _ _ z hz)
  refine ⟨s', deleteShape (c2 ++ [Frame.down R k mb]) restw, hs',
    ⟨hlive', ⟨R', k', ch', ht', ?_, ?_⟩, hmbm, fun y => (hmp' y).trans (hmp y),
      hlev'.trans hlev, hscr'.trans hscr, fun c => (hmw' c).trans (hmw c), hB'⟩, ?_, ?_⟩
  · rw [← hg]
    refine hgeo R R' hRroot ?_
    have := hrep1.1
    rw [hscr', ht'] at this
    exact this
  · intro z hz
    have hnd1 := hrep1.2.1
    rw [ht'] at hnd1 hsub
    have hz1 : z ∈ (Shape.node R' k' ch' mb).handles := by
      simp only [Shape.handles, List.mem_cons, List.mem_append, List.append_nil] at hz ⊢
      tauto
    have hz2 := hsub z hz1
    have hzmb : z ∉ mb.handles := by
      intro hzm
      simp only [Shape.handles, List.nodup_cons, List.mem_append, List.nodup_append,
        List.mem_cons, List.append_nil, not_or] at hnd1 hz
      rcases hz with rfl | hz
      · exact hnd1.1.2 hzm
      · exact hnd1.2.2.2 hz hzm
    refine hord z ?_
    simp only [Shape.handles, List.mem_cons, List.mem_append, List.append_nil] at hz2 ⊢
    tauto
  · rw [leaves_deleteShape _ _ hcomb, hleaves]
    have hwl : w ∉ ctxLeft (c2 ++ [Frame.down R k mb]) := by
      intro hwl
      rw [hleaves, List.append_assoc] at hndl
      exact (List.nodup_append.1 hndl).2.2 hwl (by simp)
    rw [List.append_assoc, List.append_assoc, List.erase_append_right _ hwl]
    simp
  · rw [bound_eq, bound_eq]
    have := (List.subperm_of_subset hrep1.2.1 hsub).length_le
    omega

theorem pruning_mini_ok (s0 : State) (mb : Shape) (g : Int × Int × Int × Int) (s : State)
    (t : Shape) (hP : Pruning s0 mb g s t) (m : Mini) (y : Win) :
    mini_ok s m y = mini_ok s0 m y := by
  obtain ⟨-, -, -, hmp, hlev, -, -, -⟩ := hP
  unfold mini_ok MINI_WINDOW_P
  rw [hmp, hlev]

/-- The body of the loop of `delete-other-windows` at the window `w`: it
returns, and the invariant holds afterwards with `w` among the windows dealt
with when it is `obj` or a minibuffer window, and without `w` otherwise. -/
theorem pruning_round (E : Ext) (hE : ∀ s c, SameTree s (E.Fselect_screen s c))
    (s0 : State) (mb : Shape) (g : Int × Int × Int × Int) (obj : Win)
    (hobjm : (s0.windows obj).mini_p = false)
    (suf pre : List Win) (w : Win) (s : State) (t : Shape) (i : Nat) (F : Nat)
    (hP : Pruning s0 mb g s t)
    (hR : t.leaves.rotate i = pre ++ w :: suf)
    (hhead : (pre ++ [w]).head? = some obj)
    (hpre : ∀ y ∈ pre, y = obj ∨ (s0.windows y).mini_p = true)
    (hfuel : t.bound ≤ F) :
    ∃ s1 t1 pre1 i1,
      (if MINI_WINDOW_P (s.windows w) = false ∨ (false = true ∧ s.minibuf_level > 0) then
          window_loop_case E (F + 1) (LoopOp.DELETE_OTHER_WINDOWS obj)
            (some s0.selected_screen) s w none
        else Res.ok (LoopStep.go none) s) = Res.ok (LoopStep.go none) s1
      ∧ Pruning s0 mb g s1 t1 ∧ t1.leaves.rotate i1 = pre1 ++ suf
      ∧ pre1.head? = some obj ∧ (∀ y ∈ pre1, y = obj ∨ (s0.windows y).mini_p = true)
      ∧ t1.bound ≤ t.bound := by
  have hmp := hP.2.2.2.1
  have hkeep : ∀ y ∈ pre ++ [w], (w = obj ∨ (s0.windows w).mini_p = true) →
      y = obj ∨ (s0.windows y).mini_p = true := by
    intro y hy hw
    rcases List.mem_append.1 hy with h | h
    · exact hpre y h
    · rw [List.mem_singleton] at h; subst h; exact hw
  by_cases hm : (s.windows w).mini_p = true
  · refine ⟨s, t, pre ++ [w], i, ?_, hP, by simpa using hR, hhead,
      fun y hy => hkeep y hy (Or.inr ((hmp w).symm.trans hm)), le_refl _⟩
    simp [MINI_WINDOW_P, hm]
  · have hm' : (s.windows w).mini_p = false := by simpa using hm
    by_cases hwo : w = obj
    · refine ⟨s, t, pre ++ [w], i, ?_, hP, by simpa using hR, hhead,
        fun y hy => hkeep y hy (Or.inl hwo), le_refl _⟩
      simp [MINI_WINDOW_P, hm', window_loop_case, hwo]
    · have hnd : t.leaves.Nodup := leaves_nodup _ hP.1.1.1.2.1
      have hmemR : ∀ y, y ∈ pre ++ w :: suf → y ∈ t.leaves := by
        intro y hy
        rw [← hR] at hy
        exact List.mem_rotate.1 hy
      have hpre1 : pre.head? = some obj := by
        cases pre with
        | nil =>
          simp only [List.nil_append, List.head?_cons, Option.some.injEq] at hhead
          exact absurd hhead hwo
        | cons a l => simpa using hhead
      have hobj : obj ∈ t.leaves := by
        refine hmemR obj ?_
        cases pre with
        | nil => simp at hpre1
        | cons a l =>
          simp only [List.head?_cons, Option.some.injEq] at hpre1
          subst hpre1
          simp
      obtain ⟨s', t', hs', hP', hl', hb'⟩ :=
        pruning_step E hE s0 mb g obj hobjm F s t w hP hobj (hmemR w (by simp)) hwo
          ((hmp w).symm.trans hm') hfuel
      obtain ⟨j, hj⟩ := rotate_erase t.leaves hnd i pre suf w hR
      refine ⟨s', t', pre, j, ?_, hP', by rw [hl']; exact hj, hpre1, hpre, hb'⟩
      simp [MINI_WINDOW_P, hm', window_loop_case, hwo, hs', Res.andThen]

/-- The loop of `delete-other-windows` from the window `w` on, the leaves
`pre` being dealt with and the leaves `suf` to come: it returns, the invariant
holds at the end, and every leaf of the tree at the end is `obj` or a
minibuffer window. -/
theorem pruning_loop (E : Ext) (hE : ∀ s c, SameTree s (E.Fselect_screen s c))
    (s0 : State) (mb : Shape) (g : Int × Int × Int × Int) (obj : Win)
    (hobjm : (s0.windows obj).mini_p = false) :
    ∀ (n : Nat) (suf pre : List Win) (w : Win) (s : State) (t : Shape) (i : Nat) (fuel : Nat),
      suf.length < n →
      Pruning s0 mb g s t →
      t.leaves.rotate i = pre ++ w :: suf →
      (pre ++ [w]).head? = some obj →
      (∀ y ∈ pre, y = obj ∨ (s0.windows y).mini_p = true) →
      mini_ok s0 Mini.nil w = true →
      t.bound + suf.length + 3 ≤ fuel →
      ∃ s' t', window_loop_go E (LoopOp.DELETE_OTHER_WINDOWS obj) false
          (some s0.selected_screen) obj fuel s w none = Res.ok none s'
        ∧ Pruning s0 mb g s' t' ∧ obj ∈ t'.leaves
        ∧ ∀ y ∈ t'.leaves, y = obj ∨ (s0.windows y).mini_p = true := by
  intro n
  induction n with
  | zero => intro suf pre w s t i fuel h; omega
  | succ n ih =>
    intro suf pre w s t i fuel hn hP hR hhead hpre hw hfuel
    obtain ⟨F, rfl⟩ : ∃ F, fuel = F + 2 := ⟨fuel - 2, by omega⟩
    have hrep : Rep s s0.selected_screen t := by
      have := hP.1.1.1
      rw [hP.2.2.2.2.2.1] at this
      exact this
    have hnd : (t.leaves.rotate i).Nodup := List.nodup_rotate.2 (leaves_nodup _ hrep.2.1)
    obtain ⟨X, hX⟩ : ∃ X, pre ++ [w] = obj :: X := by
      cases hpw : pre ++ [w] with
      | nil => simp at hpw
      | cons a l =>
        rw [hpw] at hhead
        simp only [List.head?_cons, Option.some.injEq] at hhead
        exact ⟨l, by rw [hhead]⟩
    have hRX : t.leaves.rotate i = obj :: (X ++ suf) := by
      rw [hR, ← List.cons_append, ← hX]; simp
    have hobjok : mini_ok s Mini.nil obj = true := by
      rw [mini_ok_nil]
      left
      show (s.windows obj).mini_p = false
      rw [hP.2.2.2.1, hobjm]
    obtain ⟨s1, t1, pre1, i1, hbody, hP1, hR1, hhead1, hpre1, hb1⟩ :=
      pruning_round E hE s0 mb g obj hobjm suf pre w s t i F hP hR hhead hpre (by omega)
    have hhl : t.handles.length < t.bound := by rw [bound_eq]; omega
    have hmini : ∀ y, mini_ok s Mini.nil y = false → (s0.windows y).mini_p = true := by
      intro y hy
      by_contra hc
      have : mini_ok s Mini.nil y = true := by
        rw [mini_ok_nil]
        left
        show (s.windows y).mini_p = false
        rw [hP.2.2.2.1]
        simpa using hc
      rw [this] at hy
      cases hy
    rcases exists_first (mini_ok s Mini.nil) suf with hall | ⟨mid, l, post, hsuf, hmid, hl⟩
    · have hnext : next_screen_window_loop s s0.selected_screen Mini.nil (F + 1) w
          = Walk.val obj := by
        refine next_screen_window_loop_skip s _ Mini.nil t hrep i obj (X ++ suf) hobjok
          suf pre w (F + 1) ?_ hall (by omega)
        rw [hRX]
        rw [hRX] at hR
        rw [hR]
        simp
      rw [window_loop_go_step E _ false _ obj (F + 1) s s1 w none obj none hnext hbody]
      refine ⟨s1, t1, by simp, hP1, ?_, ?_⟩
      · refine List.mem_rotate.1 (?_ : obj ∈ t1.leaves.rotate i1)
        rw [hR1]
        cases pre1 with
        | nil => simp at hhead1
        | cons a l =>
          simp only [List.head?_cons, Option.some.injEq] at hhead1
          subst hhead1
          simp
      · intro y hy
        have : y ∈ t1.leaves.rotate i1 := List.mem_rotate.2 hy
        rw [hR1] at this
        rcases List.mem_append.1 this with h | h
        · exact hpre1 y h
        · exact Or.inr (hmini y (hall y h))
    · subst hsuf
      have hnext : next_screen_window_loop s s0.selected_screen Mini.nil (F + 1) w
          = Walk.val l := by
        refine next_screen_window_loop_skip s _ Mini.nil t hrep i l
          (post ++ t.leaves.rotate i) hl mid pre w (F + 1) ?_ hmid ?_
        · conv_lhs => rw [hR]
          simp only [List.append_assoc, List.cons_append, List.append_cancel_left_eq,
            List.cons.injEq, true_and]
          exact hR.symm
        · simp only [List.length_append, List.length_cons] at hfuel
          omega
      have hlo : l ≠ obj := by
        intro e
        rw [hRX] at hnd
        have := (List.nodup_cons.1 hnd).1
        apply this
        rw [← e]
        simp
      rw [window_loop_go_step E _ false _ obj (F + 1) s s1 w none l none hnext hbody,
        if_neg hlo]
      simp only [List.length_append, List.length_cons] at hfuel hn
      refine ih post (pre1 ++ mid) l s1 t1 i1 (F + 1) (by omega) hP1 ?_ ?_ ?_ ?_ (by omega)
      · rw [hR1]; simp
      · cases pre1 with
        | nil => simp at hhead1
        | cons a l' => simpa using hhead1
      · intro y hy
        rcases List.mem_append.1 hy with h | h
        · exact hpre1 y h
        · exact Or.inr (hmini y (hmid y h))
      · rw [← pruning_mini_ok s0 mb g s t hP]
        exact hl

/-- A state with the window trees of a state with a well-formed tree has a
well-formed tree. -/
theorem wf_of_sameTree (s s' : State) (scr : Scr) (t : Shape) (h : SameTree s s')
    (hwf : WF s scr t) : WF s' scr t := by
  obtain ⟨hn, hr, hc⟩ := h
  refine ⟨rep_of_links s s' scr t hwf.1 hn (hr scr) (fun z _ => links_of_core (hc z)),
    fun i hi => ⟨?_, ?_⟩⟩
  · refine tileX_same t none none s.windows s'.windows (fun z _ => ?_) (by simp) (by simp)
      i hi (hwf.2 i hi).1
    have := core_geometry (hc z)
    exact ⟨this.1, this.2.2.1⟩
  · refine tileY_same t none none s.windows s'.windows (fun z _ => ?_) (by simp) (by simp)
      i hi (hwf.2 i hi).2
    have := core_geometry (hc z)
    exact ⟨this.2.1, this.2.2.2⟩

theorem window_internal_height_val (E : Ext) (s : State) (w : Win) (c : Scr)
    (h : (s.windows w).screen = some c) : ∃ ht, window_internal_height E s w = Walk.val ht := by
  unfold window_internal_height
  simp only [h]
  split_ifs <;> exact ⟨_, rfl⟩

/-- `Frecenter` with a number returns when the selected window is a window of
a screen that shows a buffer and has a marker for its start; it leaves the
window trees as they are. -/
theorem Frecenter_ok (E : Ext) (s : State) (n : Int) (c : Scr) (st : Marker) (b : Buf)
    (hscr : (s.windows s.selected_window).screen = some c)
    (hst : (s.windows s.selected_window).start = some st)
    (hb : (s.windows s.selected_window).buffer = BufSlot.buf b) :
    ∃ s', Frecenter E s n = Res.ok () s' ∧ SameTree s s' ∧ s'.screens = s.screens := by
  obtain ⟨ht, hht⟩ := window_internal_height_val E s s.selected_window c hscr
  unfold Frecenter
  simp only [hht]
  have hw1 : ∀ bf, (setb s s.current_buffer bf).windows = s.windows := fun _ => rfl
  simp only [hw1, hst, hb]
  split_ifs
  all_goals
    simp only [Res.andThen]
    refine ⟨_, rfl, ?_, rfl⟩
    refine ⟨rfl, fun _ => rfl, fun x => ?_⟩
    by_cases hx : x = s.selected_window
    · subst hx
      simp [setw, setb, Window.core]
      exact hb.symm
    · simp [setw, setb, hx]

theorem eq_singleton_of_all (L : List Win) (x : Win) (hnd : L.Nodup) (hx : x ∈ L)
    (hall : ∀ y ∈ L, y = x) : L = [x] := by
  cases L with
  | nil => simp at hx
  | cons a l =>
    have ha := hall a (by simp)
    subst ha
    cases l with
    | nil => rfl
    | cons b l' =>
      have hb := hall b (by simp)
      subst hb
      simp at hnd

/-- The part of `Fdelete_other_windows` after the loop: in a state in which
the window `obj` and the selected window are leaves that show live buffers it
returns, and it leaves the window trees, the screens and the flags of the
windows as they are. -/
theorem delete_other_tail (E : Ext) (s1 : State) (obj : Win) (top : Int) (obuf : Buf)
    (opoint : Int) (c : Scr)
    (ho : ShownAt s1 obj) (hob : (s1.windows obj).buffer ≠ BufSlot.nil)
    (hs : ShownAt s1 s1.selected_window)
    (hsb : (s1.windows s1.selected_window).buffer ≠ BufSlot.nil)
    (hscr : (s1.windows s1.selected_window).screen = some c) :
    ∃ s', ((Fset_buffer s1 (s1.windows obj).buffer).andThen fun _ s2 =>
        match (s2.windows obj).start with
        | none => Res.fault
        | some st =>
          if st.buffer = none then Res.signal Err.marker_nowhere s2
          else
            let s3 := setb s2 s2.current_buffer
              { s2.buffers s2.current_buffer with pt := st.charpos }
            (Frecenter E s3 top).andThen fun _ s4 =>
              let s5 := { s4 with current_buffer := obuf }
              Res.ok () (setb s5 obuf { s5.buffers obuf with pt := opoint })) = Res.ok () s'
      ∧ SameTree s1 s' ∧ s'.screens = s1.screens := by
  obtain ⟨b, pm, st, e1, -, e3, e4, -, e6⟩ := shownAt_buf ho hob
  obtain ⟨b', pm', st', f1, -, f3, -, -, -⟩ := shownAt_buf hs hsb
  simp only [e1, Fset_buffer, e4, Res.andThen, Bool.true_eq_false, if_false]
  simp only [e3, e6]
  generalize hX : setb _ b _ = X
  have hXw : X.windows = s1.windows := by rw [← hX]; rfl
  have hXs : X.selected_window = s1.selected_window := by rw [← hX]; rfl
  have hXn : X.nalloc = s1.nalloc := by rw [← hX]; rfl
  have hXc : X.screens = s1.screens := by rw [← hX]; rfl
  obtain ⟨s4, h4, ht4, hs4⟩ := Frecenter_ok E X top c st' b'
    (by rw [hXw, hXs]; exact hscr) (by rw [hXw, hXs]; exact f3) (by rw [hXw, hXs]; exact f1)
  rw [h4]
  refine ⟨_, rfl, ⟨ht4.1.trans hXn, fun d => ?_, fun x => ?_⟩, hs4.trans hXc⟩
  · exact (ht4.2.1 d).trans (by rw [hXc])
  · exact (ht4.2.2 x).trans (by rw [hXw])

/-- C31, amended: `Fdelete_other_windows (obj)` for an ordinary leaf `obj` of
the tree of the selected screen, a well-formed, exactly tiled tree in which
every combination has two children or more, every leaf shows a live buffer
and every window has a height and a width of 1 or more and of 32767 at most,
whose root `R` is followed by the chain `mb` of the minibuffer windows, when
selecting a screen leaves the window tree alone: with enough fuel the
call returns, and afterwards the tree of the screen is the leaf `obj` followed
by `mb` and is well-formed and exactly tiled, the root window of the screen is
`obj`, `obj` has no parent, `obj` has the left, top, width and height that
`R` had, the next window of `obj` is the head of `mb`, the minibuffer window
of the screen is the one it was, and every window reachable from the root
window is `obj` or a minibuffer window. -/
theorem Fdelete_other_windows_fills (E : Ext)
    (hE : ∀ s c, SameTree s (E.Fselect_screen s c))
    (fuel : Nat) (s : State) (R : Win) (k : Kind) (ch mb : Shape) (obj : Win)
    (hlive : Live s (Shape.node R k ch mb))
    (hord : ∀ z ∈ (Shape.node R k ch Shape.nil).handles, MINI_WINDOW_P (s.windows z) = false)
    (hmbm : ∀ z ∈ mb.handles, MINI_WINDOW_P (s.windows z) = true)
    (hobj : obj ∈ (Shape.node R k ch Shape.nil).leaves)
    (hfuel : (Shape.node R k ch mb).bound + (Shape.node R k ch mb).leaves.length + 3 ≤ fuel)
    (hB : ∀ z ∈ (Shape.node R k ch mb).handles,
      (s.windows z).height ≤ 32767 ∧ (s.windows z).width ≤ 32767) :
    ∃ s', Fdelete_other_windows E fuel s (some obj) = Res.ok () s'
      ∧ WF s' s.selected_screen (Shape.node obj Kind.leaf Shape.nil mb)
      ∧ (s'.screens s.selected_screen).root_window = some obj
      ∧ (s'.windows obj).parent = none
      ∧ (s'.windows obj).left = (s.windows R).left ∧ (s'.windows obj).top = (s.windows R).top
      ∧ (s'.windows obj).width = (s.windows R).width
      ∧ (s'.windows obj).height = (s.windows R).height
      ∧ (s'.windows obj).next = mb.head
      ∧ (s'.screens s.selected_screen).minibuffer_window
          = (s.screens s.selected_screen).minibuffer_window
      ∧ ∀ x, Reach s' s.selected_screen x → x = obj ∨ MINI_WINDOW_P (s'.windows x) = true := by
  have hrep : Rep s s.selected_screen (Shape.node R k ch mb) := hlive.1.1
  have hsplit := leaves_node R k ch mb
  have hobjt : obj ∈ (Shape.node R k ch mb).leaves := by
    rw [hsplit]; exact List.mem_append_left _ hobj
  have hobjm : (s.windows obj).mini_p = false := hord obj (leaves_sub_handles _ obj hobj)
  have hscreen : (s.windows obj).screen = some s.selected_screen :=
    rep_screen s _ _ obj hrep (leaves_sub_handles _ obj hobjt)
  obtain ⟨i0, rest, -, hR⟩ := rotate_of_mem _ obj hobjt
  have hlen : rest.length + 1 = (Shape.node R k ch mb).leaves.length := by
    have := congrArg List.length hR
    simp only [List.length_rotate, List.length_cons] at this
    omega
  have hP : Pruning s mb (s.windows R).geo s (Shape.node R k ch mb) :=
    ⟨hlive, ⟨R, k, ch, rfl, rfl, hord⟩, hmbm, fun _ => rfl, rfl, rfl, fun _ => rfl, hB⟩
  obtain ⟨sL, tL, hloop, hPL, hobjL, hall⟩ :=
    pruning_loop E hE s mb (s.windows R).geo obj hobjm (rest.length + 1) rest [] obj s _ i0
      fuel (by omega) hP (by simpa using hR) (by simp) (by simp)
      (by rw [mini_ok_nil]; exact Or.inl hobjm) (by omega)
  obtain ⟨hliveL, ⟨R', k', ch', rfl, hgL, hordL⟩, -, hmpL, hlevL, hscrL, hmwL, -⟩ := hPL
  have hsplitL := leaves_node R' k' ch' mb
  have hndL : (Shape.node R' k' ch' mb).leaves.Nodup := leaves_nodup _ hliveL.1.1.2.1
  have hone : (Shape.node R' k' ch' Shape.nil).leaves = [obj] := by
    refine eq_singleton_of_all _ obj ?_ ?_ ?_
    · rw [hsplitL] at hndL; exact hndL.of_append_left
    · rw [hsplitL] at hobjL
      rcases List.mem_append.1 hobjL with h | h
      · exact h
      · have := hmbm obj (leaves_sub_handles _ obj h)
        have h2 : (s.windows obj).mini_p = true := this
        rw [hobjm] at h2
        cases h2
    · intro y hy
      rcases hall y (by rw [hsplitL]; exact List.mem_append_left _ hy) with h | h
      · exact h
      · rw [hordL y (leaves_sub_handles _ y hy)] at h
        cases h
  have hbrL : (Shape.node R' k' ch' Shape.nil).branched = true := by
    have := (branched_node R' k' ch' mb).1 hliveL.2.2.1
    exact (branched_node R' k' ch' Shape.nil).2 ⟨this.1, this.2.1, this.2.2.1, rfl⟩
  obtain ⟨rfl, rfl, rfl⟩ := single_leaf_root R' k' ch' obj hbrL hone
  obtain ⟨⟨hrepL, htilL⟩, hshownL, -, -, hselL, -⟩ := hliveL
  rw [hscrL] at hrepL
  have hobjH : R' ∈ (Shape.node R' Kind.leaf Shape.nil mb).handles := by simp [Shape.handles]
  obtain ⟨sF, htail, hST, hSc⟩ := delete_other_tail E sL R' (s.windows R').top
    s.current_buffer (s.buffers s.current_buffer).pt s.selected_screen
    (hshownL R' hobjH) (leaf_buffer sL _ _ hrepL R' hobjL)
    (hshownL _ (leaves_sub_handles _ _ hselL)) (leaf_buffer sL _ _ hrepL _ hselL)
    (rep_screen sL _ _ _ hrepL (leaves_sub_handles _ _ hselL))
  have hwfF := wf_of_sameTree sL sF s.selected_screen _ hST ⟨hrepL, htilL⟩
  have hrootF : (sF.screens s.selected_screen).root_window = some R' := hwfF.1.1
  have hgeo := core_geometry (hST.2.2 R')
  have hg4 := hgL
  unfold Window.geo at hg4
  simp only [Prod.mk.injEq] at hg4
  obtain ⟨-, -, -, -, hlw, -, -⟩ :=
    (rep_plug_node sF s.selected_screen [] R' Kind.leaf Shape.nil mb).1 hwfF.1
  refine ⟨sF, ?_, hwfF, hrootF, rep_root_parent sF _ _ hwfF.1 R' hrootF,
    hgeo.1.trans hg4.1, hgeo.2.1.trans hg4.2.1, hgeo.2.2.1.trans hg4.2.2.1,
    hgeo.2.2.2.trans hg4.2.2.2, hlw.2.2.1, ?_, ?_⟩
  · unfold Fdelete_other_windows window_loop
    simp only [Option.getD_some, hscreen, hloop, Res.andThen]
    exact htail
  · rw [hSc]; exact hmwL _
  · intro x hx
    have hxm := reach_mem sF _ _ hwfF.1 x hx
    simp only [Shape.handles, List.mem_cons, List.mem_append, List.not_mem_nil,
      false_or] at hxm
    rcases hxm with rfl | hxm
    · exact Or.inl rfl
    · right
      have h1 : (sF.windows x).mini_p = (sL.windows x).mini_p :=
        ((core_eq_iff _ _).1 (hST.2.2 x)).2.2.2.2.1
      show (sF.windows x).mini_p = true
      rw [h1, hmpL]
      exact hmbm x hxm

/-- The tree of `state6` is in order for `Fdelete_other_windows`. -/
theorem state6_live : Live state6 shape6 :=
  ⟨by decide!, by decide!, by decide!, by decide!, by decide!, fun m hm => by
    have : m = 1 := by
      have h1 : (state6.screens state6.selected_screen).minibuffer_window = some 1 := rfl
      rw [h1] at hm
      exact (Option.some.inj hm).symm
    subst this
    rfl⟩

/-- Witness of `Fdelete_other_windows_fills`: the leaf 5 of `state6`, which
takes the place of the root window 2 in front of the minibuffer window 1. -/
theorem Fdelete_other_windows_fills_witness :
    Live state6 (Shape.node 2 Kind.vcomb chain43 chain1)
      ∧ (∀ z ∈ (Shape.node 2 Kind.vcomb chain43 Shape.nil).handles,
          MINI_WINDOW_P (state6.windows z) = false)
      ∧ (∀ z ∈ chain1.handles, MINI_WINDOW_P (state6.windows z) = true)
      ∧ 5 ∈ (Shape.node 2 Kind.vcomb chain43 Shape.nil).leaves
      ∧ (∀ z ∈ (Shape.node 2 Kind.vcomb chain43 chain1).handles,
          (state6.windows z).height ≤ 32767 ∧ (state6.windows z).width ≤ 32767)
      ∧ ∃ s', Fdelete_other_windows ext1 26 state6 (some 5) = Res.ok () s'
        ∧ WF s' 0 (Shape.node 5 Kind.leaf Shape.nil chain1)
        ∧ (s'.screens 0).root_window = some 5
        ∧ (s'.windows 5).parent = none
        ∧ (s'.windows 5).left = 0 ∧ (s'.windows 5).top = 0
        ∧ (s'.windows 5).width = 80
        ∧ (s'.windows 5).height = 23
        ∧ (s'.windows 5).next = some 1
        ∧ (s'.screens 0).minibuffer_window = some 1
        ∧ ∀ x, Reach s' 0 x → x = 5 ∨ MINI_WINDOW_P (s'.windows x) = true :=
  ⟨state6_live, by decide!, by decide!, by decide!, by decide!,
    Fdelete_other_windows_fills ext1 (fun s _ => SameTree.refl s) 26 state6 2 Kind.vcomb
      chain43 chain1 5 state6_live (by decide!) (by decide!) (by decide!) (by decide!)
      (by decide!)⟩

/-- The tree of `state12` is in order for `Fdelete_other_windows`. -/
theorem state12_live : Live state12 (Shape.node 2 Kind.vcomb chain12 chain1) :=
  ⟨by decide!, by decide!, by decide!, by decide!, by decide!, fun m hm => by
    have : m = 1 := by
      have h1 : (state12.screens state12.selected_screen).minibuffer_window = some 1 := rfl
      rw [h1] at hm
      exact (Option.some.inj hm).symm
    subst this
    rfl⟩

/-- Counterexample to C31 as stated for every size: the tree of `state12` is
in order, with two children or more in every combination and no size below 1,
and the leaf 3 is an ordinary leaf.  `Fdelete_other_windows (3)` deletes the
leaf 0 first, which gives its 98304 lines to the horizontal combination 4.  In
the resize of the vertical combination 5 from 32768 to 131072 lines the
products `opos * height` are 2^31 and 2^32, which overflow an `int`: both
positions are 0, and the windows 6 and 7 and the windows below 7 get the
height 0.  The deletion of the leaf 6 then resizes the vertical combination 8,
whose old height is 0 now, and divides by zero. -/
theorem Fdelete_other_windows_divides_by_zero :
    Live state12 (Shape.node 2 Kind.vcomb chain12 chain1)
      ∧ (∀ z ∈ (Shape.node 2 Kind.vcomb chain12 Shape.nil).handles,
          MINI_WINDOW_P (state12.windows z) = false)
      ∧ (∀ z ∈ chain1.handles, MINI_WINDOW_P (state12.windows z) = true)
      ∧ 3 ∈ (Shape.node 2 Kind.vcomb chain12 Shape.nil).leaves
      ∧ (Shape.node 2 Kind.vcomb chain12 chain1).bound
          + (Shape.node 2 Kind.vcomb chain12 chain1).leaves.length + 3 ≤ 60
      ∧ (Fdelete_window ext1 60 state12 (some 0)).Holds (fun _ s' =>
          (s'.windows 5).height = 131072 ∧ (s'.windows 6).height = 0
            ∧ (s'.windows 7).height = 0 ∧ (s'.windows 8).height = 0)
      ∧ (Fdelete_other_windows ext1 60 state12 (some 3)).isFault = true :=
  ⟨state12_live, by decide!, by decide!, by decide!, by decide!, by decide!, by decide!⟩

end WinTree
